import Mathlib

namespace BT

/-- A node of the B-tree of `b_tree.c`: the key count `n`, the `leaf` flag, the key
array (`2*t - 1` slots) and the array of child pointers (`2*t` slots, `none` is `NULL`).
Slots at or beyond the live prefix keep whatever was last written to them. -/
inductive BTreeNode where
  | mk (n : Nat) (leaf : Bool) (keys : List Int) (children : List (Option BTreeNode))

namespace BTreeNode

/-- Field `n`. -/
def n : BTreeNode → Nat
  | mk n _ _ _ => n

/-- Field `leaf`. -/
def leaf : BTreeNode → Bool
  | mk _ l _ _ => l

/-- Field `keys`. -/
def keys : BTreeNode → List Int
  | mk _ _ ks _ => ks

/-- Field `children`. -/
def children : BTreeNode → List (Option BTreeNode)
  | mk _ _ _ cs => cs

/-- The node with its child array replaced. -/
def setChildren (nd : BTreeNode) (cs : List (Option BTreeNode)) : BTreeNode :=
  mk nd.n nd.leaf nd.keys cs

end BTreeNode

mutual
/-- Number of levels below and including a node, over all child slots. It bounds the
depth of every recursion of the program on the node. -/
def BTreeNode.depth : BTreeNode → Nat
  | .mk _ _ _ cs => depthList cs + 1
/-- Largest depth among a list of child slots. -/
def depthList : List (Option BTreeNode) → Nat
  | [] => 0
  | c :: cs => max (depthOpt c) (depthList cs)
/-- Depth of a possibly `NULL` node pointer. -/
def depthOpt : Option BTreeNode → Nat
  | none => 0
  | some nd => nd.depth
end

/-- The `BTree` struct: root pointer and minimum degree. -/
structure BTree where
  root : Option BTreeNode
  t : Nat

/-- Lines the program prints on the paths modelled here. -/
inductive Msg where
  | keyNotFound (key : Int)
  | treeEmpty
  deriving DecidableEq, Repr

/-- Write `v` to slot `i` of an array; `none` when `i` is outside the array. -/
def store {α : Type} (a : List α) (i : Nat) (v : α) : Option (List α) :=
  if i < a.length then some (a.set i v) else none

/-- Dereference `node->children[i]`: `none` when the slot is outside the array or `NULL`. -/
def childAt (nd : BTreeNode) (i : Nat) : Option BTreeNode :=
  (nd.children[i]?).join

/-- The loop `for (j = 0; j < cnt; j++) dst[j + d] = src[j + s];`. The first numeric
argument counts the iterations left, the second is `j`. -/
def copyLoop {α : Type} (src : List α) (s d : Nat) : Nat → Nat → List α → Option (List α)
  | 0, _, dst => some dst
  | c + 1, j, dst => do
    let v ← src[j + s]?
    let dst1 ← store dst (j + d) v
    copyLoop src s d c (j + 1) dst1

/-- The downward loop `for (j = lo + cnt - 1; j >= lo; j--) a[j + 1] = a[j];`. The numeric
argument counts the iterations left. -/
def shiftUp {α : Type} (lo : Nat) : Nat → List α → Option (List α)
  | 0, a => some a
  | c + 1, a => do
    let v ← a[lo + c]?
    let a1 ← store a (lo + c + 1) v
    shiftUp lo c a1

/-- The loop `for (i = p + 1; i < p + 1 + cnt; i++) a[i - 1] = a[i];`, written with
`p = i - 1`. The first numeric argument counts the iterations left. -/
def shiftDown {α : Type} : Nat → Nat → List α → Option (List α)
  | 0, _, a => some a
  | c + 1, p, a => do
    let v ← a[p + 1]?
    let a1 ← store a p v
    shiftDown c (p + 1) a1

/-- The scan `while (i < n && keys[i] < key) i++;` of `search` and `findKey`. The first
numeric argument is `n - i`, the second is `i`. -/
def scanKeys (keys : List Int) (key : Int) : Nat → Nat → Option Nat
  | 0, i => some i
  | r + 1, i => do
    let v ← keys[i]?
    if v < key then scanKeys keys key r (i + 1) else some i

/-- The test `i < node->n && node->keys[i] == key`. -/
def keyAt (nd : BTreeNode) (i : Nat) (key : Int) : Option Bool :=
  if i < nd.n then (nd.keys[i]?).map (fun v => decide (v = key)) else some false

/-- `createNode`: a node with `n = 0`, uninitialised keys (modelled as `0`) and all
children `NULL`. For `t = 0` the requested key array has the size `2*t - 1 = -1`, which
no allocation can serve: the function reports the failure and exits (`none`).
Other allocation failures are outside the model. The degree `t` is a natural number
here; `Machine.createNode` has `t` as an `int`, with the overflow of `2 * t` and the
allocation requests, and agrees with this function for `1 ≤ t < 2^30` when the
allocations succeed. -/
def createNode (leaf : Bool) (t : Nat) : Option BTreeNode :=
  if t = 0 then none
  else some (.mk 0 leaf (List.replicate (2 * t - 1) 0) (List.replicate (2 * t) none))

/-- `createBTree`. -/
def createBTree (t : Nat) : Option BTree := do
  let r ← createNode true t
  pure ⟨some r, t⟩

/-- `search` with a bound on the recursion depth. The outer `none` is an exhausted bound
or an invalid access, the inner one the `NULL` result. -/
def searchAux : Nat → Option BTreeNode → Int → Option (Option BTreeNode)
  | 0, _, _ => none
  | _ + 1, none, _ => some none
  | f + 1, some nd, key => do
    let i ← scanKeys nd.keys key nd.n 0
    let hit ← keyAt nd i key
    if hit then some (some nd)
    else if nd.leaf then some none
    else do
      let c ← nd.children[i]?
      searchAux f c key

/-- `search(node, key)`. -/
def search (node : Option BTreeNode) (key : Int) : Option (Option BTreeNode) :=
  searchAux (depthOpt node + 1) node key

/-- The loop of `traverse` from index `i` on, with the closing visit of `children[i]`.
`rec` is the recursive call, the first numeric argument is `n - i`. -/
def traverseLoop (rec : Option BTreeNode → Option (List Int)) (nd : BTreeNode) :
    Nat → Nat → Option (List Int)
  | 0, i =>
    if nd.leaf then some []
    else do
      let c ← nd.children[i]?
      rec c
  | r + 1, i => do
    let pre ← (if nd.leaf then some []
      else do
        let c ← nd.children[i]?
        rec c)
    let k ← nd.keys[i]?
    let rest ← traverseLoop rec nd r (i + 1)
    pure (pre ++ k :: rest)

/-- `traverse` with a bound on the recursion depth; the result is the printed key
sequence. -/
def traverseAux : Nat → Option BTreeNode → Option (List Int)
  | 0, _ => none
  | _ + 1, none => some []
  | f + 1, some nd => traverseLoop (traverseAux f) nd nd.n 0

/-- `traverse(node)`. -/
def traverse (node : Option BTreeNode) : Option (List Int) :=
  traverseAux (depthOpt node + 1) node

/-- `splitChild(parent, idx, child, t)`. At every call site `child` is
`parent->children[idx]`; its update in place is written back to that slot. -/
def splitChild (parent : BTreeNode) (idx : Nat) (child : BTreeNode) (t : Nat) :
    Option BTreeNode := do
  let newChild ← createNode child.leaf t
  let nk ← copyLoop child.keys t 0 (t - 1) 0 newChild.keys
  let nc ← (if child.leaf then some newChild.children
    else copyLoop child.children t 0 t 0 newChild.children)
  let pc ← shiftUp (idx + 1) (parent.n - idx) parent.children
  let pc1 ← store pc (idx + 1) (some (.mk (t - 1) child.leaf nk nc))
  let pk ← shiftUp idx (parent.n - idx) parent.keys
  let m ← child.keys[t - 1]?
  let pk1 ← store pk idx m
  let pc2 ← store pc1 idx (some (.mk (t - 1) child.leaf child.keys child.children))
  pure (.mk (parent.n + 1) parent.leaf pk1 pc2)

/-- The leaf loop of `insertNonFull`:
`while (i >= 0 && key < keys[i]) { keys[i + 1] = keys[i]; i--; }`. The numeric argument
is `i + 1`; the result is the final `i + 1` and the array. -/
def insertShift (key : Int) : Nat → List Int → Option (Nat × List Int)
  | 0, ks => some (0, ks)
  | i + 1, ks => do
    let v ← ks[i]?
    if key < v then do
      let ks1 ← store ks (i + 1) v
      insertShift key i ks1
    else some (i + 1, ks)

/-- The inner-node loop of `insertNonFull`: `while (i >= 0 && key < keys[i]) i--;`
followed by `i++`. The numeric argument is `i + 1`. -/
def scanDown (keys : List Int) (key : Int) : Nat → Option Nat
  | 0 => some 0
  | i + 1 => do
    let v ← keys[i]?
    if key < v then scanDown keys key i else some (i + 1)

/-- `insertNonFull` with a bound on the recursion depth. The test `n == 2*t - 1` is
written `n + 1 = 2*t`. -/
def insertNonFull : Nat → BTreeNode → Int → Nat → Option BTreeNode
  | 0, _, _, _ => none
  | f + 1, nd, key, t =>
    if nd.leaf then do
      let r ← insertShift key nd.n nd.keys
      let ks ← store r.2 r.1 key
      pure (.mk (nd.n + 1) nd.leaf ks nd.children)
    else do
      let i ← scanDown nd.keys key nd.n
      let c ← childAt nd i
      if c.n + 1 = 2 * t then do
        let nd1 ← splitChild nd i c t
        let k ← nd1.keys[i]?
        let i1 := if key > k then i + 1 else i
        let c1 ← childAt nd1 i1
        let r ← insertNonFull f c1 key t
        let cs ← store nd1.children i1 (some r)
        pure (nd1.setChildren cs)
      else do
        let r ← insertNonFull f c key t
        let cs ← store nd.children i (some r)
        pure (nd.setChildren cs)

/-- `insert(tree, key)`. -/
def insert (tree : BTree) (key : Int) : Option BTree := do
  let root ← tree.root
  if root.n + 1 = 2 * tree.t then do
    let newRoot ← createNode false tree.t
    let cs ← store newRoot.children 0 (some root)
    let newRoot1 ← splitChild (newRoot.setChildren cs) 0 root tree.t
    let r ← insertNonFull (root.depth + 2) newRoot1 key tree.t
    pure ⟨some r, tree.t⟩
  else do
    let r ← insertNonFull (root.depth + 2) root key tree.t
    pure ⟨some r, tree.t⟩

/-- `findKey`. -/
def findKey (nd : BTreeNode) (key : Int) : Option Nat :=
  scanKeys nd.keys key nd.n 0

/-- `removeFromLeaf`. No caller passes a node with `n = 0`. -/
def removeFromLeaf (nd : BTreeNode) (idx : Nat) : Option BTreeNode := do
  let ks ← shiftDown (nd.n - (idx + 1)) idx nd.keys
  if nd.n = 0 then none
  else pure (.mk (nd.n - 1) nd.leaf ks nd.children)

/-- The loop of `getPredecessor`, bounded in depth. -/
def getPredecessorLoop : Nat → BTreeNode → Option Int
  | 0, _ => none
  | f + 1, cur =>
    if cur.leaf then (if cur.n = 0 then none else cur.keys[cur.n - 1]?)
    else do
      let c ← childAt cur cur.n
      getPredecessorLoop f c

/-- `getPredecessor`. -/
def getPredecessor (fuel : Nat) (nd : BTreeNode) (idx : Nat) : Option Int := do
  let c ← childAt nd idx
  getPredecessorLoop fuel c

/-- The loop of `getSuccessor`, bounded in depth. -/
def getSuccessorLoop : Nat → BTreeNode → Option Int
  | 0, _ => none
  | f + 1, cur =>
    if cur.leaf then cur.keys[0]?
    else do
      let c ← childAt cur 0
      getSuccessorLoop f c

/-- `getSuccessor`. -/
def getSuccessor (fuel : Nat) (nd : BTreeNode) (idx : Nat) : Option Int := do
  let c ← childAt nd (idx + 1)
  getSuccessorLoop fuel c

/-- `borrowFromPrev`. The updated child and sibling are written back to their slots. -/
def borrowFromPrev (nd : BTreeNode) (idx : Nat) : Option BTreeNode :=
  if idx = 0 then none
  else do
    let child ← childAt nd idx
    let sibling ← childAt nd (idx - 1)
    let ck ← shiftUp 0 child.n child.keys
    let cc ← (if child.leaf then some child.children
      else shiftUp 0 (child.n + 1) child.children)
    let pk ← nd.keys[idx - 1]?
    let ck1 ← store ck 0 pk
    let cc1 ← (if child.leaf then some cc
      else do
        let sc ← sibling.children[sibling.n]?
        store cc 0 sc)
    let sk ← (if sibling.n = 0 then none else sibling.keys[sibling.n - 1]?)
    let nk ← store nd.keys (idx - 1) sk
    let cs ← store nd.children idx (some (.mk (child.n + 1) child.leaf ck1 cc1))
    let cs1 ← store cs (idx - 1)
      (some (.mk (sibling.n - 1) sibling.leaf sibling.keys sibling.children))
    pure (.mk nd.n nd.leaf nk cs1)

/-- `borrowFromNext`. The updated child and sibling are written back to their slots. -/
def borrowFromNext (nd : BTreeNode) (idx : Nat) : Option BTreeNode := do
  let child ← childAt nd idx
  let sibling ← childAt nd (idx + 1)
  let pk ← nd.keys[idx]?
  let ck ← store child.keys child.n pk
  let cc ← (if child.leaf then some child.children
    else do
      let sc ← sibling.children[0]?
      store child.children (child.n + 1) sc)
  let sk ← sibling.keys[0]?
  let nk ← store nd.keys idx sk
  let sk1 ← shiftDown (sibling.n - 1) 0 sibling.keys
  let sc1 ← (if sibling.leaf then some sibling.children
    else shiftDown sibling.n 0 sibling.children)
  if sibling.n = 0 then none
  else do
    let cs ← store nd.children idx (some (.mk (child.n + 1) child.leaf ck cc))
    let cs1 ← store cs (idx + 1) (some (.mk (sibling.n - 1) sibling.leaf sk1 sc1))
    pure (.mk nd.n nd.leaf nk cs1)

/-- `merge`. The sibling is freed; the merged child is written back to slot `idx`.
For `t = 0` the index `t - 1` is outside the array. -/
def merge (nd : BTreeNode) (idx : Nat) (t : Nat) : Option BTreeNode := do
  let child ← childAt nd idx
  let sibling ← childAt nd (idx + 1)
  if t = 0 then none
  else do
    let pk ← nd.keys[idx]?
    let ck ← store child.keys (t - 1) pk
    let ck1 ← copyLoop sibling.keys 0 t sibling.n 0 ck
    let cc ← (if child.leaf then some child.children
      else copyLoop sibling.children 0 t (sibling.n + 1) 0 child.children)
    let nk ← shiftDown (nd.n - (idx + 1)) idx nd.keys
    let nc ← shiftDown (nd.n + 1 - (idx + 2)) (idx + 1) nd.children
    let nc1 ← store nc idx (some (.mk (child.n + sibling.n + 1) child.leaf ck1 cc))
    if nd.n = 0 then none
    else pure (.mk (nd.n - 1) nd.leaf nk nc1)

/-- `fill`. -/
def fill (nd : BTreeNode) (idx : Nat) (t : Nat) : Option BTreeNode := do
  let goPrev ← (if idx ≠ 0 then (childAt nd (idx - 1)).map (fun s => decide (s.n ≥ t))
    else some false)
  if goPrev then borrowFromPrev nd idx
  else do
    let goNext ← (if idx ≠ nd.n then (childAt nd (idx + 1)).map (fun s => decide (s.n ≥ t))
      else some false)
    if goNext then borrowFromNext nd idx
    else if idx ≠ nd.n then merge nd idx t
    else if idx = 0 then none
    else merge nd (idx - 1) t

/-- `removeFromNonLeaf`; `rec` is the recursive call of `deleteFromNode` and `fuel`
bounds the loops of `getPredecessor` and `getSuccessor`. The node deleted from is
written back to its slot. -/
def removeFromNonLeaf (rec : BTreeNode → Int → Option (BTreeNode × List Msg)) (fuel : Nat)
    (nd : BTreeNode) (idx : Nat) (t : Nat) : Option (BTreeNode × List Msg) := do
  let key ← nd.keys[idx]?
  let c ← childAt nd idx
  if c.n ≥ t then do
    let pred ← getPredecessor fuel nd idx
    let ks ← store nd.keys idx pred
    let r ← rec c pred
    let cs ← store nd.children idx (some r.1)
    pure (.mk nd.n nd.leaf ks cs, r.2)
  else do
    let s ← childAt nd (idx + 1)
    if s.n ≥ t then do
      let succ ← getSuccessor fuel nd idx
      let ks ← store nd.keys idx succ
      let r ← rec s succ
      let cs ← store nd.children (idx + 1) (some r.1)
      pure (.mk nd.n nd.leaf ks cs, r.2)
    else do
      let nd1 ← merge nd idx t
      let m ← childAt nd1 idx
      let r ← rec m key
      let cs ← store nd1.children idx (some r.1)
      pure (nd1.setChildren cs, r.2)

/-- `deleteFromNode` with a bound on the recursion depth; the second component is what
it prints. -/
def deleteFromNode : Nat → BTreeNode → Int → Nat → Option (BTreeNode × List Msg)
  | 0, _, _, _ => none
  | f + 1, nd, key, t => do
    let idx ← findKey nd key
    let hit ← keyAt nd idx key
    if hit then
      if nd.leaf then do
        let r ← removeFromLeaf nd idx
        pure (r, [])
      else removeFromNonLeaf (fun c k => deleteFromNode f c k t) f nd idx t
    else if nd.leaf then pure (nd, [Msg.keyNotFound key])
    else do
      let isLastChild := decide (idx = nd.n)
      let c ← childAt nd idx
      let nd1 ← (if c.n < t then fill nd idx t else some nd)
      let j := if isLastChild && decide (idx > nd1.n) then idx - 1 else idx
      let c1 ← childAt nd1 j
      let r ← deleteFromNode f c1 key t
      let cs ← store nd1.children j (some r.1)
      pure (nd1.setChildren cs, r.2)

/-- `deleteKey(tree, key)`; the second component is what it prints. -/
def deleteKey (tree : BTree) (key : Int) : Option (BTree × List Msg) :=
  match tree.root with
  | none => some (tree, [Msg.treeEmpty])
  | some root => do
    let r ← deleteFromNode (root.depth + 1) root key tree.t
    if r.1.n = 0 then
      if r.1.leaf then do
        let nr ← createNode true tree.t
        pure (⟨some nr, tree.t⟩, r.2)
      else do
        let c ← r.1.children[0]?
        pure (⟨c, tree.t⟩, r.2)
    else pure (⟨some r.1, tree.t⟩, r.2)

/-- A call of the public interface that changes the tree. -/
inductive Op where
  | ins (key : Int)
  | del (key : Int)
  deriving DecidableEq, Repr

/-- Apply one call to a tree. -/
def applyOp (tree : BTree) : Op → Option BTree
  | .ins k => insert tree k
  | .del k => (deleteKey tree k).map Prod.fst

/-- Apply a sequence of calls, first to last. -/
def runOps : List Op → BTree → Option BTree
  | [], tree => some tree
  | op :: ops, tree => (applyOp tree op).bind (runOps ops)

/-- The tree obtained from `createBTree(t)` by a sequence of calls. -/
def fromEmpty (t : Nat) (ops : List Op) : Option BTree :=
  (createBTree t).bind (runOps ops)

/-! ### Reading a tree: keys held, children, in-order key list, nodes, leaf depths -/

/-- The keys a node holds: its first `n` key slots. -/
def liveKeys (nd : BTreeNode) : List Int :=
  nd.keys.take nd.n

/-- The children of a node: the nodes in its first `n + 1` child slots. -/
def kids (nd : BTreeNode) : List BTreeNode :=
  (nd.children.take (nd.n + 1)).reduceOption

/-- Key lists of the children interleaved with the keys of the node:
`c0 ++ k0 :: c1 ++ k1 :: ... ++ cn`. -/
def interleave : List (List Int) → List Int → List Int
  | [], _ => []
  | c :: _, [] => c
  | c :: cs, k :: ks => c ++ k :: interleave cs ks

mutual
/-- The keys of a subtree in order: what `traverse` walks through. -/
def inorder : BTreeNode → List Int
  | .mk n leaf ks cs =>
    if leaf then ks.take n else interleave (inorderSlots cs (n + 1)) (ks.take n)
/-- In-order key lists of the first `k` child slots. -/
def inorderSlots : List (Option BTreeNode) → Nat → List (List Int)
  | [], _ => []
  | _ :: _, 0 => []
  | c :: cs, k + 1 => inorderSlot c :: inorderSlots cs k
/-- In-order key list below a child slot; a `NULL` slot has none. -/
def inorderSlot : Option BTreeNode → List Int
  | none => []
  | some nd => inorder nd
end

mutual
/-- All nodes of a subtree, the root first. -/
def nodes : BTreeNode → List BTreeNode
  | .mk n leaf ks cs => .mk n leaf ks cs :: (if leaf then [] else nodesSlots cs (n + 1))
/-- All nodes below the first `k` child slots. -/
def nodesSlots : List (Option BTreeNode) → Nat → List BTreeNode
  | [], _ => []
  | _ :: _, 0 => []
  | c :: cs, k + 1 => nodesSlot c ++ nodesSlots cs k
/-- All nodes below a child slot. -/
def nodesSlot : Option BTreeNode → List BTreeNode
  | none => []
  | some nd => nodes nd
end

/-- The nodes of a tree other than its root. -/
def properNodes (nd : BTreeNode) : List BTreeNode :=
  (nodes nd).tail

mutual
/-- The depth of every leaf of a subtree, counted from its root. -/
def leafDepths : BTreeNode → List Nat
  | .mk n leaf _ cs => if leaf then [0] else (leafDepthsSlots cs (n + 1)).map (· + 1)
/-- Leaf depths below the first `k` child slots. -/
def leafDepthsSlots : List (Option BTreeNode) → Nat → List Nat
  | [], _ => []
  | _ :: _, 0 => []
  | c :: cs, k + 1 => leafDepthsSlot c ++ leafDepthsSlots cs k
/-- Leaf depths below a child slot. -/
def leafDepthsSlot : Option BTreeNode → List Nat
  | none => []
  | some nd => leafDepths nd
end

/-- The in-order keys of an inner node that come before its child in slot `j`. -/
def leftOf (nd : BTreeNode) (j : Nat) : List Int :=
  interleave (((kids nd).map inorder).take j ++ [[]]) ((liveKeys nd).take j)

/-- The in-order keys of an inner node that come after its child in slot `j`. -/
def rightOf (nd : BTreeNode) (j : Nat) : List Int :=
  interleave ([] :: ((kids nd).map inorder).drop (j + 1)) ((liveKeys nd).drop j)

/-- The arrays of a node have the sizes `createNode` gives them and the node has at
most `2*t - 1` keys (written `n + 1 ≤ 2*t`). -/
def NodeOK (t : Nat) (nd : BTreeNode) : Prop :=
  nd.keys.length = 2 * t - 1 ∧ nd.children.length = 2 * t ∧ nd.n + 1 ≤ 2 * t

/-- `Bal t h nd`: below `nd` every leaf is at depth `h`; leaves have no child pointer at
all, inner nodes have a node in each of their first `n + 1` child slots; every node has
well-sized arrays and at most `2*t - 1` keys, every node below `nd` at least `t - 1`. -/
def Bal (t : Nat) : Nat → BTreeNode → Prop
  | 0, nd => nd.leaf = true ∧ NodeOK t nd ∧ ∀ c ∈ nd.children, c = none
  | h + 1, nd => nd.leaf = false ∧ NodeOK t nd ∧
      nd.children.take (nd.n + 1) = (kids nd).map some ∧
      ∀ c ∈ kids nd, t - 1 ≤ c.n ∧ Bal t h c

/-- The invariant of the trees the program builds, for minimum degree `t`. -/
def Valid (t : Nat) (tree : BTree) : Prop :=
  tree.t = t ∧ ∃ root h, tree.root = some root ∧ Bal t h root ∧
    (inorder root).Sorted (· ≤ ·) ∧ (root.leaf = false → 1 ≤ root.n)

/-- The keys a tree holds, in order. -/
def keysOf (tree : BTree) : List Int :=
  match tree.root with
  | none => []
  | some r => inorder r

/-- The accesses `search` and `traverse` make at a node stay inside its arrays. -/
def InBounds (nd : BTreeNode) : Prop :=
  nd.n ≤ nd.keys.length ∧ (nd.leaf = false → nd.n < nd.children.length)

/-- The ordering invariants at one node for the order `r` (`<` for the strict form):
its keys are in order, and for every index `i < n` all keys below `children[i]` are
before `keys[i]` and all keys below `children[i + 1]` after it. -/
def OrderedNode (r : Int → Int → Prop) (nd : BTreeNode) : Prop :=
  (liveKeys nd).Pairwise r ∧
  (nd.leaf = false → ∀ i k, i < nd.n → nd.keys[i]? = some k →
    (∀ c y, nd.children[i]? = some c → y ∈ inorderSlot c → r y k) ∧
    (∀ c y, nd.children[i + 1]? = some c → y ∈ inorderSlot c → r k y))

/-- The keys present after a call: `insert` adds one occurrence of its key,
`deleteKey` takes one away if there is one. The list is kept in ascending order. -/
def stepKeys (l : List Int) : Op → List Int
  | .ins k => l.orderedInsert (· ≤ ·) k
  | .del k => l.erase k

/-- The keys present after a sequence of calls on an empty tree, in ascending order. -/
def presentKeys (ops : List Op) : List Int :=
  ops.foldl stepKeys []


/-- Whether key `k` is held after a sequence of calls when every `insert` of a held key
is left out of consideration: the last call on `k` decides, `b` is the state before. -/
def liveAfter (k : Int) (b : Bool) : List Op → Bool
  | [] => b
  | .ins k1 :: ops => liveAfter k (if k1 = k then true else b) ops
  | .del k1 :: ops => liveAfter k (if k1 = k then false else b) ops

/-- Key `k` was inserted and not deleted since: the last call on `k` is an `insert`. -/
def insertedLast (k : Int) (ops : List Op) : Bool :=
  liveAfter k false ops

/-- No `insert` of the sequence is given a key that is held at the time of the call;
`l` are the keys held before. -/
def freshFrom : List Int → List Op → Bool
  | _, [] => true
  | l, .ins k :: ops => decide (k ∉ l) && freshFrom (stepKeys l (.ins k)) ops
  | l, .del k :: ops => freshFrom (stepKeys l (.del k)) ops

/-- No `insert` of a sequence of calls on an empty tree is given a key that is held at
the time of the call. -/
def freshInserts (ops : List Op) : Bool :=
  freshFrom [] ops

/-- One node as the code lays it out for minimum degree `t`: key and child arrays of the
sizes `createNode` allocates, at most `2*t - 1` keys, and, in an inner node, a node in
each of the child slots `0 .. n`. -/
def NodeShape (t : Nat) (nd : BTreeNode) : Prop :=
  NodeOK t nd ∧ (nd.leaf = false → ∀ i, i ≤ nd.n → ∃ c, nd.children[i]? = some (some c))

/-- A tree every node of which is laid out for minimum degree `t` and has at most
`2*t - 1` keys. Nothing is asked of the order of the keys, of the depth of the leaves
or of a least number of keys. -/
def Shaped (t : Nat) (root : BTreeNode) : Prop :=
  ∀ x ∈ nodes root, NodeShape t x

/-- Invariants 1 to 5 of the data model for a tree of minimum degree `t` whose nodes are
laid out as the code expects (which covers invariant 5) and whose leaves have no child
pointer: keys strictly increasing in every node and subtrees strictly separated by the
keys (1, 2), all leaves at the same depth (3), at least `t - 1` keys in every node other
than the root (4). -/
def Invariants (t : Nat) (tree : BTree) : Prop :=
  tree.t = t ∧ ∃ root, tree.root = some root ∧ Shaped t root ∧
    (∀ x ∈ nodes root, x.leaf = true → ∀ c ∈ x.children, c = none) ∧
    (∀ x ∈ nodes root, OrderedNode (· < ·) x) ∧
    (∃ h, ∀ d ∈ leafDepths root, d = h) ∧
    (∀ x ∈ properNodes root, t - 1 ≤ x.n)

/-- The root of the tree, when it is an inner node, has at least one key. -/
def RootHasKey (tree : BTree) : Prop :=
  ∀ root, tree.root = some root → root.leaf = false → 1 ≤ root.n

/-- `insertNonFull` as above, recording for every invocation, the first one and the
recursive ones in the order they are made, the `leaf` flag and the key count `n` of the
node it receives. -/
def insertNonFullCalls : Nat → BTreeNode → Int → Nat → Option (BTreeNode × List (Bool × Nat))
  | 0, _, _, _ => none
  | f + 1, nd, key, t =>
    if nd.leaf then do
      let r ← insertShift key nd.n nd.keys
      let ks ← store r.2 r.1 key
      pure (.mk (nd.n + 1) nd.leaf ks nd.children, [(nd.leaf, nd.n)])
    else do
      let i ← scanDown nd.keys key nd.n
      let c ← childAt nd i
      if c.n + 1 = 2 * t then do
        let nd1 ← splitChild nd i c t
        let k ← nd1.keys[i]?
        let i1 := if key > k then i + 1 else i
        let c1 ← childAt nd1 i1
        let r ← insertNonFullCalls f c1 key t
        let cs ← store nd1.children i1 (some r.1)
        pure (nd1.setChildren cs, (nd.leaf, nd.n) :: r.2)
      else do
        let r ← insertNonFullCalls f c key t
        let cs ← store nd.children i (some r.1)
        pure (nd.setChildren cs, (nd.leaf, nd.n) :: r.2)

/-- `insert(tree, key)` with the record of its `insertNonFull` invocations. -/
def insertCalls (tree : BTree) (key : Int) : Option (BTree × List (Bool × Nat)) := do
  let root ← tree.root
  if root.n + 1 = 2 * tree.t then do
    let newRoot ← createNode false tree.t
    let cs ← store newRoot.children 0 (some root)
    let newRoot1 ← splitChild (newRoot.setChildren cs) 0 root tree.t
    let r ← insertNonFullCalls (root.depth + 2) newRoot1 key tree.t
    pure (⟨some r.1, tree.t⟩, r.2)
  else do
    let r ← insertNonFullCalls (root.depth + 2) root key tree.t
    pure (⟨some r.1, tree.t⟩, r.2)

/-- A call made on the way of a deletion, with the index it is given. -/
inductive Call where
  | removeFromLeaf (idx : Nat)
  | removeFromNonLeaf (idx : Nat)
  | fill (idx : Nat)
  deriving DecidableEq, Repr

/-- `removeFromNonLeaf` as above, with the record of the calls made by the recursive
invocation `rec` of `deleteFromNode`. -/
def removeFromNonLeafCalls (rec : BTreeNode → Int → Option (BTreeNode × List Call))
    (fuel : Nat) (nd : BTreeNode) (idx : Nat) (t : Nat) : Option (BTreeNode × List Call) := do
  let key ← nd.keys[idx]?
  let c ← childAt nd idx
  if c.n ≥ t then do
    let pred ← getPredecessor fuel nd idx
    let ks ← store nd.keys idx pred
    let r ← rec c pred
    let cs ← store nd.children idx (some r.1)
    pure (.mk nd.n nd.leaf ks cs, r.2)
  else do
    let s ← childAt nd (idx + 1)
    if s.n ≥ t then do
      let succ ← getSuccessor fuel nd idx
      let ks ← store nd.keys idx succ
      let r ← rec s succ
      let cs ← store nd.children (idx + 1) (some r.1)
      pure (.mk nd.n nd.leaf ks cs, r.2)
    else do
      let nd1 ← merge nd idx t
      let m ← childAt nd1 idx
      let r ← rec m key
      let cs ← store nd1.children idx (some r.1)
      pure (nd1.setChildren cs, r.2)

/-- `deleteFromNode` as above, recording in the order they are made the calls of
`removeFromLeaf`, `removeFromNonLeaf` and `fill`. -/
def deleteFromNodeCalls : Nat → BTreeNode → Int → Nat → Option (BTreeNode × List Call)
  | 0, _, _, _ => none
  | f + 1, nd, key, t => do
    let idx ← findKey nd key
    let hit ← keyAt nd idx key
    if hit then
      if nd.leaf then do
        let r ← removeFromLeaf nd idx
        pure (r, [Call.removeFromLeaf idx])
      else do
        let r ← removeFromNonLeafCalls (fun c k => deleteFromNodeCalls f c k t) f nd idx t
        pure (r.1, Call.removeFromNonLeaf idx :: r.2)
    else if nd.leaf then pure (nd, [])
    else do
      let isLastChild := decide (idx = nd.n)
      let c ← childAt nd idx
      let nd1 ← (if c.n < t then fill nd idx t else some nd)
      let j := if isLastChild && decide (idx > nd1.n) then idx - 1 else idx
      let c1 ← childAt nd1 j
      let r ← deleteFromNodeCalls f c1 key t
      let cs ← store nd1.children j (some r.1)
      pure (nd1.setChildren cs, (if c.n < t then [Call.fill idx] else []) ++ r.2)

/-- The calls of `removeFromLeaf`, `removeFromNonLeaf` and `fill` that
`deleteKey(tree, key)` makes, in their order. -/
def deleteKeyCalls (tree : BTree) (key : Int) : Option (List Call) :=
  match tree.root with
  | none => some []
  | some root => (deleteFromNodeCalls (root.depth + 1) root key tree.t).map Prod.snd

/-- The keys `main` inserts into the tree with `T = 3` ("Test 1"). -/
def insert_keys : List Int := [10, 20, 5, 6, 12, 30, 7, 17, 3, 1, 8, 25, 15, 18, 22]

/-- The keys `main` deletes as keys of leaves ("Test 4"). -/
def delete_leaf : List Int := [1, 8, 22]

/-- The keys `main` deletes as keys of internal nodes ("Test 5"). -/
def delete_internal : List Int := [7, 17, 10]

/-- The layout of one node that a rotation of keys between two children relies on:
the `n` keys counted fit the key array and, in an inner node, the child slots `0 .. n`
are inside the child array and each of them holds a node. -/
def Laid (nd : BTreeNode) : Prop :=
  nd.n ≤ nd.keys.length ∧
    (nd.leaf = false →
      nd.n < nd.children.length ∧ nd.children.take (nd.n + 1) = (kids nd).map some)

/-- The tree with `t = 2` and root key `2` over the leaves `1` and `3`: deleting a key
from it merges the two leaves and empties the root. -/
def twoLeafTree : BTree :=
  ⟨some (.mk 1 false [2, 0, 0]
    [some (.mk 1 true [1, 0, 0] [none, none, none, none]),
     some (.mk 1 true [3, 0, 0] [none, none, none, none]), none, none]), 2⟩

/-- The tree with `t = 2` whose root is the full leaf `1 2 3`. -/
def fullLeafTree : BTree :=
  ⟨some (.mk 3 true [1, 2, 3] [none, none, none, none]), 2⟩

/-- Invariants 3 to 5 of the data model for a tree of minimum degree `t` whose nodes are
laid out as the code expects, with nothing asked of the order of the keys: every node has
arrays of the sizes `createNode` gives them, at most `2*t - 1` keys and, if it is an
inner node, a node in each of its child slots `0 .. n` (5); leaves have no child
pointer; all leaves are at the same depth (3); every node other than the root has at
least `t - 1` keys (4). -/
def ShapeInvariants (t : Nat) (tree : BTree) : Prop :=
  tree.t = t ∧ ∃ root, tree.root = some root ∧ Shaped t root ∧
    (∀ x ∈ nodes root, x.leaf = true → ∀ c ∈ x.children, c = none) ∧
    (∃ h, ∀ d ∈ leafDepths root, d = h) ∧
    (∀ x ∈ properNodes root, t - 1 ≤ x.n)

/-- The number of keys stored in a subtree: the key counts `n` of its nodes added up. -/
def keyCount (nd : BTreeNode) : Nat :=
  ((nodes nd).map BTreeNode.n).sum

/-! ### The program with a record of what it does

Every function of `insert` and `deleteKey` is written once more, doing the same as
above and recording, in the order of the source, each access to a key or child array
and each call of `deleteFromNode`, `fill` and `merge`. -/

/-- What a run records. An access names the index used and the key count `n` that the
node accessed has at that moment; an index is an integer as in the source, so that an
access below the array can be named. -/
inductive Event where
  /-- Read of `keys[i]` of a node. -/
  | keyRead (i : Int) (n : Nat)
  /-- Write to `keys[i]` of a node. -/
  | keyWrite (i : Int) (n : Nat)
  /-- Read of the pointer `children[i]` of a node, to copy it. -/
  | childRead (i : Int) (n : Nat)
  /-- Write to `children[i]` of a node. -/
  | childWrite (i : Int) (n : Nat)
  /-- Read of the pointer `children[i]` of a node, to dereference it. -/
  | follow (i : Int) (n : Nat)
  /-- Invocation of `deleteFromNode` on `node`, nested `depth` deep in the invocation on
  the root. -/
  | deleteFromNode (depth : Nat) (node : BTreeNode)
  /-- Return of the invocation of `deleteFromNode` at `depth`, leaving `node`. -/
  | returned (depth : Nat) (node : BTreeNode)
  /-- The invocation at `depth`, with its node now `node`, calls `deleteFromNode` on
  `node->children[idx]`. -/
  | descend (depth : Nat) (node : BTreeNode) (idx : Nat)
  /-- Call `fill(node, idx, t)`. -/
  | fill (node : BTreeNode) (idx : Nat)
  /-- Call `merge(node, idx, t)`. -/
  | merge (node : BTreeNode) (idx : Int)

/-- A run with its record: the events up to the end of the run or up to the step that
has no result (an invalid access or an exhausted bound), and the result. -/
structure Traced (α : Type) where
  log : List Event
  val : Option α

instance : Monad Traced where
  pure a := ⟨[], some a⟩
  bind m f :=
    match m.val with
    | none => ⟨m.log, none⟩
    | some a => ⟨m.log ++ (f a).log, (f a).val⟩

/-- A step that is recorded as `e` and has the result `o`. -/
def access {α : Type} (e : Event) (o : Option α) : Traced α :=
  ⟨[e], o⟩

/-- A step of the model that nothing is recorded of. -/
def check {α : Type} (o : Option α) : Traced α :=
  ⟨[], o⟩

/-- Record the events of a list. -/
def emit (es : List Event) : Traced Unit :=
  ⟨es, some ()⟩

/-- Read `node->children[i]` and dereference it. -/
def followChild (nd : BTreeNode) (i : Nat) : Traced BTreeNode :=
  access (.follow i nd.n) (childAt nd i)

/-- `copyLoop` with its record; `rd` and `wr` name the read and the write at an index. -/
def copyLoopLog {α : Type} (rd wr : Nat → Event) (src : List α) (s d : Nat) :
    Nat → Nat → List α → Traced (List α)
  | 0, _, dst => pure dst
  | c + 1, j, dst => do
    let v ← access (rd (j + s)) src[j + s]?
    let dst1 ← access (wr (j + d)) (store dst (j + d) v)
    copyLoopLog rd wr src s d c (j + 1) dst1

/-- `shiftUp` with its record. -/
def shiftUpLog {α : Type} (rd wr : Nat → Event) (lo : Nat) : Nat → List α → Traced (List α)
  | 0, a => pure a
  | c + 1, a => do
    let v ← access (rd (lo + c)) a[lo + c]?
    let a1 ← access (wr (lo + c + 1)) (store a (lo + c + 1) v)
    shiftUpLog rd wr lo c a1

/-- `shiftDown` with its record. -/
def shiftDownLog {α : Type} (rd wr : Nat → Event) : Nat → Nat → List α → Traced (List α)
  | 0, _, a => pure a
  | c + 1, p, a => do
    let v ← access (rd (p + 1)) a[p + 1]?
    let a1 ← access (wr p) (store a p v)
    shiftDownLog rd wr c (p + 1) a1

/-- `scanKeys` with its record; `n` is the key count of the node scanned. -/
def scanKeysLog (n : Nat) (keys : List Int) (key : Int) : Nat → Nat → Traced Nat
  | 0, i => pure i
  | r + 1, i => do
    let v ← access (.keyRead i n) keys[i]?
    if v < key then scanKeysLog n keys key r (i + 1) else pure i

/-- `keyAt` with its record. -/
def keyAtLog (nd : BTreeNode) (i : Nat) (key : Int) : Traced Bool :=
  if i < nd.n then access (.keyRead i nd.n) ((nd.keys[i]?).map (fun v => decide (v = key)))
  else pure false

/-- `createNode` with its record: the loop that sets the `2*t` child slots to `NULL`. -/
def createNodeLog (leaf : Bool) (t : Nat) : Traced BTreeNode := do
  let nd ← check (createNode leaf t)
  emit ((List.range (2 * t)).map (fun (i : Nat) => Event.childWrite (i : Int) 0))
  pure nd

/-- `splitChild` with its record. `newChild->n` is set to `t - 1` before the copy loops
and `child->n` is set to `t - 1` before the middle key `child->keys[t - 1]` is read. -/
def splitChildLog (parent : BTreeNode) (idx : Nat) (child : BTreeNode) (t : Nat) :
    Traced BTreeNode := do
  let newChild ← createNodeLog child.leaf t
  let nk ← copyLoopLog (fun i => .keyRead i child.n) (fun i => .keyWrite i (t - 1))
    child.keys t 0 (t - 1) 0 newChild.keys
  let nc ← (if child.leaf then pure newChild.children
    else copyLoopLog (fun i => .childRead i child.n) (fun i => .childWrite i (t - 1))
      child.children t 0 t 0 newChild.children)
  let pc ← shiftUpLog (fun i => .childRead i parent.n) (fun i => .childWrite i parent.n)
    (idx + 1) (parent.n - idx) parent.children
  let pc1 ← access (.childWrite (idx + 1 : Nat) parent.n)
    (store pc (idx + 1) (some (.mk (t - 1) child.leaf nk nc)))
  let pk ← shiftUpLog (fun i => .keyRead i parent.n) (fun i => .keyWrite i parent.n)
    idx (parent.n - idx) parent.keys
  let m ← access (.keyRead (t - 1 : Nat) (t - 1)) child.keys[t - 1]?
  let pk1 ← access (.keyWrite idx parent.n) (store pk idx m)
  let pc2 ← check (store pc1 idx (some (.mk (t - 1) child.leaf child.keys child.children)))
  pure (.mk (parent.n + 1) parent.leaf pk1 pc2)

/-- `insertShift` with its record; `n` is the key count of the leaf. -/
def insertShiftLog (n : Nat) (key : Int) : Nat → List Int → Traced (Nat × List Int)
  | 0, ks => pure (0, ks)
  | i + 1, ks => do
    let v ← access (.keyRead i n) ks[i]?
    if key < v then do
      let ks1 ← access (.keyWrite (i + 1 : Nat) n) (store ks (i + 1) v)
      insertShiftLog n key i ks1
    else pure (i + 1, ks)

/-- `scanDown` with its record; `n` is the key count of the node. -/
def scanDownLog (n : Nat) (keys : List Int) (key : Int) : Nat → Traced Nat
  | 0 => pure 0
  | i + 1 => do
    let v ← access (.keyRead i n) keys[i]?
    if key < v then scanDownLog n keys key i else pure (i + 1)

/-- `insertNonFull` with its record. -/
def insertNonFullLog : Nat → BTreeNode → Int → Nat → Traced BTreeNode
  | 0, _, _, _ => check none
  | f + 1, nd, key, t =>
    if nd.leaf then do
      let r ← insertShiftLog nd.n key nd.n nd.keys
      let ks ← access (.keyWrite r.1 nd.n) (store r.2 r.1 key)
      pure (.mk (nd.n + 1) nd.leaf ks nd.children)
    else do
      let i ← scanDownLog nd.n nd.keys key nd.n
      let c ← followChild nd i
      if c.n + 1 = 2 * t then do
        let nd1 ← splitChildLog nd i c t
        let k ← access (.keyRead i nd1.n) nd1.keys[i]?
        let i1 := if key > k then i + 1 else i
        let c1 ← followChild nd1 i1
        let r ← insertNonFullLog f c1 key t
        let cs ← check (store nd1.children i1 (some r))
        pure (nd1.setChildren cs)
      else do
        emit [.follow i nd.n]
        let r ← insertNonFullLog f c key t
        let cs ← check (store nd.children i (some r))
        pure (nd.setChildren cs)

/-- `insert(tree, key)` with its record. -/
def insertLog (tree : BTree) (key : Int) : Traced BTree := do
  let root ← check tree.root
  if root.n + 1 = 2 * tree.t then do
    let newRoot ← createNodeLog false tree.t
    let cs ← access (.childWrite 0 newRoot.n) (store newRoot.children 0 (some root))
    let newRoot1 ← splitChildLog (newRoot.setChildren cs) 0 root tree.t
    let r ← insertNonFullLog (root.depth + 2) newRoot1 key tree.t
    pure ⟨some r, tree.t⟩
  else do
    let r ← insertNonFullLog (root.depth + 2) root key tree.t
    pure ⟨some r, tree.t⟩

/-- `findKey` with its record. -/
def findKeyLog (nd : BTreeNode) (key : Int) : Traced Nat :=
  scanKeysLog nd.n nd.keys key nd.n 0

/-- `removeFromLeaf` with its record. -/
def removeFromLeafLog (nd : BTreeNode) (idx : Nat) : Traced BTreeNode := do
  let ks ← shiftDownLog (fun i => .keyRead i nd.n) (fun i => .keyWrite i nd.n)
    (nd.n - (idx + 1)) idx nd.keys
  if nd.n = 0 then check none
  else pure (.mk (nd.n - 1) nd.leaf ks nd.children)

/-- The loop of `getPredecessor` with its record. -/
def getPredecessorLoopLog : Nat → BTreeNode → Traced Int
  | 0, _ => check none
  | f + 1, cur =>
    if cur.leaf then
      access (.keyRead ((cur.n : Int) - 1) cur.n)
        (if cur.n = 0 then none else cur.keys[cur.n - 1]?)
    else do
      let c ← followChild cur cur.n
      getPredecessorLoopLog f c

/-- `getPredecessor` with its record. -/
def getPredecessorLog (fuel : Nat) (nd : BTreeNode) (idx : Nat) : Traced Int := do
  let c ← followChild nd idx
  getPredecessorLoopLog fuel c

/-- The loop of `getSuccessor` with its record. -/
def getSuccessorLoopLog : Nat → BTreeNode → Traced Int
  | 0, _ => check none
  | f + 1, cur =>
    if cur.leaf then access (.keyRead 0 cur.n) cur.keys[0]?
    else do
      let c ← followChild cur 0
      getSuccessorLoopLog f c

/-- `getSuccessor` with its record. -/
def getSuccessorLog (fuel : Nat) (nd : BTreeNode) (idx : Nat) : Traced Int := do
  let c ← followChild nd (idx + 1)
  getSuccessorLoopLog fuel c

/-- `borrowFromPrev` with its record. -/
def borrowFromPrevLog (nd : BTreeNode) (idx : Nat) : Traced BTreeNode :=
  if idx = 0 then access (.follow (-1) nd.n) none
  else do
    let child ← followChild nd idx
    let sibling ← followChild nd (idx - 1)
    let ck ← shiftUpLog (fun i => .keyRead i child.n) (fun i => .keyWrite i child.n)
      0 child.n child.keys
    let cc ← (if child.leaf then pure child.children
      else shiftUpLog (fun i => .childRead i child.n) (fun i => .childWrite i child.n)
        0 (child.n + 1) child.children)
    let pk ← access (.keyRead (idx - 1 : Nat) nd.n) nd.keys[idx - 1]?
    let ck1 ← access (.keyWrite 0 child.n) (store ck 0 pk)
    let cc1 ← (if child.leaf then pure cc
      else do
        let sc ← access (.childRead sibling.n sibling.n) sibling.children[sibling.n]?
        access (.childWrite 0 child.n) (store cc 0 sc))
    let sk ← access (.keyRead ((sibling.n : Int) - 1) sibling.n)
      (if sibling.n = 0 then none else sibling.keys[sibling.n - 1]?)
    let nk ← access (.keyWrite (idx - 1 : Nat) nd.n) (store nd.keys (idx - 1) sk)
    let cs ← check (store nd.children idx (some (.mk (child.n + 1) child.leaf ck1 cc1)))
    let cs1 ← check (store cs (idx - 1)
      (some (.mk (sibling.n - 1) sibling.leaf sibling.keys sibling.children)))
    pure (.mk nd.n nd.leaf nk cs1)

/-- `borrowFromNext` with its record. -/
def borrowFromNextLog (nd : BTreeNode) (idx : Nat) : Traced BTreeNode := do
  let child ← followChild nd idx
  let sibling ← followChild nd (idx + 1)
  let pk ← access (.keyRead idx nd.n) nd.keys[idx]?
  let ck ← access (.keyWrite child.n child.n) (store child.keys child.n pk)
  let cc ← (if child.leaf then pure child.children
    else do
      let sc ← access (.childRead 0 sibling.n) sibling.children[0]?
      access (.childWrite (child.n + 1 : Nat) child.n) (store child.children (child.n + 1) sc))
  let sk ← access (.keyRead 0 sibling.n) sibling.keys[0]?
  let nk ← access (.keyWrite idx nd.n) (store nd.keys idx sk)
  let sk1 ← shiftDownLog (fun i => .keyRead i sibling.n) (fun i => .keyWrite i sibling.n)
    (sibling.n - 1) 0 sibling.keys
  let sc1 ← (if sibling.leaf then pure sibling.children
    else shiftDownLog (fun i => .childRead i sibling.n) (fun i => .childWrite i sibling.n)
      sibling.n 0 sibling.children)
  if sibling.n = 0 then check none
  else do
    let cs ← check (store nd.children idx (some (.mk (child.n + 1) child.leaf ck cc)))
    let cs1 ← check (store cs (idx + 1) (some (.mk (sibling.n - 1) sibling.leaf sk1 sc1)))
    pure (.mk nd.n nd.leaf nk cs1)

/-- `merge` with its record. The index is an integer as in the source: `fill` passes
`idx - 1`; a negative index is outside the child array. -/
def mergeLog (nd : BTreeNode) (i : Int) (t : Nat) : Traced BTreeNode := do
  emit [.merge nd i]
  let child ← access (.follow i nd.n) (if 0 ≤ i then childAt nd i.toNat else none)
  let sibling ← followChild nd (i.toNat + 1)
  if t = 0 then check none
  else do
    let pk ← access (.keyRead i nd.n) nd.keys[i.toNat]?
    let ck ← access (.keyWrite (t - 1 : Nat) child.n) (store child.keys (t - 1) pk)
    let ck1 ← copyLoopLog (fun j => .keyRead j sibling.n) (fun j => .keyWrite j child.n)
      sibling.keys 0 t sibling.n 0 ck
    let cc ← (if child.leaf then pure child.children
      else copyLoopLog (fun j => .childRead j sibling.n) (fun j => .childWrite j child.n)
        sibling.children 0 t (sibling.n + 1) 0 child.children)
    let nk ← shiftDownLog (fun j => .keyRead j nd.n) (fun j => .keyWrite j nd.n)
      (nd.n - (i.toNat + 1)) i.toNat nd.keys
    let nc ← shiftDownLog (fun j => .childRead j nd.n) (fun j => .childWrite j nd.n)
      (nd.n + 1 - (i.toNat + 2)) (i.toNat + 1) nd.children
    let nc1 ← check (store nc i.toNat (some (.mk (child.n + sibling.n + 1) child.leaf ck1 cc)))
    if nd.n = 0 then check none
    else pure (.mk (nd.n - 1) nd.leaf nk nc1)

/-- `fill` with its record. -/
def fillLog (nd : BTreeNode) (idx : Nat) (t : Nat) : Traced BTreeNode := do
  emit [.fill nd idx]
  let goPrev ← (if idx ≠ 0 then do
      let s ← followChild nd (idx - 1)
      pure (decide (s.n ≥ t))
    else pure false)
  if goPrev then borrowFromPrevLog nd idx
  else do
    let goNext ← (if idx ≠ nd.n then do
        let s ← followChild nd (idx + 1)
        pure (decide (s.n ≥ t))
      else pure false)
    if goNext then borrowFromNextLog nd idx
    else if idx ≠ nd.n then mergeLog nd idx t
    else mergeLog nd ((idx : Int) - 1) t

/-- `removeFromNonLeaf` with its record; `rec` is the recursive call of `deleteFromNode`,
`d` the depth of the invocation that makes the call. -/
def removeFromNonLeafLog (rec : BTreeNode → Int → Traced (BTreeNode × List Msg))
    (fuel d : Nat) (nd : BTreeNode) (idx : Nat) (t : Nat) :
    Traced (BTreeNode × List Msg) := do
  let key ← access (.keyRead idx nd.n) nd.keys[idx]?
  let c ← followChild nd idx
  if c.n ≥ t then do
    let pred ← getPredecessorLog fuel nd idx
    let ks ← access (.keyWrite idx nd.n) (store nd.keys idx pred)
    emit [.follow idx nd.n, .descend d (.mk nd.n nd.leaf ks nd.children) idx]
    let r ← rec c pred
    let cs ← check (store nd.children idx (some r.1))
    pure (.mk nd.n nd.leaf ks cs, r.2)
  else do
    let s ← followChild nd (idx + 1)
    if s.n ≥ t then do
      let succ ← getSuccessorLog fuel nd idx
      let ks ← access (.keyWrite idx nd.n) (store nd.keys idx succ)
      emit [.follow (idx + 1 : Nat) nd.n, .descend d (.mk nd.n nd.leaf ks nd.children) (idx + 1)]
      let r ← rec s succ
      let cs ← check (store nd.children (idx + 1) (some r.1))
      pure (.mk nd.n nd.leaf ks cs, r.2)
    else do
      let nd1 ← mergeLog nd idx t
      emit [.descend d nd1 idx]
      let m ← followChild nd1 idx
      let r ← rec m key
      let cs ← check (store nd1.children idx (some r.1))
      pure (nd1.setChildren cs, r.2)

/-- `deleteFromNode` with its record; `d` is the depth of the invocation. -/
def deleteFromNodeLog : Nat → Nat → BTreeNode → Int → Nat → Traced (BTreeNode × List Msg)
  | 0, _, _, _, _ => check none
  | f + 1, d, nd, key, t => do
    emit [.deleteFromNode d nd]
    let idx ← findKeyLog nd key
    let hit ← keyAtLog nd idx key
    let r ← (if hit then
        if nd.leaf then do
          let r ← removeFromLeafLog nd idx
          pure (r, [])
        else removeFromNonLeafLog (fun c k => deleteFromNodeLog f (d + 1) c k t) f d nd idx t
      else if nd.leaf then pure (nd, [Msg.keyNotFound key])
      else do
        let isLastChild := decide (idx = nd.n)
        let c ← followChild nd idx
        let nd1 ← (if c.n < t then fillLog nd idx t else pure nd)
        let j := if isLastChild && decide (idx > nd1.n) then idx - 1 else idx
        emit [.descend d nd1 j]
        let c1 ← followChild nd1 j
        let r ← deleteFromNodeLog f (d + 1) c1 key t
        let cs ← check (store nd1.children j (some r.1))
        pure (nd1.setChildren cs, r.2))
    emit [.returned d r.1]
    pure r

/-- `deleteKey(tree, key)` with its record. -/
def deleteKeyLog (tree : BTree) (key : Int) : Traced (BTree × List Msg) :=
  match tree.root with
  | none => pure (tree, [Msg.treeEmpty])
  | some root => do
    let r ← deleteFromNodeLog (root.depth + 1) 0 root key tree.t
    if r.1.n = 0 then
      if r.1.leaf then do
        let nr ← createNodeLog true tree.t
        pure (⟨some nr, tree.t⟩, r.2)
      else do
        let c ← access (.childRead 0 r.1.n) r.1.children[0]?
        pure (⟨c, tree.t⟩, r.2)
    else pure (⟨some r.1, tree.t⟩, r.2)

/-- What the claims about array accesses ask of an event: a key is read or written at an
index from `0` to `2*t - 2`, a child slot at an index from `0` to `2*t - 1`; a key read
is below the key count `n` of its node, or it is the read at index `t - 1` of a node
whose count has just been lowered to `t - 1` (the middle key in `splitChild`); a child
pointer that is dereferenced is read at an index from `0` to `n`. -/
def Event.ok (t : Nat) : Event → Prop
  | .keyRead i n => 0 ≤ i ∧ i < 2 * (t : Int) - 1 ∧ (i < n ∨ (i = n ∧ i = (t : Int) - 1))
  | .keyWrite i _ => 0 ≤ i ∧ i < 2 * (t : Int) - 1
  | .childRead i _ => 0 ≤ i ∧ i < 2 * (t : Int)
  | .childWrite i _ => 0 ≤ i ∧ i < 2 * (t : Int)
  | .follow i n => 0 ≤ i ∧ i ≤ n ∧ i < 2 * (t : Int)
  | _ => True

/-- What holds of the calls recorded in a run of `deleteFromNode` on a node whose leaves
are at depth `H`: an invocation nested `d` deep is on a node whose leaves are `H - d`
below it and which satisfies invariants 3 to 5 with all that is below it, and if it is
not the first invocation the node has at least `t` keys when the invocation starts and
at least `t - 1` when it returns; `fill(node, idx)` is called on a child with `t - 1`
keys. -/
def Event.sound (t H : Nat) : Event → Prop
  | .deleteFromNode d x => d ≤ H ∧ Bal t (H - d) x ∧ (d ≠ 0 → t ≤ x.n)
  | .returned d x => d ≤ H ∧ Bal t (H - d) x ∧ (d ≠ 0 → t ≤ x.n + 1)
  | .descend d x j => d < H ∧ Bal t (H - d) x ∧ j ≤ x.n ∧ (d ≠ 0 → t ≤ x.n + 1)
  | .fill x idx => idx ≤ x.n ∧ ∃ c, childAt x idx = some c ∧ c.n + 1 = t
  | _ => True

/-- What holds of a recorded call `merge(node, idx, t)`: `idx` is the index of a key of
`node`, and the two children around that key have `t - 1` keys each; `node` satisfies
invariants 3 to 5 with all that is below it. -/
def Event.mergeOk (t : Nat) : Event → Prop
  | .merge x i => ∃ idx h c s, i = (idx : Nat) ∧ idx < x.n ∧ Bal t (h + 1) x ∧
      childAt x idx = some c ∧ childAt x (idx + 1) = some s ∧ c.n + 1 = t ∧ s.n + 1 = t
  | _ => True

/-- All that is shown of an event recorded in a run on a tree whose root, if it is an
inner node, has a key. -/
def Event.fine (t H : Nat) (e : Event) : Prop :=
  e.ok t ∧ e.mergeOk t ∧ e.sound t H

/-- The index that a recorded call of `fill` is given, with the key count of the child
in that slot at the time of the call. -/
def Event.fillCall : Event → Option (Nat × Option Nat)
  | .fill x idx => some (idx, (childAt x idx).map BTreeNode.n)
  | _ => none

/-- The index that a recorded call of `merge` is given. -/
def Event.mergeCall : Event → Option Int
  | .merge _ i => some i
  | _ => none

/-- Index and key count of a recorded read of a key. -/
def Event.keyReadAt : Event → Option (Int × Nat)
  | .keyRead i n => some (i, n)
  | _ => none

/-- Index and key count of a recorded read of a child pointer that is dereferenced. -/
def Event.followAt : Event → Option (Int × Nat)
  | .follow i n => some (i, n)
  | _ => none

/-- Depth of a recorded invocation of `deleteFromNode` and key count of its node. -/
def Event.invocation : Event → Option (Nat × Nat)
  | .deleteFromNode d x => some (d, x.n)
  | _ => none

/-- The tree with `t = 2` whose root is an inner node without a key over the single
leaf `6`. -/
def keylessRootTree : BTree :=
  ⟨some (.mk 0 false [0, 0, 0]
    [some (.mk 1 true [6, 0, 0] [none, none, none, none]), none, none, none]), 2⟩

namespace Machine

/-- What a call that may end the program gives: the value it returns, the exit with
`EXIT_FAILURE` after the message printed by `perror`, or no defined behaviour. -/
inductive Outcome (α : Type) where
  | returned (a : α)
  | exited (msg : String)
  | undefined

/-- The values of an `int` (32 bits). -/
def isInt (x : Int) : Bool :=
  decide (-2147483648 ≤ x ∧ x ≤ 2147483647)

/-- The conversion of an integer to `size_t` (64 bits, unsigned). -/
def toSize (x : Int) : Nat :=
  (x % 18446744073709551616).toNat

/-- `createNode(leaf, t)` with `t` an `int`, as the source declares it, on a machine
with `int` of 32 bits and `size_t` and pointers of 64 bits (`sizeof(BTreeNode) = 24`,
`sizeof(int) = 4`, `sizeof(BTreeNode*) = 8`). `grant s` tells whether `malloc` serves a
request of `s` bytes. The expressions `2 * t - 1` and `2 * t` are computed in `int`:
outside its range the multiplication or subtraction overflows and the behaviour is
undefined. Their values are converted to `size_t` for the product with `sizeof`. The
keys are not initialised by the code; their slots start as `0` here. -/
def createNode (grant : Nat → Bool) (leaf : Bool) (t : Int) : Outcome BTreeNode :=
  if grant 24 = false then .exited "Failed to create node"
  else if (isInt (2 * t) && isInt (2 * t - 1)) = false then .undefined
  else if grant (toSize (4 * (toSize (2 * t - 1) : Int))) = false ∨
      grant (toSize (8 * (toSize (2 * t) : Int))) = false then
    .exited "Failed to allocate node arrays"
  else .returned (.mk 0 leaf (List.replicate (2 * t - 1).toNat 0)
    (List.replicate (2 * t).toNat none))

/-- `createBTree(t)` with `t` an `int` (`sizeof(BTree) = 16`); the value returned is the
pair of `tree->root` and `tree->t`. -/
def createBTree (grant : Nat → Bool) (t : Int) : Outcome (BTreeNode × Int) :=
  if grant 16 = false then .exited "Failed to create B-Tree"
  else
    match createNode grant true t with
    | .returned root => .returned (root, t)
    | .exited msg => .exited msg
    | .undefined => .undefined

end Machine

end BT

namespace PrefixTrie

/-- The struct `TrieNode` of `sir_question_prefix.c`: the array of `ALPHABET_SIZE` child
pointers (`none` is `NULL`) and the flag `isEndOfWord`. -/
inductive TrieNode where
  | mk (children : List (Option TrieNode)) (isEndOfWord : Bool)

/-- The macro `ALPHABET_SIZE`. -/
def ALPHABET_SIZE : Nat := 26

/-- Field `children`. -/
def TrieNode.children : TrieNode → List (Option TrieNode)
  | .mk cs _ => cs

/-- Field `isEndOfWord`. -/
def TrieNode.isEndOfWord : TrieNode → Bool
  | .mk _ e => e

/-- `trieCreate`: a node with the flag cleared and every child `NULL`. Allocation failure
is outside the model. -/
def trieCreate : TrieNode :=
  .mk (List.replicate ALPHABET_SIZE none) false

/-- The access `pCrawl->children[index]` for an `int` index: `none` when the index is
outside the array. -/
def childAt (p : TrieNode) (index : Int) : Option (Option TrieNode) :=
  if 0 ≤ index ∧ index < ALPHABET_SIZE then p.children[index.toNat]? else none

/-- The loop of `trieInsert` from position `i` on, followed by the closing assignment
`pCrawl->isEndOfWord = true`; the first argument is the node `pCrawl`, the second the
characters of `word` from position `i` to the terminator (a `0` in the list ends the
string as the terminator does). The result is the node with the update made below it. -/
def trieInsert : TrieNode → List Int → Option TrieNode
  | .mk cs _, [] => some (.mk cs true)
  | .mk cs e, c :: rest =>
    if c = 0 then some (.mk cs true)
    else do
      let index := c - 97
      let slot ← childAt (.mk cs e) index
      let next := match slot with
        | none => trieCreate
        | some q => q
      let r ← trieInsert next rest
      pure (.mk (cs.set index.toNat (some r)) e)

/-- The loop of `trieSearch` from position `i` on with the closing `return`; the
arguments are as for `trieInsert`. -/
def trieSearch : TrieNode → List Int → Option Bool
  | p, [] => some p.isEndOfWord
  | p, c :: rest =>
    if c = 0 then some p.isEndOfWord
    else do
      let slot ← childAt p (c - 97)
      match slot with
      | none => some false
      | some q => trieSearch q rest

/-- The loop of `trieStartsWith` from position `i` on with the closing `return`. The
loop condition is `i < prefix[i] != 0`, which C reads as `(i < prefix[i]) != 0`: the loop
goes on as long as the index `i` is below the character code at position `i`. The
numeric argument is `i`, the list holds the characters from position `i` on; at the
terminator the test is `i < 0`. -/
def trieStartsWithFrom : Nat → TrieNode → List Int → Option Bool
  | _, _, [] => some true
  | i, p, c :: rest =>
    if (i : Int) < c then do
      let slot ← childAt p (c - 97)
      match slot with
      | none => some false
      | some q => trieStartsWithFrom (i + 1) q rest
    else some true

/-- `trieStartsWith(root, prefix)`. -/
def trieStartsWith (root : TrieNode) (pre : List Int) : Option Bool :=
  trieStartsWithFrom 0 root pre

/-- A sequence of `trieInsert` calls on one trie, first to last. -/
def insertAll : List (List Int) → TrieNode → Option TrieNode
  | [], root => some root
  | w :: ws, root => (trieInsert root w).bind (insertAll ws)

/-- A word of lowercase English letters, as character codes. -/
def Lowercase (w : List Int) : Prop :=
  ∀ c ∈ w, 97 ≤ c ∧ c ≤ 122

/-- The node reached from `p` along the characters of `w`, if the path exists. -/
def walk : TrieNode → List Int → Option TrieNode
  | p, [] => some p
  | p, c :: rest => ((childAt p (c - 97)).join).bind (fun q => walk q rest)

/-- The word `w` is held below `p`: its path exists and ends in a node flagged
`isEndOfWord`. -/
def holds (p : TrieNode) (w : List Int) : Bool :=
  (walk p w).any (fun q => q.isEndOfWord)

/-- Every node reachable in the trie has the `ALPHABET_SIZE` child slots that
`trieCreate` gives it. -/
def WellFormed (root : TrieNode) : Prop :=
  ∀ w q, walk root w = some q → q.children.length = ALPHABET_SIZE

end PrefixTrie

namespace SuffixTrie

/-- The struct `SuffixTrieNode` of `suffix_trie.c`: the array of `ALPHABET_SIZE` child
pointers (`none` is `NULL`). -/
inductive SuffixTrieNode where
  | mk (children : List (Option SuffixTrieNode))

/-- The macro `ALPHABET_SIZE`. -/
def ALPHABET_SIZE : Nat := 256

/-- Field `children`. -/
def SuffixTrieNode.children : SuffixTrieNode → List (Option SuffixTrieNode)
  | .mk cs => cs

/-- `createSuffixTrieNode`: a node with every child `NULL`. Allocation failure ends the
program and is outside the model. -/
def createSuffixTrieNode : SuffixTrieNode :=
  .mk (List.replicate ALPHABET_SIZE none)

/-- The cast `(unsigned char)c` of a character given by its byte value. -/
def toIndex (c : Nat) : Nat :=
  c % 256

/-- The loop of `insertSuffix`; the first argument is `currentNode`, the second the
bytes of `suffix` from position `i` to the terminator (a `0` in the list ends the
string as the terminator does). The result is the node with the update made below
it. -/
def insertSuffix : SuffixTrieNode → List Nat → Option SuffixTrieNode
  | p, [] => some p
  | .mk cs, c :: rest =>
    if c = 0 then some (.mk cs)
    else do
      let slot ← cs[toIndex c]?
      let next := match slot with
        | none => createSuffixTrieNode
        | some q => q
      let r ← insertSuffix next rest
      pure (.mk (cs.set (toIndex c) (some r)))

/-- `strlen`: the number of bytes before the first `0`. -/
def strlen (text : List Nat) : Nat :=
  (text.takeWhile (fun c => c ≠ 0)).length

/-- The loop `for (i = 0; i < n; i++) insertSuffix(root, &text[i]);` of
`buildSuffixTrie`. The first numeric argument is `n - i`, the second is `i`. -/
def buildLoop (text : List Nat) : Nat → Nat → SuffixTrieNode → Option SuffixTrieNode
  | 0, _, root => some root
  | k + 1, i, root => (insertSuffix root (text.drop i)).bind (buildLoop text k (i + 1))

/-- `buildSuffixTrie(text)`. -/
def buildSuffixTrie (text : List Nat) : Option SuffixTrieNode :=
  buildLoop text (strlen text) 0 createSuffixTrieNode

/-- `search(root, pattern)`; the arguments are as for `insertSuffix`, the result is the
returned `int`. -/
def search : SuffixTrieNode → List Nat → Option Int
  | _, [] => some 1
  | p, c :: rest =>
    if c = 0 then some 1
    else do
      let slot ← p.children[toIndex c]?
      match slot with
      | none => some 0
      | some q => search q rest

/-- A C string given by its bytes: none of them is the terminator `0`. -/
def CString (w : List Nat) : Prop :=
  ∀ c ∈ w, 1 ≤ c ∧ c ≤ 255

/-- The node reached from `p` along the bytes of `w`, if the path exists. -/
def walk : SuffixTrieNode → List Nat → Option SuffixTrieNode
  | p, [] => some p
  | p, c :: rest => ((p.children[toIndex c]?).join).bind (fun q => walk q rest)

/-- Every node reachable in the trie has the `ALPHABET_SIZE` child slots that
`createSuffixTrieNode` gives it. -/
def WellFormed (root : SuffixTrieNode) : Prop :=
  ∀ w q, walk root w = some q → q.children.length = ALPHABET_SIZE

end SuffixTrie

namespace SegTree

/-- An `int` result reduced to 32 bits in two's complement: what the machine addition
leaves where a sum exceeds the range of `int` (the C standard itself leaves that case
undefined). -/
def wrapInt (x : Int) : Int :=
  (x + 2147483648) % 4294967296 - 2147483648

/-- The assignment `tree[i] = v`; `none` when `i` is outside the array. -/
def store (tree : List Int) (i : Nat) (v : Int) : Option (List Int) :=
  if i < tree.length then some (tree.set i v) else none

/-- The sum of `arr[a] + ... + arr[b]`, as an integer; `0` when `b < a`. -/
def rangeSum (arr : List Int) (a b : Nat) : Int :=
  ((arr.take (b + 1)).drop a).sum

/-- The value is in the range of `int`. -/
def IsInt (v : Int) : Prop :=
  -2147483648 ≤ v ∧ v ≤ 2147483647

/-- The subtree of the node array at `node` stores the segment `start .. last` of `arr`:
a leaf holds the element, an inner node the 32-bit sum of its two children, which store
the two halves of the segment. -/
inductive Stores (arr tree : List Int) : Nat → Nat → Nat → Prop
  | leaf (node start : Nat) (v : Int) (ht : tree[node]? = some v) (ha : arr[start]? = some v) :
      Stores arr tree node start start
  | inner (node start last : Nat) (a b : Int) (hlt : start < last)
      (hl : Stores arr tree (2 * node + 1) start ((start + last) / 2))
      (hr : Stores arr tree (2 * node + 2) ((start + last) / 2 + 1) last)
      (ha : tree[2 * node + 1]? = some a) (hb : tree[2 * node + 2]? = some b)
      (ht : tree[node]? = some (wrapInt (a + b))) :
      Stores arr tree node start last

end SegTree

namespace RadixArray

/-- The largest value of an `int` (32 bits). -/
def INT_MAX : Int := 2147483647

/-- The loop `for (i = 1; i < n; i++) if (arr[i] > max) max = arr[i];` of `getMax`. The
first numeric argument is `n - i`, the second is `i`. -/
def getMaxLoop (arr : List Int) : Nat → Nat → Int → Option Int
  | 0, _, max => some max
  | k + 1, i, max => do
    let v ← arr[i]?
    getMaxLoop arr k (i + 1) (if v > max then v else max)

/-- `getMax(arr, n)`; `none` when it reads outside the array. -/
def getMax (arr : List Int) (n : Nat) : Option Int := do
  let max ← arr[0]?
  getMaxLoop arr (n - 1) 1 max

/-- The expression `(v / exp) % 10`, with the division and remainder of C, which round
towards zero. -/
def digit (v exp : Int) : Int :=
  (v.tdiv exp).tmod 10

/-- The access `count[d]` for an `int` index: `none` when the index is outside the
array. -/
def countAt (count : List Nat) (d : Int) : Option Nat :=
  if 0 ≤ d then count[d.toNat]? else none

/-- The loop `for (i = 0; i < n; i++) count[(arr[i] / exp) % 10]++;`. The first numeric
argument is `n - i`, the second is `i`. -/
def countLoop (arr : List Int) (exp : Int) : Nat → Nat → List Nat → Option (List Nat)
  | 0, _, count => some count
  | k + 1, i, count => do
    let v ← arr[i]?
    let c ← countAt count (digit v exp)
    countLoop arr exp k (i + 1) (count.set (digit v exp).toNat (c + 1))

/-- The loop `for (i = 1; i < 10; i++) count[i] += count[i - 1];`. The first numeric
argument is `10 - i`, the second is `i`. -/
def prefixLoop : Nat → Nat → List Nat → Option (List Nat)
  | 0, _, count => some count
  | k + 1, i, count => do
    let a ← count[i]?
    let b ← count[i - 1]?
    prefixLoop k (i + 1) (count.set i (a + b))

/-- The loop `for (i = n - 1; i >= 0; i--) { output[count[d] - 1] = arr[i]; count[d]--; }`
with `d = (arr[i] / exp) % 10`. The numeric argument is `i + 1`. A `count[d]` of `0`
makes the index `-1`, which is outside `output`. -/
def placeLoop (arr : List Int) (exp : Int) : Nat → List Nat → List Int → Option (List Int)
  | 0, _, output => some output
  | i + 1, count, output => do
    let v ← arr[i]?
    let c ← countAt count (digit v exp)
    if c = 0 then none
    else if c - 1 < output.length then
      placeLoop arr exp i (count.set (digit v exp).toNat (c - 1)) (output.set (c - 1) v)
    else none

/-- The loop `for (i = 0; i < n; i++) arr[i] = output[i];`. The first numeric argument
is `n - i`, the second is `i`. -/
def copyBack (output : List Int) : Nat → Nat → List Int → Option (List Int)
  | 0, _, arr => some arr
  | k + 1, i, arr => do
    let v ← output[i]?
    if i < arr.length then copyBack output k (i + 1) (arr.set i v) else none

/-- `countingSort(arr, n, exp)`: the result is the array `arr` after the call. The
array `output` of `n` elements is not initialised by the code; its slots start as `0`
here. -/
def countingSort (arr : List Int) (n : Nat) (exp : Int) : Option (List Int) := do
  let count ← countLoop arr exp n 0 (List.replicate 10 0)
  let count1 ← prefixLoop 9 1 count
  let output ← placeLoop arr exp n count1 (List.replicate n 0)
  copyBack output n 0 arr

/-- The loop `for (exp = 1; max / exp > 0; exp *= 10) countingSort(arr, n, exp);` of
`radixSortArray` from the test of its condition on. The product `exp * 10` is an `int`:
where it is outside the range of `int` the multiplication overflows, the behaviour is
undefined and there is no result. A division by `0` has no result. The first argument
bounds the number of iterations: `exp` takes at most the ten values `1`, `10`, ...,
`10^9` before the product overflows. -/
def radixLoop (n : Nat) (max : Int) : Nat → Int → List Int → Option (List Int)
  | 0, _, _ => none
  | f + 1, exp, arr =>
    if exp = 0 then none
    else if max.tdiv exp > 0 then do
      let arr1 ← countingSort arr n exp
      if -2147483648 ≤ exp * 10 ∧ exp * 10 ≤ INT_MAX then radixLoop n max f (exp * 10) arr1
      else none
    else some arr

/-- `radixSortArray(arr, n)`: the result is the array `arr` after the call. -/
def radixSortArray (arr : List Int) (n : Nat) : Option (List Int) := do
  let max ← getMax arr n
  radixLoop n max 11 1 arr

/-- The digit of `v` at the place `exp` as an index into `count`. -/
def digitKey (exp : Int) (v : Int) : Nat :=
  (digit v exp).toNat

/-- The elements of `l` whose key is `d`, in the order they have in `l`. -/
def bucket (key : Int → Nat) (l : List Int) (d : Nat) : List Int :=
  l.filter (fun v => key v = d)

/-- The buckets of the keys below `m`, one after the other. -/
def bucketsBelow (key : Int → Nat) (l : List Int) (m : Nat) : List Int :=
  (List.range m).flatMap (bucket key l)

end RadixArray

namespace AVL

/-- A pointer to an `AVLNode` of `AVL_TREE.c`: `nil` is `NULL`, `node` a node with its
key, its two children and its stored height. -/
inductive AVLNode where
  | nil
  | node (key : Int) (left right : AVLNode) (height : Int)

/-- `createNode(key)`. -/
def createNode (key : Int) : AVLNode :=
  .node key .nil .nil 1

/-- `height(node)`: the stored height, `0` for `NULL`. -/
def height : AVLNode → Int
  | .nil => 0
  | .node _ _ _ h => h

/-- `getBalance(node)`. -/
def getBalance : AVLNode → Int
  | .nil => 0
  | .node _ l r _ => height l - height r

/-- `updateHeight(node)`: the node with its stored height recomputed. -/
def updateHeight : AVLNode → AVLNode
  | .nil => .nil
  | .node k l r _ =>
    .node k l r ((if height l > height r then height l else height r) + 1)

/-- The access `node->key`; `none` for `NULL`. -/
def keyOf : AVLNode → Option Int
  | .nil => none
  | .node k _ _ _ => some k

/-- `rightRotate(y)`; `none` when `y` or `y->left` is `NULL`. -/
def rightRotate : AVLNode → Option AVLNode
  | .node yk (.node xk xl t2 xh) yr yh =>
    some (updateHeight (.node xk xl (updateHeight (.node yk t2 yr yh)) xh))
  | _ => none

/-- `leftRotate(x)`; `none` when `x` or `x->right` is `NULL`. -/
def leftRotate : AVLNode → Option AVLNode
  | .node xk xl (.node yk t2 yr yh) xh =>
    some (updateHeight (.node yk (updateHeight (.node xk xl t2 xh)) yr yh))
  | _ => none

/-- `minValueNode(node)`: the leftmost node, `NULL` for `NULL`. -/
def minValueNode : AVLNode → AVLNode
  | .nil => .nil
  | .node k .nil r h => .node k .nil r h
  | .node _ (.node lk ll lr lh) _ _ => minValueNode (.node lk ll lr lh)

/-- Steps 2 to 4 of `insert` on the node whose child has been replaced: the height
update and the four rotation cases, tested in the order of the source. A test
`balance > 1 && key < node->left->key` reads the child only when its first part
holds. -/
def insertFix (node0 : AVLNode) (key : Int) : Option AVLNode :=
  match updateHeight node0 with
  | .nil => none
  | .node k l r h =>
    let node := AVLNode.node k l r h
    let balance := getBalance node
    do
      let c1 ← (if balance > 1 then (keyOf l).map (fun lk => decide (key < lk)) else some false)
      if c1 then rightRotate node
      else do
        let c2 ← (if balance < -1 then (keyOf r).map (fun rk => decide (key > rk))
          else some false)
        if c2 then leftRotate node
        else do
          let c3 ← (if balance > 1 then (keyOf l).map (fun lk => decide (key > lk))
            else some false)
          if c3 then do
            let l1 ← leftRotate l
            rightRotate (.node k l1 r h)
          else do
            let c4 ← (if balance < -1 then (keyOf r).map (fun rk => decide (key < rk))
              else some false)
            if c4 then do
              let r1 ← rightRotate r
              leftRotate (.node k l r1 h)
            else some node

/-- `insert(node, key)`; `none` when a `NULL` pointer is read. -/
def insert : AVLNode → Int → Option AVLNode
  | .nil, key => some (createNode key)
  | .node k l r h, key =>
    if key < k then do
      let l1 ← insert l key
      insertFix (.node k l1 r h) key
    else if key > k then do
      let r1 ← insert r key
      insertFix (.node k l r1 h) key
    else some (.node k l r h)

/-- Steps 2 to 4 of `deleteNode` on the node that is left after step 1: the height
update and the four rotation cases, tested in the order of the source. -/
def deleteFix (root0 : AVLNode) : Option AVLNode :=
  match updateHeight root0 with
  | .nil => some .nil
  | .node k l r h =>
    let root := AVLNode.node k l r h
    let balance := getBalance root
    if balance > 1 ∧ getBalance l ≥ 0 then rightRotate root
    else if balance > 1 ∧ getBalance l < 0 then do
      let l1 ← leftRotate l
      rightRotate (.node k l1 r h)
    else if balance < -1 ∧ getBalance r ≤ 0 then leftRotate root
    else if balance < -1 ∧ getBalance r > 0 then do
      let r1 ← rightRotate r
      leftRotate (.node k l r1 h)
    else some root

/-- `deleteNode(root, key)`; `none` when a `NULL` pointer is read. -/
def deleteNode : AVLNode → Int → Option AVLNode
  | .nil, _ => some .nil
  | .node k l r h, key =>
    if key < k then do
      let l1 ← deleteNode l key
      deleteFix (.node k l1 r h)
    else if key > k then do
      let r1 ← deleteNode r key
      deleteFix (.node k l r1 h)
    else
      match l, r with
      | .nil, _ => some r
      | _, .nil => some l
      | _, _ => do
        let tk ← keyOf (minValueNode r)
        let r1 ← deleteNode r tk
        deleteFix (.node tk l r1 h)

/-- `inorder(root)`: the keys in the order they are printed. -/
def inorder : AVLNode → List Int
  | .nil => []
  | .node k l r _ => inorder l ++ k :: inorder r

/-- A call of `insert` or `deleteNode`. -/
inductive Op where
  | ins (key : Int)
  | del (key : Int)

/-- Apply a sequence of calls, first to last, each to the tree the previous one
returned. -/
def runOps : List Op → AVLNode → Option AVLNode
  | [], t => some t
  | .ins k :: ops, t => (insert t k).bind (runOps ops)
  | .del k :: ops, t => (deleteNode t k).bind (runOps ops)

/-- Every node's stored height is one more than the larger of the heights of its
children. -/
def HeightsStored : AVLNode → Prop
  | .nil => True
  | .node _ l r h => HeightsStored l ∧ HeightsStored r ∧ h = 1 + max (height l) (height r)

/-- Every node's balance factor `height(left) - height(right)` is `-1`, `0` or `1`. -/
def Balanced : AVLNode → Prop
  | .nil => True
  | .node k l r h => Balanced l ∧ Balanced r ∧
      -1 ≤ getBalance (.node k l r h) ∧ getBalance (.node k l r h) ≤ 1

end AVL

namespace BPlus

/-- A `void*` slot of a node of `bplus.c`: `NULL`, an `int` value stored as a pointer
in a leaf, or a pointer to a node (its address in the heap). -/
inductive Ptr where
  | null
  | value (v : Int)
  | node (addr : Nat)
  deriving DecidableEq, Repr

/-- The struct `BPlusTreeNode`. `keys` and `pointers` are the two allocated arrays,
`parent` and `next` are node addresses (`none` is `NULL`). -/
structure BPlusTreeNode where
  isLeaf : Bool
  keys : List Int
  pointers : List Ptr
  numKeys : Nat
  parent : Option Nat
  next : Option Nat
  deriving DecidableEq, Repr

/-- The memory of the program and the struct `BPlusTree`: the nodes allocated so far (a
node's address is its position in `nodes`), the number `slack` of elements that can be
written beyond the requested size of each array without leaving the allocated block
(`0` is what `malloc` promises; allocators round sizes up), and the fields `root` and
`order` of the tree. -/
structure BPlusTree where
  nodes : List BPlusTreeNode
  slack : Nat
  root : Nat
  order : Nat
  deriving DecidableEq, Repr

/-- Write to slot `i` of an array; `none` when `i` is outside the allocated block. -/
def store {α : Type} (a : List α) (i : Nat) (v : α) : Option (List α) :=
  if i < a.length then some (a.set i v) else none

/-- Replace the node at an address. -/
def setNode (t : BPlusTree) (addr : Nat) (nd : BPlusTreeNode) : Option BPlusTree :=
  if addr < t.nodes.length then some { t with nodes := t.nodes.set addr nd } else none

/-- `createNode(order, isLeaf)`: the new node is appended to the memory; the result is
the memory and the address of the node. The key array is asked for with `order - 1`
elements (uninitialised, modelled as `0`), the pointer array with `order` elements, all
set to `NULL`. Allocation failure is outside the model. -/
def createNode (t : BPlusTree) (order : Nat) (isLeaf : Bool) : BPlusTree × Nat :=
  ({ t with nodes := t.nodes ++ [{
      isLeaf := isLeaf
      keys := List.replicate (order - 1 + t.slack) 0
      pointers := List.replicate (order + t.slack) Ptr.null
      numKeys := 0
      parent := none
      next := none }] }, t.nodes.length)

/-- `createBPlusTree(order)` for an allocator with the given slack. -/
def createBPlusTree (slack order : Nat) : BPlusTree :=
  (createNode ⟨[], slack, 0, order⟩ order true).1

/-- The cast `(BPlusTreeNode*)p` followed by a dereference: `none` unless `p` points to a
node. -/
def asNode : Ptr → Option Nat
  | .node a => some a
  | _ => none

/-- The scan `while (i < numKeys && key >= keys[i]) i++;` of `findLeaf`. The first
numeric argument is `numKeys - i`, the second is `i`. -/
def scanGE (keys : List Int) (key : Int) : Nat → Nat → Option Nat
  | 0, i => some i
  | r + 1, i => do
    let v ← keys[i]?
    if key ≥ v then scanGE keys key r (i + 1) else some i

/-- The scan `while (i < numKeys && keys[i] < key) i++;` of `insertIntoLeaf` and
`insertIntoParent`. The first numeric argument is `numKeys - i`, the second is `i`. -/
def scanLT (keys : List Int) (key : Int) : Nat → Nat → Option Nat
  | 0, i => some i
  | r + 1, i => do
    let v ← keys[i]?
    if v < key then scanLT keys key r (i + 1) else some i

/-- `findLeaf(node, key)` with a bound on the recursion depth: the address of the leaf. -/
def findLeaf (t : BPlusTree) : Nat → Nat → Int → Option Nat
  | 0, _, _ => none
  | f + 1, addr, key => do
    let nd ← t.nodes[addr]?
    if nd.isLeaf then some addr
    else do
      let i ← scanGE nd.keys key nd.numKeys 0
      let p ← nd.pointers[i]?
      let c ← asNode p
      findLeaf t f c key

/-- The loop of `search` over the keys of the leaf. The first numeric argument is
`numKeys - i`, the second is `i`. A slot that holds a node pointer has no `int` value
here. -/
def searchLoop (leaf : BPlusTreeNode) (key : Int) : Nat → Nat → Option Int
  | 0, _ => some (-1)
  | r + 1, i => do
    let v ← leaf.keys[i]?
    if v = key then do
      let p ← leaf.pointers[i]?
      match p with
      | .value x => some x
      | .null => some 0
      | .node _ => none
    else searchLoop leaf key r (i + 1)

/-- `search(tree, key)`. The depth of the descent is bounded by the number of nodes. -/
def search (t : BPlusTree) (key : Int) : Option Int := do
  let a ← findLeaf t (t.nodes.length + 1) t.root key
  let leaf ← t.nodes[a]?
  searchLoop leaf key leaf.numKeys 0

/-- The loop `for (j = numKeys; j > i; j--) a[j + d] = a[j + d - 1];` that shifts the
slots from `i + d` on to the right by one. The numeric argument is `j - i`. -/
def shiftRight {α : Type} (i d : Nat) : Nat → List α → Option (List α)
  | 0, a => some a
  | c + 1, a => do
    let v ← a[i + c + d]?
    let a1 ← store a (i + c + 1 + d) v
    shiftRight i d c a1

/-- The loop `for (j = 0; j < cnt; j++) dst[j] = src[j + off];`. The first numeric
argument is `cnt - j`, the second is `j`. -/
def copyFrom {α : Type} (src : List α) (off : Nat) : Nat → Nat → List α → Option (List α)
  | 0, _, dst => some dst
  | c + 1, j, dst => do
    let v ← src[j + off]?
    let dst1 ← store dst j v
    copyFrom src off c (j + 1) dst1

/-- The loop `for (j = 0; j <= cnt; j++) { np[j] = pp[j + off]; np[j]->parent = new; }`
of the split of an inner node: it copies the child pointers and sets the parent of
every child moved. The first numeric argument is `cnt + 1 - j`, the second is `j`. -/
def moveChildren (pp : List Ptr) (off newAddr : Nat) :
    Nat → Nat → List Ptr → BPlusTree → Option (List Ptr × BPlusTree)
  | 0, _, np, t => some (np, t)
  | c + 1, j, np, t => do
    let p ← pp[j + off]?
    let np1 ← store np j p
    let ca ← asNode p
    let child ← t.nodes[ca]?
    let t1 ← setNode t ca { child with parent := some newAddr }
    moveChildren pp off newAddr c (j + 1) np1 t1

/-- The branch `parent == NULL` of `insertIntoParent`: a new root over `left` and
`right`. -/
def makeRoot (t : BPlusTree) (left : Nat) (key : Int) (right : Nat) : Option BPlusTree := do
  let c := createNode t t.order false
  let nr ← c.1.nodes[c.2]?
  let ks ← store nr.keys 0 key
  let ps ← store nr.pointers 0 (Ptr.node left)
  let ps1 ← store ps 1 (Ptr.node right)
  let t2 ← setNode c.1 c.2 { nr with keys := ks, pointers := ps1, numKeys := 1 }
  let l2 ← t2.nodes[left]?
  let t3 ← setNode t2 left { l2 with parent := some c.2 }
  let r3 ← t3.nodes[right]?
  let t4 ← setNode t3 right { r3 with parent := some c.2 }
  pure { t4 with root := c.2 }

/-- The part of `insertIntoParent` that puts `key` and the pointer to `right` into the
node at address `pa`, shifting the keys and pointers behind them to the right. -/
def addToParent (t : BPlusTree) (pa : Nat) (key : Int) (right : Nat) : Option BPlusTree := do
  let p ← t.nodes[pa]?
  let i ← scanLT p.keys key p.numKeys 0
  let ks ← shiftRight i 0 (p.numKeys - i) p.keys
  let ps ← shiftRight i 1 (p.numKeys - i) p.pointers
  let ks1 ← store ks i key
  let ps1 ← store ps (i + 1) (Ptr.node right)
  setNode t pa { p with keys := ks1, pointers := ps1, numKeys := p.numKeys + 1 }

/-- The split of the over-full inner node at address `pa` in `insertIntoParent`, up to
the recursive call: the result is the memory, the key to push up and the address of the
new node. The difference `(order - 1) - (splitPoint + 1)` is not negative for
`order ≥ 2`. -/
def splitInternal (t : BPlusTree) (pa : Nat) : Option (BPlusTree × Int × Nat) := do
  let p1 ← t.nodes[pa]?
  let c := createNode t t.order false
  let splitPoint := (t.order - 1) / 2
  let keyToPush ← p1.keys[splitPoint]?
  let cnt := (t.order - 1) - (splitPoint + 1)
  let ni ← c.1.nodes[c.2]?
  let nks ← copyFrom p1.keys (splitPoint + 1) cnt 0 ni.keys
  let m ← moveChildren p1.pointers (splitPoint + 1) c.2 (cnt + 1) 0 ni.pointers c.1
  let ni3 ← m.2.nodes[c.2]?
  let t4 ← setNode m.2 c.2 { ni3 with keys := nks, pointers := m.1, numKeys := cnt }
  let p4 ← t4.nodes[pa]?
  let t5 ← setNode t4 pa { p4 with numKeys := splitPoint }
  let ni5 ← t5.nodes[c.2]?
  let t6 ← setNode t5 c.2 { ni5 with parent := p4.parent }
  pure (t6, keyToPush, c.2)

/-- `insertIntoParent(tree, left, key, right)` with a bound on the recursion depth;
`left` and `right` are node addresses. -/
def insertIntoParent : Nat → BPlusTree → Nat → Int → Nat → Option BPlusTree
  | 0, _, _, _, _ => none
  | f + 1, t, left, key, right =>
    match (t.nodes[left]?).map (fun l => l.parent) with
    | none => none
    | some none => makeRoot t left key right
    | some (some pa) =>
      match addToParent t pa key right with
      | none => none
      | some t1 =>
        match (t1.nodes[pa]?).map (fun p => decide (p.numKeys = t.order)) with
        | none => none
        | some false => some t1
        | some true =>
          match splitInternal t1 pa with
          | none => none
          | some s => insertIntoParent f s.1 pa s.2.1 s.2.2

/-- The split of the over-full leaf at address `leaf` in `insertIntoLeaf`, up to the call
of `insertIntoParent`: the result is the memory, the key to push up and the address of
the new leaf. -/
def splitLeaf (t : BPlusTree) (leaf : Nat) : Option (BPlusTree × Int × Nat) := do
  let lf1 ← t.nodes[leaf]?
  let c := createNode t t.order true
  let splitPoint := t.order / 2
  let cnt := t.order - splitPoint
  let nl ← c.1.nodes[c.2]?
  let nks ← copyFrom lf1.keys splitPoint cnt 0 nl.keys
  let nps ← copyFrom lf1.pointers splitPoint cnt 0 nl.pointers
  let t3 ← setNode c.1 c.2
    { nl with keys := nks, pointers := nps, numKeys := cnt, next := lf1.next,
              parent := lf1.parent }
  let t4 ← setNode t3 leaf { lf1 with numKeys := splitPoint, next := some c.2 }
  let keyToPush ← nks[0]?
  pure (t4, keyToPush, c.2)

/-- The part of `insertIntoLeaf` that puts `key` and `value` into the leaf, shifting the
keys and values behind them to the right. -/
def addToLeaf (t : BPlusTree) (leaf : Nat) (key value : Int) : Option BPlusTree := do
  let lf ← t.nodes[leaf]?
  let i ← scanLT lf.keys key lf.numKeys 0
  let ks ← shiftRight i 0 (lf.numKeys - i) lf.keys
  let ps ← shiftRight i 0 (lf.numKeys - i) lf.pointers
  let ks1 ← store ks i key
  let ps1 ← store ps i (Ptr.value value)
  setNode t leaf { lf with keys := ks1, pointers := ps1, numKeys := lf.numKeys + 1 }

/-- `insertIntoLeaf(tree, leaf, key, value)`; `leaf` is a node address. The recursion of
`insertIntoParent` goes up one level at a time: the number of nodes bounds it. -/
def insertIntoLeaf (t : BPlusTree) (leaf : Nat) (key value : Int) : Option BPlusTree := do
  let t1 ← addToLeaf t leaf key value
  let lf1 ← t1.nodes[leaf]?
  if lf1.numKeys = t.order then do
    let s ← splitLeaf t1 leaf
    insertIntoParent (s.1.nodes.length + 1) s.1 leaf s.2.1 s.2.2
  else pure t1

/-- `insert(tree, key, value)`. -/
def insert (t : BPlusTree) (key value : Int) : Option BPlusTree := do
  let leaf ← findLeaf t (t.nodes.length + 1) t.root key
  insertIntoLeaf t leaf key value

/-- A sequence of `insert(tree, key, value)` calls, first to last. -/
def insertAll : List (Int × Int) → BPlusTree → Option BPlusTree
  | [], t => some t
  | kv :: rest, t => (insert t kv.1 kv.2).bind (insertAll rest)

/-- The first ten insertions of `main`: the keys `10 20 30 5 15 25 7 12 17 35`, each
with the value `key + 100`. -/
def demo_inserts : List (Int × Int) :=
  [(10, 110), (20, 120), (30, 130), (5, 105), (15, 115), (25, 125), (7, 107), (12, 112),
   (17, 117), (35, 135)]

/-- The keys a node holds: its first `numKeys` key slots. -/
def liveKeys (nd : BPlusTreeNode) : List Int :=
  nd.keys.take nd.numKeys

/-- The child pointers of an inner node: its first `numKeys + 1` pointer slots. -/
def liveChildren (nd : BPlusTreeNode) : List Ptr :=
  nd.pointers.take (nd.numKeys + 1)

/-- The tenth insertion of `main`, `insert(t, 35, 135)`, run up to the test
`parent->numKeys == tree->order` of `insertIntoParent`: the memory at that point and the
address of `parent`. Every array has one usable element beyond its requested size. -/
def overfullDemo : Option (BPlusTree × Nat) := do
  let t9 ← insertAll (demo_inserts.take 9) (createBPlusTree 1 4)
  let leaf ← findLeaf t9 (t9.nodes.length + 1) t9.root 35
  let t1 ← addToLeaf t9 leaf 35 135
  let s ← splitLeaf t1 leaf
  let l ← s.1.nodes[leaf]?
  let pa ← l.parent
  let t2 ← addToParent s.1 pa s.2.1 s.2.2
  pure (t2, pa)

/-- The node at an address after the split of the inner node of `overfullDemo`. -/
def afterSplit (addr : Nat) : Option BPlusTreeNode := do
  let x ← overfullDemo
  let s ← splitInternal x.1 x.2
  s.1.nodes[addr]?

end BPlus

namespace RedBlack

/-- The enumeration `Color` of `red_black.c`. -/
inductive Color where
  | RED
  | BLACK
deriving DecidableEq, Repr

/-- A `Node` of `red_black.c`; the three pointers are addresses. -/
structure Node where
  key : Int
  color : Color
  parent : Nat
  left : Nat
  right : Nat
deriving DecidableEq, Repr

/-- The null pointer: no node is ever stored at this address. -/
def NULL : Nat := 0

/-- The memory of the program together with the `RedBlackTree` structure: `mem a` is
the node stored at address `a` (`none` where nothing is allocated, or after `free`),
`next` is the address the next `malloc` returns, `root` and `NIL` are the two fields of
the structure. Reading or writing through an address that holds no node is undefined
in C and gives `none` in every function below. -/
structure RedBlackTree where
  mem : Nat → Option Node
  next : Nat
  root : Nat
  NIL : Nat

/-- A write of a whole node at an address. -/
def store (t : RedBlackTree) (a : Nat) (n : Node) : RedBlackTree :=
  { t with mem := fun b => if b = a then some n else t.mem b }

/-- The call `free(a)`. -/
def release (t : RedBlackTree) (a : Nat) : RedBlackTree :=
  { t with mem := fun b => if b = a then none else t.mem b }

/-- The read `a->key`. -/
def keyOf (t : RedBlackTree) (a : Nat) : Option Int :=
  (t.mem a).map fun n => n.key

/-- The read `a->color`. -/
def colorOf (t : RedBlackTree) (a : Nat) : Option Color :=
  (t.mem a).map fun n => n.color

/-- The read `a->parent`. -/
def parentOf (t : RedBlackTree) (a : Nat) : Option Nat :=
  (t.mem a).map fun n => n.parent

/-- The read `a->left`. -/
def leftOf (t : RedBlackTree) (a : Nat) : Option Nat :=
  (t.mem a).map fun n => n.left

/-- The read `a->right`. -/
def rightOf (t : RedBlackTree) (a : Nat) : Option Nat :=
  (t.mem a).map fun n => n.right

/-- The write `a->color = c`. -/
def setColor (t : RedBlackTree) (a : Nat) (c : Color) : Option RedBlackTree :=
  (t.mem a).map fun n => store t a { n with color := c }

/-- The write `a->parent = p`. -/
def setParent (t : RedBlackTree) (a : Nat) (p : Nat) : Option RedBlackTree :=
  (t.mem a).map fun n => store t a { n with parent := p }

/-- The write `a->left = l`. -/
def setLeft (t : RedBlackTree) (a : Nat) (l : Nat) : Option RedBlackTree :=
  (t.mem a).map fun n => store t a { n with left := l }

/-- The write `a->right = r`. -/
def setRight (t : RedBlackTree) (a : Nat) (r : Nat) : Option RedBlackTree :=
  (t.mem a).map fun n => store t a { n with right := r }

/-- `createRedBlackTree()`: the sentinel is the first node allocated, at address `1`;
both allocations are taken to succeed. -/
def createRedBlackTree : RedBlackTree :=
  { mem := fun b => if b = 1 then some ⟨0, .BLACK, NULL, NULL, NULL⟩ else none
    next := 2
    root := 1
    NIL := 1 }

/-- `createNode(tree, key)`: the allocation is taken to succeed and to return an
address never handed out before; the result is the new state and that address. -/
def createNode (t : RedBlackTree) (key : Int) : RedBlackTree × Nat :=
  (store { t with next := t.next + 1 } t.next ⟨key, .RED, t.NIL, t.NIL, t.NIL⟩, t.next)

/-- `leftRotate(tree, x)`, statement by statement. -/
def leftRotate (t : RedBlackTree) (x : Nat) : Option RedBlackTree := do
  let y ← rightOf t x
  let yl ← leftOf t y
  let t ← setRight t x yl
  let yl ← leftOf t y
  let t ← (if yl ≠ t.NIL then setParent t yl x else some t)
  let xp ← parentOf t x
  let t ← setParent t y xp
  let xp ← parentOf t x
  let t ← (if xp = t.NIL then some { t with root := y }
    else (leftOf t xp).bind fun xpl =>
      if x = xpl then setLeft t xp y else setRight t xp y)
  let t ← setLeft t y x
  setParent t x y

/-- `rightRotate(tree, y)`, statement by statement. -/
def rightRotate (t : RedBlackTree) (y : Nat) : Option RedBlackTree := do
  let x ← leftOf t y
  let xr ← rightOf t x
  let t ← setLeft t y xr
  let xr ← rightOf t x
  let t ← (if xr ≠ t.NIL then setParent t xr y else some t)
  let yp ← parentOf t y
  let t ← setParent t x yp
  let yp ← parentOf t y
  let t ← (if yp = t.NIL then some { t with root := x }
    else (rightOf t yp).bind fun ypr =>
      if y = ypr then setRight t yp x else setLeft t yp x)
  let t ← setRight t x y
  setParent t y x

/-- The loop `while (x != tree->NIL)` of `insert`: the result is the final `y`. The
first argument bounds the number of iterations. -/
def descend (z : Nat) : Nat → RedBlackTree → Nat → Nat → Option Nat
  | 0, _, _, _ => none
  | fuel + 1, t, y, x =>
    if x ≠ t.NIL then
      (keyOf t z).bind fun zk =>
      (keyOf t x).bind fun xk =>
      if zk < xk then (leftOf t x).bind fun l => descend z fuel t x l
      else (rightOf t x).bind fun r => descend z fuel t x r
    else some y

/-- Case 1 of `insertFixup`, the same four statements on both sides: the uncle `y` is
RED. The result is the new state and the new `z`. -/
def insertCase1 (t : RedBlackTree) (z y : Nat) : Option (RedBlackTree × Nat) := do
  let zp ← parentOf t z
  let t ← setColor t zp .BLACK
  let t ← setColor t y .BLACK
  let zp ← parentOf t z
  let zpp ← parentOf t zp
  let t ← setColor t zpp .RED
  let zp ← parentOf t z
  let zpp ← parentOf t zp
  some (t, zpp)

/-- Case 2 of `insertFixup` when `z->parent` is a left child: `z` moves to its parent
and that node is rotated to the left, when `z` is a right child. -/
def insertCase2Left (t : RedBlackTree) (z : Nat) : Option (RedBlackTree × Nat) := do
  let zp ← parentOf t z
  let zpr ← rightOf t zp
  if z = zpr then (leftRotate t zp).map fun t1 => (t1, zp) else some (t, z)

/-- Case 3 of `insertFixup` when `z->parent` is a left child. -/
def insertCase3Left (t : RedBlackTree) (z : Nat) : Option (RedBlackTree × Nat) := do
  let zp ← parentOf t z
  let t ← setColor t zp .BLACK
  let zp ← parentOf t z
  let zpp ← parentOf t zp
  let t ← setColor t zpp .RED
  let zp ← parentOf t z
  let zpp ← parentOf t zp
  let t ← rightRotate t zpp
  some (t, z)

/-- Case 2 of `insertFixup` when `z->parent` is a right child. -/
def insertCase2Right (t : RedBlackTree) (z : Nat) : Option (RedBlackTree × Nat) := do
  let zp ← parentOf t z
  let zpl ← leftOf t zp
  if z = zpl then (rightRotate t zp).map fun t1 => (t1, zp) else some (t, z)

/-- Case 3 of `insertFixup` when `z->parent` is a right child. -/
def insertCase3Right (t : RedBlackTree) (z : Nat) : Option (RedBlackTree × Nat) := do
  let zp ← parentOf t z
  let t ← setColor t zp .BLACK
  let zp ← parentOf t z
  let zpp ← parentOf t zp
  let t ← setColor t zpp .RED
  let zp ← parentOf t z
  let zpp ← parentOf t zp
  let t ← leftRotate t zpp
  some (t, z)

/-- The body of the loop of `insertFixup` when `z->parent` is a left child: the
result is the new state and the new `z`. -/
def insertFixupLeft (t : RedBlackTree) (z : Nat) : Option (RedBlackTree × Nat) := do
  let zp ← parentOf t z
  let zpp ← parentOf t zp
  let y ← rightOf t zpp
  let yc ← colorOf t y
  if yc = .RED then insertCase1 t z y
  else (insertCase2Left t z).bind fun r => insertCase3Left r.1 r.2

/-- The body of the loop of `insertFixup` when `z->parent` is not a left child. -/
def insertFixupRight (t : RedBlackTree) (z : Nat) : Option (RedBlackTree × Nat) := do
  let zp ← parentOf t z
  let zpp ← parentOf t zp
  let y ← leftOf t zpp
  let yc ← colorOf t y
  if yc = .RED then insertCase1 t z y
  else (insertCase2Right t z).bind fun r => insertCase3Right r.1 r.2

/-- The test of the loop of `insertFixup`, `z->parent->color == RED`. -/
def insertFixupTest (t : RedBlackTree) (z : Nat) : Option Bool := do
  let zp ← parentOf t z
  let zpc ← colorOf t zp
  some (decide (zpc = .RED))

/-- The body of the loop of `insertFixup`. -/
def insertFixupBody (t : RedBlackTree) (z : Nat) : Option (RedBlackTree × Nat) := do
  let zp ← parentOf t z
  let zpp ← parentOf t zp
  let zppl ← leftOf t zpp
  if zp = zppl then insertFixupLeft t z else insertFixupRight t z

/-- The loop of `insertFixup(tree, z)` followed by `tree->root->color = BLACK`. The
first argument bounds the number of iterations. -/
def insertFixupLoop : Nat → RedBlackTree → Nat → Option RedBlackTree
  | 0, _, _ => none
  | fuel + 1, t, z =>
    (insertFixupTest t z).bind fun go =>
    if go then (insertFixupBody t z).bind fun r => insertFixupLoop fuel r.1 r.2
    else setColor t t.root .BLACK

/-- `insertFixup(tree, z)`. -/
def insertFixup (t : RedBlackTree) (z : Nat) : Option RedBlackTree :=
  insertFixupLoop t.next t z

/-- The statements of `insert` after its loop and before the call of `insertFixup`:
`z->parent = y` and the link from `y`, or from the root pointer, to `z`. -/
def linkNode (t : RedBlackTree) (z y : Nat) : Option RedBlackTree := do
  let t ← setParent t z y
  if y = t.NIL then some { t with root := z }
  else
    (keyOf t z).bind fun zk =>
    (keyOf t y).bind fun yk =>
    if zk < yk then setLeft t y z else setRight t y z

/-- `insert(tree, key)`. -/
def insert (t : RedBlackTree) (key : Int) : Option RedBlackTree := do
  let (t, z) := createNode t key
  let y ← descend z t.next t t.NIL t.root
  let t ← linkNode t z y
  insertFixup t z

/-- `transplant(tree, u, v)`. -/
def transplant (t : RedBlackTree) (u v : Nat) : Option RedBlackTree := do
  let up ← parentOf t u
  let t ← (if up = t.NIL then some { t with root := v }
    else (leftOf t up).bind fun upl =>
      if u = upl then setLeft t up v else setRight t up v)
  let up ← parentOf t u
  setParent t v up

/-- The loop of `minimum(tree, node)`. The first argument bounds the number of
iterations. -/
def minimumLoop : Nat → RedBlackTree → Nat → Option Nat
  | 0, _, _ => none
  | fuel + 1, t, node =>
    (leftOf t node).bind fun l =>
    if l ≠ t.NIL then minimumLoop fuel t l else some node

/-- `minimum(tree, node)`. -/
def minimum (t : RedBlackTree) (node : Nat) : Option Nat :=
  minimumLoop t.next t node

/-- The loop of `search(tree, key)`. The first argument bounds the number of
iterations. -/
def searchLoop (key : Int) : Nat → RedBlackTree → Nat → Option Nat
  | 0, _, _ => none
  | fuel + 1, t, current =>
    if current ≠ t.NIL then
      (keyOf t current).bind fun ck =>
      if key ≠ ck then
        if key < ck then (leftOf t current).bind fun l => searchLoop key fuel t l
        else (rightOf t current).bind fun r => searchLoop key fuel t r
      else some current
    else some current

/-- `search(tree, key)`: the address of the node found, `tree->NIL` when there is
none. -/
def search (t : RedBlackTree) (key : Int) : Option Nat :=
  searchLoop key t.next t t.root

/-- Case 1 of `deleteFixup` when `x` is a left child: the sibling `w` is RED. The
result is the new state and the new `w`. -/
def deleteCase1Left (t : RedBlackTree) (x w : Nat) : Option (RedBlackTree × Nat) := do
  let wc ← colorOf t w
  if wc = .RED then
    let t ← setColor t w .BLACK
    let xp ← parentOf t x
    let t ← setColor t xp .RED
    let xp ← parentOf t x
    let t ← leftRotate t xp
    let xp ← parentOf t x
    let w ← rightOf t xp
    some (t, w)
  else some (t, w)

/-- Case 1 of `deleteFixup` when `x` is a right child. -/
def deleteCase1Right (t : RedBlackTree) (x w : Nat) : Option (RedBlackTree × Nat) := do
  let wc ← colorOf t w
  if wc = .RED then
    let t ← setColor t w .BLACK
    let xp ← parentOf t x
    let t ← setColor t xp .RED
    let xp ← parentOf t x
    let t ← rightRotate t xp
    let xp ← parentOf t x
    let w ← leftOf t xp
    some (t, w)
  else some (t, w)

/-- The test `w->left->color == BLACK && w->right->color == BLACK` of `deleteFixup`;
the right child is read only when the first part holds. -/
def bothBlack (t : RedBlackTree) (w : Nat) : Option Bool := do
  let wl ← leftOf t w
  let wlc ← colorOf t wl
  if wlc = .BLACK then
    let wr ← rightOf t w
    let wrc ← colorOf t wr
    some (decide (wrc = .BLACK))
  else some false

/-- Case 2 of `deleteFixup`, the same two statements on both sides. The result is the
new state and the new `x`. -/
def deleteCase2 (t : RedBlackTree) (x w : Nat) : Option (RedBlackTree × Nat) := do
  let t ← setColor t w .RED
  let xp ← parentOf t x
  some (t, xp)

/-- Case 3 of `deleteFixup` when `x` is a left child. The result is the new state and
the new `w`. -/
def deleteCase3Left (t : RedBlackTree) (x w : Nat) : Option (RedBlackTree × Nat) := do
  let wr ← rightOf t w
  let wrc ← colorOf t wr
  if wrc = .BLACK then
    let wl ← leftOf t w
    let t ← setColor t wl .BLACK
    let t ← setColor t w .RED
    let t ← rightRotate t w
    let xp ← parentOf t x
    let w ← rightOf t xp
    some (t, w)
  else some (t, w)

/-- Case 3 of `deleteFixup` when `x` is a right child. -/
def deleteCase3Right (t : RedBlackTree) (x w : Nat) : Option (RedBlackTree × Nat) := do
  let wl ← leftOf t w
  let wlc ← colorOf t wl
  if wlc = .BLACK then
    let wr ← rightOf t w
    let t ← setColor t wr .BLACK
    let t ← setColor t w .RED
    let t ← leftRotate t w
    let xp ← parentOf t x
    let w ← leftOf t xp
    some (t, w)
  else some (t, w)

/-- Case 4 of `deleteFixup` when `x` is a left child. The result is the new state and
the new `x`, which is the root. -/
def deleteCase4Left (t : RedBlackTree) (x w : Nat) : Option (RedBlackTree × Nat) := do
  let xp ← parentOf t x
  let xpc ← colorOf t xp
  let t ← setColor t w xpc
  let xp ← parentOf t x
  let t ← setColor t xp .BLACK
  let wr ← rightOf t w
  let t ← setColor t wr .BLACK
  let xp ← parentOf t x
  let t ← leftRotate t xp
  some (t, t.root)

/-- Case 4 of `deleteFixup` when `x` is a right child. -/
def deleteCase4Right (t : RedBlackTree) (x w : Nat) : Option (RedBlackTree × Nat) := do
  let xp ← parentOf t x
  let xpc ← colorOf t xp
  let t ← setColor t w xpc
  let xp ← parentOf t x
  let t ← setColor t xp .BLACK
  let wl ← leftOf t w
  let t ← setColor t wl .BLACK
  let xp ← parentOf t x
  let t ← rightRotate t xp
  some (t, t.root)

/-- The body of the loop of `deleteFixup` after case 1, when `x` is a left child: case
2, or cases 3 and 4. -/
def deleteRestLeft (t : RedBlackTree) (x w : Nat) : Option (RedBlackTree × Nat) := do
  let both ← bothBlack t w
  if both then deleteCase2 t x w
  else (deleteCase3Left t x w).bind fun r3 => deleteCase4Left r3.1 x r3.2

/-- The body of the loop of `deleteFixup` after case 1, when `x` is a right child. -/
def deleteRestRight (t : RedBlackTree) (x w : Nat) : Option (RedBlackTree × Nat) := do
  let both ← bothBlack t w
  if both then deleteCase2 t x w
  else (deleteCase3Right t x w).bind fun r3 => deleteCase4Right r3.1 x r3.2

/-- The body of the loop of `deleteFixup` when `x` is a left child: the result is the
new state and the new `x`. -/
def deleteFixupLeft (t : RedBlackTree) (x : Nat) : Option (RedBlackTree × Nat) := do
  let xp ← parentOf t x
  let w ← rightOf t xp
  let r ← deleteCase1Left t x w
  deleteRestLeft r.1 x r.2

/-- The body of the loop of `deleteFixup` when `x` is not a left child. -/
def deleteFixupRight (t : RedBlackTree) (x : Nat) : Option (RedBlackTree × Nat) := do
  let xp ← parentOf t x
  let w ← leftOf t xp
  let r ← deleteCase1Right t x w
  deleteRestRight r.1 x r.2

/-- The test of the loop of `deleteFixup`, `x != tree->root && x->color == BLACK`;
the colour is read only when the first part holds. -/
def deleteFixupTest (t : RedBlackTree) (x : Nat) : Option Bool :=
  if x ≠ t.root then (colorOf t x).map fun c => decide (c = .BLACK) else some false

/-- The body of the loop of `deleteFixup`. -/
def deleteFixupBody (t : RedBlackTree) (x : Nat) : Option (RedBlackTree × Nat) := do
  let xp ← parentOf t x
  let xpl ← leftOf t xp
  if x = xpl then deleteFixupLeft t x else deleteFixupRight t x

/-- The loop of `deleteFixup(tree, x)` followed by `x->color = BLACK`. The first
argument bounds the number of iterations. -/
def deleteFixupLoop : Nat → RedBlackTree → Nat → Option RedBlackTree
  | 0, _, _ => none
  | fuel + 1, t, x =>
    (deleteFixupTest t x).bind fun go =>
    if go then (deleteFixupBody t x).bind fun r => deleteFixupLoop fuel r.1 r.2
    else setColor t x .BLACK

/-- `deleteFixup(tree, x)`. -/
def deleteFixup (t : RedBlackTree) (x : Nat) : Option RedBlackTree :=
  deleteFixupLoop t.next t x

/-- The end of `deleteNode`: `free(z)` and the call of `deleteFixup` when the node
removed from its place was BLACK. -/
def finishDelete (t : RedBlackTree) (z x : Nat) (y_original_color : Color) :
    Option RedBlackTree :=
  let t := release t z
  if y_original_color = .BLACK then deleteFixup t x else some t

/-- The statements `y->right = z->right; y->right->parent = y;` of `deleteNode`. -/
def moveRightSubtree (t : RedBlackTree) (z y : Nat) : Option RedBlackTree := do
  let zr ← rightOf t z
  let t ← setRight t y zr
  let yr ← rightOf t y
  setParent t yr y

/-- The statements `transplant(tree, z, y); y->left = z->left; y->left->parent = y;
y->color = z->color;` of `deleteNode`. -/
def replaceBySuccessor (t : RedBlackTree) (z y : Nat) : Option RedBlackTree := do
  let t ← transplant t z y
  let zl ← leftOf t z
  let t ← setLeft t y zl
  let yl ← leftOf t y
  let t ← setParent t yl y
  let zc ← colorOf t z
  setColor t y zc

/-- The branch of `deleteNode` for a node `z` with two children. -/
def deleteTwoChildren (t : RedBlackTree) (z : Nat) : Option RedBlackTree := do
  let zr ← rightOf t z
  let y ← minimum t zr
  let y_original_color ← colorOf t y
  let x ← rightOf t y
  let yp ← parentOf t y
  let t ← (if yp = z then setParent t x y
    else do
      let yr ← rightOf t y
      let t ← transplant t y yr
      moveRightSubtree t z y)
  let t ← replaceBySuccessor t z y
  finishDelete t z x y_original_color

/-- `deleteNode(tree, key)`. -/
def deleteNode (t : RedBlackTree) (key : Int) : Option RedBlackTree := do
  let z ← search t key
  if z = t.NIL then some t
  else
    let y_original_color ← colorOf t z
    let zl ← leftOf t z
    if zl = t.NIL then
      let x ← rightOf t z
      let zr ← rightOf t z
      let t ← transplant t z zr
      finishDelete t z x y_original_color
    else
      let zr ← rightOf t z
      if zr = t.NIL then
        let x ← leftOf t z
        let zl ← leftOf t z
        let t ← transplant t z zl
        finishDelete t z x y_original_color
      else deleteTwoChildren t z

/-- One call on the tree. -/
inductive Op where
  | insert (key : Int)
  | deleteNode (key : Int)

/-- A sequence of calls, in order. -/
def runOps : List Op → RedBlackTree → Option RedBlackTree
  | [], t => some t
  | .insert key :: ops, t => (insert t key).bind (runOps ops)
  | .deleteNode key :: ops, t => (deleteNode t key).bind (runOps ops)

/-- A binary tree of nodes, each with its address, colour and key; `leaf` stands for
the sentinel. -/
inductive Tree where
  | leaf
  | node (a : Nat) (c : Color) (k : Int) (l r : Tree)
deriving Repr

/-- The tree that `inorderHelper` and `printTreeHelper` walk from the address `a`:
left and right pointers are followed until `tree->NIL`. The first argument bounds the
depth. -/
def readTree (t : RedBlackTree) : Nat → Nat → Option Tree
  | 0, _ => none
  | fuel + 1, a =>
    if a = t.NIL then some .leaf
    else
      (t.mem a).bind fun n =>
      (readTree t fuel n.left).bind fun l =>
      (readTree t fuel n.right).bind fun r =>
      some (.node a n.color n.key l r)

/-- The tree below `tree->root`. -/
def treeOf (t : RedBlackTree) : Option Tree :=
  readTree t t.next t.root

/-- The keys in the order `inorderHelper` prints them. -/
def inorder : Tree → List Int
  | .leaf => []
  | .node _ _ k l r => inorder l ++ k :: inorder r

/-- The colour of the root of a tree; the sentinel is BLACK. -/
def rootColor : Tree → Color
  | .leaf => .BLACK
  | .node _ c _ _ _ => c

/-- No RED node has a RED child. -/
def NoRedRed : Tree → Prop
  | .leaf => True
  | .node _ c _ l r =>
    (c = .RED → rootColor l = .BLACK ∧ rootColor r = .BLACK) ∧ NoRedRed l ∧ NoRedRed r

/-- For every path from the root to the sentinel, its number of BLACK nodes (the
sentinel not counted). -/
def blackCounts : Tree → List Nat
  | .leaf => [0]
  | .node _ c _ l r =>
    (blackCounts l ++ blackCounts r).map fun n => n + (if c = .BLACK then 1 else 0)

/-- The address of the root of a tree; the sentinel is at address `1`. -/
def addr : Tree → Nat
  | .leaf => 1
  | .node a _ _ _ _ => a

/-- The addresses of the nodes of a tree. -/
def addrs : Tree → List Nat
  | .leaf => []
  | .node a _ _ l r => a :: (addrs l ++ addrs r)

/-- The memory `m` holds the tree below a node whose parent pointer is `p`: every node
is stored at its address with its key, colour and the addresses of its parent and of
its two children. -/
def Rep (m : Nat → Option Node) : Nat → Tree → Prop
  | _, .leaf => True
  | p, .node a c k l r =>
    m a = some ⟨k, c, p, addr l, addr r⟩ ∧ Rep m a l ∧ Rep m a r

/-- One step of a path from a node up to the root: the node `a` above, with its
colour and key and its other child `s`; `L` when the path comes from the left child,
`R` when it comes from the right child. -/
inductive Frame where
  | L (a : Nat) (c : Color) (k : Int) (s : Tree)
  | R (a : Nat) (c : Color) (k : Int) (s : Tree)

/-- The address of the node of a frame. -/
def Frame.a : Frame → Nat
  | .L a _ _ _ => a
  | .R a _ _ _ => a

/-- The colour of the node of a frame. -/
def Frame.c : Frame → Color
  | .L _ c _ _ => c
  | .R _ c _ _ => c

/-- The other child of the node of a frame. -/
def Frame.s : Frame → Tree
  | .L _ _ _ s => s
  | .R _ _ _ s => s

/-- The node of a frame with the tree `t` put below it. -/
def plugF : Frame → Tree → Tree
  | .L a c k s, t => .node a c k t s
  | .R a c k s, t => .node a c k s t

/-- The whole tree, from a subtree `t` and the path from it up to the root (nearest
node first). -/
def plug : List Frame → Tree → Tree
  | [], t => t
  | f :: up, t => plug up (plugF f t)

/-- The address of the parent of the subtree at the end of a path: the sentinel's
when the path is empty. -/
def top : List Frame → Nat
  | [] => 1
  | f :: _ => f.a

/-- The memory `m` holds the nodes of a path and their other subtrees, the child
pointer at the end of the path being `h`. The root, at the far end, has the sentinel as
its parent. -/
def RepCtx (m : Nat → Option Node) : List Frame → Nat → Prop
  | [], _ => True
  | .L a c k s :: up, h =>
    m a = some ⟨k, c, top up, h, addr s⟩ ∧ Rep m a s ∧ RepCtx m up a
  | .R a c k s :: up, h =>
    m a = some ⟨k, c, top up, addr s, h⟩ ∧ Rep m a s ∧ RepCtx m up a

/-- The addresses of the nodes of a path and of their other subtrees. -/
def ctxAddrs : List Frame → List Nat
  | [] => []
  | f :: up => f.a :: (addrs f.s ++ ctxAddrs up)

/-- The key of the node of a frame. -/
def Frame.k : Frame → Int
  | .L _ _ k _ => k
  | .R _ _ k _ => k

/-- The keys printed before the subtree at the end of a path. -/
def keysBefore : List Frame → List Int
  | [] => []
  | .L _ _ _ _ :: up => keysBefore up
  | .R _ _ k s :: up => keysBefore up ++ (inorder s ++ [k])

/-- The keys printed after the subtree at the end of a path. -/
def keysAfter : List Frame → List Int
  | [] => []
  | .L _ _ k s :: up => k :: inorder s ++ keysAfter up
  | .R _ _ _ _ :: up => keysAfter up

/-- The state holds the tree `T`: the sentinel is at address `1` and is BLACK, the
root pointer is the address of the root of `T`, whose parent pointer is the sentinel,
and the nodes of `T` are stored at distinct addresses allocated so far, after the
sentinel's. -/
structure Whole (s : RedBlackTree) (T : Tree) : Prop where
  nil : s.NIL = 1
  root : s.root = addr T
  rep : Rep s.mem 1 T
  nodup : (addrs T).Nodup
  lo : ∀ a ∈ addrs T, 2 ≤ a ∧ a < s.next
  sent : ∃ n, s.mem 1 = some n ∧ n.color = .BLACK
  two : 2 ≤ s.next

/-- The outcome of a step on a state `s`: the new state holds the tree `T`, the
sentinel node and the allocation pointer are as they were. -/
structure Step (s s2 : RedBlackTree) (T : Tree) : Prop where
  whole : Whole s2 T
  sent : s2.mem 1 = s.mem 1
  next : s2.next = s.next

/-- The outcome of taking a node `u` out of the tree, the subtree `t` coming in its
place at the end of the path `ctx`: the new state holds the new tree, the parent pointer
of the root of `t` (of the sentinel when `t` is empty) is the node above, the node `u`
itself is as it was. -/
structure Spliced (s s2 : RedBlackTree) (ctx : List Frame) (t : Tree) (u : Nat) : Prop where
  whole : Whole s2 (plug ctx t)
  next : s2.next = s.next
  door : parentOf s2 (addr t) = some (top ctx)
  kept : s2.mem u = s.mem u

/-- The side on which `insert` puts a node with key `key` below the node at the end of
a path agrees with the path: to the left when the key is smaller, to the right if not. -/
def Toward (key : Int) : List Frame → Prop
  | [] => True
  | .L _ _ k _ :: _ => key < k
  | .R _ _ k _ :: _ => ¬ key < k

/-- A tree with the colour of its root changed; the empty tree is left alone. -/
def paint : Tree → Color → Tree
  | .leaf, _ => .leaf
  | .node a _ k l r, c => .node a c k l r

/-- A frame with the colour of its node changed. -/
def Frame.paint : Frame → Color → Frame
  | .L a _ k s, c => .L a c k s
  | .R a _ k s, c => .R a c k s

/-- A frame with its other subtree replaced. -/
def Frame.withS : Frame → Tree → Frame
  | .L a c k _, s => .L a c k s
  | .R a c k _, s => .R a c k s

/-- The path that the loop of `insert` follows for the key `key`, from the subtree `t`
at the end of the path `ctx` down to an empty place. -/
def insPath (key : Int) : Tree → List Frame → List Frame
  | .leaf, ctx => ctx
  | .node a c k l r, ctx =>
    if key < k then insPath key l (.L a c k r :: ctx) else insPath key r (.R a c k l :: ctx)

/-- The path that the loop of `search` follows for the key `key`, and the subtree at
which it stops: the first node with that key, or an empty place. -/
def findPath (key : Int) : Tree → List Frame → List Frame × Tree
  | .leaf, ctx => (ctx, .leaf)
  | .node a c k l r, ctx =>
    if key = k then (ctx, .node a c k l r)
    else if key < k then findPath key l (.L a c k r :: ctx)
    else findPath key r (.R a c k l :: ctx)

/-- The path that the loop of `minimum` follows, and the subtree at which it stops: the
leftmost node. -/
def minPath : Tree → List Frame → List Frame × Tree
  | .leaf, ctx => (ctx, .leaf)
  | .node a c k .leaf r, ctx => (ctx, .node a c k .leaf r)
  | .node a c k (.node la lc lk ll lr) r, ctx =>
    minPath (.node la lc lk ll lr) (.L a c k r :: ctx)

/-- The number of BLACK nodes on the leftmost path. -/
def bh : Tree → Nat
  | .leaf => 0
  | .node _ c _ l _ => bh l + (if c = .BLACK then 1 else 0)

/-- No RED node has a RED child and, at every node, the two subtrees have the same
number of BLACK nodes on their leftmost paths. -/
def Ok : Tree → Prop
  | .leaf => True
  | .node _ c _ l r =>
    Ok l ∧ Ok r ∧ bh l = bh r ∧ (c = .RED → rootColor l = .BLACK ∧ rootColor r = .BLACK)

/-- What a path asks of the subtree at its end for the whole tree to be `Ok`: a root
of colour `c` and `n` BLACK nodes on the leftmost path. -/
def OkCtx : List Frame → Color → Nat → Prop
  | [], _, _ => True
  | f :: up, c, n =>
    Ok f.s ∧ bh f.s = n ∧ (f.c = .RED → c = .BLACK ∧ rootColor f.s = .BLACK) ∧
      OkCtx up f.c (n + (if f.c = .BLACK then 1 else 0))

/-- The colour of the root of the whole tree, from the path and the colour `c` of the
root of the subtree at its end. -/
def ctxRoot : List Frame → Color → Color
  | [], c => c
  | f :: up, _ => ctxRoot up f.c

/-- What the loop of `insertFixup` keeps true of the node `z`, RED and at the end of the
path `ctx`, with subtrees `l` and `r`: nothing is wrong with the colours but, possibly,
that the parent of `z` is RED too, or that `z` is the root. -/
structure InsInv (ctx : List Frame) (l r : Tree) (m : Nat) : Prop where
  okl : Ok l
  okr : Ok r
  bhl : bh l = m
  bhr : bh r = m
  cl : rootColor l = .BLACK
  cr : rootColor r = .BLACK
  path : OkCtx ctx .BLACK m
  root : ctxRoot ctx .BLACK = .BLACK

/-- What the loop of `deleteFixup` keeps true of the subtree `t` at the end of the path
`ctx`: the subtree is in order once its root is BLACK and is short of one BLACK node
for the path. -/
structure DelInv (ctx : List Frame) (t : Tree) (m : Nat) : Prop where
  ok : Ok (paint t .BLACK)
  bht : bh t = m
  path : OkCtx ctx .BLACK (m + 1)
  root : ctxRoot ctx .BLACK = .BLACK

/-- What one round of the loop of `deleteFixup` gives, from the subtree `t` at the end of
the path `ctx`: a state `s2` and a new `x`, the root of a subtree `t2` at the end of a
path `ctx2`, of which the loop keeps `DelInv` true; the keys are as they were, in
order; and either the path is shorter, or the new `x` is RED, or it is the root. -/
def Outcome (s : RedBlackTree) (ctx : List Frame) (t : Tree) (s2 : RedBlackTree) (x2 : Nat) :
    Prop :=
  ∃ ctx2 t2 m2, x2 = addr t2 ∧ Whole s2 (plug ctx2 t2) ∧
    parentOf s2 (addr t2) = some (top ctx2) ∧ s2.next = s.next ∧
    inorder (plug ctx2 t2) = inorder (plug ctx t) ∧ DelInv ctx2 t2 m2 ∧
    (ctx2.length < ctx.length ∨ rootColor t2 = .RED ∨ ctx2 = [])

/-- A tree that satisfies the red-black properties and holds its keys in order. -/
structure Good (T : Tree) : Prop where
  ok : Ok T
  black : rootColor T = .BLACK
  sorted : (inorder T).Sorted (· ≤ ·)

end RedBlack

namespace BT

/-! ### Array loops -/

theorem store_eq_some {α : Type} {a : List α} {i : Nat} (v : α) (h : i < a.length) :
    store a i v = some (a.set i v) := by
  simp [store, h]

theorem store_some_iff {α : Type} {a a' : List α} {i : Nat} {v : α} :
    store a i v = some a' ↔ i < a.length ∧ a' = a.set i v := by
  unfold store
  split <;> simp_all [eq_comm]

theorem shiftUp_spec {α : Type} (lo : Nat) :
    ∀ (cnt : Nat) (a : List α), lo + cnt < a.length →
      ∃ a', shiftUp lo cnt a = some a' ∧ a'.length = a.length ∧
        ∀ j, a'[j]? = if lo < j ∧ j ≤ lo + cnt then a[j - 1]? else a[j]? := by
  intro cnt
  induction cnt with
  | zero =>
    intro a _
    refine ⟨a, rfl, rfl, fun j => ?_⟩
    rw [if_neg (by omega)]
  | succ c ih =>
    intro a h
    have hv : lo + c < a.length := by omega
    obtain ⟨a', h1, h2, h3⟩ := ih (a.set (lo + c + 1) a[lo + c]) (by simp; omega)
    refine ⟨a', ?_, by simpa using h2, fun j => ?_⟩
    · simp [shiftUp, List.getElem?_eq_getElem hv, store_eq_some _ (show lo + c + 1 < a.length by omega), h1]
    · rw [h3 j]
      simp only [List.getElem?_set]
      by_cases hj : j = lo + c + 1
      · subst hj
        have e1 : ¬ (lo < lo + c + 1 ∧ lo + c + 1 ≤ lo + c) := by omega
        have e2 : (lo < lo + c + 1 ∧ lo + c + 1 ≤ lo + (c + 1)) := by omega
        have e3 : lo + c + 1 < a.length := by omega
        simp [e1, e2, e3, List.getElem?_eq_getElem hv]
      · by_cases hj2 : lo < j ∧ j ≤ lo + c
        · have e2 : (lo < j ∧ j ≤ lo + (c + 1)) := by omega
          have e3 : ¬ (lo + c + 1 = j - 1) := by omega
          simp [hj2, e2, e3]
        · have e2 : ¬ (lo < j ∧ j ≤ lo + (c + 1)) := by omega
          have e3 : ¬ (lo + c + 1 = j) := by omega
          simp [hj2, e2, e3]

theorem shiftDown_spec {α : Type} :
    ∀ (cnt p : Nat) (a : List α), p + cnt < a.length →
      ∃ a', shiftDown cnt p a = some a' ∧ a'.length = a.length ∧
        ∀ j, a'[j]? = if p ≤ j ∧ j < p + cnt then a[j + 1]? else a[j]? := by
  intro cnt
  induction cnt with
  | zero =>
    intro p a _
    refine ⟨a, rfl, rfl, fun j => ?_⟩
    rw [if_neg (by omega)]
  | succ c ih =>
    intro p a h
    have hv : p + 1 < a.length := by omega
    obtain ⟨a', h1, h2, h3⟩ := ih (p + 1) (a.set p a[p + 1]) (by simp; omega)
    refine ⟨a', ?_, by simpa using h2, fun j => ?_⟩
    · simp [shiftDown, List.getElem?_eq_getElem hv, store_eq_some _ (show p < a.length by omega), h1]
    · rw [h3 j]
      simp only [List.getElem?_set]
      by_cases hj : j = p
      · subst hj
        have e1 : ¬ (j + 1 ≤ j ∧ j < j + 1 + c) := by omega
        have e2 : (j ≤ j ∧ j < j + (c + 1)) := by omega
        have e3 : j < a.length := by omega
        simp [e1, e2, e3, List.getElem?_eq_getElem hv]
      · by_cases hj2 : p + 1 ≤ j ∧ j < p + 1 + c
        · have e2 : (p ≤ j ∧ j < p + (c + 1)) := by omega
          have e3 : ¬ (p = j + 1) := by omega
          simp [hj2, e2, e3]
        · have e2 : ¬ (p ≤ j ∧ j < p + (c + 1)) := by omega
          have e3 : ¬ (p = j) := by omega
          simp [hj2, e2, e3]

theorem copyLoop_spec {α : Type} (src : List α) (s d : Nat) :
    ∀ (cnt j0 : Nat) (dst : List α), j0 + cnt + s ≤ src.length → j0 + cnt + d ≤ dst.length →
      ∃ dst', copyLoop src s d cnt j0 dst = some dst' ∧ dst'.length = dst.length ∧
        ∀ j, dst'[j]? = if j0 + d ≤ j ∧ j < j0 + d + cnt then src[j - d + s]? else dst[j]? := by
  intro cnt
  induction cnt with
  | zero =>
    intro j0 dst _ _
    refine ⟨dst, rfl, rfl, fun j => ?_⟩
    rw [if_neg (by omega)]
  | succ c ih =>
    intro j0 dst hs hd
    have hv : j0 + s < src.length := by omega
    obtain ⟨a', h1, h2, h3⟩ := ih (j0 + 1) (dst.set (j0 + d) src[j0 + s]) (by omega) (by simp; omega)
    refine ⟨a', ?_, by simpa using h2, fun j => ?_⟩
    · simp [copyLoop, List.getElem?_eq_getElem hv, store_eq_some _ (show j0 + d < dst.length by omega), h1]
    · rw [h3 j]
      simp only [List.getElem?_set]
      by_cases hj : j = j0 + d
      · subst hj
        have e1 : ¬ (j0 + 1 + d ≤ j0 + d ∧ j0 + d < j0 + 1 + d + c) := by omega
        have e2 : (j0 + d ≤ j0 + d ∧ j0 + d < j0 + d + (c + 1)) := by omega
        have e3 : j0 + d < dst.length := by omega
        have e4 : j0 + d - d + s = j0 + s := by omega
        simp [e1, e2, e3, e4, List.getElem?_eq_getElem hv]
      · by_cases hj2 : j0 + 1 + d ≤ j ∧ j < j0 + 1 + d + c
        · have e2 : (j0 + d ≤ j ∧ j < j0 + d + (c + 1)) := by omega
          simp [hj2, e2]
        · have e2 : ¬ (j0 + d ≤ j ∧ j < j0 + d + (c + 1)) := by omega
          have e3 : ¬ (j0 + d = j) := by omega
          simp [hj2, e2, e3]

theorem scanKeys_spec (keys : List Int) (key : Int) :
    ∀ (r i : Nat), i + r ≤ keys.length →
      ∃ i', scanKeys keys key r i = some i' ∧ i ≤ i' ∧ i' ≤ i + r ∧
        (∀ j v, i ≤ j → j < i' → keys[j]? = some v → v < key) ∧
        (∀ v, i' < i + r → keys[i']? = some v → key ≤ v) := by
  intro r
  induction r with
  | zero =>
    intro i _
    exact ⟨i, rfl, le_refl _, le_refl _, fun j v h1 h2 => by omega, fun v h => by omega⟩
  | succ r ih =>
    intro i h
    have hv : i < keys.length := by omega
    by_cases hlt : keys[i] < key
    · obtain ⟨i', h1, h2, h3, h4, h5⟩ := ih (i + 1) (by omega)
      refine ⟨i', ?_, by omega, by omega, ?_, ?_⟩
      · simp [scanKeys, List.getElem?_eq_getElem hv, hlt, h1]
      · intro j v hj1 hj2 hj3
        by_cases hji : j = i
        · subst hji
          rw [List.getElem?_eq_getElem hv] at hj3
          simp at hj3
          omega
        · exact h4 j v (by omega) hj2 hj3
      · intro v hv1 hv2
        exact h5 v (by omega) hv2
    · refine ⟨i, ?_, le_refl _, by omega, fun j v h1 h2 => by omega, ?_⟩
      · simp [scanKeys, List.getElem?_eq_getElem hv, hlt]
      · intro v _ hv2
        rw [List.getElem?_eq_getElem hv] at hv2
        simp at hv2
        omega

theorem scanDown_spec (keys : List Int) (key : Int) :
    ∀ (i1 : Nat), i1 ≤ keys.length →
      ∃ i, scanDown keys key i1 = some i ∧ i ≤ i1 ∧
        (∀ j v, i ≤ j → j < i1 → keys[j]? = some v → key < v) ∧
        (∀ v, 0 < i → keys[i - 1]? = some v → v ≤ key) := by
  intro i1
  induction i1 with
  | zero =>
    intro _
    exact ⟨0, rfl, le_refl _, fun j v h1 h2 => by omega, fun v h => by omega⟩
  | succ i ih =>
    intro h
    have hv : i < keys.length := by omega
    by_cases hlt : key < keys[i]
    · obtain ⟨i', h1, h2, h4, h5⟩ := ih (by omega)
      refine ⟨i', ?_, by omega, ?_, h5⟩
      · simp [scanDown, List.getElem?_eq_getElem hv, hlt, h1]
      · intro j v hj1 hj2 hj3
        by_cases hji : j = i
        · subst hji
          rw [List.getElem?_eq_getElem hv] at hj3
          simp at hj3
          omega
        · exact h4 j v hj1 (by omega) hj3
    · refine ⟨i + 1, ?_, le_refl _, fun j v h1 h2 => by omega, ?_⟩
      · simp [scanDown, List.getElem?_eq_getElem hv, hlt]
      · intro v _ hv2
        simp [List.getElem?_eq_getElem hv] at hv2
        omega

theorem insertShift_spec (key : Int) :
    ∀ (i1 : Nat) (ks : List Int), i1 < ks.length →
      ∃ i ks', insertShift key i1 ks = some (i, ks') ∧ i ≤ i1 ∧ ks'.length = ks.length ∧
        (∀ j, ks'[j]? = if i < j ∧ j ≤ i1 then ks[j - 1]? else ks[j]?) ∧
        (∀ j v, i ≤ j → j < i1 → ks[j]? = some v → key < v) ∧
        (∀ v, 0 < i → ks[i - 1]? = some v → v ≤ key) := by
  intro i1
  induction i1 with
  | zero =>
    intro ks _
    refine ⟨0, ks, rfl, le_refl _, rfl, fun j => ?_, fun j v h1 h2 => by omega, fun v h => by omega⟩
    rw [if_neg (by omega)]
  | succ i ih =>
    intro ks h
    have hv : i < ks.length := by omega
    by_cases hlt : key < ks[i]
    · obtain ⟨i', ks', h1, h2, h3, h4, h5, h6⟩ := ih (ks.set (i + 1) ks[i]) (by simp; omega)
      refine ⟨i', ks', ?_, by omega, by simpa using h3, ?_, ?_, ?_⟩
      · simp [insertShift, List.getElem?_eq_getElem hv, hlt, store_eq_some _ h, h1]
      · intro j
        rw [h4 j]
        simp only [List.getElem?_set]
        by_cases hj : j = i + 1
        · subst hj
          have e1 : ¬ (i' < i + 1 ∧ i + 1 ≤ i) := by omega
          have e2 : (i' < i + 1 ∧ i + 1 ≤ i + 1) := by omega
          simp [e1, e2, h, List.getElem?_eq_getElem hv]
        · by_cases hj2 : i' < j ∧ j ≤ i
          · have e2 : (i' < j ∧ j ≤ i + 1) := by omega
            have e3 : ¬ (i + 1 = j - 1) := by omega
            simp [hj2, e2, e3]
          · have e2 : ¬ (i' < j ∧ j ≤ i + 1) := by omega
            have e3 : ¬ (i + 1 = j) := by omega
            simp [hj2, e2, e3]
      · intro j v hj1 hj2 hj3
        by_cases hji : j = i
        · subst hji
          rw [List.getElem?_eq_getElem hv] at hj3
          simp at hj3
          omega
        · refine h5 j v hj1 (by omega) ?_
          rw [List.getElem?_set]
          have : ¬ (i + 1 = j) := by omega
          simp [this, hj3]
      · intro v hpos hv2
        refine h6 v hpos ?_
        rw [List.getElem?_set]
        have : ¬ (i + 1 = i' - 1) := by omega
        simp [this, hv2]
    · refine ⟨i + 1, ks, ?_, le_refl _, rfl, fun j => ?_, fun j v h1 h2 => by omega, ?_⟩
      · simp [insertShift, List.getElem?_eq_getElem hv, hlt]
      · have : ¬ (i + 1 < j ∧ j ≤ i + 1) := by omega
        simp [this]
      · intro v _ hv2
        simp [List.getElem?_eq_getElem hv] at hv2
        omega

/-! ### Prefixes of arrays after an insertion, a removal or a store -/

theorem take_insert_pointwise {α : Type} (a a' : List α) (idx n : Nat) (v : α)
    (hidx : idx ≤ n) (hn : n < a.length)
    (h : ∀ j, a'[j]? = if j = idx then some v else if idx < j ∧ j ≤ n then a[j - 1]? else a[j]?) :
    a'.take (n + 1) = (a.take n).take idx ++ v :: (a.take n).drop idx := by
  apply List.ext_getElem?
  intro j
  have hl : ((a.take n).take idx).length = idx := by simp; omega
  rw [List.getElem?_take, List.getElem?_append, hl, h j]
  rcases lt_trichotomy j idx with hj | hj | hj
  · have e1 : j ≠ idx := by omega
    have e2 : ¬ (idx < j ∧ j ≤ n) := by omega
    have e3 : j < n + 1 := by omega
    have e4 : j < n := by omega
    simp [e1, e2, e3, hj, e4, List.getElem?_take]
  · subst hj
    simp
    omega
  · have e1 : j ≠ idx := by omega
    have e3 : ¬ (j < idx) := by omega
    obtain ⟨k, rfl⟩ : ∃ k, j = idx + k + 1 := ⟨j - idx - 1, by omega⟩
    have e5 : idx + k + 1 - idx = k + 1 := by omega
    simp only [e1, e3, e5, if_false, List.getElem?_cons_succ, List.getElem?_drop, List.getElem?_take,
      Nat.add_sub_cancel]
    by_cases hk : idx + k < n
    · have e6 : idx + k + 1 < n + 1 := by omega
      have e7 : idx < idx + k + 1 ∧ idx + k + 1 ≤ n := by omega
      simp [hk, e6, e7]
    · have e6 : ¬ (idx + k + 1 < n + 1) := by omega
      simp [hk, e6]

theorem take_erase_pointwise {α : Type} (a a' : List α) (idx n : Nat)
    (hidx : idx < n) (hn : n ≤ a.length)
    (h : ∀ j, a'[j]? = if idx ≤ j ∧ j + 1 < n then a[j + 1]? else a[j]?) :
    a'.take (n - 1) = (a.take n).take idx ++ (a.take n).drop (idx + 1) := by
  apply List.ext_getElem?
  intro j
  have hl : ((a.take n).take idx).length = idx := by simp; omega
  rw [List.getElem?_take, List.getElem?_append, hl, h j]
  by_cases hj : j < idx
  · have e2 : ¬ (idx ≤ j ∧ j + 1 < n) := by omega
    have e3 : j < n - 1 := by omega
    have e4 : j < n := by omega
    simp [e2, e3, hj, e4, List.getElem?_take]
  · obtain ⟨k, rfl⟩ : ∃ k, j = idx + k := ⟨j - idx, by omega⟩
    simp only [hj, if_false, List.getElem?_drop, List.getElem?_take, Nat.add_sub_cancel_left]
    have e9 : idx + 1 + k = idx + k + 1 := by omega
    rw [e9]
    by_cases hk : idx + k + 1 < n
    · have e6 : idx + k < n - 1 := by omega
      have e7 : idx ≤ idx + k ∧ idx + k + 1 < n := by omega
      simp [hk, e6, e7]
    · have e6 : ¬ (idx + k < n - 1) := by omega
      simp [hk, e6]

theorem take_set_split {α : Type} (a : List α) (idx n : Nat) (v : α) (hidx : idx < n)
    (hn : n ≤ a.length) :
    (a.set idx v).take n = (a.take n).take idx ++ v :: (a.take n).drop (idx + 1) := by
  apply List.ext_getElem?
  intro j
  have hl : ((a.take n).take idx).length = idx := by simp; omega
  rw [List.getElem?_take, List.getElem?_append, hl, List.getElem?_set]
  rcases lt_trichotomy j idx with hj | hj | hj
  · have e1 : idx ≠ j := by omega
    have e4 : j < n := by omega
    simp [e1, hj, e4, List.getElem?_take]
  · subst hj
    have : j < a.length := by omega
    simp [hidx, this]
  · have e1 : idx ≠ j := by omega
    have e3 : ¬ (j < idx) := by omega
    obtain ⟨k, rfl⟩ : ∃ k, j = idx + k + 1 := ⟨j - idx - 1, by omega⟩
    have e5 : idx + k + 1 - idx = k + 1 := by omega
    simp only [e1, e3, e5, if_false, List.getElem?_cons_succ, List.getElem?_drop, List.getElem?_take]
    have e9 : idx + 1 + k = idx + k + 1 := by omega
    rw [e9]

/-- A list cut at an index inside it. -/
theorem split_at_index {α : Type} (l : List α) (i : Nat) (h : i < l.length) :
    l = l.take i ++ l[i] :: l.drop (i + 1) := by
  rw [← List.drop_eq_getElem_cons h, List.take_append_drop]

theorem reduceOption_map_some {α : Type} (l : List α) : (l.map some).reduceOption = l := by
  induction l with
  | nil => rfl
  | cons x xs ih => simp [List.reduceOption_cons_of_some, ih]

theorem take_set_of_le {α : Type} (l : List α) (m n : Nat) (a : α) (h : m ≤ n) :
    (l.set n a).take m = l.take m := by
  apply List.ext_getElem?
  intro j
  simp only [List.getElem?_take, List.getElem?_set]
  by_cases hj : j < m
  · have : n ≠ j := by omega
    simp [hj, this]
  · simp [hj]

/-! ### Fields -/

@[simp]
theorem n_mk (n : Nat) (l : Bool) (ks : List Int) (cs : List (Option BTreeNode)) :
    (BTreeNode.mk n l ks cs).n = n := rfl
@[simp]
theorem leaf_mk (n : Nat) (l : Bool) (ks : List Int) (cs : List (Option BTreeNode)) :
    (BTreeNode.mk n l ks cs).leaf = l := rfl
@[simp]
theorem keys_mk (n : Nat) (l : Bool) (ks : List Int) (cs : List (Option BTreeNode)) :
    (BTreeNode.mk n l ks cs).keys = ks := rfl
@[simp]
theorem children_mk (n : Nat) (l : Bool) (ks : List Int) (cs : List (Option BTreeNode)) :
    (BTreeNode.mk n l ks cs).children = cs := rfl
@[simp]
theorem n_setChildren (nd : BTreeNode) (cs : List (Option BTreeNode)) :
    (nd.setChildren cs).n = nd.n := rfl
@[simp]
theorem leaf_setChildren (nd : BTreeNode) (cs : List (Option BTreeNode)) :
    (nd.setChildren cs).leaf = nd.leaf := rfl
@[simp]
theorem keys_setChildren (nd : BTreeNode) (cs : List (Option BTreeNode)) :
    (nd.setChildren cs).keys = nd.keys := rfl
@[simp]
theorem children_setChildren (nd : BTreeNode) (cs : List (Option BTreeNode)) :
    (nd.setChildren cs).children = cs := rfl

theorem mk_eta (nd : BTreeNode) : BTreeNode.mk nd.n nd.leaf nd.keys nd.children = nd := by
  cases nd; rfl

@[simp]
theorem liveKeys_setChildren (nd : BTreeNode) (cs : List (Option BTreeNode)) :
    liveKeys (nd.setChildren cs) = liveKeys nd := rfl

theorem liveKeys_length (nd : BTreeNode) (h : nd.n ≤ nd.keys.length) :
    (liveKeys nd).length = nd.n := by
  simp [liveKeys, h]

/-! ### The in-order key list, slot by slot -/

theorem inorderSlots_eq (cs : List (Option BTreeNode)) (k : Nat) :
    inorderSlots cs k = (cs.take k).map inorderSlot := by
  induction cs generalizing k with
  | nil => simp [inorderSlots]
  | cons c cs ih => cases k <;> simp [inorderSlots, ih]

theorem inorder_eq (nd : BTreeNode) :
    inorder nd = if nd.leaf then liveKeys nd
      else interleave ((nd.children.take (nd.n + 1)).map inorderSlot) (liveKeys nd) := by
  cases nd with
  | mk n leaf ks cs => simp [inorder, inorderSlots_eq, liveKeys]

theorem inorder_leaf (nd : BTreeNode) (h : nd.leaf = true) : inorder nd = liveKeys nd := by
  rw [inorder_eq, if_pos h]

theorem inorder_inner (nd : BTreeNode) (L : List BTreeNode) (h : nd.leaf = false)
    (hL : nd.children.take (nd.n + 1) = L.map some) :
    inorder nd = interleave (L.map inorder) (liveKeys nd) := by
  rw [inorder_eq, hL]
  simp [h, Function.comp_def, inorderSlot]

theorem kids_of_take (nd : BTreeNode) (L : List BTreeNode)
    (hL : nd.children.take (nd.n + 1) = L.map some) : kids nd = L := by
  simp [kids, hL, reduceOption_map_some]

/-! ### The shape invariant -/

theorem Bal_zero_iff (t : Nat) (nd : BTreeNode) :
    Bal t 0 nd ↔ nd.leaf = true ∧ NodeOK t nd ∧ ∀ c ∈ nd.children, c = none := Iff.rfl

theorem Bal_succ_iff (t h : Nat) (nd : BTreeNode) :
    Bal t (h + 1) nd ↔ nd.leaf = false ∧ NodeOK t nd ∧
      nd.children.take (nd.n + 1) = (kids nd).map some ∧
      ∀ c ∈ kids nd, t - 1 ≤ c.n ∧ Bal t h c := Iff.rfl

theorem Bal.nodeOK {t h : Nat} {nd : BTreeNode} (hb : Bal t h nd) : NodeOK t nd := by
  cases h with
  | zero => exact hb.2.1
  | succ h => exact hb.2.1

theorem Bal.leaf_iff {t h : Nat} {nd : BTreeNode} (hb : Bal t h nd) :
    nd.leaf = true ↔ h = 0 := by
  cases h with
  | zero => simp [hb.1]
  | succ h => simp [hb.1]

theorem Bal_succ_of {t h : Nat} {nd : BTreeNode} (L : List BTreeNode) (hl : nd.leaf = false)
    (hok : NodeOK t nd) (hL : nd.children.take (nd.n + 1) = L.map some)
    (hc : ∀ c ∈ L, t - 1 ≤ c.n ∧ Bal t h c) : Bal t (h + 1) nd := by
  have hk : kids nd = L := kids_of_take nd L hL
  exact ⟨hl, hok, by rw [hk]; exact hL, by rw [hk]; exact hc⟩

theorem Bal.kids_length {t h : Nat} {nd : BTreeNode} (hb : Bal t (h + 1) nd) :
    (kids nd).length = nd.n + 1 := by
  obtain ⟨_, ⟨_, h2, h3⟩, h4, _⟩ := hb
  have h5 := congrArg List.length h4
  rw [List.length_take_of_le (by omega), List.length_map] at h5
  omega

theorem Bal.inorder_kids {t h : Nat} {nd : BTreeNode} (hb : Bal t (h + 1) nd) :
    inorder nd = interleave ((kids nd).map inorder) (liveKeys nd) :=
  BT.inorder_inner nd (kids nd) hb.1 hb.2.2.1

theorem Bal.live_length {t h : Nat} {nd : BTreeNode} (hb : Bal t h nd) :
    (liveKeys nd).length = nd.n := by
  obtain ⟨h1, _, h3⟩ := hb.nodeOK
  exact BT.liveKeys_length nd (by omega)

/-- The child in slot `i` of an inner node, with what the invariant says about it. -/
theorem Bal.child {t h : Nat} {nd : BTreeNode} (hb : Bal t (h + 1) nd) {i : Nat}
    (hi : i ≤ nd.n) :
    ∃ c, (kids nd)[i]? = some c ∧ nd.children[i]? = some (some c) ∧ childAt nd i = some c ∧
      t - 1 ≤ c.n ∧ Bal t h c := by
  have hlen := hb.kids_length
  obtain ⟨_, _, h4, h5⟩ := hb
  have hi' : i < (kids nd).length := by omega
  refine ⟨(kids nd)[i], List.getElem?_eq_getElem hi', ?_, ?_, h5 _ (List.getElem_mem hi')⟩
  · have := congrArg (fun l => l[i]?) h4
    simp only [List.getElem?_take, List.getElem?_map] at this
    rw [if_pos (by omega)] at this
    rw [this, List.getElem?_eq_getElem hi']
    rfl
  · have := congrArg (fun l => l[i]?) h4
    simp only [List.getElem?_take, List.getElem?_map] at this
    rw [if_pos (by omega)] at this
    simp [childAt, this, List.getElem?_eq_getElem hi']

theorem liveKeys_get (nd : BTreeNode) {i : Nat} (hi : i < nd.n) :
    (liveKeys nd)[i]? = nd.keys[i]? := by
  simp [liveKeys, List.getElem?_take, hi]

/-! ### Interleaving child key lists with keys -/

theorem interleave_cons_eq (X : List Int) (B : List (List Int)) (L : List Int) :
    interleave (X :: B) L = X ++ interleave ([] :: B) L := by
  cases L <;> simp [interleave]

theorem interleave_append (A : List (List Int)) :
    ∀ (K : List Int) (B : List (List Int)) (L : List Int), A.length = K.length →
      interleave (A ++ B) (K ++ L) = interleave (A ++ [[]]) K ++ interleave B L := by
  induction A with
  | nil =>
    intro K B L h
    have : K = [] := by
      cases K with
      | nil => rfl
      | cons _ _ => simp at h
    subst this
    simp [interleave]
  | cons a A ih =>
    intro K B L h
    cases K with
    | nil => simp at h
    | cons k K =>
      simp only [List.length_cons, Nat.add_right_cancel_iff] at h
      simp [interleave, ih K B L h]

/-- The in-order list of an inner node cut around the child in slot `i`. -/
theorem interleave_at (cs : List (List Int)) (ks : List Int) (i : Nat) (X : List Int)
    (hi : i ≤ ks.length) (hc : cs[i]? = some X) :
    interleave cs ks = interleave (cs.take i ++ [[]]) (ks.take i) ++ X ++
      interleave ([] :: cs.drop (i + 1)) (ks.drop i) := by
  have hlt : i < cs.length := by
    by_contra hcon
    rw [List.getElem?_eq_none (by omega)] at hc
    cases hc
  have hX : cs[i] = X := by
    rw [List.getElem?_eq_getElem hlt] at hc
    exact Option.some.inj hc
  have e1 : cs = cs.take i ++ X :: cs.drop (i + 1) := by
    rw [← hX]; exact split_at_index cs i hlt
  have e2 : ks = ks.take i ++ ks.drop i := (List.take_append_drop i ks).symm
  conv_lhs => rw [e1, e2]
  rw [interleave_append _ _ _ _ (by simp; omega), interleave_cons_eq, List.append_assoc]

theorem interleave_glue_snoc (A : List (List Int)) (a : List Int) (K : List Int) (k : Int)
    (h : A.length = K.length) :
    interleave (A ++ [a] ++ [[]]) (K ++ [k]) = interleave (A ++ [[]]) K ++ a ++ [k] := by
  rw [List.append_assoc, interleave_append A K _ _ h]
  simp [interleave]

/-! ### Ascending key lists -/

theorem sorted_append_iff (A B : List Int) :
    (A ++ B).Sorted (· ≤ ·) ↔
      A.Sorted (· ≤ ·) ∧ B.Sorted (· ≤ ·) ∧ ∀ a ∈ A, ∀ b ∈ B, a ≤ b := by
  simp [List.Sorted, List.pairwise_append]

theorem sorted_of_sublist {A B : List Int} (h : A.Sublist B) (hB : B.Sorted (· ≤ ·)) :
    A.Sorted (· ≤ ·) :=
  List.Pairwise.sublist h hB

theorem eq_of_perm_sorted {A B : List Int} (hp : A.Perm B) (hA : A.Sorted (· ≤ ·))
    (hB : B.Sorted (· ≤ ·)) : A = B :=
  List.eq_of_perm_of_sorted hp hA hB

theorem sorted_erase {A : List Int} (k : Int) (hA : A.Sorted (· ≤ ·)) :
    (A.erase k).Sorted (· ≤ ·) :=
  sorted_of_sublist (List.erase_sublist k A) hA

/-- Taking any occurrence of `k` out of an ascending list is taking out the first. -/
theorem erase_mid_sorted (A B : List Int) (k : Int) (h : (A ++ k :: B).Sorted (· ≤ ·)) :
    (A ++ k :: B).erase k = A ++ B := by
  apply eq_of_perm_sorted
  · have h1 : (A ++ k :: B).Perm (k :: (A ++ k :: B).erase k) :=
      List.perm_cons_erase (by simp)
    have h2 : (A ++ k :: B).Perm (k :: (A ++ B)) := List.perm_middle
    exact (List.Perm.cons_inv (h1.symm.trans h2))
  · exact sorted_erase k h
  · exact sorted_of_sublist
      (List.Sublist.append (List.Sublist.refl A) (List.sublist_cons_self k B)) h

theorem erase_last_sorted (C : List Int) (p : Int) (h : (C ++ [p]).Sorted (· ≤ ·)) :
    (C ++ [p]).erase p = C := by
  simpa using erase_mid_sorted C [] p h

theorem orderedInsert_mid (A B : List Int) (k : Int) (h : (A ++ B).Sorted (· ≤ ·))
    (hA : ∀ a ∈ A, a ≤ k) (hB : ∀ b ∈ B, k ≤ b) :
    (A ++ B).orderedInsert (· ≤ ·) k = A ++ k :: B := by
  apply eq_of_perm_sorted
  · exact (List.perm_orderedInsert _ k (A ++ B)).trans List.perm_middle.symm
  · exact List.Sorted.orderedInsert k _ h
  · rw [sorted_append_iff] at h ⊢
    obtain ⟨h1, h2, h3⟩ := h
    refine ⟨h1, ?_, ?_⟩
    · exact List.sorted_cons.mpr ⟨hB, h2⟩
    · intro a ha b hb
      rcases List.mem_cons.mp hb with rfl | hb
      · exact hA a ha
      · exact h3 a ha b hb

theorem orderedInsert_inner (G X T : List Int) (k : Int)
    (h : (G ++ X ++ T).Sorted (· ≤ ·)) (hG : ∀ g ∈ G, g ≤ k) (hT : ∀ y ∈ T, k ≤ y) :
    (G ++ X ++ T).orderedInsert (· ≤ ·) k = G ++ X.orderedInsert (· ≤ ·) k ++ T := by
  apply eq_of_perm_sorted
  · refine (List.perm_orderedInsert _ k _).trans ?_
    have h1 : (X.orderedInsert (· ≤ ·) k).Perm (k :: X) := List.perm_orderedInsert _ k X
    have h2 : (G ++ X.orderedInsert (· ≤ ·) k ++ T).Perm (G ++ (k :: X) ++ T) :=
      List.Perm.append_right T (List.Perm.append_left G h1)
    refine List.Perm.trans ?_ h2.symm
    simp only [List.append_assoc, List.cons_append]
    exact List.perm_middle.symm
  · exact List.Sorted.orderedInsert k _ h
  · rw [sorted_append_iff, sorted_append_iff] at h ⊢
    obtain ⟨⟨h1, h2, h3⟩, h4, h5⟩ := h
    refine ⟨⟨h1, List.Sorted.orderedInsert k _ h2, ?_⟩, h4, ?_⟩
    · intro a ha b hb
      rcases (List.mem_orderedInsert _).mp hb with rfl | hb
      · exact hG a ha
      · exact h3 a ha b hb
    · intro a ha b hb
      rcases List.mem_append.mp ha with ha | ha
      · exact h5 a (List.mem_append_left _ ha) b hb
      · rcases (List.mem_orderedInsert _).mp ha with rfl | ha
        · exact hT b hb
        · exact h5 a (List.mem_append_right _ ha) b hb

/-- Erasing `k` from an ascending list acts on a middle part that holds `k` whenever the
list does. -/
theorem erase_inner (G X T : List Int) (k : Int) (h : (G ++ X ++ T).Sorted (· ≤ ·))
    (hX : k ∈ G ++ X ++ T → k ∈ X) :
    (G ++ X ++ T).erase k = G ++ X.erase k ++ T := by
  by_cases hk : k ∈ X
  · obtain ⟨X1, X2, rfl⟩ := List.append_of_mem hk
    have e1 : G ++ (X1 ++ k :: X2) ++ T = (G ++ X1) ++ k :: (X2 ++ T) := by simp
    have hs : (X1 ++ k :: X2).Sorted (· ≤ ·) := by
      rw [sorted_append_iff, sorted_append_iff] at h
      exact h.1.2.1
    rw [erase_mid_sorted X1 X2 k hs, e1, erase_mid_sorted _ _ k (e1 ▸ h)]
    simp
  · have hk2 : k ∉ G ++ X ++ T := fun hc => hk (hX hc)
    rw [List.erase_of_not_mem hk2, List.erase_of_not_mem hk]

/-! ### Bounds on the two sides of a child slot -/

theorem glue_le_last (A : List (List Int)) (K : List Int) (h : A.length = K.length)
    (hs : (interleave (A ++ [[]]) K).Sorted (· ≤ ·)) :
    (K = [] → interleave (A ++ [[]]) K = []) ∧
      ∀ v, K.getLast? = some v → ∀ g ∈ interleave (A ++ [[]]) K, g ≤ v := by
  constructor
  · intro hK
    subst hK
    have : A = [] := List.eq_nil_of_length_eq_zero (by simpa using h)
    subst this
    rfl
  · intro v hv g hg
    rcases List.eq_nil_or_concat K with rfl | ⟨K', k, rfl⟩
    · simp at hv
    · rcases List.eq_nil_or_concat A with rfl | ⟨A', a, rfl⟩
      · simp at h
      · simp only [List.concat_eq_append] at h hv hg hs
        have hlen : A'.length = K'.length := by simpa using h
        have hv' : k = v := by simpa using hv
        subst hv'
        rw [interleave_glue_snoc A' a K' k hlen] at hg hs
        rcases List.mem_append.mp hg with hg | hg
        · rw [sorted_append_iff] at hs
          exact hs.2.2 g hg k (by simp)
        · have : g = k := by simpa using hg
          omega

theorem tail_ge_head (B : List (List Int)) (L : List Int)
    (hs : (interleave ([] :: B) L).Sorted (· ≤ ·)) :
    (L = [] → interleave ([] :: B) L = []) ∧
      ∀ v, L.head? = some v → ∀ y ∈ interleave ([] :: B) L, v ≤ y := by
  constructor
  · intro hL
    subst hL
    rfl
  · intro v hv y hy
    cases L with
    | nil => simp at hv
    | cons l L =>
      have hv' : l = v := by simpa using hv
      subst hv'
      simp only [interleave, List.nil_append] at hy hs
      rcases List.mem_cons.mp hy with rfl | hy
      · exact le_refl _
      · exact (List.sorted_cons.mp hs).1 y hy

/-! ### An inner node seen around one child slot -/

theorem kids_setChild {nd : BTreeNode} {L : List BTreeNode} (j : Nat) (r : BTreeNode)
    (hL : nd.children.take (nd.n + 1) = L.map some) :
    (nd.children.set j (some r)).take (nd.n + 1) = (L.set j r).map some := by
  rw [List.set_take, hL, List.map_set]

theorem getLast?_take_succ (ks : List Int) (j : Nat) (v : Int) (h : ks[j]? = some v) :
    (ks.take (j + 1)).getLast? = some v := by
  rw [List.take_succ, h]
  simp

theorem Bal.cut {t h : Nat} {x : BTreeNode} (hb : Bal t (h + 1) x) {j : Nat} (hj : j ≤ x.n)
    {c : BTreeNode} (hc : (kids x)[j]? = some c) :
    inorder x = leftOf x j ++ inorder c ++ rightOf x j := by
  rw [hb.inorder_kids]
  exact interleave_at _ _ j (inorder c) (by rw [hb.live_length]; exact hj)
    (by rw [List.getElem?_map, hc]; rfl)

theorem Bal.cut_bounds {t h : Nat} {x : BTreeNode} (hb : Bal t (h + 1) x) {j : Nat}
    (hj : j ≤ x.n) (hs : (inorder x).Sorted (· ≤ ·)) :
    (j = 0 → leftOf x j = []) ∧
    (∀ v, 0 < j → x.keys[j - 1]? = some v → ∀ g ∈ leftOf x j, g ≤ v) ∧
    (j = x.n → rightOf x j = []) ∧
    (∀ v, j < x.n → x.keys[j]? = some v → ∀ y ∈ rightOf x j, v ≤ y) := by
  obtain ⟨c, hc, -, -, -, -⟩ := hb.child hj
  have hcut := hb.cut hj hc
  rw [hcut, sorted_append_iff, sorted_append_iff] at hs
  obtain ⟨⟨hG, -, -⟩, hT, -⟩ := hs
  have hkl := hb.live_length
  have hcl := hb.kids_length
  have hlen : (((kids x).map inorder).take j).length = ((liveKeys x).take j).length := by
    rw [List.length_take_of_le (by simp; omega), List.length_take_of_le (by omega)]
  obtain ⟨g1, g2⟩ := glue_le_last _ _ hlen hG
  obtain ⟨t1, t2⟩ := tail_ge_head _ _ hT
  refine ⟨?_, ?_, ?_, ?_⟩
  · intro h0
    subst h0
    exact g1 (by simp)
  · intro v hpos hv g hg
    refine g2 v ?_ g hg
    obtain ⟨j', rfl⟩ : ∃ j', j = j' + 1 := ⟨j - 1, by omega⟩
    apply getLast?_take_succ
    rw [liveKeys_get x (by omega)]
    simpa using hv
  · intro hn
    exact t1 (List.drop_eq_nil_of_le (by omega))
  · intro v hlt hv y hy
    refine t2 v ?_ y hy
    rw [List.head?_drop, liveKeys_get x hlt]
    exact hv

theorem NodeOK_setChildren {t : Nat} {x : BTreeNode} (hok : NodeOK t x)
    (cs : List (Option BTreeNode)) (hcs : cs.length = x.children.length) :
    NodeOK t (x.setChildren cs) := by
  obtain ⟨h1, h2, h3⟩ := hok
  exact ⟨h1, by simpa [hcs] using h2, h3⟩

/-- Putting a new subtree into child slot `j` of an inner node. -/
theorem Bal.setChild {t h : Nat} {x : BTreeNode} (hb : Bal t (h + 1) x) {j : Nat}
    (hj : j ≤ x.n) (r : BTreeNode) (hr : Bal t h r) (hrn : t - 1 ≤ r.n) :
    Bal t (h + 1) (x.setChildren (x.children.set j (some r))) ∧
      inorder (x.setChildren (x.children.set j (some r))) =
        leftOf x j ++ inorder r ++ rightOf x j ∧
      store x.children j (some r) = some (x.children.set j (some r)) ∧
      childAt (x.setChildren (x.children.set j (some r))) j = some r := by
  have hcl := hb.kids_length
  have hkl := hb.live_length
  obtain ⟨hl, hok, hL, hall⟩ := hb
  have hL' := kids_setChild j r hL
  have hjlen : j < x.children.length := by
    obtain ⟨_, h2, h3⟩ := hok
    omega
  have hb' : Bal t (h + 1) (x.setChildren (x.children.set j (some r))) := by
    refine Bal_succ_of ((kids x).set j r) hl (NodeOK_setChildren hok _ (by simp)) hL' ?_
    intro c hc
    rcases List.mem_or_eq_of_mem_set hc with hc | rfl
    · exact hall c hc
    · exact ⟨hrn, hr⟩
  refine ⟨hb', ?_, store_eq_some _ hjlen, ?_⟩
  · rw [BT.inorder_inner (x.setChildren (x.children.set j (some r))) ((kids x).set j r) hl hL']
    have e := interleave_at (((kids x).set j r).map inorder) (liveKeys x) j (inorder r)
      (by rw [hkl]; exact hj)
      (by rw [List.getElem?_map, List.getElem?_set_self (by omega)]; rfl)
    simp only [liveKeys_setChildren]
    rw [e, leftOf, rightOf, List.map_set, take_set_of_le _ _ _ _ (le_refl j),
      List.drop_set_of_lt _ _ (by omega)]
  · simp [childAt, List.getElem?_set_self hjlen]

/-! ### More prefixes -/

theorem take_copy_pointwise {α : Type} (src dst' : List α) (s cnt : Nat)
    (h : ∀ j, j < cnt → dst'[j]? = src[j + s]?) :
    dst'.take cnt = (src.drop s).take cnt := by
  apply List.ext_getElem?
  intro j
  simp only [List.getElem?_take, List.getElem?_drop]
  by_cases hj : j < cnt
  · simp [hj, h j hj, Nat.add_comm]
  · simp [hj]

theorem take_concat_pointwise {α : Type} (a b a' : List α) (p q : Nat) (hp : p ≤ a.length)
    (h : ∀ j, j < p + q → a'[j]? = if j < p then a[j]? else b[j - p]?) :
    a'.take (p + q) = a.take p ++ b.take q := by
  apply List.ext_getElem?
  intro j
  have hl : (a.take p).length = p := List.length_take_of_le hp
  rw [List.getElem?_take, List.getElem?_append, hl]
  by_cases hj : j < p + q
  · rw [if_pos hj, h j hj]
    by_cases hj2 : j < p
    · simp [hj2, List.getElem?_take]
    · have : j - p < q := by omega
      simp [hj2, List.getElem?_take, this]
  · have e1 : ¬ j < p := by omega
    have e2 : ¬ j - p < q := by omega
    simp [hj, e1, e2, List.getElem?_take]

theorem take_join_pointwise {α : Type} (a b a' : List α) (p q : Nat) (v : α)
    (hp : p ≤ a.length)
    (h : ∀ j, j < p + 1 + q →
      a'[j]? = if j < p then a[j]? else if j = p then some v else b[j - (p + 1)]?) :
    a'.take (p + 1 + q) = a.take p ++ v :: b.take q := by
  apply List.ext_getElem?
  intro j
  have hl : (a.take p).length = p := List.length_take_of_le hp
  rw [List.getElem?_take, List.getElem?_append, hl]
  by_cases hj : j < p + 1 + q
  · rw [if_pos hj, h j hj]
    rcases lt_trichotomy j p with hj2 | hj2 | hj2
    · simp [hj2, List.getElem?_take]
    · subst hj2
      simp
    · have e1 : ¬ j < p := by omega
      have e2 : j ≠ p := by omega
      obtain ⟨k, rfl⟩ : ∃ k, j = p + 1 + k := ⟨j - (p + 1), by omega⟩
      have e3 : p + 1 + k - p = k + 1 := by omega
      have e4 : p + 1 + k - (p + 1) = k := by omega
      have e5 : k < q := by omega
      simp [e1, e2, e3, e4, e5, List.getElem?_take]
  · have e1 : ¬ j < p := by omega
    obtain ⟨k, rfl⟩ : ∃ k, j = p + 1 + k := ⟨j - (p + 1), by omega⟩
    have e3 : p + 1 + k - p = k + 1 := by omega
    have e5 : ¬ k < q := by omega
    simp [hj, e1, e3, e5, List.getElem?_take]

/-! ### Lists cut at an index -/

theorem set_mid {α : Type} (A B : List α) (c v : α) :
    (A ++ c :: B).set A.length v = A ++ v :: B := by
  induction A with
  | nil => rfl
  | cons a A ih => simp [ih]

theorem set_mid_succ {α : Type} (A B : List α) (c s v : α) :
    (A ++ c :: s :: B).set (A.length + 1) v = A ++ c :: v :: B := by
  induction A with
  | nil => rfl
  | cons a A ih => simp [ih]

theorem take_mid_succ {α : Type} (A B : List α) (c : α) :
    (A ++ c :: B).take (A.length + 1) = A ++ [c] := by
  induction A with
  | nil => simp
  | cons a A ih => simp [ih]

theorem drop_mid_succ {α : Type} (A B : List α) (c : α) :
    (A ++ c :: B).drop (A.length + 1) = B := by
  induction A with
  | nil => simp
  | cons a A ih => simp [ih]

theorem drop_mid_succ2 {α : Type} (A B : List α) (c s : α) :
    (A ++ c :: s :: B).drop (A.length + 2) = B := by
  induction A with
  | nil => simp
  | cons a A ih => simp [ih]

theorem getElem?_mid {α : Type} (A B : List α) (c : α) :
    (A ++ c :: B)[A.length]? = some c := by
  rw [List.getElem?_append_right (le_refl _)]
  simp

theorem getElem?_mid_succ {α : Type} (A B : List α) (c s : α) :
    (A ++ c :: s :: B)[A.length + 1]? = some s := by
  rw [List.getElem?_append_right (by omega)]
  simp

/-- A list cut around two neighbours. -/
theorem split_at_pair {α : Type} (l : List α) (i : Nat) (h : i + 1 < l.length) :
    l = l.take i ++ l[i] :: l[i + 1] :: l.drop (i + 2) := by
  conv_lhs => rw [split_at_index l i (by omega)]
  congr 2
  rw [← List.drop_eq_getElem_cons h]

/-! ### Interleaving around one or two slots -/

theorem interleave_one (A B : List (List Int)) (K L : List Int) (X : List Int)
    (h : A.length = K.length) :
    interleave (A ++ X :: B) (K ++ L) =
      interleave (A ++ [[]]) K ++ X ++ interleave ([] :: B) L := by
  rw [interleave_append A K _ L h, interleave_cons_eq, List.append_assoc]

theorem interleave_two (A B : List (List Int)) (K L : List Int) (X Y : List Int) (m : Int)
    (h : A.length = K.length) :
    interleave (A ++ X :: Y :: B) (K ++ m :: L) =
      interleave (A ++ [[]]) K ++ X ++ m :: Y ++ interleave ([] :: B) L := by
  rw [interleave_append A K _ _ h]
  simp only [interleave]
  rw [interleave_cons_eq Y B L]
  simp

theorem interleave_halves (A B : List (List Int)) (K L : List Int) (m : Int)
    (h : A.length = K.length + 1) :
    interleave (A ++ B) (K ++ m :: L) = interleave A K ++ m :: interleave B L := by
  rcases List.eq_nil_or_concat A with rfl | ⟨A', a, rfl⟩
  · simp at h
  · simp only [List.concat_eq_append] at h ⊢
    have hlen : A'.length = K.length := by simpa using h
    have e1 : interleave (A' ++ [a]) K = interleave (A' ++ [[]]) K ++ a := by
      have := interleave_append A' K [a] [] hlen
      simpa [interleave] using this
    rw [e1, List.append_assoc, interleave_append A' K _ _ hlen]
    simp [interleave]

/-! ### `splitChild` -/

theorem NodeOK.pos {t : Nat} {nd : BTreeNode} (h : NodeOK t nd) : 1 ≤ t := by
  obtain ⟨_, _, h3⟩ := h
  omega

/-- The two halves a full node is split into. -/
theorem split_halves {t h : Nat} {c : BTreeNode} (hb : Bal t h c) (hfull : c.n + 1 = 2 * t)
    (nk : List Int) (nc : List (Option BTreeNode))
    (hnk : nk.length = 2 * t - 1) (hnc : nc.length = 2 * t)
    (hnk2 : ∀ j, j < t - 1 → nk[j]? = c.keys[j + t]?)
    (hnc1 : c.leaf = true → ∀ s ∈ nc, s = none)
    (hnc2 : c.leaf = false → ∀ j, j < t → nc[j]? = c.children[j + t]?) :
    Bal t h (.mk (t - 1) c.leaf c.keys c.children) ∧
    Bal t h (.mk (t - 1) c.leaf nk nc) ∧
    ∃ m, c.keys[t - 1]? = some m ∧
      inorder c = inorder (.mk (t - 1) c.leaf c.keys c.children) ++
        m :: inorder (.mk (t - 1) c.leaf nk nc) := by
  have hok := hb.nodeOK
  have hpos := hok.pos
  obtain ⟨hk, hcl, hn⟩ := hok
  have hm : t - 1 < c.keys.length := by omega
  have hlive : liveKeys c = c.keys := by
    unfold liveKeys
    exact List.take_of_length_le (by omega)
  have hR : liveKeys (.mk (t - 1) c.leaf nk nc) = c.keys.drop t := by
    show nk.take (t - 1) = _
    rw [take_copy_pointwise c.keys nk t (t - 1) hnk2]
    exact List.take_of_length_le (by simp; omega)
  have hLc : liveKeys (.mk (t - 1) c.leaf c.keys c.children) = c.keys.take (t - 1) := rfl
  have hsplit : c.keys = c.keys.take (t - 1) ++ c.keys[t - 1] :: c.keys.drop t := by
    have := split_at_index c.keys (t - 1) hm
    rwa [show t - 1 + 1 = t by omega] at this
  have okL : NodeOK t (.mk (t - 1) c.leaf c.keys c.children) := ⟨hk, hcl, by simp; omega⟩
  have okR : NodeOK t (.mk (t - 1) c.leaf nk nc) := ⟨hnk, hnc, by simp; omega⟩
  cases h with
  | zero =>
    obtain ⟨hleaf, -, hnone⟩ := hb
    refine ⟨⟨hleaf, okL, hnone⟩, ⟨hleaf, okR, hnc1 hleaf⟩, c.keys[t - 1],
      List.getElem?_eq_getElem hm, ?_⟩
    rw [inorder_leaf c hleaf, inorder_leaf _ (by simpa using hleaf),
      inorder_leaf _ (by simpa using hleaf), hlive, hR, hLc]
    exact hsplit
  | succ h =>
    have hlen := hb.kids_length
    obtain ⟨hleaf, -, hL, hall⟩ := hb
    have hL0 : c.children = (kids c).map some := by
      rw [← hL]
      exact (List.take_of_length_le (by omega)).symm
    have hLl : (BTreeNode.mk (t - 1) c.leaf c.keys c.children).children.take
        ((BTreeNode.mk (t - 1) c.leaf c.keys c.children).n + 1) = ((kids c).take t).map some := by
      show c.children.take (t - 1 + 1) = _
      rw [show t - 1 + 1 = t by omega, List.map_take, ← hL0]
    have hLr : (BTreeNode.mk (t - 1) c.leaf nk nc).children.take
        ((BTreeNode.mk (t - 1) c.leaf nk nc).n + 1) = ((kids c).drop t).map some := by
      show nc.take (t - 1 + 1) = _
      rw [show t - 1 + 1 = t by omega, take_copy_pointwise c.children nc t t (hnc2 hleaf),
        List.map_drop, ← hL0]
      exact List.take_of_length_le (by simp; omega)
    have bL : Bal t (h + 1) (.mk (t - 1) c.leaf c.keys c.children) :=
      Bal_succ_of _ hleaf okL hLl (fun x hx => hall x (List.mem_of_mem_take hx))
    have bR : Bal t (h + 1) (.mk (t - 1) c.leaf nk nc) :=
      Bal_succ_of _ hleaf okR hLr (fun x hx => hall x (List.mem_of_mem_drop hx))
    refine ⟨bL, bR, c.keys[t - 1], List.getElem?_eq_getElem hm, ?_⟩
    rw [BT.inorder_inner c (kids c) hleaf (by rw [hL]),
      BT.inorder_inner (.mk (t - 1) c.leaf c.keys c.children) _ hleaf hLl,
      BT.inorder_inner (.mk (t - 1) c.leaf nk nc) _ hleaf hLr, hlive, hR, hLc]
    conv_lhs => rw [hsplit, ← List.take_append_drop t (kids c), List.map_append]
    exact interleave_halves _ _ _ _ _ (by simp; omega)

theorem exists_cut {α : Type} (l : List α) (i : Nat) (c : α) (h : l[i]? = some c) :
    ∃ A B, l = A ++ c :: B ∧ A.length = i := by
  have hlt : i < l.length := by
    by_contra hcon
    rw [List.getElem?_eq_none (by omega)] at h
    cases h
  have hX : l[i] = c := by
    rw [List.getElem?_eq_getElem hlt] at h
    exact Option.some.inj h
  exact ⟨l.take i, l.drop (i + 1), by rw [← hX]; exact split_at_index l i hlt,
    List.length_take_of_le (by omega)⟩

theorem exists_cut_keys (l : List Int) (i : Nat) (h : i ≤ l.length) :
    ∃ K L, l = K ++ L ∧ K.length = i :=
  ⟨l.take i, l.drop i, (List.take_append_drop i l).symm, List.length_take_of_le h⟩

theorem childAt_eq {nd : BTreeNode} {i : Nat} {c : BTreeNode}
    (h : nd.children[i]? = some (some c)) : childAt nd i = some c := by
  simp [childAt, h]

theorem splitChild_spec {t h : Nat} {x c : BTreeNode} {i : Nat} (hb : Bal t (h + 1) x)
    (hi : i ≤ x.n) (hroom : x.n + 2 ≤ 2 * t) (hc : childAt x i = some c)
    (hfull : c.n + 1 = 2 * t) :
    ∃ x1 l r m, splitChild x i c t = some x1 ∧ Bal t (h + 1) x1 ∧ inorder x1 = inorder x ∧
      x1.n = x.n + 1 ∧
      (∀ j, x1.keys[j]? = if j = i then some m else
        if i < j ∧ j ≤ x.n then x.keys[j - 1]? else x.keys[j]?) ∧
      childAt x1 i = some l ∧ childAt x1 (i + 1) = some r ∧ l.n = t - 1 ∧ r.n = t - 1 := by
  obtain ⟨c', hkc, hcc, hca, -, hbc⟩ := hb.child hi
  have hcc' : c' = c := by
    rw [hca] at hc
    exact Option.some.inj hc
  subst hcc'
  have hlenk := hb.kids_length
  have hlk := hb.live_length
  have hcut := hb.cut hi hkc
  obtain ⟨hleaf, hok, hL, hall⟩ := hb
  have hpos := hok.pos
  obtain ⟨hk, hcl, hn⟩ := hok
  obtain ⟨ck, ccl, cn⟩ := hbc.nodeOK
  -- the new sibling
  obtain ⟨nk, enk, lnk, pnk⟩ := copyLoop_spec c'.keys t 0 (t - 1) 0
    (List.replicate (2 * t - 1) 0) (by omega) (by simp; omega)
  have hnc : ∃ nc, (if c'.leaf then some (List.replicate (2 * t) none)
      else copyLoop c'.children t 0 t 0 (List.replicate (2 * t) none)) = some nc ∧
      nc.length = 2 * t ∧ (c'.leaf = true → ∀ s ∈ nc, s = none) ∧
      (c'.leaf = false → ∀ j, j < t → nc[j]? = c'.children[j + t]?) := by
    by_cases hlf : c'.leaf = true
    · refine ⟨List.replicate (2 * t) none, by simp [hlf], by simp, ?_, by simp [hlf]⟩
      intro _ s hs
      exact List.eq_of_mem_replicate hs
    · obtain ⟨nc, enc, lnc, pnc⟩ := copyLoop_spec c'.children t 0 t 0
        (List.replicate (2 * t) none) (by omega) (by simp; omega)
      refine ⟨nc, by simp [hlf, enc], by simpa using lnc, by simp [hlf], ?_⟩
      intro _ j hj
      rw [pnc j, if_pos (by omega)]
      simp
  obtain ⟨nc, enc, lnc, nc1, nc2⟩ := hnc
  have hnk2 : ∀ j, j < t - 1 → nk[j]? = c'.keys[j + t]? := by
    intro j hj
    rw [pnk j, if_pos (by omega)]
    simp
  obtain ⟨bL, bR, m, hm, hin⟩ := split_halves hbc hfull nk nc (by simpa using lnk) lnc hnk2 nc1 nc2
  -- the parent
  obtain ⟨pc, epc, lpc, ppc⟩ := shiftUp_spec (i + 1) (x.n - i) x.children (by omega)
  obtain ⟨pk, epk, lpk, ppk⟩ := shiftUp_spec i (x.n - i) x.keys (by omega)
  obtain ⟨l, hl⟩ : ∃ l, l = BTreeNode.mk (t - 1) c'.leaf c'.keys c'.children := ⟨_, rfl⟩
  obtain ⟨r, hr⟩ : ∃ r, r = BTreeNode.mk (t - 1) c'.leaf nk nc := ⟨_, rfl⟩
  rw [← hl, ← hr] at hin
  rw [← hl] at bL
  rw [← hr] at bR
  have hln : l.n = t - 1 := by rw [hl]; rfl
  have hrn : r.n = t - 1 := by rw [hr]; rfl
  obtain ⟨x1, hx1⟩ : ∃ x1, x1 = BTreeNode.mk (x.n + 1) x.leaf (pk.set i m)
      ((pc.set (i + 1) (some r)).set i (some l)) := ⟨_, rfl⟩
  have e : splitChild x i c' t = some x1 := by
    have ht : t ≠ 0 := by omega
    rw [hx1, hl, hr]
    simp [splitChild, createNode, ht, enk, enc, epc, epk, hm,
      store_eq_some _ (show i + 1 < pc.length by omega),
      store_eq_some _ (show i < pk.length by omega),
      store_eq_some _ (show i < (pc.set (i + 1)
        (some (BTreeNode.mk (t - 1) c'.leaf nk nc))).length by simp; omega)]
  have hx1n : x1.n = x.n + 1 := by rw [hx1]; rfl
  have hx1l : x1.leaf = false := by rw [hx1]; exact hleaf
  have hx1k : x1.keys = pk.set i m := by rw [hx1]; rfl
  have hx1c : x1.children = (pc.set (i + 1) (some r)).set i (some l) := by rw [hx1]; rfl
  have hkeys : ∀ j, x1.keys[j]? = if j = i then some m else
      if i < j ∧ j ≤ x.n then x.keys[j - 1]? else x.keys[j]? := by
    intro j
    rw [hx1k, List.getElem?_set, ppk j]
    by_cases hj : i = j
    · subst hj
      have : i < pk.length := by omega
      simp [this]
    · have hj' : ¬ j = i := fun hh => hj hh.symm
      simp only [hj, hj', if_false]
      by_cases h2 : i < j ∧ j ≤ x.n
      · rw [if_pos h2, if_pos (by omega)]
      · rw [if_neg h2, if_neg (by omega)]
  have hkids : ∀ j, x1.children[j]? =
      if j = i + 1 then some (some r) else
        if i + 1 < j ∧ j ≤ x.n + 1 then (x.children.set i (some l))[j - 1]?
        else (x.children.set i (some l))[j]? := by
    intro j
    rw [hx1c]
    simp only [List.getElem?_set, List.length_set, ppc j]
    by_cases h1 : j = i
    · subst h1
      have e1 : j < pc.length := by omega
      have e2 : j < x.children.length := by omega
      simp [e1, e2]
    · by_cases h2 : j = i + 1
      · subst h2
        have e1 : i + 1 < pc.length := by omega
        simp [e1]
      · have e1 : ¬ i = j := fun hh => h1 hh.symm
        have e2 : ¬ i + 1 = j := fun hh => h2 hh.symm
        simp only [e1, e2, h2, if_false]
        by_cases h3 : i + 1 < j ∧ j ≤ x.n + 1
        · rw [if_pos h3, if_pos (by omega), if_neg (by omega)]
        · rw [if_neg h3, if_neg (by omega)]
  obtain ⟨A, B, hAB, hA⟩ := exists_cut (kids x) i c' hkc
  obtain ⟨K, Lk, hKL, hK⟩ := exists_cut_keys (liveKeys x) i (by omega)
  have hlive1 : liveKeys x1 = K ++ m :: Lk := by
    unfold liveKeys
    rw [hx1n, take_insert_pointwise x.keys _ i x.n m hi (by omega) hkeys]
    show (liveKeys x).take i ++ m :: (liveKeys x).drop i = _
    rw [hKL, ← hK]
    simp
  have hkids1 : x1.children.take (x1.n + 1) = (A ++ l :: r :: B).map some := by
    rw [hx1n, take_insert_pointwise _ _ (i + 1) (x.n + 1) _ (by omega) (by simp; omega) hkids,
      kids_setChild i _ hL, hAB, ← hA, set_mid,
      ← List.map_take, ← List.map_drop, take_mid_succ, drop_mid_succ]
    simp
  refine ⟨x1, l, r, m, e, ?_, ?_, hx1n, hkeys, ?_, ?_, hln, hrn⟩
  · refine Bal_succ_of _ hx1l ⟨by rw [hx1k]; simpa using lpk.trans hk,
      by rw [hx1c]; simpa using lpc.trans hcl, by omega⟩ hkids1 ?_
    intro y hy
    rw [hAB] at hall
    simp only [List.mem_append, List.mem_cons] at hy hall
    rcases hy with hy | rfl | rfl | hy
    · exact hall y (Or.inl hy)
    · exact ⟨by omega, bL⟩
    · exact ⟨by omega, bR⟩
    · exact hall y (Or.inr (Or.inr hy))
  · rw [BT.inorder_inner x1 _ hx1l hkids1, hlive1, BT.inorder_inner x (kids x) hleaf hL, hAB, hKL]
    simp only [List.map_append, List.map_cons]
    rw [interleave_two _ _ _ _ _ _ _ (by simpa using hA.trans hK.symm),
      interleave_one _ _ _ _ _ (by simpa using hA.trans hK.symm), hin]
    simp
  · apply childAt_eq
    have := congrArg (fun l => l[i]?) hkids1
    simp only [List.getElem?_take, List.getElem?_map] at this
    rw [if_pos (by omega)] at this
    rw [this, ← hA, getElem?_mid]
    rfl
  · apply childAt_eq
    have := congrArg (fun l => l[i + 1]?) hkids1
    simp only [List.getElem?_take, List.getElem?_map] at this
    rw [if_pos (by omega)] at this
    rw [this, ← hA, getElem?_mid_succ]
    rfl

/-! ### `insertNonFull` and `insert` -/

theorem take_le_of_sorted (l : List Int) (i : Nat) (key : Int) (hs : l.Sorted (· ≤ ·))
    (hi : i ≤ l.length) (hk : ∀ v, 0 < i → l[i - 1]? = some v → v ≤ key) :
    ∀ a ∈ l.take i, a ≤ key := by
  intro a ha
  obtain ⟨j, hj⟩ := List.mem_iff_getElem?.mp ha
  rw [List.getElem?_take] at hj
  by_cases hji : j < i
  · rw [if_pos hji] at hj
    have hjl : j < l.length := by omega
    have hil : i - 1 < l.length := by omega
    have h1 := hk l[i - 1] (by omega) (List.getElem?_eq_getElem hil)
    have h2 : l[j] ≤ l[i - 1] := by
      by_cases hje : j = i - 1
      · subst hje
        exact le_refl _
      · exact (List.pairwise_iff_getElem.mp hs) j (i - 1) hjl hil (by omega)
    rw [List.getElem?_eq_getElem hjl] at hj
    have : l[j] = a := Option.some.inj hj
    omega
  · rw [if_neg hji] at hj
    cases hj

theorem drop_ge_of_scan (l : List Int) (i : Nat) (key : Int)
    (hk : ∀ j v, i ≤ j → l[j]? = some v → key < v) :
    ∀ b ∈ l.drop i, key ≤ b := by
  intro b hb
  obtain ⟨j, hj⟩ := List.mem_iff_getElem?.mp hb
  rw [List.getElem?_drop] at hj
  exact le_of_lt (hk (i + j) b (by omega) hj)

theorem Bal.bounds_of_keys {t h : Nat} {x : BTreeNode} (hb : Bal t (h + 1) x) {j : Nat}
    (hj : j ≤ x.n) (hs : (inorder x).Sorted (· ≤ ·)) (key : Int)
    (h1 : ∀ v, 0 < j → x.keys[j - 1]? = some v → v ≤ key)
    (h2 : ∀ v, j < x.n → x.keys[j]? = some v → key ≤ v) :
    (∀ g ∈ leftOf x j, g ≤ key) ∧ (∀ y ∈ rightOf x j, key ≤ y) := by
  obtain ⟨b1, b2, b3, b4⟩ := hb.cut_bounds hj hs
  obtain ⟨hk, _, hn⟩ := hb.nodeOK
  constructor
  · intro g hg
    by_cases h0 : j = 0
    · rw [b1 h0] at hg
      cases hg
    · have hlt : j - 1 < x.keys.length := by omega
      have := b2 _ (by omega) (List.getElem?_eq_getElem hlt) g hg
      have := h1 _ (by omega) (List.getElem?_eq_getElem hlt)
      omega
  · intro y hy
    by_cases h0 : j = x.n
    · rw [b3 h0] at hy
      cases hy
    · have hlt : j < x.keys.length := by omega
      have := b4 _ (by omega) (List.getElem?_eq_getElem hlt) y hy
      have := h2 _ (by omega) (List.getElem?_eq_getElem hlt)
      omega

theorem Bal.sorted_child {t h : Nat} {x c : BTreeNode} (hb : Bal t (h + 1) x) {j : Nat}
    (hj : j ≤ x.n) (hc : (kids x)[j]? = some c) (hs : (inorder x).Sorted (· ≤ ·)) :
    (inorder c).Sorted (· ≤ ·) := by
  rw [hb.cut hj hc, sorted_append_iff, sorted_append_iff] at hs
  exact hs.1.2.1

theorem insertNonFull_leaf {t : Nat} (key : Int) (f : Nat) (nd : BTreeNode)
    (hb : Bal t 0 nd) (hroom : nd.n + 2 ≤ 2 * t) (hs : (inorder nd).Sorted (· ≤ ·)) :
    ∃ r, insertNonFull (f + 1) nd key t = some r ∧ Bal t 0 r ∧
      inorder r = (inorder nd).orderedInsert (· ≤ ·) key ∧ r.n = nd.n + 1 := by
  obtain ⟨hleaf, ⟨hk, hcl, hn⟩, hnone⟩ := hb
  obtain ⟨i, ks', e1, hi, hlen, hp, hgt, hle⟩ := insertShift_spec key nd.n nd.keys (by omega)
  obtain ⟨r, hr⟩ : ∃ r, r = BTreeNode.mk (nd.n + 1) nd.leaf (ks'.set i key) nd.children :=
    ⟨_, rfl⟩
  have e : insertNonFull (f + 1) nd key t = some r := by
    rw [hr]
    simp [insertNonFull, hleaf, e1, store_eq_some _ (show i < ks'.length by omega)]
  have hrn : r.n = nd.n + 1 := by rw [hr]; rfl
  have hrl : r.leaf = true := by rw [hr]; exact hleaf
  have hrk : r.keys = ks'.set i key := by rw [hr]; rfl
  have hrc : r.children = nd.children := by rw [hr]; rfl
  have hkeys : ∀ j, r.keys[j]? = if j = i then some key else
      if i < j ∧ j ≤ nd.n then nd.keys[j - 1]? else nd.keys[j]? := by
    intro j
    rw [hrk, List.getElem?_set, hp j]
    by_cases hj : i = j
    · subst hj
      have : i < ks'.length := by omega
      simp [this]
    · have hj' : ¬ j = i := fun hh => hj hh.symm
      simp only [hj, hj', if_false]
  refine ⟨r, e, ⟨hrl, ⟨by rw [hrk]; simpa using hlen.trans hk, by rw [hrc]; exact hcl, by omega⟩,
    by rw [hrc]; exact hnone⟩, ?_, hrn⟩
  rw [inorder_leaf r hrl, inorder_leaf nd hleaf] at *
  have hlive : liveKeys r = (liveKeys nd).take i ++ key :: (liveKeys nd).drop i := by
    unfold liveKeys
    rw [hrn, take_insert_pointwise nd.keys _ i nd.n key hi (by omega) hkeys]
  have hll : (liveKeys nd).length = nd.n := liveKeys_length nd (by omega)
  rw [hlive]
  conv_rhs => rw [← List.take_append_drop i (liveKeys nd)]
  symm
  apply orderedInsert_mid
  · rw [List.take_append_drop]
    exact hs
  · apply take_le_of_sorted _ _ _ hs (by omega)
    intro v hpos hv
    rw [liveKeys_get nd (by omega)] at hv
    exact hle v hpos hv
  · apply drop_ge_of_scan
    intro j v hj hv
    have hjn : j < nd.n := by
      by_contra hcon
      rw [List.getElem?_eq_none (by omega)] at hv
      cases hv
    rw [liveKeys_get nd hjn] at hv
    exact hgt j v hj hjn hv

theorem insertNonFull_spec (t : Nat) (key : Int) :
    ∀ (h f : Nat) (nd : BTreeNode), h + 1 ≤ f → Bal t h nd → nd.n + 2 ≤ 2 * t →
      (inorder nd).Sorted (· ≤ ·) →
      ∃ r, insertNonFull f nd key t = some r ∧ Bal t h r ∧
        inorder r = (inorder nd).orderedInsert (· ≤ ·) key ∧ nd.n ≤ r.n ∧ r.n ≤ nd.n + 1 := by
  intro h
  induction h with
  | zero =>
    intro f nd hf hb hroom hs
    obtain ⟨f', rfl⟩ : ∃ f', f = f' + 1 := ⟨f - 1, by omega⟩
    obtain ⟨r, e, hbr, hin, hn⟩ := insertNonFull_leaf key f' nd hb hroom hs
    exact ⟨r, e, hbr, hin, by omega, by omega⟩
  | succ h ih =>
    intro f nd hf hb hroom hs
    obtain ⟨f', rfl⟩ : ∃ f', f = f' + 1 := ⟨f - 1, by omega⟩
    have hleaf : nd.leaf = false := hb.1
    obtain ⟨hk, hcl, hn⟩ := hb.nodeOK
    obtain ⟨i, e1, hi, hgt, hle⟩ := scanDown_spec nd.keys key nd.n (by omega)
    obtain ⟨c, hkc, hcc, hca, hcn, hbc⟩ := hb.child hi
    -- the node and slot the recursion goes into
    have key_step : ∀ (x1 : BTreeNode) (i1 : Nat), Bal t (h + 1) x1 → i1 ≤ x1.n →
        inorder x1 = inorder nd →
        (∀ v, 0 < i1 → x1.keys[i1 - 1]? = some v → v ≤ key) →
        (∀ v, i1 < x1.n → x1.keys[i1]? = some v → key ≤ v) →
        (∀ c1, childAt x1 i1 = some c1 → c1.n + 2 ≤ 2 * t) →
        ∃ c1 r cs, childAt x1 i1 = some c1 ∧ insertNonFull f' c1 key t = some r ∧
          store x1.children i1 (some r) = some cs ∧ Bal t (h + 1) (x1.setChildren cs) ∧
          inorder (x1.setChildren cs) = (inorder nd).orderedInsert (· ≤ ·) key := by
      intro x1 i1 hb1 hi1 hin1 hl1 hr1 hroom1
      obtain ⟨c1, hkc1, -, hca1, hcn1, hbc1⟩ := hb1.child hi1
      have hs1 : (inorder x1).Sorted (· ≤ ·) := by rw [hin1]; exact hs
      obtain ⟨r, er, hbr, hinr, hrn1, hrn2⟩ := ih f' c1 (by omega) hbc1 (hroom1 c1 hca1)
        (hb1.sorted_child hi1 hkc1 hs1)
      obtain ⟨hb2, hin2, hst, -⟩ := hb1.setChild hi1 r hbr (by omega)
      refine ⟨c1, r, _, hca1, er, hst, hb2, ?_⟩
      obtain ⟨bl, br⟩ := hb1.bounds_of_keys hi1 hs1 key hl1 hr1
      rw [hin2, hinr, ← hin1]
      conv_rhs => rw [hb1.cut hi1 hkc1]
      symm
      exact orderedInsert_inner _ _ _ key (by rw [← hb1.cut hi1 hkc1]; exact hs1) bl br
    by_cases hfull : c.n + 1 = 2 * t
    · obtain ⟨x1, l, r, m, es, hb1, hin1, hn1, hkeys1, hcl1, hcr1, hln, hrn⟩ :=
        splitChild_spec hb hi hroom hca hfull
      have hm : x1.keys[i]? = some m := by
        rw [hkeys1 i]
        simp
      have hpos : 1 ≤ t := by omega
      by_cases hgtm : key > m
      · obtain ⟨c1, r1, cs, hc1, er, hst, hb2, hin2⟩ := key_step x1 (i + 1) hb1 (by omega) hin1
          (by
            intro v _ hv
            simp only [Nat.add_sub_cancel] at hv
            rw [hm] at hv
            have : m = v := Option.some.inj hv
            omega)
          (by
            intro v hlt hv
            rw [hkeys1 (i + 1), if_neg (by omega), if_pos (by omega)] at hv
            simp only [Nat.add_sub_cancel] at hv
            exact le_of_lt (hgt i v (le_refl _) (by omega) hv))
          (by
            intro c1 hc1
            rw [hcr1] at hc1
            have : r = c1 := Option.some.inj hc1
            subst this
            omega)
        refine ⟨x1.setChildren cs, ?_, hb2, hin2, by simp; omega, by simp; omega⟩
        simp [insertNonFull, hleaf, e1, hca, hfull, es, hm, hgtm, hc1, er, hst]
      · obtain ⟨c1, r1, cs, hc1, er, hst, hb2, hin2⟩ := key_step x1 i hb1 (by omega) hin1
          (by
            intro v hpos hv
            rw [hkeys1 (i - 1), if_neg (by omega), if_neg (by omega)] at hv
            exact hle v hpos hv)
          (by
            intro v _ hv
            rw [hm] at hv
            have : m = v := Option.some.inj hv
            omega)
          (by
            intro c1 hc1
            rw [hcl1] at hc1
            have : l = c1 := Option.some.inj hc1
            subst this
            omega)
        refine ⟨x1.setChildren cs, ?_, hb2, hin2, by simp; omega, by simp; omega⟩
        simp [insertNonFull, hleaf, e1, hca, hfull, es, hm, hgtm, hc1, er, hst]
    · obtain ⟨c1, r1, cs, hc1, er, hst, hb2, hin2⟩ := key_step nd i hb hi rfl hle
          (by
            intro v hlt hv
            exact le_of_lt (hgt i v (le_refl _) hlt hv))
          (by
            intro c1 hc1
            rw [hca] at hc1
            have : c = c1 := Option.some.inj hc1
            subst this
            obtain ⟨_, _, hcn'⟩ := hbc.nodeOK
            omega)
      refine ⟨nd.setChildren cs, ?_, hb2, hin2, by simp, by simp⟩
      rw [hca] at hc1
      have : c = c1 := Option.some.inj hc1
      subst this
      simp [insertNonFull, hleaf, e1, hca, hfull, er, hst]

/-! ### `merge` -/

/-- The node two minimal siblings and their separating key are merged into. -/
theorem merge_child {t h : Nat} {c s : BTreeNode} (hbc : Bal t h c) (hbs : Bal t h s)
    (hcn : c.n + 1 = t) (hsn : s.n + 1 = t) (pk : Int)
    (ck : List Int) (cc : List (Option BTreeNode))
    (hck : ck.length = 2 * t - 1) (hcc : cc.length = 2 * t)
    (hck2 : ∀ j, ck[j]? = if t ≤ j ∧ j < t + s.n then s.keys[j - t]?
      else (c.keys.set (t - 1) pk)[j]?)
    (hcc1 : c.leaf = true → cc = c.children)
    (hcc2 : c.leaf = false → ∀ j, cc[j]? = if t ≤ j ∧ j < t + (s.n + 1) then s.children[j - t]?
      else c.children[j]?) :
    Bal t h (.mk (c.n + s.n + 1) c.leaf ck cc) ∧
      inorder (.mk (c.n + s.n + 1) c.leaf ck cc) = inorder c ++ pk :: inorder s := by
  obtain ⟨ckl, ccl, -⟩ := hbc.nodeOK
  obtain ⟨skl, scl, -⟩ := hbs.nodeOK
  obtain ⟨M, hM⟩ : ∃ M, M = BTreeNode.mk (c.n + s.n + 1) c.leaf ck cc := ⟨_, rfl⟩
  rw [← hM]
  have hMn : M.n = c.n + s.n + 1 := by rw [hM]; rfl
  have hMl : M.leaf = c.leaf := by rw [hM]; rfl
  have hMk : M.keys = ck := by rw [hM]; rfl
  have hMc : M.children = cc := by rw [hM]; rfl
  have okM : NodeOK t M := ⟨by rw [hMk]; exact hck, by rw [hMc]; exact hcc, by omega⟩
  have hlive : liveKeys M = liveKeys c ++ pk :: liveKeys s := by
    unfold liveKeys
    rw [hMn, hMk, show c.n + s.n + 1 = c.n + 1 + s.n by omega]
    apply take_join_pointwise _ _ _ _ _ _ (by omega)
    intro j hj
    rw [hck2 j, List.getElem?_set]
    by_cases h1 : t ≤ j
    · rw [if_pos ⟨h1, by omega⟩, if_neg (by omega), if_neg (by omega)]
      congr 1
      omega
    · rw [if_neg (by omega)]
      by_cases h2 : j = c.n
      · subst h2
        have e1 : t - 1 = c.n := by omega
        have e2 : c.n < c.keys.length := by omega
        simp [e1, e2]
      · rw [if_neg (by omega), if_pos (by omega)]
  cases h with
  | zero =>
    obtain ⟨hleaf, -, hnone⟩ := hbc
    refine ⟨⟨by rw [hMl]; exact hleaf, okM, by rw [hMc, hcc1 hleaf]; exact hnone⟩, ?_⟩
    rw [inorder_leaf M (by rw [hMl]; exact hleaf), inorder_leaf c hleaf, inorder_leaf s hbs.1,
      hlive]
  | succ h =>
    have hlc := hbc.kids_length
    have hls := hbs.kids_length
    obtain ⟨hleaf, -, hL, hall⟩ := hbc
    obtain ⟨hsleaf, -, hLs, halls⟩ := hbs
    have hkids : M.children.take (M.n + 1) = (kids c ++ kids s).map some := by
      rw [hMn, hMc, show c.n + s.n + 1 + 1 = (c.n + 1) + (s.n + 1) by omega, List.map_append,
        ← hL, ← hLs]
      apply take_concat_pointwise _ _ _ _ _ (by omega)
      intro j hj
      rw [hcc2 hleaf j]
      by_cases h1 : t ≤ j
      · rw [if_pos ⟨h1, by omega⟩, if_neg (by omega)]
        congr 1
        omega
      · rw [if_neg (by omega), if_pos (by omega)]
    have hMl' : M.leaf = false := by rw [hMl]; exact hleaf
    refine ⟨Bal_succ_of _ hMl' okM hkids ?_, ?_⟩
    · intro y hy
      rcases List.mem_append.mp hy with hy | hy
      · exact hall y hy
      · exact halls y hy
    · rw [BT.inorder_inner M _ hMl' hkids, hlive, BT.inorder_inner c _ hleaf hL,
        BT.inorder_inner s _ hsleaf hLs, List.map_append]
      exact interleave_halves _ _ _ _ _ (by
        rw [List.length_map, hlc, liveKeys_length c (by omega)])

theorem merge_spec {t h : Nat} {x c s : BTreeNode} {idx : Nat} (hb : Bal t (h + 1) x)
    (hidx : idx < x.n) (hc : childAt x idx = some c) (hs : childAt x (idx + 1) = some s)
    (hcn : c.n + 1 = t) (hsn : s.n + 1 = t) :
    ∃ x1 m pk, merge x idx t = some x1 ∧ Bal t (h + 1) x1 ∧ inorder x1 = inorder x ∧
      x1.n + 1 = x.n ∧ childAt x1 idx = some m ∧ m.n + 1 = 2 * t ∧ Bal t h m ∧
      x.keys[idx]? = some pk ∧ inorder m = inorder c ++ pk :: inorder s := by
  obtain ⟨c', hkc, hcc, hca, -, hbc⟩ := hb.child (show idx ≤ x.n by omega)
  obtain ⟨s', hks, hsc, hsa, -, hbs⟩ := hb.child (show idx + 1 ≤ x.n by omega)
  have e1 : c' = c := by rw [hca] at hc; exact Option.some.inj hc
  have e2 : s' = s := by rw [hsa] at hs; exact Option.some.inj hs
  subst e1 e2
  have hlenk := hb.kids_length
  have hlk := hb.live_length
  obtain ⟨hleaf, hok, hL, hall⟩ := hb
  have hpos := hok.pos
  obtain ⟨hk, hcl, hn⟩ := hok
  obtain ⟨ckl, ccl, -⟩ := hbc.nodeOK
  obtain ⟨skl, scl, -⟩ := hbs.nodeOK
  obtain ⟨pk, hpk⟩ : ∃ pk, x.keys[idx]? = some pk :=
    ⟨_, List.getElem?_eq_getElem (show idx < x.keys.length by omega)⟩
  -- the merged child
  obtain ⟨ck, eck, lck, pck⟩ := copyLoop_spec s'.keys 0 t s'.n 0 (c'.keys.set (t - 1) pk)
    (by omega) (by simp; omega)
  have hccx : ∃ cc, (if c'.leaf then some c'.children
      else copyLoop s'.children 0 t (s'.n + 1) 0 c'.children) = some cc ∧
      cc.length = 2 * t ∧ (c'.leaf = true → cc = c'.children) ∧
      (c'.leaf = false → ∀ j, cc[j]? = if t ≤ j ∧ j < t + (s'.n + 1) then s'.children[j - t]?
        else c'.children[j]?) := by
    by_cases hlf : c'.leaf = true
    · exact ⟨c'.children, by simp [hlf], ccl, fun _ => rfl, by simp [hlf]⟩
    · obtain ⟨cc, ecc, lcc, pcc⟩ := copyLoop_spec s'.children 0 t (s'.n + 1) 0 c'.children
        (by omega) (by omega)
      refine ⟨cc, by simp [hlf, ecc], lcc.trans ccl, by simp [hlf], ?_⟩
      intro _ j
      rw [pcc j]
      simp
  obtain ⟨cc, ecc, lcc, cc1, cc2⟩ := hccx
  have hck2 : ∀ j, ck[j]? = if t ≤ j ∧ j < t + s'.n then s'.keys[j - t]?
      else (c'.keys.set (t - 1) pk)[j]? := by
    intro j
    rw [pck j]
    simp
  obtain ⟨bM, hinM⟩ := merge_child hbc hbs hcn hsn pk ck cc
    (by rw [lck]; simpa using ckl) lcc hck2 cc1 cc2
  obtain ⟨m, hm⟩ : ∃ m, m = BTreeNode.mk (c'.n + s'.n + 1) c'.leaf ck cc := ⟨_, rfl⟩
  rw [← hm] at bM hinM
  have hmn : m.n = c'.n + s'.n + 1 := by rw [hm]; rfl
  -- the parent
  obtain ⟨nk, enk, lnk, pnk⟩ := shiftDown_spec (x.n - (idx + 1)) idx x.keys (by omega)
  obtain ⟨nc, enc, lnc, pnc⟩ := shiftDown_spec (x.n + 1 - (idx + 2)) (idx + 1) x.children
    (by omega)
  obtain ⟨x1, hx1⟩ : ∃ x1, x1 = BTreeNode.mk (x.n - 1) x.leaf nk (nc.set idx (some m)) :=
    ⟨_, rfl⟩
  have e : merge x idx t = some x1 := by
    have ht : t ≠ 0 := by omega
    have hn0 : x.n ≠ 0 := by omega
    rw [hx1, hm]
    have enc' : shiftDown (x.n - (idx + 1)) (idx + 1) x.children = some nc := by
      rwa [show x.n + 1 - (idx + 2) = x.n - (idx + 1) by omega] at enc
    simp [merge, hca, hsa, ht, hpk,
      store_eq_some _ (show t - 1 < c'.keys.length by omega), eck, ecc, enk, enc',
      store_eq_some _ (show idx < nc.length by omega), hn0]
  have hx1n : x1.n = x.n - 1 := by rw [hx1]; rfl
  have hx1l : x1.leaf = false := by rw [hx1]; exact hleaf
  have hx1k : x1.keys = nk := by rw [hx1]; rfl
  have hx1c : x1.children = nc.set idx (some m) := by rw [hx1]; rfl
  obtain ⟨A, B', hAB', hA⟩ := exists_cut (kids x) idx c' hkc
  have hB' : ∃ B, B' = s' :: B := by
    have h1 : (kids x)[idx + 1]? = some s' := hks
    rw [hAB', ← hA, List.getElem?_append_right (by omega)] at h1
    simp only [Nat.add_sub_cancel_left, List.getElem?_cons_succ] at h1
    cases B' with
    | nil => simp at h1
    | cons b B =>
      simp only [List.getElem?_cons_zero] at h1
      exact ⟨B, by rw [Option.some.inj h1]⟩
  obtain ⟨B, rfl⟩ := hB'
  have hgetk : (liveKeys x)[idx]? = some pk := by
    rw [liveKeys_get x hidx, hpk]
  obtain ⟨K, Lk, hKL, hK⟩ := exists_cut (liveKeys x) idx pk hgetk
  have hlive1 : liveKeys x1 = K ++ Lk := by
    unfold liveKeys
    rw [hx1n, hx1k, take_erase_pointwise x.keys nk idx x.n hidx (by omega) (by
      intro j
      rw [pnk j]
      by_cases h1 : idx ≤ j ∧ j + 1 < x.n
      · rw [if_pos h1, if_pos (by omega)]
      · rw [if_neg h1, if_neg (by omega)])]
    show (liveKeys x).take idx ++ (liveKeys x).drop (idx + 1) = _
    rw [hKL, ← hK, List.take_left, drop_mid_succ]
  have hkids1 : x1.children.take (x1.n + 1) = (A ++ m :: B).map some := by
    rw [hx1n, hx1c, show x.n - 1 + 1 = x.n + 1 - 1 by omega, List.set_take,
      take_erase_pointwise x.children nc (idx + 1) (x.n + 1) (by omega) (by omega) (by
        intro j
        rw [pnc j]
        by_cases h1 : idx + 1 ≤ j ∧ j + 1 < x.n + 1
        · rw [if_pos h1, if_pos (by omega)]
        · rw [if_neg h1, if_neg (by omega)]),
      hL, hAB', ← List.map_take, ← List.map_drop, ← hA, take_mid_succ,
      show A.length + 1 + 1 = A.length + 2 by omega, drop_mid_succ2, ← List.map_append,
      ← List.map_set]
    congr 1
    rw [List.append_assoc]
    exact set_mid A B c' m
  refine ⟨x1, m, pk, e, ?_, ?_, by omega, ?_, by omega, bM, hpk, hinM⟩
  · refine Bal_succ_of _ hx1l ⟨by rw [hx1k]; exact lnk.trans hk,
      by rw [hx1c]; simpa using lnc.trans hcl, by omega⟩ hkids1 ?_
    intro y hy
    rw [hAB'] at hall
    simp only [List.mem_append, List.mem_cons] at hy hall
    rcases hy with hy | rfl | hy
    · exact hall y (Or.inl hy)
    · exact ⟨by omega, bM⟩
    · exact hall y (Or.inr (Or.inr (Or.inr hy)))
  · rw [BT.inorder_inner x1 _ hx1l hkids1, hlive1, BT.inorder_inner x (kids x) hleaf hL, hAB', hKL]
    simp only [List.map_append, List.map_cons]
    rw [interleave_two _ _ _ _ _ _ _ (by simpa using hA.trans hK.symm),
      interleave_one _ _ _ _ _ (by simpa using hA.trans hK.symm), hinM]
    simp
  · apply childAt_eq
    have := congrArg (fun l => l[idx]?) hkids1
    simp only [List.getElem?_take, List.getElem?_map] at this
    rw [if_pos (by omega)] at this
    rw [this, ← hA, getElem?_mid]
    rfl

/-! ### `borrowFromPrev` -/

theorem take_pred_snoc {α : Type} (l : List α) (n : Nat) (v : α) (hn : 0 < n)
    (h : l[n - 1]? = some v) : l.take n = l.take (n - 1) ++ [v] := by
  obtain ⟨k, rfl⟩ : ∃ k, n = k + 1 := ⟨n - 1, by omega⟩
  simp only [Nat.add_sub_cancel] at h ⊢
  rw [List.take_succ, h]
  rfl

theorem take_cons_tail {α : Type} (l : List α) (n : Nat) (v : α) (hn : 0 < n)
    (h : l[0]? = some v) : l.take n = v :: (l.take n).drop 1 := by
  cases l with
  | nil => simp at h
  | cons a l =>
    obtain ⟨k, rfl⟩ : ∃ k, n = k + 1 := ⟨n - 1, by omega⟩
    simp at h
    simp [h]

/-- The child and the left sibling after a key has moved from the sibling through the
parent into the child. -/
theorem borrowPrev_children {t h : Nat} {c s : BTreeNode} (hbc : Bal t h c) (hbs : Bal t h s)
    (hroom : c.n + 2 ≤ 2 * t) (hcn : t ≤ c.n + 1) (hs1 : 1 ≤ s.n) (pk : Int)
    (ck : List Int) (cc : List (Option BTreeNode)) (sc : Option BTreeNode)
    (hck : ck.length = 2 * t - 1) (hcc : cc.length = 2 * t)
    (hck2 : ∀ j, ck[j]? = if j = 0 then some pk else
      if 0 < j ∧ j ≤ c.n then c.keys[j - 1]? else c.keys[j]?)
    (hcc1 : c.leaf = true → cc = c.children)
    (hsc : c.leaf = false → s.children[s.n]? = some sc)
    (hcc2 : c.leaf = false → ∀ j, cc[j]? = if j = 0 then some sc else
      if 0 < j ∧ j ≤ c.n + 1 then c.children[j - 1]? else c.children[j]?) :
    Bal t h (.mk (c.n + 1) c.leaf ck cc) ∧
    Bal t h (.mk (s.n - 1) s.leaf s.keys s.children) ∧
    ∃ sk, s.keys[s.n - 1]? = some sk ∧
      inorder s ++ pk :: inorder c = inorder (.mk (s.n - 1) s.leaf s.keys s.children) ++
        sk :: inorder (.mk (c.n + 1) c.leaf ck cc) ∧
      ∀ y ∈ inorder c, y ∈ inorder (.mk (c.n + 1) c.leaf ck cc) := by
  obtain ⟨ckl, ccl, cnl⟩ := hbc.nodeOK
  obtain ⟨skl, scl, snl⟩ := hbs.nodeOK
  obtain ⟨c1, hc1⟩ : ∃ c1, c1 = BTreeNode.mk (c.n + 1) c.leaf ck cc := ⟨_, rfl⟩
  obtain ⟨s1, hs1'⟩ : ∃ s1, s1 = BTreeNode.mk (s.n - 1) s.leaf s.keys s.children := ⟨_, rfl⟩
  rw [← hc1, ← hs1']
  have hc1n : c1.n = c.n + 1 := by rw [hc1]; rfl
  have hc1l : c1.leaf = c.leaf := by rw [hc1]; rfl
  have hc1k : c1.keys = ck := by rw [hc1]; rfl
  have hc1c : c1.children = cc := by rw [hc1]; rfl
  have hs1n : s1.n = s.n - 1 := by rw [hs1']; rfl
  have hs1l : s1.leaf = s.leaf := by rw [hs1']; rfl
  have hs1k : s1.keys = s.keys := by rw [hs1']; rfl
  have hs1c : s1.children = s.children := by rw [hs1']; rfl
  have okc1 : NodeOK t c1 := ⟨by rw [hc1k]; exact hck, by rw [hc1c]; exact hcc, by omega⟩
  have oks1 : NodeOK t s1 := ⟨by rw [hs1k]; exact skl, by rw [hs1c]; exact scl, by omega⟩
  obtain ⟨sk, hsk⟩ : ∃ sk, s.keys[s.n - 1]? = some sk :=
    ⟨_, List.getElem?_eq_getElem (show s.n - 1 < s.keys.length by omega)⟩
  have hlivec : liveKeys c1 = pk :: liveKeys c := by
    unfold liveKeys
    rw [hc1n, hc1k, take_insert_pointwise c.keys ck 0 c.n pk (by omega) (by omega) hck2]
    simp
  have hlives : liveKeys s = liveKeys s1 ++ [sk] := by
    unfold liveKeys
    rw [hs1n, hs1k]
    exact take_pred_snoc _ _ _ hs1 hsk
  refine ⟨?_, ?_, sk, hsk, ?_, ?_⟩ <;> cases h with
  | zero =>
    first
    | exact ⟨by rw [hc1l]; exact hbc.1, okc1, by rw [hc1c, hcc1 hbc.1]; exact hbc.2.2⟩
    | exact ⟨by rw [hs1l]; exact hbs.1, oks1, by rw [hs1c]; exact hbs.2.2⟩
    | (rw [inorder_leaf s hbs.1, inorder_leaf c hbc.1, inorder_leaf s1 (by rw [hs1l]; exact hbs.1),
        inorder_leaf c1 (by rw [hc1l]; exact hbc.1), hlivec, hlives]
       simp)
    | (intro y hy
       rw [inorder_leaf c hbc.1] at hy
       rw [inorder_leaf c1 (by rw [hc1l]; exact hbc.1), hlivec]
       exact List.mem_cons_of_mem _ hy)
  | succ h =>
    have hlc := hbc.kids_length
    have hls := hbs.kids_length
    obtain ⟨scn, hscn1, hscn2, -, hscn3, hscn4⟩ := hbs.child (le_refl s.n)
    have hcleaf : c.leaf = false := hbc.1
    have hsleaf : s.leaf = false := hbs.1
    have hLc := hbc.2.2.1
    have hLs := hbs.2.2.1
    have hallc := hbc.2.2.2
    have halls := hbs.2.2.2
    have hsceq : sc = some scn := by
      have := hsc hcleaf
      rw [hscn2] at this
      exact (Option.some.inj this).symm
    have hkc1 : c1.children.take (c1.n + 1) = (scn :: kids c).map some := by
      rw [hc1n, hc1c, take_insert_pointwise c.children cc 0 (c.n + 1) sc (by omega) (by omega)
        (hcc2 hcleaf), hLc, hsceq]
      simp
    have hks1 : s1.children.take (s1.n + 1) = ((kids s).take s.n).map some := by
      rw [hs1n, hs1c, show s.n - 1 + 1 = s.n by omega, List.map_take, ← hLs, List.take_take]
      congr 1
      omega
    have hkids_s : kids s = (kids s).take s.n ++ [scn] := by
      have := take_pred_snoc (kids s) (s.n + 1) scn (by omega) (by simpa using hscn1)
      simp only [Nat.add_sub_cancel] at this
      rw [← this]
      exact (List.take_of_length_le (by omega)).symm
    have hc1l' : c1.leaf = false := by rw [hc1l]; exact hcleaf
    have hs1l' : s1.leaf = false := by rw [hs1l]; exact hsleaf
    have hinc1 : inorder c1 = inorder scn ++ pk :: inorder c := by
      rw [BT.inorder_inner c1 _ hc1l' hkc1, hlivec, BT.inorder_inner c _ hcleaf hLc]
      simp [interleave]
    first
    | (refine Bal_succ_of _ hc1l' okc1 hkc1 ?_
       intro y hy
       rcases List.mem_cons.mp hy with rfl | hy
       · exact ⟨hscn3, hscn4⟩
       · exact hallc y hy)
    | (refine Bal_succ_of _ hs1l' oks1 hks1 ?_
       intro y hy
       exact halls y (List.mem_of_mem_take hy))
    | (rw [hinc1, BT.inorder_inner s1 _ hs1l' hks1]
       conv_lhs => rw [BT.inorder_inner s _ hsleaf hLs, hkids_s, hlives, List.map_append,
         interleave_halves _ _ _ _ _ (by
          rw [List.length_map, List.length_take_of_le (by omega), liveKeys_length s1 (by
            rw [hs1k, hs1n]; omega), hs1n]
          omega)]
       simp [interleave])
    | (intro y hy
       rw [hinc1]
       simp [hy])

theorem borrowFromPrev_spec {t h : Nat} {x c s : BTreeNode} {idx : Nat}
    (hb : Bal t (h + 1) x) (hidx0 : 1 ≤ idx) (hidx : idx ≤ x.n)
    (hc : childAt x idx = some c) (hs : childAt x (idx - 1) = some s)
    (hroom : c.n + 2 ≤ 2 * t) (hsn : t ≤ s.n) (hs1 : 1 ≤ s.n) :
    ∃ x1 c1, borrowFromPrev x idx = some x1 ∧ Bal t (h + 1) x1 ∧ inorder x1 = inorder x ∧
      x1.n = x.n ∧ childAt x1 idx = some c1 ∧ c1.n = c.n + 1 ∧
      ∀ y ∈ inorder c, y ∈ inorder c1 := by
  obtain ⟨i, rfl⟩ : ∃ i, idx = i + 1 := ⟨idx - 1, by omega⟩
  simp only [Nat.add_sub_cancel] at hs
  obtain ⟨c', hkc, hcc, hca, hcn', hbc⟩ := hb.child hidx
  obtain ⟨s', hks, hsc, hsa, -, hbs⟩ := hb.child (show i ≤ x.n by omega)
  have e1 : c' = c := by rw [hca] at hc; exact Option.some.inj hc
  have e2 : s' = s := by rw [hsa] at hs; exact Option.some.inj hs
  subst e1 e2
  have hlenk := hb.kids_length
  have hlk := hb.live_length
  obtain ⟨hleaf, hok, hL, hall⟩ := hb
  have hpos := hok.pos
  obtain ⟨hk, hcl, hn⟩ := hok
  obtain ⟨ckl, ccl, -⟩ := hbc.nodeOK
  obtain ⟨skl, scl, snl⟩ := hbs.nodeOK
  obtain ⟨pk, hpk⟩ : ∃ pk, x.keys[i]? = some pk :=
    ⟨_, List.getElem?_eq_getElem (show i < x.keys.length by omega)⟩
  -- the child
  obtain ⟨ck, eck, lck, pck⟩ := shiftUp_spec 0 c'.n c'.keys (by omega)
  obtain ⟨sc, hscv⟩ : ∃ sc, s'.children[s'.n]? = some sc :=
    ⟨_, List.getElem?_eq_getElem (show s'.n < s'.children.length by omega)⟩
  have hccx : ∃ cc, (if c'.leaf then some c'.children
      else shiftUp 0 (c'.n + 1) c'.children) = some cc ∧ cc.length = 2 * t ∧
      (c'.leaf = true → cc = c'.children) ∧
      (c'.leaf = false → ∀ j, cc[j]? = if 0 < j ∧ j ≤ c'.n + 1 then c'.children[j - 1]?
        else c'.children[j]?) := by
    by_cases hlf : c'.leaf = true
    · exact ⟨c'.children, by simp [hlf], ccl, fun _ => rfl, by simp [hlf]⟩
    · obtain ⟨cc, ecc, lcc, pcc⟩ := shiftUp_spec 0 (c'.n + 1) c'.children (by omega)
      refine ⟨cc, by simp [hlf, ecc], lcc.trans ccl, by simp [hlf], ?_⟩
      intro _ j
      rw [pcc j]
      simp
  obtain ⟨cc, ecc, lcc, cc1, cc2⟩ := hccx
  obtain ⟨cc', hcc'⟩ : ∃ cc', cc' = if c'.leaf then cc else cc.set 0 sc := ⟨_, rfl⟩
  have ecc' : (if c'.leaf then some cc
      else (s'.children[s'.n]?).bind fun sc => store cc 0 sc) = some cc' := by
    rw [hcc']
    by_cases hlf : c'.leaf = true
    · simp [hlf]
    · simp [hlf, hscv, store_eq_some _ (show 0 < cc.length by omega)]
  obtain ⟨bc1, bs1, sk, hsk, hin, hmem⟩ := borrowPrev_children hbc hbs hroom (by omega) hs1 pk
    (ck.set 0 pk) cc' sc (by simpa using lck.trans ckl)
    (by rw [hcc']; split <;> simp [lcc])
    (by
      intro j
      rw [List.getElem?_set, pck j]
      by_cases hj : 0 = j
      · subst hj
        have : 0 < ck.length := by omega
        simp [this]
      · have hj' : ¬ j = 0 := fun hh => hj hh.symm
        simp only [hj, hj', if_false]
        simp)
    (by
      intro hlf
      rw [hcc', cc1 hlf]
      simp [hlf])
    (fun _ => hscv)
    (by
      intro hlf j
      rw [hcc']
      simp only [hlf, Bool.false_eq_true, if_false, List.getElem?_set, cc2 hlf j]
      by_cases hj : 0 = j
      · subst hj
        have : 0 < cc.length := by omega
        simp [this]
      · have hj' : ¬ j = 0 := fun hh => hj hh.symm
        simp only [hj, hj', if_false])
  obtain ⟨c1, hc1⟩ : ∃ c1, c1 = BTreeNode.mk (c'.n + 1) c'.leaf (ck.set 0 pk) cc' := ⟨_, rfl⟩
  obtain ⟨s1, hs1'⟩ : ∃ s1, s1 = BTreeNode.mk (s'.n - 1) s'.leaf s'.keys s'.children :=
    ⟨_, rfl⟩
  rw [← hc1, ← hs1'] at hin
  rw [← hc1] at bc1 hmem
  rw [← hs1'] at bs1
  obtain ⟨x1, hx1⟩ : ∃ x1, x1 = BTreeNode.mk x.n x.leaf (x.keys.set i sk)
      ((x.children.set (i + 1) (some c1)).set i (some s1)) := ⟨_, rfl⟩
  have e : borrowFromPrev x (i + 1) = some x1 := by
    have hs0 : s'.n ≠ 0 := by omega
    rw [hx1, hc1, hs1']
    simp only [borrowFromPrev, Nat.add_sub_cancel]
    simp [hca, hsa, eck, ecc, hpk, store_eq_some _ (show 0 < ck.length by omega), ecc', hs0, hsk,
      store_eq_some _ (show i < x.keys.length by omega),
      store_eq_some _ (show i + 1 < x.children.length by omega),
      store_eq_some _ (show i < (x.children.set (i + 1)
        (some (BTreeNode.mk (c'.n + 1) c'.leaf (ck.set 0 pk) cc'))).length by simp; omega)]
  have hx1n : x1.n = x.n := by rw [hx1]; rfl
  have hx1l : x1.leaf = false := by rw [hx1]; exact hleaf
  have hx1k : x1.keys = x.keys.set i sk := by rw [hx1]; rfl
  have hx1c : x1.children = (x.children.set (i + 1) (some c1)).set i (some s1) := by
    rw [hx1]; rfl
  obtain ⟨A, B', hAB', hA⟩ := exists_cut (kids x) i s' hks
  have hB' : ∃ B, B' = c' :: B := by
    have h1 : (kids x)[i + 1]? = some c' := hkc
    rw [hAB', ← hA, List.getElem?_append_right (by omega)] at h1
    simp only [Nat.add_sub_cancel_left, List.getElem?_cons_succ] at h1
    cases B' with
    | nil => simp at h1
    | cons b B =>
      simp only [List.getElem?_cons_zero] at h1
      exact ⟨B, by rw [Option.some.inj h1]⟩
  obtain ⟨B, rfl⟩ := hB'
  have hgetk : (liveKeys x)[i]? = some pk := by
    rw [liveKeys_get x (by omega), hpk]
  obtain ⟨K, Lk, hKL, hK⟩ := exists_cut (liveKeys x) i pk hgetk
  have hlive1 : liveKeys x1 = K ++ sk :: Lk := by
    unfold liveKeys
    rw [hx1n, hx1k, List.set_take]
    show (liveKeys x).set i sk = _
    rw [hKL, ← hK, set_mid]
  have hkids1 : x1.children.take (x1.n + 1) = (A ++ s1 :: c1 :: B).map some := by
    rw [hx1n, hx1c, List.set_take, List.set_take, hL, hAB', ← List.map_set, ← List.map_set,
      ← hA, set_mid_succ, set_mid]
  refine ⟨x1, c1, e, ?_, ?_, hx1n, ?_, by rw [hc1]; rfl, hmem⟩
  · refine Bal_succ_of _ hx1l ⟨by rw [hx1k]; simpa using hk,
      by rw [hx1c]; simpa using hcl, by omega⟩ hkids1 ?_
    intro y hy
    rw [hAB'] at hall
    simp only [List.mem_append, List.mem_cons] at hy hall
    rcases hy with hy | rfl | rfl | hy
    · exact hall y (Or.inl hy)
    · exact ⟨by rw [hs1']; simp; omega, bs1⟩
    · exact ⟨by rw [hc1]; simp; omega, bc1⟩
    · exact hall y (Or.inr (Or.inr (Or.inr hy)))
  · rw [BT.inorder_inner x1 _ hx1l hkids1, hlive1, BT.inorder_inner x (kids x) hleaf hL, hAB', hKL]
    simp only [List.map_append, List.map_cons]
    rw [interleave_two _ _ _ _ _ _ _ (by simpa using hA.trans hK.symm),
      interleave_two _ _ _ _ _ _ _ (by simpa using hA.trans hK.symm)]
    have := congrArg (fun l => interleave (List.map inorder A ++ [[]]) K ++ l ++
      interleave ([] :: List.map inorder B) Lk) hin
    simpa using this.symm
  · apply childAt_eq
    have := congrArg (fun l => l[i + 1]?) hkids1
    simp only [List.getElem?_take, List.getElem?_map] at this
    rw [if_pos (by omega)] at this
    rw [this, ← hA, getElem?_mid_succ]
    rfl

/-! ### `borrowFromNext` -/

theorem take_snoc_drop {α : Type} (l : List α) (n : Nat) (v : α) (h : l.length ≤ n) :
    l.take n ++ v :: l.drop n = l ++ [v] := by
  rw [List.take_of_length_le h, List.drop_eq_nil_of_le h]

/-- The child and the right sibling after a key has moved from the sibling through the
parent into the child. -/
theorem borrowNext_children {t h : Nat} {c s : BTreeNode} (hbc : Bal t h c)
    (hbs : Bal t h s) (hroom : c.n + 2 ≤ 2 * t) (hsn : t ≤ s.n) (hs1 : 1 ≤ s.n) (pk : Int)
    (cc : List (Option BTreeNode)) (sc : Option BTreeNode)
    (sk1 : List Int) (sc1 : List (Option BTreeNode))
    (hcc1 : c.leaf = true → cc = c.children)
    (hsc : c.leaf = false → s.children[0]? = some sc)
    (hcc2 : c.leaf = false → cc = c.children.set (c.n + 1) sc)
    (hsk1 : sk1.length = 2 * t - 1) (hsc1 : sc1.length = 2 * t)
    (hsk2 : ∀ j, sk1[j]? = if 0 ≤ j ∧ j + 1 < s.n then s.keys[j + 1]? else s.keys[j]?)
    (hsc2 : s.leaf = true → sc1 = s.children)
    (hsc3 : s.leaf = false → ∀ j, sc1[j]? = if 0 ≤ j ∧ j + 1 < s.n + 1 then s.children[j + 1]?
      else s.children[j]?) :
    Bal t h (.mk (c.n + 1) c.leaf (c.keys.set c.n pk) cc) ∧
    Bal t h (.mk (s.n - 1) s.leaf sk1 sc1) ∧
    ∃ sk, s.keys[0]? = some sk ∧
      inorder c ++ pk :: inorder s = inorder (.mk (c.n + 1) c.leaf (c.keys.set c.n pk) cc) ++
        sk :: inorder (.mk (s.n - 1) s.leaf sk1 sc1) ∧
      ∀ y ∈ inorder c, y ∈ inorder (.mk (c.n + 1) c.leaf (c.keys.set c.n pk) cc) := by
  obtain ⟨ckl, ccl, cnl⟩ := hbc.nodeOK
  obtain ⟨skl, scl, snl⟩ := hbs.nodeOK
  obtain ⟨c1, hc1⟩ : ∃ c1, c1 = BTreeNode.mk (c.n + 1) c.leaf (c.keys.set c.n pk) cc :=
    ⟨_, rfl⟩
  obtain ⟨s1, hs1'⟩ : ∃ s1, s1 = BTreeNode.mk (s.n - 1) s.leaf sk1 sc1 := ⟨_, rfl⟩
  rw [← hc1, ← hs1']
  have hc1n : c1.n = c.n + 1 := by rw [hc1]; rfl
  have hc1l : c1.leaf = c.leaf := by rw [hc1]; rfl
  have hc1k : c1.keys = c.keys.set c.n pk := by rw [hc1]; rfl
  have hc1c : c1.children = cc := by rw [hc1]; rfl
  have hs1n : s1.n = s.n - 1 := by rw [hs1']; rfl
  have hs1l : s1.leaf = s.leaf := by rw [hs1']; rfl
  have hs1k : s1.keys = sk1 := by rw [hs1']; rfl
  have hs1c : s1.children = sc1 := by rw [hs1']; rfl
  have hcclen : cc.length = 2 * t := by
    by_cases hlf : c.leaf = true
    · rw [hcc1 hlf]; exact ccl
    · rw [hcc2 (by simpa using hlf)]; simpa using ccl
  have okc1 : NodeOK t c1 := ⟨by rw [hc1k]; simpa using ckl, by rw [hc1c]; exact hcclen, by omega⟩
  have oks1 : NodeOK t s1 := ⟨by rw [hs1k]; exact hsk1, by rw [hs1c]; exact hsc1, by omega⟩
  obtain ⟨sk, hsk⟩ : ∃ sk, s.keys[0]? = some sk :=
    ⟨_, List.getElem?_eq_getElem (show 0 < s.keys.length by omega)⟩
  have hlivec : liveKeys c1 = liveKeys c ++ [pk] := by
    unfold liveKeys
    rw [hc1n, hc1k, take_insert_pointwise c.keys _ c.n c.n pk (le_refl _) (by omega) (by
      intro j
      rw [List.getElem?_set]
      by_cases hj : c.n = j
      · subst hj
        have : c.n < c.keys.length := by omega
        simp [this]
      · have hj' : ¬ j = c.n := fun hh => hj hh.symm
        simp only [hj, hj', if_false]
        rw [if_neg (by omega)])]
    exact take_snoc_drop _ _ _ (List.length_take_le _ _)
  have hlives1 : liveKeys s1 = (liveKeys s).drop 1 := by
    unfold liveKeys
    rw [hs1n, hs1k, take_erase_pointwise s.keys sk1 0 s.n (by omega) (by omega) hsk2]
    simp
  have hlives : liveKeys s = sk :: liveKeys s1 := by
    rw [hlives1]
    exact take_cons_tail _ _ _ (by omega) hsk
  refine ⟨?_, ?_, sk, hsk, ?_, ?_⟩ <;> cases h with
  | zero =>
    first
    | exact ⟨by rw [hc1l]; exact hbc.1, okc1, by rw [hc1c, hcc1 hbc.1]; exact hbc.2.2⟩
    | exact ⟨by rw [hs1l]; exact hbs.1, oks1, by rw [hs1c, hsc2 hbs.1]; exact hbs.2.2⟩
    | (rw [inorder_leaf s hbs.1, inorder_leaf c hbc.1, inorder_leaf s1 (by rw [hs1l]; exact hbs.1),
        inorder_leaf c1 (by rw [hc1l]; exact hbc.1), hlivec, hlives]
       simp)
    | (intro y hy
       rw [inorder_leaf c hbc.1] at hy
       rw [inorder_leaf c1 (by rw [hc1l]; exact hbc.1), hlivec]
       exact List.mem_append_left _ hy)
  | succ h =>
    have hlc := hbc.kids_length
    have hls := hbs.kids_length
    obtain ⟨scn, hscn1, hscn2, -, hscn3, hscn4⟩ := hbs.child (Nat.zero_le s.n)
    have hcleaf : c.leaf = false := hbc.1
    have hsleaf : s.leaf = false := hbs.1
    have hLc := hbc.2.2.1
    have hLs := hbs.2.2.1
    have hallc := hbc.2.2.2
    have halls := hbs.2.2.2
    have hsceq : sc = some scn := by
      have := hsc hcleaf
      rw [hscn2] at this
      exact (Option.some.inj this).symm
    have hkc1 : c1.children.take (c1.n + 1) = (kids c ++ [scn]).map some := by
      rw [hc1n, hc1c, hcc2 hcleaf,
        take_insert_pointwise c.children _ (c.n + 1) (c.n + 1) sc (le_refl _) (by omega) (by
          intro j
          rw [List.getElem?_set]
          by_cases hj : c.n + 1 = j
          · subst hj
            have : c.n + 1 < c.children.length := by omega
            simp [this]
          · have hj' : ¬ j = c.n + 1 := fun hh => hj hh.symm
            simp only [hj, hj', if_false]
            rw [if_neg (by omega)]), hLc, hsceq,
        take_snoc_drop _ _ _ (by rw [List.length_map]; omega)]
      simp
    have hks1 : s1.children.take (s1.n + 1) = ((kids s).drop 1).map some := by
      rw [hs1n, hs1c, show s.n - 1 + 1 = s.n + 1 - 1 by omega,
        take_erase_pointwise s.children sc1 0 (s.n + 1) (by omega) (by omega) (hsc3 hsleaf), hLs]
      simp
    have hkids_s : kids s = scn :: (kids s).drop 1 := by
      have h0 : (kids s)[0]? = some scn := hscn1
      cases hks : kids s with
      | nil => rw [hks] at h0; simp at h0
      | cons a l =>
        rw [hks] at h0
        simp at h0
        simp [h0]
    have hc1l' : c1.leaf = false := by rw [hc1l]; exact hcleaf
    have hs1l' : s1.leaf = false := by rw [hs1l]; exact hsleaf
    have hinc1 : inorder c1 = inorder c ++ pk :: inorder scn := by
      rw [BT.inorder_inner c1 _ hc1l' hkc1, hlivec, BT.inorder_inner c _ hcleaf hLc,
        List.map_append, interleave_halves _ _ _ _ _ (by
          rw [List.length_map, hlc, liveKeys_length c (by omega)])]
      simp [interleave]
    first
    | (refine Bal_succ_of _ hc1l' okc1 hkc1 ?_
       intro y hy
       rcases List.mem_append.mp hy with hy | hy
       · exact hallc y hy
       · have : y = scn := by simpa using hy
         subst this
         exact ⟨hscn3, hscn4⟩)
    | (refine Bal_succ_of _ hs1l' oks1 hks1 ?_
       intro y hy
       exact halls y (List.mem_of_mem_drop hy))
    | (rw [hinc1, BT.inorder_inner s1 _ hs1l' hks1]
       conv_lhs => rw [BT.inorder_inner s _ hsleaf hLs, hkids_s, hlives]
       simp [interleave])
    | (intro y hy
       rw [hinc1]
       simp [hy])

theorem borrowFromNext_spec {t h : Nat} {x c s : BTreeNode} {idx : Nat}
    (hb : Bal t (h + 1) x) (hidx : idx < x.n)
    (hc : childAt x idx = some c) (hs : childAt x (idx + 1) = some s)
    (hroom : c.n + 2 ≤ 2 * t) (hsn : t ≤ s.n) (hs1 : 1 ≤ s.n) :
    ∃ x1 c1, borrowFromNext x idx = some x1 ∧ Bal t (h + 1) x1 ∧ inorder x1 = inorder x ∧
      x1.n = x.n ∧ childAt x1 idx = some c1 ∧ c1.n = c.n + 1 ∧
      ∀ y ∈ inorder c, y ∈ inorder c1 := by
  obtain ⟨c', hkc, hcc, hca, hcn', hbc⟩ := hb.child (show idx ≤ x.n by omega)
  obtain ⟨s', hks, hsc, hsa, -, hbs⟩ := hb.child (show idx + 1 ≤ x.n by omega)
  have e1 : c' = c := by rw [hca] at hc; exact Option.some.inj hc
  have e2 : s' = s := by rw [hsa] at hs; exact Option.some.inj hs
  subst e1 e2
  have hlenk := hb.kids_length
  have hlk := hb.live_length
  obtain ⟨hleaf, hok, hL, hall⟩ := hb
  have hpos := hok.pos
  obtain ⟨hk, hcl, hn⟩ := hok
  obtain ⟨ckl, ccl, -⟩ := hbc.nodeOK
  obtain ⟨skl, scl, snl⟩ := hbs.nodeOK
  obtain ⟨pk, hpk⟩ : ∃ pk, x.keys[idx]? = some pk :=
    ⟨_, List.getElem?_eq_getElem (show idx < x.keys.length by omega)⟩
  obtain ⟨sc, hscv⟩ : ∃ sc, s'.children[0]? = some sc :=
    ⟨_, List.getElem?_eq_getElem (show 0 < s'.children.length by omega)⟩
  obtain ⟨cc, hccdef⟩ : ∃ cc, cc = if c'.leaf then c'.children
      else c'.children.set (c'.n + 1) sc := ⟨_, rfl⟩
  have ecc : (if c'.leaf then some c'.children
      else (s'.children[0]?).bind fun sc => store c'.children (c'.n + 1) sc) = some cc := by
    rw [hccdef]
    by_cases hlf : c'.leaf = true
    · simp [hlf]
    · simp [hlf, hscv, store_eq_some _ (show c'.n + 1 < c'.children.length by omega)]
  obtain ⟨sk1, esk1, lsk1, psk1⟩ := shiftDown_spec (s'.n - 1) 0 s'.keys (by omega)
  have hscx : ∃ sc1, (if s'.leaf then some s'.children
      else shiftDown s'.n 0 s'.children) = some sc1 ∧ sc1.length = 2 * t ∧
      (s'.leaf = true → sc1 = s'.children) ∧
      (s'.leaf = false → ∀ j, sc1[j]? = if 0 ≤ j ∧ j + 1 < s'.n + 1 then s'.children[j + 1]?
        else s'.children[j]?) := by
    by_cases hlf : s'.leaf = true
    · exact ⟨s'.children, by simp [hlf], scl, fun _ => rfl, by simp [hlf]⟩
    · obtain ⟨sc1, esc1, lsc1, psc1⟩ := shiftDown_spec s'.n 0 s'.children (by omega)
      refine ⟨sc1, by simp [hlf, esc1], lsc1.trans scl, by simp [hlf], ?_⟩
      intro _ j
      rw [psc1 j]
      simp
  obtain ⟨sc1, esc1, lsc1, sc1a, sc1b⟩ := hscx
  obtain ⟨bc1, bs1, sk, hsk, hin, hmem⟩ := borrowNext_children hbc hbs hroom hsn hs1 pk
    cc sc sk1 sc1
    (by intro hlf; rw [hccdef]; simp [hlf])
    (fun _ => hscv)
    (by intro hlf; rw [hccdef]; simp [hlf])
    (lsk1.trans skl) lsc1
    (by
      intro j
      rw [psk1 j]
      by_cases h1 : 0 ≤ j ∧ j + 1 < s'.n
      · rw [if_pos h1, if_pos (by omega)]
      · rw [if_neg h1, if_neg (by omega)])
    sc1a sc1b
  obtain ⟨c1, hc1⟩ : ∃ c1, c1 = BTreeNode.mk (c'.n + 1) c'.leaf (c'.keys.set c'.n pk) cc :=
    ⟨_, rfl⟩
  obtain ⟨s1, hs1'⟩ : ∃ s1, s1 = BTreeNode.mk (s'.n - 1) s'.leaf sk1 sc1 := ⟨_, rfl⟩
  rw [← hc1, ← hs1'] at hin
  rw [← hc1] at bc1 hmem
  rw [← hs1'] at bs1
  obtain ⟨x1, hx1⟩ : ∃ x1, x1 = BTreeNode.mk x.n x.leaf (x.keys.set idx sk)
      ((x.children.set idx (some c1)).set (idx + 1) (some s1)) := ⟨_, rfl⟩
  have e : borrowFromNext x idx = some x1 := by
    have hs0 : s'.n ≠ 0 := by omega
    rw [hx1, hc1, hs1']
    simp [borrowFromNext, hca, hsa, hpk, store_eq_some _ (show c'.n < c'.keys.length by omega),
      ecc, hsk, store_eq_some _ (show idx < x.keys.length by omega), esk1, esc1, hs0,
      store_eq_some _ (show idx < x.children.length by omega),
      store_eq_some _ (show idx + 1 < (x.children.set idx
        (some (BTreeNode.mk (c'.n + 1) c'.leaf (c'.keys.set c'.n pk) cc))).length by
          simp; omega)]
  have hx1n : x1.n = x.n := by rw [hx1]; rfl
  have hx1l : x1.leaf = false := by rw [hx1]; exact hleaf
  have hx1k : x1.keys = x.keys.set idx sk := by rw [hx1]; rfl
  have hx1c : x1.children = (x.children.set idx (some c1)).set (idx + 1) (some s1) := by
    rw [hx1]; rfl
  obtain ⟨A, B', hAB', hA⟩ := exists_cut (kids x) idx c' hkc
  have hB' : ∃ B, B' = s' :: B := by
    have h1 : (kids x)[idx + 1]? = some s' := hks
    rw [hAB', ← hA, List.getElem?_append_right (by omega)] at h1
    simp only [Nat.add_sub_cancel_left, List.getElem?_cons_succ] at h1
    cases B' with
    | nil => simp at h1
    | cons b B =>
      simp only [List.getElem?_cons_zero] at h1
      exact ⟨B, by rw [Option.some.inj h1]⟩
  obtain ⟨B, rfl⟩ := hB'
  have hgetk : (liveKeys x)[idx]? = some pk := by
    rw [liveKeys_get x (by omega), hpk]
  obtain ⟨K, Lk, hKL, hK⟩ := exists_cut (liveKeys x) idx pk hgetk
  have hlive1 : liveKeys x1 = K ++ sk :: Lk := by
    unfold liveKeys
    rw [hx1n, hx1k, List.set_take]
    show (liveKeys x).set idx sk = _
    rw [hKL, ← hK, set_mid]
  have hkids1 : x1.children.take (x1.n + 1) = (A ++ c1 :: s1 :: B).map some := by
    rw [hx1n, hx1c, List.set_take, List.set_take, hL, hAB', ← List.map_set, ← List.map_set,
      ← hA, set_mid, set_mid_succ]
  refine ⟨x1, c1, e, ?_, ?_, hx1n, ?_, by rw [hc1]; rfl, hmem⟩
  · refine Bal_succ_of _ hx1l ⟨by rw [hx1k]; simpa using hk,
      by rw [hx1c]; simpa using hcl, by omega⟩ hkids1 ?_
    intro y hy
    rw [hAB'] at hall
    simp only [List.mem_append, List.mem_cons] at hy hall
    rcases hy with hy | rfl | rfl | hy
    · exact hall y (Or.inl hy)
    · exact ⟨by rw [hc1]; simp; omega, bc1⟩
    · exact ⟨by rw [hs1']; simp; omega, bs1⟩
    · exact hall y (Or.inr (Or.inr (Or.inr hy)))
  · rw [BT.inorder_inner x1 _ hx1l hkids1, hlive1, BT.inorder_inner x (kids x) hleaf hL, hAB', hKL]
    simp only [List.map_append, List.map_cons]
    rw [interleave_two _ _ _ _ _ _ _ (by simpa using hA.trans hK.symm),
      interleave_two _ _ _ _ _ _ _ (by simpa using hA.trans hK.symm)]
    have := congrArg (fun l => interleave (List.map inorder A ++ [[]]) K ++ l ++
      interleave ([] :: List.map inorder B) Lk) hin
    simpa using this.symm
  · apply childAt_eq
    have := congrArg (fun l => l[idx]?) hkids1
    simp only [List.getElem?_take, List.getElem?_map] at this
    rw [if_pos (by omega)] at this
    rw [this, ← hA, getElem?_mid]
    rfl

/-! ### `fill` -/

theorem fill_spec {t h : Nat} {x c : BTreeNode} {idx : Nat} (hb : Bal t (h + 1) x)
    (ht : 2 ≤ t) (hidx : idx ≤ x.n) (hn1 : 1 ≤ x.n) (hc : childAt x idx = some c)
    (hcn : c.n < t) :
    ∃ x1 c1 j, fill x idx t = some x1 ∧ Bal t (h + 1) x1 ∧ inorder x1 = inorder x ∧
      x1.n ≤ x.n ∧ x.n ≤ x1.n + 1 ∧
      j = (if idx = x.n ∧ idx > x1.n then idx - 1 else idx) ∧ j ≤ x1.n ∧
      childAt x1 j = some c1 ∧ t ≤ c1.n ∧ ∀ y ∈ inorder c, y ∈ inorder c1 := by
  obtain ⟨c', -, -, hca, hcn', hbc⟩ := hb.child hidx
  have e1 : c' = c := by rw [hca] at hc; exact Option.some.inj hc
  subst e1
  have hcn2 : c'.n + 1 = t := by omega
  -- left sibling large enough
  by_cases hprev : idx ≠ 0 ∧ ∃ sl, childAt x (idx - 1) = some sl ∧ t ≤ sl.n
  · obtain ⟨h0, sl, hsl, hsln⟩ := hprev
    obtain ⟨x1, c1, e, hb1, hin1, hn, hc1, hc1n, hmem⟩ :=
      borrowFromPrev_spec hb (by omega) hidx hca hsl (by omega) hsln (by omega)
    refine ⟨x1, c1, idx, ?_, hb1, hin1, by omega, by omega, ?_, by omega, hc1, by omega, hmem⟩
    · simp [fill, h0, hsl, hsln, e]
    · rw [if_neg (by omega)]
  · have hgoPrev : (if idx ≠ 0 then (childAt x (idx - 1)).map (fun s => decide (s.n ≥ t))
        else some false) = some false := by
      by_cases h0 : idx = 0
      · simp [h0]
      · obtain ⟨sl, -, -, hsl, -, -⟩ := hb.child (show idx - 1 ≤ x.n by omega)
        have : ¬ t ≤ sl.n := fun hh => hprev ⟨h0, sl, hsl, hh⟩
        simp [h0, hsl, this]
    by_cases hnext : idx ≠ x.n ∧ ∃ sr, childAt x (idx + 1) = some sr ∧ t ≤ sr.n
    · obtain ⟨h0, sr, hsr, hsrn⟩ := hnext
      obtain ⟨x1, c1, e, hb1, hin1, hn, hc1, hc1n, hmem⟩ :=
        borrowFromNext_spec hb (by omega) hca hsr (by omega) hsrn (by omega)
      refine ⟨x1, c1, idx, ?_, hb1, hin1, by omega, by omega, ?_, by omega, hc1, by omega, hmem⟩
      · simp only [fill, hgoPrev]
        simp [h0, hsr, hsrn, e]
      · rw [if_neg (by omega)]
    · by_cases hlast : idx = x.n
      · -- merge with the left sibling
        have hgoNext : (if idx ≠ x.n then (childAt x (idx + 1)).map
            (fun s => decide (s.n ≥ t)) else some false) = some false := by
          simp [hlast]
        obtain ⟨sl, -, -, hsl, hsln, hbsl⟩ := hb.child (show idx - 1 ≤ x.n by omega)
        have hsl2 : ¬ t ≤ sl.n := fun hh => hprev ⟨by omega, sl, hsl, hh⟩
        have hca' : childAt x (idx - 1 + 1) = some c' := by
          rw [show idx - 1 + 1 = idx by omega]; exact hca
        obtain ⟨x1, m, pk, e, hb1, hin1, hn, hm, hmn, hbm, hpk, hinm⟩ :=
          merge_spec hb (show idx - 1 < x.n by omega) hsl hca' (by omega) hcn2
        refine ⟨x1, m, idx - 1, ?_, hb1, hin1, by omega, by omega, ?_, by omega, hm, by omega, ?_⟩
        · simp only [fill, hgoPrev, hgoNext]
          have h0 : idx ≠ 0 := by omega
          simp [hlast]
          exact ⟨by omega, by rw [← hlast]; exact e⟩
        · rw [if_pos ⟨hlast, by omega⟩]
        · intro y hy
          rw [hinm]
          simp [hy]
      · -- merge with the right sibling
        obtain ⟨sr, -, -, hsr, hsrn, hbsr⟩ := hb.child (show idx + 1 ≤ x.n by omega)
        have hsr2 : ¬ t ≤ sr.n := fun hh => hnext ⟨hlast, sr, hsr, hh⟩
        have hgoNext : (if idx ≠ x.n then (childAt x (idx + 1)).map
            (fun s => decide (s.n ≥ t)) else some false) = some false := by
          simp [hlast, hsr, hsr2]
        obtain ⟨x1, m, pk, e, hb1, hin1, hn, hm, hmn, hbm, hpk, hinm⟩ :=
          merge_spec hb (show idx < x.n by omega) hca hsr hcn2 (by omega)
        refine ⟨x1, m, idx, ?_, hb1, hin1, by omega, by omega, ?_, by omega, hm, by omega, ?_⟩
        · simp only [fill, hgoPrev, hgoNext]
          simp [hlast, e]
        · rw [if_neg (by omega)]
        · intro y hy
          rw [hinm]
          simp [hy]

/-! ### Predecessor and successor -/

theorem leftOf_zero (x : BTreeNode) : leftOf x 0 = [] := by
  simp [leftOf, interleave]

theorem Bal.rightOf_last {t h : Nat} {x : BTreeNode} (hb : Bal t (h + 1) x) :
    rightOf x x.n = [] := by
  have := hb.live_length
  unfold rightOf
  rw [show (liveKeys x).drop x.n = [] from List.drop_eq_nil_of_le (by omega)]
  simp [interleave]

theorem getPredecessorLoop_spec {t : Nat} (ht : 2 ≤ t) :
    ∀ (h f : Nat) (c : BTreeNode), h + 1 ≤ f → Bal t h c → 1 ≤ c.n →
      ∃ p C0, getPredecessorLoop f c = some p ∧ inorder c = C0 ++ [p] := by
  intro h
  induction h with
  | zero =>
    intro f c hf hb hn
    obtain ⟨f', rfl⟩ : ∃ f', f = f' + 1 := ⟨f - 1, by omega⟩
    obtain ⟨hleaf, ⟨hk, -, hn2⟩, -⟩ := hb
    obtain ⟨p, hp⟩ : ∃ p, c.keys[c.n - 1]? = some p :=
      ⟨_, List.getElem?_eq_getElem (show c.n - 1 < c.keys.length by omega)⟩
    refine ⟨p, c.keys.take (c.n - 1), ?_, ?_⟩
    · have : c.n ≠ 0 := by omega
      simp [getPredecessorLoop, hleaf, this, hp]
    · rw [inorder_leaf c hleaf]
      exact take_pred_snoc _ _ _ hn hp
  | succ h ih =>
    intro f c hf hb hn
    obtain ⟨f', rfl⟩ : ∃ f', f = f' + 1 := ⟨f - 1, by omega⟩
    obtain ⟨cl, hkc, -, hca, hcn, hbc⟩ := hb.child (le_refl c.n)
    obtain ⟨p, C0, e, hin⟩ := ih f' cl (by omega) hbc (by omega)
    refine ⟨p, leftOf c c.n ++ C0, ?_, ?_⟩
    · simp [getPredecessorLoop, hb.1, hca, e]
    · rw [hb.cut (le_refl _) hkc, hb.rightOf_last, hin]
      simp

theorem getSuccessorLoop_spec {t : Nat} (ht : 2 ≤ t) :
    ∀ (h f : Nat) (c : BTreeNode), h + 1 ≤ f → Bal t h c → 1 ≤ c.n →
      ∃ p C0, getSuccessorLoop f c = some p ∧ inorder c = p :: C0 := by
  intro h
  induction h with
  | zero =>
    intro f c hf hb hn
    obtain ⟨f', rfl⟩ : ∃ f', f = f' + 1 := ⟨f - 1, by omega⟩
    obtain ⟨hleaf, ⟨hk, -, hn2⟩, -⟩ := hb
    obtain ⟨p, hp⟩ : ∃ p, c.keys[0]? = some p :=
      ⟨_, List.getElem?_eq_getElem (show 0 < c.keys.length by omega)⟩
    refine ⟨p, (c.keys.take c.n).drop 1, ?_, ?_⟩
    · simp [getSuccessorLoop, hleaf, hp]
    · rw [inorder_leaf c hleaf]
      exact take_cons_tail _ _ _ hn hp
  | succ h ih =>
    intro f c hf hb hn
    obtain ⟨f', rfl⟩ : ∃ f', f = f' + 1 := ⟨f - 1, by omega⟩
    obtain ⟨cl, hkc, -, hca, hcn, hbc⟩ := hb.child (Nat.zero_le c.n)
    obtain ⟨p, C0, e, hin⟩ := ih f' cl (by omega) hbc (by omega)
    refine ⟨p, C0 ++ rightOf c 0, ?_, ?_⟩
    · simp [getSuccessorLoop, hb.1, hca, e]
    · rw [hb.cut (Nat.zero_le _) hkc, leftOf_zero, hin]
      simp

/-! ### Lemmas for `deleteFromNode` -/

theorem keyAt_eq (nd : BTreeNode) (idx : Nat) (key : Int) (h : nd.n ≤ nd.keys.length) :
    keyAt nd idx key = some (decide (idx < nd.n ∧ nd.keys[idx]? = some key)) := by
  unfold keyAt
  by_cases hi : idx < nd.n
  · have hlt : idx < nd.keys.length := by omega
    simp [hi, List.getElem?_eq_getElem hlt]
  · simp [hi]

theorem erase_at_first (l : List Int) (idx : Nat) (key : Int) (hk : l[idx]? = some key)
    (hlt : ∀ j v, j < idx → l[j]? = some v → v < key) :
    l.erase key = l.take idx ++ l.drop (idx + 1) := by
  obtain ⟨K, L, hKL, hK⟩ := exists_cut l idx key hk
  have hnot : key ∉ K := by
    intro hmem
    obtain ⟨j, hj⟩ := List.mem_iff_getElem?.mp hmem
    have hjl : j < K.length := by
      by_contra hcon
      rw [List.getElem?_eq_none (by omega)] at hj
      cases hj
    have := hlt j key (by omega) (by rw [hKL, List.getElem?_append_left hjl]; exact hj)
    omega
  rw [hKL, List.erase_append_right _ hnot, List.erase_cons_head, ← hK, List.take_left,
    drop_mid_succ]

theorem scan_not_mem (l : List Int) (idx : Nat) (key : Int) (hs : l.Sorted (· ≤ ·))
    (hlt : ∀ j v, j < idx → l[j]? = some v → v < key)
    (hgt : ∀ v, l[idx]? = some v → key < v) : key ∉ l := by
  intro hmem
  obtain ⟨j, hj⟩ := List.mem_iff_getElem?.mp hmem
  have hjl : j < l.length := by
    by_contra hcon
    rw [List.getElem?_eq_none (by omega)] at hj
    cases hj
  rcases lt_trichotomy j idx with h1 | h1 | h1
  · have := hlt j key h1 hj
    omega
  · subst h1
    have := hgt key hj
    omega
  · have hil : idx < l.length := by omega
    have h2 := hgt l[idx] (List.getElem?_eq_getElem hil)
    have h3 : l[idx] ≤ l[j] := (List.pairwise_iff_getElem.mp hs) idx j hil hjl h1
    rw [List.getElem?_eq_getElem hjl] at hj
    have : l[j] = key := Option.some.inj hj
    omega

theorem removeFromLeaf_spec {t : Nat} {nd : BTreeNode} {idx : Nat} (hb : Bal t 0 nd)
    (hidx : idx < nd.n) :
    ∃ r, removeFromLeaf nd idx = some r ∧ Bal t 0 r ∧ r.n + 1 = nd.n ∧
      liveKeys r = (liveKeys nd).take idx ++ (liveKeys nd).drop (idx + 1) := by
  obtain ⟨hleaf, ⟨hk, hcl, hn⟩, hnone⟩ := hb
  obtain ⟨ks, eks, lks, pks⟩ := shiftDown_spec (nd.n - (idx + 1)) idx nd.keys (by omega)
  obtain ⟨r, hr⟩ : ∃ r, r = BTreeNode.mk (nd.n - 1) nd.leaf ks nd.children := ⟨_, rfl⟩
  have hn0 : nd.n ≠ 0 := by omega
  refine ⟨r, by rw [hr]; simp [removeFromLeaf, eks, hn0],
    ⟨by rw [hr]; exact hleaf, ⟨by rw [hr]; exact lks.trans hk, by rw [hr]; exact hcl,
      by rw [hr]; simp; omega⟩, by rw [hr]; exact hnone⟩, by rw [hr]; simp; omega, ?_⟩
  rw [hr]
  show ks.take (nd.n - 1) = _
  exact take_erase_pointwise nd.keys ks idx nd.n hidx (by omega) (by
    intro j
    rw [pks j]
    by_cases h1 : idx ≤ j ∧ j + 1 < nd.n
    · rw [if_pos h1, if_pos (by omega)]
    · rw [if_neg h1, if_neg (by omega)])

/-- A key that the scan of an inner node sends to child slot `idx` can only be in that
child. -/
theorem Bal.mem_child_of_scan {t h : Nat} {x c : BTreeNode} (hb : Bal t (h + 1) x)
    {idx : Nat} (hidx : idx ≤ x.n) (hs : (inorder x).Sorted (· ≤ ·)) (key : Int)
    (hkc : (kids x)[idx]? = some c)
    (hlt : ∀ j v, j < idx → x.keys[j]? = some v → v < key)
    (hgt : ∀ v, idx < x.n → x.keys[idx]? = some v → key < v) :
    key ∈ inorder x → key ∈ inorder c := by
  obtain ⟨b1, b2, b3, b4⟩ := hb.cut_bounds hidx hs
  obtain ⟨hk, _, hn⟩ := hb.nodeOK
  intro hmem
  rw [hb.cut hidx hkc] at hmem
  rcases List.mem_append.mp hmem with hmem | hmem
  · rcases List.mem_append.mp hmem with hmem | hmem
    · exfalso
      by_cases h0 : idx = 0
      · rw [b1 h0] at hmem
        cases hmem
      · have hl : idx - 1 < x.keys.length := by omega
        have h1 := b2 _ (by omega) (List.getElem?_eq_getElem hl) key hmem
        have h2 := hlt (idx - 1) _ (by omega) (List.getElem?_eq_getElem hl)
        omega
    · exact hmem
  · exfalso
    by_cases h0 : idx = x.n
    · rw [b3 h0] at hmem
      cases hmem
    · have hl : idx < x.keys.length := by omega
      have h1 := b4 _ (by omega) (List.getElem?_eq_getElem hl) key hmem
      have h2 := hgt _ (by omega) (List.getElem?_eq_getElem hl)
      omega

/-- An inner node seen around the key in slot `idx` and its two neighbouring children. -/
theorem Bal.around_key {t h : Nat} {x : BTreeNode} (hb : Bal t (h + 1) x) {idx : Nat}
    (hidx : idx < x.n) :
    ∃ c s v G T, childAt x idx = some c ∧ childAt x (idx + 1) = some s ∧
      x.keys[idx]? = some v ∧ Bal t h c ∧ Bal t h s ∧ t - 1 ≤ c.n ∧ t - 1 ≤ s.n ∧
      inorder x = G ++ inorder c ++ v :: (inorder s ++ T) ∧
      (∀ p c', Bal t h c' → t - 1 ≤ c'.n →
        Bal t (h + 1) (.mk x.n x.leaf (x.keys.set idx p) (x.children.set idx (some c'))) ∧
        inorder (.mk x.n x.leaf (x.keys.set idx p) (x.children.set idx (some c'))) =
          G ++ inorder c' ++ p :: (inorder s ++ T)) ∧
      (∀ p s', Bal t h s' → t - 1 ≤ s'.n →
        Bal t (h + 1) (.mk x.n x.leaf (x.keys.set idx p)
          (x.children.set (idx + 1) (some s'))) ∧
        inorder (.mk x.n x.leaf (x.keys.set idx p) (x.children.set (idx + 1) (some s'))) =
          G ++ inorder c ++ p :: (inorder s' ++ T)) := by
  obtain ⟨c, hkc, hcc, hca, hcn, hbc⟩ := hb.child (show idx ≤ x.n by omega)
  obtain ⟨s, hks, hsc, hsa, hsn, hbs⟩ := hb.child (show idx + 1 ≤ x.n by omega)
  have hlenk := hb.kids_length
  have hlk := hb.live_length
  obtain ⟨hleaf, hok, hL, hall⟩ := hb
  obtain ⟨hk, hcl, hn⟩ := hok
  obtain ⟨v, hv⟩ : ∃ v, x.keys[idx]? = some v :=
    ⟨_, List.getElem?_eq_getElem (show idx < x.keys.length by omega)⟩
  obtain ⟨A, B', hAB', hA⟩ := exists_cut (kids x) idx c hkc
  have hB' : ∃ B, B' = s :: B := by
    have h1 : (kids x)[idx + 1]? = some s := hks
    rw [hAB', ← hA, List.getElem?_append_right (by omega)] at h1
    simp only [Nat.add_sub_cancel_left, List.getElem?_cons_succ] at h1
    cases B' with
    | nil => simp at h1
    | cons b B =>
      simp only [List.getElem?_cons_zero] at h1
      exact ⟨B, by rw [Option.some.inj h1]⟩
  obtain ⟨B, rfl⟩ := hB'
  have hgetk : (liveKeys x)[idx]? = some v := by
    rw [liveKeys_get x hidx, hv]
  obtain ⟨K, Lk, hKL, hK⟩ := exists_cut (liveKeys x) idx v hgetk
  have hAK : (List.map inorder A).length = K.length := by simpa using hA.trans hK.symm
  refine ⟨c, s, v, interleave (A.map inorder ++ [[]]) K, interleave ([] :: B.map inorder) Lk,
    hca, hsa, hv, hbc, hbs, hcn, hsn, ?_, ?_, ?_⟩
  · rw [BT.inorder_inner x (kids x) hleaf hL, hAB', hKL]
    simp only [List.map_append, List.map_cons]
    rw [interleave_two _ _ _ _ _ _ _ hAK]
    simp
  · intro p c' hbc' hcn'
    obtain ⟨x1, hx1⟩ : ∃ x1, x1 = BTreeNode.mk x.n x.leaf (x.keys.set idx p)
        (x.children.set idx (some c')) := ⟨_, rfl⟩
    rw [← hx1]
    have hx1n : x1.n = x.n := by rw [hx1]; rfl
    have hx1l : x1.leaf = false := by rw [hx1]; exact hleaf
    have hlive1 : liveKeys x1 = K ++ p :: Lk := by
      rw [hx1]
      show (x.keys.set idx p).take x.n = _
      rw [List.set_take]
      show (liveKeys x).set idx p = _
      rw [hKL, ← hK, set_mid]
    have hkids1 : x1.children.take (x1.n + 1) = (A ++ c' :: s :: B).map some := by
      rw [hx1]
      show (x.children.set idx (some c')).take (x.n + 1) = _
      rw [List.set_take, hL, hAB', ← List.map_set, ← hA, set_mid]
    refine ⟨Bal_succ_of _ hx1l ⟨by rw [hx1]; simpa using hk, by rw [hx1]; simpa using hcl,
      by omega⟩ hkids1 ?_, ?_⟩
    · intro y hy
      rw [hAB'] at hall
      simp only [List.mem_append, List.mem_cons] at hy hall
      rcases hy with hy | rfl | rfl | hy
      · exact hall y (Or.inl hy)
      · exact ⟨hcn', hbc'⟩
      · exact ⟨hsn, hbs⟩
      · exact hall y (Or.inr (Or.inr (Or.inr hy)))
    · rw [BT.inorder_inner x1 _ hx1l hkids1, hlive1]
      simp only [List.map_append, List.map_cons]
      rw [interleave_two _ _ _ _ _ _ _ hAK]
      simp
  · intro p s' hbs' hsn'
    obtain ⟨x1, hx1⟩ : ∃ x1, x1 = BTreeNode.mk x.n x.leaf (x.keys.set idx p)
        (x.children.set (idx + 1) (some s')) := ⟨_, rfl⟩
    rw [← hx1]
    have hx1n : x1.n = x.n := by rw [hx1]; rfl
    have hx1l : x1.leaf = false := by rw [hx1]; exact hleaf
    have hlive1 : liveKeys x1 = K ++ p :: Lk := by
      rw [hx1]
      show (x.keys.set idx p).take x.n = _
      rw [List.set_take]
      show (liveKeys x).set idx p = _
      rw [hKL, ← hK, set_mid]
    have hkids1 : x1.children.take (x1.n + 1) = (A ++ c :: s' :: B).map some := by
      rw [hx1]
      show (x.children.set (idx + 1) (some s')).take (x.n + 1) = _
      rw [List.set_take, hL, hAB', ← List.map_set, ← hA, set_mid_succ]
    refine ⟨Bal_succ_of _ hx1l ⟨by rw [hx1]; simpa using hk, by rw [hx1]; simpa using hcl,
      by omega⟩ hkids1 ?_, ?_⟩
    · intro y hy
      rw [hAB'] at hall
      simp only [List.mem_append, List.mem_cons] at hy hall
      rcases hy with hy | rfl | rfl | hy
      · exact hall y (Or.inl hy)
      · exact ⟨hcn, hbc⟩
      · exact ⟨hsn', hbs'⟩
      · exact hall y (Or.inr (Or.inr (Or.inr hy)))
    · rw [BT.inorder_inner x1 _ hx1l hkids1, hlive1]
      simp only [List.map_append, List.map_cons]
      rw [interleave_two _ _ _ _ _ _ _ hAK]
      simp

/-! ### `deleteFromNode` -/

theorem deleteFromNode_leaf {t : Nat} (f : Nat) (nd : BTreeNode) (key : Int)
    (hb : Bal t 0 nd) (hs : (inorder nd).Sorted (· ≤ ·)) :
    ∃ r out, deleteFromNode (f + 1) nd key t = some (r, out) ∧ Bal t 0 r ∧
      inorder r = (inorder nd).erase key ∧ r.n ≤ nd.n ∧ nd.n ≤ r.n + 1 ∧
      out = if key ∈ inorder nd then [] else [Msg.keyNotFound key] := by
  have hleaf : nd.leaf = true := hb.1
  obtain ⟨hk, hcl, hn⟩ := hb.nodeOK
  obtain ⟨idx, e1, -, hidx, hlt, hge⟩ := scanKeys_spec nd.keys key nd.n 0 (by omega)
  have hkat := keyAt_eq nd idx key (by omega)
  rw [inorder_leaf nd hleaf] at hs ⊢
  by_cases hhit : idx < nd.n ∧ nd.keys[idx]? = some key
  · obtain ⟨r, er, hbr, hrn, hlive⟩ := removeFromLeaf_spec hb hhit.1
    refine ⟨r, [], ?_, hbr, ?_, by omega, by omega, ?_⟩
    · simp [deleteFromNode, findKey, e1, hkat, hhit, hleaf, er]
    · rw [inorder_leaf r hbr.1, hlive]
      symm
      apply erase_at_first
      · rw [liveKeys_get nd hhit.1]; exact hhit.2
      · intro j v hj hv
        rw [liveKeys_get nd (by omega)] at hv
        exact hlt j v (Nat.zero_le _) hj hv
    · have : key ∈ liveKeys nd := by
        apply List.mem_iff_getElem?.mpr
        exact ⟨idx, by rw [liveKeys_get nd hhit.1]; exact hhit.2⟩
      rw [if_pos this]
  · have hnot : key ∉ liveKeys nd := by
      apply scan_not_mem _ idx key hs
      · intro j v hj hv
        rw [liveKeys_get nd (by omega)] at hv
        exact hlt j v (Nat.zero_le _) hj hv
      · intro v hv
        have hin : idx < nd.n := by
          by_contra hcon
          rw [List.getElem?_eq_none (by rw [liveKeys_length nd (by omega)]; omega)] at hv
          cases hv
        rw [liveKeys_get nd hin] at hv
        have h1 := hge v (by omega) hv
        have h2 : v ≠ key := by
          intro hcon
          subst hcon
          exact hhit ⟨hin, hv⟩
        omega
    refine ⟨nd, [Msg.keyNotFound key], ?_, hb, ?_, le_refl _, by omega, ?_⟩
    · simp [deleteFromNode, findKey, e1, hkat, hhit, hleaf]
    · rw [inorder_leaf nd hleaf, List.erase_of_not_mem hnot]
    · rw [if_neg hnot]

theorem deleteFromNode_spec {t : Nat} (ht : 2 ≤ t) :
    ∀ (h f : Nat) (nd : BTreeNode) (key : Int), h + 1 ≤ f → Bal t h nd →
      (inorder nd).Sorted (· ≤ ·) → (h ≠ 0 → 1 ≤ nd.n) →
      ∃ r out, deleteFromNode f nd key t = some (r, out) ∧ Bal t h r ∧
        inorder r = (inorder nd).erase key ∧ r.n ≤ nd.n ∧ nd.n ≤ r.n + 1 ∧
        out = if key ∈ inorder nd then [] else [Msg.keyNotFound key] := by
  intro h
  induction h with
  | zero =>
    intro f nd key hf hb hs _
    obtain ⟨f', rfl⟩ : ∃ f', f = f' + 1 := ⟨f - 1, by omega⟩
    exact deleteFromNode_leaf f' nd key hb hs
  | succ h ih =>
    intro f nd key hf hb hs hn1
    obtain ⟨f', rfl⟩ : ∃ f', f = f' + 1 := ⟨f - 1, by omega⟩
    have hn1' : 1 ≤ nd.n := hn1 (by omega)
    have hleaf : nd.leaf = false := hb.1
    obtain ⟨hk, hcl, hn⟩ := hb.nodeOK
    obtain ⟨idx, e1, -, hidx, hlt, hge⟩ := scanKeys_spec nd.keys key nd.n 0 (by omega)
    have hkat := keyAt_eq nd idx key (by omega)
    by_cases hhit : idx < nd.n ∧ nd.keys[idx]? = some key
    · -- the key is in this node
      obtain ⟨c, s, v, G, T, hca, hsa, hv, hbc, hbs, hcn, hsn, hin, hrepL, hrepR⟩ :=
        hb.around_key hhit.1
      have hvk : v = key := by
        rw [hhit.2] at hv
        exact (Option.some.inj hv).symm
      subst hvk
      have hkmem : v ∈ inorder nd := by rw [hin]; simp
      have hs' := hs
      rw [hin] at hs'
      have hsc : (inorder c).Sorted (· ≤ ·) := by
        rw [sorted_append_iff, sorted_append_iff] at hs'
        exact hs'.1.2.1
      have hss : (inorder s).Sorted (· ≤ ·) := by
        rw [sorted_append_iff] at hs'
        have := hs'.2.1
        rw [List.sorted_cons, sorted_append_iff] at this
        exact this.2.1
      have htarget : (inorder nd).erase v = G ++ inorder c ++ (inorder s ++ T) := by
        rw [hin]
        exact erase_mid_sorted _ _ v hs'
      have hstart : deleteFromNode (f' + 1) nd v t =
          removeFromNonLeaf (fun c k => deleteFromNode f' c k t) f' nd idx t := by
        simp [deleteFromNode, findKey, e1, hkat, hhit, hleaf]
      by_cases hcbig : t ≤ c.n
      · obtain ⟨p, C0, ep, hinc⟩ := getPredecessorLoop_spec ht h f' c (by omega) hbc (by omega)
        obtain ⟨r, out, er, hbr, hinr, hrn1, hrn2, hout⟩ :=
          ih f' c p (by omega) hbc hsc (fun _ => by omega)
        have hpm : p ∈ inorder c := by rw [hinc]; simp
        rw [if_pos hpm] at hout
        subst hout
        obtain ⟨hb', hin'⟩ := hrepL p r hbr (by omega)
        refine ⟨_, [], ?_, hb', ?_, le_refl _, by simp, by rw [if_pos hkmem]⟩
        · rw [hstart]
          simp [removeFromNonLeaf, hhit.2, hca, hcbig, getPredecessor, ep,
            store_eq_some _ (show idx < nd.keys.length by omega), er,
            store_eq_some _ (show idx < nd.children.length by omega)]
        · rw [hin', htarget, hinr, hinc, erase_last_sorted C0 p (by rw [← hinc]; exact hsc)]
          simp
      · by_cases hsbig : t ≤ s.n
        · obtain ⟨p, S0, ep, hins⟩ := getSuccessorLoop_spec ht h f' s (by omega) hbs (by omega)
          obtain ⟨r, out, er, hbr, hinr, hrn1, hrn2, hout⟩ :=
            ih f' s p (by omega) hbs hss (fun _ => by omega)
          have hpm : p ∈ inorder s := by rw [hins]; simp
          rw [if_pos hpm] at hout
          subst hout
          obtain ⟨hb', hin'⟩ := hrepR p r hbr (by omega)
          refine ⟨_, [], ?_, hb', ?_, le_refl _, by simp, by rw [if_pos hkmem]⟩
          · rw [hstart]
            simp [removeFromNonLeaf, hhit.2, hca, hcbig, hsa, hsbig, getSuccessor, ep,
              store_eq_some _ (show idx < nd.keys.length by omega), er,
              store_eq_some _ (show idx + 1 < nd.children.length by omega)]
          · rw [hin', htarget, hinr, hins, List.erase_cons_head]
            simp
        · obtain ⟨x1, m, pk, em, hb1, hin1, hx1n, hm, hmn, hbm, hpk, hinm⟩ :=
            merge_spec hb hhit.1 hca hsa (by omega) (by omega)
          have hpkv : pk = v := by
            rw [hhit.2] at hpk
            exact (Option.some.inj hpk).symm
          subst hpkv
          have hidx1 : idx ≤ x1.n := by omega
          obtain ⟨m', hkm, -, hm', -, -⟩ := hb1.child hidx1
          have hmm : m' = m := by rw [hm] at hm'; exact (Option.some.inj hm').symm
          subst hmm
          have hs1 : (inorder x1).Sorted (· ≤ ·) := by rw [hin1]; exact hs
          obtain ⟨r, out, er, hbr, hinr, hrn1, hrn2, hout⟩ :=
            ih f' m' pk (by omega) hbm (hb1.sorted_child hidx1 hkm hs1) (fun _ => by omega)
          have hpm : pk ∈ inorder m' := by rw [hinm]; simp
          rw [if_pos hpm] at hout
          subst hout
          obtain ⟨hb2, hin2, hst, -⟩ := hb1.setChild hidx1 r hbr (by omega)
          refine ⟨_, [], ?_, hb2, ?_, by simp; omega, by simp; omega, by rw [if_pos hkmem]⟩
          · rw [hstart]
            simp [removeFromNonLeaf, hhit.2, hca, hcbig, hsa, hsbig, em, hm, er, hst]
          · rw [hin2, hinr, ← hin1]
            conv_rhs => rw [hb1.cut hidx1 hkm]
            symm
            exact erase_inner _ _ _ pk (by rw [← hb1.cut hidx1 hkm]; exact hs1)
              (fun _ => hpm)
    · -- the key is not in this node
      obtain ⟨c, hkc, -, hca, hcn, hbc⟩ := hb.child (show idx ≤ nd.n by omega)
      have hgt : ∀ v, idx < nd.n → nd.keys[idx]? = some v → key < v := by
        intro v hin hv
        have h1 := hge v (by omega) hv
        have h2 : v ≠ key := by
          intro hcon
          subst hcon
          exact hhit ⟨hin, hv⟩
        omega
      have hmemc : key ∈ inorder nd → key ∈ inorder c :=
        hb.mem_child_of_scan (by omega) hs key hkc
          (fun j v hj hv => hlt j v (Nat.zero_le _) hj hv) hgt
      have hprep : ∃ x1 c1 j, (if c.n < t then fill nd idx t else some nd) = some x1 ∧
          Bal t (h + 1) x1 ∧ inorder x1 = inorder nd ∧ x1.n ≤ nd.n ∧ nd.n ≤ x1.n + 1 ∧
          j = (if idx = nd.n ∧ idx > x1.n then idx - 1 else idx) ∧ j ≤ x1.n ∧
          childAt x1 j = some c1 ∧ t ≤ c1.n ∧ ∀ y ∈ inorder c, y ∈ inorder c1 := by
        by_cases hsmall : c.n < t
        · obtain ⟨x1, c1, j, e, r1, r2, r3, r4, r5, r6, r7, r8, r9⟩ :=
            fill_spec hb ht (by omega) hn1' hca hsmall
          exact ⟨x1, c1, j, by rw [if_pos hsmall]; exact e, r1, r2, r3, r4, r5, r6, r7, r8, r9⟩
        · exact ⟨nd, c, idx, by rw [if_neg hsmall], hb, rfl, le_refl _, by omega,
            by rw [if_neg (by omega)], by omega, hca, by omega, fun y hy => hy⟩
      obtain ⟨x1, c1, j, e, hb1, hin1, hx1a, hx1b, hj, hjn, hc1, hc1n, hmem1⟩ := hprep
      obtain ⟨c1', hkc1, -, hc1', -, hbc1⟩ := hb1.child hjn
      have hcc : c1' = c1 := by rw [hc1] at hc1'; exact (Option.some.inj hc1').symm
      subst hcc
      have hs1 : (inorder x1).Sorted (· ≤ ·) := by rw [hin1]; exact hs
      obtain ⟨r, out, er, hbr, hinr, hrn1, hrn2, hout⟩ :=
        ih f' c1' key (by omega) hbc1 (hb1.sorted_child hjn hkc1 hs1) (fun _ => by omega)
      obtain ⟨hb2, hin2, hst, -⟩ := hb1.setChild hjn r hbr (by omega)
      have hcut1 := hb1.cut hjn hkc1
      refine ⟨x1.setChildren (x1.children.set j (some r)), out, ?_, hb2, ?_, by simp; omega,
        by simp; omega, ?_⟩
      · have hj' : (if (decide (idx = nd.n) && decide (idx > x1.n)) = true then idx - 1
            else idx) = j := by
          rw [hj]
          by_cases hc : idx = nd.n ∧ idx > x1.n
          · simp [hc]
          · rw [if_neg hc]
            have : ¬ ((decide (idx = nd.n) && decide (idx > x1.n)) = true) := by
              simpa using hc
            rw [if_neg this]
        simp only [deleteFromNode, findKey, e1, hkat, Option.bind_eq_bind, Option.some_bind,
          decide_eq_true_eq, hhit, if_false, hleaf, Bool.false_eq_true, hca, e, hj', hc1, er, hst]
        rfl
      · rw [hin2, hinr, ← hin1]
        conv_rhs => rw [hcut1]
        symm
        exact erase_inner _ _ _ key (by rw [← hcut1]; exact hs1)
          (fun hk0 => hmem1 key (hmemc (by rw [← hin1, hcut1]; exact hk0)))
      · rw [hout]
        by_cases hk0 : key ∈ inorder nd
        · rw [if_pos hk0, if_pos (hmem1 key (hmemc hk0))]
        · rw [if_neg hk0, if_neg]
          intro hcon
          apply hk0
          rw [← hin1, hcut1]
          simp [hcon]

/-! ### Recursion depth -/

theorem depth_eq (nd : BTreeNode) : nd.depth = depthList nd.children + 1 := by
  cases nd; rfl

theorem depthOpt_le_depthList (cs : List (Option BTreeNode)) (o : Option BTreeNode)
    (h : o ∈ cs) : depthOpt o ≤ depthList cs := by
  induction cs with
  | nil => cases h
  | cons c cs ih =>
    simp only [depthList]
    rcases List.mem_cons.mp h with rfl | h
    · exact le_max_left _ _
    · exact le_trans (ih h) (le_max_right _ _)

theorem depth_child_lt (nd c : BTreeNode) (i : Nat) (h : nd.children[i]? = some (some c)) :
    c.depth < nd.depth := by
  have hmem : some c ∈ nd.children := List.mem_iff_getElem?.mpr ⟨i, h⟩
  have := depthOpt_le_depthList _ _ hmem
  rw [depth_eq nd]
  simp only [depthOpt] at this
  omega

theorem Bal.depth_ge {t : Nat} : ∀ (h : Nat) (nd : BTreeNode), Bal t h nd → h + 1 ≤ nd.depth := by
  intro h
  induction h with
  | zero =>
    intro nd _
    rw [depth_eq]
    omega
  | succ h ih =>
    intro nd hb
    obtain ⟨c, -, hcc, -, -, hbc⟩ := hb.child (Nat.zero_le nd.n)
    have := ih c hbc
    have := depth_child_lt nd c 0 hcc
    omega

/-! ### `insert` -/

theorem insert_root_spec {t : Nat} (ht : 2 ≤ t) {h : Nat} {root : BTreeNode} (key : Int)
    (hb : Bal t h root) (hs : (inorder root).Sorted (· ≤ ·))
    (hr : root.leaf = false → 1 ≤ root.n) :
    ∃ r, insert ⟨some root, t⟩ key = some ⟨some r, t⟩ ∧
      Bal t (if root.n + 1 = 2 * t then h + 1 else h) r ∧
      inorder r = (inorder root).orderedInsert (· ≤ ·) key ∧
      (inorder r).Sorted (· ≤ ·) ∧ (r.leaf = false → 1 ≤ r.n) := by
  have hd := hb.depth_ge
  obtain ⟨hk, hcl, hn⟩ := hb.nodeOK
  by_cases hfull : root.n + 1 = 2 * t
  · rw [if_pos hfull]
    obtain ⟨nr, hnr⟩ : ∃ nr, nr = BTreeNode.mk 0 false (List.replicate (2 * t - 1) 0)
        ((List.replicate (2 * t) none).set 0 (some root)) := ⟨_, rfl⟩
    have hnrn : nr.n = 0 := by rw [hnr]; rfl
    have hkids : nr.children.take (nr.n + 1) = [root].map some := by
      rw [hnr]
      show ((List.replicate (2 * t) none).set 0 (some root)).take 1 = _
      obtain ⟨m, hm⟩ : ∃ m, 2 * t = m + 1 := ⟨2 * t - 1, by omega⟩
      rw [hm]
      simp [List.replicate_succ]
    have hbnr : Bal t (h + 1) nr := by
      refine Bal_succ_of [root] (by rw [hnr]; rfl) ⟨by rw [hnr]; simp, by rw [hnr]; simp,
        by omega⟩ hkids ?_
      intro c hc
      have : c = root := by simpa using hc
      subst this
      exact ⟨by omega, hb⟩
    have hinnr : inorder nr = inorder root := by
      rw [BT.inorder_inner nr [root] (by rw [hnr]; rfl) hkids]
      have : liveKeys nr = [] := by rw [hnr]; rfl
      rw [this]
      rfl
    have hca : childAt nr 0 = some root := by
      apply childAt_eq
      have := congrArg (fun l => l[0]?) hkids
      simpa [hnrn] using this
    obtain ⟨x1, l, r, m, es, hb1, hin1, hn1, -, -, -, -, -⟩ :=
      splitChild_spec hbnr (Nat.zero_le _) (by omega) hca hfull
    obtain ⟨r', er, hbr, hinr, hrn1, hrn2⟩ := insertNonFull_spec t key (h + 1)
      (root.depth + 2) x1 (by omega) hb1 (by omega) (by rw [hin1, hinnr]; exact hs)
    refine ⟨r', ?_, hbr, by rw [hinr, hin1, hinnr], ?_, fun _ => by omega⟩
    · have ht0 : t ≠ 0 := by omega
      rw [hnr] at es
      simp [insert, hfull, createNode, ht0,
        store_eq_some _ (show 0 < (List.replicate (2 * t) (none : Option BTreeNode)).length by
          simp; omega), BTreeNode.setChildren, es, er]
    · rw [hinr, hin1, hinnr]
      exact List.Sorted.orderedInsert key _ hs
  · rw [if_neg hfull]
    obtain ⟨r', er, hbr, hinr, hrn1, hrn2⟩ := insertNonFull_spec t key h
      (root.depth + 2) root (by omega) hb (by omega) hs
    refine ⟨r', ?_, hbr, hinr, ?_, ?_⟩
    · simp [insert, hfull, er]
    · rw [hinr]
      exact List.Sorted.orderedInsert key _ hs
    · intro hl
      have h0 : h ≠ 0 := by
        intro hh
        have := (hbr.leaf_iff).mpr hh
        rw [hl] at this
        cases this
      have : root.leaf = false := by
        by_contra hcon
        have := (hb.leaf_iff).mp (by simpa using hcon)
        exact h0 this
      have := hr this
      omega

theorem insert_spec {t : Nat} (ht : 2 ≤ t) {tree : BTree} (hv : Valid t tree) (key : Int) :
    ∃ tree', insert tree key = some tree' ∧ Valid t tree' ∧
      keysOf tree' = (keysOf tree).orderedInsert (· ≤ ·) key := by
  obtain ⟨htt, root, h, hroot, hb, hs, hr⟩ := hv
  obtain ⟨r, e, hbr, hinr, hsr, hrr⟩ := insert_root_spec ht key hb hs hr
  have htree : tree = ⟨some root, t⟩ := by
    cases tree
    simp only at htt hroot
    rw [htt, hroot]
  refine ⟨⟨some r, t⟩, by rw [htree]; exact e, ⟨rfl, r, _, rfl, hbr, hsr, hrr⟩, ?_⟩
  rw [htree]
  exact hinr

/-! ### `deleteKey` -/

theorem deleteKey_root_spec {t : Nat} (ht : 2 ≤ t) {h : Nat} {root : BTreeNode} (key : Int)
    (hb : Bal t h root) (hs : (inorder root).Sorted (· ≤ ·))
    (hr : root.leaf = false → 1 ≤ root.n) :
    ∃ r h' out, deleteKey ⟨some root, t⟩ key = some (⟨some r, t⟩, out) ∧
      Bal t h' r ∧ (h' = h ∨ h' + 1 = h) ∧
      inorder r = (inorder root).erase key ∧
      (inorder r).Sorted (· ≤ ·) ∧ (r.leaf = false → 1 ≤ r.n) ∧
      out = if key ∈ inorder root then [] else [Msg.keyNotFound key] := by
  have hd := hb.depth_ge
  obtain ⟨r, out, e, hbr, hinr, hrn1, hrn2, hout⟩ := deleteFromNode_spec ht h (root.depth + 1)
    root key (by omega) hb hs (by
      intro h0
      apply hr
      by_contra hcon
      exact h0 ((hb.leaf_iff).mp (by simpa using hcon)))
  have hsr : (inorder r).Sorted (· ≤ ·) := by rw [hinr]; exact sorted_erase key hs
  by_cases hn0 : r.n = 0
  · cases h with
    | zero =>
      have hleaf : r.leaf = true := hbr.1
      have ht0 : t ≠ 0 := by omega
      obtain ⟨fr, hfr⟩ : ∃ fr, fr = BTreeNode.mk 0 true (List.replicate (2 * t - 1) 0)
          (List.replicate (2 * t) none) := ⟨_, rfl⟩
      have hfl : fr.leaf = true := by rw [hfr]; rfl
      have hfk : liveKeys fr = [] := by rw [hfr]; rfl
      refine ⟨fr, 0, out, ?_, ?_, Or.inl rfl, ?_, ?_, by simp [hfl], hout⟩
      · rw [hfr]
        simp [deleteKey, e, hn0, hleaf, createNode, ht0]
      · rw [hfr]
        exact ⟨rfl, ⟨by simp, by simp, by simp; omega⟩,
          fun c hc => List.eq_of_mem_replicate hc⟩
      · rw [← hinr, inorder_leaf r hleaf, inorder_leaf fr hfl, hfk]
        simp [liveKeys, hn0]
      · rw [inorder_leaf fr hfl, hfk]
        exact List.sorted_nil
    | succ h =>
      have hleaf : r.leaf = false := hbr.1
      obtain ⟨c, hkc, hcc, hca, hcn, hbc⟩ := hbr.child (Nat.zero_le r.n)
      have hcut := hbr.cut (Nat.zero_le r.n) hkc
      have hright : rightOf r 0 = [] := by
        have := hbr.rightOf_last
        rwa [hn0] at this
      rw [leftOf_zero, hright] at hcut
      simp only [List.nil_append, List.append_nil] at hcut
      refine ⟨c, h, out, ?_, hbc, Or.inr rfl, by rw [← hcut, hinr], by rw [← hcut]; exact hsr,
        fun _ => by omega, hout⟩
      simp [deleteKey, e, hn0, hleaf, hcc]
  · refine ⟨r, h, out, ?_, hbr, Or.inl rfl, hinr, hsr, fun _ => by omega, hout⟩
    simp [deleteKey, e, hn0]

theorem deleteKey_spec {t : Nat} (ht : 2 ≤ t) {tree : BTree} (hv : Valid t tree) (key : Int) :
    ∃ tree' out, deleteKey tree key = some (tree', out) ∧ Valid t tree' ∧
      keysOf tree' = (keysOf tree).erase key ∧
      out = if key ∈ keysOf tree then [] else [Msg.keyNotFound key] := by
  obtain ⟨htt, root, h, hroot, hb, hs, hr⟩ := hv
  obtain ⟨r, h', out, e, hbr, -, hinr, hsr, hrr, hout⟩ := deleteKey_root_spec ht key hb hs hr
  have htree : tree = ⟨some root, t⟩ := by
    cases tree
    simp only at htt hroot
    rw [htt, hroot]
  refine ⟨⟨some r, t⟩, out, by rw [htree]; exact e, ⟨rfl, r, _, rfl, hbr, hsr, hrr⟩, ?_, ?_⟩
  · rw [htree]
    exact hinr
  · rw [htree]
    exact hout

/-! ### Nodes of a tree -/

theorem nodesSlots_eq (cs : List (Option BTreeNode)) (k : Nat) :
    nodesSlots cs k = (cs.take k).flatMap nodesSlot := by
  induction cs generalizing k with
  | nil => simp [nodesSlots]
  | cons c cs ih => cases k <;> simp [nodesSlots, ih]

theorem nodes_eq (nd : BTreeNode) :
    nodes nd = nd :: (if nd.leaf then []
      else (nd.children.take (nd.n + 1)).flatMap nodesSlot) := by
  cases nd with
  | mk n leaf ks cs => simp [nodes, nodesSlots_eq]

theorem self_mem_nodes (nd : BTreeNode) : nd ∈ nodes nd := by
  rw [nodes_eq]
  exact List.mem_cons_self _ _

theorem nodes_child_subset {nd c : BTreeNode} {i : Nat} (hl : nd.leaf = false)
    (hi : i ≤ nd.n) (hc : nd.children[i]? = some (some c)) :
    ∀ x ∈ nodes c, x ∈ nodes nd := by
  intro x hx
  rw [nodes_eq nd]
  simp only [hl, Bool.false_eq_true, if_false]
  apply List.mem_cons_of_mem
  rw [List.mem_flatMap]
  refine ⟨some c, ?_, hx⟩
  apply List.getElem?_mem (n := i)
  rw [List.getElem?_take, if_pos (by omega), hc]

/-! ### `traverse` -/

theorem traverseLoop_leaf (rec : Option BTreeNode → Option (List Int)) (nd : BTreeNode)
    (hl : nd.leaf = true) :
    ∀ r i, i + r ≤ nd.keys.length →
      traverseLoop rec nd r i = some ((nd.keys.drop i).take r) := by
  intro r
  induction r with
  | zero =>
    intro i _
    simp [traverseLoop, hl]
  | succ r ih =>
    intro i hi
    have hlt : i < nd.keys.length := by omega
    rw [traverseLoop]
    simp only [hl, if_true, List.getElem?_eq_getElem hlt, ih (i + 1) (by omega)]
    conv_rhs => rw [List.drop_eq_getElem_cons hlt, List.take_succ_cons]
    rfl

theorem traverseLoop_inner (rec : Option BTreeNode → Option (List Int)) (nd : BTreeNode)
    (hl : nd.leaf = false) (hk : nd.n ≤ nd.keys.length) (hc : nd.n < nd.children.length)
    (hrec : ∀ i c, i ≤ nd.n → nd.children[i]? = some c → rec c = some (inorderSlot c)) :
    ∀ r i, i + r = nd.n →
      traverseLoop rec nd r i = some (interleave
        (((nd.children.take (nd.n + 1)).drop i).map inorderSlot) ((nd.keys.take nd.n).drop i)) := by
  intro r
  induction r with
  | zero =>
    intro i hi
    have hin : i = nd.n := by omega
    subst hin
    have hlt : nd.n < nd.children.length := hc
    have h1 : (nd.children.take (nd.n + 1)).drop nd.n = [nd.children[nd.n]] := by
      apply List.ext_getElem?
      intro j
      rw [List.getElem?_drop, List.getElem?_take]
      cases j with
      | zero => simp [List.getElem?_eq_getElem hlt]
      | succ j => rw [if_neg (by omega)]; simp
    have h2 : (nd.keys.take nd.n).drop nd.n = [] :=
      List.drop_eq_nil_of_le (List.length_take_le _ _)
    simp [traverseLoop, hl, List.getElem?_eq_getElem hlt,
      hrec nd.n _ (le_refl _) (List.getElem?_eq_getElem hlt), h1, h2, interleave]
  | succ r ih =>
    intro i hi
    have hlt : i < nd.children.length := by omega
    have hkl : i < nd.keys.length := by omega
    have h1 : (nd.children.take (nd.n + 1)).drop i =
        nd.children[i] :: (nd.children.take (nd.n + 1)).drop (i + 1) := by
      have hl1 : i < (nd.children.take (nd.n + 1)).length := by
        rw [List.length_take_of_le (by omega)]; omega
      rw [List.drop_eq_getElem_cons hl1]
      simp
    have h2 : (nd.keys.take nd.n).drop i = nd.keys[i] :: (nd.keys.take nd.n).drop (i + 1) := by
      have hl1 : i < (nd.keys.take nd.n).length := by
        rw [List.length_take_of_le hk]; omega
      rw [List.drop_eq_getElem_cons hl1]
      simp
    rw [traverseLoop]
    simp only [hl, Bool.false_eq_true, if_false, List.getElem?_eq_getElem hlt,
      List.getElem?_eq_getElem hkl, hrec i _ (by omega) (List.getElem?_eq_getElem hlt),
      ih (i + 1) (by omega), h1, h2, List.map_cons, interleave]
    simp [hrec i _ (by omega) (List.getElem?_eq_getElem hlt)]

theorem traverseAux_spec :
    ∀ (d : Nat) (nd : BTreeNode) (f : Nat), nd.depth ≤ d → d + 1 ≤ f →
      (∀ x ∈ nodes nd, InBounds x) → traverseAux f (some nd) = some (inorder nd) := by
  intro d
  induction d with
  | zero =>
    intro nd f hd
    rw [depth_eq] at hd
    omega
  | succ d ih =>
    intro nd f hd hf hall
    obtain ⟨f', rfl⟩ : ∃ f', f = f' + 1 := ⟨f - 1, by omega⟩
    obtain ⟨hk, hc⟩ := hall nd (self_mem_nodes nd)
    simp only [traverseAux]
    by_cases hl : nd.leaf = true
    · rw [traverseLoop_leaf _ nd hl nd.n 0 (by omega), inorder_leaf nd hl]
      rfl
    · have hl' : nd.leaf = false := by simpa using hl
      rw [traverseLoop_inner _ nd hl' hk (hc hl') ?_ nd.n 0 (by omega), inorder_eq, if_neg hl]
      · rfl
      · intro i c hi hci
        cases c with
        | none =>
          obtain ⟨f'', rfl⟩ : ∃ f'', f' = f'' + 1 := ⟨f' - 1, by omega⟩
          rfl
        | some cn =>
          have hlt := depth_child_lt nd cn i hci
          exact ih cn f' (by omega) (by omega)
            (fun x hx => hall x (nodes_child_subset hl' hi hci x hx))

theorem traverse_spec (nd : BTreeNode) (hall : ∀ x ∈ nodes nd, InBounds x) :
    traverse (some nd) = some (inorder nd) :=
  traverseAux_spec nd.depth nd (nd.depth + 1) (le_refl _) (le_refl _) hall

/-! ### Membership in an interleaved list -/

theorem mem_glue (y : Int) (A : List (List Int)) :
    ∀ (K : List Int), A.length = K.length → y ∈ interleave (A ++ [[]]) K →
      ∃ j, j < K.length ∧ (K[j]? = some y ∨ ∃ X, A[j]? = some X ∧ y ∈ X) := by
  induction A with
  | nil =>
    intro K hlen hy
    cases K with
    | nil => simp [interleave] at hy
    | cons _ _ => simp at hlen
  | cons a A ih =>
    intro K hlen hy
    cases K with
    | nil => simp at hlen
    | cons k K =>
      simp only [List.cons_append, interleave, List.mem_append, List.mem_cons] at hy
      rcases hy with hy | rfl | hy
      · exact ⟨0, by simp, Or.inr ⟨a, by simp, hy⟩⟩
      · exact ⟨0, by simp, Or.inl (by simp)⟩
      · obtain ⟨j, hj, hj2⟩ := ih K (by simpa using hlen) hy
        exact ⟨j + 1, by simpa using hj, by simpa using hj2⟩

theorem mem_tail (y : Int) :
    ∀ (L : List Int) (B : List (List Int)), y ∈ interleave ([] :: B) L →
      ∃ j, j < L.length ∧ (L[j]? = some y ∨ ∃ X, B[j]? = some X ∧ y ∈ X) := by
  intro L
  induction L with
  | nil =>
    intro B hy
    simp [interleave] at hy
  | cons l L ih =>
    intro B hy
    simp only [interleave, List.nil_append, List.mem_cons] at hy
    rcases hy with rfl | hy
    · exact ⟨0, by simp, Or.inl (by simp)⟩
    · cases B with
      | nil => simp [interleave] at hy
      | cons b B =>
        rw [interleave_cons_eq, List.mem_append] at hy
        rcases hy with hy | hy
        · exact ⟨0, by simp, Or.inr ⟨b, by simp, hy⟩⟩
        · obtain ⟨j, hj, hj2⟩ := ih B hy
          refine ⟨j + 1, by simpa using hj, ?_⟩
          rcases hj2 with hj2 | ⟨X, hX, hyX⟩
          · exact Or.inl (by simpa using hj2)
          · exact Or.inr ⟨X, by simpa using hX, hyX⟩

theorem sublist_interleave (K : List Int) :
    ∀ (A : List (List Int)), A.length = K.length + 1 → K.Sublist (interleave A K) := by
  induction K with
  | nil => intro A _; exact List.nil_sublist _
  | cons k K ih =>
    intro A hlen
    cases A with
    | nil => simp at hlen
    | cons a A =>
      simp only [interleave]
      have h1 := ih A (by simpa using hlen)
      exact (List.Sublist.cons₂ k h1).trans (List.sublist_append_right a _)

/-! ### `search` -/

theorem liveKeys_le_of_lt (nd : BTreeNode) (hk : nd.n ≤ nd.keys.length)
    (hpw : (liveKeys nd).Pairwise (· ≤ ·)) {i j : Nat} {a b : Int} (hij : i ≤ j)
    (hj : j < nd.n) (ha : nd.keys[i]? = some a) (hb : nd.keys[j]? = some b) : a ≤ b := by
  by_cases he : i = j
  · subst he
    rw [ha] at hb
    have : a = b := Option.some.inj hb
    omega
  · have hli : i < (liveKeys nd).length := by rw [liveKeys_length nd hk]; omega
    have hlj : j < (liveKeys nd).length := by rw [liveKeys_length nd hk]; omega
    have h := (List.pairwise_iff_getElem.mp hpw) i j hli hlj (by omega)
    have e1 : (liveKeys nd)[i]? = some a := by rw [liveKeys_get nd (by omega)]; exact ha
    have e2 : (liveKeys nd)[j]? = some b := by rw [liveKeys_get nd hj]; exact hb
    rw [List.getElem?_eq_getElem hli] at e1
    rw [List.getElem?_eq_getElem hlj] at e2
    have := Option.some.inj e1
    have := Option.some.inj e2
    omega

/-- In an ordered inner node a key the scan sends to child slot `idx` is in the subtree
of that slot or nowhere. -/
theorem mem_inorder_iff_slot (nd : BTreeNode) (key : Int) (idx : Nat)
    (hl : nd.leaf = false) (hb : InBounds nd) (ho : OrderedNode (· ≤ ·) nd)
    (hidx : idx ≤ nd.n) (c : Option BTreeNode) (hc : nd.children[idx]? = some c)
    (hlt : ∀ j v, j < idx → nd.keys[j]? = some v → v < key)
    (hgt : ∀ v, idx < nd.n → nd.keys[idx]? = some v → key < v) :
    key ∈ inorder nd ↔ key ∈ inorderSlot c := by
  obtain ⟨hk, hcl⟩ := hb
  have hcl' := hcl hl
  obtain ⟨hpw, hloc⟩ := ho
  have hloc' := hloc hl
  have hkl := liveKeys_length nd hk
  have hcs : ((nd.children.take (nd.n + 1)).map inorderSlot).length = nd.n + 1 := by
    rw [List.length_map, List.length_take_of_le (by omega)]
  have hX : ((nd.children.take (nd.n + 1)).map inorderSlot)[idx]? = some (inorderSlot c) := by
    rw [List.getElem?_map, List.getElem?_take, if_pos (by omega), hc]
    rfl
  have hcut := interleave_at _ (liveKeys nd) idx (inorderSlot c) (by omega) hX
  rw [inorder_eq, if_neg (by simp [hl]), hcut]
  constructor
  · intro hmem
    rcases List.mem_append.mp hmem with hmem | hmem
    · rcases List.mem_append.mp hmem with hmem | hmem
      · exfalso
        obtain ⟨j, hj, hj2⟩ := mem_glue key _ _ (by
          rw [List.length_take_of_le (by omega), List.length_take_of_le (by omega)]) hmem
        rw [List.length_take_of_le (by omega)] at hj
        have hjk : j < nd.keys.length := by omega
        have h1 := hlt j _ hj (List.getElem?_eq_getElem hjk)
        rcases hj2 with hj2 | ⟨X, hX1, hX2⟩
        · rw [List.getElem?_take, if_pos hj, liveKeys_get nd (by omega),
            List.getElem?_eq_getElem hjk] at hj2
          have := Option.some.inj hj2
          omega
        · rw [List.getElem?_take, if_pos hj, List.getElem?_map, List.getElem?_take,
            if_pos (by omega)] at hX1
          have hjc : j < nd.children.length := by omega
          rw [List.getElem?_eq_getElem hjc] at hX1
          have hX3 : inorderSlot nd.children[j] = X := by simpa using hX1
          have h2 := (hloc' j _ (by omega) (List.getElem?_eq_getElem hjk)).1 _ key
            (List.getElem?_eq_getElem hjc) (by rw [hX3]; exact hX2)
          omega
      · exact hmem
    · exfalso
      obtain ⟨j, hj, hj2⟩ := mem_tail key _ _ hmem
      rw [List.length_drop] at hj
      have hjn : idx + j < nd.n := by omega
      have hik : idx < nd.keys.length := by omega
      have hjk : idx + j < nd.keys.length := by omega
      have h1 := hgt _ (by omega) (List.getElem?_eq_getElem hik)
      have h2 := liveKeys_le_of_lt nd hk hpw (show idx ≤ idx + j by omega) hjn
        (List.getElem?_eq_getElem hik) (List.getElem?_eq_getElem hjk)
      rcases hj2 with hj2 | ⟨X, hX1, hX2⟩
      · rw [List.getElem?_drop, liveKeys_get nd hjn, List.getElem?_eq_getElem hjk] at hj2
        have := Option.some.inj hj2
        omega
      · rw [List.getElem?_drop, List.getElem?_map, List.getElem?_take, if_pos (by omega)] at hX1
        have hjc : idx + 1 + j < nd.children.length := by omega
        rw [List.getElem?_eq_getElem hjc] at hX1
        have hX3 : inorderSlot nd.children[idx + 1 + j] = X := by simpa using hX1
        have h3 := (hloc' (idx + j) _ hjn (List.getElem?_eq_getElem hjk)).2
          nd.children[idx + 1 + j] key (by
            rw [show idx + j + 1 = idx + 1 + j by omega]
            exact List.getElem?_eq_getElem hjc) (by rw [hX3]; exact hX2)
        omega
  · intro hmem
    exact List.mem_append_left _ (List.mem_append_right _ hmem)

theorem liveKeys_subset_inorder (nd : BTreeNode) (hb : InBounds nd) :
    ∀ y ∈ liveKeys nd, y ∈ inorder nd := by
  intro y hy
  rw [inorder_eq]
  by_cases hl : nd.leaf = true
  · rw [if_pos hl]; exact hy
  · rw [if_neg hl]
    have hl' : nd.leaf = false := by simpa using hl
    refine (sublist_interleave (liveKeys nd) _ ?_).subset hy
    rw [List.length_map, List.length_take_of_le (by have := hb.2 hl'; omega),
      liveKeys_length nd hb.1]

theorem searchAux_spec (key : Int) :
    ∀ (d : Nat) (nd : BTreeNode) (f : Nat), nd.depth ≤ d → d + 1 ≤ f →
      (∀ x ∈ nodes nd, InBounds x ∧ OrderedNode (· ≤ ·) x) →
      ∃ res, searchAux f (some nd) key = some res ∧ (res ≠ none ↔ key ∈ inorder nd) ∧
        ∀ x, res = some x → x ∈ nodes nd ∧ ∃ i, i < x.n ∧ x.keys[i]? = some key := by
  intro d
  induction d with
  | zero =>
    intro nd f hd
    rw [depth_eq] at hd
    omega
  | succ d ih =>
    intro nd f hd hf hall
    obtain ⟨f', rfl⟩ : ∃ f', f = f' + 1 := ⟨f - 1, by omega⟩
    obtain ⟨hb, ho⟩ := hall nd (self_mem_nodes nd)
    obtain ⟨hk, hcl⟩ := hb
    obtain ⟨idx, e1, -, hidx, hlt, hge⟩ := scanKeys_spec nd.keys key nd.n 0 (by omega)
    have hkat := keyAt_eq nd idx key hk
    by_cases hhit : idx < nd.n ∧ nd.keys[idx]? = some key
    · refine ⟨some nd, ?_, ?_, ?_⟩
      · simp [searchAux, e1, hkat, hhit]
      · simp only [ne_eq, reduceCtorEq, not_false_eq_true, true_iff]
        apply liveKeys_subset_inorder nd ⟨hk, hcl⟩
        apply List.mem_iff_getElem?.mpr
        exact ⟨idx, by rw [liveKeys_get nd hhit.1]; exact hhit.2⟩
      · intro x hx
        have : nd = x := Option.some.inj hx
        subst this
        exact ⟨self_mem_nodes _, idx, hhit.1, hhit.2⟩
    · have hgt : ∀ v, idx < nd.n → nd.keys[idx]? = some v → key < v := by
        intro v hin hv
        have h1 := hge v (by omega) hv
        have h2 : v ≠ key := by
          intro hcon
          subst hcon
          exact hhit ⟨hin, hv⟩
        omega
      by_cases hl : nd.leaf = true
      · refine ⟨none, ?_, ?_, by intro x hx; cases hx⟩
        · simp [searchAux, e1, hkat, hhit, hl]
        · simp only [ne_eq, not_true_eq_false, false_iff]
          rw [inorder_leaf nd hl]
          apply scan_not_mem _ idx key ho.1
          · intro j v hj hv
            rw [liveKeys_get nd (by omega)] at hv
            exact hlt j v (Nat.zero_le _) hj hv
          · intro v hv
            have hin : idx < nd.n := by
              by_contra hcon
              rw [List.getElem?_eq_none (by rw [liveKeys_length nd hk]; omega)] at hv
              cases hv
            rw [liveKeys_get nd hin] at hv
            exact hgt v hin hv
      · have hl' : nd.leaf = false := by simpa using hl
        have hcl' := hcl hl'
        have hic : idx < nd.children.length := by omega
        have hiff := mem_inorder_iff_slot nd key idx hl' ⟨hk, hcl⟩ ho (by omega) _
          (List.getElem?_eq_getElem hic)
          (fun j v hj hv => hlt j v (Nat.zero_le _) hj hv) hgt
        have hstart : searchAux (f' + 1) (some nd) key = searchAux f' nd.children[idx] key := by
          simp [searchAux, e1, hkat, hhit, hl', List.getElem?_eq_getElem hic]
        cases hci : nd.children[idx] with
        | none =>
          obtain ⟨f'', rfl⟩ : ∃ f'', f' = f'' + 1 := ⟨f' - 1, by omega⟩
          refine ⟨none, by rw [hstart, hci]; rfl, ?_, by intro x hx; cases hx⟩
          rw [hiff, hci]
          simp [inorderSlot]
        | some cn =>
          have hcc : nd.children[idx]? = some (some cn) := by
            rw [List.getElem?_eq_getElem hic, hci]
          have hdl := depth_child_lt nd cn idx hcc
          obtain ⟨res, er, hres1, hres2⟩ := ih cn f' (by omega) (by omega)
            (fun x hx => hall x (nodes_child_subset hl' (by omega) hcc x hx))
          refine ⟨res, by rw [hstart, hci]; exact er, ?_, ?_⟩
          · rw [hiff, hci]
            exact hres1
          · intro x hx
            obtain ⟨h1, h2⟩ := hres2 x hx
            exact ⟨nodes_child_subset hl' (by omega) hcc x h1, h2⟩

theorem search_spec (key : Int) (nd : BTreeNode)
    (hall : ∀ x ∈ nodes nd, InBounds x ∧ OrderedNode (· ≤ ·) x) :
    ∃ res, search (some nd) key = some res ∧ (res ≠ none ↔ key ∈ inorder nd) ∧
      ∀ x, res = some x → x ∈ nodes nd ∧ ∃ i, i < x.n ∧ x.keys[i]? = some key :=
  searchAux_spec key nd.depth nd (nd.depth + 1) (le_refl _) (le_refl _) hall

/-! ### What the shape invariant says about every node -/

theorem Bal.nodes_leaf {t : Nat} {x : BTreeNode} (hb : Bal t 0 x) : nodes x = [x] := by
  rw [nodes_eq, if_pos hb.1]

theorem Bal.nodes_inner {t h : Nat} {x : BTreeNode} (hb : Bal t (h + 1) x) :
    nodes x = x :: (kids x).flatMap nodes := by
  rw [nodes_eq, if_neg (by simp [hb.1]), hb.2.2.1, List.flatMap_map]
  rfl

theorem Bal.inBounds {t h : Nat} {x : BTreeNode} (hb : Bal t h x) : InBounds x := by
  obtain ⟨hk, hcl, hn⟩ := hb.nodeOK
  exact ⟨by omega, fun _ => by omega⟩

theorem Bal.kid_index {t h : Nat} {x c : BTreeNode} (hb : Bal t (h + 1) x)
    (hc : c ∈ kids x) : ∃ j, j ≤ x.n ∧ (kids x)[j]? = some c := by
  obtain ⟨j, hj⟩ := List.mem_iff_getElem?.mp hc
  have hlen := hb.kids_length
  refine ⟨j, ?_, hj⟩
  by_contra hcon
  rw [List.getElem?_eq_none (by omega)] at hj
  cases hj

theorem Bal.pairwise_child {t h : Nat} {x c : BTreeNode} (hb : Bal t (h + 1) x)
    (r : Int → Int → Prop) (hc : c ∈ kids x) (hp : (inorder x).Pairwise r) :
    (inorder c).Pairwise r := by
  obtain ⟨j, hj, hjc⟩ := hb.kid_index hc
  rw [hb.cut hj hjc, List.pairwise_append, List.pairwise_append] at hp
  exact hp.1.2.1

/-- Every node of a tree with the shape invariant satisfies it at its own height, and
every node but the root has at least `t - 1` keys. -/
theorem Bal.nodes_inv {t : Nat} (r : Int → Int → Prop) :
    ∀ (h : Nat) (root : BTreeNode), Bal t h root → (inorder root).Pairwise r →
      (∀ x ∈ nodes root, ∃ h', h' ≤ h ∧ Bal t h' x ∧ (inorder x).Pairwise r) ∧
      (∀ x ∈ properNodes root, t - 1 ≤ x.n) := by
  intro h
  induction h with
  | zero =>
    intro root hb hp
    unfold properNodes
    rw [hb.nodes_leaf]
    constructor
    · intro x hx
      have : x = root := by simpa using hx
      subst this
      exact ⟨0, le_refl _, hb, hp⟩
    · intro x hx
      cases hx
  | succ h ih =>
    intro root hb hp
    unfold properNodes
    rw [hb.nodes_inner]
    constructor
    · intro x hx
      rcases List.mem_cons.mp hx with rfl | hx
      · exact ⟨h + 1, le_refl _, hb, hp⟩
      · obtain ⟨c, hc, hxc⟩ := List.mem_flatMap.mp hx
        obtain ⟨h', hh', hbx, hpx⟩ := (ih c (hb.2.2.2 c hc).2 (hb.pairwise_child r hc hp)).1 x hxc
        exact ⟨h', by omega, hbx, hpx⟩
    · intro x hx
      simp only [List.tail_cons] at hx
      obtain ⟨c, hc, hxc⟩ := List.mem_flatMap.mp hx
      have hbc := (hb.2.2.2 c hc).2
      have hsplit : nodes c = c :: properNodes c := by
        unfold properNodes
        rw [nodes_eq]
        rfl
      rw [hsplit] at hxc
      rcases List.mem_cons.mp hxc with rfl | hxc
      · exact (hb.2.2.2 x hc).1
      · exact (ih c hbc (hb.pairwise_child r hc hp)).2 x hxc

theorem Bal.orderedNode {t h : Nat} {x : BTreeNode} (hb : Bal t h x) (r : Int → Int → Prop)
    (hp : (inorder x).Pairwise r) : OrderedNode r x := by
  cases h with
  | zero =>
    refine ⟨by rw [← inorder_leaf x hb.1]; exact hp, ?_⟩
    intro hl
    rw [hb.1] at hl
    cases hl
  | succ h =>
    constructor
    · refine List.Pairwise.sublist ?_ hp
      rw [hb.inorder_kids]
      apply sublist_interleave
      rw [List.length_map, hb.kids_length, hb.live_length]
    · intro _ i k hi hk
      obtain ⟨c, s, v, G, T, hca, hsa, hv, -, -, -, -, hin, -, -⟩ := hb.around_key hi
      have hvk : v = k := by
        rw [hk] at hv
        exact (Option.some.inj hv).symm
      subst hvk
      rw [hin, List.pairwise_append] at hp
      obtain ⟨-, hp2, hp3⟩ := hp
      constructor
      · intro c' y hc' hy
        have : c' = some c := by
          simp only [childAt, hc', Option.join] at hca
          exact hca
        subst this
        exact hp3 y (List.mem_append_right _ hy) v (List.mem_cons_self _ _)
      · intro s' y hs' hy
        have : s' = some s := by
          simp only [childAt, hs', Option.join] at hsa
          exact hsa
        subst this
        exact (List.pairwise_cons.mp hp2).1 y (List.mem_append_left _ hy)

/-! ### Leaf depths -/

theorem leafDepthsSlots_eq (cs : List (Option BTreeNode)) (k : Nat) :
    leafDepthsSlots cs k = (cs.take k).flatMap leafDepthsSlot := by
  induction cs generalizing k with
  | nil => simp [leafDepthsSlots]
  | cons c cs ih => cases k <;> simp [leafDepthsSlots, ih]

theorem leafDepths_eq (nd : BTreeNode) :
    leafDepths nd = if nd.leaf then [0]
      else ((nd.children.take (nd.n + 1)).flatMap leafDepthsSlot).map (· + 1) := by
  cases nd with
  | mk n leaf ks cs => simp [leafDepths, leafDepthsSlots_eq]

theorem Bal.leafDepths {t : Nat} :
    ∀ (h : Nat) (x : BTreeNode), Bal t h x → ∀ d ∈ leafDepths x, d = h := by
  intro h
  induction h with
  | zero =>
    intro x hb d hd
    rw [leafDepths_eq, if_pos hb.1] at hd
    simpa using hd
  | succ h ih =>
    intro x hb d hd
    rw [leafDepths_eq, if_neg (by simp [hb.1]), hb.2.2.1, List.flatMap_map] at hd
    obtain ⟨d', hd', rfl⟩ := List.mem_map.mp hd
    obtain ⟨c, hc, hdc⟩ := List.mem_flatMap.mp hd'
    have := ih c (hb.2.2.2 c hc).2 d' hdc
    omega

theorem Bal.leaf_iff_no_child {t h : Nat} {x : BTreeNode} (hb : Bal t h x) :
    x.leaf = true ↔ ∀ c ∈ x.children, c = none := by
  cases h with
  | zero => exact ⟨fun _ => hb.2.2, fun _ => hb.1⟩
  | succ h =>
    obtain ⟨c, -, hcc, -, -, -⟩ := hb.child (Nat.zero_le x.n)
    constructor
    · intro hl
      rw [hb.1] at hl
      cases hl
    · intro hall
      have := hall (some c) (List.getElem?_mem hcc)
      cases this

/-! ### Sequences of calls -/

theorem Valid.traverse {t : Nat} {tree : BTree} (hv : Valid t tree) :
    traverse tree.root = some (keysOf tree) := by
  obtain ⟨-, root, h, hroot, hb, hs, -⟩ := hv
  unfold keysOf
  rw [hroot]
  apply traverse_spec
  intro x hx
  obtain ⟨h', -, hbx, -⟩ := (Bal.nodes_inv (· ≤ ·) h root hb hs).1 x hx
  exact hbx.inBounds

theorem Valid.search {t : Nat} {tree : BTree} (hv : Valid t tree) (key : Int) :
    ∃ res, search tree.root key = some res ∧ (res ≠ none ↔ key ∈ keysOf tree) := by
  obtain ⟨-, root, h, hroot, hb, hs, -⟩ := hv
  unfold keysOf
  rw [hroot]
  obtain ⟨res, e, hres, -⟩ := search_spec key root (by
    intro x hx
    obtain ⟨h', -, hbx, hpx⟩ := (Bal.nodes_inv (· ≤ ·) h root hb hs).1 x hx
    exact ⟨hbx.inBounds, hbx.orderedNode _ hpx⟩)
  exact ⟨res, e, hres⟩

theorem createBTree_spec {t : Nat} (ht : 1 ≤ t) :
    createBTree t = some ⟨some (.mk 0 true (List.replicate (2 * t - 1) 0)
      (List.replicate (2 * t) none)), t⟩ := by
  have : t ≠ 0 := by omega
  simp [createBTree, createNode, this]

theorem createBTree_valid {t : Nat} (ht : 1 ≤ t) :
    ∃ tree, createBTree t = some tree ∧ Valid t tree ∧ keysOf tree = [] := by
  obtain ⟨fr, hfr⟩ : ∃ fr, fr = BTreeNode.mk 0 true (List.replicate (2 * t - 1) 0)
      (List.replicate (2 * t) none) := ⟨_, rfl⟩
  have hfl : fr.leaf = true := by rw [hfr]; rfl
  have hfk : liveKeys fr = [] := by rw [hfr]; rfl
  have hin : inorder fr = [] := by rw [inorder_leaf fr hfl, hfk]
  refine ⟨⟨some fr, t⟩, by rw [hfr]; exact createBTree_spec ht,
    ⟨rfl, fr, 0, rfl, ?_, by rw [hin]; exact List.sorted_nil, ?_⟩, hin⟩
  · rw [hfr]
    exact ⟨rfl, ⟨by simp, by simp, by simp; omega⟩, fun c hc => List.eq_of_mem_replicate hc⟩
  · intro hl
    rw [hfl] at hl
    cases hl

theorem applyOp_spec {t : Nat} (ht : 2 ≤ t) {tree : BTree} (hv : Valid t tree) (op : Op) :
    ∃ tree', applyOp tree op = some tree' ∧ Valid t tree' ∧
      keysOf tree' = stepKeys (keysOf tree) op := by
  cases op with
  | ins k =>
    obtain ⟨tree', e, hv', hk⟩ := insert_spec ht hv k
    exact ⟨tree', e, hv', hk⟩
  | del k =>
    obtain ⟨tree', out, e, hv', hk, -⟩ := deleteKey_spec ht hv k
    exact ⟨tree', by simp [applyOp, e], hv', hk⟩

theorem runOps_spec {t : Nat} (ht : 2 ≤ t) :
    ∀ (ops : List Op) (tree : BTree), Valid t tree →
      ∃ tree', runOps ops tree = some tree' ∧ Valid t tree' ∧
        keysOf tree' = ops.foldl stepKeys (keysOf tree) := by
  intro ops
  induction ops with
  | nil => intro tree hv; exact ⟨tree, rfl, hv, rfl⟩
  | cons op ops ih =>
    intro tree hv
    obtain ⟨tree1, e1, hv1, hk1⟩ := applyOp_spec ht hv op
    obtain ⟨tree2, e2, hv2, hk2⟩ := ih tree1 hv1
    refine ⟨tree2, by simp [runOps, e1, e2], hv2, ?_⟩
    rw [hk2, hk1]
    rfl

theorem fromEmpty_spec {t : Nat} (ht : 2 ≤ t) (ops : List Op) :
    ∃ tree, fromEmpty t ops = some tree ∧ Valid t tree ∧ keysOf tree = presentKeys ops := by
  obtain ⟨tree0, e0, hv0, hk0⟩ := createBTree_valid (show 1 ≤ t by omega)
  obtain ⟨tree, e, hv, hk⟩ := runOps_spec ht ops tree0 hv0
  refine ⟨tree, by simp [fromEmpty, e0, e], hv, ?_⟩
  rw [hk, hk0]
  rfl

/-! ### The keys held after a sequence of calls -/

theorem stepKeys_sorted (l : List Int) (op : Op) (h : l.Sorted (· ≤ ·)) :
    (stepKeys l op).Sorted (· ≤ ·) := by
  cases op with
  | ins k => exact List.Sorted.orderedInsert k l h
  | del k => exact sorted_erase k h

theorem foldl_stepKeys_sorted (ops : List Op) :
    ∀ l : List Int, l.Sorted (· ≤ ·) → (ops.foldl stepKeys l).Sorted (· ≤ ·) := by
  induction ops with
  | nil => intro l h; exact h
  | cons op ops ih => intro l h; exact ih _ (stepKeys_sorted l op h)

theorem presentKeys_sorted (ops : List Op) : (presentKeys ops).Sorted (· ≤ ·) :=
  foldl_stepKeys_sorted ops [] List.sorted_nil

theorem fresh_foldl (ops : List Op) :
    ∀ l : List Int, l.Nodup → freshFrom l ops = true →
      (ops.foldl stepKeys l).Nodup ∧
      ∀ k, k ∈ ops.foldl stepKeys l ↔ liveAfter k (decide (k ∈ l)) ops = true := by
  induction ops with
  | nil =>
    intro l hl _
    exact ⟨hl, fun k => by simp [liveAfter]⟩
  | cons op ops ih =>
    intro l hl hf
    cases op with
    | ins k1 =>
      simp only [freshFrom, Bool.and_eq_true, decide_eq_true_eq] at hf
      have hnd : (stepKeys l (.ins k1)).Nodup := by
        have hp : (l.orderedInsert (· ≤ ·) k1).Perm (k1 :: l) := List.perm_orderedInsert _ k1 l
        exact (hp.nodup_iff).mpr (List.nodup_cons.mpr ⟨hf.1, hl⟩)
      obtain ⟨h1, h2⟩ := ih _ hnd hf.2
      refine ⟨h1, fun k => ?_⟩
      rw [List.foldl_cons, h2 k]
      simp only [liveAfter, stepKeys, List.mem_orderedInsert]
      by_cases hk : k1 = k
      · subst hk
        simp
      · have hk' : ¬ k = k1 := fun hh => hk hh.symm
        simp [hk, hk']
    | del k1 =>
      simp only [freshFrom] at hf
      have hnd : (stepKeys l (.del k1)).Nodup := List.Nodup.erase k1 hl
      obtain ⟨h1, h2⟩ := ih _ hnd hf
      refine ⟨h1, fun k => ?_⟩
      rw [List.foldl_cons, h2 k]
      simp only [liveAfter, stepKeys, List.Nodup.mem_erase_iff hl]
      by_cases hk : k1 = k
      · subst hk
        simp
      · have hk' : ¬ k = k1 := fun hh => hk hh.symm
        simp [hk, hk']

theorem presentKeys_fresh (ops : List Op) (hf : freshInserts ops = true) :
    (presentKeys ops).Sorted (· < ·) ∧
      ∀ k, k ∈ presentKeys ops ↔ insertedLast k ops = true := by
  obtain ⟨h1, h2⟩ := fresh_foldl ops [] List.nodup_nil hf
  refine ⟨List.Sorted.lt_of_le (presentKeys_sorted ops) h1, fun k => ?_⟩
  have := h2 k
  simpa [insertedLast, presentKeys] using this

/-! ### Lemmas for the claims -/

theorem OrderedNode.weaken {x : BTreeNode} (h : OrderedNode (· < ·) x) :
    OrderedNode (· ≤ ·) x := by
  obtain ⟨h1, h2⟩ := h
  refine ⟨h1.imp (fun hab => le_of_lt hab), fun hl i k hi hk => ?_⟩
  obtain ⟨h3, h4⟩ := h2 hl i k hi hk
  exact ⟨fun c y hc hy => le_of_lt (h3 c y hc hy), fun c y hc hy => le_of_lt (h4 c y hc hy)⟩

theorem Valid.root_of_no_keys {t : Nat} {tree : BTree} (hv : Valid t tree)
    (hk : keysOf tree = []) :
    ∃ root, tree.root = some root ∧ root.leaf = true ∧ root.n = 0 := by
  obtain ⟨-, root, h, hroot, hb, hs, hr⟩ := hv
  have hin : inorder root = [] := by
    unfold keysOf at hk
    rw [hroot] at hk
    exact hk
  have hsub := liveKeys_subset_inorder root hb.inBounds
  have hlen := hb.live_length
  have hlive : liveKeys root = [] := by
    apply List.eq_nil_iff_forall_not_mem.mpr
    intro y hy
    have := hsub y hy
    rw [hin] at this
    cases this
  have hn : root.n = 0 := by
    rw [hlive] at hlen
    exact hlen.symm
  refine ⟨root, hroot, ?_, hn⟩
  by_contra hl
  have := hr (by simpa using hl)
  omega

theorem foldl_erase_perm (dels : List Int) :
    ∀ l : List Int, l.Perm dels → (dels.map Op.del).foldl stepKeys l = [] := by
  induction dels with
  | nil =>
    intro l hl
    simpa using hl.eq_nil
  | cons d dels ih =>
    intro l hl
    simp only [List.map_cons, List.foldl_cons, stepKeys]
    apply ih
    have := List.Perm.erase d hl
    rwa [List.erase_cons_head] at this

theorem foldl_insert_perm (keys : List Int) :
    ∀ l : List Int, ((keys.map Op.ins).foldl stepKeys l).Perm (keys ++ l) := by
  induction keys with
  | nil => intro l; exact List.Perm.refl _
  | cons k keys ih =>
    intro l
    simp only [List.map_cons, List.foldl_cons, stepKeys]
    refine (ih _).trans ?_
    have h1 : (l.orderedInsert (· ≤ ·) k).Perm (k :: l) := List.perm_orderedInsert _ k l
    exact (List.Perm.append_left keys h1).trans List.perm_middle

/-! ### The claims -/

/-- C1, counterexample: with `t = 2`, after `insert(5); insert(5)` the traversal prints
`5 5`, which is not strictly ascending. -/
theorem C1_duplicate_insert_not_strict :
    (fromEmpty 2 [.ins 5, .ins 5]).bind (fun tr => traverse tr.root) = some [5, 5] ∧
      ¬ ([5, 5] : List Int).Sorted (· < ·) := by
  constructor
  · decide!
  · decide

/-- C1, amended: for every minimum degree `t ≥ 2` and every sequence of `insert` and
`deleteKey` calls on the tree of `createBTree(t)`, every call returns and
`traverse(root)` prints, in non-decreasing order, the keys held: one occurrence for
every `insert`, less one for every `deleteKey` of a key held. When no `insert` is given
a key that is held at the time, the printed sequence is strictly ascending and holds
exactly the keys inserted and not deleted since. -/
theorem C1_traverse_present_keys (t : Nat) (ops : List Op) (ht : 2 ≤ t) :
    ∃ tree, fromEmpty t ops = some tree ∧ traverse tree.root = some (presentKeys ops) ∧
      (presentKeys ops).Sorted (· ≤ ·) ∧
      (freshInserts ops = true → (presentKeys ops).Sorted (· < ·) ∧
        ∀ k, k ∈ presentKeys ops ↔ insertedLast k ops = true) := by
  obtain ⟨tree, e, hv, hk⟩ := fromEmpty_spec ht ops
  exact ⟨tree, e, by rw [hv.traverse, hk], presentKeys_sorted ops, presentKeys_fresh ops⟩

/-- C1, witness: the amended claim at `t = 3` for the calls
`insert 10, 20, 5, 6; deleteKey 20; insert 12`. -/
theorem C1_traverse_present_keys_witness :
    2 ≤ 3 ∧ ∃ tree, fromEmpty 3 [.ins 10, .ins 20, .ins 5, .ins 6, .del 20, .ins 12] =
        some tree ∧
      traverse tree.root =
        some (presentKeys [.ins 10, .ins 20, .ins 5, .ins 6, .del 20, .ins 12]) ∧
      (presentKeys [.ins 10, .ins 20, .ins 5, .ins 6, .del 20, .ins 12]).Sorted (· ≤ ·) ∧
      (freshInserts [.ins 10, .ins 20, .ins 5, .ins 6, .del 20, .ins 12] = true →
        (presentKeys [.ins 10, .ins 20, .ins 5, .ins 6, .del 20, .ins 12]).Sorted (· < ·) ∧
        ∀ k, k ∈ presentKeys [.ins 10, .ins 20, .ins 5, .ins 6, .del 20, .ins 12] ↔
          insertedLast k [.ins 10, .ins 20, .ins 5, .ins 6, .del 20, .ins 12] = true) :=
  ⟨by decide, C1_traverse_present_keys 3 _ (by decide)⟩

/-- C2, counterexample: with `t = 2`, after `insert(5); insert(5); deleteKey(5)` the key
`5` was deleted after its last insertion, and `search(root, 5)` still returns a node. -/
theorem C2_found_after_delete :
    ((fromEmpty 2 [.ins 5, .ins 5, .del 5]).bind (fun tr => search tr.root 5)).map
        Option.isSome = some true ∧
      insertedLast 5 [.ins 5, .ins 5, .del 5] = false := by
  constructor
  · decide!
  · decide

/-- C2, amended: for every sequence of `insert` and `deleteKey` calls on a tree from
`createBTree(t)`, `t ≥ 2`, and every key `k`, `search(root, k)` returns a node exactly
when `k` is held (inserted more often than deleted while held). When no `insert` is given
a key that is held at the time, that is: exactly when `k` was inserted and not deleted
since. -/
theorem C2_search_present (t : Nat) (ops : List Op) (k : Int) (ht : 2 ≤ t) :
    ∃ tree res, fromEmpty t ops = some tree ∧ search tree.root k = some res ∧
      (res ≠ none ↔ k ∈ presentKeys ops) ∧
      (freshInserts ops = true → (res ≠ none ↔ insertedLast k ops = true)) := by
  obtain ⟨tree, e, hv, hk⟩ := fromEmpty_spec ht ops
  obtain ⟨res, es, hres⟩ := hv.search k
  rw [hk] at hres
  exact ⟨tree, res, e, es, hres, fun hf => hres.trans ((presentKeys_fresh ops hf).2 k)⟩

/-- C2, witness: the amended claim at `t = 3`, key `17`, for the calls
`insert 10, 17, 5; deleteKey 10`. -/
theorem C2_search_present_witness :
    2 ≤ 3 ∧ ∃ tree res, fromEmpty 3 [.ins 10, .ins 17, .ins 5, .del 10] = some tree ∧
      search tree.root 17 = some res ∧
      (res ≠ none ↔ (17 : Int) ∈ presentKeys [.ins 10, .ins 17, .ins 5, .del 10]) ∧
      (freshInserts [.ins 10, .ins 17, .ins 5, .del 10] = true →
        (res ≠ none ↔ insertedLast 17 [.ins 10, .ins 17, .ins 5, .del 10] = true)) :=
  ⟨by decide, C2_search_present 3 _ 17 (by decide)⟩

/-- C3, counterexample: with `t = 2`, after `insert(5); insert(5)` the root holds the
keys `5 5`, which are not strictly increasing. -/
theorem C3_duplicate_keys_in_node :
    (fromEmpty 2 [.ins 5, .ins 5]).bind (fun tr => tr.root.map liveKeys) = some [5, 5] ∧
      ¬ ([5, 5] : List Int).Pairwise (· < ·) := by
  constructor
  · decide!
  · decide

/-- C3, amended: after any sequence of `insert` and `deleteKey` calls on a tree from
`createBTree(t)`, `t ≥ 2`, the ordering invariants hold in the whole tree in their
non-strict form: the first `n` keys of every node are non-decreasing, and for every
inner node and index `i < n` all keys below `children[i]` are `≤ keys[i]` and all keys
below `children[i+1]` are `≥ keys[i]`. When no `insert` is given a key that is held at
the time, they hold in the strict form and no key occurs twice in the tree. -/
theorem C3_ordering_invariants (t : Nat) (ops : List Op) (ht : 2 ≤ t) :
    ∃ tree root, fromEmpty t ops = some tree ∧ tree.root = some root ∧
      (∀ x ∈ nodes root, OrderedNode (· ≤ ·) x) ∧
      (freshInserts ops = true →
        (∀ x ∈ nodes root, OrderedNode (· < ·) x) ∧ (inorder root).Nodup) := by
  obtain ⟨tree, e, hv, hk⟩ := fromEmpty_spec ht ops
  obtain ⟨-, root, h, hroot, hb, hs, -⟩ := hv
  have hkr : inorder root = presentKeys ops := by
    unfold keysOf at hk
    rw [hroot] at hk
    exact hk
  refine ⟨tree, root, e, hroot, ?_, ?_⟩
  · intro x hx
    obtain ⟨h', -, hbx, hpx⟩ := (Bal.nodes_inv (· ≤ ·) h root hb hs).1 x hx
    exact hbx.orderedNode _ hpx
  · intro hf
    have hlt : (inorder root).Sorted (· < ·) := by
      rw [hkr]
      exact (presentKeys_fresh ops hf).1
    refine ⟨?_, hlt.nodup⟩
    intro x hx
    obtain ⟨h', -, hbx, hpx⟩ := (Bal.nodes_inv (· < ·) h root hb hlt).1 x hx
    exact hbx.orderedNode _ hpx

/-- C3, witness: the amended claim at `t = 2` for the calls
`insert 1, 2, 3, 4; deleteKey 2`. -/
theorem C3_ordering_invariants_witness :
    2 ≤ 2 ∧ ∃ tree root, fromEmpty 2 [.ins 1, .ins 2, .ins 3, .ins 4, .del 2] = some tree ∧
      tree.root = some root ∧ (∀ x ∈ nodes root, OrderedNode (· ≤ ·) x) ∧
      (freshInserts [.ins 1, .ins 2, .ins 3, .ins 4, .del 2] = true →
        (∀ x ∈ nodes root, OrderedNode (· < ·) x) ∧ (inorder root).Nodup) :=
  ⟨by decide, C3_ordering_invariants 2 _ (by decide)⟩

/-- C4: after any sequence of `insert` and `deleteKey` calls on a tree from
`createBTree(t)`, `t ≥ 2`, all leaves of the tree are at the same depth, and a node is
marked leaf exactly when it has no child pointer. -/
theorem C4_leaves_same_depth (t : Nat) (ops : List Op) (ht : 2 ≤ t) :
    ∃ tree root, fromEmpty t ops = some tree ∧ tree.root = some root ∧
      (∃ h, ∀ d ∈ leafDepths root, d = h) ∧
      ∀ x ∈ nodes root, (x.leaf = true ↔ ∀ c ∈ x.children, c = none) := by
  obtain ⟨tree, e, hv, -⟩ := fromEmpty_spec ht ops
  obtain ⟨-, root, h, hroot, hb, hs, -⟩ := hv
  refine ⟨tree, root, e, hroot, ⟨h, Bal.leafDepths h root hb⟩, ?_⟩
  intro x hx
  obtain ⟨h', -, hbx, -⟩ := (Bal.nodes_inv (· ≤ ·) h root hb hs).1 x hx
  exact hbx.leaf_iff_no_child

/-- C4, witness: the claim at `t = 2` for the calls `insert 1, 2, 3, 4, 5; deleteKey 1`. -/
theorem C4_leaves_same_depth_witness :
    2 ≤ 2 ∧ ∃ tree root,
      fromEmpty 2 [.ins 1, .ins 2, .ins 3, .ins 4, .ins 5, .del 1] = some tree ∧
      tree.root = some root ∧ (∃ h, ∀ d ∈ leafDepths root, d = h) ∧
      ∀ x ∈ nodes root, (x.leaf = true ↔ ∀ c ∈ x.children, c = none) :=
  ⟨by decide, C4_leaves_same_depth 2 _ (by decide)⟩

/-- C5: after any sequence of `insert` and `deleteKey` calls on a tree from
`createBTree(t)`, `t ≥ 2`, every node has at most `2t - 1` keys, every node other than
the root has at least `t - 1` keys, and every inner node with `n` keys has `n + 1`
children: a node in each of its child slots `0 .. n`. -/
theorem C5_key_counts (t : Nat) (ops : List Op) (ht : 2 ≤ t) :
    ∃ tree root, fromEmpty t ops = some tree ∧ tree.root = some root ∧
      (∀ x ∈ nodes root, x.n ≤ 2 * t - 1 ∧
        (x.leaf = false → (kids x).length = x.n + 1 ∧
          ∀ i, i ≤ x.n → ∃ c, x.children[i]? = some (some c))) ∧
      (∀ x ∈ properNodes root, t - 1 ≤ x.n) := by
  obtain ⟨tree, e, hv, -⟩ := fromEmpty_spec ht ops
  obtain ⟨-, root, h, hroot, hb, hs, -⟩ := hv
  obtain ⟨h1, h2⟩ := Bal.nodes_inv (· ≤ ·) h root hb hs
  refine ⟨tree, root, e, hroot, ?_, h2⟩
  intro x hx
  obtain ⟨h', -, hbx, -⟩ := h1 x hx
  obtain ⟨-, -, hn⟩ := hbx.nodeOK
  refine ⟨by omega, fun hl => ?_⟩
  cases h' with
  | zero =>
    rw [hbx.1] at hl
    cases hl
  | succ h' =>
    refine ⟨hbx.kids_length, fun i hi => ?_⟩
    obtain ⟨c, -, hc, -, -, -⟩ := hbx.child hi
    exact ⟨c, hc⟩

/-- C5, witness: the claim at `t = 2` for the calls `insert 1, 2, 3, 4, 5; deleteKey 1`. -/
theorem C5_key_counts_witness :
    2 ≤ 2 ∧ ∃ tree root,
      fromEmpty 2 [.ins 1, .ins 2, .ins 3, .ins 4, .ins 5, .del 1] = some tree ∧
      tree.root = some root ∧
      (∀ x ∈ nodes root, x.n ≤ 2 * 2 - 1 ∧
        (x.leaf = false → (kids x).length = x.n + 1 ∧
          ∀ i, i ≤ x.n → ∃ c, x.children[i]? = some (some c))) ∧
      (∀ x ∈ properNodes root, 2 - 1 ≤ x.n) :=
  ⟨by decide, C5_key_counts 2 _ (by decide)⟩

/-- C6, counterexample: with `t = 2`, the tree after `insert(5)` prints `5`; after a
second `insert(5)` it prints `5 5`: the insertion of a stored key is not a no-op. -/
theorem C6_insert_existing_changes_tree :
    (fromEmpty 2 [.ins 5]).bind (fun tr => traverse tr.root) = some [5] ∧
      ((fromEmpty 2 [.ins 5]).bind (fun tr => insert tr 5)).bind
        (fun tr => traverse tr.root) = some [5, 5] := by
  constructor
  · decide!
  · decide!

/-- C6, amended: for every tree reachable from `createBTree(t)`, `t ≥ 2`, by `insert`
and `deleteKey` calls and every key `k` stored in it, `insert(tree, k)` stores a further
copy of `k`: the traversal afterwards is the one before with one more occurrence of `k`
at its sorted place, all other keys occurring as often as before; so `k` is then stored
at least twice and the tree is not the same after the call. -/
theorem C6_insert_existing_adds_copy (t : Nat) (ops : List Op) (k : Int) (ht : 2 ≤ t)
    (hk : k ∈ presentKeys ops) :
    ∃ tree tree', fromEmpty t ops = some tree ∧ insert tree k = some tree' ∧
      traverse tree.root = some (presentKeys ops) ∧
      traverse tree'.root = some ((presentKeys ops).orderedInsert (· ≤ ·) k) ∧
      ((presentKeys ops).orderedInsert (· ≤ ·) k).count k = (presentKeys ops).count k + 1 ∧
      2 ≤ ((presentKeys ops).orderedInsert (· ≤ ·) k).count k ∧
      (∀ j, j ≠ k →
        ((presentKeys ops).orderedInsert (· ≤ ·) k).count j = (presentKeys ops).count j) ∧
      traverse tree'.root ≠ traverse tree.root := by
  obtain ⟨tree, e, hv, hkeys⟩ := fromEmpty_spec ht ops
  obtain ⟨tree', ei, hv', hkeys'⟩ := insert_spec ht hv k
  have hp : ((presentKeys ops).orderedInsert (· ≤ ·) k).Perm (k :: presentKeys ops) :=
    List.perm_orderedInsert _ k _
  have hc1 : ((presentKeys ops).orderedInsert (· ≤ ·) k).count k =
      (presentKeys ops).count k + 1 := by
    rw [hp.count_eq, List.count_cons_self]
  have hc0 : 0 < (presentKeys ops).count k := List.count_pos_iff.mpr hk
  refine ⟨tree, tree', e, ei, by rw [hv.traverse, hkeys],
    by rw [hv'.traverse, hkeys', hkeys], hc1, by omega, ?_, ?_⟩
  · intro j hj
    rw [hp.count_eq, List.count_cons_of_ne hj]
  · rw [hv.traverse, hv'.traverse, hkeys', hkeys]
    intro hcon
    have := congrArg (fun l => l.count k) (Option.some.inj hcon)
    simp only [hc1] at this
    omega

/-- C6, witness: the amended claim at `t = 2`, key `2`, for the calls `insert 1, 2, 3`. -/
theorem C6_insert_existing_adds_copy_witness :
    (2 ≤ 2 ∧ (2 : Int) ∈ presentKeys [.ins 1, .ins 2, .ins 3]) ∧
    ∃ tree tree', fromEmpty 2 [.ins 1, .ins 2, .ins 3] = some tree ∧
      insert tree 2 = some tree' ∧
      traverse tree.root = some (presentKeys [.ins 1, .ins 2, .ins 3]) ∧
      traverse tree'.root =
        some ((presentKeys [.ins 1, .ins 2, .ins 3]).orderedInsert (· ≤ ·) 2) ∧
      ((presentKeys [.ins 1, .ins 2, .ins 3]).orderedInsert (· ≤ ·) 2).count 2 =
        (presentKeys [.ins 1, .ins 2, .ins 3]).count 2 + 1 ∧
      2 ≤ ((presentKeys [.ins 1, .ins 2, .ins 3]).orderedInsert (· ≤ ·) 2).count 2 ∧
      (∀ j, j ≠ 2 →
        ((presentKeys [.ins 1, .ins 2, .ins 3]).orderedInsert (· ≤ ·) 2).count j =
          (presentKeys [.ins 1, .ins 2, .ins 3]).count j) ∧
      traverse tree'.root ≠ traverse tree.root :=
  ⟨⟨by decide, by decide⟩, C6_insert_existing_adds_copy 2 _ 2 (by decide) (by decide)⟩

/-- C7: for every `t ≥ 2` and every finite list of keys (pairwise distinct or not),
inserting all of them into `createBTree(t)` and then calling `deleteKey` once for each of
them, in any order, leaves a tree whose root is a leaf with `n = 0`. -/
theorem C7_insert_all_delete_all (t : Nat) (keys dels : List Int) (ht : 2 ≤ t)
    (hp : dels.Perm keys) :
    ∃ tree root, fromEmpty t (keys.map Op.ins ++ dels.map Op.del) = some tree ∧
      tree.root = some root ∧ root.leaf = true ∧ root.n = 0 := by
  obtain ⟨tree, e, hv, hk⟩ := fromEmpty_spec ht (keys.map Op.ins ++ dels.map Op.del)
  have hnil : presentKeys (keys.map Op.ins ++ dels.map Op.del) = [] := by
    unfold presentKeys
    rw [List.foldl_append]
    apply foldl_erase_perm
    have := foldl_insert_perm keys []
    rw [List.append_nil] at this
    exact this.trans hp.symm
  obtain ⟨root, hroot, hl, hn⟩ := hv.root_of_no_keys (hk.trans hnil)
  exact ⟨tree, root, e, hroot, hl, hn⟩

/-- C7, witness: the claim at `t = 2` for the keys `4, 1, 3, 2, 5` deleted in the order
`3, 5, 4, 1, 2`. -/
theorem C7_insert_all_delete_all_witness :
    (2 ≤ 2 ∧ ([3, 5, 4, 1, 2] : List Int).Perm [4, 1, 3, 2, 5]) ∧
    ∃ tree root, fromEmpty 2 (([4, 1, 3, 2, 5] : List Int).map Op.ins ++
        ([3, 5, 4, 1, 2] : List Int).map Op.del) = some tree ∧
      tree.root = some root ∧ root.leaf = true ∧ root.n = 0 :=
  ⟨⟨by decide, by decide⟩, C7_insert_all_delete_all 2 _ _ (by decide) (by decide)⟩

/-- C9, counterexample: with `t = 2`, after `insert 1, 2, 3, 4` the root holds the key
`2`; `deleteKey(tree, 0)`, for the absent key `0`, reports not-found and leaves a root
holding the key `3`: the tree was changed. -/
theorem C9_delete_absent_changes_tree :
    (fromEmpty 2 [.ins 1, .ins 2, .ins 3, .ins 4]).bind (fun tr => tr.root.map liveKeys) =
        some [2] ∧
      ((fromEmpty 2 [.ins 1, .ins 2, .ins 3, .ins 4]).bind (fun tr => deleteKey tr 0)).map
        (fun p => (p.1.root.map liveKeys, p.2)) = some (some [3], [Msg.keyNotFound 0]) := by
  constructor
  · decide!
  · decide!

/-- C9, amended: for every tree reachable from `createBTree(t)`, `t ≥ 2`, and every key
`k` that is not stored in it, `deleteKey(tree, k)` returns, reports not-found, and leaves
the stored keys as they were: `traverse` prints the same sequence after the call as
before, and the invariants still hold. Which node holds which key may have changed. -/
theorem C9_delete_absent_keeps_keys (t : Nat) (ops : List Op) (k : Int) (ht : 2 ≤ t)
    (hk : k ∉ presentKeys ops) :
    ∃ tree tree', fromEmpty t ops = some tree ∧
      deleteKey tree k = some (tree', [Msg.keyNotFound k]) ∧
      traverse tree.root = some (presentKeys ops) ∧
      traverse tree'.root = some (presentKeys ops) ∧ Valid t tree' := by
  obtain ⟨tree, e, hv, hkeys⟩ := fromEmpty_spec ht ops
  obtain ⟨tree', out, ed, hv', hkeys', hout⟩ := deleteKey_spec ht hv k
  rw [hkeys] at hout hkeys'
  rw [if_neg hk] at hout
  subst hout
  refine ⟨tree, tree', e, ed, by rw [hv.traverse, hkeys], ?_, hv'⟩
  rw [hv'.traverse, hkeys', List.erase_of_not_mem hk]

/-- C9, witness: the amended claim at `t = 2`, key `0`, for the calls
`insert 1, 2, 3, 4`. -/
theorem C9_delete_absent_keeps_keys_witness :
    (2 ≤ 2 ∧ (0 : Int) ∉ presentKeys [.ins 1, .ins 2, .ins 3, .ins 4]) ∧
    ∃ tree tree', fromEmpty 2 [.ins 1, .ins 2, .ins 3, .ins 4] = some tree ∧
      deleteKey tree 0 = some (tree', [Msg.keyNotFound 0]) ∧
      traverse tree.root = some (presentKeys [.ins 1, .ins 2, .ins 3, .ins 4]) ∧
      traverse tree'.root = some (presentKeys [.ins 1, .ins 2, .ins 3, .ins 4]) ∧
      Valid 2 tree' :=
  ⟨⟨by decide, by decide⟩, C9_delete_absent_keeps_keys 2 _ 0 (by decide) (by decide)⟩

/-- C10: for every tree whose nodes keep their accesses inside their arrays and satisfy
the ordering invariants (strictly increasing keys per node, strict separation of
subtrees) and every key `k`, `search(root, k)` returns, and it returns a node if and
only if `k` occurs in what `traverse` prints; a node it returns is a node of the tree
that has `k` among its first `n` keys; otherwise it returns `NULL`. -/
theorem C10_search_iff_traversed (root : BTreeNode) (k : Int)
    (h : ∀ x ∈ nodes root, InBounds x ∧ OrderedNode (· < ·) x) :
    ∃ res l, search (some root) k = some res ∧ traverse (some root) = some l ∧
      (res ≠ none ↔ k ∈ l) ∧
      ∀ x, res = some x → x ∈ nodes root ∧ ∃ i, i < x.n ∧ x.keys[i]? = some k := by
  obtain ⟨res, e, h1, h2⟩ := search_spec k root (fun x hx => ⟨(h x hx).1, (h x hx).2.weaken⟩)
  exact ⟨res, inorder root, e, traverse_spec root (fun x hx => (h x hx).1), h1, h2⟩

/-- C10, witness: the claim for key `4` in the tree with root key `2` over the leaves
`1` and `3 4` (`t = 2`). -/
theorem C10_search_iff_traversed_witness :
    (∀ x ∈ nodes (.mk 1 false [2, 0, 0]
        [some (.mk 1 true [1, 0, 0] [none, none, none, none]),
         some (.mk 2 true [3, 4, 0] [none, none, none, none]), none, none]),
      InBounds x ∧ OrderedNode (· < ·) x) ∧
    ∃ res l, search (some (.mk 1 false [2, 0, 0]
        [some (.mk 1 true [1, 0, 0] [none, none, none, none]),
         some (.mk 2 true [3, 4, 0] [none, none, none, none]), none, none])) 4 = some res ∧
      traverse (some (.mk 1 false [2, 0, 0]
        [some (.mk 1 true [1, 0, 0] [none, none, none, none]),
         some (.mk 2 true [3, 4, 0] [none, none, none, none]), none, none])) = some l ∧
      (res ≠ none ↔ (4 : Int) ∈ l) ∧
      ∀ x, res = some x →
        x ∈ nodes (.mk 1 false [2, 0, 0]
          [some (.mk 1 true [1, 0, 0] [none, none, none, none]),
           some (.mk 2 true [3, 4, 0] [none, none, none, none]), none, none]) ∧
        ∃ i, i < x.n ∧ x.keys[i]? = some 4 := by
  have h : ∀ x ∈ nodes (.mk 1 false [2, 0, 0]
        [some (.mk 1 true [1, 0, 0] [none, none, none, none]),
         some (.mk 2 true [3, 4, 0] [none, none, none, none]), none, none]),
      InBounds x ∧ OrderedNode (· < ·) x := by
    intro x hx
    simp [nodes, nodesSlots, nodesSlot] at hx
    rcases hx with rfl | rfl | rfl
    · refine ⟨by simp [InBounds], by simp [liveKeys], fun _ i k hi hk => ?_⟩
      simp only [n_mk] at hi
      have hi0 : i = 0 := by omega
      subst hi0
      simp only [keys_mk, List.getElem?_cons_zero, Option.some.injEq] at hk
      subst hk
      simp only [children_mk, List.getElem?_cons_zero, List.getElem?_cons_succ, zero_add,
        Option.some.injEq]
      constructor
      · rintro c y rfl hy
        simp [inorderSlot, inorder] at hy
        omega
      · rintro c y rfl hy
        simp [inorderSlot, inorder] at hy
        omega
    · refine ⟨by simp [InBounds], by simp [liveKeys], fun hl => ?_⟩
      simp at hl
    · refine ⟨by simp [InBounds], by simp [liveKeys], fun hl => ?_⟩
      simp at hl
  exact ⟨h, C10_search_iff_traversed _ 4 h⟩

/-! ### The invariants of the data model and the balance predicate -/

theorem mem_interleave (y : Int) :
    ∀ (K : List Int) (A : List (List Int)), y ∈ interleave A K →
      y ∈ K ∨ ∃ j X, j ≤ K.length ∧ A[j]? = some X ∧ y ∈ X := by
  intro K
  induction K with
  | nil =>
    intro A hy
    cases A with
    | nil => simp [interleave] at hy
    | cons c cs =>
      simp only [interleave] at hy
      exact Or.inr ⟨0, c, le_refl _, by simp, hy⟩
  | cons k ks ih =>
    intro A hy
    cases A with
    | nil => simp [interleave] at hy
    | cons c cs =>
      simp only [interleave, List.mem_append, List.mem_cons] at hy
      rcases hy with hy | rfl | hy
      · exact Or.inr ⟨0, c, Nat.zero_le _, by simp, hy⟩
      · exact Or.inl (List.mem_cons_self _ _)
      · rcases ih cs hy with h1 | ⟨j, X, hj, hX, hyX⟩
        · exact Or.inl (List.mem_cons_of_mem _ h1)
        · exact Or.inr ⟨j + 1, X, by simp; omega, by simpa using hX, hyX⟩

theorem sorted_interleave :
    ∀ (K : List Int) (A : List (List Int)),
      (∀ X ∈ A, X.Sorted (· < ·)) → K.Sorted (· < ·) →
      (∀ i k, K[i]? = some k → (∀ X y, A[i]? = some X → y ∈ X → y < k) ∧
        (∀ X y, A[i + 1]? = some X → y ∈ X → k < y)) →
      (interleave A K).Sorted (· < ·) := by
  intro K
  induction K with
  | nil =>
    intro A hA _ _
    cases A with
    | nil => simp [interleave]
    | cons c cs =>
      simp only [interleave]
      exact hA c (List.mem_cons_self _ _)
  | cons k ks ih =>
    intro A hA hK hsep
    cases A with
    | nil => simp [interleave]
    | cons c cs =>
      simp only [interleave]
      have hKp : ∀ z ∈ ks, k < z := (List.sorted_cons.mp hK).1
      have hrest : (interleave cs ks).Sorted (· < ·) := by
        apply ih cs (fun X hX => hA X (List.mem_cons_of_mem _ hX)) (List.sorted_cons.mp hK).2
        intro i k' hk'
        have := hsep (i + 1) k' (by simpa using hk')
        exact ⟨fun X y hX hy => this.1 X y (by simpa using hX) hy,
          fun X y hX hy => this.2 X y (by simpa using hX) hy⟩
      have h0 := hsep 0 k (by simp)
      have hck : ∀ y ∈ c, y < k := fun y hy => h0.1 c y (by simp) hy
      have hkz : ∀ z ∈ interleave cs ks, k < z := by
        intro z hz
        rcases mem_interleave z ks cs hz with h1 | ⟨j, X, hj, hX, hzX⟩
        · exact hKp z h1
        · cases j with
          | zero => exact h0.2 X z (by simpa using hX) hzX
          | succ j =>
            have hjl : j < ks.length := by omega
            have hkj : (k :: ks)[j + 1]? = some ks[j] := by
              simp [List.getElem?_eq_getElem hjl]
            have h2 := (hsep (j + 1) ks[j] hkj).2 X z (by simpa using hX) hzX
            have h3 := hKp ks[j] (List.getElem_mem _)
            exact lt_trans h3 h2
      unfold List.Sorted
      rw [List.pairwise_append]
      refine ⟨hA c (List.mem_cons_self _ _), List.pairwise_cons.mpr ⟨hkz, hrest⟩, ?_⟩
      intro y hy z hz
      rcases List.mem_cons.mp hz with rfl | hz
      · exact hck y hy
      · exact lt_trans (hck y hy) (hkz z hz)

theorem Bal.child_of_kid {t h : Nat} {x c : BTreeNode} (hb : Bal t (h + 1) x)
    (hc : c ∈ kids x) : ∃ j, j ≤ x.n ∧ x.children[j]? = some (some c) := by
  obtain ⟨j, hj, hkj⟩ := hb.kid_index hc
  obtain ⟨c', hkc', hcc', -⟩ := hb.child hj
  rw [hkj] at hkc'
  cases hkc'
  exact ⟨j, hj, hcc'⟩

theorem Bal.slot_of_kid {t h : Nat} {x c : BTreeNode} (hb : Bal t (h + 1) x) {i : Nat}
    (hc : (kids x)[i]? = some c) : i ≤ x.n ∧ x.children[i]? = some (some c) := by
  have hlen := hb.kids_length
  have hi : i < (kids x).length := by
    by_contra hcon
    rw [List.getElem?_eq_none (by omega)] at hc
    cases hc
  obtain ⟨c', hkc', hcc', -⟩ := hb.child (show i ≤ x.n by omega)
  rw [hc] at hkc'
  cases hkc'
  exact ⟨by omega, hcc'⟩

theorem Bal.sorted_of_ordered {t : Nat} :
    ∀ (h : Nat) (x : BTreeNode), Bal t h x → (∀ y ∈ nodes x, OrderedNode (· < ·) y) →
      (inorder x).Sorted (· < ·) := by
  intro h
  induction h with
  | zero =>
    intro x hb ho
    rw [inorder_leaf x hb.1]
    exact (ho x (self_mem_nodes x)).1
  | succ h ih =>
    intro x hb ho
    rw [hb.inorder_kids]
    obtain ⟨hp, hsep⟩ := ho x (self_mem_nodes x)
    have hlen := hb.live_length
    apply sorted_interleave _ _ _ hp
    · intro i k hk
      have hi : i < x.n := by
        by_contra hcon
        rw [List.getElem?_eq_none (by omega)] at hk
        cases hk
      rw [liveKeys_get x hi] at hk
      obtain ⟨h1, h2⟩ := hsep hb.1 i k hi hk
      constructor
      · intro X y hX hy
        rw [List.getElem?_map] at hX
        cases hc : (kids x)[i]? with
        | none => rw [hc] at hX; cases hX
        | some c =>
          rw [hc] at hX
          simp only [Option.map_some', Option.some.injEq] at hX
          subst hX
          exact h1 (some c) y (hb.slot_of_kid hc).2 hy
      · intro X y hX hy
        rw [List.getElem?_map] at hX
        cases hc : (kids x)[i + 1]? with
        | none => rw [hc] at hX; cases hX
        | some c =>
          rw [hc] at hX
          simp only [Option.map_some', Option.some.injEq] at hX
          subst hX
          exact h2 (some c) y (hb.slot_of_kid hc).2 hy
    · intro X hX
      obtain ⟨c, hc, rfl⟩ := List.mem_map.mp hX
      obtain ⟨j, hj, hcj⟩ := hb.child_of_kid hc
      exact ih c (hb.2.2.2 c hc).2
        (fun y hy => ho y (nodes_child_subset hb.1 hj hcj y hy))

theorem map_some_reduceOption {α : Type} :
    ∀ l : List (Option α), (∀ o ∈ l, ∃ v, o = some v) → l = l.reduceOption.map some := by
  intro l
  induction l with
  | nil => intro _; rfl
  | cons o l ih =>
    intro h
    obtain ⟨v, rfl⟩ := h o (List.mem_cons_self _ _)
    rw [List.reduceOption_cons_of_some, List.map_cons,
      ← ih (fun o ho => h o (List.mem_cons_of_mem _ ho))]

theorem NodeShape.take_kids {t : Nat} {x : BTreeNode} (hs : NodeShape t x)
    (hl : x.leaf = false) : x.children.take (x.n + 1) = (kids x).map some := by
  unfold kids
  apply map_some_reduceOption
  intro o ho
  obtain ⟨i, hi⟩ := List.mem_iff_getElem?.mp ho
  rw [List.getElem?_take] at hi
  by_cases hlt : i < x.n + 1
  · rw [if_pos hlt] at hi
    obtain ⟨c, hc⟩ := hs.2 hl i (by omega)
    rw [hc] at hi
    exact ⟨c, (Option.some.inj hi).symm⟩
  · rw [if_neg hlt] at hi
    cases hi

theorem nodes_inner_kids {x : BTreeNode} (hl : x.leaf = false)
    (hk : x.children.take (x.n + 1) = (kids x).map some) :
    nodes x = x :: (kids x).flatMap nodes := by
  rw [nodes_eq, hl, hk]
  simp only [Bool.false_eq_true, if_false, List.flatMap_map]
  rfl

theorem leafDepths_inner_kids {x : BTreeNode} (hl : x.leaf = false)
    (hk : x.children.take (x.n + 1) = (kids x).map some) :
    leafDepths x = ((kids x).flatMap leafDepths).map (· + 1) := by
  rw [leafDepths_eq, hl, hk]
  simp only [Bool.false_eq_true, if_false, List.flatMap_map]
  rfl

theorem kid_slot {x c : BTreeNode} (hk : x.children.take (x.n + 1) = (kids x).map some)
    (hc : c ∈ kids x) : ∃ i, i ≤ x.n ∧ x.children[i]? = some (some c) := by
  obtain ⟨i, hi⟩ := List.mem_iff_getElem?.mp hc
  have := congrArg (fun l => l[i]?) hk
  simp only [List.getElem?_take, List.getElem?_map, hi, Option.map_some'] at this
  by_cases hlt : i < x.n + 1
  · rw [if_pos hlt] at this
    exact ⟨i, by omega, this⟩
  · rw [if_neg hlt] at this
    cases this

theorem Shaped.kid {t : Nat} {x c : BTreeNode} (hs : Shaped t x) (hl : x.leaf = false)
    {i : Nat} (hi : i ≤ x.n) (hc : x.children[i]? = some (some c)) : Shaped t c :=
  fun y hy => hs y (nodes_child_subset hl hi hc y hy)

theorem Shaped.leafDepths_ne_nil {t : Nat} :
    ∀ (d : Nat) (x : BTreeNode), x.depth ≤ d → Shaped t x → leafDepths x ≠ [] := by
  intro d
  induction d with
  | zero =>
    intro x hd _
    rw [depth_eq] at hd
    omega
  | succ d ih =>
    intro x hd hs
    by_cases hl : x.leaf = true
    · rw [leafDepths_eq, hl]
      simp
    · have hl' : x.leaf = false := by simpa using hl
      have hsx := hs x (self_mem_nodes x)
      have hk := hsx.take_kids hl'
      obtain ⟨c, hc⟩ := hsx.2 hl' 0 (Nat.zero_le _)
      have hck : c ∈ kids x := by
        have : some c ∈ x.children.take (x.n + 1) := by
          apply List.mem_iff_getElem?.mpr
          exact ⟨0, by rw [List.getElem?_take, if_pos (by omega)]; exact hc⟩
        rw [hk] at this
        obtain ⟨c', hc', hcc⟩ := List.mem_map.mp this
        cases hcc
        exact hc'
      have hne := ih c (by have := depth_child_lt x c 0 hc; omega)
        (hs.kid hl' (Nat.zero_le _) hc)
      rw [leafDepths_inner_kids hl' hk]
      intro hcon
      have hnil := List.map_eq_nil_iff.mp hcon
      apply hne
      apply List.eq_nil_iff_forall_not_mem.mpr
      intro e he
      have : e ∈ (kids x).flatMap leafDepths := List.mem_flatMap.mpr ⟨c, hck, he⟩
      rw [hnil] at this
      cases this

theorem bal_of_shape {t : Nat} :
    ∀ (d : Nat) (x : BTreeNode) (H : Nat), x.depth ≤ d → Shaped t x →
      (∀ y ∈ nodes x, y.leaf = true → ∀ c ∈ y.children, c = none) →
      (∀ e ∈ leafDepths x, e = H) → (∀ y ∈ properNodes x, t - 1 ≤ y.n) → Bal t H x := by
  intro d
  induction d with
  | zero =>
    intro x H hd
    rw [depth_eq] at hd
    omega
  | succ d ih =>
    intro x H hd hs hnc hld hmin
    have hsx := hs x (self_mem_nodes x)
    by_cases hl : x.leaf = true
    · have : H = 0 := by
        have := hld 0 (by rw [leafDepths_eq, hl]; simp)
        omega
      subst this
      exact ⟨hl, hsx.1, hnc x (self_mem_nodes x) hl⟩
    · have hl' : x.leaf = false := by simpa using hl
      have hk := hsx.take_kids hl'
      have hnodes := nodes_inner_kids hl' hk
      have hlds := leafDepths_inner_kids hl' hk
      have hkid : ∀ c ∈ kids x, ∀ e ∈ leafDepths c, e + 1 = H := by
        intro c hc e he
        apply hld
        rw [hlds]
        exact List.mem_map.mpr ⟨e, List.mem_flatMap.mpr ⟨c, hc, he⟩, rfl⟩
      obtain ⟨c0, hc0⟩ := hsx.2 hl' 0 (Nat.zero_le _)
      have hc0k : c0 ∈ kids x := by
        have : some c0 ∈ x.children.take (x.n + 1) := by
          apply List.mem_iff_getElem?.mpr
          exact ⟨0, by rw [List.getElem?_take, if_pos (by omega)]; exact hc0⟩
        rw [hk] at this
        obtain ⟨c', hc', hcc⟩ := List.mem_map.mp this
        cases hcc
        exact hc'
      have hne := Shaped.leafDepths_ne_nil d c0
        (by have := depth_child_lt x c0 0 hc0; omega) (hs.kid hl' (Nat.zero_le _) hc0)
      obtain ⟨e0, he0⟩ := List.exists_mem_of_ne_nil _ hne
      have hH := hkid c0 hc0k e0 he0
      obtain ⟨H', rfl⟩ : ∃ H', H = H' + 1 := ⟨e0, hH.symm⟩
      refine Bal_succ_of (kids x) hl' hsx.1 hk ?_
      intro c hc
      obtain ⟨i, hi, hci⟩ := kid_slot hk hc
      have hcn : c ∈ (kids x).flatMap nodes :=
        List.mem_flatMap.mpr ⟨c, hc, self_mem_nodes c⟩
      have hprop : ∀ y ∈ nodes c, y ∈ properNodes x := by
        intro y hy
        unfold properNodes
        rw [hnodes]
        exact List.mem_flatMap.mpr ⟨c, hc, hy⟩
      refine ⟨hmin c (hprop c (self_mem_nodes c)), ?_⟩
      apply ih c H' (by have := depth_child_lt x c i hci; omega) (hs.kid hl' hi hci)
      · intro y hy
        exact hnc y (nodes_child_subset hl' hi hci y hy)
      · intro e he
        have := hkid c hc e he
        omega
      · intro y hy
        exact hmin y (hprop y (List.mem_of_mem_tail hy))

theorem Invariants.bal {t : Nat} {tree : BTree} (hi : Invariants t tree) :
    ∃ root h, tree.root = some root ∧ Bal t h root ∧ (inorder root).Sorted (· < ·) := by
  obtain ⟨-, root, hroot, hs, hnc, ho, ⟨h, hld⟩, hmin⟩ := hi
  have hb := bal_of_shape root.depth root h (le_refl _) hs hnc hld hmin
  exact ⟨root, h, hroot, hb, Bal.sorted_of_ordered h root hb ho⟩

theorem invariants_of_bal {t h : Nat} {tree : BTree} {root : BTreeNode} (htt : tree.t = t)
    (hroot : tree.root = some root) (hb : Bal t h root) (hs : (inorder root).Sorted (· < ·)) :
    Invariants t tree := by
  obtain ⟨h1, h2⟩ := Bal.nodes_inv (· < ·) h root hb hs
  refine ⟨htt, root, hroot, ?_, ?_, ?_, ⟨h, Bal.leafDepths h root hb⟩, h2⟩
  · intro x hx
    obtain ⟨h', -, hbx, -⟩ := h1 x hx
    refine ⟨hbx.nodeOK, fun hl i hi => ?_⟩
    cases h' with
    | zero =>
      rw [hbx.1] at hl
      cases hl
    | succ h' =>
      obtain ⟨c, -, hc, -⟩ := hbx.child hi
      exact ⟨c, hc⟩
  · intro x hx hl
    obtain ⟨h', -, hbx, -⟩ := h1 x hx
    exact hbx.leaf_iff_no_child.mp hl
  · intro x hx
    obtain ⟨h', -, hbx, hpx⟩ := h1 x hx
    exact hbx.orderedNode _ hpx

/-! ### Trees that satisfy the invariants of the data model -/

theorem Bal.traverse_inorder {t h : Nat} {root : BTreeNode} (hb : Bal t h root) :
    traverse (some root) = some (inorder root) := by
  apply traverse_spec
  intro x hx
  obtain ⟨h', -, hbx, -⟩ := (Bal.nodes_inv (fun _ _ => True) h root hb
    (List.pairwise_of_forall (fun _ _ => trivial))).1 x hx
  exact hbx.inBounds

theorem sorted_lt_orderedInsert {l : List Int} (hs : l.Sorted (· < ·)) {k : Int}
    (hk : k ∉ l) : (l.orderedInsert (· ≤ ·) k).Sorted (· < ·) := by
  have hle : l.Sorted (· ≤ ·) := hs.imp (fun hab => le_of_lt hab)
  have hnd : (l.orderedInsert (· ≤ ·) k).Nodup :=
    (List.perm_orderedInsert (· ≤ ·) k l).nodup_iff.mpr (List.nodup_cons.mpr ⟨hk, hs.nodup⟩)
  exact (List.Sorted.orderedInsert k l hle).lt_of_le hnd

theorem sorted_lt_erase {l : List Int} (hs : l.Sorted (· < ·)) (k : Int) :
    (l.erase k).Sorted (· < ·) :=
  List.Pairwise.sublist (List.erase_sublist k l) hs

theorem tree_eta {t : Nat} {tree : BTree} {root : BTreeNode} (htt : tree.t = t)
    (hroot : tree.root = some root) : tree = ⟨some root, t⟩ := by
  cases tree
  simp only at htt hroot
  rw [htt, hroot]

theorem Invariants.valid {t : Nat} {tree : BTree} (hi : Invariants t tree)
    (hr : RootHasKey tree) : Valid t tree ∧ (keysOf tree).Sorted (· < ·) := by
  have htt := hi.1
  obtain ⟨root, h, hroot, hb, hs⟩ := hi.bal
  refine ⟨⟨htt, root, h, hroot, hb, hs.imp (fun hab => le_of_lt hab), hr root hroot⟩, ?_⟩
  unfold keysOf
  rw [hroot]
  exact hs

theorem Valid.invariants {t : Nat} {tree : BTree} (hv : Valid t tree)
    (hs : (keysOf tree).Sorted (· < ·)) : Invariants t tree ∧ RootHasKey tree := by
  obtain ⟨htt, root, h, hroot, hb, -, hr⟩ := hv
  unfold keysOf at hs
  rw [hroot] at hs
  refine ⟨invariants_of_bal htt hroot hb hs, ?_⟩
  intro r hr'
  rw [hroot] at hr'
  cases hr'
  exact hr

theorem insert_root_inv {t : Nat} (ht : 2 ≤ t) {h : Nat} {root : BTreeNode} (key : Int)
    (hb : Bal t h root) (hs : (inorder root).Sorted (· ≤ ·)) :
    ∃ r, insert ⟨some root, t⟩ key = some ⟨some r, t⟩ ∧
      Bal t (if root.n + 1 = 2 * t then h + 1 else h) r ∧
      inorder r = (inorder root).orderedInsert (· ≤ ·) key := by
  by_cases hr : root.leaf = false → 1 ≤ root.n
  · obtain ⟨r, e, hbr, hin, -, -⟩ := insert_root_spec ht key hb hs hr
    exact ⟨r, e, hbr, hin⟩
  · have hd := hb.depth_ge
    obtain ⟨-, -, hn⟩ := hb.nodeOK
    have hn0 : root.n = 0 := by
      by_contra hcon
      exact hr (fun _ => by omega)
    have hfull : ¬ root.n + 1 = 2 * t := by omega
    rw [if_neg hfull]
    obtain ⟨r', er, hbr, hinr, -, -⟩ := insertNonFull_spec t key h
      (root.depth + 2) root (by omega) hb (by omega) hs
    exact ⟨r', by simp [insert, hfull, er], hbr, hinr⟩

/-! ### Sample trees -/

theorem sample_bal :
    Bal 2 1 (.mk 1 false [2, 0, 0]
      [some (.mk 1 true [1, 0, 0] [none, none, none, none]),
       some (.mk 2 true [3, 4, 0] [none, none, none, none]), none, none]) := by
  rw [Bal_succ_iff]
  refine ⟨rfl, ⟨rfl, rfl, by decide⟩, rfl, ?_⟩
  intro c hc
  simp [kids] at hc
  rcases hc with rfl | rfl
  · exact ⟨by decide, rfl, ⟨rfl, rfl, by decide⟩, by simp⟩
  · exact ⟨by decide, rfl, ⟨rfl, rfl, by decide⟩, by simp⟩

theorem sample_inorder :
    inorder (.mk 1 false [2, 0, 0]
      [some (.mk 1 true [1, 0, 0] [none, none, none, none]),
       some (.mk 2 true [3, 4, 0] [none, none, none, none]), none, none]) = [1, 2, 3, 4] := by
  simp [inorder, inorderSlots, inorderSlot, interleave]

theorem sample_invariants :
    Invariants 2 ⟨some (.mk 1 false [2, 0, 0]
      [some (.mk 1 true [1, 0, 0] [none, none, none, none]),
       some (.mk 2 true [3, 4, 0] [none, none, none, none]), none, none]), 2⟩ :=
  invariants_of_bal rfl rfl sample_bal (by rw [sample_inorder]; decide)

theorem keyless_root_bal (k : Int) :
    Bal 2 1 (.mk 0 false [0, 0, 0]
      [some (.mk 1 true [k, 0, 0] [none, none, none, none]), none, none, none]) := by
  rw [Bal_succ_iff]
  refine ⟨rfl, ⟨rfl, rfl, by simp⟩, rfl, ?_⟩
  intro c hc
  simp [kids] at hc
  subst hc
  exact ⟨by simp, rfl, ⟨rfl, rfl, by simp⟩, by simp⟩

theorem keyless_root_invariants (k : Int) :
    Invariants 2 ⟨some (.mk 0 false [0, 0, 0]
      [some (.mk 1 true [k, 0, 0] [none, none, none, none]), none, none, none]), 2⟩ :=
  invariants_of_bal rfl rfl (keyless_root_bal k)
    (by simp [inorder, inorderSlots, inorderSlot, interleave])

/-! ### Claims on single operations on a tree that satisfies the invariants -/

/-- C11, counterexample: the tree with `t = 2` whose root is an inner node without a key
over the single leaf `5` satisfies invariants 1 to 5 (invariant 4 lets the root have no
key), it stores `5`, and `deleteKey(tree, 5)` does not return a tree: `fill(root, 0)`
ends in `merge(root, -1)`, which reads `children[-1]`. -/
theorem C11_keyless_root_delete_fails :
    Invariants 2 ⟨some (.mk 0 false [0, 0, 0]
      [some (.mk 1 true [5, 0, 0] [none, none, none, none]), none, none, none]), 2⟩ ∧
    (5 : Int) ∈ keysOf ⟨some (.mk 0 false [0, 0, 0]
      [some (.mk 1 true [5, 0, 0] [none, none, none, none]), none, none, none]), 2⟩ ∧
    deleteKey ⟨some (.mk 0 false [0, 0, 0]
      [some (.mk 1 true [5, 0, 0] [none, none, none, none]), none, none, none]), 2⟩ 5 =
        none := by
  refine ⟨keyless_root_invariants 5, ?_, rfl⟩
  simp [keysOf, inorder, inorderSlots, inorderSlot, interleave]

/-- C11, amended: for every tree with `t ≥ 2` that satisfies invariants 1 to 5 and whose
root, if it is an inner node, has at least one key, and every key `k` stored in it,
`deleteKey(tree, k)` returns without a message, and the in-order traversal afterwards
is the previous traversal with `k` removed: `k` is no longer in it, `search` for `k`
returns `NULL`, and `search` finds every other key that was stored. -/
theorem C11_delete_stored_key (t : Nat) (tree : BTree) (k : Int) (ht : 2 ≤ t)
    (hinv : Invariants t tree) (hroot : RootHasKey tree) (hk : k ∈ keysOf tree) :
    ∃ tree', deleteKey tree k = some (tree', []) ∧
      traverse tree.root = some (keysOf tree) ∧
      traverse tree'.root = some ((keysOf tree).erase k) ∧
      k ∉ (keysOf tree).erase k ∧
      search tree'.root k = some none ∧
      ∀ j, j ∈ keysOf tree → j ≠ k → ∃ x, search tree'.root j = some (some x) := by
  obtain ⟨hv, hs⟩ := hinv.valid hroot
  obtain ⟨tree', out, e, hv', hkeys, hout⟩ := deleteKey_spec ht hv k
  rw [if_pos hk] at hout
  subst hout
  have hnot : k ∉ (keysOf tree).erase k := fun hcon =>
    ((hs.nodup.mem_erase_iff).mp hcon).1 rfl
  refine ⟨tree', e, hv.traverse, by rw [hv'.traverse, hkeys], hnot, ?_, ?_⟩
  · obtain ⟨res, es, hres⟩ := hv'.search k
    rw [hkeys] at hres
    have : res = none := by
      by_contra hcon
      exact hnot (hres.mp hcon)
    rw [es, this]
  · intro j hj hjk
    obtain ⟨res, es, hres⟩ := hv'.search j
    rw [hkeys] at hres
    have hmem : j ∈ (keysOf tree).erase k := (List.mem_erase_of_ne hjk).mpr hj
    cases hr : res with
    | none => exact absurd hr (hres.mpr hmem)
    | some x => exact ⟨x, by rw [es, hr]⟩

/-- C11, witness: the amended claim for key `3` in the tree with `t = 2` and root key `2`
over the leaves `1` and `3 4`. -/
theorem C11_delete_stored_key_witness :
    (2 ≤ 2 ∧
      Invariants 2 ⟨some (.mk 1 false [2, 0, 0]
        [some (.mk 1 true [1, 0, 0] [none, none, none, none]),
         some (.mk 2 true [3, 4, 0] [none, none, none, none]), none, none]), 2⟩ ∧
      RootHasKey ⟨some (.mk 1 false [2, 0, 0]
        [some (.mk 1 true [1, 0, 0] [none, none, none, none]),
         some (.mk 2 true [3, 4, 0] [none, none, none, none]), none, none]), 2⟩ ∧
      (3 : Int) ∈ keysOf ⟨some (.mk 1 false [2, 0, 0]
        [some (.mk 1 true [1, 0, 0] [none, none, none, none]),
         some (.mk 2 true [3, 4, 0] [none, none, none, none]), none, none]), 2⟩) ∧
    ∃ tree', deleteKey ⟨some (.mk 1 false [2, 0, 0]
        [some (.mk 1 true [1, 0, 0] [none, none, none, none]),
         some (.mk 2 true [3, 4, 0] [none, none, none, none]), none, none]), 2⟩ 3 =
        some (tree', []) ∧
      traverse (BTree.mk (some (.mk 1 false [2, 0, 0]
        [some (.mk 1 true [1, 0, 0] [none, none, none, none]),
         some (.mk 2 true [3, 4, 0] [none, none, none, none]), none, none])) 2).root =
        some (keysOf ⟨some (.mk 1 false [2, 0, 0]
          [some (.mk 1 true [1, 0, 0] [none, none, none, none]),
           some (.mk 2 true [3, 4, 0] [none, none, none, none]), none, none]), 2⟩) ∧
      traverse tree'.root = some ((keysOf ⟨some (.mk 1 false [2, 0, 0]
        [some (.mk 1 true [1, 0, 0] [none, none, none, none]),
         some (.mk 2 true [3, 4, 0] [none, none, none, none]), none, none]), 2⟩).erase 3) ∧
      (3 : Int) ∉ (keysOf ⟨some (.mk 1 false [2, 0, 0]
        [some (.mk 1 true [1, 0, 0] [none, none, none, none]),
         some (.mk 2 true [3, 4, 0] [none, none, none, none]), none, none]), 2⟩).erase 3 ∧
      search tree'.root 3 = some none ∧
      ∀ j, j ∈ keysOf ⟨some (.mk 1 false [2, 0, 0]
        [some (.mk 1 true [1, 0, 0] [none, none, none, none]),
         some (.mk 2 true [3, 4, 0] [none, none, none, none]), none, none]), 2⟩ → j ≠ 3 →
        ∃ x, search tree'.root j = some (some x) := by
  have hr : RootHasKey ⟨some (.mk 1 false [2, 0, 0]
      [some (.mk 1 true [1, 0, 0] [none, none, none, none]),
       some (.mk 2 true [3, 4, 0] [none, none, none, none]), none, none]), 2⟩ := by
    intro root hroot _
    simp only [Option.some.injEq] at hroot
    subst hroot
    exact le_refl _
  have hk : (3 : Int) ∈ keysOf ⟨some (.mk 1 false [2, 0, 0]
      [some (.mk 1 true [1, 0, 0] [none, none, none, none]),
       some (.mk 2 true [3, 4, 0] [none, none, none, none]), none, none]), 2⟩ := by
    simp [keysOf, sample_inorder]
  exact ⟨⟨le_refl _, sample_invariants, hr, hk⟩,
    C11_delete_stored_key 2 _ 3 (le_refl _) sample_invariants hr hk⟩

/-- C12: for every tree with `t ≥ 2` that satisfies invariants 1 to 5 and every key `k`
not stored in it, `insert(tree, k)` returns, and the in-order traversal afterwards is the
previous traversal with `k` inserted at its sorted position: it is strictly ascending,
has exactly one key more, and holds `k` and every key held before, and no other. -/
theorem C12_insert_fresh_key (t : Nat) (tree : BTree) (k : Int) (ht : 2 ≤ t)
    (hinv : Invariants t tree) (hk : k ∉ keysOf tree) :
    ∃ tree', insert tree k = some tree' ∧
      traverse tree.root = some (keysOf tree) ∧
      traverse tree'.root = some ((keysOf tree).orderedInsert (· ≤ ·) k) ∧
      ((keysOf tree).orderedInsert (· ≤ ·) k).Sorted (· < ·) ∧
      ((keysOf tree).orderedInsert (· ≤ ·) k).length = (keysOf tree).length + 1 ∧
      ∀ j, j ∈ (keysOf tree).orderedInsert (· ≤ ·) k ↔ j = k ∨ j ∈ keysOf tree := by
  have htt := hinv.1
  obtain ⟨root, h, hroot, hb, hs⟩ := hinv.bal
  have hkeys : keysOf tree = inorder root := by
    unfold keysOf
    rw [hroot]
  obtain ⟨r, e, hbr, hin⟩ := insert_root_inv ht k hb (hs.imp (fun hab => le_of_lt hab))
  rw [← tree_eta htt hroot] at e
  rw [hkeys] at hk ⊢
  refine ⟨⟨some r, t⟩, e, by rw [hroot]; exact hb.traverse_inorder,
    by rw [← hin]; exact hbr.traverse_inorder, sorted_lt_orderedInsert hs hk,
    List.orderedInsert_length _ _ _, fun j => List.mem_orderedInsert _⟩

/-- C12, witness: the claim for key `5` and the tree with `t = 2` and root key `2` over
the leaves `1` and `3 4`. -/
theorem C12_insert_fresh_key_witness :
    (2 ≤ 2 ∧ Invariants 2 ⟨some (.mk 1 false [2, 0, 0]
        [some (.mk 1 true [1, 0, 0] [none, none, none, none]),
         some (.mk 2 true [3, 4, 0] [none, none, none, none]), none, none]), 2⟩ ∧ (5 : Int) ∉ keysOf ⟨some (.mk 1 false [2, 0, 0]
        [some (.mk 1 true [1, 0, 0] [none, none, none, none]),
         some (.mk 2 true [3, 4, 0] [none, none, none, none]), none, none]), 2⟩) ∧
    ∃ tree', insert ⟨some (.mk 1 false [2, 0, 0]
        [some (.mk 1 true [1, 0, 0] [none, none, none, none]),
         some (.mk 2 true [3, 4, 0] [none, none, none, none]), none, none]), 2⟩ 5 = some tree' ∧
      traverse (BTree.mk (some (.mk 1 false [2, 0, 0]
        [some (.mk 1 true [1, 0, 0] [none, none, none, none]),
         some (.mk 2 true [3, 4, 0] [none, none, none, none]), none, none])) 2).root = some (keysOf ⟨some (.mk 1 false [2, 0, 0]
        [some (.mk 1 true [1, 0, 0] [none, none, none, none]),
         some (.mk 2 true [3, 4, 0] [none, none, none, none]), none, none]), 2⟩) ∧
      traverse tree'.root = some ((keysOf ⟨some (.mk 1 false [2, 0, 0]
        [some (.mk 1 true [1, 0, 0] [none, none, none, none]),
         some (.mk 2 true [3, 4, 0] [none, none, none, none]), none, none]), 2⟩).orderedInsert (· ≤ ·) 5) ∧
      ((keysOf ⟨some (.mk 1 false [2, 0, 0]
        [some (.mk 1 true [1, 0, 0] [none, none, none, none]),
         some (.mk 2 true [3, 4, 0] [none, none, none, none]), none, none]), 2⟩).orderedInsert (· ≤ ·) 5).Sorted (· < ·) ∧
      ((keysOf ⟨some (.mk 1 false [2, 0, 0]
        [some (.mk 1 true [1, 0, 0] [none, none, none, none]),
         some (.mk 2 true [3, 4, 0] [none, none, none, none]), none, none]), 2⟩).orderedInsert (· ≤ ·) 5).length = (keysOf ⟨some (.mk 1 false [2, 0, 0]
        [some (.mk 1 true [1, 0, 0] [none, none, none, none]),
         some (.mk 2 true [3, 4, 0] [none, none, none, none]), none, none]), 2⟩).length + 1 ∧
      ∀ j, j ∈ (keysOf ⟨some (.mk 1 false [2, 0, 0]
        [some (.mk 1 true [1, 0, 0] [none, none, none, none]),
         some (.mk 2 true [3, 4, 0] [none, none, none, none]), none, none]), 2⟩).orderedInsert (· ≤ ·) 5 ↔ j = 5 ∨ j ∈ keysOf ⟨some (.mk 1 false [2, 0, 0]
        [some (.mk 1 true [1, 0, 0] [none, none, none, none]),
         some (.mk 2 true [3, 4, 0] [none, none, none, none]), none, none]), 2⟩ := by
  have hk : (5 : Int) ∉ keysOf ⟨some (.mk 1 false [2, 0, 0]
        [some (.mk 1 true [1, 0, 0] [none, none, none, none]),
         some (.mk 2 true [3, 4, 0] [none, none, none, none]), none, none]), 2⟩ := by
    simp [keysOf, sample_inorder]
  exact ⟨⟨le_refl _, sample_invariants, hk⟩,
    C12_insert_fresh_key 2 _ 5 (le_refl _) sample_invariants hk⟩

/-- C13, counterexample: the tree with `t = 2` whose root is an inner node without a key
over the single leaf `7` satisfies invariants 1 to 5, and `deleteKey(tree, 9)` does not
return a tree: `fill(root, 0)` ends in `merge(root, -1)`, which reads `children[-1]`. -/
theorem C13_keyless_root_not_preserved :
    Invariants 2 ⟨some (.mk 0 false [0, 0, 0]
      [some (.mk 1 true [7, 0, 0] [none, none, none, none]), none, none, none]), 2⟩ ∧
    deleteKey ⟨some (.mk 0 false [0, 0, 0]
      [some (.mk 1 true [7, 0, 0] [none, none, none, none]), none, none, none]), 2⟩ 9 =
        none :=
  ⟨keyless_root_invariants 7, rfl⟩

/-- C13, amended: if a tree with `t ≥ 2` satisfies invariants 1 to 5 (strict key order,
strict subtree separation, equal leaf depth, at least `t - 1` keys in every node but the
root, at most `2t - 1` keys in every node), then `insert(tree, k)` for a key `k` not
stored in it returns a tree that satisfies them too; and if in addition the root of the
tree, when it is an inner node, has at least one key, then `deleteKey(tree, k)` for any
key `k` returns a tree that satisfies invariants 1 to 5, and both operations keep that
property of the root. -/
theorem C13_invariants_preserved (t : Nat) (tree : BTree) (k : Int) (ht : 2 ≤ t)
    (hinv : Invariants t tree) :
    (k ∉ keysOf tree →
      ∃ tree', insert tree k = some tree' ∧ Invariants t tree' ∧
        (RootHasKey tree → RootHasKey tree')) ∧
    (RootHasKey tree →
      ∃ tree' out, deleteKey tree k = some (tree', out) ∧ Invariants t tree' ∧
        RootHasKey tree') := by
  constructor
  · intro hk
    have htt := hinv.1
    obtain ⟨root, h, hroot, hb, hs⟩ := hinv.bal
    have hkeys : keysOf tree = inorder root := by
      unfold keysOf
      rw [hroot]
    obtain ⟨r, e, hbr, hin⟩ := insert_root_inv ht k hb (hs.imp (fun hab => le_of_lt hab))
    rw [← tree_eta htt hroot] at e
    rw [hkeys] at hk
    refine ⟨⟨some r, t⟩, e, invariants_of_bal rfl rfl hbr
      (by rw [hin]; exact sorted_lt_orderedInsert hs hk), fun hroot' => ?_⟩
    obtain ⟨hv, hs'⟩ := hinv.valid hroot'
    obtain ⟨tree', e', hv', hkeys'⟩ := insert_spec ht hv k
    rw [e] at e'
    cases e'
    exact (hv'.invariants (by
      rw [hkeys', hkeys]
      exact sorted_lt_orderedInsert hs hk)).2
  · intro hroot
    obtain ⟨hv, hs⟩ := hinv.valid hroot
    obtain ⟨tree', out, e, hv', hkeys, -⟩ := deleteKey_spec ht hv k
    obtain ⟨h1, h2⟩ := hv'.invariants (by rw [hkeys]; exact sorted_lt_erase hs k)
    exact ⟨tree', out, e, h1, h2⟩

/-- C13, witness: the amended claim for key `5` and the tree with `t = 2` and root key
`2` over the leaves `1` and `3 4`, and its first part for key `5` and the tree whose
root is an inner node without a key over the single leaf `7`. -/
theorem C13_invariants_preserved_witness :
    (2 ≤ 2 ∧ Invariants 2 ⟨some (.mk 1 false [2, 0, 0]
        [some (.mk 1 true [1, 0, 0] [none, none, none, none]),
         some (.mk 2 true [3, 4, 0] [none, none, none, none]), none, none]), 2⟩ ∧
      RootHasKey ⟨some (.mk 1 false [2, 0, 0]
        [some (.mk 1 true [1, 0, 0] [none, none, none, none]),
         some (.mk 2 true [3, 4, 0] [none, none, none, none]), none, none]), 2⟩ ∧
      (5 : Int) ∉ keysOf ⟨some (.mk 1 false [2, 0, 0]
        [some (.mk 1 true [1, 0, 0] [none, none, none, none]),
         some (.mk 2 true [3, 4, 0] [none, none, none, none]), none, none]), 2⟩) ∧
    (∃ tree', insert ⟨some (.mk 1 false [2, 0, 0]
        [some (.mk 1 true [1, 0, 0] [none, none, none, none]),
         some (.mk 2 true [3, 4, 0] [none, none, none, none]), none, none]), 2⟩ 5 =
          some tree' ∧ Invariants 2 tree' ∧ RootHasKey tree') ∧
    (∃ tree' out, deleteKey ⟨some (.mk 1 false [2, 0, 0]
        [some (.mk 1 true [1, 0, 0] [none, none, none, none]),
         some (.mk 2 true [3, 4, 0] [none, none, none, none]), none, none]), 2⟩ 5 =
          some (tree', out) ∧ Invariants 2 tree' ∧ RootHasKey tree') ∧
    (Invariants 2 ⟨some (.mk 0 false [0, 0, 0]
        [some (.mk 1 true [7, 0, 0] [none, none, none, none]), none, none, none]), 2⟩ ∧
      (5 : Int) ∉ keysOf ⟨some (.mk 0 false [0, 0, 0]
        [some (.mk 1 true [7, 0, 0] [none, none, none, none]), none, none, none]), 2⟩) ∧
    ∃ tree', insert ⟨some (.mk 0 false [0, 0, 0]
        [some (.mk 1 true [7, 0, 0] [none, none, none, none]), none, none, none]), 2⟩ 5 =
          some tree' ∧ Invariants 2 tree' := by
  have hr : RootHasKey ⟨some (.mk 1 false [2, 0, 0]
        [some (.mk 1 true [1, 0, 0] [none, none, none, none]),
         some (.mk 2 true [3, 4, 0] [none, none, none, none]), none, none]), 2⟩ := by
    intro root hroot _
    simp only [Option.some.injEq] at hroot
    subst hroot
    exact le_refl _
  have hk : (5 : Int) ∉ keysOf ⟨some (.mk 1 false [2, 0, 0]
        [some (.mk 1 true [1, 0, 0] [none, none, none, none]),
         some (.mk 2 true [3, 4, 0] [none, none, none, none]), none, none]), 2⟩ := by
    simp [keysOf, sample_inorder]
  have hk7 : (5 : Int) ∉ keysOf ⟨some (.mk 0 false [0, 0, 0]
        [some (.mk 1 true [7, 0, 0] [none, none, none, none]), none, none, none]), 2⟩ := by
    decide
  obtain ⟨tree1, e1, hi1, hr1⟩ :=
    (C13_invariants_preserved 2 _ 5 (le_refl _) sample_invariants).1 hk
  obtain ⟨tree2, e2, hi2, -⟩ :=
    (C13_invariants_preserved 2 _ 5 (le_refl _) (keyless_root_invariants 7)).1 hk7
  exact ⟨⟨le_refl _, sample_invariants, hr, hk⟩, ⟨tree1, e1, hi1, hr1 hr⟩,
    (C13_invariants_preserved 2 _ 5 (le_refl _) sample_invariants).2 hr,
    ⟨keyless_root_invariants 7, hk7⟩, tree2, e2, hi2⟩

/-! ### The recorded calls agree with the functions they record -/

theorem map_fst_bind_congr {α β : Type} (a : Option (BTreeNode × α))
    (b : Option (BTreeNode × β)) (h : a.map Prod.fst = b.map Prod.fst)
    (F : BTreeNode → Option (List (Option BTreeNode)))
    (G : List (Option BTreeNode) → BTreeNode) :
    (a.bind fun r => (F r.1).bind fun cs => pure (G cs, r.2)).map Prod.fst =
      (b.bind fun r => (F r.1).bind fun cs => pure (G cs, r.2)).map Prod.fst := by
  cases a with
  | none =>
    cases b with
    | none => rfl
    | some r2 => cases h
  | some r1 =>
    cases b with
    | none => cases h
    | some r2 =>
      simp only [Option.map_some', Option.some.injEq] at h
      simp only [Option.some_bind, h]
      cases F r2.1 <;> rfl

theorem removeFromNonLeafCalls_fst
    (recC : BTreeNode → Int → Option (BTreeNode × List Call))
    (rec : BTreeNode → Int → Option (BTreeNode × List Msg))
    (h : ∀ c k, (recC c k).map Prod.fst = (rec c k).map Prod.fst)
    (fuel : Nat) (nd : BTreeNode) (idx t : Nat) :
    (removeFromNonLeafCalls recC fuel nd idx t).map Prod.fst =
      (removeFromNonLeaf rec fuel nd idx t).map Prod.fst := by
  unfold removeFromNonLeafCalls removeFromNonLeaf
  simp only [Option.bind_eq_bind]
  cases h1 : nd.keys[idx]? with
  | none => rfl
  | some key =>
    simp only [Option.some_bind]
    cases h2 : childAt nd idx with
    | none => rfl
    | some c =>
      simp only [Option.some_bind]
      split
      · cases h3 : getPredecessor fuel nd idx with
        | none => rfl
        | some pred =>
          simp only [Option.some_bind]
          cases h4 : store nd.keys idx pred with
          | none => rfl
          | some ks =>
            simp only [Option.some_bind]
            exact map_fst_bind_congr _ _ (h c pred) (fun r => store nd.children idx (some r))
              (fun cs => .mk nd.n nd.leaf ks cs)
      · cases h3 : childAt nd (idx + 1) with
        | none => rfl
        | some s =>
          simp only [Option.some_bind]
          split
          · cases h4 : getSuccessor fuel nd idx with
            | none => rfl
            | some succ =>
              simp only [Option.some_bind]
              cases h5 : store nd.keys idx succ with
              | none => rfl
              | some ks =>
                simp only [Option.some_bind]
                exact map_fst_bind_congr _ _ (h s succ)
                  (fun r => store nd.children (idx + 1) (some r))
                  (fun cs => .mk nd.n nd.leaf ks cs)
          · cases h4 : merge nd idx t with
            | none => rfl
            | some nd1 =>
              simp only [Option.some_bind]
              cases h5 : childAt nd1 idx with
              | none => rfl
              | some m =>
                simp only [Option.some_bind]
                exact map_fst_bind_congr _ _ (h m key)
                  (fun r => store nd1.children idx (some r))
                  (fun cs => nd1.setChildren cs)

theorem deleteFromNodeCalls_fst (t : Nat) :
    ∀ (f : Nat) (nd : BTreeNode) (key : Int),
      (deleteFromNodeCalls f nd key t).map Prod.fst =
        (deleteFromNode f nd key t).map Prod.fst := by
  intro f
  induction f with
  | zero => intro nd key; rfl
  | succ f ih =>
    intro nd key
    unfold deleteFromNodeCalls deleteFromNode
    simp only [Option.bind_eq_bind]
    cases h1 : findKey nd key with
    | none => rfl
    | some idx =>
      simp only [Option.some_bind]
      cases h2 : keyAt nd idx key with
      | none => rfl
      | some hit =>
        simp only [Option.some_bind]
        cases hit with
        | true =>
          simp only [if_true]
          cases hl : nd.leaf with
          | true =>
            simp only [if_true]
            cases removeFromLeaf nd idx <;> rfl
          | false =>
            simp only [Bool.false_eq_true, if_false]
            have := removeFromNonLeafCalls_fst (fun c k => deleteFromNodeCalls f c k t)
              (fun c k => deleteFromNode f c k t) (fun c k => ih c k) f nd idx t
            rw [← this]
            cases removeFromNonLeafCalls (fun c k => deleteFromNodeCalls f c k t) f nd idx t
              <;> rfl
        | false =>
          simp only [Bool.false_eq_true, if_false]
          cases hl : nd.leaf with
          | true => rfl
          | false =>
            simp only [Bool.false_eq_true, if_false]
            cases h3 : childAt nd idx with
            | none => rfl
            | some c =>
              simp only [Option.some_bind]
              cases h4 : (if c.n < t then fill nd idx t else some nd) with
              | none => rfl
              | some nd1 =>
                simp only [Option.some_bind]
                cases h5 : childAt nd1
                    (if (decide (idx = nd.n) && decide (idx > nd1.n)) = true
                      then idx - 1 else idx) with
                | none => rfl
                | some c1 =>
                  simp only [Option.some_bind]
                  have := ih c1 key
                  cases h6 : deleteFromNodeCalls f c1 key t with
                  | none =>
                    cases h7 : deleteFromNode f c1 key t with
                    | none => rfl
                    | some r2 => rw [h6, h7] at this; cases this
                  | some r1 =>
                    cases h7 : deleteFromNode f c1 key t with
                    | none => rw [h6, h7] at this; cases this
                    | some r2 =>
                      rw [h6, h7] at this
                      simp only [Option.map_some', Option.some.injEq] at this
                      simp only [Option.some_bind, this]
                      cases store nd1.children
                        (if (decide (idx = nd.n) && decide (idx > nd1.n)) = true
                          then idx - 1 else idx) (some r2.1) <;> rfl

/-! ### `splitChild` on the arrays -/

theorem splitChild_local {t : Nat} {x c : BTreeNode} {i : Nat} (hx : NodeOK t x)
    (hc : NodeOK t c) (hi : i ≤ x.n) (hroom : x.n + 2 ≤ 2 * t) :
    ∃ x1 l r m, splitChild x i c t = some x1 ∧ c.keys[t - 1]? = some m ∧
      l = .mk (t - 1) c.leaf c.keys c.children ∧
      r.n = t - 1 ∧ r.leaf = c.leaf ∧ r.keys.length = 2 * t - 1 ∧
      r.children.length = 2 * t ∧
      (∀ j, j < t - 1 → r.keys[j]? = c.keys[j + t]?) ∧
      (c.leaf = true → ∀ s ∈ r.children, s = none) ∧
      (c.leaf = false → ∀ j, j < t → r.children[j]? = c.children[j + t]?) ∧
      (∀ s ∈ r.children, s = none ∨ s ∈ c.children) ∧
      x1.n = x.n + 1 ∧ x1.leaf = x.leaf ∧ x1.keys.length = 2 * t - 1 ∧
      x1.children.length = 2 * t ∧
      (∀ j, x1.keys[j]? = if j = i then some m else
        if i < j ∧ j ≤ x.n then x.keys[j - 1]? else x.keys[j]?) ∧
      (∀ j, x1.children[j]? = if j = i then some (some l) else
        if j = i + 1 then some (some r) else
          if i + 1 < j ∧ j ≤ x.n + 1 then x.children[j - 1]? else x.children[j]?) := by
  have hpos := hx.pos
  obtain ⟨hk, hcl, hn⟩ := hx
  obtain ⟨ck, ccl, cn⟩ := hc
  obtain ⟨nk, enk, lnk, pnk⟩ := copyLoop_spec c.keys t 0 (t - 1) 0
    (List.replicate (2 * t - 1) 0) (by omega) (by simp; omega)
  have hnc : ∃ nc, (if c.leaf then some (List.replicate (2 * t) none)
      else copyLoop c.children t 0 t 0 (List.replicate (2 * t) none)) = some nc ∧
      nc.length = 2 * t ∧ (c.leaf = true → ∀ s ∈ nc, s = none) ∧
      (c.leaf = false → ∀ j, j < t → nc[j]? = c.children[j + t]?) ∧
      (∀ s ∈ nc, s = none ∨ s ∈ c.children) := by
    by_cases hlf : c.leaf = true
    · refine ⟨List.replicate (2 * t) none, by simp [hlf], by simp, ?_, by simp [hlf], ?_⟩
      · intro _ s hs
        exact List.eq_of_mem_replicate hs
      · intro s hs
        exact Or.inl (List.eq_of_mem_replicate hs)
    · obtain ⟨nc, enc, lnc, pnc⟩ := copyLoop_spec c.children t 0 t 0
        (List.replicate (2 * t) none) (by omega) (by simp; omega)
      refine ⟨nc, by simp [hlf, enc], by simpa using lnc, by simp [hlf], ?_, ?_⟩
      · intro _ j hj
        rw [pnc j, if_pos (by omega)]
        simp
      · intro s hs
        obtain ⟨j, hj⟩ := List.mem_iff_getElem?.mp hs
        rw [pnc j] at hj
        by_cases hcond : 0 + 0 ≤ j ∧ j < 0 + 0 + t
        · rw [if_pos hcond] at hj
          exact Or.inr (List.mem_iff_getElem?.mpr ⟨_, hj⟩)
        · rw [if_neg hcond] at hj
          exact Or.inl (List.eq_of_mem_replicate (List.mem_iff_getElem?.mpr ⟨_, hj⟩))
  obtain ⟨nc, enc, lnc, nc1, nc2, nc3⟩ := hnc
  have hnk2 : ∀ j, j < t - 1 → nk[j]? = c.keys[j + t]? := by
    intro j hj
    rw [pnk j, if_pos (by omega)]
    simp
  have hmlt : t - 1 < c.keys.length := by omega
  obtain ⟨m, hm⟩ : ∃ m, c.keys[t - 1]? = some m :=
    ⟨c.keys[t - 1], List.getElem?_eq_getElem hmlt⟩
  obtain ⟨pc, epc, lpc, ppc⟩ := shiftUp_spec (i + 1) (x.n - i) x.children (by omega)
  obtain ⟨pk, epk, lpk, ppk⟩ := shiftUp_spec i (x.n - i) x.keys (by omega)
  obtain ⟨l, hl⟩ : ∃ l, l = BTreeNode.mk (t - 1) c.leaf c.keys c.children := ⟨_, rfl⟩
  obtain ⟨r, hr⟩ : ∃ r, r = BTreeNode.mk (t - 1) c.leaf nk nc := ⟨_, rfl⟩
  obtain ⟨x1, hx1⟩ : ∃ x1, x1 = BTreeNode.mk (x.n + 1) x.leaf (pk.set i m)
      ((pc.set (i + 1) (some r)).set i (some l)) := ⟨_, rfl⟩
  have e : splitChild x i c t = some x1 := by
    have ht : t ≠ 0 := by omega
    rw [hx1, hl, hr]
    simp [splitChild, createNode, ht, enk, enc, epc, epk, hm,
      store_eq_some _ (show i + 1 < pc.length by omega),
      store_eq_some _ (show i < pk.length by omega),
      store_eq_some _ (show i < (pc.set (i + 1)
        (some (BTreeNode.mk (t - 1) c.leaf nk nc))).length by simp; omega)]
  have hx1k : x1.keys = pk.set i m := by rw [hx1]; rfl
  have hx1c : x1.children = (pc.set (i + 1) (some r)).set i (some l) := by rw [hx1]; rfl
  refine ⟨x1, l, r, m, e, hm, hl, by rw [hr]; rfl, by rw [hr]; rfl,
    by rw [hr]; simpa using lnk, by rw [hr]; exact lnc, by rw [hr]; exact hnk2,
    by rw [hr]; exact nc1, by rw [hr]; exact nc2, by rw [hr]; exact nc3,
    by rw [hx1]; rfl, by rw [hx1]; rfl,
    by rw [hx1k]; simpa using lpk.trans hk, by rw [hx1c]; simpa using lpc.trans hcl, ?_, ?_⟩
  · intro j
    rw [hx1k, List.getElem?_set, ppk j]
    by_cases hj : i = j
    · subst hj
      have : i < pk.length := by omega
      simp [this]
    · have hj' : ¬ j = i := fun hh => hj hh.symm
      simp only [hj, hj', if_false]
      by_cases h2 : i < j ∧ j ≤ x.n
      · rw [if_pos h2, if_pos (by omega)]
      · rw [if_neg h2, if_neg (by omega)]
  · intro j
    rw [hx1c]
    simp only [List.getElem?_set, List.length_set, ppc j]
    by_cases h1 : j = i
    · subst h1
      have e1 : j < pc.length := by omega
      simp [e1]
    · by_cases h2 : j = i + 1
      · subst h2
        have e1 : i + 1 < pc.length := by omega
        simp [e1]
      · have e1 : ¬ i = j := fun hh => h1 hh.symm
        have e2 : ¬ i + 1 = j := fun hh => h2 hh.symm
        simp only [e1, e2, h1, h2, if_false]
        by_cases h3 : i + 1 < j ∧ j ≤ x.n + 1
        · rw [if_pos h3, if_pos (by omega)]
        · rw [if_neg h3, if_neg (by omega)]

/-! ### The invocations of `insertNonFull` -/

theorem insertNonFullCalls_fst (t : Nat) (key : Int) :
    ∀ (f : Nat) (nd : BTreeNode),
      (insertNonFullCalls f nd key t).map Prod.fst = insertNonFull f nd key t := by
  intro f
  induction f with
  | zero => intro nd; rfl
  | succ f ih =>
    intro nd
    unfold insertNonFullCalls insertNonFull
    simp only [Option.bind_eq_bind]
    cases hl : nd.leaf with
    | true =>
      simp only [if_true]
      cases insertShift key nd.n nd.keys with
      | none => rfl
      | some r =>
        simp only [Option.some_bind]
        cases store r.2 r.1 key <;> rfl
    | false =>
      simp only [Bool.false_eq_true, if_false]
      cases h1 : scanDown nd.keys key nd.n with
      | none => rfl
      | some i =>
        simp only [Option.some_bind]
        cases h2 : childAt nd i with
        | none => rfl
        | some c =>
          simp only [Option.some_bind]
          split
          · cases h3 : splitChild nd i c t with
            | none => rfl
            | some nd1 =>
              simp only [Option.some_bind]
              cases h4 : nd1.keys[i]? with
              | none => rfl
              | some k =>
                simp only [Option.some_bind]
                cases h5 : childAt nd1 (if key > k then i + 1 else i) with
                | none => rfl
                | some c1 =>
                  simp only [Option.some_bind]
                  rw [← ih c1]
                  cases insertNonFullCalls f c1 key t with
                  | none => rfl
                  | some r =>
                    simp only [Option.some_bind, Option.map_some']
                    cases store nd1.children (if key > k then i + 1 else i) (some r.1) <;> rfl
          · rw [← ih c]
            cases insertNonFullCalls f c key t with
            | none => rfl
            | some r =>
              simp only [Option.some_bind, Option.map_some']
              cases store nd.children i (some r.1) <;> rfl

theorem insertCalls_fst (tree : BTree) (key : Int) :
    (insertCalls tree key).map Prod.fst = insert tree key := by
  unfold insertCalls insert
  simp only [Option.bind_eq_bind]
  cases tree.root with
  | none => rfl
  | some root =>
    simp only [Option.some_bind]
    split
    · cases createNode false tree.t with
      | none => rfl
      | some nr =>
        simp only [Option.some_bind]
        cases store nr.children 0 (some root) with
        | none => rfl
        | some cs =>
          simp only [Option.some_bind]
          cases splitChild (nr.setChildren cs) 0 root tree.t with
          | none => rfl
          | some nr1 =>
            simp only [Option.some_bind]
            rw [← insertNonFullCalls_fst]
            cases insertNonFullCalls (root.depth + 2) nr1 key tree.t <;> rfl
    · rw [← insertNonFullCalls_fst]
      cases insertNonFullCalls (root.depth + 2) root key tree.t <;> rfl

theorem mem_nodes_iff (x nd : BTreeNode) :
    x ∈ nodes nd ↔ x = nd ∨ (nd.leaf = false ∧
      ∃ i c, i ≤ nd.n ∧ nd.children[i]? = some (some c) ∧ x ∈ nodes c) := by
  rw [nodes_eq, List.mem_cons]
  constructor
  · rintro (h | h)
    · exact Or.inl h
    · right
      by_cases hl : nd.leaf = true
      · rw [hl] at h
        simp at h
      · have hl' : nd.leaf = false := by simpa using hl
        rw [hl'] at h
        simp only [Bool.false_eq_true, if_false] at h
        obtain ⟨o, ho, hx⟩ := List.mem_flatMap.mp h
        obtain ⟨i, hi⟩ := List.mem_iff_getElem?.mp ho
        rw [List.getElem?_take] at hi
        by_cases hlt : i < nd.n + 1
        · rw [if_pos hlt] at hi
          cases o with
          | none => simp [nodesSlot] at hx
          | some c => exact ⟨hl', i, c, by omega, hi, hx⟩
        · rw [if_neg hlt] at hi
          cases hi
  · rintro (h | ⟨hl, i, c, hi, hc, hx⟩)
    · exact Or.inl h
    · right
      rw [hl]
      simp only [Bool.false_eq_true, if_false]
      refine List.mem_flatMap.mpr ⟨some c, ?_, hx⟩
      apply List.mem_iff_getElem?.mpr
      exact ⟨i, by rw [List.getElem?_take, if_pos (by omega)]; exact hc⟩

theorem depthList_le_of_forall :
    ∀ (a b : List (Option BTreeNode)), (∀ s ∈ a, s = none ∨ s ∈ b) →
      depthList a ≤ depthList b := by
  intro a
  induction a with
  | nil => intro b _; simp [depthList]
  | cons s a ih =>
    intro b h
    simp only [depthList]
    apply max_le
    · rcases h s (List.mem_cons_self _ _) with rfl | hs
      · simp [depthOpt]
      · exact depthOpt_le_depthList b s hs
    · exact ih b (fun s' hs' => h s' (List.mem_cons_of_mem _ hs'))

theorem Shaped.of_children {t : Nat} {c k : BTreeNode} (hs : Shaped t c)
    (hcl : c.leaf = false) (hok : NodeOK t k) (hkl : k.leaf = c.leaf)
    (hslots : ∀ i, i ≤ k.n → ∃ j, j ≤ c.n ∧ k.children[i]? = c.children[j]?) :
    Shaped t k := by
  have hsc := hs c (self_mem_nodes c)
  intro x hx
  rcases (mem_nodes_iff x k).mp hx with rfl | ⟨-, i, g, hi, hg, hxg⟩
  · refine ⟨hok, fun _ i hi => ?_⟩
    obtain ⟨j, hj, hij⟩ := hslots i hi
    obtain ⟨g, hg⟩ := hsc.2 hcl j hj
    exact ⟨g, by rw [hij, hg]⟩
  · obtain ⟨j, hj, hij⟩ := hslots i hi
    rw [hij] at hg
    exact hs x (nodes_child_subset hcl hj hg x hxg)

theorem Shaped.of_leaf {t : Nat} {k : BTreeNode} (hok : NodeOK t k) (hkl : k.leaf = true) :
    Shaped t k := by
  intro x hx
  rcases (mem_nodes_iff x k).mp hx with rfl | ⟨hl, -⟩
  · exact ⟨hok, fun hl => by rw [hkl] at hl; cases hl⟩
  · rw [hkl] at hl
    cases hl

theorem getLast?_cons_of_some {α : Type} (a : α) (l : List α) (x : α)
    (h : l.getLast? = some x) : (a :: l).getLast? = some x := by
  cases l with
  | nil => cases h
  | cons b l => rw [List.getLast?_cons_cons]; exact h

theorem insertNonFullCalls_leaf {t : Nat} (key : Int) (f : Nat) (nd : BTreeNode)
    (hl : nd.leaf = true) (hok : NodeOK t nd) (hroom : nd.n + 2 ≤ 2 * t) :
    ∃ r calls, insertNonFullCalls (f + 1) nd key t = some (r, calls) ∧
      (∀ e ∈ calls, e.2 + 2 ≤ 2 * t) ∧ ∃ n, calls.getLast? = some (true, n) := by
  obtain ⟨hk, -, -⟩ := hok
  obtain ⟨i, ks', e, hi, hlen, -⟩ := insertShift_spec key nd.n nd.keys (by omega)
  refine ⟨.mk (nd.n + 1) nd.leaf (ks'.set i key) nd.children, [(true, nd.n)], ?_, ?_,
    ⟨nd.n, rfl⟩⟩
  · simp [insertNonFullCalls, hl, e, store_eq_some key (show i < ks'.length by omega)]
  · intro e' he'
    simp only [List.mem_singleton] at he'
    subst he'
    exact hroom

theorem child_depth_le {c g : BTreeNode} {d : Nat} (hcd : c.depth ≤ d + 1)
    (hg : some g ∈ c.children) : g.depth ≤ d := by
  obtain ⟨j, hj⟩ := List.mem_iff_getElem?.mp hg
  have := depth_child_lt c g j hj
  omega

theorem insertNonFullCalls_spec {t : Nat} (key : Int) :
    ∀ (d : Nat) (nd : BTreeNode) (f : Nat), d < f →
      (nd.leaf = false → ∀ i c, i ≤ nd.n → nd.children[i]? = some (some c) → c.depth ≤ d) →
      Shaped t nd → nd.n + 2 ≤ 2 * t →
      ∃ r calls, insertNonFullCalls f nd key t = some (r, calls) ∧
        (∀ e ∈ calls, e.2 + 2 ≤ 2 * t) ∧ ∃ n, calls.getLast? = some (true, n) := by
  intro d
  induction d with
  | zero =>
    intro nd f hf hd hs hroom
    obtain ⟨f, rfl⟩ : ∃ f', f = f' + 1 := ⟨f - 1, by omega⟩
    have hsx := hs nd (self_mem_nodes nd)
    by_cases hl : nd.leaf = true
    · exact insertNonFullCalls_leaf key f nd hl hsx.1 hroom
    · have hl' : nd.leaf = false := by simpa using hl
      obtain ⟨c, hc⟩ := hsx.2 hl' 0 (Nat.zero_le _)
      have := hd hl' 0 c (Nat.zero_le _) hc
      rw [depth_eq] at this
      omega
  | succ d ih =>
    intro nd f hf hd hs hroom
    obtain ⟨f, rfl⟩ : ∃ f', f = f' + 1 := ⟨f - 1, by omega⟩
    have hsx := hs nd (self_mem_nodes nd)
    by_cases hl : nd.leaf = true
    · exact insertNonFullCalls_leaf key f nd hl hsx.1 hroom
    · have hl' : nd.leaf = false := by simpa using hl
      obtain ⟨hk, hcl, hn⟩ := hsx.1
      obtain ⟨i, e1, hi, -, -⟩ := scanDown_spec nd.keys key nd.n (by omega)
      obtain ⟨c, hc⟩ := hsx.2 hl' i hi
      have hca := childAt_eq hc
      have hsc := hs.kid hl' hi hc
      have hscx := hsc c (self_mem_nodes c)
      have hcd := hd hl' i c hi hc
      by_cases hfull : c.n + 1 = 2 * t
      · obtain ⟨x1, l, r, m, e2, hm, hl1, rn, rleaf, rkl, rcl, -, -, rkids, rmem, x1n, -,
          -, x1cl, pkeys, pkids⟩ := splitChild_local hsx.1 hscx.1 hi hroom
        have hkm : x1.keys[i]? = some m := by rw [pkeys i, if_pos rfl]
        have hln : l.n = t - 1 := by rw [hl1]; rfl
        have hll : l.leaf = c.leaf := by rw [hl1]; rfl
        have hlc : l.children = c.children := by rw [hl1]; rfl
        have hlk : l.keys = c.keys := by rw [hl1]; rfl
        have hokl : NodeOK t l := ⟨by rw [hlk]; exact hscx.1.1, by rw [hlc]; exact hscx.1.2.1,
          by omega⟩
        have hokr : NodeOK t r := ⟨rkl, rcl, by omega⟩
        have hsl : Shaped t l := by
          by_cases hcleaf : c.leaf = true
          · exact Shaped.of_leaf hokl (by rw [hll]; exact hcleaf)
          · have hcl' : c.leaf = false := by simpa using hcleaf
            exact hsc.of_children hcl' hokl hll
              (fun j hj => ⟨j, by omega, by rw [hlc]⟩)
        have hsr : Shaped t r := by
          by_cases hcleaf : c.leaf = true
          · exact Shaped.of_leaf hokr (by rw [rleaf]; exact hcleaf)
          · have hcl' : c.leaf = false := by simpa using hcleaf
            exact hsc.of_children hcl' hokr rleaf
              (fun j hj => ⟨j + t, by omega, rkids hcl' j (by omega)⟩)
        have hdl : l.leaf = false → ∀ j g, j ≤ l.n → l.children[j]? = some (some g) →
            g.depth ≤ d := by
          intro _ j g _ hg
          rw [hlc] at hg
          exact child_depth_le hcd (List.mem_iff_getElem?.mpr ⟨j, hg⟩)
        have hdr : r.leaf = false → ∀ j g, j ≤ r.n → r.children[j]? = some (some g) →
            g.depth ≤ d := by
          intro _ j g _ hg
          rcases rmem (some g) (List.mem_iff_getElem?.mpr ⟨j, hg⟩) with h0 | h0
          · cases h0
          · exact child_depth_le hcd h0
        by_cases hgt : key > m
        · have hcr : childAt x1 (i + 1) = some r := by
            apply childAt_eq
            rw [pkids (i + 1), if_neg (by omega), if_pos rfl]
          obtain ⟨r', calls, e3, hall, hlast⟩ := ih r f (by omega) hdr hsr (by omega)
          obtain ⟨n', hn'⟩ := hlast
          refine ⟨x1.setChildren (x1.children.set (i + 1) (some r')), (nd.leaf, nd.n) :: calls,
            ?_, ?_, ⟨n', getLast?_cons_of_some _ _ _ hn'⟩⟩
          · simp [insertNonFullCalls, hl', e1, hca, hfull, e2, hkm, hgt, hcr, e3,
              store_eq_some (some r') (show i + 1 < x1.children.length by omega)]
          · intro e' he'
            rcases List.mem_cons.mp he' with rfl | he'
            · exact hroom
            · exact hall e' he'
        · have hcr : childAt x1 i = some l := by
            apply childAt_eq
            rw [pkids i, if_pos rfl]
          obtain ⟨r', calls, e3, hall, hlast⟩ := ih l f (by omega) hdl hsl (by omega)
          obtain ⟨n', hn'⟩ := hlast
          refine ⟨x1.setChildren (x1.children.set i (some r')), (nd.leaf, nd.n) :: calls,
            ?_, ?_, ⟨n', getLast?_cons_of_some _ _ _ hn'⟩⟩
          · simp [insertNonFullCalls, hl', e1, hca, hfull, e2, hkm, hgt, hcr, e3,
              store_eq_some (some r') (show i < x1.children.length by omega)]
          · intro e' he'
            rcases List.mem_cons.mp he' with rfl | he'
            · exact hroom
            · exact hall e' he'
      · have hdc : c.leaf = false → ∀ j g, j ≤ c.n → c.children[j]? = some (some g) →
            g.depth ≤ d := by
          intro _ j g _ hg
          exact child_depth_le hcd (List.mem_iff_getElem?.mpr ⟨j, hg⟩)
        have hcn := hscx.1.2.2
        obtain ⟨r', calls, e3, hall, hlast⟩ := ih c f (by omega) hdc hsc (by omega)
        obtain ⟨n', hn'⟩ := hlast
        refine ⟨nd.setChildren (nd.children.set i (some r')), (nd.leaf, nd.n) :: calls,
          ?_, ?_, ⟨n', getLast?_cons_of_some _ _ _ hn'⟩⟩
        · simp [insertNonFullCalls, hl', e1, hca, hfull, e3,
            store_eq_some (some r') (show i < nd.children.length by omega)]
        · intro e' he'
          rcases List.mem_cons.mp he' with rfl | he'
          · exact hroom
          · exact hall e' he'

theorem splitChild_halves {t : Nat} {x c : BTreeNode} {i : Nat} (hx : NodeOK t x)
    (hsc : Shaped t c) (hi : i ≤ x.n) (hroom : x.n + 2 ≤ 2 * t) (hfull : c.n + 1 = 2 * t) :
    ∃ x1 l r, splitChild x i c t = some x1 ∧
      x1.children[i]? = some (some l) ∧ x1.children[i + 1]? = some (some r) ∧
      x1.n = x.n + 1 ∧ x1.leaf = x.leaf ∧ NodeOK t x1 ∧ l.n + 1 = t ∧ r.n + 1 = t ∧
      Shaped t l ∧ Shaped t r ∧ l.depth ≤ c.depth ∧ r.depth ≤ c.depth := by
  have hscx := hsc c (self_mem_nodes c)
  obtain ⟨x1, l, r, m, e2, hm, hl1, rn, rleaf, rkl, rcl, -, -, rkids, rmem, x1n, x1l,
    x1kl, x1cl, pkeys, pkids⟩ := splitChild_local hx hscx.1 hi hroom
  have hpos := hx.pos
  have hln : l.n = t - 1 := by rw [hl1]; rfl
  have hll : l.leaf = c.leaf := by rw [hl1]; rfl
  have hlc : l.children = c.children := by rw [hl1]; rfl
  have hlk : l.keys = c.keys := by rw [hl1]; rfl
  have hokl : NodeOK t l := ⟨by rw [hlk]; exact hscx.1.1, by rw [hlc]; exact hscx.1.2.1,
    by omega⟩
  have hokr : NodeOK t r := ⟨rkl, rcl, by omega⟩
  have hsl : Shaped t l := by
    by_cases hcleaf : c.leaf = true
    · exact Shaped.of_leaf hokl (by rw [hll]; exact hcleaf)
    · have hcl' : c.leaf = false := by simpa using hcleaf
      exact hsc.of_children hcl' hokl hll (fun j hj => ⟨j, by omega, by rw [hlc]⟩)
  have hsr : Shaped t r := by
    by_cases hcleaf : c.leaf = true
    · exact Shaped.of_leaf hokr (by rw [rleaf]; exact hcleaf)
    · have hcl' : c.leaf = false := by simpa using hcleaf
      exact hsc.of_children hcl' hokr rleaf
        (fun j hj => ⟨j + t, by omega, rkids hcl' j (by omega)⟩)
  refine ⟨x1, l, r, e2, by rw [pkids i, if_pos rfl],
    by rw [pkids (i + 1), if_neg (by omega), if_pos rfl], x1n, x1l,
    ⟨x1kl, x1cl, by omega⟩, by omega, by omega, hsl, hsr, ?_, ?_⟩
  · rw [depth_eq l, depth_eq c, hlc]
  · rw [depth_eq r, depth_eq c]
    have := depthList_le_of_forall r.children c.children rmem
    omega

theorem insertCalls_spec {t : Nat} (ht : 2 ≤ t) {root : BTreeNode} (hs : Shaped t root)
    (key : Int) :
    ∃ tree' calls, insertCalls ⟨some root, t⟩ key = some (tree', calls) ∧
      (∀ e ∈ calls, e.2 + 2 ≤ 2 * t) ∧ ∃ n, calls.getLast? = some (true, n) := by
  have hsx := hs root (self_mem_nodes root)
  by_cases hfull : root.n + 1 = 2 * t
  · obtain ⟨nr, hnr⟩ : ∃ nr, nr = BTreeNode.mk 0 false (List.replicate (2 * t - 1) 0)
        ((List.replicate (2 * t) none).set 0 (some root)) := ⟨_, rfl⟩
    have hnrn : nr.n = 0 := by rw [hnr]; rfl
    have hnrl : nr.leaf = false := by rw [hnr]; rfl
    have hoknr : NodeOK t nr := ⟨by rw [hnr]; simp, by rw [hnr]; simp, by omega⟩
    obtain ⟨x1, l, r, e2, hcl, hcr, x1n, x1l, hok1, hln, hrn, hsl, hsr, hdl, hdr⟩ :=
      splitChild_halves hoknr hs (show 0 ≤ nr.n from Nat.zero_le _) (by omega) hfull
    rw [hnrn] at x1n
    rw [hnrl] at x1l
    have hslot : ∀ i c, i ≤ x1.n → x1.children[i]? = some (some c) → c = l ∨ c = r := by
      intro i c hi hc
      have : i = 0 ∨ i = 1 := by omega
      rcases this with rfl | rfl
      · rw [hcl] at hc
        exact Or.inl (Option.some.inj (Option.some.inj hc)).symm
      · rw [hcr] at hc
        exact Or.inr (Option.some.inj (Option.some.inj hc)).symm
    have hs1 : Shaped t x1 := by
      intro y hy
      rcases (mem_nodes_iff y x1).mp hy with rfl | ⟨-, i, g, hi, hg, hyg⟩
      · refine ⟨hok1, fun _ i hi => ?_⟩
        have : i = 0 ∨ i = 1 := by omega
        rcases this with rfl | rfl
        · exact ⟨l, hcl⟩
        · exact ⟨r, hcr⟩
      · rcases hslot i g hi hg with rfl | rfl
        · exact hsl y hyg
        · exact hsr y hyg
    obtain ⟨r', calls, e3, hall, hlast⟩ := insertNonFullCalls_spec key root.depth x1
      (root.depth + 2) (by omega) (by
        intro _ i c hi hc
        rcases hslot i c hi hc with rfl | rfl
        · exact hdl
        · exact hdr) hs1 (by omega)
    refine ⟨⟨some r', t⟩, calls, ?_, hall, hlast⟩
    have ht0 : t ≠ 0 := by omega
    rw [hnr] at e2
    simp [insertCalls, hfull, createNode, ht0,
      store_eq_some _ (show 0 < (List.replicate (2 * t) (none : Option BTreeNode)).length by
        simp; omega), BTreeNode.setChildren, e2, e3]
  · obtain ⟨r', calls, e3, hall, hlast⟩ := insertNonFullCalls_spec key root.depth root
      (root.depth + 2) (by omega) (by
        intro _ i c _ hc
        have := depth_child_lt root c i hc
        omega) hs (by have := hsx.1.2.2; omega)
    exact ⟨⟨some r', t⟩, calls, by simp [insertCalls, hfull, e3], hall, hlast⟩

/-! ### The demo of `main` and the invocations of `insertNonFull` -/

/-- C14, counterexample: in the tree with `t = 3` that holds the keys `main` inserts,
after `deleteKey(1)` the node `search` returns for key `7` is a leaf, with the keys
`7 8`; the root, the only inner node, holds `6 10 20`. -/
theorem C14_seven_is_in_a_leaf :
    ((fromEmpty 3 (insert_keys.map Op.ins ++ [Op.del 1])).bind
        (fun tr => search tr.root 7)).map (Option.map (fun x => (x.leaf, liveKeys x))) =
      some (some (true, [7, 8])) ∧
    (fromEmpty 3 (insert_keys.map Op.ins ++ [Op.del 1])).bind
        (fun tr => tr.root.map (fun r => (r.leaf, liveKeys r, (kids r).map (fun c => c.leaf)))) =
      some (false, [6, 10, 20], [true, true, true, true]) := by
  constructor
  · decide!
  · decide!

/-- C14, amended: in the tree with `t = 3` obtained by inserting
`10,20,5,6,12,30,7,17,3,1,8,25,15,18,22` into an empty tree and deleting `1`, and likewise
after deleting `8` and `22` as well, the only inner node is the root and key `7` is
stored in a leaf (`7 8`, then `7 10`). So `deleteKey(7)` does not call
`removeFromNonLeaf`: it calls `fill(root, 1)` and then `removeFromLeaf` on the leaf. The
same holds for the next deletions of the demo, of `17` and of `10`: `fill` on the root,
then `removeFromLeaf`. -/
theorem C14_demo_deletes_from_leaves :
    ((fromEmpty 3 (insert_keys.map Op.ins ++ [Op.del 1])).bind
        (fun tr => search tr.root 7)).map (Option.map (fun x => (x.leaf, liveKeys x))) =
      some (some (true, [7, 8])) ∧
    (fromEmpty 3 (insert_keys.map Op.ins ++ [Op.del 1])).bind
        (fun tr => deleteKeyCalls tr 7) = some [Call.fill 1, Call.removeFromLeaf 0] ∧
    (fromEmpty 3 (insert_keys.map Op.ins ++ delete_leaf.map Op.del)).bind
        (fun tr => tr.root.map (fun r => (r.leaf, liveKeys r, (kids r).map (fun c => c.leaf)))) =
      some (false, [6, 12, 20], [true, true, true, true]) ∧
    ((fromEmpty 3 (insert_keys.map Op.ins ++ delete_leaf.map Op.del)).bind
        (fun tr => search tr.root 7)).map (Option.map (fun x => (x.leaf, liveKeys x))) =
      some (some (true, [7, 10])) ∧
    (fromEmpty 3 (insert_keys.map Op.ins ++ delete_leaf.map Op.del)).bind
        (fun tr => deleteKeyCalls tr 7) = some [Call.fill 1, Call.removeFromLeaf 0] ∧
    (fromEmpty 3 (insert_keys.map Op.ins ++ delete_leaf.map Op.del ++ [Op.del 7])).bind
        (fun tr => deleteKeyCalls tr 17) = some [Call.fill 2, Call.removeFromLeaf 0] ∧
    (fromEmpty 3 (insert_keys.map Op.ins ++ delete_leaf.map Op.del ++
        [Op.del 7, Op.del 17])).bind
        (fun tr => deleteKeyCalls tr 10) = some [Call.fill 1, Call.removeFromLeaf 0] := by
  refine ⟨?_, ?_, ?_, ?_, ?_, ?_, ?_⟩
  · decide!
  · decide!
  · decide!
  · decide!
  · decide!
  · decide!
  · decide!

/-- C15: for every tree with `t ≥ 2` laid out as the code expects in which every node has
at most `2t - 1` keys, and every key, `insert(tree, key)` returns, and each invocation of
`insertNonFull` made during it, the first one and every recursive one, receives a node
with fewer than `2t - 1` keys; the last of them receives a leaf, which takes the key and
is not full when reached. -/
theorem C15_insertNonFull_never_full (t : Nat) (tree : BTree) (root : BTreeNode)
    (key : Int) (ht : 2 ≤ t) (htt : tree.t = t) (hroot : tree.root = some root)
    (hs : Shaped t root) :
    ∃ tree' calls, insertCalls tree key = some (tree', calls) ∧
      insert tree key = some tree' ∧
      (∀ e ∈ calls, e.2 < 2 * t - 1) ∧
      ∃ n, calls.getLast? = some (true, n) ∧ n < 2 * t - 1 := by
  obtain ⟨tree', calls, e, hall, n, hn⟩ := insertCalls_spec ht hs key
  rw [← tree_eta htt hroot] at e
  refine ⟨tree', calls, e, ?_, fun e' he' => ?_, n, hn, ?_⟩
  · rw [← insertCalls_fst, e]
    rfl
  · have := hall e' he'
    omega
  · have := hall (true, n) (List.mem_of_mem_getLast? hn)
    simp only at this
    omega

/-- C15, witness: the claim for `t = 2`, key `4` and the tree whose root is the full leaf
`1 2 3`. -/
theorem C15_insertNonFull_never_full_witness :
    (2 ≤ 2 ∧ (BTree.mk (some (.mk 3 true [1, 2, 3] [none, none, none, none])) 2).t = 2 ∧
      (BTree.mk (some (.mk 3 true [1, 2, 3] [none, none, none, none])) 2).root =
        some (.mk 3 true [1, 2, 3] [none, none, none, none]) ∧
      Shaped 2 (.mk 3 true [1, 2, 3] [none, none, none, none])) ∧
    ∃ tree' calls,
      insertCalls ⟨some (.mk 3 true [1, 2, 3] [none, none, none, none]), 2⟩ 4 =
        some (tree', calls) ∧
      insert ⟨some (.mk 3 true [1, 2, 3] [none, none, none, none]), 2⟩ 4 = some tree' ∧
      (∀ e ∈ calls, e.2 < 2 * 2 - 1) ∧
      ∃ n, calls.getLast? = some (true, n) ∧ n < 2 * 2 - 1 :=
  ⟨⟨le_refl _, rfl, rfl, Shaped.of_leaf ⟨rfl, rfl, by decide⟩ rfl⟩,
    C15_insertNonFull_never_full 2 _ _ 4 (le_refl _) rfl rfl
      (Shaped.of_leaf ⟨rfl, rfl, by decide⟩ rfl)⟩

/-! ### `splitChild` -/

theorem take_insert_two {α : Type} (a a' : List α) (i n : Nat) (u v : α) (hi : i ≤ n)
    (hn : n + 1 < a.length)
    (h : ∀ j, a'[j]? = if j = i then some u else if j = i + 1 then some v else
      if i + 1 < j ∧ j ≤ n + 1 then a[j - 1]? else a[j]?) :
    a'.take (n + 2) = (a.take (n + 1)).take i ++ u :: v :: (a.take (n + 1)).drop (i + 1) := by
  have h2 : ∀ j, a'[j]? = if j = i + 1 then some v else
      if i + 1 < j ∧ j ≤ n + 1 then (a.set i u)[j - 1]? else (a.set i u)[j]? := by
    intro j
    rw [h j]
    by_cases h1 : j = i
    · subst h1
      rw [if_pos rfl, if_neg (by omega), if_neg (by omega), List.getElem?_set]
      simp only [if_true]
      rw [if_pos (by omega)]
    · rw [if_neg h1]
      by_cases h3 : j = i + 1
      · rw [if_pos h3, if_pos h3]
      · rw [if_neg h3, if_neg h3]
        by_cases h4 : i + 1 < j ∧ j ≤ n + 1
        · rw [if_pos h4, if_pos h4, List.getElem?_set, if_neg (by omega)]
        · rw [if_neg h4, if_neg h4, List.getElem?_set, if_neg (fun hh => h1 hh.symm)]
  have := take_insert_pointwise (a.set i u) a' (i + 1) (n + 1) v (by omega)
    (by simpa using hn) h2
  rw [this, take_set_split a i (n + 1) u (by omega) (by omega)]
  have hA : ((a.take (n + 1)).take i).length = i := by
    rw [List.length_take_of_le]
    rw [List.length_take_of_le] <;> omega
  have e1 := take_mid_succ ((a.take (n + 1)).take i) ((a.take (n + 1)).drop (i + 1)) u
  have e2 := drop_mid_succ ((a.take (n + 1)).take i) ((a.take (n + 1)).drop (i + 1)) u
  rw [hA] at e1 e2
  rw [e1, e2]
  simp

/-- C16: for a parent with fewer than `2t - 1` keys and a child with exactly `2t - 1`
keys, both with arrays of the allocated sizes, `splitChild(parent, i, child, t)` with
`i ≤ parent.n` returns and leaves `child`, in slot `i`, with `n = t - 1`, its first
`t - 1` keys and its first `t` children; creates a node with the same `leaf` flag and
`n = t - 1` that holds the former keys `[t .. 2t-2]` (and, if inner, the former
children `[t .. 2t-1]`, else no child); puts the former `child.keys[t-1]` at position
`i` of the parent's keys and the new node into child slot `i + 1`; increases `parent.n`
by one; and keeps all other keys and children of the parent in their order. -/
theorem C16_splitChild (t : Nat) (parent child : BTreeNode) (i : Nat)
    (hp : NodeOK t parent) (hc : NodeOK t child) (hi : i ≤ parent.n)
    (hroom : parent.n < 2 * t - 1) (hfull : child.n = 2 * t - 1) :
    ∃ p l r m, splitChild parent i child t = some p ∧ child.keys[t - 1]? = some m ∧
      p.children[i]? = some (some l) ∧ p.children[i + 1]? = some (some r) ∧
      l.n = t - 1 ∧ l.leaf = child.leaf ∧ liveKeys l = (liveKeys child).take (t - 1) ∧
      l.children.take t = child.children.take t ∧
      r.n = t - 1 ∧ r.leaf = child.leaf ∧ liveKeys r = (liveKeys child).drop t ∧
      (child.leaf = false → r.children.take t = (child.children.take (2 * t)).drop t) ∧
      (child.leaf = true → ∀ s ∈ r.children, s = none) ∧
      p.n = parent.n + 1 ∧ p.leaf = parent.leaf ∧
      liveKeys p = (liveKeys parent).take i ++ m :: (liveKeys parent).drop i ∧
      p.children.take (p.n + 1) = (parent.children.take (parent.n + 1)).take i ++
        some l :: some r :: (parent.children.take (parent.n + 1)).drop (i + 1) := by
  obtain ⟨p, l, r, m, e, hm, hl, rn, rleaf, rkl, rcl, rkeys, rnone, rkids, -, pn, pleaf,
    -, -, pkeys, pkids⟩ := splitChild_local hp hc hi (by omega)
  obtain ⟨hk, hcl, hn⟩ := hp
  obtain ⟨ck, ccl, cn⟩ := hc
  have hlive : liveKeys child = child.keys := by
    unfold liveKeys
    exact List.take_of_length_le (by omega)
  refine ⟨p, l, r, m, e, hm, by rw [pkids i, if_pos rfl],
    by rw [pkids (i + 1), if_neg (by omega), if_pos rfl], by rw [hl]; rfl, by rw [hl]; rfl,
    ?_, by rw [hl]; rfl, rn, rleaf, ?_, ?_, rnone, pn, pleaf, ?_, ?_⟩
  · rw [hlive, hl]
    rfl
  · unfold liveKeys
    rw [rn, take_copy_pointwise child.keys r.keys t (t - 1) rkeys, hfull,
      List.take_of_length_le (show child.keys.length ≤ 2 * t - 1 by omega)]
    exact List.take_of_length_le (by rw [List.length_drop]; omega)
  · intro hcl'
    rw [take_copy_pointwise child.children r.children t t (rkids hcl'),
      List.take_of_length_le (show child.children.length ≤ 2 * t by omega)]
    exact List.take_of_length_le (by rw [List.length_drop]; omega)
  · unfold liveKeys
    rw [pn]
    exact take_insert_pointwise parent.keys p.keys i parent.n m hi (by omega) pkeys
  · rw [pn]
    exact take_insert_two parent.children p.children i parent.n (some l) (some r) hi
      (by omega) pkids

/-- C16, witness: the claim for `t = 2`, the parent with the key `5` and the full leaf
`1 2 3` in slot `0`: the parent gets the keys `2 5`, the halves are `1` and `3`. -/
theorem C16_splitChild_witness :
    (NodeOK 2 (.mk 1 false [5, 0, 0]
        [some (.mk 3 true [1, 2, 3] [none, none, none, none]),
         some (.mk 1 true [7, 0, 0] [none, none, none, none]), none, none]) ∧
      NodeOK 2 (.mk 3 true [1, 2, 3] [none, none, none, none])) ∧
    ∃ p l r, splitChild (.mk 1 false [5, 0, 0]
        [some (.mk 3 true [1, 2, 3] [none, none, none, none]),
         some (.mk 1 true [7, 0, 0] [none, none, none, none]), none, none]) 0
        (.mk 3 true [1, 2, 3] [none, none, none, none]) 2 = some p ∧
      p.children[0]? = some (some l) ∧ p.children[1]? = some (some r) ∧
      p.n = 2 ∧ liveKeys p = [2, 5] ∧ liveKeys l = [1] ∧ liveKeys r = [3] ∧
      p.children.take 3 = [some l, some r,
        some (.mk 1 true [7, 0, 0] [none, none, none, none])] := by
  obtain ⟨p, l, r, m, e, hm, h0, h1, -, -, hl, -, -, -, hr, -, -, hpn, -, hp, hpc⟩ :=
    C16_splitChild 2 (.mk 1 false [5, 0, 0]
        [some (.mk 3 true [1, 2, 3] [none, none, none, none]),
         some (.mk 1 true [7, 0, 0] [none, none, none, none]), none, none])
      (.mk 3 true [1, 2, 3] [none, none, none, none]) 0
      ⟨rfl, rfl, by decide⟩ ⟨rfl, rfl, by decide⟩ (by decide) (by decide) rfl
  simp only [keys_mk, Nat.add_one_sub_one, List.getElem?_cons_succ, List.getElem?_cons_zero,
    Option.some.injEq] at hm
  subst hm
  simp only [n_mk] at hpn
  rw [hpn] at hpc
  exact ⟨⟨⟨rfl, rfl, by decide⟩, ⟨rfl, rfl, by decide⟩⟩, p, l, r, e, h0, h1, hpn,
    by simpa [liveKeys] using hp, by simpa [liveKeys] using hl,
    by simpa [liveKeys] using hr, by simpa using hpc⟩

/-! ### `fill` and `removeFromNonLeaf` -/

theorem fill_prev {t : Nat} {x p : BTreeNode} {idx : Nat} (h0 : idx ≠ 0)
    (hp : childAt x (idx - 1) = some p) (hpn : t ≤ p.n) :
    fill x idx t = borrowFromPrev x idx := by
  simp [fill, h0, hp, hpn]

theorem fill_next {t : Nat} {x s : BTreeNode} {idx : Nat}
    (hprev : idx = 0 ∨ ∃ p, childAt x (idx - 1) = some p ∧ p.n < t) (hn : idx ≠ x.n)
    (hs : childAt x (idx + 1) = some s) (hsn : t ≤ s.n) :
    fill x idx t = borrowFromNext x idx := by
  by_cases h0 : idx = 0
  · subst h0
    simp only [zero_add] at hs
    simp [fill, hn, hs, hsn]
  · rcases hprev with h0' | ⟨p, hp, hpn⟩
    · exact absurd h0' h0
    · simp [fill, h0, hp, hpn, hn, hs, hsn]

theorem fill_merge {t : Nat} {x : BTreeNode} {idx : Nat}
    (hprev : idx = 0 ∨ ∃ p, childAt x (idx - 1) = some p ∧ p.n < t)
    (hnext : idx ≠ x.n → ∃ s, childAt x (idx + 1) = some s ∧ s.n < t) :
    (idx ≠ x.n → fill x idx t = merge x idx t) ∧
    (idx = x.n → idx ≠ 0 → fill x idx t = merge x (idx - 1) t) ∧
    (idx = x.n → idx = 0 → fill x idx t = none) := by
  refine ⟨fun hn => ?_, fun hn h0 => ?_, fun hn h0 => ?_⟩
  · obtain ⟨s, hs, hsn⟩ := hnext hn
    by_cases h0 : idx = 0
    · subst h0
      simp only [zero_add] at hs
      simp [fill, hn, hs, hsn]
    · rcases hprev with h0' | ⟨p, hp, hpn⟩
      · exact absurd h0' h0
      · simp [fill, h0, hp, Nat.not_le.mpr hpn, hn, hs, Nat.not_le.mpr hsn]
  · rcases hprev with h0' | ⟨p, hp, hpn⟩
    · exact absurd h0' h0
    · subst hn
      simp [fill, h0, hp, Nat.not_le.mpr hpn]
  · subst h0
    simp [fill, ← hn]

theorem borrowFromPrev_frame {x r : BTreeNode} {idx : Nat} (h : borrowFromPrev x idx = some r) :
    r.n = x.n ∧ r.leaf = x.leaf ∧
      ∀ j, j ≠ idx → j ≠ idx - 1 → r.children[j]? = x.children[j]? := by
  unfold borrowFromPrev at h
  by_cases h0 : idx = 0
  · simp [h0] at h
  · simp only [h0, if_false, Option.bind_eq_bind, Option.bind_eq_some, Option.pure_def,
      Option.some.injEq] at h
    obtain ⟨child, -, sibling, -, ck, -, cc, -, pk, -, ck1, -, cc1, -, sk, -, nk, -, cs, hcs,
      cs1, hcs1, rfl⟩ := h
    obtain ⟨-, rfl⟩ := store_some_iff.mp hcs
    obtain ⟨-, rfl⟩ := store_some_iff.mp hcs1
    refine ⟨rfl, rfl, fun j hj hj1 => ?_⟩
    simp only [children_mk, List.getElem?_set]
    rw [if_neg (fun hh => hj1 hh.symm), if_neg (fun hh => hj hh.symm)]

theorem removeFromNonLeaf_spec {t h : Nat} {x : BTreeNode} {idx : Nat} (ht : 2 ≤ t)
    (hb : Bal t (h + 1) x) (hs : (inorder x).Sorted (· < ·)) (hidx : idx < x.n) :
    ∃ c s key, childAt x idx = some c ∧ childAt x (idx + 1) = some s ∧
      x.keys[idx]? = some key ∧ ∀ f, h + 1 ≤ f →
      (t ≤ c.n → ∃ pred c', (inorder c).getLast? = some pred ∧
        (∀ y ∈ inorder c, y ≤ pred) ∧
        deleteFromNode f c pred t = some (c', []) ∧ inorder c' = (inorder c).erase pred ∧
        removeFromNonLeaf (fun c k => deleteFromNode f c k t) f x idx t =
          some (.mk x.n x.leaf (x.keys.set idx pred) (x.children.set idx (some c')), [])) ∧
      (c.n < t → t ≤ s.n → ∃ succ s', (inorder s).head? = some succ ∧
        (∀ y ∈ inorder s, succ ≤ y) ∧
        deleteFromNode f s succ t = some (s', []) ∧ inorder s' = (inorder s).erase succ ∧
        removeFromNonLeaf (fun c k => deleteFromNode f c k t) f x idx t =
          some (.mk x.n x.leaf (x.keys.set idx succ)
            (x.children.set (idx + 1) (some s')), [])) ∧
      (c.n < t → s.n < t → ∃ x1 m m', merge x idx t = some x1 ∧ childAt x1 idx = some m ∧
        inorder m = inorder c ++ key :: inorder s ∧
        deleteFromNode f m key t = some (m', []) ∧ inorder m' = inorder c ++ inorder s ∧
        removeFromNonLeaf (fun c k => deleteFromNode f c k t) f x idx t =
          some (x1.setChildren (x1.children.set idx (some m')), [])) := by
  obtain ⟨c, s, v, G, T, hc, hs', hv, hbc, hbs, hcn, hsn, hin, -, -⟩ := hb.around_key hidx
  obtain ⟨hk, hcl, hn⟩ := hb.nodeOK
  have hsx := hs
  rw [hin] at hsx
  obtain ⟨h1, h2, h3⟩ := List.pairwise_append.mp hsx
  have hsc : (inorder c).Sorted (· < ·) := (List.pairwise_append.mp h1).2.1
  have hcv : ∀ a ∈ inorder c, a < v := fun a ha =>
    h3 a (List.mem_append_right _ ha) v (List.mem_cons_self _ _)
  obtain ⟨h4, h5⟩ := List.pairwise_cons.mp h2
  have hss : (inorder s).Sorted (· < ·) := (List.pairwise_append.mp h5).1
  have hscle : (inorder c).Sorted (· ≤ ·) := hsc.imp (fun hab => le_of_lt hab)
  have hssle : (inorder s).Sorted (· ≤ ·) := hss.imp (fun hab => le_of_lt hab)
  refine ⟨c, s, v, hc, hs', hv, fun f hf => ⟨?_, ?_, ?_⟩⟩
  · intro hct
    obtain ⟨p, C0, e, hC0⟩ := getPredecessorLoop_spec ht h f c hf hbc (by omega)
    have hpm : p ∈ inorder c := by rw [hC0]; simp
    obtain ⟨r, out, e2, -, hinr, -, -, hout⟩ := deleteFromNode_spec ht h f c p hf hbc hscle
      (fun _ => by omega)
    rw [if_pos hpm] at hout
    subst hout
    refine ⟨p, r, by rw [hC0]; simp, ?_, e2, hinr, ?_⟩
    · intro y hy
      rw [hC0] at hy hsc
      rcases List.mem_append.mp hy with hy | hy
      · exact le_of_lt ((List.pairwise_append.mp hsc).2.2 y hy p (by simp))
      · simp only [List.mem_singleton] at hy
        rw [hy]
    · have hge : c.n ≥ t := hct
      simp [removeFromNonLeaf, hv, hc, hge, getPredecessor, e,
        store_eq_some p (show idx < x.keys.length by omega), e2,
        store_eq_some (some r) (show idx < x.children.length by omega)]
  · intro hct hst
    obtain ⟨p, C0, e, hC0⟩ := getSuccessorLoop_spec ht h f s hf hbs (by omega)
    have hpm : p ∈ inorder s := by rw [hC0]; simp
    obtain ⟨r, out, e2, -, hinr, -, -, hout⟩ := deleteFromNode_spec ht h f s p hf hbs hssle
      (fun _ => by omega)
    rw [if_pos hpm] at hout
    subst hout
    refine ⟨p, r, by rw [hC0]; simp, ?_, e2, hinr, ?_⟩
    · intro y hy
      rw [hC0] at hy hss
      rcases List.mem_cons.mp hy with hy | hy
      · rw [hy]
      · exact le_of_lt ((List.pairwise_cons.mp hss).1 y hy)
    · have hge : s.n ≥ t := hst
      simp [removeFromNonLeaf, hv, hc, Nat.not_le.mpr hct, hs', hge, getSuccessor, e,
        store_eq_some p (show idx < x.keys.length by omega), e2,
        store_eq_some (some r) (show idx + 1 < x.children.length by omega)]
  · intro hct hst
    obtain ⟨x1, m, pk, e, hb1, hin1, hn1, hm, hmn, hbm, hpk, hinm⟩ :=
      merge_spec hb hidx hc hs' (by omega) (by omega)
    rw [hv] at hpk
    cases hpk
    have hsm : (inorder m).Sorted (· ≤ ·) := by
      rw [hinm]
      have : (inorder c ++ v :: inorder s).Sorted (· < ·) := by
        unfold List.Sorted
        rw [List.pairwise_append]
        refine ⟨hsc, List.pairwise_cons.mpr ⟨fun b hb' => h4 b (List.mem_append_left _ hb'),
          hss⟩, ?_⟩
        intro a ha b hb'
        rcases List.mem_cons.mp hb' with rfl | hb'
        · exact hcv a ha
        · exact lt_trans (hcv a ha) (h4 b (List.mem_append_left _ hb'))
      exact this.imp (fun hab => le_of_lt hab)
    have hvm : v ∈ inorder m := by rw [hinm]; simp
    obtain ⟨r, out, e2, -, hinr, -, -, hout⟩ := deleteFromNode_spec ht h f m v hf hbm hsm
      (fun _ => by omega)
    rw [if_pos hvm] at hout
    subst hout
    have hvc : v ∉ inorder c := fun hcon => lt_irrefl v (hcv v hcon)
    obtain ⟨-, hcl1, -⟩ := hb1.nodeOK
    refine ⟨x1, m, r, e, hm, hinm, e2, ?_, ?_⟩
    · rw [hinr, hinm, List.erase_append_right _ hvc, List.erase_cons_head]
    · simp [removeFromNonLeaf, hv, hc, Nat.not_le.mpr hct, hs', Nat.not_le.mpr hst, e, hm, e2,
        store_eq_some (some r) (show idx < x1.children.length by omega)]

/-- C17: for an inner node `x` of a tree with `t ≥ 2` that satisfies invariants 1 to 5
and an index `idx < n`, with `key = keys[idx]`, `removeFromNonLeaf(x, idx)` returns (for
every sufficient bound on the recursion depth) and: if `children[idx]` has at least `t`
keys, whatever `children[idx+1]` has, it puts the largest key of the subtree of
`children[idx]` in place of `keys[idx]` and deletes that key from that subtree;
otherwise, if `children[idx+1]` has at least `t` keys, it puts the smallest key of the
subtree of `children[idx+1]` in place of `keys[idx]` and deletes it there; otherwise it
merges the two children around `keys[idx]` and deletes `key` from the merged child. -/
theorem C17_removeFromNonLeaf (t : Nat) (tree : BTree) (root x : BTreeNode) (idx : Nat)
    (ht : 2 ≤ t) (hinv : Invariants t tree) (hroot : tree.root = some root)
    (hx : x ∈ nodes root) (hl : x.leaf = false) (hidx : idx < x.n) :
    ∃ c s key F, childAt x idx = some c ∧ childAt x (idx + 1) = some s ∧
      x.keys[idx]? = some key ∧ ∀ f, F ≤ f →
      (t ≤ c.n → ∃ pred c', (inorder c).getLast? = some pred ∧
        (∀ y ∈ inorder c, y ≤ pred) ∧
        deleteFromNode f c pred t = some (c', []) ∧ inorder c' = (inorder c).erase pred ∧
        removeFromNonLeaf (fun c k => deleteFromNode f c k t) f x idx t =
          some (.mk x.n x.leaf (x.keys.set idx pred) (x.children.set idx (some c')), [])) ∧
      (c.n < t → t ≤ s.n → ∃ succ s', (inorder s).head? = some succ ∧
        (∀ y ∈ inorder s, succ ≤ y) ∧
        deleteFromNode f s succ t = some (s', []) ∧ inorder s' = (inorder s).erase succ ∧
        removeFromNonLeaf (fun c k => deleteFromNode f c k t) f x idx t =
          some (.mk x.n x.leaf (x.keys.set idx succ)
            (x.children.set (idx + 1) (some s')), [])) ∧
      (c.n < t → s.n < t → ∃ x1 m m', merge x idx t = some x1 ∧ childAt x1 idx = some m ∧
        inorder m = inorder c ++ key :: inorder s ∧
        deleteFromNode f m key t = some (m', []) ∧ inorder m' = inorder c ++ inorder s ∧
        removeFromNonLeaf (fun c k => deleteFromNode f c k t) f x idx t =
          some (x1.setChildren (x1.children.set idx (some m')), [])) := by
  obtain ⟨root', h, hroot', hb, hs⟩ := hinv.bal
  rw [hroot] at hroot'
  cases hroot'
  obtain ⟨h', -, hbx, hpx⟩ := (Bal.nodes_inv (· < ·) h root hb hs).1 x hx
  cases h' with
  | zero =>
    rw [hbx.1] at hl
    cases hl
  | succ h' =>
    obtain ⟨c, s, key, hc, hs', hk, hall⟩ := removeFromNonLeaf_spec ht hbx hpx hidx
    exact ⟨c, s, key, h' + 1, hc, hs', hk, hall⟩

/-- C17, witness: the claim for `t = 2` and the root with the key `5` over the leaves
`1 3` and `7 9`: the predecessor `3` replaces `5`. -/
theorem C17_removeFromNonLeaf_witness :
    Invariants 2 ⟨some (.mk 1 false [5, 0, 0]
      [some (.mk 2 true [1, 3, 0] [none, none, none, none]),
       some (.mk 2 true [7, 9, 0] [none, none, none, none]), none, none]), 2⟩ ∧
    ∃ f r, removeFromNonLeaf (fun c k => deleteFromNode f c k 2) f
      (.mk 1 false [5, 0, 0]
        [some (.mk 2 true [1, 3, 0] [none, none, none, none]),
         some (.mk 2 true [7, 9, 0] [none, none, none, none]), none, none]) 0 2 =
        some (r, []) ∧ liveKeys r = [3] := by
  have hb : Bal 2 1 (.mk 1 false [5, 0, 0]
      [some (.mk 2 true [1, 3, 0] [none, none, none, none]),
       some (.mk 2 true [7, 9, 0] [none, none, none, none]), none, none]) := by
    rw [Bal_succ_iff]
    refine ⟨rfl, ⟨rfl, rfl, by decide⟩, rfl, ?_⟩
    intro c hc
    simp [kids] at hc
    rcases hc with rfl | rfl
    · exact ⟨by decide, rfl, ⟨rfl, rfl, by decide⟩, by simp⟩
    · exact ⟨by decide, rfl, ⟨rfl, rfl, by decide⟩, by simp⟩
  have hinv : Invariants 2 ⟨some (.mk 1 false [5, 0, 0]
      [some (.mk 2 true [1, 3, 0] [none, none, none, none]),
       some (.mk 2 true [7, 9, 0] [none, none, none, none]), none, none]), 2⟩ :=
    invariants_of_bal rfl rfl hb (by simp [inorder, inorderSlots, inorderSlot, interleave])
  obtain ⟨c, s, key, F, hc, -, -, hall⟩ := C17_removeFromNonLeaf 2 _ _ _ 0 (le_refl _) hinv
    rfl (self_mem_nodes _) rfl (by decide)
  have hc' : c = .mk 2 true [1, 3, 0] [none, none, none, none] := by
    simpa [childAt] using hc.symm
  subst hc'
  obtain ⟨pred, c', hlast, -, -, -, e⟩ := (hall F (le_refl _)).1 (by decide)
  simp [inorder] at hlast
  subst hlast
  exact ⟨hinv, F, _, e, by simp [liveKeys]⟩

/-- C18: `fill(x, idx)` chooses its repair by the key counts of the siblings alone: if
`idx > 0` and `children[idx-1]` has at least `t` keys it is `borrowFromPrev(x, idx)`,
which leaves every child slot other than `idx - 1` and `idx`, so the right sibling,
as it was, whatever the right sibling has; otherwise, if `idx < n` and `children[idx+1]`
has at least `t` keys, it is `borrowFromNext(x, idx)`; otherwise it is `merge(x, idx)`
when `idx ≠ n` and `merge(x, idx - 1)` when `idx = n` (for `idx = n = 0` that is
`merge(x, -1)`, which reads `children[-1]` and has no result). On an inner node with at
least one key of a tree with `t ≥ 2` whose `children[idx]` has fewer than `t` keys,
`fill` returns and keeps the balance and the in-order key sequence. -/
theorem C18_fill_choice (t : Nat) (x : BTreeNode) (idx : Nat) :
    (∀ p, idx ≠ 0 → childAt x (idx - 1) = some p → t ≤ p.n →
      fill x idx t = borrowFromPrev x idx ∧
      ∀ r, borrowFromPrev x idx = some r →
        ∀ j, j ≠ idx → j ≠ idx - 1 → r.children[j]? = x.children[j]?) ∧
    (∀ s, (idx = 0 ∨ ∃ p, childAt x (idx - 1) = some p ∧ p.n < t) → idx ≠ x.n →
      childAt x (idx + 1) = some s → t ≤ s.n → fill x idx t = borrowFromNext x idx) ∧
    ((idx = 0 ∨ ∃ p, childAt x (idx - 1) = some p ∧ p.n < t) →
      (idx ≠ x.n → ∃ s, childAt x (idx + 1) = some s ∧ s.n < t) →
      (idx ≠ x.n → fill x idx t = merge x idx t) ∧
      (idx = x.n → idx ≠ 0 → fill x idx t = merge x (idx - 1) t) ∧
      (idx = x.n → idx = 0 → fill x idx t = none)) ∧
    (∀ h c, 2 ≤ t → Bal t (h + 1) x → idx ≤ x.n → 1 ≤ x.n → childAt x idx = some c →
      c.n < t → ∃ r, fill x idx t = some r ∧ Bal t (h + 1) r ∧ inorder r = inorder x) := by
  refine ⟨fun p h0 hp hpn => ⟨fill_prev h0 hp hpn, fun r hr => (borrowFromPrev_frame hr).2.2⟩,
    fun s hprev hn hs hsn => fill_next hprev hn hs hsn,
    fun hprev hnext => fill_merge hprev hnext, ?_⟩
  intro h c ht hb hidx hn1 hc hcn
  obtain ⟨x1, -, -, e, hb1, hin1, -⟩ := fill_spec hb ht hidx hn1 hc hcn
  exact ⟨x1, e, hb1, hin1⟩

/-- C18, witness: for `t = 2` and the node with the keys `5 9` over the leaves `1 3`,
`7` and `11 13`, `fill(x, 1)` is `borrowFromPrev(x, 1)` although the right sibling has
`t` keys as well, and the right sibling stays in slot `2`. -/
theorem C18_fill_choice_witness :
    fill (.mk 2 false [5, 9, 0]
      [some (.mk 2 true [1, 3, 0] [none, none, none, none]),
       some (.mk 1 true [7, 0, 0] [none, none, none, none]),
       some (.mk 2 true [11, 13, 0] [none, none, none, none]), none]) 1 2 =
      borrowFromPrev (.mk 2 false [5, 9, 0]
        [some (.mk 2 true [1, 3, 0] [none, none, none, none]),
         some (.mk 1 true [7, 0, 0] [none, none, none, none]),
         some (.mk 2 true [11, 13, 0] [none, none, none, none]), none]) 1 ∧
    ∀ r, borrowFromPrev (.mk 2 false [5, 9, 0]
        [some (.mk 2 true [1, 3, 0] [none, none, none, none]),
         some (.mk 1 true [7, 0, 0] [none, none, none, none]),
         some (.mk 2 true [11, 13, 0] [none, none, none, none]), none]) 1 = some r →
      r.children[2]? = some (some (.mk 2 true [11, 13, 0] [none, none, none, none])) := by
  obtain ⟨h1, h2⟩ := (C18_fill_choice 2 (.mk 2 false [5, 9, 0]
      [some (.mk 2 true [1, 3, 0] [none, none, none, none]),
       some (.mk 1 true [7, 0, 0] [none, none, none, none]),
       some (.mk 2 true [11, 13, 0] [none, none, none, none]), none]) 1).1
    (.mk 2 true [1, 3, 0] [none, none, none, none]) (by decide) rfl (by decide)
  exact ⟨h1, fun r hr => h2 r hr 2 (by decide) (by decide)⟩

/-! ### `merge` on the arrays -/

theorem set_take_succ_append {α : Type} (l r : List α) (i : Nat) (v : α)
    (hi : i < l.length) : (l.take (i + 1) ++ r).set i v = l.take i ++ v :: r := by
  rw [List.take_succ, List.getElem?_eq_getElem hi]
  simp only [Option.toList_some, List.append_assoc, List.singleton_append]
  have hlen : (l.take i).length = i := List.length_take_of_le (by omega)
  have := set_mid (l.take i) r l[i] v
  rwa [hlen] at this

theorem merge_local {t : Nat} {x c s : BTreeNode} {idx : Nat} (hx : NodeOK t x)
    (hidx : idx < x.n) (hc : childAt x idx = some c) (hs : childAt x (idx + 1) = some s)
    (hokc : NodeOK t c) (hoks : NodeOK t s) (hcn : c.n + 1 = t)
    (hcap : c.n + s.n + 1 ≤ 2 * t - 1) :
    ∃ x1 m pk, merge x idx t = some x1 ∧ x.keys[idx]? = some pk ∧
      x1.children[idx]? = some (some m) ∧
      m.n = c.n + s.n + 1 ∧ m.leaf = c.leaf ∧
      liveKeys m = liveKeys c ++ pk :: liveKeys s ∧
      (c.leaf = false →
        m.children.take (m.n + 1) = c.children.take (c.n + 1) ++ s.children.take (s.n + 1)) ∧
      (c.leaf = true → m.children = c.children) ∧
      x1.n + 1 = x.n ∧ x1.leaf = x.leaf ∧
      liveKeys x1 = (liveKeys x).take idx ++ (liveKeys x).drop (idx + 1) ∧
      x1.children.take (x1.n + 1) = (x.children.take (x.n + 1)).take idx ++
        some m :: (x.children.take (x.n + 1)).drop (idx + 2) := by
  obtain ⟨hk, hcl, hn⟩ := hx
  obtain ⟨ckl, ccl, -⟩ := hokc
  obtain ⟨skl, scl, hsn⟩ := hoks
  obtain ⟨pk, hpk⟩ : ∃ pk, x.keys[idx]? = some pk :=
    ⟨_, List.getElem?_eq_getElem (show idx < x.keys.length by omega)⟩
  obtain ⟨ck, eck, lck, pck⟩ := copyLoop_spec s.keys 0 t s.n 0 (c.keys.set (t - 1) pk)
    (by omega) (by simp; omega)
  have hccx : ∃ cc, (if c.leaf then some c.children
      else copyLoop s.children 0 t (s.n + 1) 0 c.children) = some cc ∧
      (c.leaf = true → cc = c.children) ∧
      (c.leaf = false → ∀ j, cc[j]? = if t ≤ j ∧ j < t + (s.n + 1) then s.children[j - t]?
        else c.children[j]?) := by
    by_cases hlf : c.leaf = true
    · exact ⟨c.children, by simp [hlf], fun _ => rfl, by simp [hlf]⟩
    · obtain ⟨cc, ecc, -, pcc⟩ := copyLoop_spec s.children 0 t (s.n + 1) 0 c.children
        (by omega) (by omega)
      refine ⟨cc, by simp [hlf, ecc], by simp [hlf], ?_⟩
      intro _ j
      rw [pcc j]
      simp
  obtain ⟨cc, ecc, cc1, cc2⟩ := hccx
  obtain ⟨m, hm⟩ : ∃ m, m = BTreeNode.mk (c.n + s.n + 1) c.leaf ck cc := ⟨_, rfl⟩
  obtain ⟨nk, enk, lnk, pnk⟩ := shiftDown_spec (x.n - (idx + 1)) idx x.keys (by omega)
  obtain ⟨nc, enc, lnc, pnc⟩ := shiftDown_spec (x.n + 1 - (idx + 2)) (idx + 1) x.children
    (by omega)
  obtain ⟨x1, hx1⟩ : ∃ x1, x1 = BTreeNode.mk (x.n - 1) x.leaf nk (nc.set idx (some m)) :=
    ⟨_, rfl⟩
  have e : merge x idx t = some x1 := by
    have ht : t ≠ 0 := by omega
    have hn0 : x.n ≠ 0 := by omega
    rw [hx1, hm]
    have enc' : shiftDown (x.n - (idx + 1)) (idx + 1) x.children = some nc := by
      rwa [show x.n + 1 - (idx + 2) = x.n - (idx + 1) by omega] at enc
    simp [merge, hc, hs, ht, hpk,
      store_eq_some _ (show t - 1 < c.keys.length by omega), eck, ecc, enk, enc',
      store_eq_some _ (show idx < nc.length by omega), hn0]
  have hx1n : x1.n = x.n - 1 := by rw [hx1]; rfl
  have hx1k : x1.keys = nk := by rw [hx1]; rfl
  have hx1c : x1.children = nc.set idx (some m) := by rw [hx1]; rfl
  have hmk : m.keys = ck := by rw [hm]; rfl
  have hmc : m.children = cc := by rw [hm]; rfl
  have hmn : m.n = c.n + s.n + 1 := by rw [hm]; rfl
  refine ⟨x1, m, pk, e, hpk, ?_, hmn, by rw [hm]; rfl, ?_, ?_, ?_, by omega, by rw [hx1]; rfl,
    ?_, ?_⟩
  · rw [hx1c, List.getElem?_set]
    simp only [if_true]
    rw [if_pos (by omega)]
  · unfold liveKeys
    rw [hmn, hmk, show c.n + s.n + 1 = c.n + 1 + s.n by omega]
    apply take_join_pointwise c.keys s.keys ck c.n s.n pk (by omega)
    intro j hj
    rw [pck j]
    by_cases h1 : j < c.n
    · rw [if_neg (by omega), if_pos h1, List.getElem?_set, if_neg (by omega)]
    · rw [if_neg h1]
      by_cases h2 : j = c.n
      · rw [if_pos h2, if_neg (by omega), List.getElem?_set, if_pos (by omega),
          if_pos (by omega)]
      · rw [if_neg h2, if_pos (by omega)]
        congr 1
        omega
  · intro hlf
    rw [hmn, hmc, show c.n + s.n + 1 + 1 = (c.n + 1) + (s.n + 1) by omega]
    apply take_concat_pointwise c.children s.children cc (c.n + 1) (s.n + 1) (by omega)
    intro j hj
    rw [cc2 hlf j]
    by_cases h1 : j < c.n + 1
    · rw [if_neg (by omega), if_pos h1]
    · rw [if_pos (by omega), if_neg h1]
      congr 1
      omega
  · intro hlf
    rw [hmc, cc1 hlf]
  · unfold liveKeys
    rw [hx1n, hx1k]
    exact take_erase_pointwise x.keys nk idx x.n hidx (by omega) (by
      intro j
      rw [pnk j]
      by_cases h1 : idx ≤ j ∧ j + 1 < x.n
      · rw [if_pos h1, if_pos (by omega)]
      · rw [if_neg h1, if_neg (by omega)])
  · rw [hx1n, hx1c, show x.n - 1 + 1 = x.n + 1 - 1 by omega, List.set_take,
      take_erase_pointwise x.children nc (idx + 1) (x.n + 1) (by omega) (by omega) (by
        intro j
        rw [pnc j]
        by_cases h1 : idx + 1 ≤ j ∧ j + 1 < x.n + 1
        · rw [if_pos h1, if_pos (by omega)]
        · rw [if_neg h1, if_neg (by omega)])]
    exact set_take_succ_append _ _ idx (some m)
      (by rw [List.length_take_of_le (by omega)]; omega)

/-- C19, counterexample: `t = 3`, a node with the key `5` over the leaves `1` (one key,
`t - 2`) and `7 9`; then `children[0].n + children[1].n + 1 = 4 ≤ 2t - 1`. After
`merge(node, 0, 3)` the child in slot `0` has `n = 4` and the keys `1 0 5 7`: the
separating key went to index `t - 1 = 2`, the unused slot `1` is counted as a key and
the sibling's key `9` is beyond `n`. The claim asks for `1 5 7 9`. -/
theorem C19_merge_short_child :
    (merge (.mk 1 false [5, 0, 0, 0, 0]
        [some (.mk 1 true [1, 0, 0, 0, 0] [none, none, none, none, none, none]),
         some (.mk 2 true [7, 9, 0, 0, 0] [none, none, none, none, none, none]),
         none, none, none, none]) 0 3).bind
      (fun r => (childAt r 0).map (fun m => (m.n, liveKeys m))) = some (4, [1, 0, 5, 7]) ∧
    liveKeys (.mk 1 true [1, 0, 0, 0, 0] [none, none, none, none, none, none]) ++
      5 :: liveKeys (.mk 2 true [7, 9, 0, 0, 0] [none, none, none, none, none, none]) =
      [1, 5, 7, 9] ∧
    (BTreeNode.mk 1 true [1, 0, 0, 0, 0] [none, none, none, none, none, none]).n +
      (BTreeNode.mk 2 true [7, 9, 0, 0, 0] [none, none, none, none, none, none]).n + 1 ≤
      2 * 3 - 1 := by
  refine ⟨?_, ?_, ?_⟩
  · decide!
  · decide!
  · decide

/-- C19, amended: for every node with arrays of the allocated sizes and `idx < n` whose
`children[idx]` has exactly `t - 1` keys and whose `children[idx+1]` has at most `t - 1`
(so that `children[idx].n + children[idx+1].n + 1 ≤ 2t - 1`), `merge(node, idx, t)`
returns and leaves in slot `idx` the child holding exactly its old keys, followed by
the separating key `node.keys[idx]`, followed by the keys of the old `children[idx+1]`
(and, if it is an inner node, its old children followed by those of `children[idx+1]`),
with key count `children[idx].n + children[idx+1].n + 1`; it removes `keys[idx]` and
child slot `idx + 1` from the node, keeps the remaining keys and children in order and
decreases `node.n` by one. -/
theorem C19_merge (t : Nat) (x c s : BTreeNode) (idx : Nat) (hx : NodeOK t x)
    (hidx : idx < x.n) (hc : childAt x idx = some c) (hs : childAt x (idx + 1) = some s)
    (hokc : NodeOK t c) (hoks : NodeOK t s) (hcn : c.n = t - 1)
    (hcap : c.n + s.n + 1 ≤ 2 * t - 1) :
    ∃ x1 m pk, merge x idx t = some x1 ∧ x.keys[idx]? = some pk ∧
      x1.children[idx]? = some (some m) ∧
      m.n = c.n + s.n + 1 ∧ m.leaf = c.leaf ∧
      liveKeys m = liveKeys c ++ pk :: liveKeys s ∧
      (c.leaf = false →
        m.children.take (m.n + 1) = c.children.take (c.n + 1) ++ s.children.take (s.n + 1)) ∧
      (c.leaf = true → m.children = c.children) ∧
      x1.n + 1 = x.n ∧ x1.leaf = x.leaf ∧
      liveKeys x1 = (liveKeys x).take idx ++ (liveKeys x).drop (idx + 1) ∧
      x1.children.take (x1.n + 1) = (x.children.take (x.n + 1)).take idx ++
        some m :: (x.children.take (x.n + 1)).drop (idx + 2) :=
  merge_local hx hidx hc hs hokc hoks (by have := hx.pos; omega) hcap

/-- C19, witness: the amended claim for `t = 2` and the node with the key `5` over the
leaves `3` and `7`: the merged child holds `3 5 7`, the node is left without a key. -/
theorem C19_merge_witness :
    (NodeOK 2 (.mk 1 false [5, 0, 0]
        [some (.mk 1 true [3, 0, 0] [none, none, none, none]),
         some (.mk 1 true [7, 0, 0] [none, none, none, none]), none, none]) ∧
      NodeOK 2 (.mk 1 true [3, 0, 0] [none, none, none, none]) ∧
      NodeOK 2 (.mk 1 true [7, 0, 0] [none, none, none, none])) ∧
    ∃ x1 m, merge (.mk 1 false [5, 0, 0]
        [some (.mk 1 true [3, 0, 0] [none, none, none, none]),
         some (.mk 1 true [7, 0, 0] [none, none, none, none]), none, none]) 0 2 = some x1 ∧
      x1.children[0]? = some (some m) ∧ m.n = 3 ∧ liveKeys m = [3, 5, 7] ∧
      x1.n + 1 = 1 ∧ liveKeys x1 = [] := by
  obtain ⟨x1, m, pk, e, hpk, hm, hmn, -, hlive, -, -, hn, -, hlx, -⟩ :=
    C19_merge 2 (.mk 1 false [5, 0, 0]
        [some (.mk 1 true [3, 0, 0] [none, none, none, none]),
         some (.mk 1 true [7, 0, 0] [none, none, none, none]), none, none])
      (.mk 1 true [3, 0, 0] [none, none, none, none])
      (.mk 1 true [7, 0, 0] [none, none, none, none]) 0
      ⟨rfl, rfl, by decide⟩ (by decide) rfl rfl ⟨rfl, rfl, by decide⟩
      ⟨rfl, rfl, by decide⟩ rfl (by decide)
  simp only [keys_mk, List.getElem?_cons_zero, Option.some.injEq] at hpk
  subst hpk
  exact ⟨⟨⟨rfl, rfl, by decide⟩, ⟨rfl, rfl, by decide⟩, ⟨rfl, rfl, by decide⟩⟩, x1, m, e, hm,
    by simpa using hmn, by simpa [liveKeys] using hlive, by simpa using hn,
    by simpa [liveKeys] using hlx⟩

/-! ### `borrowFromPrev` on nodes that are laid out for it -/

theorem Laid.kids_count {x : BTreeNode} (hx : Laid x) (hl : x.leaf = false) :
    (kids x).length = x.n + 1 := by
  obtain ⟨h1, h2⟩ := hx.2 hl
  have := congrArg List.length h2
  rw [List.length_take_of_le (by omega), List.length_map] at this
  exact this.symm

theorem Laid.kid_of_childAt {x c : BTreeNode} (hx : Laid x) (hl : x.leaf = false) {i : Nat}
    (hi : i ≤ x.n) (hc : childAt x i = some c) :
    (kids x)[i]? = some c ∧ x.children[i]? = some (some c) := by
  obtain ⟨h1, h2⟩ := hx.2 hl
  have h3 := congrArg (fun l => l[i]?) h2
  simp only [List.getElem?_take, List.getElem?_map] at h3
  rw [if_pos (by omega)] at h3
  unfold childAt at hc
  cases hk : (kids x)[i]? with
  | none =>
    rw [hk] at h3
    rw [h3] at hc
    cases hc
  | some k =>
    rw [hk] at h3
    rw [h3] at hc
    simp only [Option.map_some', Option.join] at hc
    have : k = c := by simpa using hc
    subst this
    exact ⟨rfl, h3⟩

theorem cut_pair {α : Type} (l : List α) (i : Nat) (a b : α) (ha : l[i]? = some a)
    (hb : l[i + 1]? = some b) : ∃ A B, l = A ++ a :: b :: B ∧ A.length = i := by
  obtain ⟨A, B', hAB', hA⟩ := exists_cut l i a ha
  rw [hAB', ← hA, List.getElem?_append_right (by omega)] at hb
  simp only [Nat.add_sub_cancel_left, List.getElem?_cons_succ] at hb
  cases B' with
  | nil => simp at hb
  | cons b' B =>
    simp only [List.getElem?_cons_zero] at hb
    exact ⟨A, B, by rw [hAB', Option.some.inj hb], hA⟩

/-- The child and the left sibling after a key has moved from the sibling through the
parent into the child: keys, children, in-order sequence and leaf depths. -/
theorem borrowPrev_children_local {c s : BTreeNode} (hlc : Laid c) (hls : Laid s)
    (hleaf : c.leaf = s.leaf) (hs1 : 1 ≤ s.n) (hroom : c.n < c.keys.length)
    (hroomc : c.leaf = false → c.n + 1 < c.children.length) (pk : Int)
    (ck : List Int) (cc : List (Option BTreeNode)) (sc : Option BTreeNode)
    (hck2 : ∀ j, ck[j]? = if j = 0 then some pk else
      if 0 < j ∧ j ≤ c.n then c.keys[j - 1]? else c.keys[j]?)
    (hsc : c.leaf = false → s.children[s.n]? = some sc)
    (hcc2 : c.leaf = false → ∀ j, cc[j]? = if j = 0 then some sc else
      if 0 < j ∧ j ≤ c.n + 1 then c.children[j - 1]? else c.children[j]?) :
    ∃ sk, s.keys[s.n - 1]? = some sk ∧
      liveKeys (.mk (c.n + 1) c.leaf ck cc) = pk :: liveKeys c ∧
      liveKeys s = liveKeys (.mk (s.n - 1) s.leaf s.keys s.children) ++ [sk] ∧
      (c.leaf = false → ∃ g, sc = some g ∧
        kids (.mk (c.n + 1) c.leaf ck cc) = g :: kids c ∧
        kids s = kids (.mk (s.n - 1) s.leaf s.keys s.children) ++ [g]) ∧
      inorder s ++ pk :: inorder c = inorder (.mk (s.n - 1) s.leaf s.keys s.children) ++
        sk :: inorder (.mk (c.n + 1) c.leaf ck cc) ∧
      leafDepths s ++ leafDepths c =
        leafDepths (.mk (s.n - 1) s.leaf s.keys s.children) ++
          leafDepths (.mk (c.n + 1) c.leaf ck cc) := by
  obtain ⟨c1, hc1⟩ : ∃ c1, c1 = BTreeNode.mk (c.n + 1) c.leaf ck cc := ⟨_, rfl⟩
  obtain ⟨s1, hs1'⟩ : ∃ s1, s1 = BTreeNode.mk (s.n - 1) s.leaf s.keys s.children := ⟨_, rfl⟩
  rw [← hc1, ← hs1']
  have hc1n : c1.n = c.n + 1 := by rw [hc1]; rfl
  have hc1l : c1.leaf = c.leaf := by rw [hc1]; rfl
  have hc1k : c1.keys = ck := by rw [hc1]; rfl
  have hc1c : c1.children = cc := by rw [hc1]; rfl
  have hs1n : s1.n = s.n - 1 := by rw [hs1']; rfl
  have hs1l : s1.leaf = s.leaf := by rw [hs1']; rfl
  have hs1k : s1.keys = s.keys := by rw [hs1']; rfl
  have hs1c : s1.children = s.children := by rw [hs1']; rfl
  have hsk0 := hls.1
  obtain ⟨sk, hsk⟩ : ∃ sk, s.keys[s.n - 1]? = some sk :=
    ⟨_, List.getElem?_eq_getElem (show s.n - 1 < s.keys.length by omega)⟩
  have hlivec : liveKeys c1 = pk :: liveKeys c := by
    unfold liveKeys
    rw [hc1n, hc1k, take_insert_pointwise c.keys ck 0 c.n pk (by omega) (by omega) hck2]
    simp
  have hlives : liveKeys s = liveKeys s1 ++ [sk] := by
    unfold liveKeys
    rw [hs1n, hs1k]
    exact take_pred_snoc _ _ _ hs1 hsk
  refine ⟨sk, hsk, hlivec, hlives, ?_⟩
  by_cases hcl : c.leaf = true
  · have hsl : s.leaf = true := by rw [← hleaf]; exact hcl
    refine ⟨fun h => (by rw [hcl] at h; cases h), ?_, ?_⟩
    · rw [inorder_leaf s hsl, inorder_leaf c hcl, inorder_leaf s1 (by rw [hs1l]; exact hsl),
        inorder_leaf c1 (by rw [hc1l]; exact hcl), hlivec, hlives]
      simp
    · rw [leafDepths_eq s, leafDepths_eq c, leafDepths_eq s1, leafDepths_eq c1, hs1l, hc1l,
        hsl, hcl]
      simp
  · have hcleaf : c.leaf = false := by simpa using hcl
    have hsleaf : s.leaf = false := by rw [← hleaf]; exact hcleaf
    obtain ⟨hcb, hLc⟩ := hlc.2 hcleaf
    obtain ⟨hsb, hLs⟩ := hls.2 hsleaf
    have hrc := hroomc hcleaf
    have hlks := hls.kids_count hsleaf
    obtain ⟨scn, hscn⟩ : ∃ scn, (kids s)[s.n]? = some scn :=
      ⟨_, List.getElem?_eq_getElem (show s.n < (kids s).length by omega)⟩
    have hscn2 : s.children[s.n]? = some (some scn) := by
      have := congrArg (fun l => l[s.n]?) hLs
      simp only [List.getElem?_take, List.getElem?_map, hscn, Option.map_some'] at this
      rwa [if_pos (by omega)] at this
    have hsceq : sc = some scn := by
      have := hsc hcleaf
      rw [hscn2] at this
      exact (Option.some.inj this).symm
    have hkc1 : c1.children.take (c1.n + 1) = (scn :: kids c).map some := by
      rw [hc1n, hc1c, take_insert_pointwise c.children cc 0 (c.n + 1) sc (by omega) (by omega)
        (hcc2 hcleaf), hLc, hsceq]
      simp
    have hks1 : s1.children.take (s1.n + 1) = ((kids s).take s.n).map some := by
      rw [hs1n, hs1c, show s.n - 1 + 1 = s.n by omega, List.map_take, ← hLs, List.take_take]
      congr 1
      omega
    have hkids_s : kids s = (kids s).take s.n ++ [scn] := by
      have := take_pred_snoc (kids s) (s.n + 1) scn (by omega) (by simpa using hscn)
      simp only [Nat.add_sub_cancel] at this
      rw [← this]
      exact (List.take_of_length_le (by omega)).symm
    have hc1l' : c1.leaf = false := by rw [hc1l]; exact hcleaf
    have hs1l' : s1.leaf = false := by rw [hs1l]; exact hsleaf
    have hkidsc1 : kids c1 = scn :: kids c := kids_of_take c1 _ hkc1
    have hkidss1 : kids s1 = (kids s).take s.n := kids_of_take s1 _ hks1
    have hinc1 : inorder c1 = inorder scn ++ pk :: inorder c := by
      rw [BT.inorder_inner c1 _ hc1l' hkc1, hlivec, BT.inorder_inner c _ hcleaf hLc]
      simp [interleave]
    refine ⟨fun _ => ⟨scn, hsceq, hkidsc1, by rw [hkidss1]; exact hkids_s⟩, ?_, ?_⟩
    · rw [hinc1, BT.inorder_inner s1 _ hs1l' hks1]
      conv_lhs => rw [BT.inorder_inner s _ hsleaf hLs, hkids_s, hlives, List.map_append,
        interleave_halves _ _ _ _ _ (by
          rw [List.length_map, List.length_take_of_le (by omega), liveKeys_length s1 (by
            rw [hs1k, hs1n]; omega), hs1n]
          omega)]
      simp [interleave]
    · rw [leafDepths_inner_kids hsleaf hLs, leafDepths_inner_kids hcleaf hLc,
        leafDepths_inner_kids hs1l' (by rw [hks1, hkidss1]),
        leafDepths_inner_kids hc1l' (by rw [hkc1, hkidsc1]), hkidsc1, hkidss1]
      conv_lhs => rw [hkids_s]
      simp

theorem borrowFromPrev_local {x c s : BTreeNode} {idx : Nat} (hx : Laid x)
    (hxl : x.leaf = false) (hidx0 : 1 ≤ idx) (hidx : idx ≤ x.n)
    (hc : childAt x idx = some c) (hs : childAt x (idx - 1) = some s)
    (hlc : Laid c) (hls : Laid s) (hleaf : c.leaf = s.leaf) (hs1 : 1 ≤ s.n)
    (hroom : c.n < c.keys.length)
    (hroomc : c.leaf = false → c.n + 1 < c.children.length) :
    ∃ x1 c1 s1 pk sk, borrowFromPrev x idx = some x1 ∧ x.keys[idx - 1]? = some pk ∧
      s.keys[s.n - 1]? = some sk ∧
      x1.n = x.n ∧ x1.leaf = x.leaf ∧ x1.keys = x.keys.set (idx - 1) sk ∧
      x1.children = (x.children.set idx (some c1)).set (idx - 1) (some s1) ∧
      c1.n = c.n + 1 ∧ c1.leaf = c.leaf ∧ liveKeys c1 = pk :: liveKeys c ∧
      s1.n + 1 = s.n ∧ s1.leaf = s.leaf ∧ liveKeys s = liveKeys s1 ++ [sk] ∧
      (c.leaf = false → ∃ g, s.children[s.n]? = some (some g) ∧
        kids c1 = g :: kids c ∧ kids s = kids s1 ++ [g]) ∧
      inorder x1 = inorder x ∧ leafDepths x1 = leafDepths x := by
  obtain ⟨i, rfl⟩ : ∃ i, idx = i + 1 := ⟨idx - 1, by omega⟩
  simp only [Nat.add_sub_cancel] at hs ⊢
  obtain ⟨hkc, hcc⟩ := hx.kid_of_childAt hxl hidx hc
  obtain ⟨hks, hsc⟩ := hx.kid_of_childAt hxl (show i ≤ x.n by omega) hs
  have hlenk := hx.kids_count hxl
  have hxk := hx.1
  obtain ⟨hxc, hL⟩ := hx.2 hxl
  have hsk0 := hls.1
  obtain ⟨pk, hpk⟩ : ∃ pk, x.keys[i]? = some pk :=
    ⟨_, List.getElem?_eq_getElem (show i < x.keys.length by omega)⟩
  obtain ⟨ck, eck, lck, pck⟩ := shiftUp_spec 0 c.n c.keys (by omega)
  obtain ⟨sc, hscd⟩ : ∃ sc, sc = (s.children[s.n]?).getD none := ⟨_, rfl⟩
  have hscv : c.leaf = false → s.children[s.n]? = some sc := by
    intro hcl
    have hsl : s.leaf = false := by rw [← hleaf]; exact hcl
    have := (hls.2 hsl).1
    rw [hscd, List.getElem?_eq_getElem this]
    rfl
  have hccx : ∃ cc, (if c.leaf then some c.children
      else shiftUp 0 (c.n + 1) c.children) = some cc ∧ cc.length = c.children.length ∧
      (c.leaf = false → ∀ j, cc[j]? = if 0 < j ∧ j ≤ c.n + 1 then c.children[j - 1]?
        else c.children[j]?) := by
    by_cases hlf : c.leaf = true
    · exact ⟨c.children, by simp [hlf], rfl, by simp [hlf]⟩
    · have hlf' : c.leaf = false := by simpa using hlf
      have := hroomc hlf'
      obtain ⟨cc, ecc, lcc, pcc⟩ := shiftUp_spec 0 (c.n + 1) c.children (by omega)
      refine ⟨cc, by simp [hlf, ecc], lcc, ?_⟩
      intro _ j
      rw [pcc j]
      simp
  obtain ⟨cc, ecc, lcc, cc2⟩ := hccx
  obtain ⟨cc', hcc'⟩ : ∃ cc', cc' = if c.leaf then cc else cc.set 0 sc := ⟨_, rfl⟩
  have ecc' : (if c.leaf then some cc
      else (s.children[s.n]?).bind fun sc => store cc 0 sc) = some cc' := by
    rw [hcc']
    by_cases hlf : c.leaf = true
    · simp [hlf]
    · have hlf' : c.leaf = false := by simpa using hlf
      have := hroomc hlf'
      simp [hlf, hscv hlf', store_eq_some _ (show 0 < cc.length by omega)]
  obtain ⟨sk, hsk, hlivec, hlives, hkidsx, hin, hld⟩ := borrowPrev_children_local hlc hls
    hleaf hs1 hroom hroomc pk (ck.set 0 pk) cc' sc
    (by
      intro j
      rw [List.getElem?_set, pck j]
      by_cases hj : 0 = j
      · subst hj
        have : 0 < ck.length := by omega
        simp [this]
      · have hj' : ¬ j = 0 := fun hh => hj hh.symm
        simp only [hj, hj', if_false]
        simp)
    hscv
    (by
      intro hlf j
      have := hroomc hlf
      rw [hcc']
      simp only [hlf, Bool.false_eq_true, if_false, List.getElem?_set, cc2 hlf j]
      by_cases hj : 0 = j
      · subst hj
        have : 0 < cc.length := by omega
        simp [this]
      · have hj' : ¬ j = 0 := fun hh => hj hh.symm
        simp only [hj, hj', if_false])
  obtain ⟨c1, hc1⟩ : ∃ c1, c1 = BTreeNode.mk (c.n + 1) c.leaf (ck.set 0 pk) cc' := ⟨_, rfl⟩
  obtain ⟨s1, hs1'⟩ : ∃ s1, s1 = BTreeNode.mk (s.n - 1) s.leaf s.keys s.children :=
    ⟨_, rfl⟩
  rw [← hc1, ← hs1'] at hin hld hkidsx
  rw [← hc1] at hlivec
  rw [← hs1'] at hlives
  obtain ⟨x1, hx1⟩ : ∃ x1, x1 = BTreeNode.mk x.n x.leaf (x.keys.set i sk)
      ((x.children.set (i + 1) (some c1)).set i (some s1)) := ⟨_, rfl⟩
  have e : borrowFromPrev x (i + 1) = some x1 := by
    have hs0 : s.n ≠ 0 := by omega
    rw [hx1, hc1, hs1']
    simp only [borrowFromPrev, Nat.add_sub_cancel]
    simp [hc, hs, eck, ecc, hpk, store_eq_some _ (show 0 < ck.length by omega), ecc', hs0, hsk,
      store_eq_some _ (show i < x.keys.length by omega),
      store_eq_some _ (show i + 1 < x.children.length by omega),
      store_eq_some _ (show i < (x.children.set (i + 1)
        (some (BTreeNode.mk (c.n + 1) c.leaf (ck.set 0 pk) cc'))).length by simp; omega)]
  have hx1n : x1.n = x.n := by rw [hx1]; rfl
  have hx1l : x1.leaf = false := by rw [hx1]; exact hxl
  have hx1k : x1.keys = x.keys.set i sk := by rw [hx1]; rfl
  have hx1c : x1.children = (x.children.set (i + 1) (some c1)).set i (some s1) := by
    rw [hx1]; rfl
  obtain ⟨A, B, hAB, hA⟩ := cut_pair (kids x) i s c hks hkc
  have hgetk : (liveKeys x)[i]? = some pk := by
    rw [liveKeys_get x (by omega), hpk]
  obtain ⟨K, Lk, hKL, hK⟩ := exists_cut (liveKeys x) i pk hgetk
  have hlive1 : liveKeys x1 = K ++ sk :: Lk := by
    unfold liveKeys
    rw [hx1n, hx1k, List.set_take]
    show (liveKeys x).set i sk = _
    rw [hKL, ← hK, set_mid]
  have hkids1 : x1.children.take (x1.n + 1) = (A ++ s1 :: c1 :: B).map some := by
    rw [hx1n, hx1c, List.set_take, List.set_take, hL, hAB, ← List.map_set, ← List.map_set,
      ← hA, set_mid_succ, set_mid]
  refine ⟨x1, c1, s1, pk, sk, e, hpk, hsk, hx1n, by rw [hx1]; rfl, hx1k, hx1c,
    by rw [hc1]; rfl, by rw [hc1]; rfl, hlivec, by rw [hs1']; simp; omega,
    by rw [hs1']; rfl, hlives, ?_, ?_, ?_⟩
  · intro hcl
    obtain ⟨g, hg, h1, h2⟩ := hkidsx hcl
    refine ⟨g, ?_, h1, h2⟩
    rw [hscv hcl, hg]
  · rw [BT.inorder_inner x1 _ hx1l hkids1, hlive1, BT.inorder_inner x (kids x) hxl hL, hAB, hKL]
    simp only [List.map_append, List.map_cons]
    rw [interleave_two _ _ _ _ _ _ _ (by simpa using hA.trans hK.symm),
      interleave_two _ _ _ _ _ _ _ (by simpa using hA.trans hK.symm)]
    have := congrArg (fun l => interleave (List.map inorder A ++ [[]]) K ++ l ++
      interleave ([] :: List.map inorder B) Lk) hin
    simpa using this.symm
  · have hk1 : kids x1 = A ++ s1 :: c1 :: B := kids_of_take x1 _ hkids1
    rw [leafDepths_inner_kids hx1l (by rw [hkids1, hk1]), leafDepths_inner_kids hxl hL, hk1,
      hAB]
    have h3 : (A ++ s1 :: c1 :: B).flatMap leafDepths =
        A.flatMap leafDepths ++ ((leafDepths s1 ++ leafDepths c1) ++ B.flatMap leafDepths) := by
      simp
    have h4 : (A ++ s :: c :: B).flatMap leafDepths =
        A.flatMap leafDepths ++ ((leafDepths s ++ leafDepths c) ++ B.flatMap leafDepths) := by
      simp
    rw [h3, h4, hld]

/-! ### `borrowFromNext` on nodes that are laid out for it -/

/-- The child and the right sibling after a key has moved from the sibling through the
parent into the child: keys, children, in-order sequence and leaf depths. -/
theorem borrowNext_children_local {c s : BTreeNode} (hlc : Laid c) (hls : Laid s)
    (hleaf : c.leaf = s.leaf) (hs1 : 1 ≤ s.n) (hroom : c.n < c.keys.length)
    (hroomc : c.leaf = false → c.n + 1 < c.children.length) (pk : Int)
    (cc : List (Option BTreeNode)) (sc : Option BTreeNode)
    (sk1 : List Int) (sc1 : List (Option BTreeNode))
    (hsc : c.leaf = false → s.children[0]? = some sc)
    (hcc2 : c.leaf = false → cc = c.children.set (c.n + 1) sc)
    (hsk2 : ∀ j, sk1[j]? = if 0 ≤ j ∧ j + 1 < s.n then s.keys[j + 1]? else s.keys[j]?)
    (hsc3 : s.leaf = false → ∀ j, sc1[j]? = if 0 ≤ j ∧ j + 1 < s.n + 1 then s.children[j + 1]?
      else s.children[j]?) :
    ∃ sk, s.keys[0]? = some sk ∧
      liveKeys (.mk (c.n + 1) c.leaf (c.keys.set c.n pk) cc) = liveKeys c ++ [pk] ∧
      liveKeys s = sk :: liveKeys (.mk (s.n - 1) s.leaf sk1 sc1) ∧
      (c.leaf = false → ∃ g, sc = some g ∧
        kids (.mk (c.n + 1) c.leaf (c.keys.set c.n pk) cc) = kids c ++ [g] ∧
        kids s = g :: kids (.mk (s.n - 1) s.leaf sk1 sc1)) ∧
      inorder c ++ pk :: inorder s = inorder (.mk (c.n + 1) c.leaf (c.keys.set c.n pk) cc) ++
        sk :: inorder (.mk (s.n - 1) s.leaf sk1 sc1) ∧
      leafDepths c ++ leafDepths s =
        leafDepths (.mk (c.n + 1) c.leaf (c.keys.set c.n pk) cc) ++
          leafDepths (.mk (s.n - 1) s.leaf sk1 sc1) := by
  obtain ⟨c1, hc1⟩ : ∃ c1, c1 = BTreeNode.mk (c.n + 1) c.leaf (c.keys.set c.n pk) cc :=
    ⟨_, rfl⟩
  obtain ⟨s1, hs1'⟩ : ∃ s1, s1 = BTreeNode.mk (s.n - 1) s.leaf sk1 sc1 := ⟨_, rfl⟩
  rw [← hc1, ← hs1']
  have hc1n : c1.n = c.n + 1 := by rw [hc1]; rfl
  have hc1l : c1.leaf = c.leaf := by rw [hc1]; rfl
  have hc1k : c1.keys = c.keys.set c.n pk := by rw [hc1]; rfl
  have hc1c : c1.children = cc := by rw [hc1]; rfl
  have hs1n : s1.n = s.n - 1 := by rw [hs1']; rfl
  have hs1l : s1.leaf = s.leaf := by rw [hs1']; rfl
  have hs1k : s1.keys = sk1 := by rw [hs1']; rfl
  have hs1c : s1.children = sc1 := by rw [hs1']; rfl
  have hsk0 := hls.1
  have hck0 := hlc.1
  obtain ⟨sk, hsk⟩ : ∃ sk, s.keys[0]? = some sk :=
    ⟨_, List.getElem?_eq_getElem (show 0 < s.keys.length by omega)⟩
  have hlivec : liveKeys c1 = liveKeys c ++ [pk] := by
    unfold liveKeys
    rw [hc1n, hc1k, take_insert_pointwise c.keys _ c.n c.n pk (le_refl _) (by omega) (by
      intro j
      rw [List.getElem?_set]
      by_cases hj : c.n = j
      · subst hj
        simp [hroom]
      · have hj' : ¬ j = c.n := fun hh => hj hh.symm
        simp only [hj, hj', if_false]
        rw [if_neg (by omega)])]
    exact take_snoc_drop _ _ _ (List.length_take_le _ _)
  have hlives1 : liveKeys s1 = (liveKeys s).drop 1 := by
    unfold liveKeys
    rw [hs1n, hs1k, take_erase_pointwise s.keys sk1 0 s.n (by omega) (by omega) hsk2]
    simp
  have hlives : liveKeys s = sk :: liveKeys s1 := by
    rw [hlives1]
    exact take_cons_tail _ _ _ (by omega) hsk
  refine ⟨sk, hsk, hlivec, hlives, ?_⟩
  by_cases hcl : c.leaf = true
  · have hsl : s.leaf = true := by rw [← hleaf]; exact hcl
    refine ⟨fun h => (by rw [hcl] at h; cases h), ?_, ?_⟩
    · rw [inorder_leaf s hsl, inorder_leaf c hcl, inorder_leaf s1 (by rw [hs1l]; exact hsl),
        inorder_leaf c1 (by rw [hc1l]; exact hcl), hlivec, hlives]
      simp
    · rw [leafDepths_eq s, leafDepths_eq c, leafDepths_eq s1, leafDepths_eq c1, hs1l, hc1l,
        hsl, hcl]
      simp
  · have hcleaf : c.leaf = false := by simpa using hcl
    have hsleaf : s.leaf = false := by rw [← hleaf]; exact hcleaf
    obtain ⟨hcb, hLc⟩ := hlc.2 hcleaf
    obtain ⟨hsb, hLs⟩ := hls.2 hsleaf
    have hrc := hroomc hcleaf
    have hlks := hls.kids_count hsleaf
    have hlkc := hlc.kids_count hcleaf
    obtain ⟨scn, hscn⟩ : ∃ scn, (kids s)[0]? = some scn :=
      ⟨_, List.getElem?_eq_getElem (show 0 < (kids s).length by omega)⟩
    have hscn2 : s.children[0]? = some (some scn) := by
      have := congrArg (fun l => l[0]?) hLs
      simp only [List.getElem?_take, List.getElem?_map, hscn, Option.map_some'] at this
      rwa [if_pos (by omega)] at this
    have hsceq : sc = some scn := by
      have := hsc hcleaf
      rw [hscn2] at this
      exact (Option.some.inj this).symm
    have hkc1 : c1.children.take (c1.n + 1) = (kids c ++ [scn]).map some := by
      rw [hc1n, hc1c, hcc2 hcleaf,
        take_insert_pointwise c.children _ (c.n + 1) (c.n + 1) sc (le_refl _) (by omega) (by
          intro j
          rw [List.getElem?_set]
          by_cases hj : c.n + 1 = j
          · subst hj
            simp [hrc]
          · have hj' : ¬ j = c.n + 1 := fun hh => hj hh.symm
            simp only [hj, hj', if_false]
            rw [if_neg (by omega)]), hLc, hsceq,
        take_snoc_drop _ _ _ (by rw [List.length_map]; omega)]
      simp
    have hks1 : s1.children.take (s1.n + 1) = ((kids s).drop 1).map some := by
      rw [hs1n, hs1c, show s.n - 1 + 1 = s.n + 1 - 1 by omega,
        take_erase_pointwise s.children sc1 0 (s.n + 1) (by omega) (by omega) (hsc3 hsleaf), hLs]
      simp
    have hkids_s : kids s = scn :: (kids s).drop 1 := by
      have h0 : (kids s)[0]? = some scn := hscn
      cases hks : kids s with
      | nil => rw [hks] at h0; simp at h0
      | cons a l =>
        rw [hks] at h0
        simp at h0
        simp [h0]
    have hc1l' : c1.leaf = false := by rw [hc1l]; exact hcleaf
    have hs1l' : s1.leaf = false := by rw [hs1l]; exact hsleaf
    have hkidsc1 : kids c1 = kids c ++ [scn] := kids_of_take c1 _ hkc1
    have hkidss1 : kids s1 = (kids s).drop 1 := kids_of_take s1 _ hks1
    have hinc1 : inorder c1 = inorder c ++ pk :: inorder scn := by
      rw [BT.inorder_inner c1 _ hc1l' hkc1, hlivec, BT.inorder_inner c _ hcleaf hLc,
        List.map_append, interleave_halves _ _ _ _ _ (by
          rw [List.length_map, hlkc, liveKeys_length c (by omega)])]
      simp [interleave]
    refine ⟨fun _ => ⟨scn, hsceq, hkidsc1, by rw [hkidss1]; exact hkids_s⟩, ?_, ?_⟩
    · rw [hinc1, BT.inorder_inner s1 _ hs1l' hks1]
      conv_lhs => rw [BT.inorder_inner s _ hsleaf hLs, hkids_s, hlives]
      simp [interleave]
    · rw [leafDepths_inner_kids hsleaf hLs, leafDepths_inner_kids hcleaf hLc,
        leafDepths_inner_kids hs1l' (by rw [hks1, hkidss1]),
        leafDepths_inner_kids hc1l' (by rw [hkc1, hkidsc1]), hkidsc1, hkidss1]
      conv_lhs => rw [hkids_s]
      simp

theorem borrowFromNext_local {x c s : BTreeNode} {idx : Nat} (hx : Laid x)
    (hxl : x.leaf = false) (hidx : idx < x.n)
    (hc : childAt x idx = some c) (hs : childAt x (idx + 1) = some s)
    (hlc : Laid c) (hls : Laid s) (hleaf : c.leaf = s.leaf) (hs1 : 1 ≤ s.n)
    (hroom : c.n < c.keys.length)
    (hroomc : c.leaf = false → c.n + 1 < c.children.length) :
    ∃ x1 c1 s1 pk sk, borrowFromNext x idx = some x1 ∧ x.keys[idx]? = some pk ∧
      s.keys[0]? = some sk ∧
      x1.n = x.n ∧ x1.leaf = x.leaf ∧ x1.keys = x.keys.set idx sk ∧
      x1.children = (x.children.set idx (some c1)).set (idx + 1) (some s1) ∧
      c1.n = c.n + 1 ∧ c1.leaf = c.leaf ∧ liveKeys c1 = liveKeys c ++ [pk] ∧
      s1.n + 1 = s.n ∧ s1.leaf = s.leaf ∧ liveKeys s = sk :: liveKeys s1 ∧
      (c.leaf = false → ∃ g, s.children[0]? = some (some g) ∧
        kids c1 = kids c ++ [g] ∧ kids s = g :: kids s1) ∧
      inorder x1 = inorder x ∧ leafDepths x1 = leafDepths x := by
  obtain ⟨hkc, hcc⟩ := hx.kid_of_childAt hxl (show idx ≤ x.n by omega) hc
  obtain ⟨hks, hsc⟩ := hx.kid_of_childAt hxl (show idx + 1 ≤ x.n by omega) hs
  have hlenk := hx.kids_count hxl
  have hxk := hx.1
  obtain ⟨hxc, hL⟩ := hx.2 hxl
  have hsk0 := hls.1
  obtain ⟨pk, hpk⟩ : ∃ pk, x.keys[idx]? = some pk :=
    ⟨_, List.getElem?_eq_getElem (show idx < x.keys.length by omega)⟩
  obtain ⟨sc, hscd⟩ : ∃ sc, sc = (s.children[0]?).getD none := ⟨_, rfl⟩
  have hscv : c.leaf = false → s.children[0]? = some sc := by
    intro hcl
    have hsl : s.leaf = false := by rw [← hleaf]; exact hcl
    have := (hls.2 hsl).1
    rw [hscd, List.getElem?_eq_getElem (show 0 < s.children.length by omega)]
    rfl
  obtain ⟨cc, hccdef⟩ : ∃ cc, cc = if c.leaf then c.children
      else c.children.set (c.n + 1) sc := ⟨_, rfl⟩
  have ecc : (if c.leaf then some c.children
      else (s.children[0]?).bind fun sc => store c.children (c.n + 1) sc) = some cc := by
    rw [hccdef]
    by_cases hlf : c.leaf = true
    · simp [hlf]
    · have hlf' : c.leaf = false := by simpa using hlf
      have := hroomc hlf'
      simp [hlf, hscv hlf', store_eq_some _ (show c.n + 1 < c.children.length by omega)]
  obtain ⟨sk1, esk1, lsk1, psk1⟩ := shiftDown_spec (s.n - 1) 0 s.keys (by omega)
  have hscx : ∃ sc1, (if s.leaf then some s.children
      else shiftDown s.n 0 s.children) = some sc1 ∧
      (s.leaf = false → ∀ j, sc1[j]? = if 0 ≤ j ∧ j + 1 < s.n + 1 then s.children[j + 1]?
        else s.children[j]?) := by
    by_cases hlf : s.leaf = true
    · exact ⟨s.children, by simp [hlf], by simp [hlf]⟩
    · have hlf' : s.leaf = false := by simpa using hlf
      have := (hls.2 hlf').1
      obtain ⟨sc1, esc1, lsc1, psc1⟩ := shiftDown_spec s.n 0 s.children (by omega)
      refine ⟨sc1, by simp [hlf, esc1], ?_⟩
      intro _ j
      rw [psc1 j]
      simp
  obtain ⟨sc1, esc1, sc1b⟩ := hscx
  obtain ⟨sk, hsk, hlivec, hlives, hkidsx, hin, hld⟩ := borrowNext_children_local hlc hls
    hleaf hs1 hroom hroomc pk cc sc sk1 sc1 hscv
    (by intro hlf; rw [hccdef]; simp [hlf])
    (by
      intro j
      rw [psk1 j]
      by_cases h1 : 0 ≤ j ∧ j + 1 < s.n
      · rw [if_pos h1, if_pos (by omega)]
      · rw [if_neg h1, if_neg (by omega)])
    sc1b
  obtain ⟨c1, hc1⟩ : ∃ c1, c1 = BTreeNode.mk (c.n + 1) c.leaf (c.keys.set c.n pk) cc :=
    ⟨_, rfl⟩
  obtain ⟨s1, hs1'⟩ : ∃ s1, s1 = BTreeNode.mk (s.n - 1) s.leaf sk1 sc1 := ⟨_, rfl⟩
  rw [← hc1, ← hs1'] at hin hld hkidsx
  rw [← hc1] at hlivec
  rw [← hs1'] at hlives
  obtain ⟨x1, hx1⟩ : ∃ x1, x1 = BTreeNode.mk x.n x.leaf (x.keys.set idx sk)
      ((x.children.set idx (some c1)).set (idx + 1) (some s1)) := ⟨_, rfl⟩
  have e : borrowFromNext x idx = some x1 := by
    have hs0 : s.n ≠ 0 := by omega
    rw [hx1, hc1, hs1']
    simp [borrowFromNext, hc, hs, hpk, store_eq_some _ hroom,
      ecc, hsk, store_eq_some _ (show idx < x.keys.length by omega), esk1, esc1, hs0,
      store_eq_some _ (show idx < x.children.length by omega),
      store_eq_some _ (show idx + 1 < (x.children.set idx
        (some (BTreeNode.mk (c.n + 1) c.leaf (c.keys.set c.n pk) cc))).length by
          simp; omega)]
  have hx1n : x1.n = x.n := by rw [hx1]; rfl
  have hx1l : x1.leaf = false := by rw [hx1]; exact hxl
  have hx1k : x1.keys = x.keys.set idx sk := by rw [hx1]; rfl
  have hx1c : x1.children = (x.children.set idx (some c1)).set (idx + 1) (some s1) := by
    rw [hx1]; rfl
  obtain ⟨A, B, hAB, hA⟩ := cut_pair (kids x) idx c s hkc hks
  have hgetk : (liveKeys x)[idx]? = some pk := by
    rw [liveKeys_get x (by omega), hpk]
  obtain ⟨K, Lk, hKL, hK⟩ := exists_cut (liveKeys x) idx pk hgetk
  have hlive1 : liveKeys x1 = K ++ sk :: Lk := by
    unfold liveKeys
    rw [hx1n, hx1k, List.set_take]
    show (liveKeys x).set idx sk = _
    rw [hKL, ← hK, set_mid]
  have hkids1 : x1.children.take (x1.n + 1) = (A ++ c1 :: s1 :: B).map some := by
    rw [hx1n, hx1c, List.set_take, List.set_take, hL, hAB, ← List.map_set, ← List.map_set,
      ← hA, set_mid, set_mid_succ]
  refine ⟨x1, c1, s1, pk, sk, e, hpk, hsk, hx1n, by rw [hx1]; rfl, hx1k, hx1c,
    by rw [hc1]; rfl, by rw [hc1]; rfl, hlivec, by rw [hs1']; simp; omega,
    by rw [hs1']; rfl, hlives, ?_, ?_, ?_⟩
  · intro hcl
    obtain ⟨g, hg, h1, h2⟩ := hkidsx hcl
    refine ⟨g, ?_, h1, h2⟩
    rw [hscv hcl, hg]
  · rw [BT.inorder_inner x1 _ hx1l hkids1, hlive1, BT.inorder_inner x (kids x) hxl hL, hAB, hKL]
    simp only [List.map_append, List.map_cons]
    rw [interleave_two _ _ _ _ _ _ _ (by simpa using hA.trans hK.symm),
      interleave_two _ _ _ _ _ _ _ (by simpa using hA.trans hK.symm)]
    have := congrArg (fun l => interleave (List.map inorder A ++ [[]]) K ++ l ++
      interleave ([] :: List.map inorder B) Lk) hin
    simpa using this.symm
  · have hk1 : kids x1 = A ++ c1 :: s1 :: B := kids_of_take x1 _ hkids1
    have h3 : (A ++ c1 :: s1 :: B).flatMap leafDepths =
        A.flatMap leafDepths ++ ((leafDepths c1 ++ leafDepths s1) ++ B.flatMap leafDepths) := by
      simp
    have h4 : (A ++ c :: s :: B).flatMap leafDepths =
        A.flatMap leafDepths ++ ((leafDepths c ++ leafDepths s) ++ B.flatMap leafDepths) := by
      simp
    rw [leafDepths_inner_kids hx1l (by rw [hkids1, hk1]), leafDepths_inner_kids hxl hL, hk1,
      hAB, h3, h4, hld]

/-- C20: let `x` be an inner node laid out as the code expects, and `c` its child in slot
`idx`, laid out as well and not full (room for one more key and, if it is an inner node,
one more child). For a left sibling `s` (`idx ≥ 1`) that is not empty and on the level
of `c`, `borrowFromPrev(x, idx)` returns and moves `x.keys[idx-1]` to the front of the
keys of `c`, the last key of `s` into `x.keys[idx-1]` and, for inner children, the last
child of `s` to the front of the children of `c`. For a right sibling `s` (`idx < n`),
`borrowFromNext(x, idx)` is the mirror image, with the first key and the first child of
`s` going to the end of `c`. In both cases `c` gains exactly one key, `s` loses exactly
one, `x.n`, the depth of every leaf below `x` and the in-order key sequence of the
subtree of `x` stay as they were. -/
theorem C20_borrow (x c : BTreeNode) (idx : Nat) (hx : Laid x) (hxl : x.leaf = false)
    (hc : childAt x idx = some c) (hlc : Laid c) (hroom : c.n < c.keys.length)
    (hroomc : c.leaf = false → c.n + 1 < c.children.length) :
    (∀ s, 1 ≤ idx → idx ≤ x.n → childAt x (idx - 1) = some s → Laid s →
      c.leaf = s.leaf → 1 ≤ s.n →
      ∃ x1 c1 s1 pk sk, borrowFromPrev x idx = some x1 ∧ x.keys[idx - 1]? = some pk ∧
        s.keys[s.n - 1]? = some sk ∧
        x1.n = x.n ∧ x1.leaf = x.leaf ∧ x1.keys = x.keys.set (idx - 1) sk ∧
        x1.children = (x.children.set idx (some c1)).set (idx - 1) (some s1) ∧
        c1.n = c.n + 1 ∧ c1.leaf = c.leaf ∧ liveKeys c1 = pk :: liveKeys c ∧
        s1.n + 1 = s.n ∧ s1.leaf = s.leaf ∧ liveKeys s = liveKeys s1 ++ [sk] ∧
        (c.leaf = false → ∃ g, s.children[s.n]? = some (some g) ∧
          kids c1 = g :: kids c ∧ kids s = kids s1 ++ [g]) ∧
        inorder x1 = inorder x ∧ leafDepths x1 = leafDepths x) ∧
    (∀ s, idx < x.n → childAt x (idx + 1) = some s → Laid s → c.leaf = s.leaf → 1 ≤ s.n →
      ∃ x1 c1 s1 pk sk, borrowFromNext x idx = some x1 ∧ x.keys[idx]? = some pk ∧
        s.keys[0]? = some sk ∧
        x1.n = x.n ∧ x1.leaf = x.leaf ∧ x1.keys = x.keys.set idx sk ∧
        x1.children = (x.children.set idx (some c1)).set (idx + 1) (some s1) ∧
        c1.n = c.n + 1 ∧ c1.leaf = c.leaf ∧ liveKeys c1 = liveKeys c ++ [pk] ∧
        s1.n + 1 = s.n ∧ s1.leaf = s.leaf ∧ liveKeys s = sk :: liveKeys s1 ∧
        (c.leaf = false → ∃ g, s.children[0]? = some (some g) ∧
          kids c1 = kids c ++ [g] ∧ kids s = g :: kids s1) ∧
        inorder x1 = inorder x ∧ leafDepths x1 = leafDepths x) :=
  ⟨fun _ hidx0 hidx hs hls hleaf hs1 =>
      borrowFromPrev_local hx hxl hidx0 hidx hc hs hlc hls hleaf hs1 hroom hroomc,
    fun _ hidx hs hls hleaf hs1 =>
      borrowFromNext_local hx hxl hidx hc hs hlc hls hleaf hs1 hroom hroomc⟩

/-- C20, witness: for the node with the keys `5 9` over the leaves `1 3`, `7` and
`11 13` (`t = 2`), `borrowFromPrev(x, 1)` leaves the keys `3 9` in the node and
`borrowFromNext(x, 1)` the keys `5 11`; the in-order sequence and the leaf depths stay. -/
theorem C20_borrow_witness :
    (Laid (.mk 2 false [5, 9, 0]
        [some (.mk 2 true [1, 3, 0] [none, none, none, none]),
         some (.mk 1 true [7, 0, 0] [none, none, none, none]),
         some (.mk 2 true [11, 13, 0] [none, none, none, none]), none]) ∧
      Laid (.mk 1 true [7, 0, 0] [none, none, none, none])) ∧
    (∃ x1, borrowFromPrev (.mk 2 false [5, 9, 0]
        [some (.mk 2 true [1, 3, 0] [none, none, none, none]),
         some (.mk 1 true [7, 0, 0] [none, none, none, none]),
         some (.mk 2 true [11, 13, 0] [none, none, none, none]), none]) 1 = some x1 ∧
      liveKeys x1 = [3, 9] ∧ inorder x1 = [1, 3, 5, 7, 9, 11, 13] ∧
      leafDepths x1 = [1, 1, 1]) ∧
    (∃ x1, borrowFromNext (.mk 2 false [5, 9, 0]
        [some (.mk 2 true [1, 3, 0] [none, none, none, none]),
         some (.mk 1 true [7, 0, 0] [none, none, none, none]),
         some (.mk 2 true [11, 13, 0] [none, none, none, none]), none]) 1 = some x1 ∧
      liveKeys x1 = [5, 11] ∧ inorder x1 = [1, 3, 5, 7, 9, 11, 13] ∧
      leafDepths x1 = [1, 1, 1]) := by
  have hx : Laid (.mk 2 false [5, 9, 0]
      [some (.mk 2 true [1, 3, 0] [none, none, none, none]),
       some (.mk 1 true [7, 0, 0] [none, none, none, none]),
       some (.mk 2 true [11, 13, 0] [none, none, none, none]), none]) :=
    ⟨by decide, fun _ => ⟨by decide, rfl⟩⟩
  have hc : Laid (.mk 1 true [7, 0, 0] [none, none, none, none]) :=
    ⟨by decide, fun h => by simp at h⟩
  have hl : Laid (.mk 2 true [1, 3, 0] [none, none, none, none]) :=
    ⟨by decide, fun h => by simp at h⟩
  have hr : Laid (.mk 2 true [11, 13, 0] [none, none, none, none]) :=
    ⟨by decide, fun h => by simp at h⟩
  obtain ⟨h1, h2⟩ := C20_borrow (.mk 2 false [5, 9, 0]
      [some (.mk 2 true [1, 3, 0] [none, none, none, none]),
       some (.mk 1 true [7, 0, 0] [none, none, none, none]),
       some (.mk 2 true [11, 13, 0] [none, none, none, none]), none])
    (.mk 1 true [7, 0, 0] [none, none, none, none]) 1 hx rfl rfl hc (by decide)
    (fun h => by simp at h)
  obtain ⟨x1, c1, s1, pk, sk, e1, -, hsk, hn, -, hk, -, -, -, -, -, -, -, -, hin, hld⟩ :=
    h1 (.mk 2 true [1, 3, 0] [none, none, none, none]) (by decide) (by decide) rfl hl rfl
      (by decide)
  obtain ⟨y1, d1, r1, pk', sk', e2, -, hsk', hn', -, hk', -, -, -, -, -, -, -, -, hin',
    hld'⟩ := h2 (.mk 2 true [11, 13, 0] [none, none, none, none]) (by decide) rfl hr rfl
      (by decide)
  simp at hsk hsk'
  subst hsk hsk'
  refine ⟨⟨hx, hc⟩, ⟨x1, e1, ?_, ?_, ?_⟩, ⟨y1, e2, ?_, ?_, ?_⟩⟩
  · unfold liveKeys
    rw [hn, hk]
    rfl
  · rw [hin]
    simp [inorder, inorderSlots, inorderSlot, interleave]
  · rw [hld]
    simp [leafDepths, leafDepthsSlots, leafDepthsSlot]
  · unfold liveKeys
    rw [hn', hk']
    rfl
  · rw [hin']
    simp [inorder, inorderSlots, inorderSlot, interleave]
  · rw [hld']
    simp [leafDepths, leafDepthsSlots, leafDepthsSlot]

/-! ### Height of the tree across `deleteKey` and `insert` -/

theorem bal_leafDepths_ne_nil {t : Nat} :
    ∀ (h : Nat) (x : BTreeNode), Bal t h x → leafDepths x ≠ [] := by
  intro h
  induction h with
  | zero =>
    intro x hb
    rw [leafDepths_eq, if_pos hb.1]
    simp
  | succ h ih =>
    intro x hb
    obtain ⟨c, hkc, hcc, -, -, hbc⟩ := hb.child (Nat.zero_le x.n)
    have hne := ih c hbc
    rw [leafDepths_inner_kids hb.1 hb.2.2.1]
    intro hcon
    have hnil := List.map_eq_nil_iff.mp hcon
    apply hne
    apply List.eq_nil_iff_forall_not_mem.mpr
    intro e he
    have : e ∈ (kids x).flatMap leafDepths :=
      List.mem_flatMap.mpr ⟨c, List.getElem?_mem hkc, he⟩
    rw [hnil] at this
    cases this

theorem bal_height_unique {t h : Nat} {x : BTreeNode} (hb : Bal t h x) {H : Nat}
    (hH : ∀ d ∈ leafDepths x, d = H) : H = h := by
  obtain ⟨d, hd⟩ := List.exists_mem_of_ne_nil _ (bal_leafDepths_ne_nil h x hb)
  rw [← hH d hd, Bal.leafDepths h x hb d hd]

theorem deleteKey_root_height {t : Nat} (ht : 2 ≤ t) {h : Nat} {root : BTreeNode} (key : Int)
    (hb : Bal t h root) (hs : (inorder root).Sorted (· ≤ ·))
    (hr : root.leaf = false → 1 ≤ root.n) :
    ∃ r out root' h', deleteFromNode (root.depth + 1) root key t = some (r, out) ∧
      deleteKey ⟨some root, t⟩ key = some (⟨some root', t⟩, out) ∧
      Bal t h r ∧ Bal t h' root' ∧ inorder root' = (inorder root).erase key ∧
      (r.n ≠ 0 → root' = r ∧ h' = h) ∧
      (r.n = 0 → r.leaf = true → createNode true t = some root' ∧ h' = h ∧ h = 0) ∧
      (r.n = 0 → r.leaf = false →
        r.children[0]? = some (some root') ∧ kids r = [root'] ∧ h' + 1 = h) ∧
      (root'.n = 0 → root'.leaf = true) := by
  have hd := hb.depth_ge
  obtain ⟨r, out, e, hbr, hinr, hrn1, hrn2, hout⟩ := deleteFromNode_spec ht h (root.depth + 1)
    root key (by omega) hb hs (by
      intro h0
      apply hr
      by_contra hcon
      exact h0 ((hb.leaf_iff).mp (by simpa using hcon)))
  by_cases hn0 : r.n = 0
  · cases h with
    | zero =>
      have hleaf : r.leaf = true := hbr.1
      have ht0 : t ≠ 0 := by omega
      obtain ⟨fr, hfr⟩ : ∃ fr, fr = BTreeNode.mk 0 true (List.replicate (2 * t - 1) 0)
          (List.replicate (2 * t) none) := ⟨_, rfl⟩
      have hfl : fr.leaf = true := by rw [hfr]; rfl
      have hfk : liveKeys fr = [] := by rw [hfr]; rfl
      refine ⟨r, out, fr, 0, e, ?_, hbr, ?_, ?_, fun h1 => absurd hn0 h1,
        fun _ _ => ⟨by rw [hfr]; simp [createNode, ht0], rfl, rfl⟩, ?_, fun _ => hfl⟩
      · rw [hfr]
        simp [deleteKey, e, hn0, hleaf, createNode, ht0]
      · rw [hfr]
        exact ⟨rfl, ⟨by simp, by simp, by simp; omega⟩,
          fun c hc => List.eq_of_mem_replicate hc⟩
      · rw [← hinr, inorder_leaf r hleaf, inorder_leaf fr hfl, hfk]
        simp [liveKeys, hn0]
      · intro _ hl
        rw [hleaf] at hl
        cases hl
    | succ h =>
      have hleaf : r.leaf = false := hbr.1
      obtain ⟨c, hkc, hcc, hca, hcn, hbc⟩ := hbr.child (Nat.zero_le r.n)
      have hcut := hbr.cut (Nat.zero_le r.n) hkc
      have hright : rightOf r 0 = [] := by
        have := hbr.rightOf_last
        rwa [hn0] at this
      rw [leftOf_zero, hright] at hcut
      simp only [List.nil_append, List.append_nil] at hcut
      have hkl := hbr.kids_length
      have hkids : kids r = [c] := by
        rw [hn0] at hkl
        match hk : kids r, hkl with
        | [c'], _ =>
          rw [hk] at hkc
          simp at hkc
          rw [hkc]
      refine ⟨r, out, c, h, e, ?_, hbr, hbc, by rw [← hcut, hinr], fun h1 => absurd hn0 h1,
        ?_, fun _ _ => ⟨hcc, hkids, rfl⟩, ?_⟩
      · simp [deleteKey, e, hn0, hleaf, hcc]
      · intro _ hl
        rw [hleaf] at hl
        cases hl
      · intro hc0
        have : 1 ≤ c.n := by omega
        omega
  · refine ⟨r, out, r, h, e, ?_, hbr, hbr, hinr, fun _ => ⟨rfl, rfl⟩,
      fun h1 => absurd h1 hn0, fun h1 => absurd h1 hn0, fun h1 => absurd h1 hn0⟩
    simp [deleteKey, e, hn0]

theorem insert_root_height {t : Nat} (ht : 2 ≤ t) {h : Nat} {root : BTreeNode} (key : Int)
    (hb : Bal t h root) (hs : (inorder root).Sorted (· ≤ ·)) :
    ∃ r, insert ⟨some root, t⟩ key = some ⟨some r, t⟩ ∧
      (root.n + 1 = 2 * t → Bal t (h + 1) r ∧
        ∃ s l u, splitChild (.mk 0 false (List.replicate (2 * t - 1) 0)
            ((List.replicate (2 * t) none).set 0 (some root))) 0 root t = some s ∧
          s.leaf = false ∧ s.n = 1 ∧ childAt s 0 = some l ∧ childAt s 1 = some u ∧
          l.n = t - 1 ∧ u.n = t - 1 ∧ Bal t (h + 1) s ∧
          insertNonFull (root.depth + 2) s key t = some r) ∧
      (root.n + 1 ≠ 2 * t → Bal t h r ∧ insertNonFull (root.depth + 2) root key t = some r) := by
  have hd := hb.depth_ge
  obtain ⟨hk, hcl, hn⟩ := hb.nodeOK
  by_cases hfull : root.n + 1 = 2 * t
  · obtain ⟨nr, hnr⟩ : ∃ nr, nr = BTreeNode.mk 0 false (List.replicate (2 * t - 1) 0)
        ((List.replicate (2 * t) none).set 0 (some root)) := ⟨_, rfl⟩
    have hnrn : nr.n = 0 := by rw [hnr]; rfl
    have hkids : nr.children.take (nr.n + 1) = [root].map some := by
      rw [hnr]
      show ((List.replicate (2 * t) none).set 0 (some root)).take 1 = _
      obtain ⟨m, hm⟩ : ∃ m, 2 * t = m + 1 := ⟨2 * t - 1, by omega⟩
      rw [hm]
      simp [List.replicate_succ]
    have hbnr : Bal t (h + 1) nr := by
      refine Bal_succ_of [root] (by rw [hnr]; rfl) ⟨by rw [hnr]; simp, by rw [hnr]; simp,
        by omega⟩ hkids ?_
      intro c hc
      have : c = root := by simpa using hc
      subst this
      exact ⟨by omega, hb⟩
    have hinnr : inorder nr = inorder root := by
      rw [BT.inorder_inner nr [root] (by rw [hnr]; rfl) hkids]
      have : liveKeys nr = [] := by rw [hnr]; rfl
      rw [this]
      rfl
    have hca : childAt nr 0 = some root := by
      apply childAt_eq
      have := congrArg (fun l => l[0]?) hkids
      simpa [hnrn] using this
    obtain ⟨x1, l, r, m, es, hb1, hin1, hn1, -, hl, hr, hln, hrn⟩ :=
      splitChild_spec hbnr (Nat.zero_le _) (by omega) hca hfull
    obtain ⟨r', er, hbr, -, -, -⟩ := insertNonFull_spec t key (h + 1)
      (root.depth + 2) x1 (by omega) hb1 (by omega) (by rw [hin1, hinnr]; exact hs)
    rw [hnr] at es
    refine ⟨r', ?_, fun _ => ⟨hbr, x1, l, r, es, hb1.1, by rw [hn1, hnrn], hl, hr, hln, hrn,
      hb1, er⟩, fun hcon => absurd hfull hcon⟩
    have ht0 : t ≠ 0 := by omega
    simp [insert, hfull, createNode, ht0,
      store_eq_some _ (show 0 < (List.replicate (2 * t) (none : Option BTreeNode)).length by
        simp; omega), BTreeNode.setChildren, es, er]
  · obtain ⟨r', er, hbr, -, -, -⟩ := insertNonFull_spec t key h
      (root.depth + 2) root (by omega) hb (by omega) hs
    exact ⟨r', by simp [insert, hfull, er], fun hcon => absurd hcon hfull, fun _ => ⟨hbr, er⟩⟩

/-! ### Height of the tree across `deleteKey` and `insert` (claims) -/

theorem twoLeafTree_invariants : Invariants 2 twoLeafTree := by
  refine invariants_of_bal (h := 1) rfl rfl ?_
    (by simp [inorder, inorderSlots, inorderSlot, interleave])
  rw [Bal_succ_iff]
  refine ⟨rfl, ⟨rfl, rfl, by simp [BTreeNode.n]⟩, rfl, ?_⟩
  intro c hc
  simp [kids] at hc
  rcases hc with rfl | rfl
  · exact ⟨by simp [BTreeNode.n], rfl, ⟨rfl, rfl, by simp [BTreeNode.n]⟩, by simp [BTreeNode.children]⟩
  · exact ⟨by simp [BTreeNode.n], rfl, ⟨rfl, rfl, by simp [BTreeNode.n]⟩, by simp [BTreeNode.children]⟩

theorem twoLeafTree_rootHasKey : RootHasKey twoLeafTree := by
  intro root hr _
  have : root = .mk 1 false [2, 0, 0]
    [some (.mk 1 true [1, 0, 0] [none, none, none, none]),
     some (.mk 1 true [3, 0, 0] [none, none, none, none]), none, none] :=
    (Option.some.inj hr).symm
  rw [this]
  exact le_refl _

theorem fullLeafTree_invariants : Invariants 2 fullLeafTree := by
  refine invariants_of_bal (h := 0) rfl rfl ?_ (by simp [inorder])
  exact ⟨rfl, ⟨rfl, rfl, by simp [BTreeNode.n]⟩, by simp [BTreeNode.children]⟩

/-- C21, counterexample: the tree with `t = 2` whose root is an inner node without a key
over the single leaf `4` satisfies invariants 1 to 5, and `deleteKey(tree, 4)` does not
return a tree at all, of whatever height: `fill(root, 0)` ends in `merge(root, -1)`,
which reads `children[-1]`. -/
theorem C21_keyless_root_no_tree :
    Invariants 2 ⟨some (.mk 0 false [0, 0, 0]
      [some (.mk 1 true [4, 0, 0] [none, none, none, none]), none, none, none]), 2⟩ ∧
    deleteKey ⟨some (.mk 0 false [0, 0, 0]
      [some (.mk 1 true [4, 0, 0] [none, none, none, none]), none, none, none]), 2⟩ 4 =
        none :=
  ⟨keyless_root_invariants 4, rfl⟩

/-- C21, amended: for every tree with `t ≥ 2` that satisfies invariants 1 to 5, whose
root, if it is an inner node, has at least one key, and whose leaves are at depth `h`,
and every key `k`, `deleteKey(tree, k)` returns a tree whose leaves are all at one depth
`h'`, which is `h` or `h - 1`. With `r` the root as `deleteFromNode` leaves it (its
leaves still at depth `h`): the height is lowered exactly when `r` is an inner node with
0 keys, and then the new root is `r.children[0]`, the only child of `r`; when `r` is a
leaf with 0 keys the new root is a fresh empty leaf as `createNode` makes it; otherwise
the root stays `r`. After the call the root has 0 keys only if the tree holds no key. -/
theorem C21_deleteKey_height (t : Nat) (tree : BTree) (root : BTreeNode) (h : Nat) (k : Int)
    (ht : 2 ≤ t) (hinv : Invariants t tree) (hrk : RootHasKey tree)
    (hroot : tree.root = some root) (hh : ∀ d ∈ leafDepths root, d = h) :
    ∃ r out root' h', deleteFromNode (root.depth + 1) root k t = some (r, out) ∧
      deleteKey tree k = some (⟨some root', t⟩, out) ∧
      leafDepths r ≠ [] ∧ (∀ d ∈ leafDepths r, d = h) ∧
      leafDepths root' ≠ [] ∧ (∀ d ∈ leafDepths root', d = h') ∧
      (h' = h ∨ h' + 1 = h) ∧
      (h' + 1 = h ↔ r.leaf = false ∧ r.n = 0) ∧
      (r.leaf = false → r.n = 0 →
        r.children[0]? = some (some root') ∧ kids r = [root']) ∧
      (r.leaf = true → r.n = 0 → createNode true t = some root') ∧
      (r.n ≠ 0 → root' = r) ∧
      (root'.n = 0 → keysOf ⟨some root', t⟩ = []) := by
  have htt := hinv.1
  obtain ⟨root0, h0, hroot0, hb, hs⟩ := hinv.bal
  rw [hroot] at hroot0
  cases hroot0
  have hh0 : h = h0 := bal_height_unique hb hh
  subst hh0
  obtain ⟨r, out, root', h', e1, e2, hbr, hbr', hin, hA, hB, hC, hD⟩ :=
    deleteKey_root_height ht k hb (hs.imp (fun hab => le_of_lt hab)) (hrk root hroot)
  rw [← tree_eta htt hroot] at e2
  refine ⟨r, out, root', h', e1, e2, bal_leafDepths_ne_nil _ _ hbr, Bal.leafDepths _ _ hbr,
    bal_leafDepths_ne_nil _ _ hbr', Bal.leafDepths _ _ hbr', ?_, ?_,
    fun hl hn => ⟨(hC hn hl).1, (hC hn hl).2.1⟩, fun hl hn => (hB hn hl).1,
    fun hn => (hA hn).1, ?_⟩
  · by_cases hn : r.n = 0
    · cases hl : r.leaf with
      | true => exact Or.inl (hB hn hl).2.1
      | false => exact Or.inr (hC hn hl).2.2
    · exact Or.inl (hA hn).2
  · constructor
    · intro hlow
      by_cases hn : r.n = 0
      · cases hl : r.leaf with
        | true =>
          have := (hB hn hl).2.1
          omega
        | false => exact ⟨rfl, hn⟩
      · have := (hA hn).2
        omega
    · rintro ⟨hl, hn⟩
      exact (hC hn hl).2.2
  · intro hn
    have hl := hD hn
    show inorder root' = []
    rw [inorder_leaf root' hl]
    simp [liveKeys, hn]

/-- C21, witness: the amended claim for key `3` and the tree with `t = 2` and root key
`2` over the leaves `1` and `3`, whose leaves are at depth 1. -/
theorem C21_deleteKey_height_witness :
    (2 ≤ 2 ∧ Invariants 2 twoLeafTree ∧ RootHasKey twoLeafTree) ∧
    ∃ root, twoLeafTree.root = some root ∧ (∀ d ∈ leafDepths root, d = 1) ∧
    ∃ r out root' h', deleteFromNode (root.depth + 1) root 3 2 = some (r, out) ∧
      deleteKey twoLeafTree 3 = some (⟨some root', 2⟩, out) ∧
      leafDepths r ≠ [] ∧ (∀ d ∈ leafDepths r, d = 1) ∧
      leafDepths root' ≠ [] ∧ (∀ d ∈ leafDepths root', d = h') ∧
      (h' = 1 ∨ h' + 1 = 1) ∧
      (h' + 1 = 1 ↔ r.leaf = false ∧ r.n = 0) ∧
      (r.leaf = false → r.n = 0 →
        r.children[0]? = some (some root') ∧ kids r = [root']) ∧
      (r.leaf = true → r.n = 0 → createNode true 2 = some root') ∧
      (r.n ≠ 0 → root' = r) ∧
      (root'.n = 0 → keysOf ⟨some root', 2⟩ = []) := by
  have hd : ∀ d ∈ leafDepths (.mk 1 false [2, 0, 0]
      [some (.mk 1 true [1, 0, 0] [none, none, none, none]),
       some (.mk 1 true [3, 0, 0] [none, none, none, none]), none, none]), d = 1 := by
    intro d hd
    simp [leafDepths, leafDepthsSlots, leafDepthsSlot] at hd
    exact hd
  exact ⟨⟨le_refl _, twoLeafTree_invariants, twoLeafTree_rootHasKey⟩, _, rfl, hd,
    C21_deleteKey_height 2 twoLeafTree _ 1 3 (le_refl _) twoLeafTree_invariants
      twoLeafTree_rootHasKey rfl hd⟩

/-- C30: for every tree with `t ≥ 2` that satisfies invariants 1 to 5 and whose leaves are
at depth `h`, and every key, `insert(tree, key)` returns a tree whose leaves are all at
depth `h + 1` if the root has `2t - 1` keys before the call, and all at depth `h`
otherwise. In the first case `splitChild` on the fresh root gives, before the descent, an
inner node with one key and two children of `t - 1` keys each, whose leaves are at depth
`h + 1`, and `insertNonFull` is run on that node; otherwise it is run on the old root. -/
theorem C30_insert_height (t : Nat) (tree : BTree) (root : BTreeNode) (h : Nat) (key : Int)
    (ht : 2 ≤ t) (hinv : Invariants t tree) (hroot : tree.root = some root)
    (hh : ∀ d ∈ leafDepths root, d = h) :
    ∃ r, insert tree key = some ⟨some r, t⟩ ∧ leafDepths r ≠ [] ∧
      (root.n = 2 * t - 1 → (∀ d ∈ leafDepths r, d = h + 1) ∧
        ∃ nr cs s l u, createNode false t = some nr ∧ store nr.children 0 (some root) = some cs ∧
          splitChild (nr.setChildren cs) 0 root t = some s ∧
          s.leaf = false ∧ s.n = 1 ∧ childAt s 0 = some l ∧ childAt s 1 = some u ∧
          l.n = t - 1 ∧ u.n = t - 1 ∧ (∀ d ∈ leafDepths s, d = h + 1) ∧
          insertNonFull (root.depth + 2) s key t = some r) ∧
      (root.n ≠ 2 * t - 1 → (∀ d ∈ leafDepths r, d = h) ∧
        insertNonFull (root.depth + 2) root key t = some r) := by
  have htt := hinv.1
  obtain ⟨root0, h0, hroot0, hb, hs⟩ := hinv.bal
  rw [hroot] at hroot0
  cases hroot0
  have hh0 : h = h0 := bal_height_unique hb hh
  subst hh0
  obtain ⟨r, e, hF, hN⟩ := insert_root_height ht key hb (hs.imp (fun hab => le_of_lt hab))
  rw [← tree_eta htt hroot] at e
  have ht0 : t ≠ 0 := by omega
  refine ⟨r, e, ?_, ?_, ?_⟩
  · by_cases hfull : root.n + 1 = 2 * t
    · exact bal_leafDepths_ne_nil _ _ (hF hfull).1
    · exact bal_leafDepths_ne_nil _ _ (hN hfull).1
  · intro hfull
    obtain ⟨hbr, s, l, u, es, hsl, hsn, hl, hu, hln, hun, hbs, er⟩ := hF (by omega)
    refine ⟨Bal.leafDepths _ _ hbr,
      .mk 0 false (List.replicate (2 * t - 1) 0) (List.replicate (2 * t) none),
      (List.replicate (2 * t) none).set 0 (some root), s, l, u, by simp [createNode, ht0],
      store_eq_some _ (show 0 < (List.replicate (2 * t) (none : Option BTreeNode)).length by
        simp; omega), es, hsl, hsn, hl, hu, hln, hun, Bal.leafDepths _ _ hbs, er⟩
  · intro hfull
    obtain ⟨hbr, er⟩ := hN (by omega)
    exact ⟨Bal.leafDepths _ _ hbr, er⟩

/-- C30, witness: the claim for key `4` and the tree with `t = 2` whose root is the full
leaf `1 2 3` (leaves at depth 0). -/
theorem C30_insert_height_witness :
    (2 ≤ 2 ∧ Invariants 2 fullLeafTree) ∧
    ∃ root, fullLeafTree.root = some root ∧ root.n = 2 * 2 - 1 ∧
      (∀ d ∈ leafDepths root, d = 0) ∧
    ∃ r, insert fullLeafTree 4 = some ⟨some r, 2⟩ ∧ leafDepths r ≠ [] ∧
      (root.n = 2 * 2 - 1 → (∀ d ∈ leafDepths r, d = 0 + 1) ∧
        ∃ nr cs s l u, createNode false 2 = some nr ∧
          store nr.children 0 (some root) = some cs ∧
          splitChild (nr.setChildren cs) 0 root 2 = some s ∧
          s.leaf = false ∧ s.n = 1 ∧ childAt s 0 = some l ∧ childAt s 1 = some u ∧
          l.n = 2 - 1 ∧ u.n = 2 - 1 ∧ (∀ d ∈ leafDepths s, d = 0 + 1) ∧
          insertNonFull (root.depth + 2) s 4 2 = some r) ∧
      (root.n ≠ 2 * 2 - 1 → (∀ d ∈ leafDepths r, d = 0) ∧
        insertNonFull (root.depth + 2) root 4 2 = some r) := by
  have hd : ∀ d ∈ leafDepths (.mk 3 true [1, 2, 3] [none, none, none, none]), d = 0 := by
    intro d hd
    simp [leafDepths] at hd
    exact hd
  exact ⟨⟨le_refl _, fullLeafTree_invariants⟩, _, rfl, rfl, hd,
    C30_insert_height 2 fullLeafTree _ 0 4 (le_refl _) fullLeafTree_invariants rfl hd⟩

/-! ### Invariants 3 to 5 alone, and the number of keys of a tree of given height -/

theorem ShapeInvariants.to_bal {t : Nat} {tree : BTree} (hi : ShapeInvariants t tree) :
    ∃ root h, tree.root = some root ∧ Bal t h root := by
  obtain ⟨-, root, hroot, hs, hnc, ⟨h, hld⟩, hmin⟩ := hi
  exact ⟨root, h, hroot, bal_of_shape root.depth root h (le_refl _) hs hnc hld hmin⟩

theorem Invariants.shape {t : Nat} {tree : BTree} (hi : Invariants t tree) :
    ShapeInvariants t tree := by
  obtain ⟨htt, root, hroot, hs, hnc, -, hld, hmin⟩ := hi
  exact ⟨htt, root, hroot, hs, hnc, hld, hmin⟩

theorem Bal.nodes_shape {t h : Nat} {root : BTreeNode} (hb : Bal t h root) :
    (∀ x ∈ nodes root, ∃ h', h' ≤ h ∧ Bal t h' x) ∧
    (∀ x ∈ properNodes root, t - 1 ≤ x.n) := by
  obtain ⟨h1, h2⟩ := Bal.nodes_inv (fun _ _ => True) h root hb
    (List.pairwise_of_forall (fun _ _ => trivial))
  exact ⟨fun x hx => by
    obtain ⟨h', hh', hbx, -⟩ := h1 x hx
    exact ⟨h', hh', hbx⟩, h2⟩

theorem shapeInvariants_of_bal {t h : Nat} {tree : BTree} {root : BTreeNode}
    (htt : tree.t = t) (hroot : tree.root = some root) (hb : Bal t h root) :
    ShapeInvariants t tree := by
  obtain ⟨h1, h2⟩ := hb.nodes_shape
  refine ⟨htt, root, hroot, ?_, ?_, ⟨h, Bal.leafDepths h root hb⟩, h2⟩
  · intro x hx
    obtain ⟨h', -, hbx⟩ := h1 x hx
    refine ⟨hbx.nodeOK, fun hl i hi => ?_⟩
    cases h' with
    | zero =>
      rw [hbx.1] at hl
      cases hl
    | succ h' =>
      obtain ⟨c, -, hc, -⟩ := hbx.child hi
      exact ⟨c, hc⟩
  · intro x hx hl
    obtain ⟨h', -, hbx⟩ := h1 x hx
    exact hbx.leaf_iff_no_child.mp hl

theorem length_interleave : ∀ (cs : List (List Int)) (ks : List Int),
    cs.length = ks.length + 1 →
    (interleave cs ks).length + 1 = (cs.map (fun c => c.length + 1)).sum := by
  intro cs
  induction cs with
  | nil => intro ks h; simp at h
  | cons c cs ih =>
    intro ks h
    cases ks with
    | nil =>
      have : cs = [] := List.length_eq_zero.mp (by simpa using h)
      subst this
      simp [interleave]
    | cons k ks =>
      have h' : cs.length = ks.length + 1 := by simpa using h
      have := ih ks h'
      simp only [interleave, List.length_append, List.length_cons, List.map_cons,
        List.sum_cons]
      omega

theorem sum_ge_of_forall {α : Type} (f : α → Nat) (m : Nat) :
    ∀ (L : List α), (∀ c ∈ L, m ≤ f c) → L.length * m ≤ (L.map f).sum := by
  intro L
  induction L with
  | nil => intro _; simp
  | cons c L ih =>
    intro h
    have h1 := h c (List.mem_cons_self _ _)
    have h2 := ih (fun x hx => h x (List.mem_cons_of_mem _ hx))
    simp only [List.length_cons, List.map_cons, List.sum_cons, Nat.succ_mul]
    omega

theorem Bal.length_inorder {t : Nat} :
    ∀ (h : Nat) (x : BTreeNode), Bal t h x → (inorder x).length = keyCount x := by
  intro h
  induction h with
  | zero =>
    intro x hb
    rw [inorder_leaf x hb.1, hb.live_length]
    unfold keyCount
    rw [hb.nodes_leaf]
    simp
  | succ h ih =>
    intro x hb
    have hlen := length_interleave ((kids x).map inorder) (liveKeys x)
      (by rw [List.length_map, hb.kids_length, hb.live_length])
    rw [← hb.inorder_kids] at hlen
    unfold keyCount
    rw [hb.nodes_inner]
    have hsum : ∀ (L : List BTreeNode), (∀ c ∈ L, Bal t h c) →
        ((L.map inorder).map (fun c => c.length + 1)).sum =
          ((L.flatMap nodes).map BTreeNode.n).sum + L.length := by
      intro L
      induction L with
      | nil => intro _; simp
      | cons c L ihL =>
        intro hL
        have h1 := ih c (hL c (List.mem_cons_self _ _))
        have h2 := ihL (fun y hy => hL y (List.mem_cons_of_mem _ hy))
        unfold keyCount at h1
        simp only [List.map_cons, List.sum_cons, List.flatMap_cons, List.map_append,
          List.sum_append, List.length_cons] at h2 ⊢
        omega
    have := hsum (kids x) (fun c hc => (hb.2.2.2 c hc).2)
    rw [hb.kids_length] at this
    simp only [List.map_cons, List.sum_cons]
    omega

theorem Bal.pow_le_length {t : Nat} (ht : 2 ≤ t) :
    ∀ (h : Nat) (x : BTreeNode), Bal t h x → t - 1 ≤ x.n →
      t ^ (h + 1) ≤ (inorder x).length + 1 := by
  intro h
  induction h with
  | zero =>
    intro x hb hn
    rw [inorder_leaf x hb.1, hb.live_length]
    simp only [zero_add, pow_one]
    omega
  | succ h ih =>
    intro x hb hn
    have hlen := length_interleave ((kids x).map inorder) (liveKeys x)
      (by rw [List.length_map, hb.kids_length, hb.live_length])
    rw [← hb.inorder_kids] at hlen
    have hsum := sum_ge_of_forall (fun c : BTreeNode => (inorder c).length + 1)
      (t ^ (h + 1)) (kids x) (fun c hc => ih c (hb.2.2.2 c hc).2 (hb.2.2.2 c hc).1)
    rw [hb.kids_length] at hsum
    rw [List.map_map] at hlen
    have hfun : ((fun c : List Int => c.length + 1) ∘ inorder) =
        (fun c : BTreeNode => (inorder c).length + 1) := rfl
    rw [hfun] at hlen
    have hmul : t * t ^ (h + 1) ≤ (x.n + 1) * t ^ (h + 1) :=
      Nat.mul_le_mul_right _ (by omega)
    have hpow : t ^ (h + 1 + 1) = t * t ^ (h + 1) := by
      rw [pow_succ, Nat.mul_comm]
    omega

theorem Bal.root_pow_le_length {t : Nat} (ht : 2 ≤ t) {h : Nat} {x : BTreeNode}
    (hb : Bal t h x) (hn : 1 ≤ x.n) : 2 * t ^ h ≤ (inorder x).length + 1 := by
  cases h with
  | zero =>
    rw [inorder_leaf x hb.1, hb.live_length]
    simp only [pow_zero]
    omega
  | succ h =>
    have hlen := length_interleave ((kids x).map inorder) (liveKeys x)
      (by rw [List.length_map, hb.kids_length, hb.live_length])
    rw [← hb.inorder_kids] at hlen
    have hsum := sum_ge_of_forall (fun c : BTreeNode => (inorder c).length + 1)
      (t ^ (h + 1)) (kids x)
      (fun c hc => Bal.pow_le_length ht h c (hb.2.2.2 c hc).2 (hb.2.2.2 c hc).1)
    rw [hb.kids_length] at hsum
    rw [List.map_map] at hlen
    have hfun : ((fun c : List Int => c.length + 1) ∘ inorder) =
        (fun c : BTreeNode => (inorder c).length + 1) := rfl
    rw [hfun] at hlen
    have hmul : 2 * t ^ (h + 1) ≤ (x.n + 1) * t ^ (h + 1) :=
      Nat.mul_le_mul_right _ (by omega)
    omega

/-! ### Height and number of keys (claim) -/

/-- C32: a tree with `t ≥ 2` that satisfies invariants 3 to 5 (all leaves at depth `h`,
at least `t - 1` keys in every node other than the root, at most `2t - 1` keys and
`n + 1` children per inner node) and whose root has at least one key stores at least
`2 * t^h - 1` keys, and so `h ≤ log_t ((N + 1) / 2)` for its number `N` of keys, with the
logarithm taken over the reals or rounded down over the naturals. `N` is the sum of the
key counts of the nodes, which is the length of the in-order traversal. -/
theorem C32_height_bound (t h : Nat) (tree : BTree) (root : BTreeNode) (ht : 2 ≤ t)
    (hinv : ShapeInvariants t tree) (hroot : tree.root = some root) (hkey : 1 ≤ root.n)
    (hh : ∀ d ∈ leafDepths root, d = h) :
    (keysOf tree).length = keyCount root ∧ 2 * t ^ h - 1 ≤ keyCount root ∧
      h ≤ Nat.log t ((keyCount root + 1) / 2) ∧
      (h : ℝ) ≤ Real.logb t (((keyCount root : ℝ) + 1) / 2) := by
  obtain ⟨root0, h0, hroot0, hb⟩ := hinv.to_bal
  rw [hroot] at hroot0
  cases hroot0
  have hh0 : h = h0 := bal_height_unique hb hh
  subst hh0
  have hlen := Bal.length_inorder h root hb
  have hpow := Bal.root_pow_le_length ht hb hkey
  rw [hlen] at hpow
  have hk : keysOf tree = inorder root := by
    unfold keysOf
    rw [hroot]
  have hdiv : t ^ h ≤ (keyCount root + 1) / 2 := by
    rw [Nat.le_div_iff_mul_le (by norm_num)]
    omega
  refine ⟨by rw [hk, hlen], by omega, Nat.le_log_of_pow_le (by omega) hdiv, ?_⟩
  have ht1 : (1 : ℝ) < (t : ℝ) := by exact_mod_cast (show 1 < t by omega)
  have hpos : (0 : ℝ) < ((keyCount root : ℝ) + 1) / 2 := by positivity
  rw [Real.le_logb_iff_rpow_le ht1 hpos, Real.rpow_natCast]
  have hcast : ((2 * t ^ h : Nat) : ℝ) ≤ ((keyCount root + 1 : Nat) : ℝ) := by
    exact_mod_cast hpow
  push_cast at hcast
  linarith

/-- C32, witness: the tree with `t = 2` and root key `2` over the leaves `1` and `3`
has its leaves at depth 1 and stores `3 = 2 * 2^1 - 1` keys. -/
theorem C32_height_bound_witness :
    (2 ≤ 2 ∧ ShapeInvariants 2 twoLeafTree) ∧
    ∃ root, twoLeafTree.root = some root ∧ 1 ≤ root.n ∧ (∀ d ∈ leafDepths root, d = 1) ∧
      (keysOf twoLeafTree).length = keyCount root ∧ 2 * 2 ^ 1 - 1 ≤ keyCount root ∧
      1 ≤ Nat.log 2 ((keyCount root + 1) / 2) ∧
      ((1 : Nat) : ℝ) ≤ Real.logb (2 : Nat) (((keyCount root : ℝ) + 1) / 2) := by
  have hd : ∀ d ∈ leafDepths (.mk 1 false [2, 0, 0]
      [some (.mk 1 true [1, 0, 0] [none, none, none, none]),
       some (.mk 1 true [3, 0, 0] [none, none, none, none]), none, none]), d = 1 := by
    intro d hd
    simp [leafDepths, leafDepthsSlots, leafDepthsSlot] at hd
    exact hd
  exact ⟨⟨le_refl _, twoLeafTree_invariants.shape⟩, _, rfl, le_refl _, hd,
    C32_height_bound 2 1 twoLeafTree _ (le_refl _) twoLeafTree_invariants.shape rfl
      (le_refl _) hd⟩

/-! ### Deleting a key that is not stored (claim) -/

/-- C37, counterexample: the tree with `t = 2` whose root is an inner node without a key
over the single leaf `6` satisfies invariants 1 to 5 and does not store the key `8`, and
`deleteKey(tree, 8)` does not return a tree, with whatever bound on the recursion depth:
`deleteFromNode` finds the only child with `t - 1` keys and calls `fill(root, 0)`, which
ends in `merge(root, -1)` and reads `children[-1]`. -/
theorem C37_keyless_root_absent_key :
    Invariants 2 ⟨some (.mk 0 false [0, 0, 0]
      [some (.mk 1 true [6, 0, 0] [none, none, none, none]), none, none, none]), 2⟩ ∧
    (8 : Int) ∉ keysOf ⟨some (.mk 0 false [0, 0, 0]
      [some (.mk 1 true [6, 0, 0] [none, none, none, none]), none, none, none]), 2⟩ ∧
    fill (.mk 0 false [0, 0, 0]
      [some (.mk 1 true [6, 0, 0] [none, none, none, none]), none, none, none]) 0 2 = none ∧
    (∀ f, deleteFromNode f (.mk 0 false [0, 0, 0]
      [some (.mk 1 true [6, 0, 0] [none, none, none, none]), none, none, none]) 8 2 = none) ∧
    deleteKey ⟨some (.mk 0 false [0, 0, 0]
      [some (.mk 1 true [6, 0, 0] [none, none, none, none]), none, none, none]), 2⟩ 8 =
        none := by
  refine ⟨keyless_root_invariants 6, ?_, rfl, ?_, rfl⟩
  · simp [keysOf, inorder, inorderSlots, inorderSlot, interleave]
  · intro f
    cases f with
    | zero => rfl
    | succ f => rfl

/-- C37, amended: for every tree with `t ≥ 2` that satisfies invariants 1 to 5 and whose
root, if it is an inner node, has at least one key, and every key `k` not stored in it,
`deleteKey(tree, k)` returns, reports that the key was not found, and leaves the stored
keys as they were: the in-order traversal is the same before and after, and the tree
returned satisfies invariants 1 to 5 again and has a root with a key if the root is an
inner node. Nothing is said of which node holds which key, nor of the height. -/
theorem C37_delete_absent_key (t : Nat) (tree : BTree) (k : Int) (ht : 2 ≤ t)
    (hinv : Invariants t tree) (hrk : RootHasKey tree) (hk : k ∉ keysOf tree) :
    ∃ tree', deleteKey tree k = some (tree', [Msg.keyNotFound k]) ∧
      keysOf tree' = keysOf tree ∧
      traverse tree.root = some (keysOf tree) ∧ traverse tree'.root = some (keysOf tree) ∧
      Invariants t tree' ∧ RootHasKey tree' := by
  obtain ⟨hv, hs⟩ := hinv.valid hrk
  obtain ⟨tree', out, e, hv', hkeys, hout⟩ := deleteKey_spec ht hv k
  rw [if_neg hk] at hout
  subst hout
  rw [List.erase_of_not_mem hk] at hkeys
  obtain ⟨h1, h2⟩ := hv'.invariants (by rw [hkeys]; exact hs)
  exact ⟨tree', e, hkeys, hv.traverse, by rw [hv'.traverse, hkeys], h1, h2⟩

/-- C37, witness: the amended claim for the key `0` and the tree with `t = 2` and root
key `2` over the leaves `1` and `3`. The descent merges the two leaves before it knows
that `0` is absent: the tree returned is the single leaf `1 2 3`, one level lower. -/
theorem C37_delete_absent_key_witness :
    (2 ≤ 2 ∧ Invariants 2 twoLeafTree ∧ RootHasKey twoLeafTree ∧
      (0 : Int) ∉ keysOf twoLeafTree) ∧
    twoLeafTree.root.map (fun x => (x.leaf, liveKeys x)) = some (false, [2]) ∧
    (deleteKey twoLeafTree 0).map (fun r => r.1.root.map (fun x => (x.leaf, liveKeys x))) =
      some (some (true, [1, 2, 3])) ∧
    ∃ tree', deleteKey twoLeafTree 0 = some (tree', [Msg.keyNotFound 0]) ∧
      keysOf tree' = keysOf twoLeafTree ∧
      traverse twoLeafTree.root = some (keysOf twoLeafTree) ∧
      traverse tree'.root = some (keysOf twoLeafTree) ∧
      Invariants 2 tree' ∧ RootHasKey tree' := by
  have hk : (0 : Int) ∉ keysOf twoLeafTree := by
    simp [keysOf, twoLeafTree, inorder, inorderSlots, inorderSlot, interleave]
  exact ⟨⟨le_refl _, twoLeafTree_invariants, twoLeafTree_rootHasKey, hk⟩, by decide,
    by decide, C37_delete_absent_key 2 twoLeafTree 0 (le_refl _) twoLeafTree_invariants
      twoLeafTree_rootHasKey hk⟩

/-! ### Runs with a record: the result is that of the program above -/

theorem Traced.val_pure {α : Type} (a : α) : (pure a : Traced α).val = some a := rfl

theorem Traced.log_pure {α : Type} (a : α) : (pure a : Traced α).log = [] := rfl

theorem Traced.val_bind {α β : Type} (m : Traced α) (f : α → Traced β) :
    (m >>= f).val = m.val.bind (fun a => (f a).val) := by
  show (match m.val with
    | none => (⟨m.log, none⟩ : Traced β)
    | some a => ⟨m.log ++ (f a).log, (f a).val⟩).val = _
  cases m.val <;> rfl

theorem Traced.mem_log_bind {α β : Type} (m : Traced α) (f : α → Traced β) (e : Event) :
    e ∈ (m >>= f).log ↔ e ∈ m.log ∨ ∃ a, m.val = some a ∧ e ∈ (f a).log := by
  show e ∈ (match m.val with
    | none => (⟨m.log, none⟩ : Traced β)
    | some a => ⟨m.log ++ (f a).log, (f a).val⟩).log ↔ _
  cases h : m.val with
  | none => simp
  | some a => simp [List.mem_append]

theorem Traced.val_ite {α : Type} (c : Prop) [Decidable c] (a b : Traced α) :
    (if c then a else b).val = if c then a.val else b.val := by
  split <;> rfl

theorem Traced.mem_log_ite {α : Type} (c : Prop) [Decidable c] (a b : Traced α) (e : Event) :
    e ∈ (if c then a else b).log ↔ (c ∧ e ∈ a.log) ∨ (¬ c ∧ e ∈ b.log) := by
  split <;> simp [*]

theorem val_access {α : Type} (e : Event) (o : Option α) : (access e o).val = o := rfl

theorem log_access {α : Type} (e : Event) (o : Option α) : (access e o).log = [e] := rfl

theorem val_check {α : Type} (o : Option α) : (check o).val = o := rfl

theorem log_check {α : Type} (o : Option α) : (check o).log = [] := rfl

theorem val_emit (es : List Event) : (emit es).val = some () := rfl

theorem log_emit (es : List Event) : (emit es).log = es := rfl

theorem val_followChild (nd : BTreeNode) (i : Nat) : (followChild nd i).val = childAt nd i :=
  rfl

theorem log_followChild (nd : BTreeNode) (i : Nat) :
    (followChild nd i).log = [.follow i nd.n] := rfl

theorem copyLoopLog_val {α : Type} (rd wr : Nat → Event) (src : List α) (s d : Nat) :
    ∀ (c j : Nat) (dst : List α),
      (copyLoopLog rd wr src s d c j dst).val = copyLoop src s d c j dst := by
  intro c
  induction c with
  | zero => intro j dst; rfl
  | succ c ih =>
    intro j dst
    simp only [copyLoopLog, copyLoop, Traced.val_bind, val_access, ih]
    rfl

theorem shiftUpLog_val {α : Type} (rd wr : Nat → Event) (lo : Nat) :
    ∀ (c : Nat) (a : List α), (shiftUpLog rd wr lo c a).val = shiftUp lo c a := by
  intro c
  induction c with
  | zero => intro a; rfl
  | succ c ih =>
    intro a
    simp only [shiftUpLog, shiftUp, Traced.val_bind, val_access, ih]
    rfl

theorem shiftDownLog_val {α : Type} (rd wr : Nat → Event) :
    ∀ (c p : Nat) (a : List α), (shiftDownLog rd wr c p a).val = shiftDown c p a := by
  intro c
  induction c with
  | zero => intro p a; rfl
  | succ c ih =>
    intro p a
    simp only [shiftDownLog, shiftDown, Traced.val_bind, val_access, ih]
    rfl

theorem scanKeysLog_val (n : Nat) (keys : List Int) (key : Int) :
    ∀ (r i : Nat), (scanKeysLog n keys key r i).val = scanKeys keys key r i := by
  intro r
  induction r with
  | zero => intro i; rfl
  | succ r ih =>
    intro i
    simp only [scanKeysLog, scanKeys, Traced.val_bind, val_access, Traced.val_ite, ih,
      Traced.val_pure]
    rfl

theorem keyAtLog_val (nd : BTreeNode) (i : Nat) (key : Int) :
    (keyAtLog nd i key).val = keyAt nd i key := by
  simp only [keyAtLog, keyAt, Traced.val_ite, val_access, Traced.val_pure]

theorem createNodeLog_val (leaf : Bool) (t : Nat) :
    (createNodeLog leaf t).val = createNode leaf t := by
  simp only [createNodeLog, Traced.val_bind, val_check, val_emit, Traced.val_pure,
    Option.some_bind, Option.bind_some]

theorem splitChildLog_val (parent : BTreeNode) (idx : Nat) (child : BTreeNode) (t : Nat) :
    (splitChildLog parent idx child t).val = splitChild parent idx child t := by
  simp only [splitChildLog, splitChild, Traced.val_bind, createNodeLog_val, copyLoopLog_val,
    shiftUpLog_val, val_access, val_check, Traced.val_ite, Traced.val_pure]
  rfl

theorem insertShiftLog_val (n : Nat) (key : Int) :
    ∀ (i : Nat) (ks : List Int), (insertShiftLog n key i ks).val = insertShift key i ks := by
  intro i
  induction i with
  | zero => intro ks; rfl
  | succ i ih =>
    intro ks
    simp only [insertShiftLog, insertShift, Traced.val_bind, val_access, Traced.val_ite, ih,
      Traced.val_pure]
    rfl

theorem scanDownLog_val (n : Nat) (keys : List Int) (key : Int) :
    ∀ (i : Nat), (scanDownLog n keys key i).val = scanDown keys key i := by
  intro i
  induction i with
  | zero => rfl
  | succ i ih =>
    simp only [scanDownLog, scanDown, Traced.val_bind, val_access, Traced.val_ite, ih,
      Traced.val_pure]
    rfl

theorem insertNonFullLog_val (key : Int) (t : Nat) :
    ∀ (f : Nat) (nd : BTreeNode), (insertNonFullLog f nd key t).val = insertNonFull f nd key t := by
  intro f
  induction f with
  | zero => intro nd; rfl
  | succ f ih =>
    intro nd
    simp only [insertNonFullLog, insertNonFull, Traced.val_bind, val_access, Traced.val_ite, ih,
      Traced.val_pure, insertShiftLog_val, scanDownLog_val, val_followChild,
      splitChildLog_val, val_check, val_emit, Option.some_bind]
    rfl

theorem insertLog_val (tree : BTree) (key : Int) : (insertLog tree key).val = insert tree key := by
  simp only [insertLog, insert, Traced.val_bind, val_access, Traced.val_ite,
    Traced.val_pure, insertNonFullLog_val, createNodeLog_val, splitChildLog_val, val_check]
  rfl

theorem findKeyLog_val (nd : BTreeNode) (key : Int) : (findKeyLog nd key).val = findKey nd key :=
  scanKeysLog_val nd.n nd.keys key nd.n 0

theorem removeFromLeafLog_val (nd : BTreeNode) (idx : Nat) :
    (removeFromLeafLog nd idx).val = removeFromLeaf nd idx := by
  simp only [removeFromLeafLog, removeFromLeaf, Traced.val_bind, Traced.val_ite,
    Traced.val_pure, shiftDownLog_val, val_check]
  rfl

theorem getPredecessorLoopLog_val :
    ∀ (f : Nat) (cur : BTreeNode), (getPredecessorLoopLog f cur).val = getPredecessorLoop f cur := by
  intro f
  induction f with
  | zero => intro cur; rfl
  | succ f ih =>
    intro cur
    simp only [getPredecessorLoopLog, getPredecessorLoop, Traced.val_bind, Traced.val_ite,
      val_access, val_followChild, ih]
    rfl

theorem getPredecessorLog_val (fuel : Nat) (nd : BTreeNode) (idx : Nat) :
    (getPredecessorLog fuel nd idx).val = getPredecessor fuel nd idx := by
  simp only [getPredecessorLog, getPredecessor, Traced.val_bind, val_followChild,
    getPredecessorLoopLog_val]
  rfl

theorem getSuccessorLoopLog_val :
    ∀ (f : Nat) (cur : BTreeNode), (getSuccessorLoopLog f cur).val = getSuccessorLoop f cur := by
  intro f
  induction f with
  | zero => intro cur; rfl
  | succ f ih =>
    intro cur
    simp only [getSuccessorLoopLog, getSuccessorLoop, Traced.val_bind, Traced.val_ite,
      val_access, val_followChild, ih]
    rfl

theorem getSuccessorLog_val (fuel : Nat) (nd : BTreeNode) (idx : Nat) :
    (getSuccessorLog fuel nd idx).val = getSuccessor fuel nd idx := by
  simp only [getSuccessorLog, getSuccessor, Traced.val_bind, val_followChild,
    getSuccessorLoopLog_val]
  rfl

theorem borrowFromPrevLog_val (nd : BTreeNode) (idx : Nat) :
    (borrowFromPrevLog nd idx).val = borrowFromPrev nd idx := by
  simp only [borrowFromPrevLog, borrowFromPrev, Traced.val_bind, Traced.val_ite,
    val_access, val_followChild, shiftUpLog_val, Traced.val_pure, val_check]
  rfl

theorem borrowFromNextLog_val (nd : BTreeNode) (idx : Nat) :
    (borrowFromNextLog nd idx).val = borrowFromNext nd idx := by
  simp only [borrowFromNextLog, borrowFromNext, Traced.val_bind, Traced.val_ite,
    val_access, val_followChild, shiftDownLog_val, Traced.val_pure, val_check]
  rfl

theorem mergeLog_val (nd : BTreeNode) (idx : Nat) (t : Nat) :
    (mergeLog nd idx t).val = merge nd idx t := by
  simp only [mergeLog, merge, Traced.val_bind, Traced.val_ite,
    val_access, val_followChild, shiftDownLog_val, copyLoopLog_val, Traced.val_pure,
    val_check, val_emit, Option.some_bind, Int.toNat_ofNat, Int.ofNat_nonneg, if_true,
    Int.natCast_nonneg]
  rfl

theorem mergeLog_val_neg (nd : BTreeNode) (i : Int) (t : Nat) (hi : i < 0) :
    (mergeLog nd i t).val = none := by
  simp only [mergeLog, Traced.val_bind, val_access, val_emit, Option.some_bind,
    if_neg (not_le.mpr hi), Option.none_bind]

theorem fillLog_val (nd : BTreeNode) (idx : Nat) (t : Nat) :
    (fillLog nd idx t).val = fill nd idx t := by
  by_cases h0 : idx = 0
  · subst h0
    have hm : (mergeLog nd (0 : Int) t).val = merge nd 0 t := mergeLog_val nd 0 t
    simp only [fillLog, fill, Traced.val_bind, Traced.val_ite, val_emit, Option.some_bind,
      Traced.val_pure, val_followChild, borrowFromPrevLog_val, borrowFromNextLog_val,
      hm, ne_eq, not_true_eq_false, if_false, Nat.cast_zero, zero_sub,
      mergeLog_val_neg nd (-1) t (by decide), Option.map_eq_bind, Function.comp_def,
      if_true, Bool.false_eq_true]
    rfl
  · have h1 : ((idx : Int) - 1) = ((idx - 1 : Nat) : Int) := by omega
    simp only [fillLog, fill, Traced.val_bind, Traced.val_ite, val_emit, Option.some_bind,
      Traced.val_pure, val_followChild, borrowFromPrevLog_val, borrowFromNextLog_val,
      mergeLog_val, h1, h0, ne_eq, not_false_eq_true, if_true, if_false, Option.map_eq_bind,
      Function.comp_def]
    rfl

theorem removeFromNonLeafLog_val (recL : BTreeNode → Int → Traced (BTreeNode × List Msg))
    (rec : BTreeNode → Int → Option (BTreeNode × List Msg))
    (hrec : ∀ c k, (recL c k).val = rec c k) (fuel d : Nat) (nd : BTreeNode) (idx t : Nat) :
    (removeFromNonLeafLog recL fuel d nd idx t).val = removeFromNonLeaf rec fuel nd idx t := by
  simp only [removeFromNonLeafLog, removeFromNonLeaf, Traced.val_bind, Traced.val_ite,
    val_access, val_followChild, getPredecessorLog_val, getSuccessorLog_val, mergeLog_val,
    Traced.val_pure, val_check, val_emit, Option.some_bind, hrec]
  rfl

theorem deleteFromNodeLog_val (t : Nat) :
    ∀ (f d : Nat) (nd : BTreeNode) (key : Int),
      (deleteFromNodeLog f d nd key t).val = deleteFromNode f nd key t := by
  intro f
  induction f with
  | zero => intro d nd key; rfl
  | succ f ih =>
    intro d nd key
    have hr := removeFromNonLeafLog_val (fun c k => deleteFromNodeLog f (d + 1) c k t)
      (fun c k => deleteFromNode f c k t) (fun c k => ih (d + 1) c k) f d nd
    simp only [deleteFromNodeLog, deleteFromNode, Traced.val_bind, Traced.val_ite,
      val_access, val_followChild, findKeyLog_val, keyAtLog_val, removeFromLeafLog_val,
      fillLog_val, Traced.val_pure, val_check, val_emit, Option.some_bind, ih, hr,
      Option.bind_some]
    rfl

theorem deleteKeyLog_val (tree : BTree) (key : Int) :
    (deleteKeyLog tree key).val = deleteKey tree key := by
  unfold deleteKeyLog deleteKey
  cases tree.root with
  | none => rfl
  | some root =>
    simp only [Traced.val_bind, Traced.val_ite, val_access, deleteFromNodeLog_val,
      createNodeLog_val, Traced.val_pure]
    rfl

/-! ### The events of the loops -/

theorem copyLoopLog_mem {α : Type} (rd wr : Nat → Event) (src : List α) (s d : Nat)
    (e : Event) :
    ∀ (c j : Nat) (dst : List α), e ∈ (copyLoopLog rd wr src s d c j dst).log →
      ∃ k, k < c ∧ (e = rd (j + k + s) ∨ e = wr (j + k + d)) := by
  intro c
  induction c with
  | zero => intro j dst he; simp [copyLoopLog, Traced.log_pure] at he
  | succ c ih =>
    intro j dst he
    simp only [copyLoopLog, Traced.mem_log_bind, log_access, val_access,
      List.mem_singleton] at he
    rcases he with rfl | ⟨v, -, rfl | ⟨dst1, -, he⟩⟩
    · exact ⟨0, by omega, Or.inl rfl⟩
    · exact ⟨0, by omega, Or.inr rfl⟩
    · obtain ⟨k, hk, h⟩ := ih _ _ he
      refine ⟨k + 1, by omega, ?_⟩
      rw [show j + (k + 1) + s = j + 1 + k + s by omega,
        show j + (k + 1) + d = j + 1 + k + d by omega]
      exact h

theorem shiftUpLog_mem {α : Type} (rd wr : Nat → Event) (lo : Nat) (e : Event) :
    ∀ (c : Nat) (a : List α), e ∈ (shiftUpLog rd wr lo c a).log →
      ∃ k, k < c ∧ (e = rd (lo + k) ∨ e = wr (lo + k + 1)) := by
  intro c
  induction c with
  | zero => intro a he; simp [shiftUpLog, Traced.log_pure] at he
  | succ c ih =>
    intro a he
    simp only [shiftUpLog, Traced.mem_log_bind, log_access, val_access,
      List.mem_singleton] at he
    rcases he with rfl | ⟨v, -, rfl | ⟨a1, -, he⟩⟩
    · exact ⟨c, by omega, Or.inl rfl⟩
    · exact ⟨c, by omega, Or.inr rfl⟩
    · obtain ⟨k, hk, h⟩ := ih _ he
      exact ⟨k, by omega, h⟩

theorem shiftDownLog_mem {α : Type} (rd wr : Nat → Event) (e : Event) :
    ∀ (c p : Nat) (a : List α), e ∈ (shiftDownLog rd wr c p a).log →
      ∃ k, k < c ∧ (e = rd (p + k + 1) ∨ e = wr (p + k)) := by
  intro c
  induction c with
  | zero => intro p a he; simp [shiftDownLog, Traced.log_pure] at he
  | succ c ih =>
    intro p a he
    simp only [shiftDownLog, Traced.mem_log_bind, log_access, val_access,
      List.mem_singleton] at he
    rcases he with rfl | ⟨v, -, rfl | ⟨a1, -, he⟩⟩
    · exact ⟨0, by omega, Or.inl rfl⟩
    · exact ⟨0, by omega, Or.inr rfl⟩
    · obtain ⟨k, hk, h⟩ := ih _ _ he
      refine ⟨k + 1, by omega, ?_⟩
      rw [show p + (k + 1) + 1 = p + 1 + k + 1 by omega,
        show p + (k + 1) = p + 1 + k by omega]
      exact h

theorem scanKeysLog_mem (n : Nat) (keys : List Int) (key : Int) (e : Event) :
    ∀ (r i : Nat), e ∈ (scanKeysLog n keys key r i).log →
      ∃ k, k < r ∧ e = .keyRead ((i + k : Nat) : Int) n := by
  intro r
  induction r with
  | zero => intro i he; simp [scanKeysLog, Traced.log_pure] at he
  | succ r ih =>
    intro i he
    simp only [scanKeysLog, Traced.mem_log_bind, log_access, val_access,
      List.mem_singleton, Traced.mem_log_ite, Traced.log_pure, List.not_mem_nil,
      and_false, or_false] at he
    rcases he with rfl | ⟨v, -, -, he⟩
    · exact ⟨0, by omega, rfl⟩
    · obtain ⟨k, hk, h⟩ := ih _ he
      refine ⟨k + 1, by omega, ?_⟩
      rw [show i + (k + 1) = i + 1 + k by omega]
      exact h

theorem insertShiftLog_mem (n : Nat) (key : Int) (e : Event) :
    ∀ (i : Nat) (ks : List Int), e ∈ (insertShiftLog n key i ks).log →
      ∃ k, k < i ∧ (e = .keyRead (k : Nat) n ∨ e = .keyWrite ((k + 1 : Nat) : Int) n) := by
  intro i
  induction i with
  | zero => intro ks he; simp [insertShiftLog, Traced.log_pure] at he
  | succ i ih =>
    intro ks he
    simp only [insertShiftLog, Traced.mem_log_bind, log_access, val_access,
      List.mem_singleton, Traced.mem_log_ite, Traced.log_pure, List.not_mem_nil,
      and_false, or_false] at he
    rcases he with rfl | ⟨v, -, -, rfl | ⟨ks1, -, he⟩⟩
    · exact ⟨i, by omega, Or.inl rfl⟩
    · exact ⟨i, by omega, Or.inr rfl⟩
    · obtain ⟨k, hk, h⟩ := ih _ he
      exact ⟨k, by omega, h⟩

theorem scanDownLog_mem (n : Nat) (keys : List Int) (key : Int) (e : Event) :
    ∀ (i : Nat), e ∈ (scanDownLog n keys key i).log → ∃ k, k < i ∧ e = .keyRead (k : Nat) n := by
  intro i
  induction i with
  | zero => intro he; simp [scanDownLog, Traced.log_pure] at he
  | succ i ih =>
    intro he
    simp only [scanDownLog, Traced.mem_log_bind, log_access, val_access,
      List.mem_singleton, Traced.mem_log_ite, Traced.log_pure, List.not_mem_nil,
      and_false, or_false] at he
    rcases he with rfl | ⟨v, -, -, he⟩
    · exact ⟨i, by omega, rfl⟩
    · obtain ⟨k, hk, h⟩ := ih he
      exact ⟨k, by omega, h⟩

theorem createNodeLog_mem (leaf : Bool) (t : Nat) (e : Event) :
    e ∈ (createNodeLog leaf t).log → ∃ i, i < 2 * t ∧ e = .childWrite (i : Nat) 0 := by
  intro he
  simp only [createNodeLog, Traced.mem_log_bind, log_check, val_check, log_emit,
    Traced.log_pure, List.not_mem_nil, false_or, List.mem_map, List.mem_range, val_emit,
    and_false, exists_false, or_false, exists_const] at he
  obtain ⟨-, -, i, hi, rfl⟩ := he
  exact ⟨i, hi, rfl⟩

/-! ### The events of the functions without recursion -/

theorem splitChildLog_fine {t H : Nat} {x c : BTreeNode} {i : Nat} (hx : NodeOK t x)
    (hi : i ≤ x.n) (hroom : x.n + 2 ≤ 2 * t) (hfull : c.n + 1 = 2 * t) :
    ∀ e ∈ (splitChildLog x i c t).log, e.fine t H := by
  have ht := hx.pos
  intro e he
  simp only [splitChildLog, Traced.mem_log_bind, Traced.mem_log_ite, log_access, val_access,
    log_emit, val_emit, log_check, val_check, log_followChild, val_followChild,
    Traced.log_pure, Traced.val_pure, List.mem_singleton, List.not_mem_nil,
    Int.toNat_ofNat, Int.natCast_nonneg, if_true, Option.some.injEq,
    exists_eq_left', and_false, or_false, false_or, exists_false, exists_const,
    Traced.val_bind, Traced.val_ite, List.mem_cons] at he
  try casesm* _ ∨ _, ∃ _, _, _ ∧ _
  all_goals first
    | (subst e
       refine ⟨?_, trivial, trivial⟩
       simp only [Event.ok, true_and, and_true] <;> omega)
    | (obtain ⟨k, hk, rfl | rfl⟩ := copyLoopLog_mem _ _ _ _ _ _ _ _ _ ‹_› <;>
       refine ⟨?_, trivial, trivial⟩ <;> simp only [Event.ok] <;> omega)
    | (obtain ⟨k, hk, rfl | rfl⟩ := shiftUpLog_mem _ _ _ _ _ _ ‹_› <;>
       refine ⟨?_, trivial, trivial⟩ <;> simp only [Event.ok] <;> omega)
    | (obtain ⟨k, hk, rfl | rfl⟩ := shiftDownLog_mem _ _ _ _ _ _ ‹_› <;>
       refine ⟨?_, trivial, trivial⟩ <;> simp only [Event.ok] <;> omega)
    | (obtain ⟨k, hk, rfl⟩ := createNodeLog_mem _ _ _ ‹_›
       refine ⟨?_, trivial, trivial⟩
       simp only [Event.ok, true_and, and_true] <;> omega)

theorem removeFromLeafLog_fine {t H : Nat} {x : BTreeNode} {idx : Nat} (hx : NodeOK t x)
    (hidx : idx < x.n) :
    ∀ e ∈ (removeFromLeafLog x idx).log, e.fine t H := by
  obtain ⟨-, -, hxn⟩ := hx
  intro e he
  simp only [removeFromLeafLog, Traced.mem_log_bind, Traced.mem_log_ite, log_access, val_access,
    log_emit, val_emit, log_check, val_check, log_followChild, val_followChild,
    Traced.log_pure, Traced.val_pure, List.mem_singleton, List.not_mem_nil,
    Int.toNat_ofNat, Int.natCast_nonneg, if_true, Option.some.injEq,
    exists_eq_left', and_false, or_false, false_or, exists_false, exists_const,
    Traced.val_bind, Traced.val_ite, List.mem_cons] at he
  try casesm* _ ∨ _, ∃ _, _, _ ∧ _
  all_goals first
    | (subst e
       refine ⟨?_, trivial, trivial⟩
       simp only [Event.ok, true_and, and_true] <;> omega)
    | (obtain ⟨k, hk, rfl | rfl⟩ := copyLoopLog_mem _ _ _ _ _ _ _ _ _ ‹_› <;>
       refine ⟨?_, trivial, trivial⟩ <;> simp only [Event.ok] <;> omega)
    | (obtain ⟨k, hk, rfl | rfl⟩ := shiftUpLog_mem _ _ _ _ _ _ ‹_› <;>
       refine ⟨?_, trivial, trivial⟩ <;> simp only [Event.ok] <;> omega)
    | (obtain ⟨k, hk, rfl | rfl⟩ := shiftDownLog_mem _ _ _ _ _ _ ‹_› <;>
       refine ⟨?_, trivial, trivial⟩ <;> simp only [Event.ok] <;> omega)
    | (obtain ⟨k, hk, rfl⟩ := createNodeLog_mem _ _ _ ‹_›
       refine ⟨?_, trivial, trivial⟩
       simp only [Event.ok, true_and, and_true] <;> omega)

theorem borrowFromPrevLog_fine {t H : Nat} {x c s : BTreeNode} {idx : Nat} (hx : NodeOK t x)
    (hidx0 : 1 ≤ idx) (hidx : idx ≤ x.n) (hc : childAt x idx = some c)
    (hs : childAt x (idx - 1) = some s) (hroom : c.n + 2 ≤ 2 * t) (hs1 : 1 ≤ s.n)
    (hs2 : s.n + 1 ≤ 2 * t) :
    ∀ e ∈ (borrowFromPrevLog x idx).log, e.fine t H := by
  obtain ⟨-, -, hxn⟩ := hx
  have h0 : idx ≠ 0 := by omega
  intro e he
  simp only [borrowFromPrevLog, h0, if_false, hc, hs, Traced.mem_log_bind, Traced.mem_log_ite, log_access, val_access,
    log_emit, val_emit, log_check, val_check, log_followChild, val_followChild,
    Traced.log_pure, Traced.val_pure, List.mem_singleton, List.not_mem_nil,
    Int.toNat_ofNat, Int.natCast_nonneg, if_true, Option.some.injEq,
    exists_eq_left', and_false, or_false, false_or, exists_false, exists_const,
    Traced.val_bind, Traced.val_ite, List.mem_cons] at he
  try casesm* _ ∨ _, ∃ _, _, _ ∧ _
  all_goals first
    | (subst e
       refine ⟨?_, trivial, trivial⟩
       simp only [Event.ok, true_and, and_true] <;> omega)
    | (obtain ⟨k, hk, rfl | rfl⟩ := copyLoopLog_mem _ _ _ _ _ _ _ _ _ ‹_› <;>
       refine ⟨?_, trivial, trivial⟩ <;> simp only [Event.ok] <;> omega)
    | (obtain ⟨k, hk, rfl | rfl⟩ := shiftUpLog_mem _ _ _ _ _ _ ‹_› <;>
       refine ⟨?_, trivial, trivial⟩ <;> simp only [Event.ok] <;> omega)
    | (obtain ⟨k, hk, rfl | rfl⟩ := shiftDownLog_mem _ _ _ _ _ _ ‹_› <;>
       refine ⟨?_, trivial, trivial⟩ <;> simp only [Event.ok] <;> omega)
    | (obtain ⟨k, hk, rfl⟩ := createNodeLog_mem _ _ _ ‹_›
       refine ⟨?_, trivial, trivial⟩
       simp only [Event.ok, true_and, and_true] <;> omega)

theorem borrowFromNextLog_fine {t H : Nat} {x c s : BTreeNode} {idx : Nat} (hx : NodeOK t x)
    (hidx : idx < x.n) (hc : childAt x idx = some c)
    (hs : childAt x (idx + 1) = some s) (hroom : c.n + 2 ≤ 2 * t) (hs1 : 1 ≤ s.n)
    (hs2 : s.n + 1 ≤ 2 * t) :
    ∀ e ∈ (borrowFromNextLog x idx).log, e.fine t H := by
  obtain ⟨-, -, hxn⟩ := hx
  intro e he
  simp only [borrowFromNextLog, hc, hs, Traced.mem_log_bind, Traced.mem_log_ite, log_access, val_access,
    log_emit, val_emit, log_check, val_check, log_followChild, val_followChild,
    Traced.log_pure, Traced.val_pure, List.mem_singleton, List.not_mem_nil,
    Int.toNat_ofNat, Int.natCast_nonneg, if_true, Option.some.injEq,
    exists_eq_left', and_false, or_false, false_or, exists_false, exists_const,
    Traced.val_bind, Traced.val_ite, List.mem_cons] at he
  try casesm* _ ∨ _, ∃ _, _, _ ∧ _
  all_goals first
    | (subst e
       refine ⟨?_, trivial, trivial⟩
       simp only [Event.ok, true_and, and_true] <;> omega)
    | (obtain ⟨k, hk, rfl | rfl⟩ := copyLoopLog_mem _ _ _ _ _ _ _ _ _ ‹_› <;>
       refine ⟨?_, trivial, trivial⟩ <;> simp only [Event.ok] <;> omega)
    | (obtain ⟨k, hk, rfl | rfl⟩ := shiftUpLog_mem _ _ _ _ _ _ ‹_› <;>
       refine ⟨?_, trivial, trivial⟩ <;> simp only [Event.ok] <;> omega)
    | (obtain ⟨k, hk, rfl | rfl⟩ := shiftDownLog_mem _ _ _ _ _ _ ‹_› <;>
       refine ⟨?_, trivial, trivial⟩ <;> simp only [Event.ok] <;> omega)
    | (obtain ⟨k, hk, rfl⟩ := createNodeLog_mem _ _ _ ‹_›
       refine ⟨?_, trivial, trivial⟩
       simp only [Event.ok, true_and, and_true] <;> omega)

theorem mergeLog_fine {t h H : Nat} {x c s : BTreeNode} {idx : Nat} (hb : Bal t (h + 1) x)
    (hidx : idx < x.n) (hc : childAt x idx = some c) (hs : childAt x (idx + 1) = some s)
    (hcn : c.n + 1 = t) (hsn : s.n + 1 = t) :
    ∀ e ∈ (mergeLog x idx t).log, e.fine t H := by
  obtain ⟨-, -, hxn⟩ := hb.nodeOK
  intro e he
  simp only [mergeLog, hc, hs, Traced.mem_log_bind, Traced.mem_log_ite, log_access, val_access,
    log_emit, val_emit, log_check, val_check, log_followChild, val_followChild,
    Traced.log_pure, Traced.val_pure, List.mem_singleton, List.not_mem_nil,
    Int.toNat_ofNat, Int.natCast_nonneg, if_true, Option.some.injEq,
    exists_eq_left', and_false, or_false, false_or, exists_false, exists_const,
    Traced.val_bind, Traced.val_ite, List.mem_cons] at he
  casesm* _ ∨ _, ∃ _, _, _ ∧ _
  all_goals first
    | (subst e
       first
         | exact ⟨trivial, ⟨idx, h, c, s, rfl, hidx, hb, hc, hs, hcn, hsn⟩, trivial⟩
         | (refine ⟨?_, trivial, trivial⟩
            simp only [Event.ok, true_and, and_true] <;> omega))
    | (obtain ⟨k, hk, rfl | rfl⟩ := copyLoopLog_mem _ _ _ _ _ _ _ _ _ ‹_› <;>
       refine ⟨?_, trivial, trivial⟩ <;> simp only [Event.ok] <;> omega)
    | (obtain ⟨k, hk, rfl | rfl⟩ := shiftDownLog_mem _ _ _ _ _ _ ‹_› <;>
       refine ⟨?_, trivial, trivial⟩ <;> simp only [Event.ok] <;> omega)

theorem findKeyLog_fine {t H : Nat} {x : BTreeNode} (key : Int) (hx : NodeOK t x) :
    ∀ e ∈ (findKeyLog x key).log, e.fine t H := by
  obtain ⟨-, -, hxn⟩ := hx
  intro e he
  obtain ⟨k, hk, rfl⟩ := scanKeysLog_mem _ _ _ _ _ _ he
  refine ⟨?_, trivial, trivial⟩
  simp only [Event.ok, true_and, and_true] <;> omega

theorem keyAtLog_fine {t H : Nat} {x : BTreeNode} (i : Nat) (key : Int) (hx : NodeOK t x) :
    ∀ e ∈ (keyAtLog x i key).log, e.fine t H := by
  obtain ⟨-, -, hxn⟩ := hx
  intro e he
  simp only [keyAtLog, Traced.mem_log_bind, Traced.mem_log_ite, log_access, val_access,
    log_emit, val_emit, log_check, val_check, log_followChild, val_followChild,
    Traced.log_pure, Traced.val_pure, List.mem_singleton, List.not_mem_nil,
    Int.toNat_ofNat, Int.natCast_nonneg, if_true, Option.some.injEq,
    exists_eq_left', and_false, or_false, false_or, exists_false, exists_const,
    Traced.val_bind, Traced.val_ite, List.mem_cons] at he
  try casesm* _ ∨ _, ∃ _, _, _ ∧ _
  all_goals first
    | (subst e
       refine ⟨?_, trivial, trivial⟩
       simp only [Event.ok, true_and, and_true] <;> omega)
    | (obtain ⟨k, hk, rfl | rfl⟩ := copyLoopLog_mem _ _ _ _ _ _ _ _ _ ‹_› <;>
       refine ⟨?_, trivial, trivial⟩ <;> simp only [Event.ok] <;> omega)
    | (obtain ⟨k, hk, rfl | rfl⟩ := shiftUpLog_mem _ _ _ _ _ _ ‹_› <;>
       refine ⟨?_, trivial, trivial⟩ <;> simp only [Event.ok] <;> omega)
    | (obtain ⟨k, hk, rfl | rfl⟩ := shiftDownLog_mem _ _ _ _ _ _ ‹_› <;>
       refine ⟨?_, trivial, trivial⟩ <;> simp only [Event.ok] <;> omega)
    | (obtain ⟨k, hk, rfl⟩ := createNodeLog_mem _ _ _ ‹_›
       refine ⟨?_, trivial, trivial⟩
       simp only [Event.ok, true_and, and_true] <;> omega)

theorem getPredecessorLoopLog_fine {t H : Nat} (ht : 2 ≤ t) :
    ∀ (f h : Nat) (c : BTreeNode), Bal t h c → 1 ≤ c.n →
      ∀ e ∈ (getPredecessorLoopLog f c).log, e.fine t H := by
  intro f
  induction f with
  | zero => intro h c _ _ e he; simp [getPredecessorLoopLog, log_check] at he
  | succ f ih =>
    intro h c hb hn e he
    obtain ⟨-, -, hxn⟩ := hb.nodeOK
    cases h with
    | zero =>
      have hl : c.leaf = true := hb.1
      simp only [getPredecessorLoopLog, hl, Traced.mem_log_bind, Traced.mem_log_ite, log_access, val_access,
    log_emit, val_emit, log_check, val_check, log_followChild, val_followChild,
    Traced.log_pure, Traced.val_pure, List.mem_singleton, List.not_mem_nil,
    Int.toNat_ofNat, Int.natCast_nonneg, if_true, Option.some.injEq,
    exists_eq_left', and_false, or_false, false_or, exists_false, exists_const,
    Traced.val_bind, Traced.val_ite, List.mem_cons] at he
      subst e
      refine ⟨?_, trivial, trivial⟩
      simp only [Event.ok, true_and, and_true] <;> omega
    | succ h =>
      have hl : c.leaf = false := hb.1
      obtain ⟨c', -, -, hc', hcn', hbc'⟩ := hb.child (le_refl c.n)
      simp only [getPredecessorLoopLog, hl, hc', Bool.false_eq_true, if_false, Traced.mem_log_bind, Traced.mem_log_ite, log_access, val_access,
    log_emit, val_emit, log_check, val_check, log_followChild, val_followChild,
    Traced.log_pure, Traced.val_pure, List.mem_singleton, List.not_mem_nil,
    Int.toNat_ofNat, Int.natCast_nonneg, if_true, Option.some.injEq,
    exists_eq_left', and_false, or_false, false_or, exists_false, exists_const,
    Traced.val_bind, Traced.val_ite, List.mem_cons] at he
      rcases he with rfl | he
      · refine ⟨?_, trivial, trivial⟩
        simp only [Event.ok, true_and, and_true] <;> omega
      · exact ih h c' hbc' (by omega) e he

theorem getSuccessorLoopLog_fine {t H : Nat} (ht : 2 ≤ t) :
    ∀ (f h : Nat) (c : BTreeNode), Bal t h c → 1 ≤ c.n →
      ∀ e ∈ (getSuccessorLoopLog f c).log, e.fine t H := by
  intro f
  induction f with
  | zero => intro h c _ _ e he; simp [getSuccessorLoopLog, log_check] at he
  | succ f ih =>
    intro h c hb hn e he
    obtain ⟨-, -, hxn⟩ := hb.nodeOK
    cases h with
    | zero =>
      have hl : c.leaf = true := hb.1
      simp only [getSuccessorLoopLog, hl, Traced.mem_log_bind, Traced.mem_log_ite, log_access, val_access,
    log_emit, val_emit, log_check, val_check, log_followChild, val_followChild,
    Traced.log_pure, Traced.val_pure, List.mem_singleton, List.not_mem_nil,
    Int.toNat_ofNat, Int.natCast_nonneg, if_true, Option.some.injEq,
    exists_eq_left', and_false, or_false, false_or, exists_false, exists_const,
    Traced.val_bind, Traced.val_ite, List.mem_cons] at he
      subst e
      refine ⟨?_, trivial, trivial⟩
      simp only [Event.ok, true_and, and_true] <;> omega
    | succ h =>
      have hl : c.leaf = false := hb.1
      obtain ⟨c', -, -, hc', hcn', hbc'⟩ := hb.child (Nat.zero_le c.n)
      simp only [getSuccessorLoopLog, hl, hc', Bool.false_eq_true, if_false, Traced.mem_log_bind, Traced.mem_log_ite, log_access, val_access,
    log_emit, val_emit, log_check, val_check, log_followChild, val_followChild,
    Traced.log_pure, Traced.val_pure, List.mem_singleton, List.not_mem_nil,
    Int.toNat_ofNat, Int.natCast_nonneg, if_true, Option.some.injEq,
    exists_eq_left', and_false, or_false, false_or, exists_false, exists_const,
    Traced.val_bind, Traced.val_ite, List.mem_cons] at he
      rcases he with rfl | he
      · refine ⟨?_, trivial, trivial⟩
        simp only [Event.ok, true_and, and_true] <;> omega
      · exact ih h c' hbc' (by omega) e he

theorem getPredecessorLog_fine {t H : Nat} (ht : 2 ≤ t) {h : Nat} {x c : BTreeNode}
    {idx : Nat} (f : Nat) (hx : NodeOK t x) (hidx : idx ≤ x.n) (hc : childAt x idx = some c)
    (hbc : Bal t h c) (hcn : 1 ≤ c.n) :
    ∀ e ∈ (getPredecessorLog f x idx).log, e.fine t H := by
  obtain ⟨-, -, hxn⟩ := hx
  intro e he
  simp only [getPredecessorLog, hc, Traced.mem_log_bind, Traced.mem_log_ite, log_access, val_access,
    log_emit, val_emit, log_check, val_check, log_followChild, val_followChild,
    Traced.log_pure, Traced.val_pure, List.mem_singleton, List.not_mem_nil,
    Int.toNat_ofNat, Int.natCast_nonneg, if_true, Option.some.injEq,
    exists_eq_left', and_false, or_false, false_or, exists_false, exists_const,
    Traced.val_bind, Traced.val_ite, List.mem_cons] at he
  rcases he with rfl | he
  · refine ⟨?_, trivial, trivial⟩
    simp only [Event.ok, true_and, and_true] <;> omega
  · exact getPredecessorLoopLog_fine ht f h c hbc hcn e he

theorem getSuccessorLog_fine {t H : Nat} (ht : 2 ≤ t) {h : Nat} {x c : BTreeNode}
    {idx : Nat} (f : Nat) (hx : NodeOK t x) (hidx : idx + 1 ≤ x.n)
    (hc : childAt x (idx + 1) = some c) (hbc : Bal t h c) (hcn : 1 ≤ c.n) :
    ∀ e ∈ (getSuccessorLog f x idx).log, e.fine t H := by
  obtain ⟨-, -, hxn⟩ := hx
  intro e he
  simp only [getSuccessorLog, hc, Traced.mem_log_bind, Traced.mem_log_ite, log_access, val_access,
    log_emit, val_emit, log_check, val_check, log_followChild, val_followChild,
    Traced.log_pure, Traced.val_pure, List.mem_singleton, List.not_mem_nil,
    Int.toNat_ofNat, Int.natCast_nonneg, if_true, Option.some.injEq,
    exists_eq_left', and_false, or_false, false_or, exists_false, exists_const,
    Traced.val_bind, Traced.val_ite, List.mem_cons] at he
  rcases he with rfl | he
  · refine ⟨?_, trivial, trivial⟩
    simp only [Event.ok, true_and, and_true] <;> omega
  · exact getSuccessorLoopLog_fine ht f h c hbc hcn e he

/-! ### The events of `fill` -/

theorem sibling_test {t h : Nat} {x : BTreeNode} {j : Nat} (hb : Bal t (h + 1) x)
    (hj : j ≤ x.n) (a : Bool)
    (ha : ((childAt x j).bind fun s => some (decide (s.n ≥ t))) = some a) :
    ∃ s, childAt x j = some s ∧ Bal t h s ∧ t - 1 ≤ s.n ∧ (a = true ↔ t ≤ s.n) := by
  obtain ⟨s, -, -, hs, hsn, hbs⟩ := hb.child hj
  rw [hs] at ha
  simp only [Option.some_bind, Option.some.injEq] at ha
  subst ha
  exact ⟨s, hs, hbs, hsn, by simp⟩

theorem fillLog_fine {t h H : Nat} {x c : BTreeNode} {idx : Nat} (hb : Bal t (h + 1) x)
    (ht : 2 ≤ t) (hidx : idx ≤ x.n) (hn1 : 1 ≤ x.n) (hc : childAt x idx = some c)
    (hcn : c.n < t) :
    ∀ e ∈ (fillLog x idx t).log, e.fine t H := by
  obtain ⟨c', -, -, hca, hcn', hbc⟩ := hb.child hidx
  have e1 : c' = c := by rw [hca] at hc; exact Option.some.inj hc
  subst e1
  have hcn2 : c'.n + 1 = t := by omega
  have hxn := hb.nodeOK.2.2
  intro e he
  simp only [fillLog, Traced.mem_log_bind, Traced.mem_log_ite, log_access, val_access,
    log_emit, val_emit, log_check, val_check, log_followChild, val_followChild,
    Traced.log_pure, Traced.val_pure, List.mem_singleton, List.not_mem_nil,
    Int.toNat_ofNat, Int.natCast_nonneg, if_true, Option.some.injEq,
    exists_eq_left', and_false, or_false, false_or, exists_false, exists_const,
    Traced.val_bind, Traced.val_ite, List.mem_cons] at he
  rcases he with rfl | ⟨-, ⟨h0, rfl⟩ | ⟨a, ha, ⟨ha1, he⟩ | ⟨ha1, ⟨h1, rfl⟩ |
    ⟨b, hb', ⟨hb1, he⟩ | ⟨hb1, ⟨h1, he⟩ | ⟨h1, he⟩⟩⟩⟩⟩⟩
  · exact ⟨trivial, trivial, hidx, c', hca, hcn2⟩
  · refine ⟨?_, trivial, trivial⟩
    simp only [Event.ok, true_and, and_true] <;> omega
  · -- borrow from the left sibling
    have h0 : idx ≠ 0 := by
      intro h0
      rw [if_neg (by simpa using h0)] at ha
      rw [ha1] at ha
      cases ha
    rw [if_pos h0] at ha
    obtain ⟨sl, hsl, hbsl, -, hiff⟩ := sibling_test hb (show idx - 1 ≤ x.n by omega) a ha
    have hsln := hiff.mp ha1
    exact borrowFromPrevLog_fine hb.nodeOK (by omega) hidx hca hsl (by omega) (by omega)
      hbsl.nodeOK.2.2 e he
  · refine ⟨?_, trivial, trivial⟩
    simp only [Event.ok, true_and, and_true] <;> omega
  · -- borrow from the right sibling
    have h1 : idx ≠ x.n := by
      intro h1
      rw [if_neg (by simpa using h1)] at hb'
      rw [hb1] at hb'
      cases hb'
    rw [if_pos h1] at hb'
    obtain ⟨sr, hsr, hbsr, -, hiff⟩ := sibling_test hb (show idx + 1 ≤ x.n by omega) b hb'
    have hsrn := hiff.mp hb1
    exact borrowFromNextLog_fine hb.nodeOK (by omega) hca hsr (by omega) (by omega)
      hbsr.nodeOK.2.2 e he
  · -- merge with the right sibling
    rw [if_pos h1] at hb'
    obtain ⟨sr, hsr, hbsr, hsrn, hiff⟩ := sibling_test hb (show idx + 1 ≤ x.n by omega) b hb'
    have hsr2 : ¬ t ≤ sr.n := fun hh => hb1 (hiff.mpr hh)
    exact mergeLog_fine hb (show idx < x.n by omega) hca hsr hcn2 (by omega) e he
  · -- merge with the left sibling
    have hlast : idx = x.n := by
      by_contra hcon
      exact h1 hcon
    have h0 : idx ≠ 0 := by omega
    rw [if_pos h0] at ha
    obtain ⟨sl, hsl, hbsl, hsln, hiff⟩ := sibling_test hb (show idx - 1 ≤ x.n by omega) a ha
    have hsl2 : ¬ t ≤ sl.n := fun hh => ha1 (hiff.mpr hh)
    have hca' : childAt x (idx - 1 + 1) = some c' := by
      rw [show idx - 1 + 1 = idx by omega]; exact hca
    have hcast : ((idx : Int) - 1) = ((idx - 1 : Nat) : Int) := by omega
    rw [hcast] at he
    exact mergeLog_fine hb (show idx - 1 < x.n by omega) hsl hca' (by omega) hcn2 e he

/-! ### The events of `deleteFromNode` -/

theorem deleteFromNodeLog_leaf {t : Nat} (f d H : Nat) (nd : BTreeNode) (key : Int)
    (hb : Bal t 0 nd) (hH : H = d) (hdn : d ≠ 0 → t ≤ nd.n) :
    (∀ e ∈ (deleteFromNodeLog (f + 1) d nd key t).log, e.fine t H) ∧
    ∃ r out, deleteFromNode (f + 1) nd key t = some (r, out) ∧ Bal t 0 r ∧
      r.n ≤ nd.n ∧ nd.n ≤ r.n + 1 := by
  have hleaf : nd.leaf = true := hb.1
  obtain ⟨hk, hcl, hn⟩ := hb.nodeOK
  obtain ⟨idx, e1, -, hidx, -, -⟩ := scanKeys_spec nd.keys key nd.n 0 (by omega)
  have hkat := keyAt_eq nd idx key (by omega)
  have hHd : H - d = 0 := by omega
  by_cases hhit : idx < nd.n ∧ nd.keys[idx]? = some key
  · obtain ⟨r, er, hbr, hrn, -⟩ := removeFromLeaf_spec hb hhit.1
    refine ⟨?_, r, [], ?_, hbr, by omega, by omega⟩
    · intro e he
      simp only [deleteFromNodeLog, findKeyLog_val, findKey, e1, keyAtLog_val, hkat, hhit,
        hleaf, removeFromLeafLog_val, er, and_self, decide_True, Traced.mem_log_bind, Traced.mem_log_ite, log_access, val_access,
    log_emit, val_emit, log_check, val_check, log_followChild, val_followChild,
    Traced.log_pure, Traced.val_pure, List.mem_singleton, List.not_mem_nil,
    Int.toNat_ofNat, Int.natCast_nonneg, if_true, Option.some.injEq,
    exists_eq_left', and_false, or_false, false_or, exists_false, exists_const,
    Traced.val_bind, Traced.val_ite, List.mem_cons, Option.some_bind, Option.none_bind,
    true_and, false_and, exists_eq_left] at he
      rcases he with rfl | he | he | he | rfl
      · exact ⟨trivial, trivial, by omega, by rw [hHd]; exact hb, hdn⟩
      · exact findKeyLog_fine key hb.nodeOK e he
      · exact keyAtLog_fine idx key hb.nodeOK e he
      · exact removeFromLeafLog_fine hb.nodeOK hhit.1 e he
      · exact ⟨trivial, trivial, by omega, by rw [hHd]; exact hbr, fun h0 => by
          have := hdn h0
          omega⟩
    · simp [deleteFromNode, findKey, e1, hkat, hhit, hleaf, er]
  · refine ⟨?_, nd, [Msg.keyNotFound key], ?_, hb, le_refl _, by omega⟩
    · intro e he
      simp only [deleteFromNodeLog, findKeyLog_val, findKey, e1, keyAtLog_val, hkat, hhit,
        hleaf, decide_False, Bool.false_eq_true, if_false, Traced.mem_log_bind, Traced.mem_log_ite, log_access, val_access,
    log_emit, val_emit, log_check, val_check, log_followChild, val_followChild,
    Traced.log_pure, Traced.val_pure, List.mem_singleton, List.not_mem_nil,
    Int.toNat_ofNat, Int.natCast_nonneg, if_true, Option.some.injEq,
    exists_eq_left', and_false, or_false, false_or, exists_false, exists_const,
    Traced.val_bind, Traced.val_ite, List.mem_cons, Option.some_bind, Option.none_bind,
    true_and, false_and, exists_eq_left] at he
      rcases he with rfl | he | he | rfl
      · exact ⟨trivial, trivial, by omega, by rw [hHd]; exact hb, hdn⟩
      · exact findKeyLog_fine key hb.nodeOK e he
      · exact keyAtLog_fine idx key hb.nodeOK e he
      · exact ⟨trivial, trivial, by omega, by rw [hHd]; exact hb, fun h0 => by
          have := hdn h0
          omega⟩
    · simp [deleteFromNode, findKey, e1, hkat, hhit, hleaf]

theorem Bal.withKeys {t h : Nat} {x : BTreeNode} (hb : Bal t (h + 1) x) (ks : List Int)
    (hks : ks.length = x.keys.length) : Bal t (h + 1) (.mk x.n x.leaf ks x.children) := by
  obtain ⟨hl, ⟨h1, h2, h3⟩, hL, hall⟩ := hb
  exact ⟨hl, ⟨by rw [← h1]; exact hks, h2, h3⟩, hL, hall⟩

theorem deleteFromNodeLog_spec {t : Nat} (ht : 2 ≤ t) :
    ∀ (h f d H : Nat) (nd : BTreeNode) (key : Int), h + 1 ≤ f → H = h + d → Bal t h nd →
      (d ≠ 0 → t ≤ nd.n) → (h ≠ 0 → 1 ≤ nd.n) →
      (∀ e ∈ (deleteFromNodeLog f d nd key t).log, e.fine t H) ∧
      ∃ r out, deleteFromNode f nd key t = some (r, out) ∧ Bal t h r ∧
        r.n ≤ nd.n ∧ nd.n ≤ r.n + 1 := by
  intro h
  induction h with
  | zero =>
    intro f d H nd key hf hH hb hdn _
    obtain ⟨f', rfl⟩ : ∃ f', f = f' + 1 := ⟨f - 1, by omega⟩
    exact deleteFromNodeLog_leaf f' d H nd key hb (by omega) hdn
  | succ h ih =>
    intro f d H nd key hf hH hb hdn hn1
    obtain ⟨f', rfl⟩ : ∃ f', f = f' + 1 := ⟨f - 1, by omega⟩
    have hn1' : 1 ≤ nd.n := hn1 (by omega)
    have hleaf : nd.leaf = false := hb.1
    obtain ⟨hk, hcl, hn⟩ := hb.nodeOK
    obtain ⟨idx, e1, -, hidx, -, -⟩ := scanKeys_spec nd.keys key nd.n 0 (by omega)
    have hkat := keyAt_eq nd idx key (by omega)
    have hHd : H - d = h + 1 := by omega
    have hHd1 : H - (d + 1) = h := by omega
    have hself : (Event.deleteFromNode d nd).fine t H :=
      ⟨trivial, trivial, by omega, by rw [hHd]; exact hb, hdn⟩
    by_cases hhit : idx < nd.n ∧ nd.keys[idx]? = some key
    · -- the key is in this node
      obtain ⟨c, s, v, G, T, hca, hsa, hv, hbc, hbs, hcn, hsn, -, hrepL, hrepR⟩ :=
        hb.around_key hhit.1
      have hstart : deleteFromNode (f' + 1) nd key t =
          removeFromNonLeaf (fun c k => deleteFromNode f' c k t) f' nd idx t := by
        simp [deleteFromNode, findKey, e1, hkat, hhit, hleaf]
      by_cases hcbig : t ≤ c.n
      · obtain ⟨p, C0, ep, -⟩ := getPredecessorLoop_spec ht h f' c (by omega) hbc (by omega)
        obtain ⟨hlogc, r, out, er, hbr, hrn1, hrn2⟩ :=
          ih f' (d + 1) H c p (by omega) (by omega) hbc (fun _ => hcbig) (fun _ => by omega)
        obtain ⟨hb', -⟩ := hrepL p r hbr (by omega)
        have hbk := hb.withKeys (nd.keys.set idx p) (by simp)
        have hpred : getPredecessor f' nd idx = some p := by simp [getPredecessor, hca, ep]
        refine ⟨?_, _, out, ?_, hb', le_refl _, by simp⟩
        · intro e he
          simp only [deleteFromNodeLog, removeFromNonLeafLog, findKeyLog_val, findKey, e1,
            keyAtLog_val, hkat, hhit, hleaf, and_self, decide_True, Bool.false_eq_true,
            if_false, hca, hcbig, ge_iff_le, getPredecessorLog_val, hpred,
            store_eq_some _ (show idx < nd.keys.length by omega), deleteFromNodeLog_val, er,
            store_eq_some _ (show idx < nd.children.length by omega), not_true_eq_false,
            not_false_eq_true, Traced.mem_log_bind, Traced.mem_log_ite, log_access, val_access,
    log_emit, val_emit, log_check, val_check, log_followChild, val_followChild,
    Traced.log_pure, Traced.val_pure, List.mem_singleton, List.not_mem_nil,
    Int.toNat_ofNat, Int.natCast_nonneg, if_true, Option.some.injEq,
    exists_eq_left', and_false, or_false, false_or, exists_false, exists_const,
    Traced.val_bind, Traced.val_ite, List.mem_cons, Option.some_bind, Option.none_bind,
    true_and, false_and, exists_eq_left] at he
          rw [hleaf] at hbk hb'
          rcases he with rfl | he | he | (rfl | rfl | he | rfl | (rfl | rfl) | he) | rfl
          · exact hself
          · exact findKeyLog_fine key hb.nodeOK e he
          · exact keyAtLog_fine idx key hb.nodeOK e he
          · refine ⟨?_, trivial, trivial⟩
            simp only [Event.ok, true_and, and_true] <;> omega
          · refine ⟨?_, trivial, trivial⟩
            simp only [Event.ok, true_and, and_true] <;> omega
          · exact getPredecessorLog_fine ht f' hb.nodeOK (by omega) hca hbc (by omega) e he
          · refine ⟨?_, trivial, trivial⟩
            simp only [Event.ok, true_and, and_true] <;> omega
          · refine ⟨?_, trivial, trivial⟩
            simp only [Event.ok, true_and, and_true] <;> omega
          · exact ⟨trivial, trivial, by omega, by rw [hHd]; exact hbk,
              show idx ≤ nd.n by omega, fun h0 => by
                have := hdn h0
                show t ≤ nd.n + 1
                omega⟩
          · exact hlogc e he
          · exact ⟨trivial, trivial, by omega, by rw [hHd]; exact hb', fun h0 => by
              have := hdn h0
              show t ≤ nd.n + 1
              omega⟩
        · rw [hstart]
          simp [removeFromNonLeaf, hhit.2, hca, hcbig, getPredecessor, ep,
            store_eq_some _ (show idx < nd.keys.length by omega), er,
            store_eq_some _ (show idx < nd.children.length by omega)]
      · by_cases hsbig : t ≤ s.n
        · obtain ⟨p, S0, ep, -⟩ := getSuccessorLoop_spec ht h f' s (by omega) hbs (by omega)
          obtain ⟨hlogs, r, out, er, hbr, hrn1, hrn2⟩ :=
            ih f' (d + 1) H s p (by omega) (by omega) hbs (fun _ => hsbig) (fun _ => by omega)
          obtain ⟨hb', -⟩ := hrepR p r hbr (by omega)
          have hbk := hb.withKeys (nd.keys.set idx p) (by simp)
          have hsucc : getSuccessor f' nd idx = some p := by simp [getSuccessor, hsa, ep]
          refine ⟨?_, _, out, ?_, hb', le_refl _, by simp⟩
          · intro e he
            simp only [deleteFromNodeLog, removeFromNonLeafLog, findKeyLog_val, findKey, e1,
              keyAtLog_val, hkat, hhit, hleaf, and_self, decide_True, Bool.false_eq_true,
              if_false, hca, hcbig, hsa, hsbig, ge_iff_le, getSuccessorLog_val, hsucc,
              store_eq_some _ (show idx < nd.keys.length by omega), deleteFromNodeLog_val, er,
              store_eq_some _ (show idx + 1 < nd.children.length by omega), not_true_eq_false,
              not_false_eq_true, Traced.mem_log_bind, Traced.mem_log_ite, log_access, val_access,
    log_emit, val_emit, log_check, val_check, log_followChild, val_followChild,
    Traced.log_pure, Traced.val_pure, List.mem_singleton, List.not_mem_nil,
    Int.toNat_ofNat, Int.natCast_nonneg, if_true, Option.some.injEq,
    exists_eq_left', and_false, or_false, false_or, exists_false, exists_const,
    Traced.val_bind, Traced.val_ite, List.mem_cons, Option.some_bind, Option.none_bind,
    true_and, false_and, exists_eq_left] at he
            rw [hleaf] at hbk hb'
            rcases he with rfl | he | he | (rfl | rfl | rfl | he | rfl | (rfl | rfl) | he) | rfl
            · exact hself
            · exact findKeyLog_fine key hb.nodeOK e he
            · exact keyAtLog_fine idx key hb.nodeOK e he
            · refine ⟨?_, trivial, trivial⟩
              simp only [Event.ok, true_and, and_true] <;> omega
            · refine ⟨?_, trivial, trivial⟩
              simp only [Event.ok, true_and, and_true] <;> omega
            · refine ⟨?_, trivial, trivial⟩
              simp only [Event.ok, true_and, and_true] <;> omega
            · exact getSuccessorLog_fine ht f' hb.nodeOK (by omega) hsa hbs (by omega) e he
            · refine ⟨?_, trivial, trivial⟩
              simp only [Event.ok, true_and, and_true] <;> omega
            · refine ⟨?_, trivial, trivial⟩
              simp only [Event.ok, true_and, and_true] <;> omega
            · exact ⟨trivial, trivial, by omega, by rw [hHd]; exact hbk,
                show idx + 1 ≤ nd.n by omega, fun h0 => by
                  have := hdn h0
                  show t ≤ nd.n + 1
                  omega⟩
            · exact hlogs e he
            · exact ⟨trivial, trivial, by omega, by rw [hHd]; exact hb', fun h0 => by
                have := hdn h0
                show t ≤ nd.n + 1
                omega⟩
          · rw [hstart]
            simp [removeFromNonLeaf, hhit.2, hca, hcbig, hsa, hsbig, getSuccessor, ep,
              store_eq_some _ (show idx < nd.keys.length by omega), er,
              store_eq_some _ (show idx + 1 < nd.children.length by omega)]
        · obtain ⟨x1, m, pk, em, hb1, -, hx1n, hm, hmn, hbm, hpk, -⟩ :=
            merge_spec hb hhit.1 hca hsa (by omega) (by omega)
          have hidx1 : idx ≤ x1.n := by omega
          obtain ⟨hlogm, r, out, er, hbr, hrn1, hrn2⟩ :=
            ih f' (d + 1) H m key (by omega) (by omega) hbm (fun _ => by omega)
              (fun _ => by omega)
          obtain ⟨hb2, -, hst, -⟩ := hb1.setChild hidx1 r hbr (by omega)
          refine ⟨?_, _, out, ?_, hb2, by simp; omega, by simp; omega⟩
          · intro e he
            simp only [deleteFromNodeLog, removeFromNonLeafLog, findKeyLog_val, findKey, e1,
              keyAtLog_val, hkat, hhit, hleaf, and_self, decide_True, Bool.false_eq_true,
              if_false, hca, hcbig, hsa, hsbig, ge_iff_le, mergeLog_val, em, hm,
              deleteFromNodeLog_val, er, hst, not_true_eq_false,
              not_false_eq_true, Traced.mem_log_bind, Traced.mem_log_ite, log_access, val_access,
    log_emit, val_emit, log_check, val_check, log_followChild, val_followChild,
    Traced.log_pure, Traced.val_pure, List.mem_singleton, List.not_mem_nil,
    Int.toNat_ofNat, Int.natCast_nonneg, if_true, Option.some.injEq,
    exists_eq_left', and_false, or_false, false_or, exists_false, exists_const,
    Traced.val_bind, Traced.val_ite, List.mem_cons, Option.some_bind, Option.none_bind,
    true_and, false_and, exists_eq_left] at he
            rcases he with rfl | he | he | (rfl | rfl | rfl | he | rfl | rfl | he) | rfl
            · exact hself
            · exact findKeyLog_fine key hb.nodeOK e he
            · exact keyAtLog_fine idx key hb.nodeOK e he
            · refine ⟨?_, trivial, trivial⟩
              simp only [Event.ok, true_and, and_true] <;> omega
            · refine ⟨?_, trivial, trivial⟩
              simp only [Event.ok, true_and, and_true] <;> omega
            · refine ⟨?_, trivial, trivial⟩
              simp only [Event.ok, true_and, and_true] <;> omega
            · exact mergeLog_fine hb hhit.1 hca hsa (by omega) (by omega) e he
            · exact ⟨trivial, trivial, by omega, by rw [hHd]; exact hb1, hidx1, fun h0 => by
                have := hdn h0
                omega⟩
            · refine ⟨?_, trivial, trivial⟩
              simp only [Event.ok, true_and, and_true] <;> omega
            · exact hlogm e he
            · exact ⟨trivial, trivial, by omega, by rw [hHd]; exact hb2, fun h0 => by
                have := hdn h0
                show t ≤ x1.n + 1
                omega⟩
          · rw [hstart]
            simp [removeFromNonLeaf, hhit.2, hca, hcbig, hsa, hsbig, em, hm, er, hst]
    · -- the key is not in this node
      obtain ⟨c, hkc, -, hca, hcn, hbc⟩ := hb.child (show idx ≤ nd.n by omega)
      have hprep : ∃ x1 c1 j, (if c.n < t then fill nd idx t else some nd) = some x1 ∧
          Bal t (h + 1) x1 ∧ x1.n ≤ nd.n ∧ nd.n ≤ x1.n + 1 ∧
          j = (if idx = nd.n ∧ idx > x1.n then idx - 1 else idx) ∧ j ≤ x1.n ∧
          childAt x1 j = some c1 ∧ t ≤ c1.n := by
        by_cases hsmall : c.n < t
        · obtain ⟨x1, c1, j, e, r1, -, r3, r4, r5, r6, r7, r8, -⟩ :=
            fill_spec hb ht (by omega) hn1' hca hsmall
          exact ⟨x1, c1, j, by rw [if_pos hsmall]; exact e, r1, r3, r4, r5, r6, r7, r8⟩
        · exact ⟨nd, c, idx, by rw [if_neg hsmall], hb, le_refl _, by omega,
            by rw [if_neg (by omega)], by omega, hca, by omega⟩
      obtain ⟨x1, c1, j, efill, hb1, hx1a, hx1b, hj, hjn, hc1, hc1n⟩ := hprep
      obtain ⟨c1', hkc1, -, hc1', -, hbc1⟩ := hb1.child hjn
      have hcc : c1' = c1 := by rw [hc1] at hc1'; exact (Option.some.inj hc1').symm
      subst hcc
      obtain ⟨hlogc, r, out, er, hbr, hrn1, hrn2⟩ :=
        ih f' (d + 1) H c1' key (by omega) (by omega) hbc1 (fun _ => hc1n) (fun _ => by omega)
      obtain ⟨hb2, -, hst, -⟩ := hb1.setChild hjn r hbr (by omega)
      have hj' : (if (decide (idx = nd.n) && decide (idx > x1.n)) = true then idx - 1
          else idx) = j := by
        rw [hj]
        by_cases hc : idx = nd.n ∧ idx > x1.n
        · simp [hc]
        · rw [if_neg hc]
          have : ¬ ((decide (idx = nd.n) && decide (idx > x1.n)) = true) := by
            simpa using hc
          rw [if_neg this]
      refine ⟨?_, x1.setChildren (x1.children.set j (some r)), out, ?_, hb2, by simp; omega,
        by simp; omega⟩
      · intro e he
        simp only [deleteFromNodeLog, findKeyLog_val, findKey, e1,
          keyAtLog_val, hkat, hhit, hleaf, decide_False, Bool.false_eq_true,
          if_false, hca, fillLog_val, efill, hj', hc1, deleteFromNodeLog_val, er, hst,
          not_true_eq_false, not_false_eq_true, Traced.mem_log_bind, Traced.mem_log_ite, log_access, val_access,
    log_emit, val_emit, log_check, val_check, log_followChild, val_followChild,
    Traced.log_pure, Traced.val_pure, List.mem_singleton, List.not_mem_nil,
    Int.toNat_ofNat, Int.natCast_nonneg, if_true, Option.some.injEq,
    exists_eq_left', and_false, or_false, false_or, exists_false, exists_const,
    Traced.val_bind, Traced.val_ite, List.mem_cons, Option.some_bind, Option.none_bind,
    true_and, false_and, exists_eq_left] at he
        rcases he with rfl | he | he | (rfl | ⟨hsmall, he⟩ | rfl | rfl | he) | rfl
        · exact hself
        · exact findKeyLog_fine key hb.nodeOK e he
        · exact keyAtLog_fine idx key hb.nodeOK e he
        · refine ⟨?_, trivial, trivial⟩
          simp only [Event.ok, true_and, and_true] <;> omega
        · exact fillLog_fine hb ht (by omega) hn1' hca hsmall e he
        · exact ⟨trivial, trivial, by omega, by rw [hHd]; exact hb1, hjn, fun h0 => by
            have := hdn h0
            omega⟩
        · have := hb1.nodeOK.2.2
          refine ⟨?_, trivial, trivial⟩
          simp only [Event.ok, true_and, and_true] <;> omega
        · exact hlogc e he
        · exact ⟨trivial, trivial, by omega, by rw [hHd]; exact hb2, fun h0 => by
            have := hdn h0
            show t ≤ x1.n + 1
            omega⟩
      · simp only [deleteFromNode, findKey, e1, hkat, Option.bind_eq_bind, Option.some_bind,
          decide_eq_true_eq, hhit, if_false, hleaf, Bool.false_eq_true, hca, efill, hj', hc1, er, hst]
        rfl

/-! ### The calls recorded in a run on any tree that satisfies invariants 3 to 5 -/

theorem Event.fine.sound {t H : Nat} {e : Event} (h : e.fine t H) : e.sound t H := h.2.2

theorem fillLog_sound_keyless {t H : Nat} {x c : BTreeNode} (hn0 : x.n = 0)
    (hc : childAt x 0 = some c) (hcn : c.n + 1 = t) :
    ∀ e ∈ (fillLog x 0 t).log, e.sound t H := by
  intro e he
  have hneg : ¬ (0 : Int) ≤ (0 : Int) - 1 := by omega
  simp only [fillLog, mergeLog, hn0, ne_eq, not_true_eq_false, if_false, Bool.false_eq_true,
    Nat.cast_zero, hneg, Traced.mem_log_bind, Traced.mem_log_ite, log_access, val_access,
    log_emit, val_emit, log_check, val_check, log_followChild, val_followChild,
    Traced.log_pure, Traced.val_pure, List.mem_singleton, List.not_mem_nil,
    Int.toNat_ofNat, Int.natCast_nonneg, if_true, Option.some.injEq,
    exists_eq_left', and_false, or_false, false_or, exists_false, exists_const,
    Traced.val_bind, Traced.val_ite, List.mem_cons, Option.some_bind, Option.none_bind,
    true_and, false_and, exists_eq_left] at he
  rcases he with rfl | ⟨-, -, rfl | rfl | ⟨a, ha, -⟩⟩
  · exact ⟨by omega, c, hc, hcn⟩
  · trivial
  · trivial
  · cases ha

theorem deleteFromNodeLog_sound {t : Nat} (ht : 2 ≤ t) (h f : Nat) (nd : BTreeNode)
    (key : Int) (hf : h + 1 ≤ f) (hb : Bal t h nd) :
    ∀ e ∈ (deleteFromNodeLog f 0 nd key t).log, e.sound t h := by
  by_cases hroot : h ≠ 0 → 1 ≤ nd.n
  · intro e he
    exact ((deleteFromNodeLog_spec ht h f 0 h nd key hf rfl hb (fun h0 => absurd rfl h0)
      hroot).1 e he).sound
  · obtain ⟨h', rfl⟩ : ∃ h', h = h' + 1 := ⟨h - 1, by omega⟩
    have hn0 : nd.n = 0 := by omega
    obtain ⟨f', rfl⟩ : ∃ f', f = f' + 1 := ⟨f - 1, by omega⟩
    have hleaf : nd.leaf = false := hb.1
    have e1 : scanKeys nd.keys key nd.n 0 = some 0 := by rw [hn0]; rfl
    have hkat : keyAt nd 0 key = some false := by simp [keyAt, hn0]
    obtain ⟨c, -, -, hca, hcn, hbc⟩ := hb.child (Nat.zero_le nd.n)
    have hself : (Event.deleteFromNode 0 nd).sound t (h' + 1) :=
      ⟨by omega, hb, fun h0 => absurd rfl h0⟩
    have hfk : ∀ e ∈ (findKeyLog nd key).log, e.sound t (h' + 1) := fun e he =>
      (findKeyLog_fine (H := h' + 1) key hb.nodeOK e he).sound
    have hka : ∀ e ∈ (keyAtLog nd 0 key).log, e.sound t (h' + 1) := fun e he =>
      (keyAtLog_fine (H := h' + 1) 0 key hb.nodeOK e he).sound
    by_cases hsmall : c.n < t
    · have hfill : fill nd 0 t = none := by
        simp [fill, hn0, hca]
      intro e he
      simp only [deleteFromNodeLog, findKeyLog_val, findKey, e1, keyAtLog_val, hkat, hleaf,
        Bool.false_eq_true, if_false, hca, hsmall, if_true, fillLog_val, hfill,
        not_true_eq_false, not_false_eq_true, Traced.mem_log_bind, Traced.mem_log_ite, log_access, val_access,
    log_emit, val_emit, log_check, val_check, log_followChild, val_followChild,
    Traced.log_pure, Traced.val_pure, List.mem_singleton, List.not_mem_nil,
    Int.toNat_ofNat, Int.natCast_nonneg, if_true, Option.some.injEq,
    exists_eq_left', and_false, or_false, false_or, exists_false, exists_const,
    Traced.val_bind, Traced.val_ite, List.mem_cons, Option.some_bind, Option.none_bind,
    true_and, false_and, exists_eq_left] at he
      rcases he with rfl | he | he | (rfl | he | he) | he
      · exact hself
      · exact hfk e he
      · exact hka e he
      · trivial
      · exact fillLog_sound_keyless hn0 hca (by omega) e he
      · obtain ⟨a, ha, -⟩ := he
        cases ha
      · obtain ⟨a, ha, -⟩ := he
        cases ha
    · obtain ⟨hlogc, r, out, er, hbr, hrn1, hrn2⟩ :=
        deleteFromNodeLog_spec ht h' f' 1 (h' + 1) c key (by omega) rfl hbc (fun _ => by omega)
          (fun _ => by omega)
      obtain ⟨hb2, -, hst, -⟩ := hb.setChild (Nat.zero_le nd.n) r hbr (by omega)
      have hj : (if (decide (0 = nd.n) && decide (0 > nd.n)) = true then 0 - 1 else 0) = 0 := by
        simp
      intro e he
      simp only [deleteFromNodeLog, findKeyLog_val, findKey, e1, keyAtLog_val, hkat, hleaf,
        Bool.false_eq_true, if_false, hca, hsmall, hj, deleteFromNodeLog_val, er, hst,
        not_true_eq_false, not_false_eq_true, Traced.mem_log_bind, Traced.mem_log_ite, log_access, val_access,
    log_emit, val_emit, log_check, val_check, log_followChild, val_followChild,
    Traced.log_pure, Traced.val_pure, List.mem_singleton, List.not_mem_nil,
    Int.toNat_ofNat, Int.natCast_nonneg, if_true, Option.some.injEq,
    exists_eq_left', and_false, or_false, false_or, exists_false, exists_const,
    Traced.val_bind, Traced.val_ite, List.mem_cons, Option.some_bind, Option.none_bind,
    true_and, false_and, exists_eq_left] at he
      rcases he with rfl | he | he | (rfl | rfl | rfl | he) | rfl
      · exact hself
      · exact hfk e he
      · exact hka e he
      · trivial
      · exact ⟨by omega, hb, Nat.zero_le _, fun h0 => absurd rfl h0⟩
      · trivial
      · exact (hlogc e he).sound
      · exact ⟨by omega, hb2, fun h0 => absurd rfl h0⟩

/-! ### The events of `insert` -/

theorem insertNonFullLog_leaf {t H : Nat} (key : Int) (f : Nat) (nd : BTreeNode)
    (hl : nd.leaf = true) (hok : NodeOK t nd) (hroom : nd.n + 2 ≤ 2 * t) :
    (∀ e ∈ (insertNonFullLog (f + 1) nd key t).log, e.fine t H) ∧
    ∃ r, insertNonFull (f + 1) nd key t = some r := by
  obtain ⟨hk, -, -⟩ := hok
  obtain ⟨i, ks', e1, hi, hlen, -⟩ := insertShift_spec key nd.n nd.keys (by omega)
  refine ⟨?_, .mk (nd.n + 1) nd.leaf (ks'.set i key) nd.children, ?_⟩
  · intro e he
    simp only [insertNonFullLog, hl, insertShiftLog_val, e1, Traced.mem_log_bind, Traced.mem_log_ite, log_access, val_access,
    log_emit, val_emit, log_check, val_check, log_followChild, val_followChild,
    Traced.log_pure, Traced.val_pure, List.mem_singleton, List.not_mem_nil,
    Int.toNat_ofNat, Int.natCast_nonneg, if_true, Option.some.injEq,
    exists_eq_left', and_false, or_false, false_or, exists_false, exists_const,
    Traced.val_bind, Traced.val_ite, List.mem_cons, Option.some_bind, Option.none_bind,
    true_and, false_and, exists_eq_left] at he
    rcases he with he | rfl
    · obtain ⟨k, hk', rfl | rfl⟩ := insertShiftLog_mem _ _ _ _ _ he <;>
        refine ⟨?_, trivial, trivial⟩ <;> simp only [Event.ok, true_and, and_true] <;> omega
    · refine ⟨?_, trivial, trivial⟩
      simp only [Event.ok, true_and, and_true] <;> omega
  · simp [insertNonFull, hl, e1, store_eq_some key (show i < ks'.length by omega)]

theorem insertNonFullLog_fine {t H : Nat} (key : Int) :
    ∀ (d : Nat) (nd : BTreeNode) (f : Nat), d < f →
      (nd.leaf = false → ∀ i c, i ≤ nd.n → nd.children[i]? = some (some c) → c.depth ≤ d) →
      Shaped t nd → nd.n + 2 ≤ 2 * t →
      (∀ e ∈ (insertNonFullLog f nd key t).log, e.fine t H) ∧
      ∃ r, insertNonFull f nd key t = some r := by
  intro d
  induction d with
  | zero =>
    intro nd f hf hd hs hroom
    obtain ⟨f, rfl⟩ : ∃ f', f = f' + 1 := ⟨f - 1, by omega⟩
    have hsx := hs nd (self_mem_nodes nd)
    by_cases hl : nd.leaf = true
    · exact insertNonFullLog_leaf key f nd hl hsx.1 hroom
    · have hl' : nd.leaf = false := by simpa using hl
      obtain ⟨c, hc⟩ := hsx.2 hl' 0 (Nat.zero_le _)
      have := hd hl' 0 c (Nat.zero_le _) hc
      rw [depth_eq] at this
      omega
  | succ d ih =>
    intro nd f hf hd hs hroom
    obtain ⟨f, rfl⟩ : ∃ f', f = f' + 1 := ⟨f - 1, by omega⟩
    have hsx := hs nd (self_mem_nodes nd)
    by_cases hl : nd.leaf = true
    · exact insertNonFullLog_leaf key f nd hl hsx.1 hroom
    · have hl' : nd.leaf = false := by simpa using hl
      obtain ⟨hk, hcl, hn⟩ := hsx.1
      obtain ⟨i, e1, hi, -, -⟩ := scanDown_spec nd.keys key nd.n (by omega)
      obtain ⟨c, hc⟩ := hsx.2 hl' i hi
      have hca := childAt_eq hc
      have hsc := hs.kid hl' hi hc
      have hscx := hsc c (self_mem_nodes c)
      have hcd := hd hl' i c hi hc
      have hscan : ∀ e ∈ (scanDownLog nd.n nd.keys key nd.n).log, e.fine t H := by
        intro e he
        obtain ⟨k, hk', rfl⟩ := scanDownLog_mem _ _ _ _ _ he
        refine ⟨?_, trivial, trivial⟩
        simp only [Event.ok, true_and, and_true] <;> omega
      by_cases hfull : c.n + 1 = 2 * t
      · obtain ⟨x1, l, r, m, e2, hm, hl1, rn, rleaf, rkl, rcl, -, -, rkids, rmem, x1n, -,
          -, x1cl, pkeys, pkids⟩ := splitChild_local hsx.1 hscx.1 hi hroom
        have hkm : x1.keys[i]? = some m := by rw [pkeys i, if_pos rfl]
        have hln : l.n = t - 1 := by rw [hl1]; rfl
        have hll : l.leaf = c.leaf := by rw [hl1]; rfl
        have hlc : l.children = c.children := by rw [hl1]; rfl
        have hlk : l.keys = c.keys := by rw [hl1]; rfl
        have hokl : NodeOK t l := ⟨by rw [hlk]; exact hscx.1.1, by rw [hlc]; exact hscx.1.2.1,
          by omega⟩
        have hokr : NodeOK t r := ⟨rkl, rcl, by omega⟩
        have hsl : Shaped t l := by
          by_cases hcleaf : c.leaf = true
          · exact Shaped.of_leaf hokl (by rw [hll]; exact hcleaf)
          · have hcl' : c.leaf = false := by simpa using hcleaf
            exact hsc.of_children hcl' hokl hll
              (fun j hj => ⟨j, by omega, by rw [hlc]⟩)
        have hsr : Shaped t r := by
          by_cases hcleaf : c.leaf = true
          · exact Shaped.of_leaf hokr (by rw [rleaf]; exact hcleaf)
          · have hcl' : c.leaf = false := by simpa using hcleaf
            exact hsc.of_children hcl' hokr rleaf
              (fun j hj => ⟨j + t, by omega, rkids hcl' j (by omega)⟩)
        have hdl : l.leaf = false → ∀ j g, j ≤ l.n → l.children[j]? = some (some g) →
            g.depth ≤ d := by
          intro _ j g _ hg
          rw [hlc] at hg
          exact child_depth_le hcd (List.mem_iff_getElem?.mpr ⟨j, hg⟩)
        have hdr : r.leaf = false → ∀ j g, j ≤ r.n → r.children[j]? = some (some g) →
            g.depth ≤ d := by
          intro _ j g _ hg
          rcases rmem (some g) (List.mem_iff_getElem?.mpr ⟨j, hg⟩) with h0 | h0
          · cases h0
          · exact child_depth_le hcd h0
        have hsplit := splitChildLog_fine (H := H) hsx.1 hi hroom hfull
        by_cases hgt : key > m
        · have hcr : childAt x1 (i + 1) = some r := by
            apply childAt_eq
            rw [pkids (i + 1), if_neg (by omega), if_pos rfl]
          obtain ⟨hlogr, r', e3⟩ := ih r f (by omega) hdr hsr (by omega)
          refine ⟨?_, x1.setChildren (x1.children.set (i + 1) (some r')), ?_⟩
          · intro e he
            simp only [insertNonFullLog, hl', scanDownLog_val, e1, hca, hfull, splitChildLog_val,
              e2, hkm, hgt, hcr, insertNonFullLog_val, e3, Bool.false_eq_true, if_false,
              not_true_eq_false, not_false_eq_true,
              Traced.mem_log_bind, Traced.mem_log_ite, log_access, val_access,
    log_emit, val_emit, log_check, val_check, log_followChild, val_followChild,
    Traced.log_pure, Traced.val_pure, List.mem_singleton, List.not_mem_nil,
    Int.toNat_ofNat, Int.natCast_nonneg, if_true, Option.some.injEq,
    exists_eq_left', and_false, or_false, false_or, exists_false, exists_const,
    Traced.val_bind, Traced.val_ite, List.mem_cons, Option.some_bind, Option.none_bind,
    true_and, false_and, exists_eq_left] at he
            rcases he with he | rfl | he | rfl | rfl | he
            · exact hscan e he
            · refine ⟨?_, trivial, trivial⟩
              simp only [Event.ok, true_and, and_true] <;> omega
            · exact hsplit e he
            · refine ⟨?_, trivial, trivial⟩
              simp only [Event.ok, true_and, and_true] <;> omega
            · refine ⟨?_, trivial, trivial⟩
              simp only [Event.ok, true_and, and_true] <;> omega
            · exact hlogr e he
          · simp [insertNonFull, hl', e1, hca, hfull, e2, hkm, hgt, hcr, e3,
              store_eq_some (some r') (show i + 1 < x1.children.length by omega)]
        · have hcr : childAt x1 i = some l := by
            apply childAt_eq
            rw [pkids i, if_pos rfl]
          obtain ⟨hlogl, r', e3⟩ := ih l f (by omega) hdl hsl (by omega)
          refine ⟨?_, x1.setChildren (x1.children.set i (some r')), ?_⟩
          · intro e he
            simp only [insertNonFullLog, hl', scanDownLog_val, e1, hca, hfull, splitChildLog_val,
              e2, hkm, hgt, hcr, insertNonFullLog_val, e3, Bool.false_eq_true, if_false,
              not_true_eq_false, not_false_eq_true,
              Traced.mem_log_bind, Traced.mem_log_ite, log_access, val_access,
    log_emit, val_emit, log_check, val_check, log_followChild, val_followChild,
    Traced.log_pure, Traced.val_pure, List.mem_singleton, List.not_mem_nil,
    Int.toNat_ofNat, Int.natCast_nonneg, if_true, Option.some.injEq,
    exists_eq_left', and_false, or_false, false_or, exists_false, exists_const,
    Traced.val_bind, Traced.val_ite, List.mem_cons, Option.some_bind, Option.none_bind,
    true_and, false_and, exists_eq_left] at he
            rcases he with he | rfl | he | rfl | rfl | he
            · exact hscan e he
            · refine ⟨?_, trivial, trivial⟩
              simp only [Event.ok, true_and, and_true] <;> omega
            · exact hsplit e he
            · refine ⟨?_, trivial, trivial⟩
              simp only [Event.ok, true_and, and_true] <;> omega
            · refine ⟨?_, trivial, trivial⟩
              simp only [Event.ok, true_and, and_true] <;> omega
            · exact hlogl e he
          · simp [insertNonFull, hl', e1, hca, hfull, e2, hkm, hgt, hcr, e3,
              store_eq_some (some r') (show i < x1.children.length by omega)]
      · have hdc : c.leaf = false → ∀ j g, j ≤ c.n → c.children[j]? = some (some g) →
            g.depth ≤ d := by
          intro _ j g _ hg
          exact child_depth_le hcd (List.mem_iff_getElem?.mpr ⟨j, hg⟩)
        have hcn := hscx.1.2.2
        obtain ⟨hlogc, r', e3⟩ := ih c f (by omega) hdc hsc (by omega)
        refine ⟨?_, nd.setChildren (nd.children.set i (some r')), ?_⟩
        · intro e he
          simp only [insertNonFullLog, hl', scanDownLog_val, e1, hca, hfull,
            insertNonFullLog_val, e3, Bool.false_eq_true, if_false,
            not_true_eq_false, not_false_eq_true, Traced.mem_log_bind, Traced.mem_log_ite, log_access, val_access,
    log_emit, val_emit, log_check, val_check, log_followChild, val_followChild,
    Traced.log_pure, Traced.val_pure, List.mem_singleton, List.not_mem_nil,
    Int.toNat_ofNat, Int.natCast_nonneg, if_true, Option.some.injEq,
    exists_eq_left', and_false, or_false, false_or, exists_false, exists_const,
    Traced.val_bind, Traced.val_ite, List.mem_cons, Option.some_bind, Option.none_bind,
    true_and, false_and, exists_eq_left] at he
          rcases he with he | rfl | rfl | he
          · exact hscan e he
          · refine ⟨?_, trivial, trivial⟩
            simp only [Event.ok, true_and, and_true] <;> omega
          · refine ⟨?_, trivial, trivial⟩
            simp only [Event.ok, true_and, and_true] <;> omega
          · exact hlogc e he
        · simp [insertNonFull, hl', e1, hca, hfull, e3,
            store_eq_some (some r') (show i < nd.children.length by omega)]

/-! ### The events of `insert(tree, key)` and `deleteKey(tree, key)` -/

theorem insertLog_fine {t H : Nat} (ht : 2 ≤ t) {root : BTreeNode} (hs : Shaped t root)
    (key : Int) :
    (∀ e ∈ (insertLog ⟨some root, t⟩ key).log, e.fine t H) ∧
    ∃ tree', insert ⟨some root, t⟩ key = some tree' := by
  have hsx := hs root (self_mem_nodes root)
  have ht0 : t ≠ 0 := by omega
  by_cases hfull : root.n + 1 = 2 * t
  · obtain ⟨nr, hnr⟩ : ∃ nr, nr = BTreeNode.mk 0 false (List.replicate (2 * t - 1) 0)
        ((List.replicate (2 * t) none).set 0 (some root)) := ⟨_, rfl⟩
    have hnrn : nr.n = 0 := by rw [hnr]; rfl
    have hnrl : nr.leaf = false := by rw [hnr]; rfl
    have hoknr : NodeOK t nr := ⟨by rw [hnr]; simp, by rw [hnr]; simp, by omega⟩
    obtain ⟨x1, l, r, e2, hcl, hcr, x1n, x1l, hok1, hln, hrn, hsl, hsr, hdl, hdr⟩ :=
      splitChild_halves hoknr hs (show 0 ≤ nr.n from Nat.zero_le _) (by omega) hfull
    have hsplit := splitChildLog_fine (H := H) hoknr (show 0 ≤ nr.n from Nat.zero_le _)
      (by omega) hfull
    rw [hnrn] at x1n
    rw [hnrl] at x1l
    have hslot : ∀ i c, i ≤ x1.n → x1.children[i]? = some (some c) → c = l ∨ c = r := by
      intro i c hi hc
      have : i = 0 ∨ i = 1 := by omega
      rcases this with rfl | rfl
      · rw [hcl] at hc
        exact Or.inl (Option.some.inj (Option.some.inj hc)).symm
      · rw [hcr] at hc
        exact Or.inr (Option.some.inj (Option.some.inj hc)).symm
    have hs1 : Shaped t x1 := by
      intro y hy
      rcases (mem_nodes_iff y x1).mp hy with rfl | ⟨-, i, g, hi, hg, hyg⟩
      · refine ⟨hok1, fun _ i hi => ?_⟩
        have : i = 0 ∨ i = 1 := by omega
        rcases this with rfl | rfl
        · exact ⟨l, hcl⟩
        · exact ⟨r, hcr⟩
      · rcases hslot i g hi hg with rfl | rfl
        · exact hsl y hyg
        · exact hsr y hyg
    obtain ⟨hlog, r', e3⟩ := insertNonFullLog_fine (H := H) key root.depth x1
      (root.depth + 2) (by omega) (by
        intro _ i c hi hc
        rcases hslot i c hi hc with rfl | rfl
        · exact hdl
        · exact hdr) hs1 (by omega)
    rw [hnr] at e2 hsplit
    have hcreate : createNode false t = some (.mk 0 false (List.replicate (2 * t - 1) 0)
        (List.replicate (2 * t) none)) := by simp [createNode, ht0]
    have hstore : store (List.replicate (2 * t) (none : Option BTreeNode)) 0 (some root) =
        some ((List.replicate (2 * t) none).set 0 (some root)) :=
      store_eq_some _ (by simp; omega)
    refine ⟨?_, ⟨some r', t⟩, ?_⟩
    · intro e he
      simp only [insertLog, val_check, hfull, createNodeLog_val, hcreate, hstore,
        BTreeNode.setChildren, splitChildLog_val, e2, insertNonFullLog_val, e3,
        n_mk, leaf_mk, keys_mk, children_mk,
        not_true_eq_false, not_false_eq_true, Traced.mem_log_bind, Traced.mem_log_ite, log_access, val_access,
    log_emit, val_emit, log_check, val_check, log_followChild, val_followChild,
    Traced.log_pure, Traced.val_pure, List.mem_singleton, List.not_mem_nil,
    Int.toNat_ofNat, Int.natCast_nonneg, if_true, Option.some.injEq,
    exists_eq_left', and_false, or_false, false_or, exists_false, exists_const,
    Traced.val_bind, Traced.val_ite, List.mem_cons, Option.some_bind, Option.none_bind,
    true_and, false_and, exists_eq_left] at he
      rcases he with he | rfl | he | he
      · obtain ⟨k, hk, rfl⟩ := createNodeLog_mem _ _ _ he
        refine ⟨?_, trivial, trivial⟩
        simp only [Event.ok, true_and, and_true] <;> omega
      · refine ⟨?_, trivial, trivial⟩
        simp only [Event.ok, true_and, and_true] <;> omega
      · exact hsplit e he
      · exact hlog e he
    · simp [insert, hfull, createNode, ht0, hstore, BTreeNode.setChildren, e2, e3]
  · obtain ⟨hlog, r', e3⟩ := insertNonFullLog_fine (H := H) key root.depth root
      (root.depth + 2) (by omega) (by
        intro _ i c _ hc
        have := depth_child_lt root c i hc
        omega) hs (by have := hsx.1.2.2; omega)
    refine ⟨?_, ⟨some r', t⟩, by simp [insert, hfull, e3]⟩
    intro e he
    simp only [insertLog, val_check, hfull, insertNonFullLog_val, e3,
      not_true_eq_false, not_false_eq_true, Traced.mem_log_bind, Traced.mem_log_ite, log_access, val_access,
    log_emit, val_emit, log_check, val_check, log_followChild, val_followChild,
    Traced.log_pure, Traced.val_pure, List.mem_singleton, List.not_mem_nil,
    Int.toNat_ofNat, Int.natCast_nonneg, if_true, Option.some.injEq,
    exists_eq_left', and_false, or_false, false_or, exists_false, exists_const,
    Traced.val_bind, Traced.val_ite, List.mem_cons, Option.some_bind, Option.none_bind,
    true_and, false_and, exists_eq_left] at he
    exact hlog e he

theorem deleteKeyLog_fine {t h : Nat} (ht : 2 ≤ t) {root : BTreeNode} (hb : Bal t h root)
    (hr : root.leaf = false → 1 ≤ root.n) (key : Int) :
    (∀ e ∈ (deleteKeyLog ⟨some root, t⟩ key).log, e.fine t h) ∧
    ∃ res, deleteKey ⟨some root, t⟩ key = some res := by
  have hd := hb.depth_ge
  obtain ⟨hlog, r, out, e1, hbr, -, -⟩ := deleteFromNodeLog_spec ht h (root.depth + 1) 0 h
    root key (by omega) rfl hb (fun h0 => absurd rfl h0) (by
      intro h0
      apply hr
      by_contra hcon
      exact h0 ((hb.leaf_iff).mp (by simpa using hcon)))
  have ht0 : t ≠ 0 := by omega
  have hrn := hbr.nodeOK.2.1
  constructor
  · intro e he
    simp only [deleteKeyLog, deleteFromNodeLog_val, e1, Traced.mem_log_bind, Traced.mem_log_ite, log_access, val_access,
    log_emit, val_emit, log_check, val_check, log_followChild, val_followChild,
    Traced.log_pure, Traced.val_pure, List.mem_singleton, List.not_mem_nil,
    Int.toNat_ofNat, Int.natCast_nonneg, if_true, Option.some.injEq,
    exists_eq_left', and_false, or_false, false_or, exists_false, exists_const,
    Traced.val_bind, Traced.val_ite, List.mem_cons, Option.some_bind, Option.none_bind,
    true_and, false_and, exists_eq_left] at he
    rcases he with he | ⟨-, ⟨-, he⟩ | ⟨-, rfl⟩⟩
    · exact hlog e he
    · obtain ⟨k, hk, rfl⟩ := createNodeLog_mem _ _ _ he
      refine ⟨?_, trivial, trivial⟩
      simp only [Event.ok, true_and, and_true] <;> omega
    · refine ⟨?_, trivial, trivial⟩
      simp only [Event.ok, true_and, and_true] <;> omega
  · by_cases hn0 : r.n = 0
    · cases hl : r.leaf with
      | true => exact ⟨_, by simp [deleteKey, e1, hn0, hl, createNode, ht0]; rfl⟩
      | false =>
        have hlt : 0 < r.children.length := by omega
        exact ⟨_, by simp [deleteKey, e1, hn0, hl, List.getElem?_eq_getElem hlt]; rfl⟩
    · exact ⟨_, by simp [deleteKey, e1, hn0]; rfl⟩

theorem deleteKeyLog_sound {t h : Nat} (ht : 2 ≤ t) {root : BTreeNode} (hb : Bal t h root)
    (key : Int) :
    ∀ e ∈ (deleteKeyLog ⟨some root, t⟩ key).log, e.sound t h := by
  have hd := hb.depth_ge
  have hlog := deleteFromNodeLog_sound ht h (root.depth + 1) root key (by omega) hb
  intro e he
  simp only [deleteKeyLog, Traced.mem_log_bind, Traced.mem_log_ite, log_access, val_access,
    log_emit, val_emit, log_check, val_check, log_followChild, val_followChild,
    Traced.log_pure, Traced.val_pure, List.mem_singleton, List.not_mem_nil,
    Int.toNat_ofNat, Int.natCast_nonneg, if_true, Option.some.injEq,
    exists_eq_left', and_false, or_false, false_or, exists_false, exists_const,
    Traced.val_bind, Traced.val_ite, List.mem_cons, Option.some_bind, Option.none_bind,
    true_and, false_and, exists_eq_left] at he
  rcases he with he | ⟨a, -, ⟨-, ⟨-, he⟩ | ⟨-, rfl⟩⟩⟩
  · exact hlog e he
  · obtain ⟨k, hk, rfl⟩ := createNodeLog_mem _ _ _ he
    trivial
  · trivial

/-! ### From the record to the claims -/

theorem deleteKeyLog_sound_tree {t h : Nat} (ht : 2 ≤ t) {tree : BTree} {root : BTreeNode}
    (htt : tree.t = t) (hroot : tree.root = some root) (hb : Bal t h root) (key : Int) :
    ∀ e ∈ (deleteKeyLog tree key).log, e.sound t h := by
  rw [tree_eta htt hroot]
  exact deleteKeyLog_sound ht hb key

theorem deleteKeyLog_fine_tree {t h : Nat} (ht : 2 ≤ t) {tree : BTree} {root : BTreeNode}
    (htt : tree.t = t) (hroot : tree.root = some root) (hb : Bal t h root)
    (hr : RootHasKey tree) (key : Int) :
    (∀ e ∈ (deleteKeyLog tree key).log, e.fine t h) ∧
    ∃ res, deleteKey tree key = some res := by
  have hr' := hr root hroot
  rw [tree_eta htt hroot]
  exact deleteKeyLog_fine ht hb hr' key

theorem Traced.log_bind_split {α β : Type} (m : Traced α) (f : α → Traced β) :
    ∃ rest, (m >>= f).log = m.log ++ rest := by
  show ∃ rest, (match m.val with
    | none => (⟨m.log, none⟩ : Traced β)
    | some a => ⟨m.log ++ (f a).log, (f a).val⟩).log = m.log ++ rest
  cases m.val with
  | none => exact ⟨[], by simp⟩
  | some a => exact ⟨(f a).log, rfl⟩

theorem Traced.head_bind {α β : Type} (m : Traced α) (f : α → Traced β) (e : Event)
    (h : m.log.head? = some e) : (m >>= f).log.head? = some e := by
  obtain ⟨rest, hr⟩ := Traced.log_bind_split m f
  rw [hr, List.head?_append_of_ne_nil]
  · exact h
  · intro hnil
    rw [hnil] at h
    cases h

theorem deleteFromNodeLog_head (f d : Nat) (nd : BTreeNode) (key : Int) (t : Nat) :
    (deleteFromNodeLog (f + 1) d nd key t).log.head? = some (.deleteFromNode d nd) := by
  unfold deleteFromNodeLog
  exact Traced.head_bind _ _ _ rfl

theorem deleteKeyLog_head {tree : BTree} {root : BTreeNode} (hroot : tree.root = some root)
    (key : Int) :
    (deleteKeyLog tree key).log.head? = some (.deleteFromNode 0 root) := by
  unfold deleteKeyLog
  rw [hroot]
  exact Traced.head_bind _ _ _ (deleteFromNodeLog_head root.depth 0 root key tree.t)

/-! ### The calls made during `deleteKey` (claims) -/

/-- C31, counterexample: in the tree with `t = 2` and root key `2` over the leaves `1`
and `3`, which satisfies invariants 1 to 5, `deleteKey(tree, 1)` makes one call of
`fill`, `fill(root, 0)`, and the child `children[0]` has 1 key at that moment: that is
`t - 1` keys, the least number a node may have, not `t - 2`. -/
theorem C31_fill_child_at_minimum :
    Invariants 2 twoLeafTree ∧
    (deleteKeyLog twoLeafTree 1).val = deleteKey twoLeafTree 1 ∧
    (deleteKeyLog twoLeafTree 1).log.filterMap Event.fillCall = [(0, some 1)] ∧
    (1 : Nat) = 2 - 1 ∧ (1 : Nat) ≠ 2 - 2 :=
  ⟨twoLeafTree_invariants, deleteKeyLog_val _ _, by decide, by decide, by decide⟩

/-- C31, amended: whenever `deleteFromNode` calls `fill(node, idx)` during
`deleteKey(tree, key)` on a tree with `t ≥ 2` that satisfies invariants 3 to 5 (and so
on every tree that satisfies invariants 1 to 5), `idx` is the index of a child of `node`
and the child `children[idx]` holds exactly `t - 1` keys at that moment: it is at the
minimum fill, not below it. The calls are those recorded by `deleteKeyLog`, which
returns what `deleteKey` returns. -/
theorem C31_fill_child_key_count (t : Nat) (tree : BTree) (key : Int) (ht : 2 ≤ t)
    (hinv : ShapeInvariants t tree) :
    (deleteKeyLog tree key).val = deleteKey tree key ∧
    ∀ x idx, Event.fill x idx ∈ (deleteKeyLog tree key).log →
      idx ≤ x.n ∧ ∃ c, childAt x idx = some c ∧ c.n = t - 1 := by
  obtain ⟨root, h, hroot, hb⟩ := hinv.to_bal
  refine ⟨deleteKeyLog_val _ _, fun x idx hx => ?_⟩
  obtain ⟨hidx, c, hc, hcn⟩ := deleteKeyLog_sound_tree ht hinv.1 hroot hb key _ hx
  exact ⟨hidx, c, hc, by omega⟩

/-- C31, witness: the amended claim for key `1` and the tree with `t = 2` and root key
`2` over the leaves `1` and `3`. -/
theorem C31_fill_child_key_count_witness :
    (2 ≤ 2 ∧ ShapeInvariants 2 twoLeafTree) ∧
    (deleteKeyLog twoLeafTree 1).val = deleteKey twoLeafTree 1 ∧
    ∀ x idx, Event.fill x idx ∈ (deleteKeyLog twoLeafTree 1).log →
      idx ≤ x.n ∧ ∃ c, childAt x idx = some c ∧ c.n = 2 - 1 :=
  ⟨⟨le_refl _, twoLeafTree_invariants.shape⟩,
    C31_fill_child_key_count 2 twoLeafTree 1 (le_refl _) twoLeafTree_invariants.shape⟩

/-- C35: during `deleteKey(tree, key)` on a tree with `t ≥ 2` that satisfies invariants
3 to 5 and has its leaves at depth `h`, the first invocation of `deleteFromNode` is the
one on the root, at depth 0 of the recursion; every invocation is at a depth `d ≤ h`, and
every invocation at a depth other than 0, that is every invocation on a node other than
the root, receives a node with at least `t` keys. At each invocation, at each point where
an invocation calls `deleteFromNode` on a child (after `fill`, after the key has been
replaced by its predecessor or successor, or after `merge`) and at each return, every
node below the node of the invocation has at least `t - 1` keys, and so has that node
itself unless it is the root. If the root, being an inner node, has a key, the run
returns. The invocations are those recorded by `deleteKeyLog`, which returns what
`deleteKey` returns. -/
theorem C35_deleteFromNode_on_nodes_with_t_keys (t h : Nat) (tree : BTree)
    (root : BTreeNode) (key : Int) (ht : 2 ≤ t) (hinv : ShapeInvariants t tree)
    (hroot : tree.root = some root) (hh : ∀ d ∈ leafDepths root, d = h) :
    (deleteKeyLog tree key).val = deleteKey tree key ∧
    (deleteKeyLog tree key).log.head? = some (.deleteFromNode 0 root) ∧
    (∀ d x, Event.deleteFromNode d x ∈ (deleteKeyLog tree key).log →
      d ≤ h ∧ (d ≠ 0 → t ≤ x.n) ∧ ∀ y ∈ properNodes x, t - 1 ≤ y.n) ∧
    (∀ d x j, Event.descend d x j ∈ (deleteKeyLog tree key).log →
      (d ≠ 0 → t - 1 ≤ x.n) ∧ ∀ y ∈ properNodes x, t - 1 ≤ y.n) ∧
    (∀ d x, Event.returned d x ∈ (deleteKeyLog tree key).log →
      (d ≠ 0 → t - 1 ≤ x.n) ∧ ∀ y ∈ properNodes x, t - 1 ≤ y.n) ∧
    (RootHasKey tree → ∃ res, deleteKey tree key = some res) := by
  obtain ⟨root0, h0, hroot0, hb⟩ := hinv.to_bal
  rw [hroot] at hroot0
  cases hroot0
  have hh0 : h = h0 := bal_height_unique hb hh
  subst hh0
  have hs := deleteKeyLog_sound_tree ht hinv.1 hroot hb key
  refine ⟨deleteKeyLog_val _ _, deleteKeyLog_head hroot key, ?_, ?_, ?_, ?_⟩
  · intro d x hx
    obtain ⟨hd, hbx, hn⟩ := hs _ hx
    exact ⟨hd, hn, hbx.nodes_shape.2⟩
  · intro d x j hx
    obtain ⟨-, hbx, -, hn⟩ := hs _ hx
    exact ⟨fun h0 => by have := hn h0; omega, hbx.nodes_shape.2⟩
  · intro d x hx
    obtain ⟨-, hbx, hn⟩ := hs _ hx
    exact ⟨fun h0 => by have := hn h0; omega, hbx.nodes_shape.2⟩
  · intro hr
    exact (deleteKeyLog_fine_tree ht hinv.1 hroot hb hr key).2

/-- C35, witness: the claim for key `1` and the tree with `t = 2` and root key `2` over
the leaves `1` and `3` (leaves at depth 1). The run makes two invocations: on the root,
which has 1 key, and, after the two leaves have been merged, on the merged child, which
has 3 keys. -/
theorem C35_deleteFromNode_on_nodes_with_t_keys_witness :
    (2 ≤ 2 ∧ ShapeInvariants 2 twoLeafTree) ∧
    (deleteKeyLog twoLeafTree 1).log.filterMap Event.invocation = [(0, 1), (1, 3)] ∧
    ∃ root, twoLeafTree.root = some root ∧ (∀ d ∈ leafDepths root, d = 1) ∧
    (deleteKeyLog twoLeafTree 1).val = deleteKey twoLeafTree 1 ∧
    (deleteKeyLog twoLeafTree 1).log.head? = some (.deleteFromNode 0 root) ∧
    (∀ d x, Event.deleteFromNode d x ∈ (deleteKeyLog twoLeafTree 1).log →
      d ≤ 1 ∧ (d ≠ 0 → 2 ≤ x.n) ∧ ∀ y ∈ properNodes x, 2 - 1 ≤ y.n) ∧
    (∀ d x j, Event.descend d x j ∈ (deleteKeyLog twoLeafTree 1).log →
      (d ≠ 0 → 2 - 1 ≤ x.n) ∧ ∀ y ∈ properNodes x, 2 - 1 ≤ y.n) ∧
    (∀ d x, Event.returned d x ∈ (deleteKeyLog twoLeafTree 1).log →
      (d ≠ 0 → 2 - 1 ≤ x.n) ∧ ∀ y ∈ properNodes x, 2 - 1 ≤ y.n) ∧
    (RootHasKey twoLeafTree → ∃ res, deleteKey twoLeafTree 1 = some res) := by
  have hd : ∀ d ∈ leafDepths (.mk 1 false [2, 0, 0]
      [some (.mk 1 true [1, 0, 0] [none, none, none, none]),
       some (.mk 1 true [3, 0, 0] [none, none, none, none]), none, none]), d = 1 := by
    intro d hd
    simp [leafDepths, leafDepthsSlots, leafDepthsSlot] at hd
    exact hd
  exact ⟨⟨le_refl _, twoLeafTree_invariants.shape⟩, by decide, _, rfl, hd,
    C35_deleteFromNode_on_nodes_with_t_keys 2 1 twoLeafTree _ 1 (le_refl _)
      twoLeafTree_invariants.shape rfl hd⟩

/-- C36, counterexample: the tree with `t = 2` whose root is an inner node without a key
over the single leaf `6` satisfies invariants 3 to 5 (and 1 and 2). During
`deleteKey(tree, 8)` the only call of `merge` is `merge(root, -1, t)`, made by
`fill(root, 0)`: `children[-1]` is not a child of the root, and the run has no result. -/
theorem C36_merge_called_with_index_minus_1 :
    ShapeInvariants 2 keylessRootTree ∧ Invariants 2 keylessRootTree ∧
    (deleteKeyLog keylessRootTree 8).log.filterMap Event.fillCall = [(0, some 1)] ∧
    (deleteKeyLog keylessRootTree 8).log.filterMap Event.mergeCall = [-1] ∧
    (deleteKeyLog keylessRootTree 8).val = none ∧
    deleteKey keylessRootTree 8 = none :=
  ⟨(keyless_root_invariants 6).shape, keyless_root_invariants 6, by decide, by decide, rfl,
    rfl⟩

/-- C36, amended: on a tree with `t ≥ 2` that satisfies invariants 3 to 5 and whose root,
if it is an inner node, has at least one key, every call `merge(node, idx, t)` made
during `deleteKey(tree, key)` (from `fill` and from `removeFromNonLeaf`) has
`0 ≤ idx < node.n` and finds `children[idx]` and `children[idx+1]` with `t - 1` keys
each; the call returns, the merged child in slot `idx` has exactly `2t - 1` keys, which
are the keys of `children[idx]`, the separating key `keys[idx]` and the keys of
`children[idx+1]` in this order, `node` has one key less and the in-order traversal of
the subtree of `node` is the same as before. The calls are those recorded by
`deleteKeyLog`, which returns what `deleteKey` returns. -/
theorem C36_merge_calls (t : Nat) (tree : BTree) (key : Int) (ht : 2 ≤ t)
    (hinv : ShapeInvariants t tree) (hrk : RootHasKey tree) :
    (deleteKeyLog tree key).val = deleteKey tree key ∧
    ∀ x i, Event.merge x i ∈ (deleteKeyLog tree key).log →
      ∃ idx c s pk x1 m, i = (idx : Nat) ∧ idx < x.n ∧
        childAt x idx = some c ∧ childAt x (idx + 1) = some s ∧
        c.n = t - 1 ∧ s.n = t - 1 ∧ x.keys[idx]? = some pk ∧
        merge x idx t = some x1 ∧ childAt x1 idx = some m ∧ m.n = 2 * t - 1 ∧
        liveKeys m = liveKeys c ++ pk :: liveKeys s ∧ x1.n + 1 = x.n ∧
        inorder x1 = inorder x := by
  obtain ⟨root, h, hroot, hb⟩ := hinv.to_bal
  refine ⟨deleteKeyLog_val _ _, fun x i hx => ?_⟩
  obtain ⟨-, ⟨idx, h', c, s, hi, hidx, hbx, hc, hs, hcn, hsn⟩, -⟩ :=
    (deleteKeyLog_fine_tree ht hinv.1 hroot hb hrk key).1 _ hx
  obtain ⟨x1, m, pk, em, -, hin, hx1n, hm, hmn, -, hpk, -⟩ :=
    merge_spec hbx hidx hc hs hcn hsn
  obtain ⟨c', -, -, hc', -, hbc⟩ := hbx.child (show idx ≤ x.n by omega)
  obtain ⟨s', -, -, hs', -, hbs⟩ := hbx.child (show idx + 1 ≤ x.n by omega)
  have ec : c' = c := by rw [hc] at hc'; exact (Option.some.inj hc').symm
  have es : s' = s := by rw [hs] at hs'; exact (Option.some.inj hs').symm
  subst ec es
  obtain ⟨x2, m2, pk2, em2, hpk2, hm2, -, -, hlive, -, -, -, -, -, -⟩ :=
    merge_local hbx.nodeOK hidx hc hs hbc.nodeOK hbs.nodeOK hcn (by omega)
  have e12 : x2 = x1 := by rw [em] at em2; exact (Option.some.inj em2).symm
  subst e12
  have em12 : m2 = m := by
    have := childAt_eq hm2
    rw [hm] at this
    exact (Option.some.inj this).symm
  have epk : pk2 = pk := by rw [hpk] at hpk2; exact (Option.some.inj hpk2).symm
  subst em12 epk
  exact ⟨idx, c', s', pk2, x2, m2, hi, hidx, hc, hs, by omega, by omega, hpk, em, hm,
    by omega, hlive, hx1n, hin⟩

/-- C36, witness: the amended claim for key `2` and the tree with `t = 2` and root key
`2` over the leaves `1` and `3`: `removeFromNonLeaf` calls `merge(root, 0, t)`. -/
theorem C36_merge_calls_witness :
    (2 ≤ 2 ∧ ShapeInvariants 2 twoLeafTree ∧ RootHasKey twoLeafTree) ∧
    (deleteKeyLog twoLeafTree 2).log.filterMap Event.mergeCall = [0] ∧
    (deleteKeyLog twoLeafTree 2).val = deleteKey twoLeafTree 2 ∧
    ∀ x i, Event.merge x i ∈ (deleteKeyLog twoLeafTree 2).log →
      ∃ idx c s pk x1 m, i = (idx : Nat) ∧ idx < x.n ∧
        childAt x idx = some c ∧ childAt x (idx + 1) = some s ∧
        c.n = 2 - 1 ∧ s.n = 2 - 1 ∧ x.keys[idx]? = some pk ∧
        merge x idx 2 = some x1 ∧ childAt x1 idx = some m ∧ m.n = 2 * 2 - 1 ∧
        liveKeys m = liveKeys c ++ pk :: liveKeys s ∧ x1.n + 1 = x.n ∧
        inorder x1 = inorder x :=
  ⟨⟨le_refl _, twoLeafTree_invariants.shape, twoLeafTree_rootHasKey⟩, by decide,
    C36_merge_calls 2 twoLeafTree 2 (le_refl _) twoLeafTree_invariants.shape
      twoLeafTree_rootHasKey⟩

/-- C34, counterexample. (1) The tree with `t = 2` whose root is an inner node without a
key over the single leaf `6` satisfies invariants 3 to 5; `deleteKey(tree, 8)`
dereferences `root->children[0]` and then, in `merge(root, -1, t)`, reads
`root->children[-1]`, an index outside the child array, and has no result. (2) The tree
with `t = 2` whose root is the full leaf `1 2 3` satisfies invariants 3 to 5;
`insert(tree, 4)` splits the root, and `splitChild` reads the middle key `keys[1]` of
the old root when the key count of that node has already been set to `t - 1 = 1`: a key
read at index `n`, not below it. The key reads of that run are listed with index and
key count. -/
theorem C34_child_index_minus_1_and_key_read_at_n :
    ShapeInvariants 2 keylessRootTree ∧
    (deleteKeyLog keylessRootTree 8).log.filterMap Event.followAt = [(0, 0), (-1, 0)] ∧
    ¬ (Event.follow (-1) 0).ok 2 ∧
    (deleteKeyLog keylessRootTree 8).val = none ∧
    deleteKey keylessRootTree 8 = none ∧
    ShapeInvariants 2 fullLeafTree ∧
    (insertLog fullLeafTree 4).log.filterMap Event.keyReadAt =
      [(2, 3), (1, 1), (0, 1), (0, 1)] ∧
    (insertLog fullLeafTree 4).val = insert fullLeafTree 4 ∧
    (insert fullLeafTree 4).isSome = true := by
  refine ⟨(keyless_root_invariants 6).shape, by decide, ?_, rfl, rfl,
    fullLeafTree_invariants.shape, by decide, insertLog_val _ _, by decide⟩
  simp [Event.ok]

/-- C34, amended: on a tree with `t ≥ 2` that satisfies invariants 3 to 5, `insert(tree,
key)` returns, and, if the root has at least one key whenever it is an inner node,
`deleteKey(tree, key)` returns; during these runs every key is read or written at an
index from `0` to `2t - 2` and every child slot at an index from `0` to `2t - 1`; every
key read is at an index below the key count `n` that its node has at that moment, except
that `splitChild` reads the middle key `child->keys[t - 1]` after it has set `child->n`
to `t - 1`; every child pointer that is dereferenced is read at an index from `0` to `n`
and is not `NULL`. The accesses are those recorded by `insertLog` and `deleteKeyLog`,
which return what `insert` and `deleteKey` return and have no result when a `NULL`
pointer is dereferenced; `Event.ok` states the bounds. -/
theorem C34_accesses_in_bounds (t : Nat) (tree : BTree) (key : Int) (ht : 2 ≤ t)
    (hinv : ShapeInvariants t tree) :
    ((insertLog tree key).val = insert tree key ∧ (∃ tree', insert tree key = some tree') ∧
      ∀ e ∈ (insertLog tree key).log, e.ok t) ∧
    (RootHasKey tree →
      (deleteKeyLog tree key).val = deleteKey tree key ∧
      (∃ res, deleteKey tree key = some res) ∧
      ∀ e ∈ (deleteKeyLog tree key).log, e.ok t) := by
  obtain ⟨root, h, hroot, hb⟩ := hinv.to_bal
  obtain ⟨htt, root', hroot', hs, -⟩ := hinv
  rw [hroot] at hroot'
  cases hroot'
  constructor
  · have hins := insertLog_fine (H := 0) ht hs key
    rw [← tree_eta htt hroot] at hins
    exact ⟨insertLog_val _ _, hins.2, fun e he => (hins.1 e he).1⟩
  · intro hrk
    have hdel := deleteKeyLog_fine_tree ht htt hroot hb hrk key
    exact ⟨deleteKeyLog_val _ _, hdel.2, fun e he => (hdel.1 e he).1⟩

/-- C34, witness: the amended claim for key `1` and the tree with `t = 2` and root key
`2` over the leaves `1` and `3`. -/
theorem C34_accesses_in_bounds_witness :
    (2 ≤ 2 ∧ ShapeInvariants 2 twoLeafTree) ∧
    ((insertLog twoLeafTree 1).val = insert twoLeafTree 1 ∧
      (∃ tree', insert twoLeafTree 1 = some tree') ∧
      ∀ e ∈ (insertLog twoLeafTree 1).log, e.ok 2) ∧
    (RootHasKey twoLeafTree →
      (deleteKeyLog twoLeafTree 1).val = deleteKey twoLeafTree 1 ∧
      (∃ res, deleteKey twoLeafTree 1 = some res) ∧
      ∀ e ∈ (deleteKeyLog twoLeafTree 1).log, e.ok 2) :=
  ⟨⟨le_refl _, twoLeafTree_invariants.shape⟩,
    C34_accesses_in_bounds 2 twoLeafTree 1 (le_refl _) twoLeafTree_invariants.shape⟩

/-! ### A larger bound on the recursion depth does not change a result -/

theorem bind_mono {α β : Type} {o o' : Option α} {f f' : α → Option β}
    (h1 : ∀ a, o = some a → o' = some a)
    (h2 : ∀ a r, f a = some r → f' a = some r) :
    ∀ r, (o >>= f) = some r → (o' >>= f') = some r := by
  intro r hr
  cases ho : o with
  | none => rw [ho] at hr; cases hr
  | some a =>
    rw [ho] at hr
    rw [h1 a ho]
    exact h2 a r hr

theorem getPredecessorLoop_mono :
    ∀ (f : Nat) (cur : BTreeNode) (p : Int), getPredecessorLoop f cur = some p →
      getPredecessorLoop (f + 1) cur = some p := by
  intro f
  induction f with
  | zero => intro cur p h; cases h
  | succ f ih =>
    intro cur p h
    unfold getPredecessorLoop at h ⊢
    by_cases hl : cur.leaf = true
    · rw [if_pos hl] at h ⊢
      exact h
    · rw [if_neg hl] at h ⊢
      exact bind_mono (fun _ ha => ha) (fun c r hr => ih c r hr) p h

theorem getSuccessorLoop_mono :
    ∀ (f : Nat) (cur : BTreeNode) (p : Int), getSuccessorLoop f cur = some p →
      getSuccessorLoop (f + 1) cur = some p := by
  intro f
  induction f with
  | zero => intro cur p h; cases h
  | succ f ih =>
    intro cur p h
    unfold getSuccessorLoop at h ⊢
    by_cases hl : cur.leaf = true
    · rw [if_pos hl] at h ⊢
      exact h
    · rw [if_neg hl] at h ⊢
      exact bind_mono (fun _ ha => ha) (fun c r hr => ih c r hr) p h

theorem removeFromNonLeaf_mono {rec rec' : BTreeNode → Int → Option (BTreeNode × List Msg)}
    (hrec : ∀ c k r, rec c k = some r → rec' c k = some r) (fuel : Nat) (nd : BTreeNode)
    (idx t : Nat) :
    ∀ r, removeFromNonLeaf rec fuel nd idx t = some r →
      removeFromNonLeaf rec' (fuel + 1) nd idx t = some r := by
  unfold removeFromNonLeaf
  refine bind_mono (fun _ ha => ha) (fun key => ?_)
  refine bind_mono (fun _ ha => ha) (fun c => ?_)
  by_cases hc : c.n ≥ t
  · rw [if_pos hc, if_pos hc]
    refine bind_mono ?_ (fun pred => ?_)
    · unfold getPredecessor
      exact bind_mono (fun _ ha => ha) (fun c => getPredecessorLoop_mono fuel c)
    · refine bind_mono (fun _ ha => ha) (fun ks => ?_)
      refine bind_mono (hrec c pred) (fun r => ?_)
      exact fun _ h => h
  · rw [if_neg hc, if_neg hc]
    refine bind_mono (fun _ ha => ha) (fun s => ?_)
    by_cases hs : s.n ≥ t
    · rw [if_pos hs, if_pos hs]
      refine bind_mono ?_ (fun succ => ?_)
      · unfold getSuccessor
        exact bind_mono (fun _ ha => ha) (fun c => getSuccessorLoop_mono fuel c)
      · refine bind_mono (fun _ ha => ha) (fun ks => ?_)
        refine bind_mono (hrec s succ) (fun r => ?_)
        exact fun _ h => h
    · rw [if_neg hs, if_neg hs]
      refine bind_mono (fun _ ha => ha) (fun nd1 => ?_)
      refine bind_mono (fun _ ha => ha) (fun m => ?_)
      refine bind_mono (hrec m key) (fun r => ?_)
      exact fun _ h => h

theorem deleteFromNode_mono (t : Nat) :
    ∀ (f : Nat) (nd : BTreeNode) (key : Int) (r : BTreeNode × List Msg),
      deleteFromNode f nd key t = some r → deleteFromNode (f + 1) nd key t = some r := by
  intro f
  induction f with
  | zero => intro nd key r h; cases h
  | succ f ih =>
    intro nd key
    unfold deleteFromNode
    refine bind_mono (fun _ ha => ha) (fun idx => ?_)
    refine bind_mono (fun _ ha => ha) (fun hit => ?_)
    by_cases hh : hit = true
    · rw [if_pos hh, if_pos hh]
      by_cases hl : nd.leaf = true
      · rw [if_pos hl, if_pos hl]
        exact fun _ h => h
      · rw [if_neg hl, if_neg hl]
        exact removeFromNonLeaf_mono (fun c k r hr => ih c k r hr) f nd idx t
    · rw [if_neg hh, if_neg hh]
      by_cases hl : nd.leaf = true
      · rw [if_pos hl, if_pos hl]
        exact fun _ h => h
      · rw [if_neg hl, if_neg hl]
        refine bind_mono (fun _ ha => ha) (fun c => ?_)
        refine bind_mono (fun _ ha => ha) (fun nd1 => ?_)
        refine bind_mono (fun _ ha => ha) (fun c1 => ?_)
        refine bind_mono (ih c1 key) (fun r => ?_)
        exact fun _ h => h

theorem deleteFromNode_mono_le (t : Nat) (nd : BTreeNode) (key : Int)
    (r : BTreeNode × List Msg) (f : Nat) (h : deleteFromNode f nd key t = some r) :
    ∀ g, f ≤ g → deleteFromNode g nd key t = some r := by
  intro g hg
  induction g with
  | zero =>
    have : f = 0 := by omega
    subst this
    exact h
  | succ g ih =>
    by_cases hfg : f = g + 1
    · subst hfg
      exact h
    · exact deleteFromNode_mono t g nd key r (ih (by omega))

/-! ### Termination of `deleteKey` (claim) -/

/-- C33, counterexample: the tree with `t = 2` whose root is an inner node without a key
over the single leaf `6` satisfies invariants 1 to 5, and `deleteKey(tree, 6)` does not
run to its end: `deleteFromNode` on the root has no result with any bound on the depth
of the recursion, because `fill(root, 0)` calls `merge(root, -1, t)`, which reads
`children[-1]`. -/
theorem C33_keyless_root_no_result :
    Invariants 2 keylessRootTree ∧ ¬ RootHasKey keylessRootTree ∧
    (6 : Int) ∈ keysOf keylessRootTree ∧
    (∀ f root, keylessRootTree.root = some root → deleteFromNode f root 6 2 = none) ∧
    deleteKey keylessRootTree 6 = none ∧
    (deleteKeyLog keylessRootTree 6).log.filterMap Event.mergeCall = [-1] := by
  refine ⟨keyless_root_invariants 6, ?_, ?_, ?_, rfl, by decide⟩
  · intro hr
    have := hr _ rfl rfl
    exact absurd this (by decide)
  · simp [keysOf, keylessRootTree, inorder, inorderSlots, inorderSlot, interleave]
  · intro f root hroot
    cases hroot
    cases f with
    | zero => rfl
    | succ f => rfl

/-- C33, amended: for every tree with `t ≥ 2` that satisfies invariants 1 to 5, whose
root, if it is an inner node, has at least one key, and whose leaves are at depth `h`,
and every key, `deleteKey(tree, key)` returns, and `deleteFromNode` on the root returns
the same result with every bound of at least `h + 1` on the depth of its recursion.
Every invocation of `deleteFromNode` recorded in the run is nested at a depth `d ≤ h` and
is on a node whose leaves are `h - d` levels below it; every recursive call is made on a
child `children[j]` of the node of the calling invocation, one level further down. The
loops of `getPredecessor` and `getSuccessor`, started at a child of any inner node of the
tree, return a key within `h` steps. -/
theorem C33_deleteKey_terminates (t h : Nat) (tree : BTree) (root : BTreeNode) (key : Int)
    (ht : 2 ≤ t) (hinv : Invariants t tree) (hrk : RootHasKey tree)
    (hroot : tree.root = some root) (hh : ∀ d ∈ leafDepths root, d = h) :
    (∃ res, deleteKey tree key = some res) ∧
    (∃ r, ∀ f, h + 1 ≤ f → deleteFromNode f root key t = some r) ∧
    (∀ d x, Event.deleteFromNode d x ∈ (deleteKeyLog tree key).log →
      d ≤ h ∧ leafDepths x ≠ [] ∧ ∀ dl ∈ leafDepths x, dl = h - d) ∧
    (∀ d x j, Event.descend d x j ∈ (deleteKeyLog tree key).log →
      d < h ∧ ∃ c, childAt x j = some c ∧ leafDepths c ≠ [] ∧
        ∀ dl ∈ leafDepths c, dl = h - (d + 1)) ∧
    (∀ x ∈ nodes root, x.leaf = false → ∀ idx f, h ≤ f →
      (idx ≤ x.n → ∃ k, getPredecessor f x idx = some k) ∧
      (idx < x.n → ∃ k, getSuccessor f x idx = some k)) := by
  have hsh := hinv.shape
  obtain ⟨root0, h0, hroot0, hb⟩ := hsh.to_bal
  rw [hroot] at hroot0
  cases hroot0
  have hh0 : h = h0 := bal_height_unique hb hh
  subst hh0
  have hfine := deleteKeyLog_fine_tree ht hsh.1 hroot hb hrk key
  obtain ⟨-, r, out, er, -⟩ := deleteFromNodeLog_spec ht h (h + 1) 0 h root key (le_refl _)
    rfl hb (fun h0 => absurd rfl h0) (by
      intro h0
      apply hrk root hroot
      by_contra hcon
      exact h0 ((hb.leaf_iff).mp (by simpa using hcon)))
  refine ⟨hfine.2, ⟨(r, out), fun f hf => deleteFromNode_mono_le t root key _ _ er f hf⟩,
    ?_, ?_, ?_⟩
  · intro d x hx
    obtain ⟨hd, hbx, -⟩ := (hfine.1 _ hx).sound
    exact ⟨hd, bal_leafDepths_ne_nil _ _ hbx, Bal.leafDepths _ _ hbx⟩
  · intro d x j hx
    obtain ⟨hd, hbx, hj, -⟩ := (hfine.1 _ hx).sound
    obtain ⟨g, hg⟩ : ∃ g, h - d = g + 1 := ⟨h - d - 1, by omega⟩
    rw [hg] at hbx
    obtain ⟨c, -, -, hc, -, hbc⟩ := hbx.child hj
    have hgd : h - (d + 1) = g := by omega
    rw [hgd]
    exact ⟨hd, c, hc, bal_leafDepths_ne_nil _ _ hbc, Bal.leafDepths _ _ hbc⟩
  · intro x hx hl idx f hf
    obtain ⟨h', hh', hbx⟩ := hb.nodes_shape.1 x hx
    obtain ⟨g, rfl⟩ : ∃ g, h' = g + 1 := by
      refine ⟨h' - 1, ?_⟩
      have : h' ≠ 0 := by
        intro h0
        have := (hbx.leaf_iff).mpr h0
        rw [hl] at this
        cases this
      omega
    constructor
    · intro hidx
      obtain ⟨c, -, -, hc, hcn, hbc⟩ := hbx.child hidx
      obtain ⟨p, -, ep, -⟩ := getPredecessorLoop_spec ht g f c (by omega) hbc (by omega)
      exact ⟨p, by simp [getPredecessor, hc, ep]⟩
    · intro hidx
      obtain ⟨c, -, -, hc, hcn, hbc⟩ := hbx.child (show idx + 1 ≤ x.n by omega)
      obtain ⟨p, -, ep, -⟩ := getSuccessorLoop_spec ht g f c (by omega) hbc (by omega)
      exact ⟨p, by simp [getSuccessor, hc, ep]⟩

/-- C33, witness: the amended claim for key `2` and the tree with `t = 2` and root key
`2` over the leaves `1` and `3`, whose leaves are at depth 1. -/
theorem C33_deleteKey_terminates_witness :
    (2 ≤ 2 ∧ Invariants 2 twoLeafTree ∧ RootHasKey twoLeafTree) ∧
    ∃ root, twoLeafTree.root = some root ∧ (∀ d ∈ leafDepths root, d = 1) ∧
    (∃ res, deleteKey twoLeafTree 2 = some res) ∧
    (∃ r, ∀ f, 1 + 1 ≤ f → deleteFromNode f root 2 2 = some r) ∧
    (∀ d x, Event.deleteFromNode d x ∈ (deleteKeyLog twoLeafTree 2).log →
      d ≤ 1 ∧ leafDepths x ≠ [] ∧ ∀ dl ∈ leafDepths x, dl = 1 - d) ∧
    (∀ d x j, Event.descend d x j ∈ (deleteKeyLog twoLeafTree 2).log →
      d < 1 ∧ ∃ c, childAt x j = some c ∧ leafDepths c ≠ [] ∧
        ∀ dl ∈ leafDepths c, dl = 1 - (d + 1)) ∧
    (∀ x ∈ nodes root, x.leaf = false → ∀ idx f, 1 ≤ f →
      (idx ≤ x.n → ∃ k, getPredecessor f x idx = some k) ∧
      (idx < x.n → ∃ k, getSuccessor f x idx = some k)) := by
  have hd : ∀ d ∈ leafDepths (.mk 1 false [2, 0, 0]
      [some (.mk 1 true [1, 0, 0] [none, none, none, none]),
       some (.mk 1 true [3, 0, 0] [none, none, none, none]), none, none]), d = 1 := by
    intro d hd
    simp [leafDepths, leafDepthsSlots, leafDepthsSlot] at hd
    exact hd
  exact ⟨⟨le_refl _, twoLeafTree_invariants, twoLeafTree_rootHasKey⟩, _, rfl, hd,
    C33_deleteKey_terminates 2 1 twoLeafTree _ 2 (le_refl _) twoLeafTree_invariants
      twoLeafTree_rootHasKey rfl hd⟩

theorem toSize_of_nonneg {x : Int} (h0 : 0 ≤ x) (h1 : x < 18446744073709551616) :
    Machine.toSize x = x.toNat := by
  unfold Machine.toSize
  omega

theorem machine_createNode_arith {t : Int} (h1 : -1073741824 < t) (h2 : t < 1073741824) :
    (Machine.isInt (2 * t) && Machine.isInt (2 * t - 1)) = true := by
  unfold Machine.isInt
  simp only [Bool.and_eq_true, decide_eq_true_eq]
  omega

theorem machine_createNode_overflow {t : Int} (h : 1073741824 ≤ t ∨ t ≤ -1073741824) :
    (Machine.isInt (2 * t) && Machine.isInt (2 * t - 1)) = false := by
  unfold Machine.isInt
  rw [Bool.and_eq_false_iff]
  simp only [decide_eq_false_iff_not]
  omega

/-- C8, counterexample: `createBTree(1)` does not fail: it returns a tree with `t = 1`
whose root is an empty leaf, and the tree can be used: after `insert(7)` the traversal
prints `7`. With `t` an `int` and an allocator that serves every request below `2^63`
bytes, `createBTree(1)` returns that tree too, and `createBTree(2^30)` does not succeed:
`2 * t` overflows. -/
theorem C8_createBTree_one_succeeds :
    createBTree 1 = some ⟨some (.mk 0 true [0] [none, none]), 1⟩ ∧
    ((createBTree 1).bind (fun tr => insert tr 7)).bind (fun tr => traverse tr.root) =
      some [7] ∧
    Machine.createBTree (fun s => decide (s < 9223372036854775808)) 1 =
      .returned (.mk 0 true [0] [none, none], 1) ∧
    Machine.createBTree (fun s => decide (s < 9223372036854775808)) 1073741824 =
      .undefined := by
  refine ⟨rfl, ?_, rfl, rfl⟩
  decide!

/-- C8, amended: `createBTree(t)` does not check `t`; what it does depends only on the
`int` arithmetic and on the allocations. With `t` an `int` and an allocator that serves
no request of `2^63` bytes or more: if the allocation of the tree or of the node fails,
it exits with the message of that allocation. Otherwise, for `1 ≤ t < 2^30`, `t = 1`
included, it returns a tree with the given `t` and an empty leaf root (`n = 0`,
`leaf = true`, `2t - 1` key slots, `2t` child pointers, all `NULL`) when the two arrays
of `8t - 4` and `16t` bytes are allocated, and exits with `Failed to allocate node
arrays` when they are not; for `-2^30 < t ≤ 0` the size of the key array, converted to
`size_t`, is `2^63` or more and it exits with that message; for `t ≥ 2^30` and
`t ≤ -2^30` the computation of `2 * t - 1` overflows `int`. -/
theorem C8_createBTree_no_check (grant : Nat → Bool) (t : Int)
    (hint : -2147483648 ≤ t ∧ t ≤ 2147483647)
    (hgrant : ∀ s, 9223372036854775808 ≤ s → grant s = false) :
    (grant 16 = false → Machine.createBTree grant t = .exited "Failed to create B-Tree") ∧
    (grant 16 = true → grant 24 = false →
      Machine.createBTree grant t = .exited "Failed to create node") ∧
    (grant 16 = true → grant 24 = true →
      (1 ≤ t → t < 1073741824 →
        (grant (8 * t - 4).toNat = true → grant (16 * t).toNat = true →
          ∃ root, Machine.createBTree grant t = .returned (root, t) ∧
            root.n = 0 ∧ root.leaf = true ∧ root.keys.length = 2 * t.toNat - 1 ∧
            root.children = List.replicate (2 * t.toNat) none ∧
            createBTree t.toNat = some ⟨some root, t.toNat⟩) ∧
        (grant (8 * t - 4).toNat = false ∨ grant (16 * t).toNat = false →
          Machine.createBTree grant t = .exited "Failed to allocate node arrays")) ∧
      (-1073741824 < t → t ≤ 0 →
        Machine.createBTree grant t = .exited "Failed to allocate node arrays") ∧
      (1073741824 ≤ t ∨ t ≤ -1073741824 → Machine.createBTree grant t = .undefined)) := by
  refine ⟨fun h16 => ?_, fun h16 h24 => ?_, fun h16 h24 => ⟨fun h1 h2 => ⟨fun hk hc => ?_,
    fun hno => ?_⟩, fun h1 h2 => ?_, fun hov => ?_⟩⟩
  · simp only [Machine.createBTree, h16, if_true]
  · simp only [Machine.createBTree, Machine.createNode, h16, h24, if_true,
      Bool.true_eq_false, if_false]
  · have hks : Machine.toSize (4 * (Machine.toSize (2 * t - 1) : Int)) = (8 * t - 4).toNat := by
      have hin : Machine.toSize (2 * t - 1) = (2 * t - 1).toNat :=
        toSize_of_nonneg (by omega) (by omega)
      rw [hin, toSize_of_nonneg (by omega) (by omega)]
      omega
    have hcs : Machine.toSize (8 * (Machine.toSize (2 * t) : Int)) = (16 * t).toNat := by
      have hin : Machine.toSize (2 * t) = (2 * t).toNat :=
        toSize_of_nonneg (by omega) (by omega)
      rw [hin, toSize_of_nonneg (by omega) (by omega)]
      omega
    have hk2 : (2 * t - 1).toNat = 2 * t.toNat - 1 := by omega
    have hc2 : (2 * t).toNat = 2 * t.toNat := by omega
    have ht0 : t.toNat ≠ 0 := by omega
    refine ⟨.mk 0 true (List.replicate (2 * t.toNat - 1) 0)
      (List.replicate (2 * t.toNat) none), ?_, rfl, rfl, by simp, rfl, ?_⟩
    · simp only [Machine.createBTree, Machine.createNode, h16, h24, if_true,
        Bool.true_eq_false, if_false, machine_createNode_arith (by omega : -1073741824 < t) h2,
        hks, hcs, hk, hc, or_self, hk2, hc2]
    · simp [createBTree, createNode, ht0]
  · have hks : Machine.toSize (4 * (Machine.toSize (2 * t - 1) : Int)) = (8 * t - 4).toNat := by
      have hin : Machine.toSize (2 * t - 1) = (2 * t - 1).toNat :=
        toSize_of_nonneg (by omega) (by omega)
      rw [hin, toSize_of_nonneg (by omega) (by omega)]
      omega
    have hcs : Machine.toSize (8 * (Machine.toSize (2 * t) : Int)) = (16 * t).toNat := by
      have hin : Machine.toSize (2 * t) = (2 * t).toNat :=
        toSize_of_nonneg (by omega) (by omega)
      rw [hin, toSize_of_nonneg (by omega) (by omega)]
      omega
    simp only [Machine.createBTree, Machine.createNode, h16, h24, if_true,
      Bool.true_eq_false, if_false, machine_createNode_arith (by omega : -1073741824 < t) h2,
      hks, hcs, hno]
  · have hbig : grant (Machine.toSize (4 * (Machine.toSize (2 * t - 1) : Int))) = false := by
      apply hgrant
      unfold Machine.toSize
      omega
    simp only [Machine.createBTree, Machine.createNode, h16, h24, if_true,
      Bool.true_eq_false, if_false, machine_createNode_arith h1 (by omega : t < 1073741824),
      hbig, true_or]
  · simp only [Machine.createBTree, Machine.createNode, h16, h24, if_true,
      Bool.true_eq_false, if_false, machine_createNode_overflow hov]

/-- C8, witness: the amended claim for an allocator that serves every request below
`2^63` bytes, at `t = 3`, where `createBTree` returns a tree with an empty leaf root of
5 key slots and 6 child pointers, and at `t = 0` and `t = -5`, where it exits after the
request for the node arrays. -/
theorem C8_createBTree_no_check_witness :
    ((-2147483648 ≤ (3 : Int) ∧ (3 : Int) ≤ 2147483647) ∧
      ∀ s, 9223372036854775808 ≤ s → decide (s < 9223372036854775808) = false) ∧
    (∃ root, Machine.createBTree (fun s => decide (s < 9223372036854775808)) 3 =
        .returned (root, 3) ∧
      root.n = 0 ∧ root.leaf = true ∧ root.keys.length = 2 * (3 : Int).toNat - 1 ∧
      root.children = List.replicate (2 * (3 : Int).toNat) none ∧
      createBTree (3 : Int).toNat = some ⟨some root, (3 : Int).toNat⟩) ∧
    Machine.createBTree (fun s => decide (s < 9223372036854775808)) 0 =
      .exited "Failed to allocate node arrays" ∧
    Machine.createBTree (fun s => decide (s < 9223372036854775808)) (-5) =
      .exited "Failed to allocate node arrays" := by
  have hg : ∀ s, 9223372036854775808 ≤ s → decide (s < 9223372036854775808) = false := by
    intro s hs
    rw [decide_eq_false_iff_not]
    omega
  exact ⟨⟨⟨by decide, by decide⟩, hg⟩,
    (((C8_createBTree_no_check _ 3 ⟨by decide, by decide⟩ hg).2.2 rfl rfl).1
      (by decide) (by decide)).1 rfl rfl,
    ((C8_createBTree_no_check _ 0 ⟨by decide, by decide⟩ hg).2.2 rfl rfl).2.1
      (by decide) (by decide),
    ((C8_createBTree_no_check _ (-5) ⟨by decide, by decide⟩ hg).2.2 rfl rfl).2.1
      (by decide) (by decide)⟩

end BT

namespace PrefixTrie

/-! ### The prefix trie of `sir_question_prefix.c` -/

theorem walk_nil (p : TrieNode) : walk p [] = some p := rfl

theorem walk_cons (p : TrieNode) (c : Int) (rest : List Int) :
    walk p (c :: rest) = ((childAt p (c - 97)).join).bind (fun q => walk q rest) := rfl

theorem childAt_lower (p : TrieNode) {c : Int} (hc : 97 ≤ c ∧ c ≤ 122)
    (hlen : p.children.length = ALPHABET_SIZE) :
    ∃ slot, childAt p (c - 97) = some slot ∧ p.children[(c - 97).toNat]? = some slot ∧
      (c - 97).toNat < ALPHABET_SIZE := by
  have h1 : 0 ≤ c - 97 ∧ c - 97 < ALPHABET_SIZE := by
    unfold ALPHABET_SIZE
    constructor <;> omega
  have h2 : (c - 97).toNat < p.children.length := by
    rw [hlen]
    unfold ALPHABET_SIZE
    omega
  refine ⟨p.children[(c - 97).toNat], ?_, List.getElem?_eq_getElem h2, by rw [← hlen]; exact h2⟩
  unfold childAt
  rw [if_pos h1, List.getElem?_eq_getElem h2]

theorem WellFormed.length {p : TrieNode} (h : WellFormed p) :
    p.children.length = ALPHABET_SIZE :=
  h [] p rfl

theorem WellFormed.sub {p q : TrieNode} (h : WellFormed p) {c : Int}
    (hq : childAt p (c - 97) = some (some q)) : WellFormed q := by
  intro w r hr
  apply h (c :: w) r
  rw [walk_cons, hq]
  exact hr

theorem trieCreate_children : trieCreate.children = List.replicate ALPHABET_SIZE none := rfl

theorem childAt_trieCreate (index : Int) (q : TrieNode) :
    childAt trieCreate index ≠ some (some q) := by
  unfold childAt
  split
  · rw [trieCreate_children]
    intro h
    have := List.getElem?_mem h
    have := List.eq_of_mem_replicate this
    cases this
  · intro h
    cases h

theorem walk_trieCreate (w : List Int) (q : TrieNode) (h : walk trieCreate w = some q) :
    w = [] ∧ q = trieCreate := by
  cases w with
  | nil =>
    rw [walk_nil] at h
    exact ⟨rfl, (Option.some.inj h).symm⟩
  | cons c rest =>
    rw [walk_cons] at h
    cases hs : childAt trieCreate (c - 97) with
    | none =>
      rw [hs] at h
      cases h
    | some slot =>
      cases slot with
      | none =>
        rw [hs] at h
        cases h
      | some r => exact absurd hs (childAt_trieCreate _ r)

theorem wellFormed_trieCreate : WellFormed trieCreate := by
  intro w q h
  obtain ⟨-, rfl⟩ := walk_trieCreate w q h
  rw [trieCreate_children, List.length_replicate]

theorem trieSearch_spec :
    ∀ (w : List Int) (p : TrieNode), Lowercase w → WellFormed p →
      trieSearch p w = some (holds p w) := by
  intro w
  induction w with
  | nil =>
    intro p _ _
    simp [trieSearch, walk, holds]
  | cons c rest ih =>
    intro p hw hp
    have hc := hw c (List.mem_cons_self _ _)
    have hc0 : c ≠ 0 := by omega
    obtain ⟨slot, hs, -, -⟩ := childAt_lower p hc hp.length
    have hh : holds p (c :: rest) = ((childAt p (c - 97)).join.bind
        (fun q => walk q rest)).any (fun q => q.isEndOfWord) := rfl
    rw [trieSearch, if_neg hc0, hh, hs]
    cases slot with
    | none => simp
    | some q =>
      simp only [Option.some_bind, Option.join]
      exact ih q (fun d hd => hw d (List.mem_cons_of_mem _ hd)) (hp.sub hs)

theorem childAt_mk_set (cs : List (Option TrieNode)) (e : Bool) (k : Nat) (v : Option TrieNode)
    (hk : k < cs.length) (index : Int) :
    childAt (.mk (cs.set k v) e) index =
      if index = (k : Int) then (if (k : Int) < ALPHABET_SIZE then some v else none)
      else childAt (.mk cs e) index := by
  unfold childAt
  simp only [TrieNode.children]
  by_cases hi : index = (k : Int)
  · subst hi
    by_cases hk26 : (k : Int) < ALPHABET_SIZE
    · simp [hk26, hk]
    · simp [hk26]
  · rw [if_neg hi]
    by_cases hr : 0 ≤ index ∧ index < ALPHABET_SIZE
    · rw [if_pos hr, if_pos hr, List.getElem?_set_ne]
      intro hcon
      apply hi
      omega
    · rw [if_neg hr, if_neg hr]

theorem holds_nil (p : TrieNode) : holds p [] = p.isEndOfWord := rfl

theorem holds_cons_some {p q : TrieNode} {c : Int} (rest : List Int)
    (h : childAt p (c - 97) = some (some q)) : holds p (c :: rest) = holds q rest := by
  unfold holds
  rw [walk_cons, h]
  rfl

theorem holds_cons_none {p : TrieNode} {c : Int} (rest : List Int)
    (h : (childAt p (c - 97)).join = none) : holds p (c :: rest) = false := by
  unfold holds
  rw [walk_cons, h]
  rfl

theorem holds_trieCreate (w : List Int) : holds trieCreate w = false := by
  cases w with
  | nil => rfl
  | cons c rest =>
    apply holds_cons_none
    cases hs : childAt trieCreate (c - 97) with
    | none => rfl
    | some slot =>
      cases slot with
      | none => rfl
      | some r => exact absurd hs (childAt_trieCreate _ r)

theorem trieInsert_spec :
    ∀ (v : List Int) (p : TrieNode), Lowercase v → WellFormed p →
      ∃ r, trieInsert p v = some r ∧ WellFormed r ∧
        ∀ w, holds r w = true ↔ (holds p w = true ∨ w = v) := by
  intro v
  induction v with
  | nil =>
    intro p _ hp
    obtain ⟨cs, e⟩ := p
    have hch : ∀ index, childAt (.mk cs true) index = childAt (.mk cs e) index := fun _ => rfl
    have hwalk : ∀ d w, walk (.mk cs true) (d :: w) = walk (.mk cs e) (d :: w) := by
      intro d w
      rw [walk_cons, walk_cons, hch]
    refine ⟨.mk cs true, rfl, ?_, ?_⟩
    · intro w q hq
      cases w with
      | nil =>
        rw [walk_nil] at hq
        cases hq
        exact hp.length
      | cons d w =>
        rw [hwalk] at hq
        exact hp _ q hq
    · intro w
      cases w with
      | nil => simp [holds_nil, TrieNode.isEndOfWord]
      | cons d w =>
        unfold holds
        rw [hwalk]
        simp
  | cons c rest ih =>
    intro p hv hp
    have hc := hv c (List.mem_cons_self _ _)
    have hc0 : c ≠ 0 := by omega
    have hrest : Lowercase rest := fun d hd => hv d (List.mem_cons_of_mem _ hd)
    obtain ⟨slot, hs, hsl, hk26⟩ := childAt_lower p hc hp.length
    obtain ⟨cs, e⟩ := p
    have hlen : cs.length = ALPHABET_SIZE := hp.length
    obtain ⟨next, hnext⟩ : ∃ next, next = (match slot with
        | none => trieCreate
        | some q => q) := ⟨_, rfl⟩
    have hwn : WellFormed next := by
      cases slot with
      | none =>
        rw [hnext]
        exact wellFormed_trieCreate
      | some q =>
        rw [hnext]
        exact hp.sub hs
    have hhn : ∀ w, holds next w = holds (.mk cs e) (c :: w) := by
      intro w
      cases slot with
      | none =>
        rw [hnext, holds_trieCreate, holds_cons_none]
        rw [hs]
        rfl
      | some q =>
        rw [hnext, holds_cons_some w hs]
    obtain ⟨r, er, hwr, hhr⟩ := ih next hrest hwn
    have hkk : ((c - 97).toNat : Int) = c - 97 := by omega
    have hset : ∀ index, childAt (.mk (cs.set (c - 97).toNat (some r)) e) index =
        if index = c - 97 then some (some r) else childAt (.mk cs e) index := by
      intro index
      have h26 : c - 97 < (ALPHABET_SIZE : Int) := by
        unfold ALPHABET_SIZE
        omega
      rw [childAt_mk_set cs e _ _ (by rw [hlen]; exact hk26), hkk]
      by_cases hi : index = c - 97
      · rw [if_pos hi, if_pos hi, if_pos h26]
      · rw [if_neg hi, if_neg hi]
    refine ⟨.mk (cs.set (c - 97).toNat (some r)) e, ?_, ?_, ?_⟩
    · rw [trieInsert, if_neg hc0]
      simp only [hs, Option.bind_eq_bind, Option.some_bind]
      cases slot with
      | none =>
        rw [hnext] at er
        simp only [er, Option.some_bind]
        rfl
      | some q =>
        rw [hnext] at er
        simp only [er, Option.some_bind]
        rfl
    · intro w q hq
      cases w with
      | nil =>
        rw [walk_nil] at hq
        cases hq
        show (cs.set _ _).length = _
        rw [List.length_set]
        exact hlen
      | cons d w =>
        rw [walk_cons, hset] at hq
        by_cases hd : d - 97 = c - 97
        · rw [if_pos hd] at hq
          exact hwr w q hq
        · rw [if_neg hd] at hq
          exact hp (d :: w) q (by rw [walk_cons]; exact hq)
    · intro w
      cases w with
      | nil =>
        simp [holds_nil, TrieNode.isEndOfWord]
      | cons d w =>
        by_cases hd : d - 97 = c - 97
        · have hdc : d = c := by omega
          subst hdc
          rw [holds_cons_some w (by rw [hset, if_pos rfl]), hhr w, hhn w]
          simp
        · have hdc : d ≠ c := fun h => hd (by rw [h])
          have : holds (.mk (cs.set (c - 97).toNat (some r)) e) (d :: w) =
              holds (.mk cs e) (d :: w) := by
            unfold holds
            rw [walk_cons, walk_cons, hset, if_neg hd]
          rw [this]
          simp [hdc]

theorem insertAll_spec :
    ∀ (ws : List (List Int)) (p : TrieNode), (∀ v ∈ ws, Lowercase v) → WellFormed p →
      ∃ r, insertAll ws p = some r ∧ WellFormed r ∧
        ∀ w, holds r w = true ↔ (holds p w = true ∨ w ∈ ws) := by
  intro ws
  induction ws with
  | nil =>
    intro p _ hp
    exact ⟨p, rfl, hp, fun w => by simp⟩
  | cons v ws ih =>
    intro p hws hp
    obtain ⟨r1, e1, hw1, hh1⟩ := trieInsert_spec v p (hws v (List.mem_cons_self _ _)) hp
    obtain ⟨r, e, hw, hh⟩ := ih r1 (fun u hu => hws u (List.mem_cons_of_mem _ hu)) hw1
    refine ⟨r, by rw [insertAll, e1]; exact e, hw, fun w => ?_⟩
    rw [hh w, hh1 w, List.mem_cons]
    tauto

/-- C24: for every sequence `ws` of lowercase words inserted with `trieInsert` into a trie
from `trieCreate`, first to last, and every lowercase word `w`, the insertions return a
trie on which `trieSearch` returns true if `w` is one of the inserted words and false
otherwise, a proper prefix of an inserted word included. -/
theorem C24_trieSearch_iff_inserted (ws : List (List Int)) (w : List Int)
    (hws : ∀ v ∈ ws, Lowercase v) (hw : Lowercase w) :
    ∃ root, insertAll ws trieCreate = some root ∧
      trieSearch root w = some (decide (w ∈ ws)) := by
  obtain ⟨root, e, hwf, hh⟩ := insertAll_spec ws trieCreate hws wellFormed_trieCreate
  refine ⟨root, e, ?_⟩
  rw [trieSearch_spec w root hw hwf]
  congr 1
  rw [Bool.eq_iff_iff, hh w, holds_trieCreate]
  simp

/-- C24, witness: after `apple` is inserted, `trieSearch` is false for `app`, which is a
proper prefix of it. -/
theorem C24_trieSearch_iff_inserted_witness :
    ((∀ v ∈ [[97, 112, 112, 108, 101]], Lowercase v) ∧ Lowercase [97, 112, 112]) ∧
    ∃ root, insertAll [[97, 112, 112, 108, 101]] trieCreate = some root ∧
      trieSearch root [97, 112, 112] = some false := by
  have h1 : ∀ v ∈ [[(97 : Int), 112, 112, 108, 101]], Lowercase v := by
    intro v hv
    rw [List.mem_singleton] at hv
    subst hv
    intro c hc
    simp at hc
    omega
  have h2 : Lowercase [97, 112, 112] := by
    intro c hc
    simp at hc
    omega
  obtain ⟨root, e, hs⟩ := C24_trieSearch_iff_inserted _ _ h1 h2
  exact ⟨⟨h1, h2⟩, root, e, by rw [hs]; rfl⟩

/-- C23, failing input: after the word of 97 letters `a` is inserted, `trieStartsWith`
returns true for the prefix of 98 letters `a`, which no inserted word starts with: the
loop condition `i < prefix[i] != 0` ends the loop at `i = 97`, where the index is no
longer below the character code `97`, and the rest of the prefix is never looked at. -/
theorem C23_long_prefix_accepted :
    Lowercase (List.replicate 97 97) ∧ Lowercase (List.replicate 98 97) ∧
    (∀ v ∈ [List.replicate 97 (97 : Int)], ¬ List.replicate 98 97 <+: v) ∧
    (insertAll [List.replicate 97 97] trieCreate).bind
      (fun root => trieStartsWith root (List.replicate 98 97)) = some true := by
  refine ⟨?_, ?_, ?_, ?_⟩
  · intro c hc
    rw [List.eq_of_mem_replicate hc]
    omega
  · intro c hc
    rw [List.eq_of_mem_replicate hc]
    omega
  · intro v hv hpre
    rw [List.mem_singleton] at hv
    subst hv
    have := hpre.length_le
    simp at this
  · set_option maxRecDepth 100000 in
    rfl

end PrefixTrie

namespace SuffixTrie

/-! ### The suffix trie of `suffix_trie.c` -/

theorem walk_empty (p : SuffixTrieNode) : walk p [] = some p := rfl

theorem walk_step (p : SuffixTrieNode) (c : Nat) (rest : List Nat) :
    walk p (c :: rest) = ((p.children[toIndex c]?).join).bind (fun q => walk q rest) := rfl

theorem toIndex_lt (c : Nat) : toIndex c < ALPHABET_SIZE := by
  unfold toIndex ALPHABET_SIZE
  omega

theorem toIndex_inj {c d : Nat} (hc : c ≤ 255) (hd : d ≤ 255) (h : toIndex c = toIndex d) :
    c = d := by
  unfold toIndex at h
  omega

theorem WellFormed.slots {p : SuffixTrieNode} (h : WellFormed p) :
    p.children.length = ALPHABET_SIZE :=
  h [] p rfl

theorem WellFormed.below {p q : SuffixTrieNode} (h : WellFormed p) {c : Nat}
    (hq : p.children[toIndex c]? = some (some q)) : WellFormed q := by
  intro w r hr
  apply h (c :: w) r
  rw [walk_step, hq]
  exact hr

theorem slot_createSuffixTrieNode (i : Nat) (q : SuffixTrieNode) :
    createSuffixTrieNode.children[i]? ≠ some (some q) := by
  intro h
  have := List.eq_of_mem_replicate (List.getElem?_mem h)
  cases this

theorem walk_createSuffixTrieNode (w : List Nat) :
    (walk createSuffixTrieNode w).isSome = true ↔ w = [] := by
  cases w with
  | nil => simp [walk]
  | cons c rest =>
    rw [walk_step]
    cases hs : createSuffixTrieNode.children[toIndex c]? with
    | none => simp
    | some slot =>
      cases slot with
      | none => simp
      | some r => exact absurd hs (slot_createSuffixTrieNode _ r)

theorem wellFormed_createSuffixTrieNode : WellFormed createSuffixTrieNode := by
  intro w q h
  have hw := (walk_createSuffixTrieNode w).mp (by rw [h]; rfl)
  subst hw
  cases h
  show (List.replicate ALPHABET_SIZE _).length = _
  rw [List.length_replicate]

theorem suffix_search_spec :
    ∀ (w : List Nat) (p : SuffixTrieNode), CString w → WellFormed p →
      search p w = some (if (walk p w).isSome then 1 else 0) := by
  intro w
  induction w with
  | nil =>
    intro p _ _
    simp [search, walk]
  | cons c rest ih =>
    intro p hw hp
    have hc := hw c (List.mem_cons_self _ _)
    have hc0 : c ≠ 0 := by omega
    have hlt : toIndex c < p.children.length := by
      rw [hp.slots]
      exact toIndex_lt c
    rw [search, if_neg hc0, walk_step, List.getElem?_eq_getElem hlt]
    cases hs : p.children[toIndex c] with
    | none => simp
    | some q =>
      simp only [Option.some_bind, Option.join]
      exact ih q (fun d hd => hw d (List.mem_cons_of_mem _ hd))
        (hp.below (by rw [List.getElem?_eq_getElem hlt, hs]))

theorem insertSuffix_spec :
    ∀ (v : List Nat) (p : SuffixTrieNode), CString v → WellFormed p →
      ∃ r, insertSuffix p v = some r ∧ WellFormed r ∧
        ∀ w, CString w → ((walk r w).isSome = true ↔ ((walk p w).isSome = true ∨ w <+: v)) := by
  intro v
  induction v with
  | nil =>
    intro p _ hp
    refine ⟨p, by cases p; rfl, hp, fun w _ => ?_⟩
    constructor
    · exact fun h => Or.inl h
    · rintro (h | h)
      · exact h
      · rw [List.prefix_nil] at h
        subst h
        rfl
  | cons c rest ih =>
    intro p hv hp
    have hc := hv c (List.mem_cons_self _ _)
    have hc0 : c ≠ 0 := by omega
    have hrest : CString rest := fun d hd => hv d (List.mem_cons_of_mem _ hd)
    have hlen := hp.slots
    obtain ⟨cs⟩ := p
    have hlen' : cs.length = ALPHABET_SIZE := hlen
    have hlt : toIndex c < cs.length := by
      rw [hlen']
      exact toIndex_lt c
    obtain ⟨slot, hslot⟩ : ∃ slot, cs[toIndex c]? = some slot :=
      ⟨_, List.getElem?_eq_getElem hlt⟩
    obtain ⟨next, hnext⟩ : ∃ next, next = (match slot with
        | none => createSuffixTrieNode
        | some q => q) := ⟨_, rfl⟩
    have hwn : WellFormed next := by
      cases slot with
      | none =>
        rw [hnext]
        exact wellFormed_createSuffixTrieNode
      | some q =>
        rw [hnext]
        exact hp.below hslot
    have hhn : ∀ w, (walk next w).isSome = true →
        (walk (.mk cs) (c :: w)).isSome = true ∨ w = [] := by
      intro w hw
      cases slot with
      | none =>
        rw [hnext] at hw
        exact Or.inr ((walk_createSuffixTrieNode w).mp hw)
      | some q =>
        rw [hnext] at hw
        left
        rw [walk_step]
        show ((cs[toIndex c]?).join.bind _).isSome = true
        rw [hslot]
        exact hw
    have hhn' : ∀ w, (walk (.mk cs) (c :: w)).isSome = true → (walk next w).isSome = true := by
      intro w hw
      rw [walk_step] at hw
      have hw' : ((cs[toIndex c]?).join.bind (fun q => walk q w)).isSome = true := hw
      rw [hslot] at hw'
      cases slot with
      | none => cases hw'
      | some q =>
        rw [hnext]
        exact hw'
    obtain ⟨r, er, hwr, hhr⟩ := ih next hrest hwn
    have hset : ∀ d, (SuffixTrieNode.mk (cs.set (toIndex c) (some r))).children[toIndex d]? =
        if toIndex d = toIndex c then some (some r) else cs[toIndex d]? := by
      intro d
      show (cs.set (toIndex c) (some r))[toIndex d]? = _
      by_cases hd : toIndex d = toIndex c
      · rw [if_pos hd, hd, List.getElem?_set_self hlt]
      · rw [if_neg hd, List.getElem?_set_ne (fun h => hd h.symm)]
    refine ⟨.mk (cs.set (toIndex c) (some r)), ?_, ?_, ?_⟩
    · rw [insertSuffix, if_neg hc0]
      simp only [hslot, Option.bind_eq_bind, Option.some_bind]
      cases slot with
      | none =>
        rw [hnext] at er
        simp only [er, Option.some_bind]
        rfl
      | some q =>
        rw [hnext] at er
        simp only [er, Option.some_bind]
        rfl
    · intro w q hq
      cases w with
      | nil =>
        rw [walk_empty] at hq
        cases hq
        show (cs.set _ _).length = _
        rw [List.length_set]
        exact hlen'
      | cons d w =>
        rw [walk_step, hset] at hq
        by_cases hd : toIndex d = toIndex c
        · rw [if_pos hd] at hq
          exact hwr w q hq
        · rw [if_neg hd] at hq
          exact hp (d :: w) q (by rw [walk_step]; exact hq)
    · intro w hw
      cases w with
      | nil =>
        simp [walk]
      | cons d w =>
        have hd := hw d (List.mem_cons_self _ _)
        have hwt : CString w := fun x hx => hw x (List.mem_cons_of_mem _ hx)
        by_cases hdi : toIndex d = toIndex c
        · have hdc : d = c := toIndex_inj hd.2 hc.2 hdi
          subst hdc
          have h1 : (walk (.mk (cs.set (toIndex d) (some r))) (d :: w)).isSome =
              (walk r w).isSome := by
            rw [walk_step, hset, if_pos rfl]
            rfl
          rw [h1, hhr w hwt, List.cons_prefix_cons]
          constructor
          · rintro (h | h)
            · rcases hhn w h with h' | h'
              · exact Or.inl h'
              · subst h'
                exact Or.inr ⟨rfl, List.nil_prefix⟩
            · exact Or.inr ⟨rfl, h⟩
          · rintro (h | ⟨-, h⟩)
            · exact Or.inl (hhn' w h)
            · exact Or.inr h
        · have h1 : (walk (.mk (cs.set (toIndex c) (some r))) (d :: w)).isSome =
              (walk (.mk cs) (d :: w)).isSome := by
            rw [walk_step, walk_step, hset, if_neg hdi]
            rfl
          rw [h1, List.cons_prefix_cons]
          constructor
          · exact fun h => Or.inl h
          · rintro (h | ⟨h, -⟩)
            · exact h
            · exact absurd (by rw [h]) hdi

theorem strlen_of_cstring {text : List Nat} (h : CString text) : strlen text = text.length := by
  unfold strlen
  rw [List.takeWhile_eq_self_iff.mpr]
  intro c hc
  have := h c hc
  simp
  omega

theorem buildLoop_spec (text : List Nat) (ht : CString text) :
    ∀ (k i : Nat) (root : SuffixTrieNode), WellFormed root →
      ∃ r, buildLoop text k i root = some r ∧ WellFormed r ∧
        ∀ w, CString w → ((walk r w).isSome = true ↔
          ((walk root w).isSome = true ∨ ∃ j, i ≤ j ∧ j < i + k ∧ w <+: text.drop j)) := by
  intro k
  induction k with
  | zero =>
    intro i root hr
    refine ⟨root, rfl, hr, fun w _ => ?_⟩
    constructor
    · exact fun h => Or.inl h
    · rintro (h | ⟨j, h1, h2, -⟩)
      · exact h
      · omega
  | succ k ih =>
    intro i root hr
    have hd : CString (text.drop i) := fun c hc => ht c (List.mem_of_mem_drop hc)
    obtain ⟨r1, e1, hw1, hh1⟩ := insertSuffix_spec (text.drop i) root hd hr
    obtain ⟨r, e, hw, hh⟩ := ih (i + 1) r1 hw1
    refine ⟨r, by rw [buildLoop, e1]; exact e, hw, fun w hcw => ?_⟩
    rw [hh w hcw, hh1 w hcw]
    constructor
    · rintro ((h | h) | ⟨j, h1, h2, h3⟩)
      · exact Or.inl h
      · exact Or.inr ⟨i, le_refl _, by omega, h⟩
      · exact Or.inr ⟨j, by omega, by omega, h3⟩
    · rintro (h | ⟨j, h1, h2, h3⟩)
      · exact Or.inl (Or.inl h)
      · by_cases hj : j = i
        · subst hj
          exact Or.inl (Or.inr h3)
        · exact Or.inr ⟨j, by omega, by omega, h3⟩

theorem infix_iff_prefix_drop (w text : List Nat) :
    w <:+: text ↔ (w = [] ∨ ∃ j, 0 ≤ j ∧ j < 0 + text.length ∧ w <+: text.drop j) := by
  constructor
  · intro h
    by_cases hw : w = []
    · exact Or.inl hw
    · right
      obtain ⟨s, u, hsu⟩ := h
      refine ⟨s.length, Nat.zero_le _, ?_, ?_⟩
      · have := congrArg List.length hsu
        simp at this
        have : 0 < w.length := List.length_pos.mpr hw
        omega
      · rw [← hsu, List.append_assoc, List.drop_left]
        exact List.prefix_append _ _
  · rintro (h | ⟨j, -, -, h⟩)
    · subst h
      exact List.nil_infix
    · exact h.isInfix.trans (List.drop_suffix j text).isInfix

/-- C29: for every text and every pattern, given as C strings by their bytes,
`buildSuffixTrie(text)` returns a trie on which `search` returns 1 if the pattern is a
contiguous substring of the text, the empty pattern included, and 0 otherwise. -/
theorem C29_search_iff_substring (text pattern : List Nat) (ht : CString text)
    (hp : CString pattern) :
    ∃ root, buildSuffixTrie text = some root ∧
      search root pattern = some (if pattern <:+: text then 1 else 0) := by
  obtain ⟨root, e, hwf, hh⟩ := buildLoop_spec text ht text.length 0 createSuffixTrieNode
    wellFormed_createSuffixTrieNode
  refine ⟨root, by unfold buildSuffixTrie; rw [strlen_of_cstring ht]; exact e, ?_⟩
  rw [suffix_search_spec pattern root hp hwf]
  have hiff : (walk root pattern).isSome = true ↔ pattern <:+: text := by
    rw [hh pattern hp, walk_createSuffixTrieNode, infix_iff_prefix_drop]
  by_cases hin : pattern <:+: text
  · rw [if_pos hin, if_pos (hiff.mpr hin)]
  · rw [if_neg hin, if_neg (fun h => hin (hiff.mp h))]

/-- C29, witness: in the suffix trie of `banana$` the pattern `nana` is found. -/
theorem C29_search_iff_substring_witness :
    (CString [98, 97, 110, 97, 110, 97, 36] ∧ CString [110, 97, 110, 97]) ∧
    ∃ root, buildSuffixTrie [98, 97, 110, 97, 110, 97, 36] = some root ∧
      search root [110, 97, 110, 97] = some 1 := by
  have h1 : CString [98, 97, 110, 97, 110, 97, 36] := by
    intro c hc
    simp at hc
    omega
  have h2 : CString [110, 97, 110, 97] := by
    intro c hc
    simp at hc
    omega
  obtain ⟨root, e, hs⟩ := C29_search_iff_substring _ _ h1 h2
  refine ⟨⟨h1, h2⟩, root, e, ?_⟩
  rw [hs, if_pos]
  exact ⟨[98, 97], [36], rfl⟩

end SuffixTrie

namespace SegTree

/-! ### The segment tree of `segment_tree.c` -/

theorem Stores.le {arr tree : List Int} {node start last : Nat}
    (h : Stores arr tree node start last) : start ≤ last := by
  cases h with
  | leaf => exact le_refl _
  | inner _ _ _ _ _ hlt => exact le_of_lt hlt

theorem rangeSum_single (arr : List Int) (i : Nat) (v : Int) (h : arr[i]? = some v) :
    rangeSum arr i i = v := by
  unfold rangeSum
  have hlt := (List.getElem?_eq_some_iff.mp h).1
  rw [List.drop_take]
  rw [show i + 1 - i = 1 by omega, List.drop_eq_getElem_cons hlt]
  have := (List.getElem?_eq_some_iff.mp h).2
  simp [this]

theorem rangeSum_split (arr : List Int) (a m b : Nat) (h1 : a ≤ m + 1) (h2 : m ≤ b) :
    rangeSum arr a b = rangeSum arr a m + rangeSum arr (m + 1) b := by
  unfold rangeSum
  have : (arr.take (b + 1)).drop a =
      (arr.take (m + 1)).drop a ++ (arr.take (b + 1)).drop (m + 1) := by
    have e1 : arr.take (m + 1) = (arr.take (b + 1)).take (m + 1) := by
      rw [List.take_take, Nat.min_eq_left (by omega)]
    rw [e1]
    conv_lhs => rw [← List.take_append_drop (m + 1) (arr.take (b + 1))]
    rw [List.drop_append_eq_append_drop]
    congr 1
    by_cases hlen : m + 1 ≤ (arr.take (b + 1)).length
    · rw [List.length_take, Nat.min_eq_left hlen, show a - (m + 1) = 0 by omega]
      rfl
    · have hnil : List.drop (m + 1) (List.take (b + 1) arr) = [] :=
        List.drop_eq_nil_of_le (by omega)
      rw [hnil]
      simp
  rw [this, List.sum_append]

theorem wrapInt_of_isInt {v : Int} (h : IsInt v) : wrapInt v = v := by
  unfold IsInt at h
  unfold wrapInt
  omega

theorem wrapInt_add (a b : Int) : wrapInt (wrapInt a + wrapInt b) = wrapInt (a + b) := by
  unfold wrapInt
  omega

theorem wrapInt_isInt (a : Int) : IsInt (wrapInt a) := by
  unfold IsInt wrapInt
  omega

theorem Stores.value {arr tree : List Int} {node start last : Nat}
    (h : Stores arr tree node start last) (hint : ∀ v ∈ arr, IsInt v) :
    tree[node]? = some (wrapInt (rangeSum arr start last)) ∧ last < arr.length := by
  induction h with
  | leaf node start v ht ha =>
    have hv : IsInt v := hint v (List.getElem?_mem ha)
    rw [rangeSum_single arr start v ha, wrapInt_of_isInt hv]
    exact ⟨ht, (List.getElem?_eq_some_iff.mp ha).1⟩
  | inner node start last a b hlt _ _ ha hb ht ihl ihr =>
    obtain ⟨h1, -⟩ := ihl
    obtain ⟨h2, hlen⟩ := ihr
    rw [ha] at h1
    rw [hb] at h2
    cases h1
    cases h2
    rw [wrapInt_add, ← rangeSum_split arr start _ last (by omega) (by omega)] at ht
    exact ⟨ht, hlen⟩

end SegTree

namespace RadixArray

/-! ### Radix sort on an array (`radix_array.c`) -/

theorem getMaxLoop_spec (arr : List Int) :
    ∀ (k i : Nat) (m : Int), i + k = arr.length →
      ∃ r, getMaxLoop arr k i m = some r ∧ m ≤ r ∧ (r = m ∨ r ∈ arr) ∧
        ∀ j v, i ≤ j → arr[j]? = some v → v ≤ r := by
  intro k
  induction k with
  | zero =>
    intro i m hi
    refine ⟨m, rfl, le_refl _, Or.inl rfl, fun j v hj hv => ?_⟩
    have := (List.getElem?_eq_some_iff.mp hv).1
    omega
  | succ k ih =>
    intro i m hi
    have hlt : i < arr.length := by omega
    obtain ⟨r, er, hmr, hr, hall⟩ := ih (i + 1) (if arr[i] > m then arr[i] else m) (by omega)
    refine ⟨r, ?_, ?_, ?_, ?_⟩
    · rw [getMaxLoop, List.getElem?_eq_getElem hlt]
      exact er
    · split at hmr <;> omega
    · rcases hr with hr | hr
      · split at hr
        · right
          rw [hr]
          exact List.getElem_mem hlt
        · exact Or.inl hr
      · exact Or.inr hr
    · intro j v hj hv
      by_cases hji : j = i
      · subst hji
        rw [List.getElem?_eq_getElem hlt] at hv
        cases hv
        split at hmr <;> omega
      · exact hall j v (by omega) hv

theorem getMax_spec (arr : List Int) (hne : arr ≠ []) :
    ∃ m, getMax arr arr.length = some m ∧ m ∈ arr ∧ ∀ v ∈ arr, v ≤ m := by
  have hpos : 0 < arr.length := List.length_pos.mpr hne
  obtain ⟨r, er, hmr, hr, hall⟩ := getMaxLoop_spec arr (arr.length - 1) 1 arr[0] (by omega)
  refine ⟨r, ?_, ?_, ?_⟩
  · unfold getMax
    rw [List.getElem?_eq_getElem hpos]
    exact er
  · rcases hr with hr | hr
    · rw [hr]
      exact List.getElem_mem hpos
    · exact hr
  · intro v hv
    obtain ⟨j, hj⟩ := List.mem_iff_getElem?.mp hv
    by_cases hj0 : j = 0
    · subst hj0
      rw [List.getElem?_eq_getElem hpos] at hj
      cases hj
      exact hmr
    · exact hall j v (by omega) hj

/-! #### Buckets -/

theorem bucketsBelow_succ (key : Int → Nat) (l : List Int) (m : Nat) :
    bucketsBelow key l (m + 1) = bucketsBelow key l m ++ bucket key l m := by
  unfold bucketsBelow
  rw [List.range_succ, List.flatMap_append]
  simp

theorem bucketsBelow_zero (key : Int → Nat) (l : List Int) : bucketsBelow key l 0 = [] := rfl

theorem bucket_cons (key : Int → Nat) (v : Int) (l : List Int) (d : Nat) :
    bucket key (v :: l) d = if key v = d then v :: bucket key l d else bucket key l d := by
  unfold bucket
  rw [List.filter_cons]
  simp

theorem bucket_append (key : Int → Nat) (l1 l2 : List Int) (d : Nat) :
    bucket key (l1 ++ l2) d = bucket key l1 d ++ bucket key l2 d := by
  unfold bucket
  exact List.filter_append l1 l2

theorem bucketsBelow_perm (key : Int → Nat) (l : List Int) (m : Nat) :
    (bucketsBelow key l m).Perm (l.filter (fun v => key v < m)) := by
  induction m with
  | zero => simp [bucketsBelow_zero]
  | succ m ih =>
    rw [bucketsBelow_succ]
    have h1 : ((l.filter (fun v => key v < m + 1)).filter (fun v => key v < m)) =
        l.filter (fun v => key v < m) := by
      rw [List.filter_filter]
      congr 1
      funext v
      by_cases h : key v < m
      · have h' : key v < m + 1 := by omega
        simp [h, h']
      · simp [h]
    have h2 : ((l.filter (fun v => key v < m + 1)).filter (fun v => !decide (key v < m))) =
        bucket key l m := by
      unfold bucket
      rw [List.filter_filter]
      congr 1
      funext v
      by_cases h : key v < m
      · have h' : key v ≠ m := by omega
        simp [h, h']
      · by_cases h' : key v = m
        · simp [h']
        · have h2 : ¬ key v < m + 1 := by omega
          simp [h, h', h2]
    have := List.filter_append_perm (fun v => decide (key v < m))
      (l.filter (fun v => key v < m + 1))
    rw [h1, h2] at this
    exact (List.Perm.append_right _ ih).trans this

theorem bucketsBelow_perm_all (key : Int → Nat) (l : List Int) (m : Nat)
    (h : ∀ v ∈ l, key v < m) : (bucketsBelow key l m).Perm l := by
  have := bucketsBelow_perm key l m
  rwa [List.filter_eq_self.mpr (fun v hv => by simpa using h v hv)] at this

theorem mem_bucket {key : Int → Nat} {l : List Int} {d : Nat} {v : Int} :
    v ∈ bucket key l d ↔ v ∈ l ∧ key v = d := by
  unfold bucket
  simp

theorem bucket_length_le (key : Int → Nat) (l : List Int) (d : Nat) :
    (bucket key l d).length ≤ l.length :=
  List.length_filter_le _ _

theorem bucketsBelow_length_mono (key : Int → Nat) (l : List Int) {a b : Nat} (h : a ≤ b) :
    (bucketsBelow key l a).length + (if a < b then (bucket key l a).length else 0) ≤
      (bucketsBelow key l b).length := by
  induction b with
  | zero =>
    have : a = 0 := by omega
    subst this
    simp
  | succ b ih =>
    rw [bucketsBelow_succ, List.length_append]
    by_cases hab : a = b + 1
    · subst hab
      rw [bucketsBelow_succ, List.length_append]
      simp
    · have := ih (by omega)
      by_cases hab' : a = b
      · subst hab'
        simp
      · rw [if_pos (by omega)] at this ⊢
        omega

theorem bucketsBelow_length_le (key : Int → Nat) (l : List Int) (m : Nat) :
    (bucketsBelow key l m).length ≤ l.length := by
  rw [(bucketsBelow_perm key l m).length_eq]
  exact List.length_filter_le _ _

/-! #### The loops of `countingSort` -/

theorem countAt_eq {count : List Nat} {d : Int} (h0 : 0 ≤ d) (h10 : d < 10)
    (hlen : count.length = 10) :
    countAt count d = some (count[d.toNat]?.getD 0) ∧ d.toNat < count.length ∧
      count[d.toNat]? = some (count[d.toNat]?.getD 0) := by
  have hlt : d.toNat < count.length := by omega
  unfold countAt
  rw [if_pos h0, List.getElem?_eq_getElem hlt]
  exact ⟨rfl, hlt, rfl⟩

theorem countLoop_spec (arr : List Int) (exp : Int)
    (hkey : ∀ v ∈ arr, 0 ≤ digit v exp ∧ digit v exp < 10) :
    ∀ (k i : Nat) (count : List Nat), i + k = arr.length → count.length = 10 →
      ∃ r, countLoop arr exp k i count = some r ∧ r.length = 10 ∧
        ∀ d x, count[d]? = some x →
          r[d]? = some (x + (bucket (digitKey exp) (arr.drop i) d).length) := by
  intro k
  induction k with
  | zero =>
    intro i count hi hlen
    refine ⟨count, rfl, hlen, fun d x hx => ?_⟩
    rw [List.drop_eq_nil_of_le (by omega)]
    simpa [bucket] using hx
  | succ k ih =>
    intro i count hi hlen
    have hlt : i < arr.length := by omega
    obtain ⟨h0, h10⟩ := hkey arr[i] (List.getElem_mem hlt)
    obtain ⟨e1, hdl, e2⟩ := countAt_eq h0 h10 hlen
    obtain ⟨r, er, hrl, hr⟩ := ih (i + 1)
      (count.set (digit arr[i] exp).toNat (count[(digit arr[i] exp).toNat]?.getD 0 + 1))
      (by omega) (by rw [List.length_set]; exact hlen)
    refine ⟨r, ?_, hrl, ?_⟩
    · rw [countLoop, List.getElem?_eq_getElem hlt]
      simp only [Option.bind_eq_bind, Option.some_bind, e1]
      exact er
    · intro d x hx
      rw [List.drop_eq_getElem_cons hlt, bucket_cons]
      by_cases hd : digitKey exp arr[i] = d
      · subst hd
        rw [if_pos rfl]
        have e2' : count[digitKey exp arr[i]]? =
            some (count[(digit arr[i] exp).toNat]?.getD 0) := e2
        rw [e2'] at hx
        cases hx
        have h := hr _ _ (List.getElem?_set_self hdl)
        have h' : r[digitKey exp arr[i]]? = some (count[(digit arr[i] exp).toNat]?.getD 0 + 1 +
            (bucket (digitKey exp) (arr.drop (i + 1)) (digitKey exp arr[i])).length) := h
        rw [h']
        simp only [List.length_cons]
        congr 1
        omega
      · rw [if_neg hd]
        exact hr d x (by rw [List.getElem?_set_ne (by unfold digitKey at hd; exact hd)]; exact hx)

theorem prefixLoop_spec (f : Nat → Nat) :
    ∀ (k i : Nat) (count : List Nat), i + k = 10 → 1 ≤ i → count.length = 10 →
      (∀ j, j < i → count[j]? = some ((List.range (j + 1)).map f).sum) →
      (∀ j, i ≤ j → j < 10 → count[j]? = some (f j)) →
      ∃ r, prefixLoop k i count = some r ∧ r.length = 10 ∧
        ∀ j, j < 10 → r[j]? = some ((List.range (j + 1)).map f).sum := by
  intro k
  induction k with
  | zero =>
    intro i count hi _ hlen hlow _
    exact ⟨count, rfl, hlen, fun j hj => hlow j (by omega)⟩
  | succ k ih =>
    intro i count hi h1 hlen hlow hhigh
    have e1 := hhigh i (le_refl _) (by omega)
    have e2 := hlow (i - 1) (by omega)
    rw [show i - 1 + 1 = i by omega] at e2
    obtain ⟨r, er, hrl, hr⟩ := ih (i + 1) (count.set i (f i + ((List.range i).map f).sum))
      (by omega) (by omega) (by rw [List.length_set]; exact hlen)
      (by
        intro j hj
        by_cases hji : j = i
        · subst hji
          rw [List.getElem?_set_self (by omega), List.range_succ, List.map_append,
            List.sum_append]
          simp
          omega
        · rw [List.getElem?_set_ne (fun h => hji h.symm)]
          exact hlow j (by omega))
      (by
        intro j hj hj10
        rw [List.getElem?_set_ne (by omega)]
        exact hhigh j (by omega) hj10)
    refine ⟨r, ?_, hrl, hr⟩
    rw [prefixLoop, e1, e2]
    exact er

theorem sum_bucket_lengths (key : Int → Nat) (l : List Int) (m : Nat) :
    ((List.range m).map (fun d => (bucket key l d).length)).sum =
      (bucketsBelow key l m).length := by
  induction m with
  | zero => rfl
  | succ m ih =>
    rw [List.range_succ, List.map_append, List.sum_append, ih, bucketsBelow_succ,
      List.length_append]
    simp

theorem take_set_same {α : Type} (l : List α) (i : Nat) (a : α) :
    (l.set i a).take i = l.take i := by
  apply List.ext_getElem?
  intro j
  simp only [List.getElem?_take, List.getElem?_set]
  by_cases hj : j < i
  · have : i ≠ j := by omega
    simp [hj, this]
  · simp [hj]

theorem copyBack_spec (output : List Int) :
    ∀ (k i : Nat) (arr : List Int), i + k = output.length → arr.length = output.length →
      arr.take i = output.take i → copyBack output k i arr = some output := by
  intro k
  induction k with
  | zero =>
    intro i arr hi hlen htake
    rw [List.take_of_length_le (by omega), List.take_of_length_le (by omega)] at htake
    rw [copyBack, htake]
  | succ k ih =>
    intro i arr hi hlen htake
    have hlt : i < output.length := by omega
    rw [copyBack, List.getElem?_eq_getElem hlt]
    simp only [Option.bind_eq_bind, Option.some_bind]
    rw [if_pos (by omega)]
    apply ih (i + 1) _ (by omega) (by rw [List.length_set]; exact hlen)
    rw [List.take_succ, List.take_succ, take_set_same, htake,
      List.getElem?_set_self (by omega), List.getElem?_eq_getElem hlt]

theorem bucket_split (key : Int → Nat) (l : List Int) (m d : Nat) :
    (bucket key l d).length = (bucket key (l.take m) d).length + (bucket key (l.drop m) d).length := by
  rw [← List.length_append, ← bucket_append, List.take_append_drop]

theorem bucket_range (key : Int → Nat) (l : List Int) (d : Nat) :
    (bucketsBelow key l d).length + (bucket key l d).length ≤ l.length := by
  have := bucketsBelow_length_le key l (d + 1)
  rwa [bucketsBelow_succ, List.length_append] at this

theorem bucket_ranges_disjoint (key : Int → Nat) (l : List Int) {d e : Nat} (hde : d ≠ e)
    {a b : Nat} (ha : a < (bucket key l d).length) (hb : b < (bucket key l e).length) :
    (bucketsBelow key l d).length + a ≠ (bucketsBelow key l e).length + b := by
  rcases Nat.lt_or_gt_of_ne hde with h | h
  · have := bucketsBelow_length_mono key l (le_of_lt h)
    rw [if_pos h] at this
    omega
  · have := bucketsBelow_length_mono key l (le_of_lt h)
    rw [if_pos h] at this
    omega

theorem placeLoop_spec (arr : List Int) (exp : Int)
    (hkey : ∀ v ∈ arr, 0 ≤ digit v exp ∧ digit v exp < 10) :
    ∀ (m : Nat) (count : List Nat) (output : List Int), m ≤ arr.length →
      count.length = 10 → output.length = arr.length →
      (∀ d, d < 10 → count[d]? = some ((bucketsBelow (digitKey exp) arr d).length +
        (bucket (digitKey exp) (arr.take m) d).length)) →
      (∀ d j, d < 10 → j < (bucket (digitKey exp) (arr.drop m) d).length →
        output[(bucketsBelow (digitKey exp) arr d).length +
          (bucket (digitKey exp) (arr.take m) d).length + j]? =
            (bucket (digitKey exp) (arr.drop m) d)[j]?) →
      ∃ out, placeLoop arr exp m count output = some out ∧ out.length = arr.length ∧
        ∀ d j, d < 10 → j < (bucket (digitKey exp) arr d).length →
          out[(bucketsBelow (digitKey exp) arr d).length + j]? =
            (bucket (digitKey exp) arr d)[j]? := by
  intro m
  induction m with
  | zero =>
    intro count output _ _ hol _ h4
    refine ⟨output, rfl, hol, fun d j hd hj => ?_⟩
    have := h4 d j hd (by simpa using hj)
    simpa [bucket] using this
  | succ i ih =>
    intro count output hm hcl hol h3 h4
    have hlt : i < arr.length := by omega
    obtain ⟨h0, h10⟩ := hkey arr[i] (List.getElem_mem hlt)
    have hdv : digitKey exp arr[i] < 10 := by
      unfold digitKey
      omega
    have htake : arr.take (i + 1) = arr.take i ++ [arr[i]] := by
      rw [List.take_succ, List.getElem?_eq_getElem hlt]
      rfl
    have hdrop : arr.drop i = arr[i] :: arr.drop (i + 1) := List.drop_eq_getElem_cons hlt
    have hbt : ∀ d, (bucket (digitKey exp) (arr.take (i + 1)) d).length =
        (bucket (digitKey exp) (arr.take i) d).length +
          (if digitKey exp arr[i] = d then 1 else 0) := by
      intro d
      rw [htake, bucket_append, List.length_append, bucket_cons]
      split <;> simp [bucket]
    have hbd : ∀ d, bucket (digitKey exp) (arr.drop i) d =
        if digitKey exp arr[i] = d then arr[i] :: bucket (digitKey exp) (arr.drop (i + 1)) d
        else bucket (digitKey exp) (arr.drop (i + 1)) d := by
      intro d
      rw [hdrop, bucket_cons]
    have hc := h3 _ hdv
    rw [hbt, if_pos rfl] at hc
    have hcat : countAt count (digit arr[i] exp) =
        some ((bucketsBelow (digitKey exp) arr (digitKey exp arr[i])).length +
          ((bucket (digitKey exp) (arr.take i) (digitKey exp arr[i])).length + 1)) := by
      unfold countAt
      rw [if_pos h0]
      exact hc
    have hsplit := bucket_split (digitKey exp) arr (i + 1) (digitKey exp arr[i])
    rw [hbt, if_pos rfl] at hsplit
    have hrange := bucket_range (digitKey exp) arr (digitKey exp arr[i])
    obtain ⟨p, hp⟩ : ∃ p, p = (bucketsBelow (digitKey exp) arr (digitKey exp arr[i])).length +
        (bucket (digitKey exp) (arr.take i) (digitKey exp arr[i])).length := ⟨_, rfl⟩
    have hpl : p < output.length := by omega
    obtain ⟨out, eo, hol', hout⟩ := ih (count.set (digit arr[i] exp).toNat p)
      (output.set p arr[i]) (by omega) (by rw [List.length_set]; exact hcl)
      (by rw [List.length_set]; exact hol)
      (by
        intro d hd
        by_cases hdd : digitKey exp arr[i] = d
        · subst hdd
          rw [show (digit arr[i] exp).toNat = digitKey exp arr[i] from rfl,
            List.getElem?_set_self (by omega), hp]
        · rw [show (digit arr[i] exp).toNat = digitKey exp arr[i] from rfl,
            List.getElem?_set_ne hdd]
          have := h3 d hd
          rw [hbt, if_neg hdd] at this
          exact this)
      (by
        intro d j hd hj
        rw [hbd] at hj ⊢
        by_cases hdd : digitKey exp arr[i] = d
        · subst hdd
          rw [if_pos rfl] at hj ⊢
          cases j with
          | zero =>
            rw [← hp]
            simp [List.getElem?_set_self hpl]
          | succ j =>
            rw [← hp, List.getElem?_set_ne (by omega), List.getElem?_cons_succ]
            have := h4 _ j hdv (by simpa using hj)
            rw [hbt, if_pos rfl] at this
            rw [← this, hp]
            congr 1
            omega
        · rw [if_neg hdd] at hj ⊢
          have hspl := bucket_split (digitKey exp) arr (i + 1) d
          rw [hbt, if_neg hdd] at hspl
          have hne := bucket_ranges_disjoint (digitKey exp) arr hdd
            (a := (bucket (digitKey exp) (arr.take i) (digitKey exp arr[i])).length)
            (b := (bucket (digitKey exp) (arr.take i) d).length + j) (by omega) (by omega)
          rw [List.getElem?_set_ne (by omega)]
          have := h4 d j hd hj
          rw [hbt, if_neg hdd] at this
          simpa using this)
    refine ⟨out, ?_, hol', hout⟩
    rw [placeLoop, List.getElem?_eq_getElem hlt]
    simp only [Option.bind_eq_bind, Option.some_bind, hcat]
    rw [if_neg (by omega), if_pos (by omega)]
    have : (bucketsBelow (digitKey exp) arr (digitKey exp arr[i])).length +
        ((bucket (digitKey exp) (arr.take i) (digitKey exp arr[i])).length + 1) - 1 = p := by
      omega
    rw [this]
    exact eo

theorem take_buckets (key : Int → Nat) (arr out : List Int)
    (hout : ∀ d j, d < 10 → j < (bucket key arr d).length →
      out[(bucketsBelow key arr d).length + j]? = (bucket key arr d)[j]?) :
    ∀ d, d ≤ 10 → out.take (bucketsBelow key arr d).length = bucketsBelow key arr d := by
  intro d
  induction d with
  | zero =>
    intro _
    simp [bucketsBelow_zero]
  | succ d ih =>
    intro hd
    have ih' := ih (by omega)
    rw [bucketsBelow_succ, List.length_append, List.take_add, ih']
    congr 1
    apply List.ext_getElem?
    intro j
    rw [List.getElem?_take]
    by_cases hj : j < (bucket key arr d).length
    · rw [if_pos hj, List.getElem?_drop]
      exact hout d j (by omega) hj
    · rw [if_neg hj, List.getElem?_eq_none (by omega)]

theorem countingSort_spec (arr : List Int) (exp : Int)
    (hkey : ∀ v ∈ arr, 0 ≤ digit v exp ∧ digit v exp < 10) :
    countingSort arr arr.length exp = some (bucketsBelow (digitKey exp) arr 10) := by
  obtain ⟨c0, e0, hl0, h0⟩ := countLoop_spec arr exp hkey arr.length 0 (List.replicate 10 0)
    (by omega) (by simp)
  have h0' : ∀ j, j < 10 → c0[j]? = some (bucket (digitKey exp) arr j).length := by
    intro j hj
    have := h0 j 0 (by rw [List.getElem?_replicate]; simp [hj])
    simpa using this
  obtain ⟨c1, e1, hl1, h1⟩ := prefixLoop_spec (fun d => (bucket (digitKey exp) arr d).length)
    9 1 c0 (by omega) (by omega) hl0
    (by
      intro j hj
      have hj0 : j = 0 := by omega
      subst hj0
      rw [h0' 0 (by omega)]
      simp [List.range_succ])
    (fun j _ hj10 => h0' j hj10)
  have hall : ∀ v ∈ arr, digitKey exp v < 10 := by
    intro v hv
    have := hkey v hv
    unfold digitKey
    omega
  obtain ⟨out, eo, hol, hout⟩ := placeLoop_spec arr exp hkey arr.length c1
    (List.replicate arr.length 0) (le_refl _) hl1 (by simp)
    (by
      intro d hd
      rw [h1 d hd, sum_bucket_lengths, bucketsBelow_succ, List.length_append,
        List.take_length])
    (by
      intro d j _ hj
      rw [List.drop_length] at hj
      simp [bucket] at hj)
  have hB : (bucketsBelow (digitKey exp) arr 10).length = arr.length :=
    (bucketsBelow_perm_all _ arr 10 hall).length_eq
  have hfin : out = bucketsBelow (digitKey exp) arr 10 := by
    have := take_buckets (digitKey exp) arr out hout 10 (le_refl _)
    rwa [hB, ← hol, List.take_length] at this
  unfold countingSort
  simp only [e0, e1, eo, Option.bind_eq_bind, Option.some_bind]
  rw [copyBack_spec out arr.length 0 arr (by omega) (by omega) (by simp), hfin]

/-! #### Digits -/

theorem digit_eq {v exp : Int} (hv : 0 ≤ v) (he : 0 < exp) : digit v exp = v / exp % 10 := by
  unfold digit
  rw [Int.tdiv_eq_ediv hv (le_of_lt he),
    Int.tmod_eq_emod (Int.ediv_nonneg hv (le_of_lt he)) (by omega)]

theorem digit_bounds {v exp : Int} (hv : 0 ≤ v) (he : 0 < exp) :
    0 ≤ digit v exp ∧ digit v exp < 10 := by
  rw [digit_eq hv he]
  omega

theorem digitKey_lt {v exp : Int} (hv : 0 ≤ v) (he : 0 < exp) : digitKey exp v < 10 := by
  have := digit_bounds hv he
  unfold digitKey
  omega

theorem digitKey_pow {v : Int} (hv : 0 ≤ v) (k : Nat) :
    digitKey ((10 ^ k : Nat) : Int) v = v.toNat / 10 ^ k % 10 := by
  obtain ⟨n, rfl⟩ := Int.eq_ofNat_of_zero_le hv
  have he : (0 : Int) < ((10 ^ k : Nat) : Int) := by
    have : 0 < 10 ^ k := Nat.pow_pos (by omega)
    omega
  unfold digitKey
  rw [digit_eq hv he]
  have : ((n : Int) / ((10 ^ k : Nat) : Int) % 10) = ((n / 10 ^ k % 10 : Nat) : Int) := by
    push_cast
    rfl
  rw [this, Int.toNat_ofNat, Int.toNat_ofNat]

theorem digitKey_mono {exp a b : Int} (he : 0 < exp) (hbig : INT_MAX < 10 * exp)
    (ha : 0 ≤ a) (hab : a ≤ b) (hb : b ≤ INT_MAX) : digitKey exp a ≤ digitKey exp b := by
  have hb0 : 0 ≤ b := le_trans ha hab
  unfold digitKey
  rw [digit_eq ha he, digit_eq hb0 he]
  have h1 : a / exp ≤ b / exp := Int.ediv_le_ediv he hab
  have h2 : b / exp < 10 := by
    apply Int.ediv_lt_of_lt_mul he
    unfold INT_MAX at hb hbig
    omega
  have h3 : 0 ≤ a / exp := Int.ediv_nonneg ha (le_of_lt he)
  omega

/-! #### Order after one pass -/

theorem bucketsBelow_pairwise (key : Int → Nat) (R S : Int → Int → Prop) (l : List Int)
    (hR : l.Pairwise R)
    (hsame : ∀ a ∈ l, ∀ b ∈ l, R a b → key a = key b → S a b)
    (hcross : ∀ a ∈ l, ∀ b ∈ l, key a < key b → S a b) :
    ∀ m, (bucketsBelow key l m).Pairwise S := by
  intro m
  induction m with
  | zero =>
    rw [bucketsBelow_zero]
    exact List.Pairwise.nil
  | succ m ih =>
    rw [bucketsBelow_succ, List.pairwise_append]
    refine ⟨ih, ?_, ?_⟩
    · have hsub : (bucket key l m).Sublist l := List.filter_sublist l
      have h1 := hR.sublist hsub
      have h2 : (bucket key l m).Pairwise (fun a b => (a ∈ l ∧ key a = m) ∧ (b ∈ l ∧ key b = m)) :=
        List.pairwise_of_forall_mem_list (fun a ha b hb => ⟨mem_bucket.mp ha, mem_bucket.mp hb⟩)
      refine (h1.and h2).imp ?_
      rintro a b ⟨hab, ⟨ha, hka⟩, ⟨hb, hkb⟩⟩
      exact hsame a ha b hb hab (by rw [hka, hkb])
    · intro a ha b hb
      have ha' := ((bucketsBelow_perm key l m).mem_iff).mp ha
      rw [List.mem_filter] at ha'
      obtain ⟨hb1, hb2⟩ := mem_bucket.mp hb
      exact hcross a ha'.1 b hb1 (by
        have := ha'.2
        simp at this
        omega)

theorem pass_digit (l : List Int) (k : Nat) (hnn : ∀ v ∈ l, 0 ≤ v)
    (hR : l.Pairwise (fun a b => a.toNat % 10 ^ k ≤ b.toNat % 10 ^ k)) :
    (bucketsBelow (digitKey ((10 ^ k : Nat) : Int)) l 10).Pairwise
      (fun a b => a.toNat % 10 ^ (k + 1) ≤ b.toNat % 10 ^ (k + 1)) := by
  have hpos : 0 < 10 ^ k := Nat.pow_pos (by omega)
  apply bucketsBelow_pairwise _ _ _ l hR
  · intro a ha b hb hab hk
    rw [digitKey_pow (hnn a ha), digitKey_pow (hnn b hb)] at hk
    rw [Nat.mod_pow_succ, Nat.mod_pow_succ, hk]
    omega
  · intro a ha b hb hk
    rw [digitKey_pow (hnn a ha), digitKey_pow (hnn b hb)] at hk
    rw [Nat.mod_pow_succ, Nat.mod_pow_succ]
    have h1 : a.toNat % 10 ^ k < 10 ^ k := Nat.mod_lt _ hpos
    have h2 : 10 ^ k * (a.toNat / 10 ^ k % 10 + 1) ≤ 10 ^ k * (b.toNat / 10 ^ k % 10) :=
      Nat.mul_le_mul_left _ hk
    rw [Nat.mul_add, Nat.mul_one] at h2
    omega

theorem pass_monotone (l : List Int) (exp : Int) (he : 0 < exp) (hbig : INT_MAX < 10 * exp)
    (hnn : ∀ v ∈ l, 0 ≤ v ∧ v ≤ INT_MAX) (hR : l.Pairwise (· ≤ ·)) :
    (bucketsBelow (digitKey exp) l 10).Pairwise (· ≤ ·) := by
  apply bucketsBelow_pairwise _ _ _ l hR
  · intro a _ b _ hab _
    exact hab
  · intro a ha b hb hk
    by_contra hcon
    have := digitKey_mono he hbig (hnn b hb).1 (le_of_lt (not_le.mp hcon)) (hnn a ha).2
    omega

theorem countingSort_pass (arr : List Int) (exp : Int) (he : 0 < exp)
    (hnn : ∀ v ∈ arr, 0 ≤ v) :
    countingSort arr arr.length exp = some (bucketsBelow (digitKey exp) arr 10) ∧
      (bucketsBelow (digitKey exp) arr 10).Perm arr :=
  ⟨countingSort_spec arr exp (fun v hv => digit_bounds (hnn v hv) he),
    bucketsBelow_perm_all _ arr 10 (fun v hv => digitKey_lt (hnn v hv) he)⟩

/-! #### The loop of `radixSortArray` -/

theorem mod_order (k : Nat) {a b : Int} (ha : 0 ≤ a) (hb : 0 ≤ b) (ha' : a.toNat < 10 ^ k)
    (hb' : b.toNat < 10 ^ k) (h : a.toNat % 10 ^ k ≤ b.toNat % 10 ^ k) : a ≤ b := by
  rw [Nat.mod_eq_of_lt ha', Nat.mod_eq_of_lt hb'] at h
  omega

theorem test_false {max e : Int} (hmax : 0 ≤ max) (he : 0 < e) (h : ¬ max.tdiv e > 0) :
    max < e := by
  rw [Int.tdiv_eq_ediv hmax (le_of_lt he)] at h
  by_contra hcon
  have : 1 ≤ max / e := Int.le_ediv_of_mul_le he (by omega)
  omega

theorem test_true {max e : Int} (hmax : 0 ≤ max) (he : 0 < e) (h : max.tdiv e > 0) :
    e ≤ max := by
  rw [Int.tdiv_eq_ediv hmax (le_of_lt he)] at h
  by_contra hcon
  rw [Int.ediv_eq_zero_of_lt hmax (by omega)] at h
  omega

theorem pow_step (k : Nat) : ((10 ^ k : Nat) : Int) * 10 = ((10 ^ (k + 1) : Nat) : Int) := by
  push_cast
  rw [pow_succ]

theorem radixLoop_digits (arr : List Int) (max : Int) (hmax : max < 1000000000)
    (hall : ∀ v ∈ arr, 0 ≤ v ∧ v ≤ max) (hmax0 : 0 ≤ max) :
    ∀ (f k : Nat) (l : List Int), f + k = 11 → k ≤ 9 → l.Perm arr →
      l.Pairwise (fun a b => a.toNat % 10 ^ k ≤ b.toNat % 10 ^ k) →
      ∃ out, radixLoop arr.length max f ((10 ^ k : Nat) : Int) l = some out ∧ out.Perm arr ∧
        out.Pairwise (· ≤ ·) := by
  intro f
  induction f with
  | zero =>
    intro k l hf hk _ _
    omega
  | succ f ih =>
    intro k l hf hk hp hR
    have hpos : 0 < 10 ^ k := Nat.pow_pos (by omega)
    have he : (0 : Int) < ((10 ^ k : Nat) : Int) := by omega
    have hl : ∀ v ∈ l, 0 ≤ v ∧ v ≤ max := fun v hv => hall v (hp.mem_iff.mp hv)
    rw [radixLoop, if_neg (by omega)]
    by_cases h1 : max.tdiv ((10 ^ k : Nat) : Int) > 0
    · rw [if_pos h1]
      have hle := test_true hmax0 he h1
      obtain ⟨e1, hp1⟩ := countingSort_pass l _ he (fun v hv => (hl v hv).1)
      have hs1 := pass_digit l k (fun v hv => (hl v hv).1) hR
      rw [hp.length_eq] at e1
      simp only [e1, Option.bind_eq_bind, Option.some_bind]
      have h9 : (10 : Nat) ^ 9 = 1000000000 := by norm_num
      have hk8 : k ≤ 8 := by
        by_contra hcon
        have hk9 : k = 9 := by omega
        subst hk9
        omega
      have hpow : 10 ^ (k + 1) ≤ 10 ^ 9 := Nat.pow_le_pow_right (by omega) (by omega)
      have hin : -2147483648 ≤ ((10 ^ k : Nat) : Int) * 10 ∧
          ((10 ^ k : Nat) : Int) * 10 ≤ INT_MAX := by
        rw [pow_step]
        unfold INT_MAX
        omega
      rw [if_pos hin, pow_step]
      exact ih (k + 1) _ (by omega) (by omega) (hp1.trans hp) hs1
    · rw [if_neg h1]
      have hlt := test_false hmax0 he h1
      refine ⟨l, rfl, hp, ?_⟩
      have hmem : l.Pairwise (fun a b => (0 ≤ a ∧ a ≤ max) ∧ (0 ≤ b ∧ b ≤ max)) :=
        List.pairwise_of_forall_mem_list (fun a ha b hb => ⟨hl a ha, hl b hb⟩)
      refine (hR.and hmem).imp ?_
      rintro a b ⟨hab, ⟨ha0, ha1⟩, ⟨hb0, hb1⟩⟩
      exact mod_order k ha0 hb0 (by omega) (by omega) hab

/-- With a maximum of `10^9` or more the loop of `radixSortArray` has no result, with
whatever bound on the number of its iterations: the test `max / exp > 0` holds for every
`exp` up to `10^9`, and the product `10^9 * 10` is outside the range of `int`. -/
theorem radixLoop_overflow (n : Nat) (max : Int) (hmax : 1000000000 ≤ max) :
    ∀ (f k : Nat) (l : List Int), k ≤ 9 →
      radixLoop n max f ((10 ^ k : Nat) : Int) l = none := by
  intro f
  induction f with
  | zero =>
    intro k l _
    rfl
  | succ f ih =>
    intro k l hk
    have hpos : 0 < 10 ^ k := Nat.pow_pos (by omega)
    have he : (0 : Int) < ((10 ^ k : Nat) : Int) := by omega
    have h9 : (10 : Nat) ^ 9 = 1000000000 := by norm_num
    have hpow : 10 ^ k ≤ 10 ^ 9 := Nat.pow_le_pow_right (by omega) hk
    have h1 : max.tdiv ((10 ^ k : Nat) : Int) > 0 := by
      rw [Int.tdiv_eq_ediv (by omega) (le_of_lt he)]
      have : 1 ≤ max / ((10 ^ k : Nat) : Int) := Int.le_ediv_of_mul_le he (by omega)
      omega
    rw [radixLoop, if_neg (by omega), if_pos h1]
    cases countingSort l n ((10 ^ k : Nat) : Int) with
    | none => rfl
    | some l1 =>
      simp only [Option.bind_eq_bind, Option.some_bind]
      by_cases hk8 : k ≤ 8
      · have hpow1 : 10 ^ (k + 1) ≤ 10 ^ 9 := Nat.pow_le_pow_right (by omega) (by omega)
        have hin : -2147483648 ≤ ((10 ^ k : Nat) : Int) * 10 ∧
            ((10 ^ k : Nat) : Int) * 10 ≤ INT_MAX := by
          rw [pow_step]
          unfold INT_MAX
          omega
        rw [if_pos hin, pow_step]
        exact ih (k + 1) l1 (by omega)
      · have hk9 : k = 9 := by omega
        subst hk9
        have hout : ¬ (-2147483648 ≤ ((10 ^ 9 : Nat) : Int) * 10 ∧
            ((10 ^ 9 : Nat) : Int) * 10 ≤ INT_MAX) := by
          unfold INT_MAX
          omega
        rw [if_neg hout]

/-- For every non-empty array of non-negative `int` values below `10^9`,
`radixSortArray(arr, n)` with `n` the length of the array returns and leaves the array
sorted in non-decreasing order and a permutation of its original contents. -/
theorem radixSortArray_sorts_below (arr : List Int) (hne : arr ≠ [])
    (hint : ∀ v ∈ arr, 0 ≤ v ∧ v < 1000000000) :
    ∃ out, radixSortArray arr arr.length = some out ∧ out.Sorted (· ≤ ·) ∧ out.Perm arr := by
  obtain ⟨max, em, hmem, hle⟩ := getMax_spec arr hne
  obtain ⟨out, eo, hp, hs⟩ := radixLoop_digits arr max (hint max hmem).2
    (fun v hv => ⟨(hint v hv).1, hle v hv⟩) (hint max hmem).1 11 0 arr rfl (by omega)
    (List.Perm.refl _) (List.pairwise_of_forall_mem_list (fun a _ b _ => by simp [Nat.mod_one]))
  refine ⟨out, ?_, hs, hp⟩
  unfold radixSortArray
  rw [em]
  exact eo

/-- For every array that holds a value of `10^9` or more, `radixSortArray(arr, n)` with
`n` the length of the array has no result: the loop reaches `exp = 10^9` and the
product `exp * 10` overflows. -/
theorem radixSortArray_overflow (arr : List Int) (v : Int) (hv : v ∈ arr)
    (hbig : 1000000000 ≤ v) : radixSortArray arr arr.length = none := by
  obtain ⟨max, em, -, hle⟩ := getMax_spec arr (List.ne_nil_of_mem hv)
  unfold radixSortArray
  rw [em]
  exact radixLoop_overflow arr.length max (le_trans hbig (hle v hv)) 11 0 arr (by omega)

/-- C26, failing input: the array `2147483647, 1` of two non-negative `int` values.
`getMax` returns `2147483647`; the test `max / exp > 0` of the loop still holds at
`exp = 10^9`, and after that pass `exp *= 10` multiplies `10^9` by `10`, which is more
than `INT_MAX`: the `int` multiplication overflows and `radixSortArray` has no defined
result, with whatever bound on the number of iterations. The array `2, 1` of smaller
values is sorted by the same code. -/
theorem C26_radixSortArray_overflows :
    (∀ v ∈ ([2147483647, 1] : List Int), 0 ≤ v ∧ v ≤ INT_MAX) ∧
    getMax [2147483647, 1] 2 = some 2147483647 ∧
    (2147483647 : Int).tdiv 1000000000 > 0 ∧
    INT_MAX < (1000000000 : Int) * 10 ∧
    (∀ f, radixLoop 2 2147483647 f 1 [2147483647, 1] = none) ∧
    radixSortArray [2147483647, 1] 2 = none ∧
    radixSortArray [2, 1] 2 = some [1, 2] := by
  refine ⟨by decide, by decide, by decide, by decide, ?_, ?_, by decide⟩
  · intro f
    exact radixLoop_overflow 2 2147483647 (by decide) f 0 _ (by decide)
  · exact radixSortArray_overflow [2147483647, 1] 2147483647 (by simp) (by decide)

end RadixArray

namespace AVL

/-! ### The AVL tree of `AVL_TREE.c` -/

theorem height_node (k : Int) (l r : AVLNode) (h : Int) : height (.node k l r h) = h := rfl

theorem getBalance_node (k : Int) (l r : AVLNode) (h : Int) :
    getBalance (.node k l r h) = height l - height r := rfl

theorem updateHeight_node (k : Int) (l r : AVLNode) (h : Int) :
    updateHeight (.node k l r h) = .node k l r (1 + max (height l) (height r)) := by
  have : (if height l > height r then height l else height r) + 1 =
      1 + max (height l) (height r) := by
    split <;> omega
  show AVLNode.node k l r ((if height l > height r then height l else height r) + 1) = _
  rw [this]

theorem HeightsStored.nonneg {t : AVLNode} (h : HeightsStored t) : 0 ≤ height t := by
  induction t with
  | nil => exact le_refl _
  | node k l r hh ihl ihr =>
    obtain ⟨hl, hr, e⟩ := h
    have := ihl hl
    have := ihr hr
    show 0 ≤ hh
    omega

theorem node_of_height_pos {t : AVLNode} (h : 0 < height t) :
    ∃ k l r hh, t = .node k l r hh := by
  cases t with
  | nil => exact absurd h (lt_irrefl _)
  | node k l r hh => exact ⟨k, l, r, hh, rfl⟩

theorem insertFix_keep (k : Int) (l r : AVLNode) (h0 key : Int)
    (h1 : -1 ≤ height l - height r) (h2 : height l - height r ≤ 1) :
    insertFix (.node k l r h0) key = some (.node k l r (1 + max (height l) (height r))) := by
  unfold insertFix
  rw [updateHeight_node]
  have e1 : ¬ getBalance (.node k l r (1 + max (height l) (height r))) > 1 := by
    show ¬ height l - height r > 1
    omega
  have e2 : ¬ getBalance (.node k l r (1 + max (height l) (height r))) < -1 := by
    show ¬ height l - height r < -1
    omega
  simp [e1, e2]

theorem insertFix_LL (k : Int) (l r : AVLNode) (h0 key lk : Int) (ll lr : AVLNode) (lh : Int)
    (hl : l = .node lk ll lr lh) (hb : height l - height r > 1) (hk : key < lk) :
    insertFix (.node k l r h0) key =
      rightRotate (.node k l r (1 + max (height l) (height r))) := by
  unfold insertFix
  rw [updateHeight_node]
  have e1 : getBalance (.node k l r (1 + max (height l) (height r))) > 1 := hb
  subst hl
  simp [e1, keyOf, hk]

theorem insertFix_LR (k : Int) (l r : AVLNode) (h0 key lk : Int) (ll lr : AVLNode) (lh : Int)
    (hl : l = .node lk ll lr lh) (hb : height l - height r > 1) (hk : key > lk) :
    insertFix (.node k l r h0) key =
      (leftRotate l).bind (fun l1 =>
        rightRotate (.node k l1 r (1 + max (height l) (height r)))) := by
  unfold insertFix
  rw [updateHeight_node]
  have e1 : getBalance (.node k l r (1 + max (height l) (height r))) > 1 := hb
  have e2 : ¬ getBalance (.node k l r (1 + max (height l) (height r))) < -1 := by
    have : getBalance (.node k l r (1 + max (height l) (height r))) =
      height l - height r := rfl
    omega
  have hk' : ¬ key < lk := by omega
  subst hl
  simp [e1, e2, keyOf, hk, hk']

theorem insertFix_RR (k : Int) (l r : AVLNode) (h0 key rk : Int) (rl rr : AVLNode) (rh : Int)
    (hr : r = .node rk rl rr rh) (hb : height l - height r < -1) (hk : key > rk) :
    insertFix (.node k l r h0) key =
      leftRotate (.node k l r (1 + max (height l) (height r))) := by
  unfold insertFix
  rw [updateHeight_node]
  have e1 : getBalance (.node k l r (1 + max (height l) (height r))) < -1 := hb
  have e2 : ¬ getBalance (.node k l r (1 + max (height l) (height r))) > 1 := by
    have : getBalance (.node k l r (1 + max (height l) (height r))) =
      height l - height r := rfl
    omega
  subst hr
  simp [e1, e2, keyOf, hk]

theorem insertFix_RL (k : Int) (l r : AVLNode) (h0 key rk : Int) (rl rr : AVLNode) (rh : Int)
    (hr : r = .node rk rl rr rh) (hb : height l - height r < -1) (hk : key < rk) :
    insertFix (.node k l r h0) key =
      (rightRotate r).bind (fun r1 =>
        leftRotate (.node k l r1 (1 + max (height l) (height r)))) := by
  unfold insertFix
  rw [updateHeight_node]
  have e1 : getBalance (.node k l r (1 + max (height l) (height r))) < -1 := hb
  have e2 : ¬ getBalance (.node k l r (1 + max (height l) (height r))) > 1 := by
    have : getBalance (.node k l r (1 + max (height l) (height r))) =
      height l - height r := rfl
    omega
  have hk' : ¬ key > rk := by omega
  subst hr
  simp [e1, e2, keyOf, hk, hk']

/-! #### Rotations at a node whose subtrees differ in height by two -/

theorem rightRotate_node (yk : Int) (xk : Int) (xl t2 : AVLNode) (xh : Int) (yr : AVLNode)
    (yh : Int) :
    rightRotate (.node yk (.node xk xl t2 xh) yr yh) =
      some (.node xk xl (.node yk t2 yr (1 + max (height t2) (height yr)))
        (1 + max (height xl) (1 + max (height t2) (height yr)))) := by
  simp only [rightRotate, updateHeight_node, height_node]

theorem leftRotate_node (xk : Int) (xl : AVLNode) (yk : Int) (t2 yr : AVLNode) (yh xh : Int) :
    leftRotate (.node xk xl (.node yk t2 yr yh) xh) =
      some (.node yk (.node xk xl t2 (1 + max (height xl) (height t2))) yr
        (1 + max (1 + max (height xl) (height t2)) (height yr))) := by
  simp only [leftRotate, updateHeight_node, height_node]

theorem rotR_single (k : Int) (l r : AVLNode) (h0 lk : Int) (ll lr : AVLNode) (lh : Int)
    (hl : l = .node lk ll lr lh) (hsl : HeightsStored l) (hbl : Balanced l)
    (hsr : HeightsStored r) (hbr : Balanced r) (hb : height l - height r = 2)
    (hge : height ll ≥ height lr) :
    ∃ t, rightRotate (.node k l r h0) = some t ∧ HeightsStored t ∧ Balanced t ∧
      inorder t = inorder l ++ k :: inorder r ∧
      height t = (if height ll = height lr then height l + 1 else height l) := by
  subst hl
  obtain ⟨hsll, hslr, elh⟩ := hsl
  obtain ⟨hbll, hblr, b1, b2⟩ := hbl
  simp only [getBalance_node, height_node] at b1 b2 hb
  refine ⟨_, rightRotate_node _ _ _ _ _ _ _, ?_, ?_, ?_, ?_⟩
  · simp only [HeightsStored, height_node]
    exact ⟨hsll, ⟨hslr, hsr, trivial⟩, trivial⟩
  · simp only [Balanced, getBalance_node, height_node]
    exact ⟨hbll, ⟨hblr, hbr, by omega, by omega⟩, by omega, by omega⟩
  · simp [inorder]
  · simp only [height_node]
    split <;> omega

theorem rotL_single (k : Int) (l r : AVLNode) (h0 rk : Int) (rl rr : AVLNode) (rh : Int)
    (hr : r = .node rk rl rr rh) (hsl : HeightsStored l) (hbl : Balanced l)
    (hsr : HeightsStored r) (hbr : Balanced r) (hb : height l - height r = -2)
    (hge : height rr ≥ height rl) :
    ∃ t, leftRotate (.node k l r h0) = some t ∧ HeightsStored t ∧ Balanced t ∧
      inorder t = inorder l ++ k :: inorder r ∧
      height t = (if height rr = height rl then height r + 1 else height r) := by
  subst hr
  obtain ⟨hsrl, hsrr, erh⟩ := hsr
  obtain ⟨hbrl, hbrr, b1, b2⟩ := hbr
  simp only [getBalance_node, height_node] at b1 b2 hb
  refine ⟨_, leftRotate_node _ _ _ _ _ _ _, ?_, ?_, ?_, ?_⟩
  · simp only [HeightsStored, height_node]
    exact ⟨⟨hsl, hsrl, trivial⟩, hsrr, trivial⟩
  · simp only [Balanced, getBalance_node, height_node]
    exact ⟨⟨hbl, hbrl, by omega, by omega⟩, hbrr, by omega, by omega⟩
  · simp [inorder]
  · simp only [height_node]
    split <;> omega

theorem rotR_double (k : Int) (l r : AVLNode) (h0 lk : Int) (ll lr : AVLNode) (lh : Int)
    (hl : l = .node lk ll lr lh) (hsl : HeightsStored l) (hbl : Balanced l)
    (hsr : HeightsStored r) (hbr : Balanced r) (hb : height l - height r = 2)
    (hlt : height ll < height lr) :
    ∃ t, (leftRotate l).bind (fun l1 => rightRotate (.node k l1 r h0)) = some t ∧
      HeightsStored t ∧ Balanced t ∧ inorder t = inorder l ++ k :: inorder r ∧
      height t = height l := by
  subst hl
  obtain ⟨hsll, hslr, elh⟩ := hsl
  obtain ⟨hbll, hblr, b1, b2⟩ := hbl
  have hpos : 0 < height lr := by
    have := hsll.nonneg
    omega
  obtain ⟨yk, yl, yr, yh, rfl⟩ := node_of_height_pos hpos
  obtain ⟨hsyl, hsyr, eyh⟩ := hslr
  obtain ⟨hbyl, hbyr, c1, c2⟩ := hblr
  simp only [getBalance_node, height_node] at b1 b2 c1 c2 hb hlt elh eyh
  have hyl := hsyl.nonneg
  have hyr := hsyr.nonneg
  refine ⟨_, by rw [leftRotate_node, Option.some_bind, rightRotate_node], ?_, ?_, ?_, ?_⟩
  · simp only [HeightsStored, height_node]
    exact ⟨⟨hsll, hsyl, trivial⟩, ⟨hsyr, hsr, trivial⟩, trivial⟩
  · simp only [Balanced, getBalance_node, height_node]
    exact ⟨⟨hbll, hbyl, by omega, by omega⟩, ⟨hbyr, hbr, by omega, by omega⟩, by omega,
      by omega⟩
  · simp [inorder]
  · simp only [height_node]
    omega

theorem rotL_double (k : Int) (l r : AVLNode) (h0 rk : Int) (rl rr : AVLNode) (rh : Int)
    (hr : r = .node rk rl rr rh) (hsl : HeightsStored l) (hbl : Balanced l)
    (hsr : HeightsStored r) (hbr : Balanced r) (hb : height l - height r = -2)
    (hlt : height rr < height rl) :
    ∃ t, (rightRotate r).bind (fun r1 => leftRotate (.node k l r1 h0)) = some t ∧
      HeightsStored t ∧ Balanced t ∧ inorder t = inorder l ++ k :: inorder r ∧
      height t = height r := by
  subst hr
  obtain ⟨hsrl, hsrr, erh⟩ := hsr
  obtain ⟨hbrl, hbrr, b1, b2⟩ := hbr
  have hpos : 0 < height rl := by
    have := hsrr.nonneg
    omega
  obtain ⟨yk, yl, yr, yh, rfl⟩ := node_of_height_pos hpos
  obtain ⟨hsyl, hsyr, eyh⟩ := hsrl
  obtain ⟨hbyl, hbyr, c1, c2⟩ := hbrl
  simp only [getBalance_node, height_node] at b1 b2 c1 c2 hb hlt erh eyh
  have hyl := hsyl.nonneg
  have hyr := hsyr.nonneg
  refine ⟨_, by rw [rightRotate_node, Option.some_bind, leftRotate_node], ?_, ?_, ?_, ?_⟩
  · simp only [HeightsStored, height_node]
    exact ⟨⟨hsl, hsyl, trivial⟩, ⟨hsyr, hsrr, trivial⟩, trivial⟩
  · simp only [Balanced, getBalance_node, height_node]
    exact ⟨⟨hbl, hbyl, by omega, by omega⟩, ⟨hbyr, hbrr, by omega, by omega⟩, by omega,
      by omega⟩
  · simp [inorder]
  · simp only [height_node]
    omega

/-! #### `insert` -/

theorem sorted_node_iff (k : Int) (l r : AVLNode) (h : Int) :
    (inorder (.node k l r h)).Sorted (· < ·) ↔
      (inorder l).Sorted (· < ·) ∧ (inorder r).Sorted (· < ·) ∧
        (∀ x ∈ inorder l, x < k) ∧ (∀ x ∈ inorder r, k < x) := by
  show (inorder l ++ k :: inorder r).Sorted (· < ·) ↔ _
  unfold List.Sorted
  rw [List.pairwise_append, List.pairwise_cons]
  constructor
  · rintro ⟨h1, ⟨h2, h3⟩, h4⟩
    exact ⟨h1, h3, fun x hx => h4 x hx k (List.mem_cons_self _ _), h2⟩
  · rintro ⟨h1, h2, h3, h4⟩
    refine ⟨h1, ⟨h4, h2⟩, fun a ha b hb => ?_⟩
    rcases List.mem_cons.mp hb with rfl | hb
    · exact h3 a ha
    · exact lt_trans (h3 a ha) (h4 b hb)

theorem sorted_of_inorder_eq {t : AVLNode} {k : Int} {l r : AVLNode}
    (e : inorder t = inorder l ++ k :: inorder r)
    (h : (inorder l).Sorted (· < ·) ∧ (inorder r).Sorted (· < ·) ∧
      (∀ x ∈ inorder l, x < k) ∧ (∀ x ∈ inorder r, k < x)) :
    (inorder t).Sorted (· < ·) := by
  rw [e]
  exact (sorted_node_iff k l r 0).mpr h

theorem mem_insert_left {A A' B : List Int} {key k : Int}
    (h : ∀ x, x ∈ A' ↔ x = key ∨ x ∈ A) (x : Int) :
    x ∈ A' ++ k :: B ↔ x = key ∨ x ∈ A ++ k :: B := by
  rw [List.mem_append, List.mem_append, h x]
  constructor
  · rintro ((h1 | h1) | h1)
    · exact Or.inl h1
    · exact Or.inr (Or.inl h1)
    · exact Or.inr (Or.inr h1)
  · rintro (h1 | h1 | h1)
    · exact Or.inl (Or.inl h1)
    · exact Or.inl (Or.inr h1)
    · exact Or.inr h1

theorem mem_insert_right {A B B' : List Int} {key k : Int}
    (h : ∀ x, x ∈ B' ↔ x = key ∨ x ∈ B) (x : Int) :
    x ∈ A ++ k :: B' ↔ x = key ∨ x ∈ A ++ k :: B := by
  rw [List.mem_append, List.mem_append, List.mem_cons, List.mem_cons, h x]
  constructor
  · rintro (h1 | h1 | h1 | h1)
    · exact Or.inr (Or.inl h1)
    · exact Or.inr (Or.inr (Or.inl h1))
    · exact Or.inl h1
    · exact Or.inr (Or.inr (Or.inr h1))
  · rintro (h1 | h1 | h1 | h1)
    · exact Or.inr (Or.inr (Or.inl h1))
    · exact Or.inl h1
    · exact Or.inr (Or.inl h1)
    · exact Or.inr (Or.inr (Or.inr h1))

theorem insertFix_spec (k : Int) (l r : AVLNode) (h0 key : Int)
    (hsl : HeightsStored l) (hsr : HeightsStored r) (hbl : Balanced l) (hbr : Balanced r)
    (hlo : -2 ≤ height l - height r) (hhi : height l - height r ≤ 2)
    (hL : height l - height r = 2 → ∃ lk ll lr lh, l = .node lk ll lr lh ∧
      ((key < lk ∧ height ll = height lr + 1) ∨ (key > lk ∧ height lr = height ll + 1)))
    (hR : height l - height r = -2 → ∃ rk rl rr rh, r = .node rk rl rr rh ∧
      ((key > rk ∧ height rr = height rl + 1) ∨ (key < rk ∧ height rl = height rr + 1))) :
    ∃ t, insertFix (.node k l r h0) key = some t ∧ HeightsStored t ∧ Balanced t ∧
      inorder t = inorder l ++ k :: inorder r ∧
      ((height l - height r = 2 ∨ height l - height r = -2) →
        height t = max (height l) (height r)) ∧
      (-1 ≤ height l - height r → height l - height r ≤ 1 →
        t = .node k l r (1 + max (height l) (height r))) := by
  by_cases h2 : height l - height r = 2
  · obtain ⟨lk, ll, lr, lh, hl, hcase⟩ := hL h2
    rcases hcase with ⟨hk, hh⟩ | ⟨hk, hh⟩
    · obtain ⟨t, e, h1, h3, h4, h5⟩ := rotR_single k l r (1 + max (height l) (height r))
        lk ll lr lh hl hsl hbl hsr hbr h2 (by omega)
      rw [if_neg (by omega)] at h5
      exact ⟨t, by rw [insertFix_LL k l r h0 key lk ll lr lh hl (by omega) hk]; exact e,
        h1, h3, h4, fun _ => by rw [h5]; omega, fun _ _ => by omega⟩
    · obtain ⟨t, e, h1, h3, h4, h5⟩ := rotR_double k l r (1 + max (height l) (height r))
        lk ll lr lh hl hsl hbl hsr hbr h2 (by omega)
      exact ⟨t, by rw [insertFix_LR k l r h0 key lk ll lr lh hl (by omega) hk]; exact e,
        h1, h3, h4, fun _ => by rw [h5]; omega, fun _ _ => by omega⟩
  · by_cases h2' : height l - height r = -2
    · obtain ⟨rk, rl, rr, rh, hr, hcase⟩ := hR h2'
      rcases hcase with ⟨hk, hh⟩ | ⟨hk, hh⟩
      · obtain ⟨t, e, h1, h3, h4, h5⟩ := rotL_single k l r (1 + max (height l) (height r))
          rk rl rr rh hr hsl hbl hsr hbr h2' (by omega)
        rw [if_neg (by omega)] at h5
        exact ⟨t, by rw [insertFix_RR k l r h0 key rk rl rr rh hr (by omega) hk]; exact e,
          h1, h3, h4, fun _ => by rw [h5]; omega, fun _ _ => by omega⟩
      · obtain ⟨t, e, h1, h3, h4, h5⟩ := rotL_double k l r (1 + max (height l) (height r))
          rk rl rr rh hr hsl hbl hsr hbr h2' (by omega)
        exact ⟨t, by rw [insertFix_RL k l r h0 key rk rl rr rh hr (by omega) hk]; exact e,
          h1, h3, h4, fun _ => by rw [h5]; omega, fun _ _ => by omega⟩
    · refine ⟨_, insertFix_keep k l r h0 key (by omega) (by omega), ⟨hsl, hsr, rfl⟩,
        ⟨hbl, hbr, ?_, ?_⟩, rfl, fun hc => by omega, fun _ _ => rfl⟩
      · rw [getBalance_node]
        omega
      · rw [getBalance_node]
        omega

theorem avl_insert_spec (key : Int) :
    ∀ t, HeightsStored t → Balanced t → (inorder t).Sorted (· < ·) →
      ∃ t', insert t key = some t' ∧ HeightsStored t' ∧ Balanced t' ∧
        (inorder t').Sorted (· < ·) ∧ (∀ x, x ∈ inorder t' ↔ x = key ∨ x ∈ inorder t) ∧
        (height t' = height t ∨ height t' = height t + 1) ∧
        (height t' = height t + 1 → 0 < height t → ∃ k' l' r' h', t' = .node k' l' r' h' ∧
          ((key < k' ∧ height l' = height r' + 1) ∨
            (key > k' ∧ height r' = height l' + 1))) := by
  intro t
  induction t with
  | nil =>
    intro _ _ _
    refine ⟨createNode key, rfl, ⟨trivial, trivial, rfl⟩, ⟨trivial, trivial, ?_, ?_⟩,
      by simp [createNode, inorder], by simp [createNode, inorder],
      Or.inr rfl, fun _ h => absurd h (lt_irrefl _)⟩
    · show (-1 : Int) ≤ 0 - 0
      omega
    · show (0 : Int) - 0 ≤ 1
      omega
  | node k l r h ihl ihr =>
    intro hs hb hsorted
    obtain ⟨hsl, hsr, eh⟩ := hs
    obtain ⟨hbl, hbr, b1, b2⟩ := hb
    rw [getBalance_node] at b1 b2
    obtain ⟨sl, sr, hlk, hrk⟩ := (sorted_node_iff k l r h).mp hsorted
    have hl0 := hsl.nonneg
    have hr0 := hsr.nonneg
    by_cases hlt : key < k
    · obtain ⟨l1, e1, hs1, hb1, so1, hm1, hh1, hg1⟩ := ihl hsl hbl sl
      obtain ⟨t, e, hst, hbt, hin, hrot, hkeep⟩ := insertFix_spec k l1 r h key hs1 hsr hb1 hbr
        (by omega) (by omega) (fun h2 => hg1 (by omega) (by omega)) (fun h2 => by omega)
      clear hg1
      refine ⟨t, ?_, hst, hbt, ?_, ?_, ?_, ?_⟩
      · rw [insert, if_pos hlt, e1]
        exact e
      · exact sorted_of_inorder_eq hin ⟨so1, sr, fun x hx => by
          rcases (hm1 x).mp hx with rfl | hx
          · exact hlt
          · exact hlk x hx, hrk⟩
      · intro x
        rw [hin]
        exact mem_insert_left hm1 x
      · rw [height_node]
        by_cases hc : height l1 - height r = 2
        · rw [hrot (Or.inl hc)]
          omega
        · rw [hkeep (by omega) (by omega), height_node]
          omega
      · rw [height_node]
        intro hgrow _
        by_cases hc : height l1 - height r = 2
        · rw [hrot (Or.inl hc)] at hgrow
          omega
        · have ht := hkeep (by omega) (by omega)
          rw [ht, height_node] at hgrow
          exact ⟨k, l1, r, _, ht, Or.inl ⟨hlt, by omega⟩⟩
    · by_cases hgt : key > k
      · obtain ⟨r1, e1, hs1, hb1, so1, hm1, hh1, hg1⟩ := ihr hsr hbr sr
        obtain ⟨t, e, hst, hbt, hin, hrot, hkeep⟩ := insertFix_spec k l r1 h key hsl hs1 hbl hb1
          (by omega) (by omega) (fun h2 => by omega) (fun h2 => by
            obtain ⟨k', l', r', h', e', hc⟩ := hg1 (by omega) (by omega)
            exact ⟨k', l', r', h', e', hc.symm⟩)
        clear hg1
        refine ⟨t, ?_, hst, hbt, ?_, ?_, ?_, ?_⟩
        · rw [insert, if_neg hlt, if_pos hgt, e1]
          exact e
        · exact sorted_of_inorder_eq hin ⟨sl, so1, hlk, fun x hx => by
            rcases (hm1 x).mp hx with rfl | hx
            · exact hgt
            · exact hrk x hx⟩
        · intro x
          rw [hin]
          exact mem_insert_right hm1 x
        · rw [height_node]
          by_cases hc : height l - height r1 = -2
          · rw [hrot (Or.inr hc)]
            omega
          · rw [hkeep (by omega) (by omega), height_node]
            omega
        · rw [height_node]
          intro hgrow _
          by_cases hc : height l - height r1 = -2
          · rw [hrot (Or.inr hc)] at hgrow
            omega
          · have ht := hkeep (by omega) (by omega)
            rw [ht, height_node] at hgrow
            exact ⟨k, l, r1, _, ht, Or.inr ⟨hgt, by omega⟩⟩
      · have hkk : key = k := by omega
        subst hkk
        refine ⟨.node key l r h, ?_, ⟨hsl, hsr, eh⟩, ⟨hbl, hbr, ?_, ?_⟩, hsorted, ?_,
          Or.inl rfl, fun hc => by omega⟩
        · rw [insert, if_neg hlt, if_neg hgt]
        · rw [getBalance_node]
          exact b1
        · rw [getBalance_node]
          exact b2
        · intro x
          show x ∈ inorder l ++ key :: inorder r ↔ x = key ∨ x ∈ inorder l ++ key :: inorder r
          constructor
          · exact fun h1 => Or.inr h1
          · rintro (h1 | h1)
            · rw [h1]
              exact List.mem_append_right _ (List.mem_cons_self _ _)
            · exact h1

/-! #### `deleteNode` -/

theorem deleteFix_spec (k : Int) (l r : AVLNode) (h0 : Int)
    (hsl : HeightsStored l) (hsr : HeightsStored r) (hbl : Balanced l) (hbr : Balanced r)
    (hlo : -2 ≤ height l - height r) (hhi : height l - height r ≤ 2) :
    ∃ t, deleteFix (.node k l r h0) = some t ∧ HeightsStored t ∧ Balanced t ∧
      inorder t = inorder l ++ k :: inorder r ∧
      (height t = 1 + max (height l) (height r) ∨ height t = max (height l) (height r)) ∧
      (-1 ≤ height l - height r → height l - height r ≤ 1 →
        height t = 1 + max (height l) (height r)) := by
  have hl0 := hsl.nonneg
  have hr0 := hsr.nonneg
  have hbal : getBalance (.node k l r (1 + max (height l) (height r))) =
      height l - height r := rfl
  by_cases h2 : height l - height r = 2
  · obtain ⟨lk, ll, lr, lh, hl⟩ := node_of_height_pos (show 0 < height l by omega)
    have hgl : getBalance l = height ll - height lr := by rw [hl]; rfl
    by_cases hge : height ll ≥ height lr
    · obtain ⟨t, e, h1, h3, h4, h5⟩ := rotR_single k l r (1 + max (height l) (height r))
        lk ll lr lh hl hsl hbl hsr hbr h2 hge
      refine ⟨t, ?_, h1, h3, h4, ?_, fun _ _ => by omega⟩
      · unfold deleteFix
        rw [updateHeight_node]
        simp only [hbal]
        rw [if_pos ⟨by omega, by omega⟩]
        exact e
      · rw [h5]
        split <;> omega
    · obtain ⟨t, e, h1, h3, h4, h5⟩ := rotR_double k l r (1 + max (height l) (height r))
        lk ll lr lh hl hsl hbl hsr hbr h2 (by omega)
      refine ⟨t, ?_, h1, h3, h4, ?_, fun _ _ => by omega⟩
      · unfold deleteFix
        rw [updateHeight_node]
        simp only [hbal]
        rw [if_neg (by omega), if_pos ⟨by omega, by omega⟩]
        exact e
      · rw [h5]
        omega
  · by_cases h2' : height l - height r = -2
    · obtain ⟨rk, rl, rr, rh, hr⟩ := node_of_height_pos (show 0 < height r by omega)
      have hgr : getBalance r = height rl - height rr := by rw [hr]; rfl
      by_cases hge : height rr ≥ height rl
      · obtain ⟨t, e, h1, h3, h4, h5⟩ := rotL_single k l r (1 + max (height l) (height r))
          rk rl rr rh hr hsl hbl hsr hbr h2' hge
        refine ⟨t, ?_, h1, h3, h4, ?_, fun _ _ => by omega⟩
        · unfold deleteFix
          rw [updateHeight_node]
          simp only [hbal]
          rw [if_neg (by omega), if_neg (by omega), if_pos ⟨by omega, by omega⟩]
          exact e
        · rw [h5]
          split <;> omega
      · obtain ⟨t, e, h1, h3, h4, h5⟩ := rotL_double k l r (1 + max (height l) (height r))
          rk rl rr rh hr hsl hbl hsr hbr h2' (by omega)
        refine ⟨t, ?_, h1, h3, h4, ?_, fun _ _ => by omega⟩
        · unfold deleteFix
          rw [updateHeight_node]
          simp only [hbal]
          rw [if_neg (by omega), if_neg (by omega), if_neg (by omega),
            if_pos ⟨by omega, by omega⟩]
          exact e
        · rw [h5]
          omega
    · refine ⟨.node k l r (1 + max (height l) (height r)), ?_, ⟨hsl, hsr, rfl⟩,
        ⟨hbl, hbr, ?_, ?_⟩, rfl, Or.inl rfl, fun _ _ => rfl⟩
      · unfold deleteFix
        rw [updateHeight_node]
        simp only [hbal]
        rw [if_neg (by omega), if_neg (by omega), if_neg (by omega), if_neg (by omega)]
      · rw [getBalance_node]
        omega
      · rw [getBalance_node]
        omega

theorem minValueNode_spec :
    ∀ t, (∃ k l r h, t = AVLNode.node k l r h) → (inorder t).Sorted (· < ·) →
      ∃ m, keyOf (minValueNode t) = some m ∧ m ∈ inorder t ∧ ∀ x ∈ inorder t, m ≤ x := by
  intro t
  induction t with
  | nil =>
    rintro ⟨k, l, r, h, e⟩
    cases e
  | node k l r h ihl _ =>
    intro _ hs
    obtain ⟨sl, sr, hlk, hrk⟩ := (sorted_node_iff k l r h).mp hs
    cases l with
    | nil =>
      refine ⟨k, rfl, by simp [inorder], ?_⟩
      intro x hx
      simp only [inorder, List.nil_append, List.mem_cons] at hx
      rcases hx with rfl | hx
      · exact le_refl _
      · exact le_of_lt (hrk x hx)
    | node lk ll lr lh =>
      obtain ⟨m, e, hm, hall⟩ := ihl ⟨lk, ll, lr, lh, rfl⟩ sl
      refine ⟨m, e, List.mem_append_left _ hm, ?_⟩
      intro x hx
      rcases List.mem_append.mp hx with hx | hx
      · exact hall x hx
      · have h1 := hlk m hm
        rcases List.mem_cons.mp hx with rfl | hx
        · exact le_of_lt h1
        · exact le_of_lt (lt_trans h1 (hrk x hx))

theorem deleteNode_spec :
    ∀ t key, HeightsStored t → Balanced t → (inorder t).Sorted (· < ·) →
      ∃ t', deleteNode t key = some t' ∧ HeightsStored t' ∧ Balanced t' ∧
        (inorder t').Sorted (· < ·) ∧ (∀ x, x ∈ inorder t' ↔ x ∈ inorder t ∧ x ≠ key) ∧
        (height t' = height t ∨ height t' + 1 = height t) := by
  intro t
  induction t with
  | nil =>
    intro key _ _ _
    exact ⟨.nil, rfl, trivial, trivial, List.sorted_nil, fun x => by simp [inorder],
      Or.inl rfl⟩
  | node k l r h ihl ihr =>
    intro key hs hb hsorted
    obtain ⟨hsl, hsr, eh⟩ := hs
    obtain ⟨hbl, hbr, b1, b2⟩ := hb
    rw [getBalance_node] at b1 b2
    obtain ⟨sl, sr, hlk, hrk⟩ := (sorted_node_iff k l r h).mp hsorted
    have hl0 := hsl.nonneg
    have hr0 := hsr.nonneg
    by_cases hlt : key < k
    · obtain ⟨l1, e1, hs1, hb1, so1, hm1, hh1⟩ := ihl key hsl hbl sl
      obtain ⟨t, e, hst, hbt, hin, hht, hkeep⟩ := deleteFix_spec k l1 r h hs1 hsr hb1 hbr
        (by omega) (by omega)
      refine ⟨t, ?_, hst, hbt, ?_, ?_, ?_⟩
      · unfold deleteNode
        rw [if_pos hlt, e1]
        exact e
      · exact sorted_of_inorder_eq hin ⟨so1, sr, fun x hx => hlk x ((hm1 x).mp hx).1, hrk⟩
      · intro x
        rw [hin]
        show x ∈ inorder l1 ++ k :: inorder r ↔ x ∈ inorder l ++ k :: inorder r ∧ x ≠ key
        rw [List.mem_append, List.mem_append, List.mem_cons, hm1 x]
        constructor
        · rintro (⟨h1, h2⟩ | h1 | h1)
          · exact ⟨Or.inl h1, h2⟩
          · exact ⟨Or.inr (Or.inl h1), by omega⟩
          · exact ⟨Or.inr (Or.inr h1), by have := hrk x h1; omega⟩
        · rintro ⟨h1 | h1 | h1, h2⟩
          · exact Or.inl ⟨h1, h2⟩
          · exact Or.inr (Or.inl h1)
          · exact Or.inr (Or.inr h1)
      · rw [height_node]
        by_cases hc : height l1 - height r = -2
        · omega
        · have := hkeep (by omega) (by omega)
          omega
    · by_cases hgt : key > k
      · obtain ⟨r1, e1, hs1, hb1, so1, hm1, hh1⟩ := ihr key hsr hbr sr
        obtain ⟨t, e, hst, hbt, hin, hht, hkeep⟩ := deleteFix_spec k l r1 h hsl hs1 hbl hb1
          (by omega) (by omega)
        refine ⟨t, ?_, hst, hbt, ?_, ?_, ?_⟩
        · unfold deleteNode
          rw [if_neg hlt, if_pos hgt, e1]
          exact e
        · exact sorted_of_inorder_eq hin ⟨sl, so1, hlk, fun x hx => hrk x ((hm1 x).mp hx).1⟩
        · intro x
          rw [hin]
          show x ∈ inorder l ++ k :: inorder r1 ↔ x ∈ inorder l ++ k :: inorder r ∧ x ≠ key
          rw [List.mem_append, List.mem_append, List.mem_cons, List.mem_cons, hm1 x]
          constructor
          · rintro (h1 | h1 | ⟨h1, h2⟩)
            · exact ⟨Or.inl h1, by have := hlk x h1; omega⟩
            · exact ⟨Or.inr (Or.inl h1), by omega⟩
            · exact ⟨Or.inr (Or.inr h1), h2⟩
          · rintro ⟨h1 | h1 | h1, h2⟩
            · exact Or.inl h1
            · exact Or.inr (Or.inl h1)
            · exact Or.inr (Or.inr ⟨h1, h2⟩)
        · rw [height_node]
          by_cases hc : height l - height r1 = 2
          · omega
          · have := hkeep (by omega) (by omega)
            omega
      · have hkk : key = k := by omega
        subst hkk
        cases l with
        | nil =>
          refine ⟨r, ?_, hsr, hbr, sr, ?_, ?_⟩
          · unfold deleteNode
            rw [if_neg hlt, if_neg hgt]
            cases r <;> rfl
          · intro x
            show x ∈ inorder r ↔ x ∈ [] ++ key :: inorder r ∧ x ≠ key
            rw [List.nil_append, List.mem_cons]
            constructor
            · exact fun h1 => ⟨Or.inr h1, by have := hrk x h1; omega⟩
            · rintro ⟨h1 | h1, h2⟩
              · exact absurd h1 h2
              · exact h1
          · rw [height_node]
            have : height AVLNode.nil = 0 := rfl
            rw [this] at eh
            omega
        | node lk ll lr lh =>
          cases r with
          | nil =>
            refine ⟨.node lk ll lr lh, ?_, hsl, hbl, sl, ?_, ?_⟩
            · unfold deleteNode
              rw [if_neg hlt, if_neg hgt]
            · intro x
              show x ∈ inorder (.node lk ll lr lh) ↔
                x ∈ inorder (.node lk ll lr lh) ++ key :: [] ∧ x ≠ key
              rw [List.mem_append, List.mem_singleton]
              constructor
              · exact fun h1 => ⟨Or.inl h1, by have := hlk x h1; omega⟩
              · rintro ⟨h1 | h1, h2⟩
                · exact h1
                · exact absurd h1 h2
            · have hn : height AVLNode.nil = 0 := rfl
              simp only [height_node, hn] at eh hl0 b1 b2 ⊢
              omega
          | node rk rl rr rh =>
            obtain ⟨m, em, hmr, hmin⟩ := minValueNode_spec (.node rk rl rr rh)
              ⟨rk, rl, rr, rh, rfl⟩ sr
            obtain ⟨r1, e1, hs1, hb1, so1, hm1, hh1⟩ := ihr m hsr hbr sr
            obtain ⟨t, e, hst, hbt, hin, hht, hkeep⟩ := deleteFix_spec m (.node lk ll lr lh) r1 h
              hsl hs1 hbl hb1 (by omega) (by omega)
            have hkm : key < m := hrk m hmr
            refine ⟨t, ?_, hst, hbt, ?_, ?_, ?_⟩
            · unfold deleteNode
              rw [if_neg hlt, if_neg hgt]
              simp only [em, e1, Option.bind_eq_bind, Option.some_bind]
              exact e
            · refine sorted_of_inorder_eq hin ⟨sl, so1, fun x hx => lt_trans (hlk x hx) hkm,
                fun x hx => ?_⟩
              obtain ⟨h1, h2⟩ := (hm1 x).mp hx
              have := hmin x h1
              omega
            · intro x
              rw [hin]
              show x ∈ inorder (.node lk ll lr lh) ++ m :: inorder r1 ↔
                x ∈ inorder (.node lk ll lr lh) ++ key :: inorder (.node rk rl rr rh) ∧ x ≠ key
              rw [List.mem_append, List.mem_append, List.mem_cons, List.mem_cons, hm1 x]
              constructor
              · rintro (h1 | h1 | ⟨h1, h2⟩)
                · exact ⟨Or.inl h1, by have := hlk x h1; omega⟩
                · exact ⟨Or.inr (Or.inr (by rw [h1]; exact hmr)), by omega⟩
                · exact ⟨Or.inr (Or.inr h1), by have := hrk x h1; omega⟩
              · rintro ⟨h1 | h1 | h1, h2⟩
                · exact Or.inl h1
                · exact absurd h1 h2
                · by_cases hxm : x = m
                  · exact Or.inr (Or.inl hxm)
                  · exact Or.inr (Or.inr ⟨h1, hxm⟩)
            · rw [height_node]
              by_cases hc : height (AVLNode.node lk ll lr lh) - height r1 = 2
              · omega
              · have := hkeep (by omega) (by omega)
                omega

theorem avl_runOps_spec :
    ∀ (ops : List Op) (t : AVLNode), HeightsStored t → Balanced t →
      (inorder t).Sorted (· < ·) →
      ∃ t', runOps ops t = some t' ∧ HeightsStored t' ∧ Balanced t' ∧
        (inorder t').Sorted (· < ·) := by
  intro ops
  induction ops with
  | nil =>
    intro t h1 h2 h3
    exact ⟨t, rfl, h1, h2, h3⟩
  | cons op ops ih =>
    intro t h1 h2 h3
    cases op with
    | ins k =>
      obtain ⟨t1, e1, a1, a2, a3, -, -, -⟩ := avl_insert_spec k t h1 h2 h3
      obtain ⟨t', e, b⟩ := ih t1 a1 a2 a3
      exact ⟨t', by rw [runOps, e1]; exact e, b⟩
    | del k =>
      obtain ⟨t1, e1, a1, a2, a3, -, -⟩ := deleteNode_spec t k h1 h2 h3
      obtain ⟨t', e, b⟩ := ih t1 a1 a2 a3
      exact ⟨t', by rw [runOps, e1]; exact e, b⟩

/-- C27: starting from the empty tree (`NULL`), every finite sequence of `insert` and
`deleteNode` calls returns a tree whose in-order keys are strictly increasing, in which
every node's stored height is `1 + max(height(left), height(right))` and every node's
balance factor `height(left) - height(right)` is `-1`, `0` or `1`. -/
theorem C27_avl_invariants (ops : List Op) :
    ∃ t, runOps ops .nil = some t ∧ (inorder t).Sorted (· < ·) ∧ HeightsStored t ∧
      Balanced t := by
  obtain ⟨t, e, h1, h2, h3⟩ := avl_runOps_spec ops .nil trivial trivial List.sorted_nil
  exact ⟨t, e, h3, h1, h2⟩

end AVL

namespace BPlus

/-! ### The B+ tree of `bplus.c` -/

/-- C22, failing input: order 4 and the first ten insertions of `main` (distinct keys,
values `key + 100`). With arrays of exactly the requested sizes the fourth insertion has
no result: it writes `leaf->keys[3]` in an array of `order - 1 = 3` keys. With one more
usable element per array all ten insertions return, and afterwards `search` returns
`-1` for the inserted keys `30` and `35`: the split of the over-full root at the tenth
insertion moves only `order - 2 - splitPoint` keys and one pointer more to the new node
and drops the last key `30` and the pointer to the leaf `30 35`. Key `17` is still
found. -/
theorem C22_inserted_key_not_found :
    (demo_inserts.map Prod.fst).Nodup ∧ (∀ kv ∈ demo_inserts, kv.2 ≠ -1) ∧
    ((30 : Int), (130 : Int)) ∈ demo_inserts ∧
    (insertAll (demo_inserts.take 3) (createBPlusTree 0 4)).isSome = true ∧
    insertAll (demo_inserts.take 4) (createBPlusTree 0 4) = none ∧
    (insertAll demo_inserts (createBPlusTree 1 4)).bind (fun t => search t 30) = some (-1) ∧
    (insertAll demo_inserts (createBPlusTree 1 4)).bind (fun t => search t 35) = some (-1) ∧
    (insertAll demo_inserts (createBPlusTree 1 4)).bind (fun t => search t 17) = some 117 := by
  refine ⟨by decide, by decide, by decide, by decide, by decide, ?_, ?_, ?_⟩
  · decide
  · decide
  · decide

/-- C38, failing input: order 4 and the tenth insertion of `main`, at the point where
`insertIntoParent` finds the root (address 2) with `numKeys == order`: it holds the keys
`10 15 20 30` and five child pointers (to the nodes 0, 3, 4, 1, 5). The split pushes up
`15` and makes the new node 6; afterwards the left node holds the key `10` and the
children 0 and 3, the new right node the key `20` and the children 4 and 1. The key `30`
is in neither node and is not the key pushed up; the pointer to node 5 is in neither
node, and the parent pointer of node 5 still names the left node. With arrays of exactly
the requested sizes the over-full node does not come about: the write that makes a node
hold `order` keys is outside its key array, as the fourth insertion shows. -/
theorem C38_internal_split_drops_last_key_and_child :
    overfullDemo.map (fun x => (x.2, x.1.order)) = some (2, 4) ∧
    overfullDemo.bind (fun x => (x.1.nodes[x.2]?).map (fun p => (p.isLeaf, p.numKeys))) =
      some (false, 4) ∧
    overfullDemo.bind (fun x => (x.1.nodes[x.2]?).map liveKeys) = some [10, 15, 20, 30] ∧
    overfullDemo.bind (fun x => (x.1.nodes[x.2]?).map liveChildren) =
      some [.node 0, .node 3, .node 4, .node 1, .node 5] ∧
    overfullDemo.bind (fun x => (splitInternal x.1 x.2).map (fun s => s.2)) = some (15, 6) ∧
    (afterSplit 2).map liveKeys = some [10] ∧
    (afterSplit 6).map liveKeys = some [20] ∧
    (afterSplit 2).map liveChildren = some [.node 0, .node 3] ∧
    (afterSplit 6).map liveChildren = some [.node 4, .node 1] ∧
    (afterSplit 5).map (fun c => c.parent) = some (some 2) ∧
    (afterSplit 4).map (fun c => c.parent) = some (some 6) ∧
    insertAll (demo_inserts.take 4) (createBPlusTree 0 4) = none := by
  refine ⟨by decide, by decide, by decide, by decide, by decide, by decide, by decide,
    by decide, by decide, by decide, by decide, by decide⟩

end BPlus

namespace RedBlack

@[simp]
theorem store_mem (t : RedBlackTree) (a : Nat) (n : Node) (b : Nat) :
    (store t a n).mem b = if b = a then some n else t.mem b := rfl

@[simp]
theorem store_next (t : RedBlackTree) (a : Nat) (n : Node) :
    (store t a n).next = t.next := rfl

@[simp]
theorem store_root (t : RedBlackTree) (a : Nat) (n : Node) :
    (store t a n).root = t.root := rfl

@[simp]
theorem store_NIL (t : RedBlackTree) (a : Nat) (n : Node) :
    (store t a n).NIL = t.NIL := rfl

@[simp]
theorem release_mem (t : RedBlackTree) (a : Nat) (b : Nat) :
    (release t a).mem b = if b = a then none else t.mem b := rfl

@[simp]
theorem release_next (t : RedBlackTree) (a : Nat) :
    (release t a).next = t.next := rfl

@[simp]
theorem release_root (t : RedBlackTree) (a : Nat) :
    (release t a).root = t.root := rfl

@[simp]
theorem release_NIL (t : RedBlackTree) (a : Nat) :
    (release t a).NIL = t.NIL := rfl

@[simp]
theorem addr_leaf : addr .leaf = 1 := rfl

@[simp]
theorem addr_node (a : Nat) (c : Color) (k : Int) (l r : Tree) :
    addr (.node a c k l r) = a := rfl

@[simp]
theorem addrs_leaf : addrs .leaf = [] := rfl

@[simp]
theorem addrs_node (a : Nat) (c : Color) (k : Int) (l r : Tree) :
    addrs (.node a c k l r) = a :: (addrs l ++ addrs r) := rfl

@[simp]
theorem top_nil : top [] = 1 := rfl

@[simp]
theorem top_cons (f : Frame) (up : List Frame) : top (f :: up) = f.a := rfl

@[simp]
theorem Frame.a_L (a : Nat) (c : Color) (k : Int) (s : Tree) :
    (Frame.L a c k s).a = a := rfl

@[simp]
theorem Frame.a_R (a : Nat) (c : Color) (k : Int) (s : Tree) :
    (Frame.R a c k s).a = a := rfl

@[simp]
theorem Frame.s_L (a : Nat) (c : Color) (k : Int) (s : Tree) :
    (Frame.L a c k s).s = s := rfl

@[simp]
theorem Frame.s_R (a : Nat) (c : Color) (k : Int) (s : Tree) :
    (Frame.R a c k s).s = s := rfl

@[simp]
theorem Frame.c_L (a : Nat) (c : Color) (k : Int) (s : Tree) :
    (Frame.L a c k s).c = c := rfl

@[simp]
theorem Frame.c_R (a : Nat) (c : Color) (k : Int) (s : Tree) :
    (Frame.R a c k s).c = c := rfl

@[simp]
theorem ctxAddrs_nil : ctxAddrs [] = [] := rfl

@[simp]
theorem ctxAddrs_cons (f : Frame) (up : List Frame) :
    ctxAddrs (f :: up) = f.a :: (addrs f.s ++ ctxAddrs up) := rfl

@[simp]
theorem Rep_leaf (m : Nat → Option Node) (p : Nat) : Rep m p .leaf := trivial

theorem Rep_node (m : Nat → Option Node) (p a : Nat) (c : Color) (k : Int) (l r : Tree) :
    Rep m p (.node a c k l r) ↔
      m a = some ⟨k, c, p, addr l, addr r⟩ ∧ Rep m a l ∧ Rep m a r := Iff.rfl

@[simp]
theorem RepCtx_nil (m : Nat → Option Node) (h : Nat) : RepCtx m [] h := trivial

theorem RepCtx_L (m : Nat → Option Node) (a : Nat) (c : Color) (k : Int) (s : Tree)
    (up : List Frame) (h : Nat) :
    RepCtx m (.L a c k s :: up) h ↔
      m a = some ⟨k, c, top up, h, addr s⟩ ∧ Rep m a s ∧ RepCtx m up a := Iff.rfl

theorem RepCtx_R (m : Nat → Option Node) (a : Nat) (c : Color) (k : Int) (s : Tree)
    (up : List Frame) (h : Nat) :
    RepCtx m (.R a c k s :: up) h ↔
      m a = some ⟨k, c, top up, addr s, h⟩ ∧ Rep m a s ∧ RepCtx m up a := Iff.rfl

@[simp]
theorem plug_nil (t : Tree) : plug [] t = t := rfl

@[simp]
theorem plugF_L (a : Nat) (c : Color) (k : Int) (s t : Tree) :
    plugF (.L a c k s) t = .node a c k t s := rfl

@[simp]
theorem plugF_R (a : Nat) (c : Color) (k : Int) (s t : Tree) :
    plugF (.R a c k s) t = .node a c k s t := rfl

theorem plug_cons (f : Frame) (up : List Frame) (t : Tree) :
    plug (f :: up) t = plug up (plugF f t) := rfl

theorem plug_append (c1 c2 : List Frame) (t : Tree) :
    plug (c1 ++ c2) t = plug c2 (plug c1 t) := by
  induction c1 generalizing t with
  | nil => rfl
  | cons f c1 ih => exact ih (plugF f t)

theorem addr_plugF (f : Frame) (t : Tree) : addr (plugF f t) = f.a := by
  cases f <;> rfl

/-- A memory that agrees with `m` on the addresses of a tree holds the same tree. -/
theorem Rep.congr_mem {m m2 : Nat → Option Node} {p : Nat} {t : Tree}
    (h : Rep m p t) (e : ∀ a ∈ addrs t, m2 a = m a) : Rep m2 p t := by
  induction t generalizing p with
  | leaf => trivial
  | node a c k l r ihl ihr =>
    obtain ⟨h1, h2, h3⟩ := h
    refine ⟨?_, ihl h2 ?_, ihr h3 ?_⟩
    · rw [e a (by simp [addrs])]; exact h1
    · intro b hb; exact e b (by simp [addrs, hb])
    · intro b hb; exact e b (by simp [addrs, hb])

/-- A memory that agrees with `m` on the addresses of a path holds the same path. -/
theorem RepCtx.congr_path {m m2 : Nat → Option Node} {ctx : List Frame} {h : Nat}
    (hr : RepCtx m ctx h) (e : ∀ a ∈ ctxAddrs ctx, m2 a = m a) : RepCtx m2 ctx h := by
  induction ctx generalizing h with
  | nil => trivial
  | cons f up ih =>
    cases f with
    | L a c k s =>
      obtain ⟨h1, h2, h3⟩ := hr
      refine ⟨?_, h2.congr_mem ?_, ih h3 ?_⟩
      · rw [e a (by simp [ctxAddrs, Frame.a])]; exact h1
      · intro b hb; exact e b (by simp [ctxAddrs, Frame.s, hb])
      · intro b hb; exact e b (by simp [ctxAddrs, hb])
    | R a c k s =>
      obtain ⟨h1, h2, h3⟩ := hr
      refine ⟨?_, h2.congr_mem ?_, ih h3 ?_⟩
      · rw [e a (by simp [ctxAddrs, Frame.a])]; exact h1
      · intro b hb; exact e b (by simp [ctxAddrs, Frame.s, hb])
      · intro b hb; exact e b (by simp [ctxAddrs, hb])

/-- The memory holds a whole tree exactly when it holds a subtree and the path from it
to the root. -/
theorem Rep_plug (m : Nat → Option Node) (ctx : List Frame) (t : Tree) :
    Rep m 1 (plug ctx t) ↔ RepCtx m ctx (addr t) ∧ Rep m (top ctx) t := by
  induction ctx generalizing t with
  | nil => simp [plug, RepCtx, top]
  | cons f up ih =>
    rw [plug_cons, ih]
    cases f with
    | L a c k s =>
      simp only [plugF_L, plugF_R, addr_node, Rep_node, RepCtx_L, RepCtx_R, top_cons, Frame.a_L, Frame.a_R]
      tauto
    | R a c k s =>
      simp only [plugF_L, plugF_R, addr_node, Rep_node, RepCtx_L, RepCtx_R, top_cons, Frame.a_L, Frame.a_R]
      tauto

theorem addrs_plugF (f : Frame) (t : Tree) :
    (addrs (plugF f t)).Perm (f.a :: (addrs t ++ addrs f.s)) := by
  cases f with
  | L a c k s => exact List.Perm.refl _
  | R a c k s =>
    simp only [plugF, addrs, Frame.a, Frame.s]
    exact List.Perm.cons _ List.perm_append_comm

theorem addrs_plug (ctx : List Frame) (t : Tree) :
    (addrs (plug ctx t)).Perm (addrs t ++ ctxAddrs ctx) := by
  induction ctx generalizing t with
  | nil => simp [plug, ctxAddrs]
  | cons f up ih =>
    rw [plug_cons]
    refine (ih (plugF f t)).trans ?_
    refine ((addrs_plugF f t).append_right _).trans ?_
    simp only [ctxAddrs, List.cons_append, List.append_assoc]
    exact List.perm_middle.symm

theorem mem_addrs_plug {ctx : List Frame} {t : Tree} {a : Nat} :
    a ∈ addrs (plug ctx t) ↔ a ∈ addrs t ∨ a ∈ ctxAddrs ctx := by
  rw [(addrs_plug ctx t).mem_iff, List.mem_append]

theorem nodup_addrs_plug {ctx : List Frame} {t : Tree} :
    (addrs (plug ctx t)).Nodup ↔ (addrs t ++ ctxAddrs ctx).Nodup :=
  (addrs_plug ctx t).nodup_iff

theorem inorder_plug (ctx : List Frame) (t : Tree) :
    inorder (plug ctx t) = keysBefore ctx ++ inorder t ++ keysAfter ctx := by
  induction ctx generalizing t with
  | nil => simp [plug, keysBefore, keysAfter]
  | cons f up ih =>
    rw [plug_cons, ih]
    cases f <;> simp [plugF, inorder, keysBefore, keysAfter]

theorem addr_plug_nil (t : Tree) : addr (plug [] t) = addr t := rfl

theorem addr_plug_cons (f : Frame) (up : List Frame) (t u : Tree) :
    addr (plug (f :: up) t) = addr (plug (f :: up) u) := by
  induction up generalizing f t u with
  | nil => simp [plug, addr_plugF]
  | cons g up ih =>
    rw [plug_cons, plug_cons]
    exact ih g _ _

/-- Taking a whole tree apart at a subtree. -/
theorem Whole.focus {s : RedBlackTree} {ctx : List Frame} {t : Tree}
    (W : Whole s (plug ctx t)) :
    RepCtx s.mem ctx (addr t) ∧ Rep s.mem (top ctx) t ∧
      (addrs t ++ ctxAddrs ctx).Nodup ∧
      (∀ a ∈ addrs t ++ ctxAddrs ctx, 2 ≤ a ∧ a < s.next) := by
  obtain ⟨h1, h2⟩ := (Rep_plug _ _ _).1 W.rep
  refine ⟨h1, h2, nodup_addrs_plug.1 W.nodup, ?_⟩
  intro a ha
  exact W.lo a ((addrs_plug ctx t).mem_iff.2 ha)

/-- Putting a whole tree together from a subtree and a path. -/
theorem Whole.build {s : RedBlackTree} {ctx : List Frame} {t : Tree}
    (hnil : s.NIL = 1) (hroot : s.root = addr (plug ctx t))
    (hc : RepCtx s.mem ctx (addr t)) (hr : Rep s.mem (top ctx) t)
    (hnd : (addrs t ++ ctxAddrs ctx).Nodup)
    (hlo : ∀ a ∈ addrs t ++ ctxAddrs ctx, 2 ≤ a ∧ a < s.next)
    (hs : ∃ n, s.mem 1 = some n ∧ n.color = .BLACK) (h2 : 2 ≤ s.next) :
    Whole s (plug ctx t) :=
  ⟨hnil, hroot, (Rep_plug _ _ _).2 ⟨hc, hr⟩, nodup_addrs_plug.2 hnd,
    fun a ha => hlo a ((addrs_plug ctx t).mem_iff.1 ha), hs, h2⟩

/-- A write outside a tree leaves the tree in place. -/
theorem Rep_store {t : RedBlackTree} {a : Nat} {n : Node} {p : Nat} {T : Tree}
    (h : a ∉ addrs T) : Rep (store t a n).mem p T ↔ Rep t.mem p T := by
  constructor
  · intro hr
    exact hr.congr_mem (fun b hb => by
      have : b ≠ a := fun e => h (e ▸ hb)
      simp [this])
  · intro hr
    exact hr.congr_mem (fun b hb => by
      have : b ≠ a := fun e => h (e ▸ hb)
      simp [this])

/-- A write outside a path leaves the path in place. -/
theorem RepCtx_store {t : RedBlackTree} {a : Nat} {n : Node} {ctx : List Frame} {h : Nat}
    (ha : a ∉ ctxAddrs ctx) : RepCtx (store t a n).mem ctx h ↔ RepCtx t.mem ctx h := by
  constructor
  · intro hr
    exact hr.congr_path (fun b hb => by
      have : b ≠ a := fun e => ha (e ▸ hb)
      simp [this])
  · intro hr
    exact hr.congr_path (fun b hb => by
      have : b ≠ a := fun e => ha (e ▸ hb)
      simp [this])

/-- A tree is held whatever the parent pointer asked of the sentinel. -/
theorem Rep.reparent {m : Nat → Option Node} {p q : Nat} {T : Tree} (h : Rep m p T)
    (hq : T ≠ .leaf → q = p) : Rep m q T := by
  cases T with
  | leaf => trivial
  | node a c k l r => rw [hq (by simp)]; exact h

/-- The whole tree after a change below a path, the nodes of the tree being the same
up to their order. -/
theorem Whole.rebuild {s s2 : RedBlackTree} {ctx : List Frame} {t t2 : Tree}
    (W : Whole s (plug ctx t)) (hnil : s2.NIL = 1) (hroot : s2.root = addr (plug ctx t2))
    (hc : RepCtx s2.mem ctx (addr t2)) (hr : Rep s2.mem (top ctx) t2)
    (hp : ∀ a, (addrs t2).count a = (addrs t).count a) (hnext : s2.next = s.next)
    (hs : s2.mem 1 = s.mem 1) : Whole s2 (plug ctx t2) := by
  obtain ⟨-, -, hnd, hlo⟩ := W.focus
  have hperm : (addrs t2).Perm (addrs t) := List.perm_iff_count.2 hp
  refine Whole.build hnil hroot hc hr ?_ ?_ ?_ ?_
  · exact (hperm.append_right _).nodup_iff.2 hnd
  · intro a ha
    rw [hnext]
    exact hlo a (((hperm.append_right _).mem_iff).1 ha)
  · rw [hs]; exact W.sent
  · rw [hnext]; exact W.two

/-- An address outside a list that starts with `b`: both ways round. -/
theorem not_mem_cons_both {a b : Nat} {l : List Nat} :
    a ∉ b :: l ↔ (¬ a = b ∧ ¬ b = a) ∧ a ∉ l := by
  simp only [List.mem_cons, not_or]
  constructor
  · rintro ⟨h1, h2⟩; exact ⟨⟨h1, fun e => h1 e.symm⟩, h2⟩
  · rintro ⟨⟨h1, -⟩, h2⟩; exact ⟨h1, h2⟩

/-- The parts of a whole tree at a subtree, with the facts on addresses in the form the
proofs below use: the sentinel's address counts as one more address. -/
theorem Whole.parts {s : RedBlackTree} {ctx : List Frame} {t : Tree}
    (W : Whole s (plug ctx t)) :
    RepCtx s.mem ctx (addr t) ∧ Rep s.mem (top ctx) t ∧
      (1 :: (addrs t ++ ctxAddrs ctx)).Nodup ∧ s.NIL = 1 := by
  obtain ⟨h1, h2, h3, h4⟩ := W.focus
  refine ⟨h1, h2, List.nodup_cons.2 ⟨?_, h3⟩, W.nil⟩
  intro ha
  have := h4 1 ha
  omega

/-- An address outside a tree and not the sentinel's is not the address of the root
of the tree. -/
theorem eq_addr_false {a : Nat} {T : Tree} (h1 : a ∉ addrs T) (h2 : ¬ a = 1) :
    (a = addr T) = False := by
  cases T with
  | leaf => simpa using h2
  | node b c k l r =>
    simp only [addrs_node, List.mem_cons, not_or] at h1
    simpa using h1.1

theorem addr_eq_false {a : Nat} {T : Tree} (h1 : a ∉ addrs T) (h2 : ¬ a = 1) :
    (addr T = a) = False := by
  have := eq_addr_false h1 h2
  simp only [eq_iff_iff, iff_false] at this ⊢
  exact fun e => this e.symm

set_option maxHeartbeats 4000000 in
theorem leftRotate_spec {s : RedBlackTree} {C : List Frame} {x y : Nat} {cx cy : Color}
    {kx ky : Int} {α β γ : Tree}
    (W : Whole s (plug C (.node x cx kx α (.node y cy ky β γ)))) :
    ∃ s2, leftRotate s x = some s2 ∧
      Step s s2 (plug C (.node y cy ky (.node x cx kx α β) γ)) := by
  obtain ⟨hc, hr, hnd, hnil⟩ := W.parts
  rcases C with _ | ⟨_ | _, up⟩ <;> cases β <;>
  ·
    simp only [Rep_node, addr_node, RepCtx_L, RepCtx_R, top_nil, top_cons, Frame.a_L,
      Frame.a_R, addr_leaf] at hr hc
    simp only [List.nodup_cons, List.nodup_append, List.mem_append, not_mem_cons_both, not_or,
      List.cons_append, List.append_assoc, addrs_node, addrs_leaf, ctxAddrs_nil,
      ctxAddrs_cons, List.disjoint_cons_left, Frame.a_L, Frame.a_R, Frame.s_L, Frame.s_R,
      List.disjoint_cons_right, List.disjoint_append_left, List.disjoint_append_right]
      at hnd
    casesm* _ ∧ _
    simp only [leftRotate, rightOf, leftOf, parentOf, setRight, setLeft, setParent, store_mem,
      store_NIL, store_root, store_next, Option.map_some', Option.bind_eq_bind,
      Option.some_bind, if_true, if_false, ne_eq, not_true_eq_false, not_false_eq_true,
      exists_eq_left', Option.some.injEq, eq_addr_false, addr_eq_false, top_nil, top_cons,
      Frame.a_L, Frame.a_R, addr_node, addr_leaf, *]
    refine ⟨W.rebuild ?_ ?_ ?_ ?_ ?_ ?_ ?_, ?_, ?_⟩
    · simp only [store_NIL, *]
    · first
        | rfl
        | (simp only [store_root]; rw [W.root]; exact addr_plug_cons _ _ _ _)
    · simp only [RepCtx_L, RepCtx_R, RepCtx_nil, RepCtx_store, Rep_store, store_mem,
        not_false_eq_true, addr_node, addr_leaf, top_cons, top_nil, Frame.a_L, Frame.a_R,
        if_true, if_false, and_self, and_true, true_and,
        eq_addr_false, addr_eq_false, *]
    · simp only [Rep_node, Rep_leaf, Rep_store, store_mem,
        not_false_eq_true, addr_node, addr_leaf, top_cons, top_nil, Frame.a_L, Frame.a_R,
        if_true, if_false, and_self, and_true, true_and,
        eq_addr_false, addr_eq_false, *]
    · intro a
      simp only [addrs_node, addrs_leaf, List.count_cons, List.count_append]
      omega
    · rfl
    · simp only [store_mem, if_false, *]
    · simp only [store_mem, if_false, *]
    · rfl

set_option maxHeartbeats 4000000 in
theorem rightRotate_spec {s : RedBlackTree} {C : List Frame} {x y : Nat} {cx cy : Color}
    {kx ky : Int} {α β γ : Tree}
    (W : Whole s (plug C (.node y cy ky (.node x cx kx α β) γ))) :
    ∃ s2, rightRotate s y = some s2 ∧
      Step s s2 (plug C (.node x cx kx α (.node y cy ky β γ))) := by
  obtain ⟨hc, hr, hnd, hnil⟩ := W.parts
  rcases C with _ | ⟨_ | _, up⟩ <;> cases β <;>
  ·
    simp only [Rep_node, addr_node, RepCtx_L, RepCtx_R, top_nil, top_cons, Frame.a_L,
      Frame.a_R, addr_leaf] at hr hc
    simp only [List.nodup_cons, List.nodup_append, List.mem_append, not_mem_cons_both, not_or,
      List.cons_append, List.append_assoc, addrs_node, addrs_leaf, ctxAddrs_nil,
      ctxAddrs_cons, List.disjoint_cons_left, Frame.a_L, Frame.a_R, Frame.s_L, Frame.s_R,
      List.disjoint_cons_right, List.disjoint_append_left, List.disjoint_append_right]
      at hnd
    casesm* _ ∧ _
    simp only [rightRotate, rightOf, leftOf, parentOf, setRight, setLeft, setParent, store_mem,
      store_NIL, store_root, store_next, Option.map_some', Option.bind_eq_bind,
      Option.some_bind, if_true, if_false, ne_eq, not_true_eq_false, not_false_eq_true,
      exists_eq_left', Option.some.injEq, eq_addr_false, addr_eq_false, top_nil, top_cons,
      Frame.a_L, Frame.a_R, addr_node, addr_leaf, *]
    refine ⟨W.rebuild ?_ ?_ ?_ ?_ ?_ ?_ ?_, ?_, ?_⟩
    · simp only [store_NIL, *]
    · first
        | rfl
        | (simp only [store_root]; rw [W.root]; exact addr_plug_cons _ _ _ _)
    · simp only [RepCtx_L, RepCtx_R, RepCtx_nil, RepCtx_store, Rep_store, store_mem,
        not_false_eq_true, addr_node, addr_leaf, top_cons, top_nil, Frame.a_L, Frame.a_R,
        if_true, if_false, and_self, and_true, true_and,
        eq_addr_false, addr_eq_false, *]
    · simp only [Rep_node, Rep_leaf, Rep_store, store_mem,
        not_false_eq_true, addr_node, addr_leaf, top_cons, top_nil, Frame.a_L, Frame.a_R,
        if_true, if_false, and_self, and_true, true_and,
        eq_addr_false, addr_eq_false, *]
    · intro a
      simp only [addrs_node, addrs_leaf, List.count_cons, List.count_append]
      omega
    · rfl
    · simp only [store_mem, if_false, *]
    · simp only [store_mem, if_false, *]
    · rfl

/-- The node at the end of a path, as the memory holds it. -/
theorem Whole.read {s : RedBlackTree} {ctx : List Frame} {a : Nat} {c : Color} {k : Int}
    {l r : Tree} (W : Whole s (plug ctx (.node a c k l r))) :
    s.mem a = some ⟨k, c, top ctx, addr l, addr r⟩ :=
  W.parts.2.1.1

set_option maxHeartbeats 4000000 in
theorem setColor_spec {s : RedBlackTree} {C : List Frame} {a : Nat} {c : Color} {k : Int}
    {l r : Tree} (W : Whole s (plug C (.node a c k l r))) (c2 : Color) :
    ∃ s2, setColor s a c2 = some s2 ∧ Step s s2 (plug C (.node a c2 k l r)) := by
  obtain ⟨hc, hr, hnd, hnil⟩ := W.parts
  rcases C with _ | ⟨_ | _, up⟩ <;>
  ·
    simp only [Rep_node, addr_node, RepCtx_L, RepCtx_R, top_nil, top_cons, Frame.a_L,
      Frame.a_R, addr_leaf] at hr hc
    simp only [List.nodup_cons, List.nodup_append, List.mem_append, not_mem_cons_both, not_or,
      List.cons_append, List.append_assoc, addrs_node, addrs_leaf, ctxAddrs_nil,
      ctxAddrs_cons, List.disjoint_cons_left, Frame.a_L, Frame.a_R, Frame.s_L, Frame.s_R,
      List.disjoint_cons_right, List.disjoint_append_left, List.disjoint_append_right]
      at hnd
    casesm* _ ∧ _
    simp only [setColor, store_mem,
      store_NIL, store_root, store_next, Option.map_some', Option.bind_eq_bind,
      Option.some_bind, if_true, if_false, ne_eq, not_true_eq_false, not_false_eq_true,
      exists_eq_left', Option.some.injEq, eq_addr_false, addr_eq_false, top_nil, top_cons,
      Frame.a_L, Frame.a_R, addr_node, addr_leaf, *]
    refine ⟨W.rebuild ?_ ?_ ?_ ?_ ?_ ?_ ?_, ?_, ?_⟩
    · simp only [store_NIL, *]
    · first
        | (simp only [store_root]; rw [W.root]; rfl)
        | (simp only [store_root]; rw [W.root]; exact addr_plug_cons _ _ _ _)
    · simp only [RepCtx_L, RepCtx_R, RepCtx_nil, RepCtx_store, Rep_store, store_mem,
        not_false_eq_true, addr_node, addr_leaf, top_cons, top_nil, Frame.a_L, Frame.a_R,
        if_true, if_false, and_self, and_true, true_and,
        eq_addr_false, addr_eq_false, *]
    · simp only [Rep_node, Rep_leaf, Rep_store, store_mem,
        not_false_eq_true, addr_node, addr_leaf, top_cons, top_nil, Frame.a_L, Frame.a_R,
        if_true, if_false, and_self, and_true, true_and,
        eq_addr_false, addr_eq_false, *]
    · intro a
      simp only [addrs_node, addrs_leaf, List.count_cons, List.count_append]
    · rfl
    · simp only [store_mem, if_false, *]
    · simp only [store_mem, if_false, *]
    · rfl

/-- The whole tree after a change below a path, no node being new. -/
theorem Whole.rebuild_le {s s2 : RedBlackTree} {ctx : List Frame} {t t2 : Tree}
    (W : Whole s (plug ctx t)) (hnil : s2.NIL = 1) (hroot : s2.root = addr (plug ctx t2))
    (hc : RepCtx s2.mem ctx (addr t2)) (hr : Rep s2.mem (top ctx) t2)
    (hp : ∀ a, (addrs t2).count a ≤ (addrs t).count a) (hnext : s2.next = s.next)
    (hs : ∃ n, s2.mem 1 = some n ∧ n.color = .BLACK) : Whole s2 (plug ctx t2) := by
  obtain ⟨-, -, hnd, hlo⟩ := W.focus
  refine Whole.build hnil hroot hc hr ?_ ?_ hs (by rw [hnext]; exact W.two)
  · rw [List.nodup_iff_count_le_one] at hnd ⊢
    intro a
    have h1 := hnd a
    have h2 := hp a
    simp only [List.count_append] at h1 ⊢
    omega
  · intro a ha
    rw [hnext]
    apply hlo a
    rw [← List.count_pos_iff] at ha ⊢
    have h2 := hp a
    simp only [List.count_append] at ha ⊢
    omega

theorem Whole.parentOf {s : RedBlackTree} (ctx : List Frame) {a : Nat} {c : Color} {k : Int}
    {l r : Tree} (W : Whole s (plug ctx (.node a c k l r))) :
    parentOf s a = some (top ctx) := by
  simp only [RedBlack.parentOf, W.read, Option.map_some']

theorem Whole.leftOf {s : RedBlackTree} (ctx : List Frame) {a : Nat} {c : Color} {k : Int}
    {l r : Tree} (W : Whole s (plug ctx (.node a c k l r))) :
    leftOf s a = some (addr l) := by
  simp only [RedBlack.leftOf, W.read, Option.map_some']

theorem Whole.rightOf {s : RedBlackTree} (ctx : List Frame) {a : Nat} {c : Color} {k : Int}
    {l r : Tree} (W : Whole s (plug ctx (.node a c k l r))) :
    rightOf s a = some (addr r) := by
  simp only [RedBlack.rightOf, W.read, Option.map_some']

theorem Whole.keyOf {s : RedBlackTree} (ctx : List Frame) {a : Nat} {c : Color} {k : Int}
    {l r : Tree} (W : Whole s (plug ctx (.node a c k l r))) :
    keyOf s a = some k := by
  simp only [RedBlack.keyOf, W.read, Option.map_some']

/-- The colour read at the root of a subtree, the sentinel included. -/
theorem Whole.colorOf {s : RedBlackTree} (ctx : List Frame) {t : Tree}
    (W : Whole s (plug ctx t)) : colorOf s (addr t) = some (rootColor t) := by
  cases t with
  | leaf =>
    obtain ⟨n, h1, h2⟩ := W.sent
    simp only [RedBlack.colorOf, addr_leaf, h1, Option.map_some', h2, rootColor]
  | node a c k l r =>
    simp only [RedBlack.colorOf, addr_node, W.read, Option.map_some', rootColor]

/-- The write `x->color = BLACK` through the sentinel changes nothing. -/
theorem setColor_sentinel {s : RedBlackTree} {T : Tree} (W : Whole s T) :
    setColor s 1 .BLACK = some s := by
  obtain ⟨n, h1, h2⟩ := W.sent
  simp only [setColor, h1, Option.map_some', Option.some.injEq]
  have e : ({ n with color := Color.BLACK } : Node) = n := by
    cases n; simp only [Node.mk.injEq, true_and, and_true] at h2 ⊢; exact h2.symm
  rw [e]
  cases s with
  | mk m nx rt nl =>
    simp only [store, RedBlackTree.mk.injEq, and_self, and_true]
    funext b
    by_cases hb : b = 1
    · subst hb; simp only [if_true]; exact h1.symm
    · simp only [hb, if_false]

/-- The state after `createNode`: the tree is held as before and the new node is
outside it. -/
theorem createNode_spec {s : RedBlackTree} {T : Tree} (W : Whole s T) (key : Int) :
    Whole (createNode s key).1 T ∧ (createNode s key).2 = s.next ∧
      (createNode s key).1.mem s.next = some ⟨key, .RED, 1, 1, 1⟩ ∧
      (createNode s key).1.next = s.next + 1 ∧ s.next ∉ addrs T ∧ 2 ≤ s.next := by
  have hfresh : s.next ∉ addrs T := fun h => by have := (W.lo _ h).2; omega
  have h2 := W.two
  have h1 : ¬ (1 = s.next) := by omega
  refine ⟨⟨W.nil, W.root, ?_, W.nodup, ?_, ?_, ?_⟩, rfl, ?_, rfl, hfresh, h2⟩
  · exact W.rep.congr_mem (fun a ha => by
      have : a ≠ s.next := fun e => hfresh (e ▸ ha)
      simp only [createNode, store_mem, this, if_false])
  · intro a ha
    have := W.lo a ha
    simp only [createNode, store_next]
    omega
  · simp only [createNode, store_mem, h1, if_false]
    exact W.sent
  · simp only [createNode, store_next]; omega
  · simp only [createNode, store_mem, if_true, W.nil]

set_option maxHeartbeats 4000000 in
theorem linkNode_spec {s : RedBlackTree} {ctx : List Frame} {z : Nat} {k : Int}
    (W : Whole s (plug ctx .leaf)) (hz : s.mem z = some ⟨k, .RED, 1, 1, 1⟩)
    (hfresh : z ∉ addrs (plug ctx .leaf)) (hz2 : 2 ≤ z ∧ z < s.next)
    (hdir : Toward k ctx) :
    ∃ s2, linkNode s z (top ctx) = some s2 ∧
      Step s s2 (plug ctx (.node z .RED k .leaf .leaf)) := by
  obtain ⟨hc, hr, hnd, hnil⟩ := W.parts
  have hs := W.sent
  have h2 := W.two
  rw [mem_addrs_plug] at hfresh
  have hz1 : ¬ z = 1 ∧ ¬ 1 = z := by omega
  have hnd2 : (addrs (.node z .RED k .leaf .leaf) ++ ctxAddrs ctx).Nodup := by
    simp only [addrs_node, addrs_leaf, List.append_nil, List.singleton_append,
      List.nodup_cons]
    exact ⟨fun h => hfresh (Or.inr h), by simpa using (List.nodup_cons.1 hnd).2⟩
  have hlo2 : ∀ a ∈ addrs (.node z .RED k .leaf .leaf) ++ ctxAddrs ctx,
      2 ≤ a ∧ a < s.next := by
    intro a ha
    simp only [addrs_node, addrs_leaf, List.append_nil, List.singleton_append,
      List.mem_cons] at ha
    rcases ha with rfl | ha
    · exact hz2
    · exact W.lo a (mem_addrs_plug.2 (Or.inr ha))
  rcases ctx with _ | ⟨_ | _, up⟩ <;>
  · simp only [addrs_leaf, List.nil_append, List.mem_append, not_or, List.not_mem_nil,
      not_false_eq_true, true_and, ctxAddrs_nil, ctxAddrs_cons, not_mem_cons_both,
      Frame.a_L, Frame.a_R, Frame.s_L, Frame.s_R] at hfresh
    simp only [Toward] at hdir
    simp only [Rep_node, addr_node, RepCtx_L, RepCtx_R, top_nil, top_cons, Frame.a_L,
      Frame.a_R, addr_leaf] at hr hc
    simp only [List.nodup_cons, List.nodup_append, List.mem_append, not_mem_cons_both, not_or,
      List.cons_append, List.append_assoc, addrs_node, addrs_leaf, ctxAddrs_nil,
      ctxAddrs_cons, List.disjoint_cons_left, Frame.a_L, Frame.a_R, Frame.s_L, Frame.s_R,
      List.disjoint_cons_right, List.disjoint_append_left, List.disjoint_append_right]
      at hnd
    casesm* _ ∧ _
    simp only [linkNode, keyOf, setParent, setLeft, setRight, store_mem,
      store_NIL, store_root, store_next, Option.map_some', Option.bind_eq_bind,
      Option.some_bind, if_true, if_false, ne_eq, not_true_eq_false, not_false_eq_true,
      exists_eq_left', Option.some.injEq, eq_addr_false, addr_eq_false, top_nil, top_cons,
      Frame.a_L, Frame.a_R, addr_node, addr_leaf, *]
    refine ⟨Whole.build ?_ ?_ ?_ ?_ hnd2 hlo2 ?_ ?_, ?_, ?_⟩
    · simp only [store_NIL, *]
    · first
        | rfl
        | (simp only [store_root]; rw [W.root]; exact addr_plug_cons _ _ _ _)
    · simp only [RepCtx_L, RepCtx_R, RepCtx_nil, RepCtx_store, Rep_store, store_mem,
        not_false_eq_true, addr_node, addr_leaf, top_cons, top_nil, Frame.a_L, Frame.a_R,
        if_true, if_false, and_self, and_true, true_and,
        eq_addr_false, addr_eq_false, *]
    · simp only [Rep_node, Rep_leaf, Rep_store, store_mem,
        not_false_eq_true, addr_node, addr_leaf, top_cons, top_nil, Frame.a_L, Frame.a_R,
        if_true, if_false, and_self, and_true, true_and,
        eq_addr_false, addr_eq_false, *]
    · simp only [store_mem, if_false, *]
    · exact h2
    · simp only [store_mem, if_false, *]
    · rfl

set_option maxHeartbeats 4000000 in
theorem transplant_right_spec {s : RedBlackTree} {ctx : List Frame} {u : Nat} {cu : Color} {ku : Int}
    {l r : Tree} (W : Whole s (plug ctx (.node u cu ku l r))) :
    ∃ s2, transplant s u (addr r) = some s2 ∧ Spliced s s2 ctx r u := by
  obtain ⟨hc, hr, hnd, hnil⟩ := W.parts
  obtain ⟨n0, hn0, hn0c⟩ := W.sent
  rcases ctx with _ | ⟨_ | _, up⟩ <;> cases r <;>
  ·
    simp only [Rep_node, addr_node, RepCtx_L, RepCtx_R, top_nil, top_cons, Frame.a_L,
      Frame.a_R, addr_leaf] at hr hc
    simp only [List.nodup_cons, List.nodup_append, List.mem_append, not_mem_cons_both, not_or,
      List.cons_append, List.append_assoc, addrs_node, addrs_leaf, ctxAddrs_nil,
      ctxAddrs_cons, List.disjoint_cons_left, Frame.a_L, Frame.a_R, Frame.s_L, Frame.s_R,
      List.disjoint_cons_right, List.disjoint_append_left, List.disjoint_append_right]
      at hnd
    casesm* _ ∧ _
    simp only [transplant, parentOf, leftOf, setLeft, setRight, setParent, store_mem,
      store_NIL, store_root, store_next, Option.map_some', Option.bind_eq_bind,
      Option.some_bind, if_true, if_false, ne_eq, not_true_eq_false, not_false_eq_true,
      exists_eq_left', Option.some.injEq, eq_addr_false, addr_eq_false, top_nil, top_cons,
      Frame.a_L, Frame.a_R, addr_node, addr_leaf, *]
    refine ⟨W.rebuild_le ?_ ?_ ?_ ?_ ?_ ?_ ?_, ?_, ?_, ?_⟩
    · simp only [store_NIL, *]
    · first
        | rfl
        | (simp only [store_root]; rw [W.root]; exact addr_plug_cons _ _ _ _)
    · simp only [RepCtx_L, RepCtx_R, RepCtx_nil, RepCtx_store, Rep_store, store_mem,
        not_false_eq_true, addr_node, addr_leaf, top_cons, top_nil, Frame.a_L, Frame.a_R,
        if_true, if_false, and_self, and_true, true_and,
        eq_addr_false, addr_eq_false, *]
    · simp only [Rep_node, Rep_leaf, Rep_store, store_mem,
        not_false_eq_true, addr_node, addr_leaf, top_cons, top_nil, Frame.a_L, Frame.a_R,
        if_true, if_false, and_self, and_true, true_and,
        eq_addr_false, addr_eq_false, *]
    · intro a
      simp only [addrs_node, addrs_leaf, List.count_cons, List.count_append,
        List.count_nil]
      omega
    · rfl
    · simp only [store_mem, if_true, if_false, Option.some.injEq, exists_eq_left', *]
    · rfl
    · simp only [RedBlack.parentOf, store_mem, if_true, if_false, Option.map_some', addr_node,
        addr_leaf, top_nil, top_cons, Frame.a_L, Frame.a_R, *]
    · simp only [store_mem, if_false, *]

set_option maxHeartbeats 4000000 in
theorem transplant_left_spec {s : RedBlackTree} {ctx : List Frame} {u : Nat} {cu : Color} {ku : Int}
    {l r : Tree} (W : Whole s (plug ctx (.node u cu ku l r))) :
    ∃ s2, transplant s u (addr l) = some s2 ∧ Spliced s s2 ctx l u := by
  obtain ⟨hc, hr, hnd, hnil⟩ := W.parts
  obtain ⟨n0, hn0, hn0c⟩ := W.sent
  rcases ctx with _ | ⟨_ | _, up⟩ <;> cases l <;>
  ·
    simp only [Rep_node, addr_node, RepCtx_L, RepCtx_R, top_nil, top_cons, Frame.a_L,
      Frame.a_R, addr_leaf] at hr hc
    simp only [List.nodup_cons, List.nodup_append, List.mem_append, not_mem_cons_both, not_or,
      List.cons_append, List.append_assoc, addrs_node, addrs_leaf, ctxAddrs_nil,
      ctxAddrs_cons, List.disjoint_cons_left, Frame.a_L, Frame.a_R, Frame.s_L, Frame.s_R,
      List.disjoint_cons_right, List.disjoint_append_left, List.disjoint_append_right]
      at hnd
    casesm* _ ∧ _
    simp only [transplant, parentOf, leftOf, setLeft, setRight, setParent, store_mem,
      store_NIL, store_root, store_next, Option.map_some', Option.bind_eq_bind,
      Option.some_bind, if_true, if_false, ne_eq, not_true_eq_false, not_false_eq_true,
      exists_eq_left', Option.some.injEq, eq_addr_false, addr_eq_false, top_nil, top_cons,
      Frame.a_L, Frame.a_R, addr_node, addr_leaf, *]
    refine ⟨W.rebuild_le ?_ ?_ ?_ ?_ ?_ ?_ ?_, ?_, ?_, ?_⟩
    · simp only [store_NIL, *]
    · first
        | rfl
        | (simp only [store_root]; rw [W.root]; exact addr_plug_cons _ _ _ _)
    · simp only [RepCtx_L, RepCtx_R, RepCtx_nil, RepCtx_store, Rep_store, store_mem,
        not_false_eq_true, addr_node, addr_leaf, top_cons, top_nil, Frame.a_L, Frame.a_R,
        if_true, if_false, and_self, and_true, true_and,
        eq_addr_false, addr_eq_false, *]
    · simp only [Rep_node, Rep_leaf, Rep_store, store_mem,
        not_false_eq_true, addr_node, addr_leaf, top_cons, top_nil, Frame.a_L, Frame.a_R,
        if_true, if_false, and_self, and_true, true_and,
        eq_addr_false, addr_eq_false, *]
    · intro a
      simp only [addrs_node, addrs_leaf, List.count_cons, List.count_append,
        List.count_nil]
      omega
    · rfl
    · simp only [store_mem, if_true, if_false, Option.some.injEq, exists_eq_left', *]
    · rfl
    · simp only [RedBlack.parentOf, store_mem, if_true, if_false, Option.map_some', addr_node,
        addr_leaf, top_nil, top_cons, Frame.a_L, Frame.a_R, *]
    · simp only [store_mem, if_false, *]

set_option maxHeartbeats 4000000 in
/-- The successor `y` of `z` is the right child of `z`: the statements `x->parent = y`
and those that put `y` in the place of `z`. -/
theorem successor_near_spec {s : RedBlackTree} {ctx : List Frame} {z y l : Nat}
    {cz cy cl : Color} {kz ky kl : Int} {ll lr ry : Tree}
    (W : Whole s (plug ctx
      (.node z cz kz (.node l cl kl ll lr) (.node y cy ky .leaf ry)))) :
    ∃ s2, ((setParent s (addr ry) y).bind fun t => replaceBySuccessor t z y) = some s2 ∧
      Spliced s s2 (.R y cz ky (.node l cl kl ll lr) :: ctx) ry z := by
  obtain ⟨hc, hr, hnd, hnil⟩ := W.parts
  obtain ⟨n0, hn0, hn0c⟩ := W.sent
  rcases ctx with _ | ⟨_ | _, up⟩ <;> cases ry <;>
  ·
    simp only [Rep_node, addr_node, RepCtx_L, RepCtx_R, top_nil, top_cons, Frame.a_L,
      Frame.a_R, addr_leaf] at hr hc
    simp only [List.nodup_cons, List.nodup_append, List.mem_append, not_mem_cons_both, not_or,
      List.cons_append, List.append_assoc, addrs_node, addrs_leaf, ctxAddrs_nil,
      ctxAddrs_cons, List.disjoint_cons_left, Frame.a_L, Frame.a_R, Frame.s_L, Frame.s_R,
      List.disjoint_cons_right, List.disjoint_append_left, List.disjoint_append_right]
      at hnd
    casesm* _ ∧ _
    simp only [replaceBySuccessor, transplant, parentOf, leftOf, colorOf, setLeft, setRight, setParent, setColor, store_mem,
      store_NIL, store_root, store_next, Option.map_some', Option.bind_eq_bind,
      Option.some_bind, if_true, if_false, ne_eq, not_true_eq_false, not_false_eq_true,
      exists_eq_left', Option.some.injEq, eq_addr_false, addr_eq_false, top_nil, top_cons,
      Frame.a_L, Frame.a_R, addr_node, addr_leaf, *]
    refine ⟨(W.rebuild_le ?_ ?_ ?_ ?_ ?_ ?_ ?_ :
      Whole _ (plug _ (.node y cz ky (.node l cl kl ll lr) _))), ?_, ?_, ?_⟩
    · simp only [store_NIL, *]
    · first
        | rfl
        | (simp only [store_root]; rw [W.root]; exact addr_plug_cons _ _ _ _)
    · simp only [RepCtx_L, RepCtx_R, RepCtx_nil, RepCtx_store, Rep_store, store_mem,
        not_false_eq_true, addr_node, addr_leaf, top_cons, top_nil, Frame.a_L, Frame.a_R,
        if_true, if_false, and_self, and_true, true_and,
        eq_addr_false, addr_eq_false, *]
    · simp only [Rep_node, Rep_leaf, Rep_store, store_mem,
        not_false_eq_true, addr_node, addr_leaf, top_cons, top_nil, Frame.a_L, Frame.a_R,
        if_true, if_false, and_self, and_true, true_and,
        eq_addr_false, addr_eq_false, *]
    · intro a
      simp only [addrs_node, addrs_leaf, List.count_cons, List.count_append,
        List.count_nil]
      omega
    · rfl
    · simp only [store_mem, if_true, if_false, Option.some.injEq, exists_eq_left', *]
    · rfl
    · simp only [RedBlack.parentOf, store_mem, if_true, if_false, Option.map_some', addr_node,
        addr_leaf, top_nil, top_cons, Frame.a_L, Frame.a_R, *]
    · simp only [store_mem, if_false, *]

theorem nodup_swap_head {y z : Nat} {l c : List Nat} (h : ((z :: l) ++ c).Nodup)
    (hy : ¬ (y ∈ z :: l ∨ y ∈ c)) : ((y :: l) ++ c).Nodup := by
  simp only [List.cons_append, List.nodup_cons, List.mem_append, List.mem_cons, not_or] at *
  exact ⟨⟨hy.1.2, hy.2⟩, h.2⟩

set_option maxHeartbeats 4000000 in
/-- The successor `y` of `z`, already taken out of the right subtree of `z`, is put in
the place of `z`. -/
theorem successor_far_spec {s : RedBlackTree} {ctx : List Frame} {z y l r : Nat}
    {cz cl cr : Color} {kz kl kr : Int} {ll lr rl rr : Tree} {ny : Node}
    (W : Whole s (plug ctx
      (.node z cz kz (.node l cl kl ll lr) (.node r cr kr rl rr))))
    (hy : s.mem y = some ny)
    (hfresh : y ∉ addrs (plug ctx
      (.node z cz kz (.node l cl kl ll lr) (.node r cr kr rl rr))))
    (hy2 : 2 ≤ y ∧ y < s.next) :
    ∃ s2, ((moveRightSubtree s z y).bind fun t => replaceBySuccessor t z y) = some s2 ∧
      Step s s2 (plug ctx
        (.node y cz ny.key (.node l cl kl ll lr) (.node r cr kr rl rr))) ∧
      s2.mem z = s.mem z := by
  obtain ⟨hc, hr, hnd, hnil⟩ := W.parts
  have hs := W.sent
  have h2 := W.two
  rw [mem_addrs_plug] at hfresh
  have hy1 : ¬ y = 1 ∧ ¬ 1 = y := by omega
  have hnd2 : (addrs (.node y cz ny.key (.node l cl kl ll lr) (.node r cr kr rl rr)) ++
      ctxAddrs ctx).Nodup := by
    exact nodup_swap_head (List.nodup_cons.1 hnd).2 hfresh
  have hlo2 : ∀ a ∈ addrs (.node y cz ny.key (.node l cl kl ll lr) (.node r cr kr rl rr)) ++
      ctxAddrs ctx, 2 ≤ a ∧ a < s.next := by
    intro a ha
    simp only [addrs_node, List.cons_append, List.mem_cons] at ha
    rcases ha with rfl | ha
    · exact hy2
    · exact W.lo a (mem_addrs_plug.2 (by
        simp only [addrs_node, List.cons_append, List.mem_cons, List.mem_append] at ha ⊢
        tauto))
  rcases ctx with _ | ⟨_ | _, up⟩ <;>
  · simp only [addrs_node, List.mem_append, not_or, List.not_mem_nil,
      not_false_eq_true, true_and, ctxAddrs_nil, ctxAddrs_cons, not_mem_cons_both,
      Frame.a_L, Frame.a_R, Frame.s_L, Frame.s_R] at hfresh
    simp only [Rep_node, addr_node, RepCtx_L, RepCtx_R, top_nil, top_cons, Frame.a_L,
      Frame.a_R, addr_leaf] at hr hc
    simp only [List.nodup_cons, List.nodup_append, List.mem_append, not_mem_cons_both, not_or,
      List.cons_append, List.append_assoc, addrs_node, addrs_leaf, ctxAddrs_nil,
      ctxAddrs_cons, List.disjoint_cons_left, Frame.a_L, Frame.a_R, Frame.s_L, Frame.s_R,
      List.disjoint_cons_right, List.disjoint_append_left, List.disjoint_append_right]
      at hnd
    casesm* _ ∧ _
    simp only [moveRightSubtree, replaceBySuccessor, transplant, parentOf, leftOf, rightOf, colorOf, setLeft, setRight, setParent, setColor, store_mem,
      store_NIL, store_root, store_next, Option.map_some', Option.bind_eq_bind,
      Option.some_bind, if_true, if_false, ne_eq, not_true_eq_false, not_false_eq_true,
      exists_eq_left', Option.some.injEq, eq_addr_false, addr_eq_false, top_nil, top_cons,
      Frame.a_L, Frame.a_R, addr_node, addr_leaf, *]
    refine ⟨⟨Whole.build ?_ ?_ ?_ ?_ hnd2 hlo2 ?_ ?_, ?_, ?_⟩, ?_⟩
    · simp only [store_NIL, *]
    · first
        | rfl
        | (simp only [store_root]; rw [W.root]; exact addr_plug_cons _ _ _ _)
    · simp only [RepCtx_L, RepCtx_R, RepCtx_nil, RepCtx_store, Rep_store, store_mem,
        not_false_eq_true, addr_node, addr_leaf, top_cons, top_nil, Frame.a_L, Frame.a_R,
        if_true, if_false, and_self, and_true, true_and,
        eq_addr_false, addr_eq_false, *]
    · simp only [Rep_node, Rep_leaf, Rep_store, store_mem,
        not_false_eq_true, addr_node, addr_leaf, top_cons, top_nil, Frame.a_L, Frame.a_R,
        if_true, if_false, and_self, and_true, true_and,
        eq_addr_false, addr_eq_false, *]
    · simp only [store_mem, if_false, *]
    · exact h2
    · simp only [store_mem, if_false, *]
    · rfl
    · simp only [store_mem, if_false, *]

/-- The call `free(z)` for a node outside the tree. -/
theorem release_spec {s : RedBlackTree} {T : Tree} {z : Nat} (W : Whole s T)
    (hz : z ∉ addrs T) (hz1 : z ≠ 1) :
    Whole (release s z) T ∧ (release s z).mem 1 = s.mem 1 := by
  have h1 : ¬ (1 = z) := fun e => hz1 e.symm
  refine ⟨⟨W.nil, W.root, ?_, W.nodup, W.lo, ?_, W.two⟩, ?_⟩
  · exact W.rep.congr_mem (fun a ha => by
      have : a ≠ z := fun e => hz (e ▸ ha)
      simp only [release_mem, this, if_false])
  · simp only [release_mem, h1, if_false]
    exact W.sent
  · simp only [release_mem, h1, if_false]

theorem Step.trans {s s1 s2 : RedBlackTree} {T1 T2 : Tree} (h1 : Step s s1 T1)
    (h2 : Step s1 s2 T2) : Step s s2 T2 :=
  ⟨h2.whole, h2.sent.trans h1.sent, h2.next.trans h1.next⟩

theorem Step.refl {s : RedBlackTree} {T : Tree} (W : Whole s T) : Step s s T :=
  ⟨W, rfl, rfl⟩

@[simp]
theorem Frame.paint_a (f : Frame) (c : Color) : (f.paint c).a = f.a := by
  cases f <;> rfl

@[simp]
theorem Frame.paint_c (f : Frame) (c : Color) : (f.paint c).c = c := by
  cases f <;> rfl

@[simp]
theorem Frame.paint_s (f : Frame) (c : Color) : (f.paint c).s = f.s := by
  cases f <;> rfl

@[simp]
theorem Frame.withS_a (f : Frame) (t : Tree) : (f.withS t).a = f.a := by
  cases f <;> rfl

@[simp]
theorem Frame.withS_c (f : Frame) (t : Tree) : (f.withS t).c = f.c := by
  cases f <;> rfl

@[simp]
theorem Frame.withS_s (f : Frame) (t : Tree) : (f.withS t).s = t := by
  cases f <;> rfl

@[simp]
theorem rootColor_leaf : rootColor .leaf = .BLACK := rfl

@[simp]
theorem rootColor_node (a : Nat) (c : Color) (k : Int) (l r : Tree) :
    rootColor (.node a c k l r) = c := rfl

@[simp]
theorem rootColor_plugF (f : Frame) (t : Tree) : rootColor (plugF f t) = f.c := by
  cases f <;> rfl

@[simp]
theorem paint_leaf (c : Color) : paint .leaf c = .leaf := rfl

@[simp]
theorem paint_node (a : Nat) (c c2 : Color) (k : Int) (l r : Tree) :
    paint (.node a c k l r) c2 = .node a c2 k l r := rfl

@[simp]
theorem addr_paint (t : Tree) (c : Color) : addr (paint t c) = addr t := by
  cases t <;> rfl

@[simp]
theorem addrs_paint (t : Tree) (c : Color) : addrs (paint t c) = addrs t := by
  cases t <;> rfl

@[simp]
theorem inorder_paint (t : Tree) (c : Color) : inorder (paint t c) = inorder t := by
  cases t <;> rfl

theorem paint_plugF (f : Frame) (t : Tree) (c : Color) :
    paint (plugF f t) c = plugF (f.paint c) t := by
  cases f <;> rfl

/-- The parent pointer of the node of a frame. -/
theorem Whole.parentOfF {s : RedBlackTree} {f : Frame} {up : List Frame} {t : Tree}
    (W : Whole s (plug (f :: up) t)) : RedBlack.parentOf s f.a = some (top up) := by
  cases f with
  | L a c k sb => exact Whole.parentOf up (a := a) (c := c) (k := k) (l := t) (r := sb) W
  | R a c k sb => exact Whole.parentOf up (a := a) (c := c) (k := k) (l := sb) (r := t) W

/-- The colour of the node of a frame. -/
theorem Whole.colorOfF {s : RedBlackTree} {f : Frame} {up : List Frame} {t : Tree}
    (W : Whole s (plug (f :: up) t)) : RedBlack.colorOf s f.a = some f.c := by
  have := Whole.colorOf up (t := plugF f t) W
  simpa only [addr_plugF, rootColor_plugF] using this

/-- The colour at the root of the other subtree of a frame. -/
theorem Whole.colorOfS {s : RedBlackTree} {f : Frame} {U : List Frame} {t : Tree}
    (W : Whole s (plug (f :: U) t)) : RedBlack.colorOf s (addr f.s) = some (rootColor f.s) := by
  cases f with
  | L a c k sb => exact Whole.colorOf (.R a c k t :: U) (t := sb) W
  | R a c k sb => exact Whole.colorOf (.L a c k t :: U) (t := sb) W

/-- The write of a colour at the node of a frame. -/
theorem setColor_frame {s : RedBlackTree} {f : Frame} {U : List Frame} {t : Tree}
    (W : Whole s (plug (f :: U) t)) (c2 : Color) :
    ∃ s2, setColor s f.a c2 = some s2 ∧ Step s s2 (plug (f.paint c2 :: U) t) := by
  cases f with
  | L a c k sb => exact setColor_spec (C := U) (a := a) (l := t) (r := sb) W c2
  | R a c k sb => exact setColor_spec (C := U) (a := a) (l := sb) (r := t) W c2

/-- The write of a colour at the root of the other subtree of a frame. -/
theorem setColor_sibling {s : RedBlackTree} {f : Frame} {U : List Frame} {t : Tree}
    (W : Whole s (plug (f :: U) t)) (hs : f.s ≠ .leaf) (c2 : Color) :
    ∃ s2, setColor s (addr f.s) c2 = some s2 ∧
      Step s s2 (plug (f.withS (paint f.s c2) :: U) t) := by
  cases f with
  | L a c k sb =>
    cases sb with
    | leaf => exact absurd rfl hs
    | node u cu ku ul ur =>
      exact setColor_spec (C := .R a c k t :: U) (a := u) (l := ul) (r := ur) W c2
  | R a c k sb =>
    cases sb with
    | leaf => exact absurd rfl hs
    | node u cu ku ul ur =>
      exact setColor_spec (C := .L a c k t :: U) (a := u) (l := ul) (r := ur) W c2

/-- The write of a colour at the root of the subtree at the end of a path. -/
theorem setColor_focus {s : RedBlackTree} {C : List Frame} {t : Tree}
    (W : Whole s (plug C t)) (c2 : Color) (h : t = .leaf → c2 = .BLACK) :
    ∃ s2, setColor s (addr t) c2 = some s2 ∧ Step s s2 (plug C (paint t c2)) := by
  cases t with
  | leaf =>
    rw [h rfl]
    exact ⟨s, setColor_sentinel W, Step.refl W⟩
  | node a c k l r => exact setColor_spec W c2

/-- Case 1 of `insertFixup`: the parent and the uncle become BLACK, the grandparent
RED, and `z` moves to the grandparent. -/
theorem insertCase1_spec {s : RedBlackTree} {f g : Frame} {up : List Frame} {z : Nat}
    {kz : Int} {l r : Tree}
    (W : Whole s (plug (f :: g :: up) (.node z .RED kz l r))) (hs : g.s ≠ .leaf) :
    ∃ s2, insertCase1 s z (addr g.s) = some (s2, g.a) ∧
      Step s s2 (plug (f.paint .BLACK :: (g.withS (paint g.s .BLACK)).paint .RED :: up)
        (.node z .RED kz l r)) := by
  have r1 : parentOf s z = some f.a := Whole.parentOf (f :: g :: up) W
  obtain ⟨s1, e1, S1⟩ := setColor_frame W .BLACK
  obtain ⟨s2, e2, S2⟩ := setColor_sibling (f := g) (U := up)
    (t := plugF (f.paint .BLACK) (.node z .RED kz l r)) S1.whole hs .BLACK
  have W2 : Whole s2 (plug (f.paint .BLACK :: g.withS (paint g.s .BLACK) :: up)
    (.node z .RED kz l r)) := S2.whole
  have r2 : parentOf s2 z = some f.a := by
    simpa using Whole.parentOf _ W2
  have r3 : parentOf s2 f.a = some g.a := by
    simpa using W2.parentOfF
  obtain ⟨s3, e3, S3⟩ := setColor_frame (f := g.withS (paint g.s .BLACK)) (U := up)
    (t := plugF (f.paint .BLACK) (.node z .RED kz l r)) S2.whole .RED
  have W3 : Whole s3 (plug (f.paint .BLACK :: (g.withS (paint g.s .BLACK)).paint .RED :: up)
    (.node z .RED kz l r)) := S3.whole
  have r4 : parentOf s3 z = some f.a := by
    simpa using Whole.parentOf _ W3
  have r5 : parentOf s3 f.a = some g.a := by
    simpa using W3.parentOfF
  simp only [Frame.withS_a] at e3
  refine ⟨s3, ?_, (S1.trans S2).trans S3⟩
  simp only [insertCase1, r1, e1, e2, r2, r3, e3, r4, r5, Option.bind_eq_bind,
    Option.some_bind]

/-- The address of a node is not the address of the root of its sibling. -/
theorem Whole.ne_sibling {s : RedBlackTree} {f : Frame} {U : List Frame} {z : Nat}
    {cz : Color} {kz : Int} {l r : Tree}
    (W : Whole s (plug (f :: U) (.node z cz kz l r))) : ¬ z = addr f.s := by
  obtain ⟨-, -, hnd, -⟩ := W.parts
  simp only [List.nodup_cons, List.nodup_append, List.mem_append, not_mem_cons_both, not_or,
    List.cons_append, List.append_assoc, addrs_node, ctxAddrs_cons] at hnd
  intro h
  have h1 : z ∉ addrs f.s := hnd.2.1.2.2.2.1
  have h2 : ¬ z = 1 := hnd.1.1.2
  rw [eq_addr_false h1 h2] at h
  exact h

/-- The address of the node of a frame is not the address of the root of the other
subtree of the frame above. -/
theorem Whole.ne_uncle {s : RedBlackTree} {f g : Frame} {up : List Frame} {t : Tree}
    (W : Whole s (plug (f :: g :: up) t)) : ¬ f.a = addr g.s := by
  cases f with
  | L a c k sb => exact Whole.ne_sibling (f := g) (U := up) (z := a) (l := t) (r := sb) W
  | R a c k sb => exact Whole.ne_sibling (f := g) (U := up) (z := a) (l := sb) (r := t) W

theorem insertCase2Left_rotate {s : RedBlackTree} {up : List Frame} {z P : Nat}
    {pc : Color} {kz pk : Int} {l r sP : Tree}
    (W : Whole s (plug (.R P pc pk sP :: up) (.node z .RED kz l r))) :
    ∃ s2, insertCase2Left s z = some (s2, P) ∧
      Step s s2 (plug (.L z .RED kz r :: up) (.node P pc pk sP l)) := by
  have r1 : parentOf s z = some P := Whole.parentOf (.R P pc pk sP :: up) W
  have r2 : rightOf s P = some z :=
    Whole.rightOf up (a := P) (l := sP) (r := .node z .RED kz l r) W
  obtain ⟨s2, e2, S2⟩ := leftRotate_spec (C := up) (x := P) (α := sP) (y := z) (β := l)
    (γ := r) W
  refine ⟨s2, ?_, S2⟩
  simp only [insertCase2Left, r1, r2, e2, Option.bind_eq_bind, Option.some_bind, if_true,
    Option.map_some']

theorem insertCase2Left_skip {s : RedBlackTree} {up : List Frame} {z P : Nat}
    {pc : Color} {kz pk : Int} {l r sP : Tree}
    (W : Whole s (plug (.L P pc pk sP :: up) (.node z .RED kz l r))) :
    insertCase2Left s z = some (s, z) := by
  have r1 : parentOf s z = some P := Whole.parentOf (.L P pc pk sP :: up) W
  have r2 : rightOf s P = some (addr sP) :=
    Whole.rightOf up (a := P) (l := .node z .RED kz l r) (r := sP) W
  have hne : ¬ z = addr sP := W.ne_sibling
  simp only [insertCase2Left, r1, r2, Option.bind_eq_bind, Option.some_bind, hne, if_false]

theorem insertCase3Left_spec {s : RedBlackTree} {up : List Frame} {z P G : Nat}
    {pc gc : Color} {kz pk gk : Int} {l r sP U : Tree}
    (W : Whole s (plug (.L P pc pk sP :: .L G gc gk U :: up) (.node z .RED kz l r))) :
    ∃ s2, insertCase3Left s z = some (s2, z) ∧
      Step s s2 (plug (.L P .BLACK pk (.node G .RED gk sP U) :: up)
        (.node z .RED kz l r)) := by
  have r1 : parentOf s z = some P := Whole.parentOf (.L P pc pk sP :: .L G gc gk U :: up) W
  obtain ⟨s1, e1, S1⟩ := setColor_frame W .BLACK
  have W1 : Whole s1 (plug (.L P .BLACK pk sP :: .L G gc gk U :: up)
    (.node z .RED kz l r)) := S1.whole
  have r2 : parentOf s1 z = some P := Whole.parentOf _ W1
  have r3 : parentOf s1 P = some G := W1.parentOfF
  obtain ⟨s2, e2, S2⟩ := setColor_frame (f := .L G gc gk U) (U := up)
    (t := .node P .BLACK pk (.node z .RED kz l r) sP) W1 .RED
  have W2 : Whole s2 (plug (.L P .BLACK pk sP :: .L G .RED gk U :: up)
    (.node z .RED kz l r)) := S2.whole
  have r4 : parentOf s2 z = some P := Whole.parentOf _ W2
  have r5 : parentOf s2 P = some G := W2.parentOfF
  obtain ⟨s3, e3, S3⟩ := rightRotate_spec (C := up) (y := G) (x := P)
    (α := .node z .RED kz l r) (β := sP) (γ := U) W2
  refine ⟨s3, ?_, (S1.trans S2).trans S3⟩
  simp only [Frame.a_L] at e1 e2
  simp only [insertCase3Left, r1, e1, r2, r3, e2, r4, r5, e3, Option.bind_eq_bind,
    Option.some_bind]

theorem insertCase2Right_rotate {s : RedBlackTree} {up : List Frame} {z P : Nat}
    {pc : Color} {kz pk : Int} {l r sP : Tree}
    (W : Whole s (plug (.L P pc pk sP :: up) (.node z .RED kz l r))) :
    ∃ s2, insertCase2Right s z = some (s2, P) ∧
      Step s s2 (plug (.R z .RED kz l :: up) (.node P pc pk r sP)) := by
  have r1 : parentOf s z = some P := Whole.parentOf (.L P pc pk sP :: up) W
  have r2 : leftOf s P = some z :=
    Whole.leftOf up (a := P) (l := .node z .RED kz l r) (r := sP) W
  obtain ⟨s2, e2, S2⟩ := rightRotate_spec (C := up) (y := P) (x := z) (α := l) (β := r)
    (γ := sP) W
  refine ⟨s2, ?_, S2⟩
  simp only [insertCase2Right, r1, r2, e2, Option.bind_eq_bind, Option.some_bind, if_true,
    Option.map_some']

theorem insertCase2Right_skip {s : RedBlackTree} {up : List Frame} {z P : Nat}
    {pc : Color} {kz pk : Int} {l r sP : Tree}
    (W : Whole s (plug (.R P pc pk sP :: up) (.node z .RED kz l r))) :
    insertCase2Right s z = some (s, z) := by
  have r1 : parentOf s z = some P := Whole.parentOf (.R P pc pk sP :: up) W
  have r2 : leftOf s P = some (addr sP) :=
    Whole.leftOf up (a := P) (l := sP) (r := .node z .RED kz l r) W
  have hne : ¬ z = addr sP := W.ne_sibling
  simp only [insertCase2Right, r1, r2, Option.bind_eq_bind, Option.some_bind, hne, if_false]

theorem insertCase3Right_spec {s : RedBlackTree} {up : List Frame} {z P G : Nat}
    {pc gc : Color} {kz pk gk : Int} {l r sP U : Tree}
    (W : Whole s (plug (.R P pc pk sP :: .R G gc gk U :: up) (.node z .RED kz l r))) :
    ∃ s2, insertCase3Right s z = some (s2, z) ∧
      Step s s2 (plug (.R P .BLACK pk (.node G .RED gk U sP) :: up)
        (.node z .RED kz l r)) := by
  have r1 : parentOf s z = some P := Whole.parentOf (.R P pc pk sP :: .R G gc gk U :: up) W
  obtain ⟨s1, e1, S1⟩ := setColor_frame W .BLACK
  have W1 : Whole s1 (plug (.R P .BLACK pk sP :: .R G gc gk U :: up)
    (.node z .RED kz l r)) := S1.whole
  have r2 : parentOf s1 z = some P := Whole.parentOf _ W1
  have r3 : parentOf s1 P = some G := W1.parentOfF
  obtain ⟨s2, e2, S2⟩ := setColor_frame (f := .R G gc gk U) (U := up)
    (t := .node P .BLACK pk sP (.node z .RED kz l r)) W1 .RED
  have W2 : Whole s2 (plug (.R P .BLACK pk sP :: .R G .RED gk U :: up)
    (.node z .RED kz l r)) := S2.whole
  have r4 : parentOf s2 z = some P := Whole.parentOf _ W2
  have r5 : parentOf s2 P = some G := W2.parentOfF
  obtain ⟨s3, e3, S3⟩ := leftRotate_spec (C := up) (x := G) (y := P)
    (α := U) (β := sP) (γ := .node z .RED kz l r) W2
  refine ⟨s3, ?_, (S1.trans S2).trans S3⟩
  simp only [Frame.a_R] at e1 e2
  simp only [insertCase3Right, r1, e1, r2, r3, e2, r4, r5, e3, Option.bind_eq_bind,
    Option.some_bind]

@[simp]
theorem bh_leaf : bh .leaf = 0 := rfl

@[simp]
theorem bh_node (a : Nat) (c : Color) (k : Int) (l r : Tree) :
    bh (.node a c k l r) = bh l + (if c = .BLACK then 1 else 0) := rfl

@[simp]
theorem Ok_leaf : Ok .leaf := trivial

theorem Ok_node (a : Nat) (c : Color) (k : Int) (l r : Tree) :
    Ok (.node a c k l r) ↔
      Ok l ∧ Ok r ∧ bh l = bh r ∧ (c = .RED → rootColor l = .BLACK ∧ rootColor r = .BLACK) :=
  Iff.rfl

@[simp]
theorem OkCtx_nil (c : Color) (n : Nat) : OkCtx [] c n := trivial

theorem OkCtx_cons (f : Frame) (up : List Frame) (c : Color) (n : Nat) :
    OkCtx (f :: up) c n ↔
      Ok f.s ∧ bh f.s = n ∧ (f.c = .RED → c = .BLACK ∧ rootColor f.s = .BLACK) ∧
        OkCtx up f.c (n + (if f.c = .BLACK then 1 else 0)) := Iff.rfl

@[simp]
theorem ctxRoot_nil (c : Color) : ctxRoot [] c = c := rfl

@[simp]
theorem ctxRoot_cons (f : Frame) (up : List Frame) (c : Color) :
    ctxRoot (f :: up) c = ctxRoot up f.c := rfl

theorem Color.ne_red {c : Color} : ¬ c = .RED ↔ c = .BLACK := by
  cases c <;> simp

theorem Color.ne_black {c : Color} : ¬ c = .BLACK ↔ c = .RED := by
  cases c <;> simp

theorem Ok_plugF (f : Frame) (t : Tree) :
    Ok (plugF f t) ↔
      Ok t ∧ Ok f.s ∧ bh f.s = bh t ∧
        (f.c = .RED → rootColor t = .BLACK ∧ rootColor f.s = .BLACK) := by
  cases f with
  | L a c k sb =>
    simp only [plugF_L, Ok_node, Frame.s_L, Frame.c_L]
    constructor
    · rintro ⟨h1, h2, h3, h4⟩; exact ⟨h1, h2, h3.symm, h4⟩
    · rintro ⟨h1, h2, h3, h4⟩; exact ⟨h1, h2, h3.symm, h4⟩
  | R a c k sb =>
    simp only [plugF_R, Ok_node, Frame.s_R, Frame.c_R]
    constructor
    · rintro ⟨h1, h2, h3, h4⟩; exact ⟨h2, h1, h3, fun h => ⟨(h4 h).2, (h4 h).1⟩⟩
    · rintro ⟨h1, h2, h3, h4⟩; exact ⟨h2, h1, h3, fun h => ⟨(h4 h).2, (h4 h).1⟩⟩

theorem bh_plugF (f : Frame) (t : Tree) (h : bh f.s = bh t) :
    bh (plugF f t) = bh t + (if f.c = .BLACK then 1 else 0) := by
  cases f with
  | L a c k sb => rfl
  | R a c k sb =>
    simp only [Frame.s_R] at h
    simp only [plugF_R, bh_node, Frame.c_R, h]

/-- The whole tree is in order exactly when the subtree at the end of a path is and the
path accepts it. -/
theorem Ok_plug (ctx : List Frame) (t : Tree) :
    Ok (plug ctx t) ↔ Ok t ∧ OkCtx ctx (rootColor t) (bh t) := by
  induction ctx generalizing t with
  | nil => simp
  | cons f up ih =>
    rw [plug_cons, ih, Ok_plugF, OkCtx_cons, rootColor_plugF]
    constructor
    · rintro ⟨⟨h1, h2, h3, h4⟩, h5⟩
      rw [bh_plugF f t h3] at h5
      exact ⟨h1, h2, h3, fun h => h4 h, h5⟩
    · rintro ⟨h1, h2, h3, h4, h5⟩
      rw [bh_plugF f t h3]
      exact ⟨⟨h1, h2, h3, h4⟩, h5⟩

theorem rootColor_plug (ctx : List Frame) (t : Tree) :
    rootColor (plug ctx t) = ctxRoot ctx (rootColor t) := by
  induction ctx generalizing t with
  | nil => rfl
  | cons f up ih => rw [plug_cons, ih, rootColor_plugF, ctxRoot_cons]

/-- A path that accepts a subtree accepts any subtree with a BLACK root and as many
BLACK nodes. -/
theorem OkCtx.black {ctx : List Frame} {c : Color} {n : Nat} (h : OkCtx ctx c n) :
    OkCtx ctx .BLACK n := by
  cases ctx with
  | nil => trivial
  | cons f up =>
    rw [OkCtx_cons] at h ⊢
    exact ⟨h.1, h.2.1, fun hc => ⟨rfl, (h.2.2.1 hc).2⟩, h.2.2.2⟩

/-- A path that accepts a BLACK root below a BLACK node accepts any root. -/
theorem OkCtx.any {f : Frame} {up : List Frame} {c : Color} {n : Nat}
    (h : OkCtx (f :: up) .BLACK n) (hf : f.c = .BLACK) : OkCtx (f :: up) c n := by
  rw [OkCtx_cons] at h ⊢
  exact ⟨h.1, h.2.1, (fun hc => by rw [hf] at hc; cases hc), h.2.2.2⟩

theorem Ok.paint {t : Tree} (h : Ok t) : Ok (paint t .BLACK) := by
  cases t with
  | leaf => trivial
  | node a c k l r =>
    rw [paint_node, Ok_node]
    rw [Ok_node] at h
    exact ⟨h.1, h.2.1, h.2.2.1, fun hc => by cases hc⟩

theorem bh_paint_black (t : Tree) (h : rootColor t = .BLACK) : bh (paint t .BLACK) = bh t := by
  cases t with
  | leaf => rfl
  | node a c k l r =>
    simp only [rootColor_node] at h
    subst h
    rfl

theorem rootColor_paint (t : Tree) (c : Color) (h : t ≠ .leaf) : rootColor (paint t c) = c := by
  cases t with
  | leaf => exact absurd rfl h
  | node a c k l r => rfl

theorem paint_same (t : Tree) : paint t (rootColor t) = t := by
  cases t <;> rfl

theorem ne_leaf_of_red {t : Tree} (h : rootColor t = .RED) : t ≠ .leaf := by
  rintro rfl
  cases h

theorem ne_leaf_of_bh {t : Tree} (h : 0 < bh t) : t ≠ .leaf := by
  rintro rfl
  simp at h

/-- The colour the program reads through the sentinel. -/
theorem Whole.sentinel_color {s : RedBlackTree} {T : Tree} (W : Whole s T) :
    RedBlack.colorOf s 1 = some .BLACK := by
  obtain ⟨n, h1, h2⟩ := W.sent
  simp only [RedBlack.colorOf, h1, Option.map_some', h2]

/-- The write `tree->root->color = BLACK`. -/
theorem setColor_root {s : RedBlackTree} {T : Tree} (W : Whole s T) :
    ∃ s2, setColor s s.root .BLACK = some s2 ∧ Step s s2 (paint T .BLACK) := by
  rw [W.root]
  exact setColor_focus (C := []) W .BLACK (fun _ => rfl)

theorem keysBefore_paint (f : Frame) (c : Color) (up : List Frame) :
    keysBefore (f.paint c :: up) = keysBefore (f :: up) := by
  cases f <;> rfl

theorem keysAfter_paint (f : Frame) (c : Color) (up : List Frame) :
    keysAfter (f.paint c :: up) = keysAfter (f :: up) := by
  cases f <;> rfl

theorem inorder_plugF_paint (f : Frame) (c : Color) (t : Tree) :
    inorder (plugF (f.paint c) t) = inorder (plugF f t) := by
  cases f <;> rfl

theorem inorder_plugF_withS (f : Frame) (u t : Tree) (h : inorder u = inorder f.s) :
    inorder (plugF (f.withS u) t) = inorder (plugF f t) := by
  cases f with
  | L a c k sb =>
    simp only [Frame.s_L] at h
    simp only [Frame.withS, plugF_L, inorder, h]
  | R a c k sb =>
    simp only [Frame.s_R] at h
    simp only [Frame.withS, plugF_R, inorder, h]

theorem inorder_plug_congr (ctx : List Frame) {t u : Tree} (h : inorder t = inorder u) :
    inorder (plug ctx t) = inorder (plug ctx u) := by
  rw [inorder_plug, inorder_plug, h]

theorem InsInv.node_ok {ctx : List Frame} {l r : Tree} {m : Nat} (h : InsInv ctx l r m)
    (z : Nat) (kz : Int) :
    Ok (.node z .RED kz l r) ∧ bh (.node z .RED kz l r) = m := by
  refine ⟨(Ok_node _ _ _ _ _).2 ⟨h.okl, h.okr, h.bhl.trans h.bhr.symm, fun _ => ⟨h.cl, h.cr⟩⟩, ?_⟩
  simp [h.bhl]

/-- The end of `insertFixup`: the root becomes BLACK. -/
theorem finish_root {s : RedBlackTree} {T : Tree} (W : Whole s T) (hok : Ok T) :
    ∃ s2 T2, setColor s s.root .BLACK = some s2 ∧ Whole s2 T2 ∧ s2.next = s.next ∧ Ok T2 ∧
      rootColor T2 = .BLACK ∧ inorder T2 = inorder T := by
  obtain ⟨s2, e, S⟩ := setColor_root W
  refine ⟨s2, paint T .BLACK, e, S.whole, S.next, hok.paint, ?_, inorder_paint _ _⟩
  cases T <;> rfl

theorem insertFixupTest_nil {s : RedBlackTree} {z : Nat} {kz : Int} {l r : Tree}
    (W : Whole s (plug [] (.node z .RED kz l r))) : insertFixupTest s z = some false := by
  have r1 : parentOf s z = some 1 := Whole.parentOf [] W
  simp only [insertFixupTest, r1, W.sentinel_color, Option.bind_eq_bind, Option.some_bind,
    decide_eq_false_iff_not, Option.some.injEq]
  simp

theorem insertFixupTest_cons {s : RedBlackTree} {f : Frame} {up : List Frame} {z : Nat}
    {kz : Int} {l r : Tree}
    (W : Whole s (plug (f :: up) (.node z .RED kz l r))) :
    insertFixupTest s z = some (decide (f.c = .RED)) := by
  have r1 : parentOf s z = some f.a := Whole.parentOf (f :: up) W
  simp only [insertFixupTest, r1, W.colorOfF, Option.bind_eq_bind, Option.some_bind]

theorem inorder_case1 (f g : Frame) (up : List Frame) (t : Tree) (c1 c2 c3 : Color) :
    inorder (plug (f.paint c1 :: (g.withS (paint g.s c2)).paint c3 :: up) t) =
      inorder (plug (f :: g :: up) t) := by
  simp only [plug_cons]
  apply inorder_plug_congr
  rw [inorder_plugF_paint, inorder_plugF_withS _ _ _ (inorder_paint _ _)]
  cases g <;> simp only [plugF_L, plugF_R, inorder, inorder_plugF_paint]


theorem insertFixupBody_Left_reads {s : RedBlackTree} {f : Frame} {up : List Frame}
    {z G : Nat} {gc : Color} {kz gk : Int} {l r U : Tree}
    (W : Whole s (plug (f :: .L G gc gk U :: up) (.node z .RED kz l r))) :
    insertFixupBody s z = insertFixupLeft s z ∧ parentOf s z = some f.a ∧
      parentOf s f.a = some G ∧ rightOf s G = some (addr U) ∧
      colorOf s (addr U) = some (rootColor U) := by
  have r1 : parentOf s z = some f.a := Whole.parentOf (f :: .L G gc gk U :: up) W
  have r2 : parentOf s f.a = some G := W.parentOfF
  have W1 : Whole s (plug up (.node G gc gk (plugF f (.node z .RED kz l r)) U)) := W
  have r3 : leftOf s G = some f.a := by
    have := Whole.leftOf up W1
    simpa only [addr_plugF] using this
  have r4 : rightOf s G = some (addr U) := Whole.rightOf up W1
  have r5 : colorOf s (addr U) = some (rootColor U) :=
    Whole.colorOfS (f := .L G gc gk U) (U := up) (t := plugF f (.node z .RED kz l r)) W
  refine ⟨?_, r1, r2, r4, r5⟩
  simp only [insertFixupBody, r1, r2, r3, Option.bind_eq_bind, Option.some_bind, if_true]

theorem insertFixupBody_Left_case1 {s : RedBlackTree} {f : Frame} {up : List Frame}
    {z G : Nat} {gc : Color} {kz gk : Int} {l r U : Tree}
    (W : Whole s (plug (f :: .L G gc gk U :: up) (.node z .RED kz l r)))
    (hU : rootColor U = .RED) :
    ∃ s2, insertFixupBody s z = some (s2, G) ∧
      Step s s2 (plug (f.paint .BLACK :: .L G .RED gk (paint U .BLACK) :: up)
        (.node z .RED kz l r)) := by
  obtain ⟨e0, r1, r2, r4, r5⟩ := insertFixupBody_Left_reads W
  obtain ⟨s2, e, S⟩ := insertCase1_spec (g := .L G gc gk U) W (ne_leaf_of_red hU)
  refine ⟨s2, ?_, S⟩
  simp only [Frame.s_L, Frame.a_L] at e
  simp only [e0, insertFixupLeft, r1, r2, r4, r5, hU, e, Option.bind_eq_bind,
    Option.some_bind, if_true]

theorem insertFixupBody_Left_case2 {s : RedBlackTree} {up : List Frame}
    {z P G : Nat} {gc : Color} {kz pk gk : Int} {l r sP U : Tree}
    (W : Whole s (plug (.R P .RED pk sP :: .L G gc gk U :: up) (.node z .RED kz l r)))
    (hU : rootColor U = .BLACK) :
    ∃ s2, insertFixupBody s z = some (s2, P) ∧
      Step s s2 (plug (.L z .BLACK kz (.node G .RED gk r U) :: up)
        (.node P .RED pk sP l)) := by
  obtain ⟨e0, r1, r2, r4, r5⟩ := insertFixupBody_Left_reads W
  obtain ⟨s1, e1, S1⟩ := insertCase2Left_rotate W
  obtain ⟨s2, e2, S2⟩ := insertCase3Left_spec S1.whole
  refine ⟨s2, ?_, S1.trans S2⟩
  simp only [e0, insertFixupLeft, r1, r2, r4, r5, hU, e1, e2, Option.bind_eq_bind,
    Option.some_bind, if_false, reduceCtorEq]

theorem insertFixupBody_Left_case3 {s : RedBlackTree} {up : List Frame}
    {z P G : Nat} {pc gc : Color} {kz pk gk : Int} {l r sP U : Tree}
    (W : Whole s (plug (.L P pc pk sP :: .L G gc gk U :: up) (.node z .RED kz l r)))
    (hU : rootColor U = .BLACK) :
    ∃ s2, insertFixupBody s z = some (s2, z) ∧
      Step s s2 (plug (.L P .BLACK pk (.node G .RED gk sP U) :: up)
        (.node z .RED kz l r)) := by
  obtain ⟨e0, r1, r2, r4, r5⟩ := insertFixupBody_Left_reads W
  have e1 := insertCase2Left_skip W
  obtain ⟨s2, e2, S2⟩ := insertCase3Left_spec W
  refine ⟨s2, ?_, S2⟩
  simp only [e0, insertFixupLeft, r1, r2, r4, r5, hU, e1, e2, Option.bind_eq_bind,
    Option.some_bind, if_false, reduceCtorEq]

theorem insertFixupBody_Right_reads {s : RedBlackTree} {f : Frame} {up : List Frame}
    {z G : Nat} {gc : Color} {kz gk : Int} {l r U : Tree}
    (W : Whole s (plug (f :: .R G gc gk U :: up) (.node z .RED kz l r))) :
    insertFixupBody s z = insertFixupRight s z ∧ parentOf s z = some f.a ∧
      parentOf s f.a = some G ∧ leftOf s G = some (addr U) ∧
      colorOf s (addr U) = some (rootColor U) := by
  have r1 : parentOf s z = some f.a := Whole.parentOf (f :: .R G gc gk U :: up) W
  have r2 : parentOf s f.a = some G := W.parentOfF
  have W1 : Whole s (plug up (.node G gc gk U (plugF f (.node z .RED kz l r)))) := W
  have r3 : leftOf s G = some (addr U) := by
    have := Whole.leftOf up W1
    simpa only [addr_plugF] using this
  have r4 : leftOf s G = some (addr U) := r3
  have r5 : colorOf s (addr U) = some (rootColor U) :=
    Whole.colorOfS (f := .R G gc gk U) (U := up) (t := plugF f (.node z .RED kz l r)) W
  refine ⟨?_, r1, r2, r4, r5⟩
  have hne : ¬ f.a = addr U := W.ne_uncle
  simp only [insertFixupBody, r1, r2, r3, Option.bind_eq_bind, Option.some_bind, hne, if_false]

theorem insertFixupBody_Right_case1 {s : RedBlackTree} {f : Frame} {up : List Frame}
    {z G : Nat} {gc : Color} {kz gk : Int} {l r U : Tree}
    (W : Whole s (plug (f :: .R G gc gk U :: up) (.node z .RED kz l r)))
    (hU : rootColor U = .RED) :
    ∃ s2, insertFixupBody s z = some (s2, G) ∧
      Step s s2 (plug (f.paint .BLACK :: .R G .RED gk (paint U .BLACK) :: up)
        (.node z .RED kz l r)) := by
  obtain ⟨e0, r1, r2, r4, r5⟩ := insertFixupBody_Right_reads W
  obtain ⟨s2, e, S⟩ := insertCase1_spec (g := .R G gc gk U) W (ne_leaf_of_red hU)
  refine ⟨s2, ?_, S⟩
  simp only [Frame.s_R, Frame.a_R] at e
  simp only [e0, insertFixupRight, r1, r2, r4, r5, hU, e, Option.bind_eq_bind,
    Option.some_bind, if_true]

theorem insertFixupBody_Right_case2 {s : RedBlackTree} {up : List Frame}
    {z P G : Nat} {gc : Color} {kz pk gk : Int} {l r sP U : Tree}
    (W : Whole s (plug (.L P .RED pk sP :: .R G gc gk U :: up) (.node z .RED kz l r)))
    (hU : rootColor U = .BLACK) :
    ∃ s2, insertFixupBody s z = some (s2, P) ∧
      Step s s2 (plug (.R z .BLACK kz (.node G .RED gk U l) :: up)
        (.node P .RED pk r sP)) := by
  obtain ⟨e0, r1, r2, r4, r5⟩ := insertFixupBody_Right_reads W
  obtain ⟨s1, e1, S1⟩ := insertCase2Right_rotate W
  obtain ⟨s2, e2, S2⟩ := insertCase3Right_spec S1.whole
  refine ⟨s2, ?_, S1.trans S2⟩
  simp only [e0, insertFixupRight, r1, r2, r4, r5, hU, e1, e2, Option.bind_eq_bind,
    Option.some_bind, if_false, reduceCtorEq]

theorem insertFixupBody_Right_case3 {s : RedBlackTree} {up : List Frame}
    {z P G : Nat} {pc gc : Color} {kz pk gk : Int} {l r sP U : Tree}
    (W : Whole s (plug (.R P pc pk sP :: .R G gc gk U :: up) (.node z .RED kz l r)))
    (hU : rootColor U = .BLACK) :
    ∃ s2, insertFixupBody s z = some (s2, z) ∧
      Step s s2 (plug (.R P .BLACK pk (.node G .RED gk U sP) :: up)
        (.node z .RED kz l r)) := by
  obtain ⟨e0, r1, r2, r4, r5⟩ := insertFixupBody_Right_reads W
  have e1 := insertCase2Right_skip W
  obtain ⟨s2, e2, S2⟩ := insertCase3Right_spec W
  refine ⟨s2, ?_, S2⟩
  simp only [e0, insertFixupRight, r1, r2, r4, r5, hU, e1, e2, Option.bind_eq_bind,
    Option.some_bind, if_false, reduceCtorEq]

theorem insertFixupLoop_spec : ∀ (n : Nat) (ctx : List Frame), ctx.length = n →
    ∀ (s : RedBlackTree) (z : Nat) (kz : Int) (l r : Tree) (m fuel : Nat),
    Whole s (plug ctx (.node z .RED kz l r)) → InsInv ctx l r m → ctx.length < fuel →
    ∃ s2 T2, insertFixupLoop fuel s z = some s2 ∧ Whole s2 T2 ∧ s2.next = s.next ∧ Ok T2 ∧
      rootColor T2 = .BLACK ∧ inorder T2 = inorder (plug ctx (.node z .RED kz l r)) := by
  intro n
  induction n using Nat.strong_induction_on with
  | _ n ih =>
  intro ctx hn s z kz l r m fuel W I hfuel
  obtain ⟨fuel, rfl⟩ : ∃ k, fuel = k + 1 := ⟨fuel - 1, by omega⟩
  obtain ⟨hokt, hbht⟩ := I.node_ok z kz
  rcases ctx with _ | ⟨f, up⟩
  · obtain ⟨s2, T2, e, h⟩ := finish_root W hokt
    refine ⟨s2, T2, ?_, h⟩
    simp only [insertFixupLoop, insertFixupTest_nil W, Option.bind_eq_bind, Option.some_bind,
      Bool.false_eq_true, if_false, e]
  · by_cases hf : f.c = .RED
    · rcases up with _ | ⟨g, up⟩
      · exfalso
        have := I.root
        simp only [ctxRoot_cons, ctxRoot_nil, hf] at this
        cases this
      · have hp := I.path
        rw [OkCtx_cons, OkCtx_cons] at hp
        obtain ⟨hfs, hfsb, hfc, hgs, hgsb, hgc, hup⟩ := hp
        have hfsc : rootColor f.s = .BLACK := (hfc hf).2
        have hgB : g.c = .BLACK := by
          apply Color.ne_red.1
          intro h
          have := (hgc h).1
          rw [hf] at this
          cases this
        simp only [hf, hgB, if_true, if_false, reduceCtorEq, Nat.add_zero] at hgsb hup
        have hroot : ctxRoot up .BLACK = .BLACK := by
          have := I.root
          simpa only [ctxRoot_cons, hgB] using this
        simp only [List.length_cons] at hn hfuel
        cases g with
        | L G gc gk U =>
          simp only [Frame.c_L] at hgB
          simp only [Frame.s_L] at hgs hgsb
          subst hgB
          by_cases hU : rootColor U = .RED
          · obtain ⟨s1, e1, S1⟩ := insertFixupBody_Left_case1 W hU
            have W1 : Whole s1 (plug up (.node G .RED gk
              (plugF (f.paint .BLACK) (.node z .RED kz l r)) (paint U .BLACK))) := S1.whole
            have hb1 : bh (plugF (f.paint .BLACK) (.node z .RED kz l r)) = m + 1 := by
              rw [bh_plugF _ _ (by rw [Frame.paint_s, hfsb, hbht]), hbht]
              simp
            have I1 : InsInv up (plugF (f.paint .BLACK) (.node z .RED kz l r))
                (paint U .BLACK) (m + 1) := by
              refine ⟨?_, hgs.paint, hb1, ?_, by simp, ?_, hup, hroot⟩
              · rw [Ok_plugF]
                refine ⟨hokt, by simpa using hfs, by rw [Frame.paint_s, hfsb, hbht], ?_⟩
                intro h
                simp at h
              · have hUn := ne_leaf_of_red hU
                cases U with
                | leaf => exact absurd rfl hUn
                | node u cu ku ul ur =>
                  simp only [rootColor_node] at hU
                  subst hU
                  simp only [paint_node, bh_node, if_true, reduceCtorEq, if_false,
                    Nat.add_zero] at hgsb ⊢
                  omega
              · exact rootColor_paint _ _ (ne_leaf_of_red hU)
            obtain ⟨s2, T2, e2, hW, hn2, hok2, hc2, hin2⟩ :=
              ih up.length (by omega) up rfl s1 G gk _ _ (m + 1) fuel W1 I1 (by omega)
            refine ⟨s2, T2, ?_, hW, hn2.trans S1.next, hok2, hc2, ?_⟩
            · simp only [insertFixupLoop, insertFixupTest_cons W, hf, decide_True,
                Option.bind_eq_bind, Option.some_bind, if_true, e1, e2]
            · rw [hin2]
              exact inorder_case1 f (.L G .BLACK gk U) up _ .BLACK .BLACK .RED
          · have hUb := Color.ne_red.1 hU
            cases f with
            | L P pc pk sP =>
              simp only [Frame.s_L] at hfs hfsb hfsc
              obtain ⟨s1, e1, S1⟩ := insertFixupBody_Left_case3 W hUb
              have I1 : InsInv (.L P .BLACK pk (.node G .RED gk sP U) :: up) l r m := by
                refine ⟨I.okl, I.okr, I.bhl, I.bhr, I.cl, I.cr, ?_, by simpa using hroot⟩
                rw [OkCtx_cons]
                simp only [Frame.s_L, Frame.c_L, Ok_node, bh_node, if_true, reduceCtorEq,
                  if_false, Nat.add_zero]
                exact ⟨⟨hfs, hgs, by omega, fun _ => ⟨hfsc, hUb⟩⟩, hfsb,
                  (fun h => h.elim), hup⟩
              obtain ⟨s2, T2, e2, hW, hn2, hok2, hc2, hin2⟩ :=
                ih (up.length + 1) (by omega) _ (by simp) s1 z kz l r m fuel S1.whole I1
                  (by simp; omega)
              refine ⟨s2, T2, ?_, hW, hn2.trans S1.next, hok2, hc2, ?_⟩
              · simp only [insertFixupLoop, insertFixupTest_cons W, hf, decide_True,
                  Option.bind_eq_bind, Option.some_bind, if_true, e1, e2]
              · rw [hin2]
                simp only [plug_cons]
                apply inorder_plug_congr
                simp only [plugF_L, inorder, List.append_assoc, List.cons_append]
            | R P pc pk sP =>
              simp only [Frame.s_R] at hfs hfsb hfsc
              simp only [Frame.c_R] at hf
              subst hf
              obtain ⟨s1, e1, S1⟩ := insertFixupBody_Left_case2 W hUb
              have I1 : InsInv (.L z .BLACK kz (.node G .RED gk r U) :: up) sP l m := by
                refine ⟨hfs, I.okl, hfsb, I.bhl, hfsc, I.cl, ?_, by simpa using hroot⟩
                rw [OkCtx_cons]
                simp only [Frame.s_L, Frame.c_L, Ok_node, bh_node, if_true, reduceCtorEq,
                  if_false, Nat.add_zero]
                exact ⟨⟨I.okr, hgs, by rw [I.bhr, hgsb], fun _ => ⟨I.cr, hUb⟩⟩, I.bhr,
                  (fun h => h.elim), hup⟩
              obtain ⟨s2, T2, e2, hW, hn2, hok2, hc2, hin2⟩ :=
                ih (up.length + 1) (by omega) _ (by simp) s1 P pk sP l m fuel S1.whole I1
                  (by simp; omega)
              refine ⟨s2, T2, ?_, hW, hn2.trans S1.next, hok2, hc2, ?_⟩
              · simp only [insertFixupLoop, insertFixupTest_cons W, Frame.c_R, decide_True,
                  Option.bind_eq_bind, Option.some_bind, if_true, e1, e2]
              · rw [hin2]
                simp only [plug_cons]
                apply inorder_plug_congr
                simp only [plugF_L, plugF_R, inorder, List.append_assoc, List.cons_append]
        | R G gc gk U =>
          simp only [Frame.c_R] at hgB
          simp only [Frame.s_R] at hgs hgsb
          subst hgB
          by_cases hU : rootColor U = .RED
          · obtain ⟨s1, e1, S1⟩ := insertFixupBody_Right_case1 W hU
            have W1 : Whole s1 (plug up (.node G .RED gk (paint U .BLACK)
              (plugF (f.paint .BLACK) (.node z .RED kz l r)))) := S1.whole
            have hb1 : bh (plugF (f.paint .BLACK) (.node z .RED kz l r)) = m + 1 := by
              rw [bh_plugF _ _ (by rw [Frame.paint_s, hfsb, hbht]), hbht]
              simp
            have I1 : InsInv up (paint U .BLACK)
                (plugF (f.paint .BLACK) (.node z .RED kz l r)) (m + 1) := by
              refine ⟨hgs.paint, ?_, ?_, hb1, ?_, by simp, hup, hroot⟩
              · rw [Ok_plugF]
                refine ⟨hokt, by simpa using hfs, by rw [Frame.paint_s, hfsb, hbht], ?_⟩
                intro h
                simp at h
              · have hUn := ne_leaf_of_red hU
                cases U with
                | leaf => exact absurd rfl hUn
                | node u cu ku ul ur =>
                  simp only [rootColor_node] at hU
                  subst hU
                  simp only [paint_node, bh_node, if_true, reduceCtorEq, if_false,
                    Nat.add_zero] at hgsb ⊢
                  omega
              · exact rootColor_paint _ _ (ne_leaf_of_red hU)
            obtain ⟨s2, T2, e2, hW, hn2, hok2, hc2, hin2⟩ :=
              ih up.length (by omega) up rfl s1 G gk _ _ (m + 1) fuel W1 I1 (by omega)
            refine ⟨s2, T2, ?_, hW, hn2.trans S1.next, hok2, hc2, ?_⟩
            · simp only [insertFixupLoop, insertFixupTest_cons W, hf, decide_True,
                Option.bind_eq_bind, Option.some_bind, if_true, e1, e2]
            · rw [hin2]
              exact inorder_case1 f (.R G .BLACK gk U) up _ .BLACK .BLACK .RED
          · have hUb := Color.ne_red.1 hU
            cases f with
            | R P pc pk sP =>
              simp only [Frame.s_R] at hfs hfsb hfsc
              obtain ⟨s1, e1, S1⟩ := insertFixupBody_Right_case3 W hUb
              have I1 : InsInv (.R P .BLACK pk (.node G .RED gk U sP) :: up) l r m := by
                refine ⟨I.okl, I.okr, I.bhl, I.bhr, I.cl, I.cr, ?_, by simpa using hroot⟩
                rw [OkCtx_cons]
                simp only [Frame.s_R, Frame.c_R, Ok_node, bh_node, if_true, reduceCtorEq,
                  if_false, Nat.add_zero]
                exact ⟨⟨hgs, hfs, by omega, fun _ => ⟨hUb, hfsc⟩⟩, hgsb,
                  (fun h => h.elim), hup⟩
              obtain ⟨s2, T2, e2, hW, hn2, hok2, hc2, hin2⟩ :=
                ih (up.length + 1) (by omega) _ (by simp) s1 z kz l r m fuel S1.whole I1
                  (by simp; omega)
              refine ⟨s2, T2, ?_, hW, hn2.trans S1.next, hok2, hc2, ?_⟩
              · simp only [insertFixupLoop, insertFixupTest_cons W, hf, decide_True,
                  Option.bind_eq_bind, Option.some_bind, if_true, e1, e2]
              · rw [hin2]
                simp only [plug_cons]
                apply inorder_plug_congr
                simp only [plugF_R, inorder, List.append_assoc, List.cons_append]
            | L P pc pk sP =>
              simp only [Frame.s_L] at hfs hfsb hfsc
              simp only [Frame.c_L] at hf
              subst hf
              obtain ⟨s1, e1, S1⟩ := insertFixupBody_Right_case2 W hUb
              have I1 : InsInv (.R z .BLACK kz (.node G .RED gk U l) :: up) r sP m := by
                refine ⟨I.okr, hfs, I.bhr, hfsb, I.cr, hfsc, ?_, by simpa using hroot⟩
                rw [OkCtx_cons]
                simp only [Frame.s_R, Frame.c_R, Ok_node, bh_node, if_true, reduceCtorEq,
                  if_false, Nat.add_zero]
                exact ⟨⟨hgs, I.okl, by rw [I.bhl, hgsb], fun _ => ⟨hUb, I.cl⟩⟩, hgsb,
                  (fun h => h.elim), hup⟩
              obtain ⟨s2, T2, e2, hW, hn2, hok2, hc2, hin2⟩ :=
                ih (up.length + 1) (by omega) _ (by simp) s1 P pk r sP m fuel S1.whole I1
                  (by simp; omega)
              refine ⟨s2, T2, ?_, hW, hn2.trans S1.next, hok2, hc2, ?_⟩
              · simp only [insertFixupLoop, insertFixupTest_cons W, Frame.c_L, decide_True,
                  Option.bind_eq_bind, Option.some_bind, if_true, e1, e2]
              · rw [hin2]
                simp only [plug_cons]
                apply inorder_plug_congr
                simp only [plugF_L, plugF_R, inorder, List.append_assoc, List.cons_append]
    · have hfb : f.c = .BLACK := Color.ne_red.1 hf
      have hok : Ok (plug (f :: up) (.node z .RED kz l r)) :=
        (Ok_plug _ _).2 ⟨hokt, by rw [hbht]; exact I.path.any hfb⟩
      obtain ⟨s2, T2, e, h⟩ := finish_root W hok
      refine ⟨s2, T2, ?_, h⟩
      simp only [insertFixupLoop, insertFixupTest_cons W, hf, decide_False,
        Option.bind_eq_bind, Option.some_bind, Bool.false_eq_true, if_false, e]

theorem plug_insPath (key : Int) (t : Tree) (ctx : List Frame) :
    plug (insPath key t ctx) .leaf = plug ctx t := by
  induction t generalizing ctx with
  | leaf => rfl
  | node a c k l r ihl ihr =>
    unfold insPath
    split
    · rw [ihl]; rfl
    · rw [ihr]; rfl

theorem toward_insPath (key : Int) (t : Tree) (ctx : List Frame) (h : Toward key ctx) :
    Toward key (insPath key t ctx) := by
  induction t generalizing ctx with
  | leaf => exact h
  | node a c k l r ihl ihr =>
    unfold insPath
    split
    · exact ihl _ (by simpa only [Toward])
    · exact ihr _ (by simpa only [Toward])

theorem sorted_mid {kb il ir ka : List Int} {k : Int}
    (h : (kb ++ (il ++ k :: ir) ++ ka).Sorted (· ≤ ·)) :
    (∀ b ∈ il, b ≤ k) ∧ (∀ b ∈ ir, k ≤ b) := by
  have h1 := (List.pairwise_append.1 h).1
  have h2 := (List.pairwise_append.1 h1).2.1
  obtain ⟨-, pk, cross⟩ := List.pairwise_append.1 h2
  exact ⟨fun b hb => cross b hb k (List.mem_cons_self _ _), (List.pairwise_cons.1 pk).1⟩

theorem insPath_bounds (key : Int) (t : Tree) (ctx : List Frame)
    (hs : (inorder (plug ctx t)).Sorted (· ≤ ·))
    (hb : ∀ b ∈ keysBefore ctx, b ≤ key) (ha : ∀ b ∈ keysAfter ctx, key ≤ b) :
    (∀ b ∈ keysBefore (insPath key t ctx), b ≤ key) ∧
      (∀ b ∈ keysAfter (insPath key t ctx), key ≤ b) := by
  induction t generalizing ctx with
  | leaf => exact ⟨hb, ha⟩
  | node a c k l r ihl ihr =>
    have hs2 := hs
    rw [inorder_plug] at hs2
    obtain ⟨hl, hr⟩ := sorted_mid hs2
    unfold insPath
    split
    · rename_i hlt
      apply ihl _ hs
      · exact hb
      · intro b hb2
        simp only [keysAfter, List.cons_append, List.mem_cons, List.mem_append] at hb2
        rcases hb2 with rfl | hb2 | hb2
        · exact le_of_lt hlt
        · have := hr b hb2
          omega
        · exact ha b hb2
    · rename_i hlt
      apply ihr _ hs
      · intro b hb2
        simp only [keysBefore, List.mem_append, List.mem_singleton] at hb2
        rcases hb2 with hb2 | hb2 | rfl
        · exact hb b hb2
        · have := hl b hb2
          omega
        · omega
      · exact ha

theorem sorted_insert_middle {kb ka : List Int} {key : Int}
    (hs : (kb ++ ka).Sorted (· ≤ ·)) (hb : ∀ b ∈ kb, b ≤ key) (ha : ∀ b ∈ ka, key ≤ b) :
    (kb ++ key :: ka).Sorted (· ≤ ·) := by
  simp only [List.Sorted, List.pairwise_append, List.pairwise_cons, List.mem_cons] at hs ⊢
  refine ⟨hs.1, ⟨ha, hs.2.1⟩, ?_⟩
  intro a ha1 b hb1
  rcases hb1 with rfl | hb1
  · exact hb a ha1
  · exact hs.2.2 a ha1 b hb1

/-- The loop of `insert` ends at the place that `insPath` gives. -/
theorem descend_spec (key : Int) (z : Nat) (s : RedBlackTree) (hz : keyOf s z = some key) :
    ∀ (t : Tree) (ctx : List Frame) (fuel : Nat), Whole s (plug ctx t) →
      (addrs t).length < fuel →
      descend z fuel s (top ctx) (addr t) = some (top (insPath key t ctx)) := by
  intro t
  induction t with
  | leaf =>
    intro ctx fuel W hf
    obtain ⟨fuel, rfl⟩ : ∃ k, fuel = k + 1 := ⟨fuel - 1, by omega⟩
    simp only [descend, addr_leaf, W.nil, ne_eq, not_true_eq_false, if_false, insPath]
  | node a c k l r ihl ihr =>
    intro ctx fuel W hf
    obtain ⟨fuel, rfl⟩ : ∃ k, fuel = k + 1 := ⟨fuel - 1, by omega⟩
    simp only [addrs_node, List.length_cons, List.length_append] at hf
    have ha : ¬ a = 1 := by
      have := W.lo a (mem_addrs_plug.2 (Or.inl (by simp)))
      omega
    have r1 : keyOf s a = some k := Whole.keyOf ctx W
    have r2 : leftOf s a = some (addr l) := Whole.leftOf ctx W
    have r3 : rightOf s a = some (addr r) := Whole.rightOf ctx W
    simp only [descend, addr_node, W.nil, ne_eq, ha, not_false_eq_true, if_true, hz, r1,
      Option.some_bind, Option.bind_eq_bind, r2, r3]
    unfold insPath
    split
    · exact ihl (.L a c k r :: ctx) fuel W (by omega)
    · exact ihr (.R a c k l :: ctx) fuel W (by omega)

/-- The nodes of the tree are fewer than the addresses handed out. -/
theorem Whole.size_lt {s : RedBlackTree} {T : Tree} (W : Whole s T) :
    (addrs T).length + 2 ≤ s.next := by
  have h1 : (addrs T).toFinset ⊆ Finset.Ico 2 s.next := by
    intro a ha
    rw [List.mem_toFinset] at ha
    rw [Finset.mem_Ico]
    exact W.lo a ha
  have h2 := Finset.card_le_card h1
  rw [List.toFinset_card_of_nodup W.nodup, Nat.card_Ico] at h2
  have := W.two
  omega

theorem length_le_ctxAddrs (ctx : List Frame) : ctx.length ≤ (ctxAddrs ctx).length := by
  induction ctx with
  | nil => simp
  | cons f up ih =>
    simp only [List.length_cons, ctxAddrs_cons, List.length_append]
    omega

theorem Whole.depth_lt {s : RedBlackTree} {ctx : List Frame} {t : Tree}
    (W : Whole s (plug ctx t)) : ctx.length + (addrs t).length + 2 ≤ s.next := by
  have h1 := W.size_lt
  have h2 := (addrs_plug ctx t).length_eq
  have h3 := length_le_ctxAddrs ctx
  rw [List.length_append] at h2
  omega

/-- One call of `insert` on a state that holds a good tree gives a state that holds a
good tree. -/
theorem insert_good {s : RedBlackTree} {T : Tree} (W : Whole s T) (G : Good T) (key : Int) :
    ∃ s2 T2, insert s key = some s2 ∧ Whole s2 T2 ∧ Good T2 := by
  have hspec := createNode_spec W key
  rcases hcn : createNode s key with ⟨s1, z⟩
  rw [hcn] at hspec
  obtain ⟨W1, hz, hmem, hnext, hfresh, h2⟩ := hspec
  simp only at W1 hz hmem hnext
  subst hz
  have hk : keyOf s1 s.next = some key := by
    simp only [keyOf, hmem, Option.map_some']
  have hW1 : Whole s1 (plug [] T) := W1
  have hd := descend_spec key s.next _ hk T [] s1.next hW1
    (by have := W.size_lt; omega)
  have hplug : plug (insPath key T []) .leaf = T := plug_insPath key T []
  have W2 : Whole s1 (plug (insPath key T []) .leaf) := by
    rw [hplug]; exact W1
  obtain ⟨s2, e2, S2⟩ := linkNode_spec (z := s.next) (k := key) W2 hmem
    (by rw [hplug]; exact hfresh) ⟨h2, by omega⟩ (toward_insPath key T [] trivial)
  have hI : InsInv (insPath key T []) .leaf .leaf 0 := by
    refine ⟨trivial, trivial, rfl, rfl, rfl, rfl, ?_, ?_⟩
    · have := (Ok_plug (insPath key T []) .leaf).1 (by rw [hplug]; exact G.ok)
      exact this.2
    · have := rootColor_plug (insPath key T []) .leaf
      rw [hplug, G.black] at this
      exact this.symm
  obtain ⟨s3, T3, e3, W3, hn3, hok3, hc3, hin3⟩ :=
    insertFixupLoop_spec _ _ rfl s2 s.next key .leaf .leaf 0 s2.next S2.whole hI
      (by have := S2.whole.depth_lt; omega)
  refine ⟨s3, T3, ?_, W3, hok3, hc3, ?_⟩
  · simp only [top_nil] at hd
    simp only [insert, hcn, W1.nil, W1.root, hd, Option.bind_eq_bind, Option.some_bind, e2,
      insertFixup, e3]
  · rw [hin3, inorder_plug]
    have hb := insPath_bounds key T [] G.sorted (by simp [keysBefore]) (by simp [keysAfter])
    have hs : (keysBefore (insPath key T []) ++ keysAfter (insPath key T [])).Sorted (· ≤ ·) := by
      have := G.sorted
      rw [← hplug, inorder_plug] at this
      simpa [inorder] using this
    simpa [inorder] using sorted_insert_middle hs hb.1 hb.2

/-- The parent pointer read at the root of a subtree, the sentinel included, stays
right over a step that leaves the sentinel alone and the subtree below the same node. -/
theorem door_keep {s s2 : RedBlackTree} {t : Tree} {p : Nat} {ctx2 : List Frame}
    (hd : parentOf s (addr t) = some p) (hs : s2.mem 1 = s.mem 1)
    (W2 : Whole s2 (plug ctx2 t)) (htop : top ctx2 = p) :
    parentOf s2 (addr t) = some p := by
  cases t with
  | leaf =>
    simp only [addr_leaf, parentOf] at hd ⊢
    rw [hs]; exact hd
  | node a c k l r =>
    rw [← htop]
    exact Whole.parentOf ctx2 W2

/-- Case 1 of `deleteFixup` when `x` is a left child and the sibling is RED. -/
theorem deleteCase1Left_red {s : RedBlackTree} {up : List Frame} {t : Tree} {P wa : Nat}
    {pc : Color} {pk wk : Int} {wl wr : Tree}
    (W : Whole s (plug (.L P pc pk (.node wa .RED wk wl wr) :: up) t))
    (hd : parentOf s (addr t) = some P) :
    ∃ s2, deleteCase1Left s (addr t) wa = some (s2, addr wl) ∧
      Step s s2 (plug (.L P .RED pk wl :: .L wa .BLACK wk wr :: up) t) := by
  have r0 : colorOf s wa = some .RED :=
    Whole.colorOf (.R P pc pk t :: up) (t := .node wa .RED wk wl wr) W
  obtain ⟨s1, e1, S1⟩ := setColor_sibling (f := .L P pc pk (.node wa .RED wk wl wr)) (U := up)
    (t := t) W (by simp) .BLACK
  simp only [Frame.s_L, addr_node, Frame.withS, paint_node] at e1 S1
  have d1 := door_keep hd S1.sent S1.whole rfl
  obtain ⟨s2, e2, S2⟩ := setColor_frame S1.whole .RED
  simp only [Frame.a_L, Frame.paint] at e2 S2
  have d2 := door_keep d1 S2.sent S2.whole rfl
  obtain ⟨s3, e3, S3⟩ := leftRotate_spec (C := up) (x := P) (α := t) (y := wa) (β := wl)
    (γ := wr) S2.whole
  have W3 : Whole s3 (plug (.L P .RED pk wl :: .L wa .BLACK wk wr :: up) t) := S3.whole
  have d3 := door_keep d2 S3.sent W3 rfl
  have r3 : rightOf s3 P = some (addr wl) :=
    Whole.rightOf (.L wa .BLACK wk wr :: up) (a := P) (l := t) (r := wl) W3
  refine ⟨s3, ?_, (S1.trans S2).trans S3⟩
  simp only [deleteCase1Left, r0, e1, d1, e2, d2, e3, d3, r3, Option.bind_eq_bind,
    Option.some_bind, if_true]

theorem deleteCase1Left_black {s : RedBlackTree} {C : List Frame} {x wa : Nat} {wk : Int}
    {wl wr : Tree} (W : Whole s (plug C (.node wa .BLACK wk wl wr))) :
    deleteCase1Left s x wa = some (s, wa) := by
  have r0 : colorOf s wa = some .BLACK := Whole.colorOf C (t := .node wa .BLACK wk wl wr) W
  simp only [deleteCase1Left, r0, Option.bind_eq_bind, Option.some_bind, reduceCtorEq,
    if_false]

/-- Case 1 of `deleteFixup` when `x` is a right child and the sibling is RED. -/
theorem deleteCase1Right_red {s : RedBlackTree} {up : List Frame} {t : Tree} {P wa : Nat}
    {pc : Color} {pk wk : Int} {wl wr : Tree}
    (W : Whole s (plug (.R P pc pk (.node wa .RED wk wl wr) :: up) t))
    (hd : parentOf s (addr t) = some P) :
    ∃ s2, deleteCase1Right s (addr t) wa = some (s2, addr wr) ∧
      Step s s2 (plug (.R P .RED pk wr :: .R wa .BLACK wk wl :: up) t) := by
  have r0 : colorOf s wa = some .RED :=
    Whole.colorOf (.L P pc pk t :: up) (t := .node wa .RED wk wl wr) W
  obtain ⟨s1, e1, S1⟩ := setColor_sibling (f := .R P pc pk (.node wa .RED wk wl wr)) (U := up)
    (t := t) W (by simp) .BLACK
  simp only [Frame.s_R, addr_node, Frame.withS, paint_node] at e1 S1
  have d1 := door_keep hd S1.sent S1.whole rfl
  obtain ⟨s2, e2, S2⟩ := setColor_frame S1.whole .RED
  simp only [Frame.a_R, Frame.paint] at e2 S2
  have d2 := door_keep d1 S2.sent S2.whole rfl
  obtain ⟨s3, e3, S3⟩ := rightRotate_spec (C := up) (y := P) (x := wa) (α := wl) (β := wr)
    (γ := t) S2.whole
  have W3 : Whole s3 (plug (.R P .RED pk wr :: .R wa .BLACK wk wl :: up) t) := S3.whole
  have d3 := door_keep d2 S3.sent W3 rfl
  have r3 : leftOf s3 P = some (addr wr) :=
    Whole.leftOf (.R wa .BLACK wk wl :: up) (a := P) (l := wr) (r := t) W3
  refine ⟨s3, ?_, (S1.trans S2).trans S3⟩
  simp only [deleteCase1Right, r0, e1, d1, e2, d2, e3, d3, r3, Option.bind_eq_bind,
    Option.some_bind, if_true]

theorem deleteCase1Right_black {s : RedBlackTree} {C : List Frame} {x wa : Nat} {wk : Int}
    {wl wr : Tree} (W : Whole s (plug C (.node wa .BLACK wk wl wr))) :
    deleteCase1Right s x wa = some (s, wa) := by
  have r0 : colorOf s wa = some .BLACK := Whole.colorOf C (t := .node wa .BLACK wk wl wr) W
  simp only [deleteCase1Right, r0, Option.bind_eq_bind, Option.some_bind, reduceCtorEq,
    if_false]

/-- The test on the colours of the two children of the sibling. -/
theorem bothBlack_spec {s : RedBlackTree} {ctx : List Frame} {wa : Nat} {wc : Color}
    {wk : Int} {wl wr : Tree} (W : Whole s (plug ctx (.node wa wc wk wl wr))) :
    bothBlack s wa =
      some (decide (rootColor wl = .BLACK) && decide (rootColor wr = .BLACK)) := by
  have r1 : leftOf s wa = some (addr wl) := Whole.leftOf ctx W
  have r2 : colorOf s (addr wl) = some (rootColor wl) :=
    Whole.colorOf (.L wa wc wk wr :: ctx) (t := wl) W
  have r3 : rightOf s wa = some (addr wr) := Whole.rightOf ctx W
  have r4 : colorOf s (addr wr) = some (rootColor wr) :=
    Whole.colorOf (.R wa wc wk wl :: ctx) (t := wr) W
  simp only [bothBlack, r1, r2, r3, r4, Option.bind_eq_bind, Option.some_bind]
  by_cases h : rootColor wl = .BLACK
  · simp only [h, if_true, decide_True, Bool.true_and]
  · simp only [h, if_false, decide_False, Bool.false_and]

/-- Case 2 of `deleteFixup`: the sibling becomes RED and `x` moves to its parent. -/
theorem deleteCase2_spec {s : RedBlackTree} {f : Frame} {up : List Frame} {t : Tree}
    (W : Whole s (plug (f :: up) t)) (hs : f.s ≠ .leaf)
    (hd : parentOf s (addr t) = some f.a) :
    ∃ s2, deleteCase2 s (addr t) (addr f.s) = some (s2, f.a) ∧
      Step s s2 (plug (f.withS (paint f.s .RED) :: up) t) := by
  obtain ⟨s1, e1, S1⟩ := setColor_sibling W hs .RED
  have d1 := door_keep hd S1.sent S1.whole (by simp)
  refine ⟨s1, ?_, S1⟩
  simp only [deleteCase2, e1, d1, Option.bind_eq_bind, Option.some_bind]

/-- Case 3 of `deleteFixup` when `x` is a left child: the sibling is BLACK, its left
child RED and its right child BLACK. -/
theorem deleteCase3Left_rotate {s : RedBlackTree} {up : List Frame} {t : Tree}
    {P wa wla : Nat} {pc : Color} {pk wk wlk : Int} {wll wlr wr : Tree}
    (W : Whole s (plug (.L P pc pk (.node wa .BLACK wk (.node wla .RED wlk wll wlr) wr) :: up)
      t))
    (hwr : rootColor wr = .BLACK) (hd : parentOf s (addr t) = some P) :
    ∃ s2, deleteCase3Left s (addr t) wa = some (s2, wla) ∧
      Step s s2 (plug (.L P pc pk (.node wla .BLACK wlk wll (.node wa .RED wk wlr wr)) :: up)
        t) := by
  have Wa : Whole s (plug (.R P pc pk t :: up)
    (.node wa .BLACK wk (.node wla .RED wlk wll wlr) wr)) := W
  have r1 : rightOf s wa = some (addr wr) := Whole.rightOf _ Wa
  have r2 : colorOf s (addr wr) = some (rootColor wr) :=
    Whole.colorOf (.R wa .BLACK wk (.node wla .RED wlk wll wlr) :: .R P pc pk t :: up)
      (t := wr) W
  have r3 : leftOf s wa = some wla := Whole.leftOf _ Wa
  obtain ⟨s1, e1, S1⟩ := setColor_spec (C := .L wa .BLACK wk wr :: .R P pc pk t :: up)
    (a := wla) (l := wll) (r := wlr) W .BLACK
  obtain ⟨s2, e2, S2⟩ := setColor_spec (C := .R P pc pk t :: up)
    (a := wa) (l := .node wla .BLACK wlk wll wlr) (r := wr) S1.whole .RED
  obtain ⟨s3, e3, S3⟩ := rightRotate_spec (C := .R P pc pk t :: up) (y := wa) (x := wla)
    (α := wll) (β := wlr) (γ := wr) S2.whole
  have W3 : Whole s3 (plug
    (.L P pc pk (.node wla .BLACK wlk wll (.node wa .RED wk wlr wr)) :: up) t) := S3.whole
  have S := (S1.trans S2).trans S3
  have d3 := door_keep hd S.sent W3 rfl
  have r4 : rightOf s3 P = some wla :=
    Whole.rightOf up (a := P) (l := t)
      (r := .node wla .BLACK wlk wll (.node wa .RED wk wlr wr)) W3
  refine ⟨s3, ?_, S⟩
  simp only [deleteCase3Left, r1, r2, hwr, r3, e1, e2, e3, d3, r4, Option.bind_eq_bind,
    Option.some_bind, if_true]

theorem deleteCase3Left_skip {s : RedBlackTree} {ctx : List Frame} {x wa : Nat} {wc : Color}
    {wk : Int} {wl wr : Tree} (W : Whole s (plug ctx (.node wa wc wk wl wr)))
    (hwr : rootColor wr = .RED) :
    deleteCase3Left s x wa = some (s, wa) := by
  have r1 : rightOf s wa = some (addr wr) := Whole.rightOf _ W
  have r2 : colorOf s (addr wr) = some (rootColor wr) :=
    Whole.colorOf (.R wa wc wk wl :: ctx) (t := wr) W
  simp only [deleteCase3Left, r1, r2, hwr, Option.bind_eq_bind, Option.some_bind,
    reduceCtorEq, if_false]

/-- Case 4 of `deleteFixup` when `x` is a left child: the right child of the sibling is
RED. -/
theorem deleteCase4Left_spec {s : RedBlackTree} {up : List Frame} {t : Tree}
    {P wa wra : Nat} {pc wc : Color} {pk wk wrk : Int} {l wrl wrr : Tree}
    (W : Whole s (plug (.L P pc pk (.node wa wc wk l (.node wra .RED wrk wrl wrr)) :: up) t))
    (hd : parentOf s (addr t) = some P) :
    ∃ s2, deleteCase4Left s (addr t) wa = some (s2, s2.root) ∧
      Step s s2 (plug up
        (.node wa pc wk (.node P .BLACK pk t l) (.node wra .BLACK wrk wrl wrr))) := by
  have r1 : colorOf s P = some pc :=
    Whole.colorOfF (f := .L P pc pk (.node wa wc wk l (.node wra .RED wrk wrl wrr))) W
  obtain ⟨s1, e1, S1⟩ := setColor_spec (C := .R P pc pk t :: up)
    (a := wa) (l := l) (r := .node wra .RED wrk wrl wrr) W pc
  have W1 : Whole s1 (plug (.L P pc pk (.node wa pc wk l (.node wra .RED wrk wrl wrr)) :: up)
    t) := S1.whole
  have d1 := door_keep hd S1.sent W1 rfl
  obtain ⟨s2, e2, S2⟩ := setColor_frame W1 .BLACK
  simp only [Frame.a_L, Frame.paint] at e2 S2
  have d2 := door_keep d1 S2.sent S2.whole rfl
  have W2 : Whole s2 (plug (.R P .BLACK pk t :: up)
    (.node wa pc wk l (.node wra .RED wrk wrl wrr))) := S2.whole
  have r2 : rightOf s2 wa = some wra := Whole.rightOf _ W2
  obtain ⟨s3, e3, S3⟩ := setColor_spec (C := .R wa pc wk l :: .R P .BLACK pk t :: up)
    (a := wra) (l := wrl) (r := wrr) S2.whole .BLACK
  have W3 : Whole s3 (plug (.L P .BLACK pk (.node wa pc wk l (.node wra .BLACK wrk wrl wrr))
    :: up) t) := S3.whole
  have d3 := door_keep d2 S3.sent W3 rfl
  obtain ⟨s4, e4, S4⟩ := leftRotate_spec (C := up) (x := P) (α := t) (y := wa) (β := l)
    (γ := .node wra .BLACK wrk wrl wrr) S3.whole
  refine ⟨s4, ?_, ((S1.trans S2).trans S3).trans S4⟩
  simp only [deleteCase4Left, hd, r1, e1, d1, e2, d2, r2, e3, d3, e4, Option.bind_eq_bind,
    Option.some_bind]

/-- Case 3 of `deleteFixup` when `x` is a right child: the sibling is BLACK, its right
child RED and its left child BLACK. -/
theorem deleteCase3Right_rotate {s : RedBlackTree} {up : List Frame} {t : Tree}
    {P wa wra : Nat} {pc : Color} {pk wk wrk : Int} {wl wrl wrr : Tree}
    (W : Whole s (plug (.R P pc pk (.node wa .BLACK wk wl (.node wra .RED wrk wrl wrr)) :: up)
      t))
    (hwl : rootColor wl = .BLACK) (hd : parentOf s (addr t) = some P) :
    ∃ s2, deleteCase3Right s (addr t) wa = some (s2, wra) ∧
      Step s s2 (plug (.R P pc pk (.node wra .BLACK wrk (.node wa .RED wk wl wrl) wrr) :: up)
        t) := by
  have Wa : Whole s (plug (.L P pc pk t :: up)
    (.node wa .BLACK wk wl (.node wra .RED wrk wrl wrr))) := W
  have r1 : leftOf s wa = some (addr wl) := Whole.leftOf _ Wa
  have r2 : colorOf s (addr wl) = some (rootColor wl) :=
    Whole.colorOf (.L wa .BLACK wk (.node wra .RED wrk wrl wrr) :: .L P pc pk t :: up)
      (t := wl) W
  have r3 : rightOf s wa = some wra := Whole.rightOf _ Wa
  obtain ⟨s1, e1, S1⟩ := setColor_spec (C := .R wa .BLACK wk wl :: .L P pc pk t :: up)
    (a := wra) (l := wrl) (r := wrr) W .BLACK
  obtain ⟨s2, e2, S2⟩ := setColor_spec (C := .L P pc pk t :: up)
    (a := wa) (l := wl) (r := .node wra .BLACK wrk wrl wrr) S1.whole .RED
  obtain ⟨s3, e3, S3⟩ := leftRotate_spec (C := .L P pc pk t :: up) (x := wa) (y := wra)
    (α := wl) (β := wrl) (γ := wrr) S2.whole
  have W3 : Whole s3 (plug
    (.R P pc pk (.node wra .BLACK wrk (.node wa .RED wk wl wrl) wrr) :: up) t) := S3.whole
  have S := (S1.trans S2).trans S3
  have d3 := door_keep hd S.sent W3 rfl
  have r4 : leftOf s3 P = some wra :=
    Whole.leftOf up (a := P) (r := t)
      (l := .node wra .BLACK wrk (.node wa .RED wk wl wrl) wrr) W3
  refine ⟨s3, ?_, S⟩
  simp only [deleteCase3Right, r1, r2, hwl, r3, e1, e2, e3, d3, r4, Option.bind_eq_bind,
    Option.some_bind, if_true]

theorem deleteCase3Right_skip {s : RedBlackTree} {ctx : List Frame} {x wa : Nat} {wc : Color}
    {wk : Int} {wl wr : Tree} (W : Whole s (plug ctx (.node wa wc wk wl wr)))
    (hwl : rootColor wl = .RED) :
    deleteCase3Right s x wa = some (s, wa) := by
  have r1 : leftOf s wa = some (addr wl) := Whole.leftOf _ W
  have r2 : colorOf s (addr wl) = some (rootColor wl) :=
    Whole.colorOf (.L wa wc wk wr :: ctx) (t := wl) W
  simp only [deleteCase3Right, r1, r2, hwl, Option.bind_eq_bind, Option.some_bind,
    reduceCtorEq, if_false]

/-- Case 4 of `deleteFixup` when `x` is a right child: the left child of the sibling is
RED. -/
theorem deleteCase4Right_spec {s : RedBlackTree} {up : List Frame} {t : Tree}
    {P wa wla : Nat} {pc wc : Color} {pk wk wlk : Int} {wll wlr r : Tree}
    (W : Whole s (plug (.R P pc pk (.node wa wc wk (.node wla .RED wlk wll wlr) r) :: up) t))
    (hd : parentOf s (addr t) = some P) :
    ∃ s2, deleteCase4Right s (addr t) wa = some (s2, s2.root) ∧
      Step s s2 (plug up
        (.node wa pc wk (.node wla .BLACK wlk wll wlr) (.node P .BLACK pk r t))) := by
  have r1 : colorOf s P = some pc :=
    Whole.colorOfF (f := .R P pc pk (.node wa wc wk (.node wla .RED wlk wll wlr) r)) W
  obtain ⟨s1, e1, S1⟩ := setColor_spec (C := .L P pc pk t :: up)
    (a := wa) (l := .node wla .RED wlk wll wlr) (r := r) W pc
  have W1 : Whole s1 (plug (.R P pc pk (.node wa pc wk (.node wla .RED wlk wll wlr) r) :: up)
    t) := S1.whole
  have d1 := door_keep hd S1.sent W1 rfl
  obtain ⟨s2, e2, S2⟩ := setColor_frame W1 .BLACK
  simp only [Frame.a_R, Frame.paint] at e2 S2
  have d2 := door_keep d1 S2.sent S2.whole rfl
  have W2 : Whole s2 (plug (.L P .BLACK pk t :: up)
    (.node wa pc wk (.node wla .RED wlk wll wlr) r)) := S2.whole
  have r2 : leftOf s2 wa = some wla := Whole.leftOf _ W2
  obtain ⟨s3, e3, S3⟩ := setColor_spec (C := .L wa pc wk r :: .L P .BLACK pk t :: up)
    (a := wla) (l := wll) (r := wlr) S2.whole .BLACK
  have W3 : Whole s3 (plug (.R P .BLACK pk (.node wa pc wk (.node wla .BLACK wlk wll wlr) r)
    :: up) t) := S3.whole
  have d3 := door_keep d2 S3.sent W3 rfl
  obtain ⟨s4, e4, S4⟩ := rightRotate_spec (C := up) (y := P) (x := wa)
    (α := .node wla .BLACK wlk wll wlr) (β := r) (γ := t) S3.whole
  refine ⟨s4, ?_, ((S1.trans S2).trans S3).trans S4⟩
  simp only [deleteCase4Right, hd, r1, e1, d1, e2, d2, r2, e3, d3, e4, Option.bind_eq_bind,
    Option.some_bind]

theorem addr_plug_mem (f : Frame) (up : List Frame) (t : Tree) :
    addr (plug (f :: up) t) ∈ ctxAddrs (f :: up) := by
  induction up generalizing f t with
  | nil => simp [plug, addr_plugF]
  | cons g up ih =>
    rw [plug_cons]
    have := ih g (plugF f t)
    simp only [ctxAddrs_cons, List.mem_cons, List.mem_append] at this ⊢
    tauto

/-- The root of the tree is not the root of a subtree further down. -/
theorem Whole.root_ne {s : RedBlackTree} {f : Frame} {up : List Frame} {t : Tree}
    (W : Whole s (plug (f :: up) t)) : ¬ addr t = s.root := by
  rw [W.root]
  obtain ⟨-, -, hnd, -⟩ := W.parts
  have hm := addr_plug_mem f up t
  rw [List.nodup_cons, List.nodup_append] at hnd
  have h1 : addr (plug (f :: up) t) ∉ addrs t := fun h => hnd.2.2.2 h hm
  have h2 : ¬ addr (plug (f :: up) t) = 1 := by
    intro h
    apply hnd.1
    rw [← h]
    exact List.mem_append_right _ hm
  intro h
  have := eq_addr_false h1 h2
  rw [← h] at this
  simp at this

theorem plug_cons_ne_leaf (f : Frame) (up : List Frame) (t : Tree) :
    plug (f :: up) t ≠ .leaf := by
  induction up generalizing f t with
  | nil => cases f <;> simp [plug]
  | cons g up ih => rw [plug_cons]; exact ih g _

/-- The parent pointer of the root of the tree is the sentinel. -/
theorem Whole.parentOf_root {s : RedBlackTree} {T : Tree} (W : Whole s T) (h : T ≠ .leaf) :
    RedBlack.parentOf s (addr T) = some 1 := by
  cases T with
  | leaf => exact absurd rfl h
  | node a c k l r => exact Whole.parentOf [] W

theorem deleteFixupTest_nil {s : RedBlackTree} {t : Tree} (W : Whole s (plug [] t)) :
    deleteFixupTest s (addr t) = some false := by
  have := W.root
  simp only [plug_nil] at this
  simp only [deleteFixupTest, this, ne_eq, not_true_eq_false, if_false]

theorem deleteFixupTest_cons {s : RedBlackTree} {f : Frame} {up : List Frame} {t : Tree}
    (W : Whole s (plug (f :: up) t)) :
    deleteFixupTest s (addr t) = some (decide (rootColor t = .BLACK)) := by
  simp only [deleteFixupTest, ne_eq, W.root_ne, not_false_eq_true, if_true,
    Whole.colorOf (f :: up) W, Option.map_some']

theorem ctxRoot_black {up : List Frame} {c : Color} (h : ctxRoot up c = .BLACK) :
    ctxRoot up .BLACK = .BLACK := by
  cases up with
  | nil => rfl
  | cons f up => exact h

theorem rootColor_paint_black (t : Tree) : rootColor (paint t .BLACK) = .BLACK := by
  cases t <;> rfl

/-- The end of `deleteFixup`: `x` is the root, or is RED, and becomes BLACK. -/
theorem deleteFixup_exit {s : RedBlackTree} {ctx : List Frame} {t : Tree} {m fuel : Nat}
    (W : Whole s (plug ctx t)) (I : DelInv ctx t m)
    (h : ctx = [] ∨ rootColor t = .RED) :
    ∃ s2 T2, deleteFixupLoop (fuel + 1) s (addr t) = some s2 ∧ Whole s2 T2 ∧
      s2.next = s.next ∧ Ok T2 ∧ rootColor T2 = .BLACK ∧
      inorder T2 = inorder (plug ctx t) := by
  obtain ⟨s2, e, S⟩ := setColor_focus W .BLACK (fun _ => rfl)
  have htest : deleteFixupTest s (addr t) = some false := by
    rcases ctx with _ | ⟨f, up⟩
    · exact deleteFixupTest_nil W
    · rcases h with h | h
      · cases h
      · rw [deleteFixupTest_cons W, h]; rfl
  refine ⟨s2, plug ctx (paint t .BLACK), ?_, S.whole, S.next, ?_, ?_, ?_⟩
  · simp only [deleteFixupLoop, htest, Option.bind_eq_bind, Option.some_bind,
      Bool.false_eq_true, if_false, e]
  · rw [Ok_plug]
    refine ⟨I.ok, ?_⟩
    rw [rootColor_paint_black]
    rcases h with h | h
    · subst h; trivial
    · have : bh (paint t .BLACK) = m + 1 := by
        have hb := I.bht
        cases t with
        | leaf => cases h
        | node a c k l r =>
          simp only [rootColor_node] at h
          subst h
          simp only [bh_node, reduceCtorEq, if_false, Nat.add_zero] at hb
          simp only [paint_node, bh_node, if_true, hb]
      rw [this]
      exact I.path
  · rw [rootColor_plug, rootColor_paint_black]
    exact I.root
  · exact inorder_plug_congr ctx (inorder_paint _ _)

/-- The outcome of a round of `deleteFixup` that ends at the root of a tree in order. -/
theorem outcome_root {s2 : RedBlackTree} {T2 : Tree} (W2 : Whole s2 T2) (hok : Ok T2)
    (hne : T2 ≠ .leaf) :
    Whole s2 (plug [] T2) ∧ parentOf s2 (addr T2) = some (top []) ∧ DelInv [] T2 (bh T2) :=
  ⟨W2, W2.parentOf_root hne, ⟨hok.paint, rfl, trivial, rfl⟩⟩

theorem plug_ne_leaf (ctx : List Frame) (a : Nat) (c : Color) (k : Int) (l r : Tree) :
    plug ctx (.node a c k l r) ≠ .leaf := by
  cases ctx with
  | nil => simp
  | cons f up => exact plug_cons_ne_leaf f up _

theorem deleteRestLeft_spec {s : RedBlackTree} {up : List Frame} {t : Tree} {P wa : Nat}
    {pc : Color} {pk wk : Int} {wl wr : Tree} {m : Nat}
    (W : Whole s (plug (.L P pc pk (.node wa .BLACK wk wl wr) :: up) t))
    (hd : parentOf s (addr t) = some P)
    (hokt : Ok t) (hbt : bh t = m) (hwl : Ok wl) (hwr : Ok wr) (hbl : bh wl = m)
    (hbr : bh wr = m) (hup : OkCtx up pc (m + 1 + (if pc = .BLACK then 1 else 0)))
    (hroot : ctxRoot up pc = .BLACK) :
    ∃ s2 x2, deleteRestLeft s (addr t) wa = some (s2, x2) ∧
      ∃ ctx2 t2 m2, x2 = addr t2 ∧ Whole s2 (plug ctx2 t2) ∧
        parentOf s2 (addr t2) = some (top ctx2) ∧ s2.next = s.next ∧
        inorder (plug ctx2 t2) =
          inorder (plug (.L P pc pk (.node wa .BLACK wk wl wr) :: up) t) ∧
        DelInv ctx2 t2 m2 ∧ ((ctx2 = up ∧ rootColor t2 = pc) ∨ ctx2 = []) := by
  have Wa : Whole s (plug (.R P pc pk t :: up) (.node wa .BLACK wk wl wr)) := W
  have hb := bothBlack_spec Wa
  by_cases hwlc : rootColor wl = .BLACK
  · by_cases hwrc : rootColor wr = .BLACK
    · -- case 2
      obtain ⟨s1, e1, S1⟩ := deleteCase2_spec (f := .L P pc pk (.node wa .BLACK wk wl wr)) W
        (by simp) hd
      simp only [Frame.s_L, addr_node, Frame.a_L, Frame.withS, paint_node] at e1 S1
      refine ⟨s1, P, ?_, up, .node P pc pk t (.node wa .RED wk wl wr),
        m + (if pc = .BLACK then 1 else 0), rfl, S1.whole, ?_, S1.next, ?_, ?_, Or.inl ⟨rfl, rfl⟩⟩
      · simp only [deleteRestLeft, hb, hwlc, hwrc, decide_True, Bool.and_self,
          Option.bind_eq_bind, Option.some_bind, if_true, e1]
      · exact Whole.parentOfF (f := .L P pc pk (.node wa .RED wk wl wr)) S1.whole
      · simp only [plug_cons, plugF_L]
        apply inorder_plug_congr
        simp only [inorder]
      · refine ⟨?_, ?_, ?_, ctxRoot_black hroot⟩
        · simp only [paint_node, Ok_node, bh_node, reduceCtorEq, if_false, Nat.add_zero]
          exact ⟨hokt, ⟨hwl, hwr, by omega, fun _ => ⟨hwlc, hwrc⟩⟩, by omega,
            fun h => by cases h⟩
        · simp only [bh_node, hbt]
        · have := hup.black
          rw [show m + (if pc = Color.BLACK then 1 else 0) + 1 =
            m + 1 + (if pc = Color.BLACK then 1 else 0) by omega]
          exact this
    · -- case 4
      have hwrc2 := Color.ne_black.1 hwrc
      cases wr with
      | leaf => cases hwrc2
      | node wra wrc wrk wrl wrr =>
        simp only [rootColor_node] at hwrc2
        subst hwrc2
        have e3 := deleteCase3Left_skip (x := addr t) Wa rfl
        obtain ⟨s2, e4, S4⟩ := deleteCase4Left_spec W hd
        rw [Ok_node] at hwr
        simp only [bh_node, reduceCtorEq, if_false, Nat.add_zero] at hbr
        have hok2 : Ok (plug up (.node wa pc wk (.node P .BLACK pk t wl)
            (.node wra .BLACK wrk wrl wrr))) := by
          rw [Ok_plug]
          simp only [Ok_node, bh_node, if_true, rootColor_node]
          refine ⟨⟨⟨hokt, hwl, by omega, fun h => by cases h⟩,
            ⟨hwr.1, hwr.2.1, hwr.2.2.1, fun h => by cases h⟩, by omega, fun _ => ⟨trivial, trivial⟩⟩, ?_⟩
          rw [hbt]
          exact hup
        obtain ⟨h1, h2, h3⟩ := outcome_root S4.whole hok2 (plug_ne_leaf _ _ _ _ _ _)
        refine ⟨s2, s2.root, ?_, [], _, _, S4.whole.root, h1, h2, S4.next, ?_, h3, Or.inr rfl⟩
        · simp only [deleteRestLeft, hb, hwlc, rootColor_node, reduceCtorEq, decide_True,
            decide_False, Bool.and_false, Option.bind_eq_bind, Option.some_bind,
            Bool.false_eq_true, if_false, e3, e4]
        · simp only [plug_nil, plug_cons, plugF_L]
          apply inorder_plug_congr
          simp only [inorder, List.append_assoc, List.cons_append]
  · -- the left child of the sibling is RED
    have hwlc2 := Color.ne_black.1 hwlc
    cases wl with
    | leaf => cases hwlc2
    | node wla wlc wlk wll wlr =>
      simp only [rootColor_node] at hwlc2
      subst hwlc2
      rw [Ok_node] at hwl
      simp only [bh_node, reduceCtorEq, if_false, Nat.add_zero] at hbl
      by_cases hwrc : rootColor wr = .BLACK
      · -- case 3, then case 4
        obtain ⟨s1, e3, S3⟩ := deleteCase3Left_rotate W hwrc hd
        have d1 := door_keep hd S3.sent S3.whole rfl
        obtain ⟨s2, e4, S4⟩ := deleteCase4Left_spec (l := wll) S3.whole d1
        have hok2 : Ok (plug up (.node wla pc wlk (.node P .BLACK pk t wll)
            (.node wa .BLACK wk wlr wr))) := by
          rw [Ok_plug]
          simp only [Ok_node, bh_node, if_true, rootColor_node]
          refine ⟨⟨⟨hokt, hwl.1, by omega, fun h => by cases h⟩,
            ⟨hwl.2.1, hwr, by have := hwl.2.2.1; omega, fun h => by cases h⟩, by omega,
            fun _ => ⟨trivial, trivial⟩⟩, ?_⟩
          rw [hbt]
          exact hup
        obtain ⟨h1, h2, h3⟩ := outcome_root S4.whole hok2 (plug_ne_leaf _ _ _ _ _ _)
        refine ⟨s2, s2.root, ?_, [], _, _, S4.whole.root, h1, h2,
          S4.next.trans S3.next, ?_, h3, Or.inr rfl⟩
        · simp only [deleteRestLeft, hb, rootColor_node, reduceCtorEq, decide_False,
            Bool.false_and, Option.bind_eq_bind, Option.some_bind,
            Bool.false_eq_true, if_false, e3, e4]
        · simp only [plug_nil, plug_cons, plugF_L]
          apply inorder_plug_congr
          simp only [inorder, List.append_assoc, List.cons_append]
      · -- case 4
        have hwrc2 := Color.ne_black.1 hwrc
        cases wr with
        | leaf => cases hwrc2
        | node wra wrc wrk wrl wrr =>
          simp only [rootColor_node] at hwrc2
          subst hwrc2
          have e3 := deleteCase3Left_skip (x := addr t) Wa rfl
          obtain ⟨s2, e4, S4⟩ := deleteCase4Left_spec W hd
          rw [Ok_node] at hwr
          simp only [bh_node, reduceCtorEq, if_false, Nat.add_zero] at hbr
          have hok2 : Ok (plug up (.node wa pc wk
              (.node P .BLACK pk t (.node wla .RED wlk wll wlr))
              (.node wra .BLACK wrk wrl wrr))) := by
            rw [Ok_plug]
            simp only [Ok_node, bh_node, if_true, rootColor_node, reduceCtorEq, if_false,
              Nat.add_zero]
            refine ⟨⟨⟨hokt, ⟨hwl.1, hwl.2.1, hwl.2.2.1, fun _ => hwl.2.2.2 rfl⟩, by omega,
              fun h => by cases h⟩,
              ⟨hwr.1, hwr.2.1, hwr.2.2.1, fun h => by cases h⟩, by omega,
              fun _ => ⟨trivial, trivial⟩⟩, ?_⟩
            rw [hbt]
            exact hup
          obtain ⟨h1, h2, h3⟩ := outcome_root S4.whole hok2 (plug_ne_leaf _ _ _ _ _ _)
          refine ⟨s2, s2.root, ?_, [], _, _, S4.whole.root, h1, h2, S4.next, ?_, h3,
            Or.inr rfl⟩
          · simp only [deleteRestLeft, hb, rootColor_node, reduceCtorEq, decide_False,
              Bool.false_and, Option.bind_eq_bind, Option.some_bind,
              Bool.false_eq_true, if_false, e3, e4]
          · simp only [plug_nil, plug_cons, plugF_L]
            apply inorder_plug_congr
            simp only [inorder, List.append_assoc, List.cons_append]

theorem deleteRestRight_spec {s : RedBlackTree} {up : List Frame} {t : Tree} {P wa : Nat}
    {pc : Color} {pk wk : Int} {wl wr : Tree} {m : Nat}
    (W : Whole s (plug (.R P pc pk (.node wa .BLACK wk wl wr) :: up) t))
    (hd : parentOf s (addr t) = some P)
    (hokt : Ok t) (hbt : bh t = m) (hwl : Ok wl) (hwr : Ok wr) (hbl : bh wl = m)
    (hbr : bh wr = m) (hup : OkCtx up pc (m + 1 + (if pc = .BLACK then 1 else 0)))
    (hroot : ctxRoot up pc = .BLACK) :
    ∃ s2 x2, deleteRestRight s (addr t) wa = some (s2, x2) ∧
      ∃ ctx2 t2 m2, x2 = addr t2 ∧ Whole s2 (plug ctx2 t2) ∧
        parentOf s2 (addr t2) = some (top ctx2) ∧ s2.next = s.next ∧
        inorder (plug ctx2 t2) =
          inorder (plug (.R P pc pk (.node wa .BLACK wk wl wr) :: up) t) ∧
        DelInv ctx2 t2 m2 ∧ ((ctx2 = up ∧ rootColor t2 = pc) ∨ ctx2 = []) := by
  have Wa : Whole s (plug (.L P pc pk t :: up) (.node wa .BLACK wk wl wr)) := W
  have hb := bothBlack_spec Wa
  by_cases hwrc : rootColor wr = .BLACK
  · by_cases hwlc : rootColor wl = .BLACK
    · -- case 2
      obtain ⟨s1, e1, S1⟩ := deleteCase2_spec (f := .R P pc pk (.node wa .BLACK wk wl wr)) W
        (by simp) hd
      simp only [Frame.s_R, addr_node, Frame.a_R, Frame.withS, paint_node] at e1 S1
      refine ⟨s1, P, ?_, up, .node P pc pk (.node wa .RED wk wl wr) t,
        m + (if pc = .BLACK then 1 else 0), rfl, S1.whole, ?_, S1.next, ?_, ?_, Or.inl ⟨rfl, rfl⟩⟩
      · simp only [deleteRestRight, hb, hwlc, hwrc, decide_True, Bool.and_self,
          Option.bind_eq_bind, Option.some_bind, if_true, e1]
      · exact Whole.parentOfF (f := .R P pc pk (.node wa .RED wk wl wr)) S1.whole
      · simp only [plug_cons, plugF_R]
        apply inorder_plug_congr
        simp only [inorder]
      · refine ⟨?_, ?_, ?_, ctxRoot_black hroot⟩
        · simp only [paint_node, Ok_node, bh_node, reduceCtorEq, if_false, Nat.add_zero]
          exact ⟨⟨hwl, hwr, by omega, fun _ => ⟨hwlc, hwrc⟩⟩, hokt, by omega,
            fun h => by cases h⟩
        · simp only [bh_node, reduceCtorEq, if_false, Nat.add_zero, hbl]
        · have := hup.black
          rw [show m + (if pc = Color.BLACK then 1 else 0) + 1 =
            m + 1 + (if pc = Color.BLACK then 1 else 0) by omega]
          exact this
    · -- case 4
      have hwlc2 := Color.ne_black.1 hwlc
      cases wl with
      | leaf => cases hwlc2
      | node wla wlc wlk wll wlr =>
        simp only [rootColor_node] at hwlc2
        subst hwlc2
        have e3 := deleteCase3Right_skip (x := addr t) Wa rfl
        obtain ⟨s2, e4, S4⟩ := deleteCase4Right_spec W hd
        rw [Ok_node] at hwl
        simp only [bh_node, reduceCtorEq, if_false, Nat.add_zero] at hbl
        have hok2 : Ok (plug up (.node wa pc wk (.node wla .BLACK wlk wll wlr)
            (.node P .BLACK pk wr t))) := by
          rw [Ok_plug]
          simp only [Ok_node, bh_node, if_true, rootColor_node]
          refine ⟨⟨⟨hwl.1, hwl.2.1, hwl.2.2.1, fun h => by cases h⟩,
            ⟨hwr, hokt, by omega, fun h => by cases h⟩, by omega,
            fun _ => ⟨trivial, trivial⟩⟩, ?_⟩
          rw [hbl]
          exact hup
        obtain ⟨h1, h2, h3⟩ := outcome_root S4.whole hok2 (plug_ne_leaf _ _ _ _ _ _)
        refine ⟨s2, s2.root, ?_, [], _, _, S4.whole.root, h1, h2, S4.next, ?_, h3, Or.inr rfl⟩
        · simp only [deleteRestRight, hb, hwrc, rootColor_node, reduceCtorEq, decide_True,
            decide_False, Bool.false_and, Option.bind_eq_bind, Option.some_bind,
            Bool.false_eq_true, if_false, e3, e4]
        · simp only [plug_nil, plug_cons, plugF_R]
          apply inorder_plug_congr
          simp only [inorder, List.append_assoc, List.cons_append]
  · -- the right child of the sibling is RED
    have hwrc2 := Color.ne_black.1 hwrc
    cases wr with
    | leaf => cases hwrc2
    | node wra wrc wrk wrl wrr =>
      simp only [rootColor_node] at hwrc2
      subst hwrc2
      rw [Ok_node] at hwr
      simp only [bh_node, reduceCtorEq, if_false, Nat.add_zero] at hbr
      by_cases hwlc : rootColor wl = .BLACK
      · -- case 3, then case 4
        obtain ⟨s1, e3, S3⟩ := deleteCase3Right_rotate W hwlc hd
        have d1 := door_keep hd S3.sent S3.whole rfl
        obtain ⟨s2, e4, S4⟩ := deleteCase4Right_spec (r := wrr) S3.whole d1
        have hok2 : Ok (plug up (.node wra pc wrk (.node wa .BLACK wk wl wrl)
            (.node P .BLACK pk wrr t))) := by
          rw [Ok_plug]
          simp only [Ok_node, bh_node, if_true, rootColor_node]
          refine ⟨⟨⟨hwl, hwr.1, by omega, fun h => by cases h⟩,
            ⟨hwr.2.1, hokt, by have := hwr.2.2.1; omega, fun h => by cases h⟩, by omega,
            fun _ => ⟨trivial, trivial⟩⟩, ?_⟩
          rw [hbl]
          exact hup
        obtain ⟨h1, h2, h3⟩ := outcome_root S4.whole hok2 (plug_ne_leaf _ _ _ _ _ _)
        refine ⟨s2, s2.root, ?_, [], _, _, S4.whole.root, h1, h2,
          S4.next.trans S3.next, ?_, h3, Or.inr rfl⟩
        · simp only [deleteRestRight, hb, rootColor_node, reduceCtorEq, decide_False,
            Bool.and_false, Option.bind_eq_bind, Option.some_bind,
            Bool.false_eq_true, if_false, e3, e4]
        · simp only [plug_nil, plug_cons, plugF_R]
          apply inorder_plug_congr
          simp only [inorder, List.append_assoc, List.cons_append]
      · -- case 4
        have hwlc2 := Color.ne_black.1 hwlc
        cases wl with
        | leaf => cases hwlc2
        | node wla wlc wlk wll wlr =>
          simp only [rootColor_node] at hwlc2
          subst hwlc2
          have e3 := deleteCase3Right_skip (x := addr t) Wa rfl
          obtain ⟨s2, e4, S4⟩ := deleteCase4Right_spec W hd
          rw [Ok_node] at hwl
          simp only [bh_node, reduceCtorEq, if_false, Nat.add_zero] at hbl
          have hok2 : Ok (plug up (.node wa pc wk
              (.node wla .BLACK wlk wll wlr)
              (.node P .BLACK pk (.node wra .RED wrk wrl wrr) t))) := by
            rw [Ok_plug]
            simp only [Ok_node, bh_node, if_true, rootColor_node, reduceCtorEq, if_false,
              Nat.add_zero]
            refine ⟨⟨⟨hwl.1, hwl.2.1, hwl.2.2.1, fun h => by cases h⟩,
              ⟨⟨hwr.1, hwr.2.1, hwr.2.2.1, fun _ => hwr.2.2.2 rfl⟩, hokt, by omega,
                fun h => by cases h⟩, by omega,
              fun _ => ⟨trivial, trivial⟩⟩, ?_⟩
            rw [hbl]
            exact hup
          obtain ⟨h1, h2, h3⟩ := outcome_root S4.whole hok2 (plug_ne_leaf _ _ _ _ _ _)
          refine ⟨s2, s2.root, ?_, [], _, _, S4.whole.root, h1, h2, S4.next, ?_, h3,
            Or.inr rfl⟩
          · simp only [deleteRestRight, hb, rootColor_node, reduceCtorEq, decide_False,
              Bool.false_and, Bool.and_false, Option.bind_eq_bind, Option.some_bind,
              Bool.false_eq_true, if_false, e3, e4]
          · simp only [plug_nil, plug_cons, plugF_R]
            apply inorder_plug_congr
            simp only [inorder, List.append_assoc, List.cons_append]

theorem deleteFixupBody_L {s : RedBlackTree} {up : List Frame} {t w : Tree} {P : Nat}
    {pc : Color} {pk : Int} {m : Nat}
    (W : Whole s (plug (.L P pc pk w :: up) t))
    (hd : parentOf s (addr t) = some P) (I : DelInv (.L P pc pk w :: up) t m)
    (hc : rootColor t = .BLACK) :
    ∃ s2 x2, deleteFixupBody s (addr t) = some (s2, x2) ∧
      Outcome s (.L P pc pk w :: up) t s2 x2 := by
  have hokt : Ok t := by
    have := I.ok
    rwa [← hc, paint_same] at this
  have hp := I.path
  rw [OkCtx_cons] at hp
  simp only [Frame.s_L, Frame.c_L] at hp
  obtain ⟨hw, hbw, hpc, hup⟩ := hp
  have hroot : ctxRoot up pc = .BLACK := I.root
  have WP : Whole s (plug up (.node P pc pk t w)) := W
  have r1 : leftOf s P = some (addr t) := Whole.leftOf up WP
  have r2 : rightOf s P = some (addr w) := Whole.rightOf up WP
  have e0 : deleteFixupBody s (addr t) =
      (deleteCase1Left s (addr t) (addr w)).bind fun r => deleteRestLeft r.1 (addr t) r.2 := by
    simp only [deleteFixupBody, hd, r1, Option.bind_eq_bind, Option.some_bind, if_true,
      deleteFixupLeft, r2]
  cases w with
  | leaf => simp at hbw
  | node wa wc wk wl wr =>
    rw [Ok_node] at hw
    obtain ⟨hwl, hwr, hbeq, hwc⟩ := hw
    simp only [addr_node] at e0
    cases wc with
    | RED =>
      have hpcB : pc = .BLACK := by
        apply Color.ne_red.1
        intro h
        have := (hpc h).2
        simp at this
      subst hpcB
      simp only [bh_node, reduceCtorEq, if_false, Nat.add_zero, if_true] at hbw hup
      obtain ⟨hcl, hcr⟩ := hwc rfl
      obtain ⟨s1, e1, S1⟩ := deleteCase1Left_red W hd
      have d1 := door_keep hd S1.sent S1.whole rfl
      cases wl with
      | leaf => simp at hbw
      | node wla wlc wlk wll wlr =>
        simp only [rootColor_node] at hcl
        subst hcl
        rw [Ok_node] at hwl
        simp only [bh_node, if_true] at hbw hbeq
        obtain ⟨s2, x2, e2, ctx2, t2, m2, hx, hW2, hd2, hn2, hin2, hI2, hcase⟩ :=
          deleteRestLeft_spec (m := m) S1.whole d1 hokt I.bht hwl.1 hwl.2.1 (by omega)
            (by have := hwl.2.2.1; omega)
            (by
              rw [OkCtx_cons]
              simp only [Frame.s_L, Frame.c_L, reduceCtorEq, if_false, if_true, Nat.add_zero]
              exact ⟨hwr, by omega, (fun h => h.elim), hup⟩)
            (by simpa using hroot)
        refine ⟨s2, x2, ?_, ctx2, t2, m2, hx, hW2, hd2, hn2.trans S1.next, ?_, hI2, ?_⟩
        · simp only [e0, e1, Option.bind_eq_bind, Option.some_bind, addr_node, e2]
        · rw [hin2]
          simp only [plug_cons, plugF_L]
          apply inorder_plug_congr
          simp only [inorder, List.append_assoc, List.cons_append]
        · rcases hcase with ⟨-, h⟩ | h
          · exact Or.inr (Or.inl h)
          · exact Or.inr (Or.inr h)
    | BLACK =>
      simp only [bh_node, if_true] at hbw
      have Wb : Whole s (plug (.R P pc pk t :: up) (.node wa .BLACK wk wl wr)) := W
      have e1 := deleteCase1Left_black (x := addr t) Wb
      obtain ⟨s2, x2, e2, ctx2, t2, m2, hx, hW2, hd2, hn2, hin2, hI2, hcase⟩ :=
        deleteRestLeft_spec (m := m) W hd hokt I.bht hwl hwr (by omega) (by omega) hup hroot
      refine ⟨s2, x2, ?_, ctx2, t2, m2, hx, hW2, hd2, hn2, hin2, hI2, ?_⟩
      · simp only [e0, e1, Option.bind_eq_bind, Option.some_bind, e2]
      · rcases hcase with ⟨h, -⟩ | h
        · subst h
          exact Or.inl (by simp)
        · exact Or.inr (Or.inr h)

theorem deleteFixupBody_R {s : RedBlackTree} {up : List Frame} {t w : Tree} {P : Nat}
    {pc : Color} {pk : Int} {m : Nat}
    (W : Whole s (plug (.R P pc pk w :: up) t))
    (hd : parentOf s (addr t) = some P) (I : DelInv (.R P pc pk w :: up) t m)
    (hc : rootColor t = .BLACK) :
    ∃ s2 x2, deleteFixupBody s (addr t) = some (s2, x2) ∧
      Outcome s (.R P pc pk w :: up) t s2 x2 := by
  have hokt : Ok t := by
    have := I.ok
    rwa [← hc, paint_same] at this
  have hp := I.path
  rw [OkCtx_cons] at hp
  simp only [Frame.s_R, Frame.c_R] at hp
  obtain ⟨hw, hbw, hpc, hup⟩ := hp
  have hroot : ctxRoot up pc = .BLACK := I.root
  have WP : Whole s (plug up (.node P pc pk w t)) := W
  have r1 : leftOf s P = some (addr w) := Whole.leftOf up WP
  cases w with
  | leaf => simp at hbw
  | node wa wc wk wl wr =>
    have hne : ¬ addr t = wa := by
      have W2 : Whole s (plug (.L P pc pk t :: up) (.node wa wc wk wl wr)) := W
      have := W2.ne_sibling
      simp only [Frame.s_L] at this
      exact fun h => this h.symm
    simp only [addr_node] at r1
    have e0 : deleteFixupBody s (addr t) =
        (deleteCase1Right s (addr t) wa).bind fun r => deleteRestRight r.1 (addr t) r.2 := by
      simp only [deleteFixupBody, hd, r1, Option.bind_eq_bind, Option.some_bind, hne,
        if_false, deleteFixupRight]
    rw [Ok_node] at hw
    obtain ⟨hwl, hwr, hbeq, hwc⟩ := hw
    cases wc with
    | RED =>
      have hpcB : pc = .BLACK := by
        apply Color.ne_red.1
        intro h
        have := (hpc h).2
        simp at this
      subst hpcB
      simp only [bh_node, reduceCtorEq, if_false, Nat.add_zero, if_true] at hbw hup
      obtain ⟨hcl, hcr⟩ := hwc rfl
      obtain ⟨s1, e1, S1⟩ := deleteCase1Right_red W hd
      have d1 := door_keep hd S1.sent S1.whole rfl
      cases wr with
      | leaf => simp at hbeq; omega
      | node wra wrc wrk wrl wrr =>
        simp only [rootColor_node] at hcr
        subst hcr
        rw [Ok_node] at hwr
        simp only [bh_node, if_true] at hbw hbeq
        obtain ⟨s2, x2, e2, ctx2, t2, m2, hx, hW2, hd2, hn2, hin2, hI2, hcase⟩ :=
          deleteRestRight_spec (m := m) S1.whole d1 hokt I.bht hwr.1 hwr.2.1 (by omega)
            (by have := hwr.2.2.1; omega)
            (by
              rw [OkCtx_cons]
              simp only [Frame.s_R, Frame.c_R, reduceCtorEq, if_false, if_true, Nat.add_zero]
              exact ⟨hwl, by omega, (fun h => h.elim), hup⟩)
            (by simpa using hroot)
        refine ⟨s2, x2, ?_, ctx2, t2, m2, hx, hW2, hd2, hn2.trans S1.next, ?_, hI2, ?_⟩
        · simp only [e0, e1, Option.bind_eq_bind, Option.some_bind, addr_node, e2]
        · rw [hin2]
          simp only [plug_cons, plugF_R]
          apply inorder_plug_congr
          simp only [inorder, List.append_assoc, List.cons_append]
        · rcases hcase with ⟨-, h⟩ | h
          · exact Or.inr (Or.inl h)
          · exact Or.inr (Or.inr h)
    | BLACK =>
      simp only [bh_node, if_true] at hbw
      have Wb : Whole s (plug (.L P pc pk t :: up) (.node wa .BLACK wk wl wr)) := W
      have e1 := deleteCase1Right_black (x := addr t) Wb
      obtain ⟨s2, x2, e2, ctx2, t2, m2, hx, hW2, hd2, hn2, hin2, hI2, hcase⟩ :=
        deleteRestRight_spec (m := m) W hd hokt I.bht hwl hwr (by omega) (by omega) hup hroot
      refine ⟨s2, x2, ?_, ctx2, t2, m2, hx, hW2, hd2, hn2, hin2, hI2, ?_⟩
      · simp only [e0, e1, Option.bind_eq_bind, Option.some_bind, e2]
      · rcases hcase with ⟨h, -⟩ | h
        · subst h
          exact Or.inl (by simp)
        · exact Or.inr (Or.inr h)

/-- The loop of `deleteFixup` ends and leaves a tree in order with a BLACK root. -/
theorem deleteFixupLoop_spec : ∀ (n : Nat) (ctx : List Frame), ctx.length = n →
    ∀ (s : RedBlackTree) (t : Tree) (m fuel : Nat),
    Whole s (plug ctx t) → parentOf s (addr t) = some (top ctx) → DelInv ctx t m →
    ctx.length < fuel →
    ∃ s2 T2, deleteFixupLoop fuel s (addr t) = some s2 ∧ Whole s2 T2 ∧ s2.next = s.next ∧
      Ok T2 ∧ rootColor T2 = .BLACK ∧ inorder T2 = inorder (plug ctx t) := by
  intro n
  induction n using Nat.strong_induction_on with
  | _ n ih =>
  intro ctx hn s t m fuel W hd I hfuel
  obtain ⟨fuel, rfl⟩ : ∃ k, fuel = k + 1 := ⟨fuel - 1, by omega⟩
  rcases ctx with _ | ⟨f, up⟩
  · exact deleteFixup_exit W I (Or.inl rfl)
  · by_cases hc : rootColor t = .RED
    · exact deleteFixup_exit W I (Or.inr hc)
    · have hcb := Color.ne_red.1 hc
      have hbody : ∃ s2 x2, deleteFixupBody s (addr t) = some (s2, x2) ∧
          Outcome s (f :: up) t s2 x2 := by
        cases f with
        | L P pc pk w => exact deleteFixupBody_L W hd I hcb
        | R P pc pk w => exact deleteFixupBody_R W hd I hcb
      obtain ⟨s1, x1, e1, ctx2, t2, m2, hx, hW2, hd2, hn2, hin2, hI2, hcase⟩ := hbody
      subst hx
      simp only [List.length_cons] at hn hfuel hcase
      have hfuel1 : 0 < fuel := by omega
      obtain ⟨fuel, rfl⟩ : ∃ k, fuel = k + 1 := ⟨fuel - 1, by omega⟩
      have hrec : ∃ s2 T2, deleteFixupLoop (fuel + 1) s1 (addr t2) = some s2 ∧ Whole s2 T2 ∧
          s2.next = s1.next ∧ Ok T2 ∧ rootColor T2 = .BLACK ∧
          inorder T2 = inorder (plug ctx2 t2) := by
        rcases hcase with h | h | h
        · exact ih ctx2.length (by omega) ctx2 rfl s1 t2 m2 (fuel + 1) hW2 hd2 hI2 (by omega)
        · exact deleteFixup_exit hW2 hI2 (Or.inr h)
        · exact deleteFixup_exit hW2 hI2 (Or.inl h)
      obtain ⟨s2, T2, e2, hW3, hn3, hok3, hc3, hin3⟩ := hrec
      refine ⟨s2, T2, ?_, hW3, hn3.trans hn2, hok3, hc3, hin3.trans hin2⟩
      rw [deleteFixupLoop]
      simp only [deleteFixupTest_cons W, hcb, decide_True, Option.bind_eq_bind,
        Option.some_bind, if_true, e1, e2]

theorem plug_findPath (key : Int) (t : Tree) (ctx : List Frame) :
    plug (findPath key t ctx).1 (findPath key t ctx).2 = plug ctx t := by
  induction t generalizing ctx with
  | leaf => rfl
  | node a c k l r ihl ihr =>
    unfold findPath
    split
    · rfl
    · split
      · rw [ihl]; rfl
      · rw [ihr]; rfl

theorem findPath_key (key : Int) (t : Tree) (ctx : List Frame) :
    (findPath key t ctx).2 = .leaf ∨
      ∃ a c l r, (findPath key t ctx).2 = .node a c key l r := by
  induction t generalizing ctx with
  | leaf => exact Or.inl rfl
  | node a c k l r ihl ihr =>
    unfold findPath
    split
    · rename_i h
      subst h
      exact Or.inr ⟨a, c, l, r, rfl⟩
    · split
      · exact ihl _
      · exact ihr _

/-- The loop of `search` ends at the place that `findPath` gives. -/
theorem searchLoop_spec (key : Int) (s : RedBlackTree) :
    ∀ (t : Tree) (ctx : List Frame) (fuel : Nat), Whole s (plug ctx t) →
      (addrs t).length < fuel →
      searchLoop key fuel s (addr t) = some (addr (findPath key t ctx).2) := by
  intro t
  induction t with
  | leaf =>
    intro ctx fuel W hf
    obtain ⟨fuel, rfl⟩ : ∃ k, fuel = k + 1 := ⟨fuel - 1, by omega⟩
    simp only [searchLoop, addr_leaf, W.nil, ne_eq, not_true_eq_false, if_false, findPath]
  | node a c k l r ihl ihr =>
    intro ctx fuel W hf
    obtain ⟨fuel, rfl⟩ : ∃ k, fuel = k + 1 := ⟨fuel - 1, by omega⟩
    simp only [addrs_node, List.length_cons, List.length_append] at hf
    have ha : ¬ a = 1 := by
      have := W.lo a (mem_addrs_plug.2 (Or.inl (by simp)))
      omega
    have r1 : keyOf s a = some k := Whole.keyOf ctx W
    have r2 : leftOf s a = some (addr l) := Whole.leftOf ctx W
    have r3 : rightOf s a = some (addr r) := Whole.rightOf ctx W
    simp only [searchLoop, addr_node, W.nil, ne_eq, ha, not_false_eq_true, if_true, r1,
      Option.some_bind, Option.bind_eq_bind, r2, r3]
    unfold findPath
    by_cases hk : key = k
    · simp only [hk, not_true_eq_false, if_false, if_true, addr_node]
    · simp only [hk, not_false_eq_true, if_true, if_false]
      split
      · exact ihl (.L a c k r :: ctx) fuel W (by omega)
      · exact ihr (.R a c k l :: ctx) fuel W (by omega)

/-- The place of the leftmost node of a tree that is not empty. -/
theorem minPath_spec (t : Tree) (ht : t ≠ .leaf) (ctx0 : List Frame) :
    ∃ ctxR y cy ky ry, minPath t ctx0 = (ctxR ++ ctx0, .node y cy ky .leaf ry) ∧
      plug ctxR (.node y cy ky .leaf ry) = t ∧
      (∀ c, keysBefore (ctxR ++ c) = keysBefore c) := by
  induction t generalizing ctx0 with
  | leaf => exact absurd rfl ht
  | node a c k l r ihl _ =>
    cases l with
    | leaf => exact ⟨[], a, c, k, r, rfl, rfl, fun _ => rfl⟩
    | node la lc lk ll lr =>
      obtain ⟨ctxR, y, cy, ky, ry, h1, h2, h3⟩ := ihl (by simp) (.L a c k r :: ctx0)
      refine ⟨ctxR ++ [.L a c k r], y, cy, ky, ry, ?_, ?_, ?_⟩
      · rw [minPath, h1]
        simp only [List.append_assoc, List.singleton_append]
      · rw [plug_append, h2]
        rfl
      · intro c2
        rw [List.append_assoc, h3]
        rfl

/-- The loop of `minimum` ends at the place that `minPath` gives. -/
theorem minimumLoop_spec (s : RedBlackTree) :
    ∀ (t : Tree) (ctx : List Frame) (fuel : Nat), t ≠ .leaf → Whole s (plug ctx t) →
      (addrs t).length < fuel + 1 →
      minimumLoop fuel s (addr t) = some (addr (minPath t ctx).2) := by
  intro t
  induction t with
  | leaf => intro ctx fuel ht; exact absurd rfl ht
  | node a c k l r ihl _ =>
    intro ctx fuel _ W hf
    simp only [addrs_node, List.length_cons, List.length_append] at hf
    obtain ⟨fuel, rfl⟩ : ∃ k, fuel = k + 1 := ⟨fuel - 1, by omega⟩
    have r2 : leftOf s a = some (addr l) := Whole.leftOf ctx W
    cases l with
    | leaf =>
      simp only [minimumLoop, addr_node, r2, Option.some_bind, Option.bind_eq_bind,
        addr_leaf, W.nil, ne_eq, not_true_eq_false, if_false, minPath]
    | node la lc lk ll lr =>
      have hla : ¬ la = 1 := by
        have := W.lo la (mem_addrs_plug.2 (Or.inl (by simp)))
        omega
      simp only [minimumLoop, addr_node, r2, Option.some_bind, Option.bind_eq_bind,
        W.nil, ne_eq, hla, not_false_eq_true, if_true, minPath]
      have := ihl (.L a c k r :: ctx) fuel (by simp) W
        (by simp only [addrs_node, List.length_cons, List.length_append] at hf ⊢; omega)
      simpa only [addr_node] using this

/-- A path accepts the same subtrees when one of its nodes is replaced by another with
the same colour and the same other child. -/
theorem OkCtx_swap (c1 : List Frame) (f g : Frame) (c2 : List Frame) (hc : f.c = g.c)
    (hs : f.s = g.s) (col : Color) (n : Nat) :
    OkCtx (c1 ++ f :: c2) col n ↔ OkCtx (c1 ++ g :: c2) col n := by
  induction c1 generalizing col n with
  | nil =>
    simp only [List.nil_append, OkCtx_cons, hc, hs]
  | cons h c1 ih =>
    simp only [List.cons_append, OkCtx_cons, ih]

theorem ctxRoot_swap (c1 : List Frame) (f g : Frame) (c2 : List Frame) (hc : f.c = g.c)
    (col : Color) :
    ctxRoot (c1 ++ f :: c2) col = ctxRoot (c1 ++ g :: c2) col := by
  induction c1 generalizing col with
  | nil => simp only [List.nil_append, ctxRoot_cons, hc]
  | cons h c1 ih => simp only [List.cons_append, ctxRoot_cons, ih]

theorem ctxRoot_cons_any (f : Frame) (up : List Frame) (c c2 : Color) :
    ctxRoot (f :: up) c = ctxRoot (f :: up) c2 := rfl

theorem keysAfter_swap_R (c1 : List Frame) (a a2 : Nat) (c c3 : Color) (k k2 : Int)
    (sb sb2 : Tree) (c2 : List Frame) :
    keysAfter (c1 ++ .R a c k sb :: c2) = keysAfter (c1 ++ .R a2 c3 k2 sb2 :: c2) := by
  induction c1 with
  | nil => rfl
  | cons h c1 ih =>
    cases h with
    | L a1 c4 k1 s1 =>
      show k1 :: (inorder s1 ++ keysAfter (c1 ++ _)) = k1 :: (inorder s1 ++ keysAfter (c1 ++ _))
      rw [ih]
    | R _ _ _ _ => exact ih

theorem top_append (c1 : List Frame) (c2 : List Frame) (h : c1 ≠ []) :
    top (c1 ++ c2) = top c1 := by
  cases c1 with
  | nil => exact absurd rfl h
  | cons f c1 => rfl

theorem plug_ne_nil_node (f : Frame) (up : List Frame) (t : Tree) :
    ∃ a c k l r, plug (f :: up) t = .node a c k l r := by
  have := plug_cons_ne_leaf f up t
  cases h : plug (f :: up) t with
  | leaf => exact absurd h this
  | node a c k l r => exact ⟨a, c, k, l, r, rfl⟩

theorem count_addrs_plug (ctx : List Frame) (t : Tree) (a : Nat) :
    (addrs (plug ctx t)).count a = (addrs t).count a + (ctxAddrs ctx).count a := by
  rw [(addrs_plug ctx t).count_eq, List.count_append]

/-- The end of `deleteNode`: the node is freed and, when a BLACK node was taken out,
`deleteFixup` runs. -/
theorem finishDelete_spec {s1 : RedBlackTree} {ctx : List Frame} {t : Tree} {z : Nat}
    {c : Color} {m : Nat}
    (W : Whole s1 (plug ctx t)) (hd : parentOf s1 (addr t) = some (top ctx))
    (hz : z ∉ addrs (plug ctx t)) (hz1 : z ≠ 1)
    (hB : c = .BLACK → DelInv ctx t m)
    (hR : c = .RED → Ok (plug ctx t) ∧ rootColor (plug ctx t) = .BLACK) :
    ∃ s2 T2, finishDelete s1 z (addr t) c = some s2 ∧ Whole s2 T2 ∧ Ok T2 ∧
      rootColor T2 = .BLACK ∧ inorder T2 = inorder (plug ctx t) := by
  obtain ⟨W2, hs⟩ := release_spec W hz hz1
  cases c with
  | RED =>
    obtain ⟨h1, h2⟩ := hR rfl
    exact ⟨release s1 z, plug ctx t, by simp [finishDelete], W2, h1, h2, rfl⟩
  | BLACK =>
    have d2 := door_keep hd hs W2 rfl
    obtain ⟨s2, T2, e, hW, -, hok, hc, hin⟩ :=
      deleteFixupLoop_spec _ ctx rfl (release s1 z) t m (release s1 z).next W2 d2 (hB rfl)
        (by have := W2.depth_lt; omega)
    rw [release_next] at e
    exact ⟨s2, T2, by simp [finishDelete, deleteFixup, e], hW, hok, hc, hin⟩

/-- The address of a node of the tree is none of the other addresses. -/
theorem Whole.focus_fresh {s : RedBlackTree} {ctx : List Frame} {z : Nat} {cz : Color}
    {kz : Int} {l r : Tree} (W : Whole s (plug ctx (.node z cz kz l r))) :
    z ≠ 1 ∧ z ∉ addrs l ∧ z ∉ addrs r ∧ z ∉ ctxAddrs ctx := by
  obtain ⟨-, -, hnd, -⟩ := W.parts
  simp only [List.nodup_cons, List.mem_append, List.mem_cons, not_or, addrs_node,
    List.cons_append] at hnd
  exact ⟨fun h => hnd.1.1 h.symm, hnd.2.1.1.1, hnd.2.1.1.2, hnd.2.1.2⟩

theorem sorted_le_of_sublist {l1 l2 : List Int} (h : l1.Sublist l2) (hs : l2.Sorted (· ≤ ·)) :
    l1.Sorted (· ≤ ·) :=
  List.Pairwise.sublist h hs

/-- The branch of `deleteNode` for a node without a left child. -/
theorem delete_noLeft {s : RedBlackTree} {ctx : List Frame} {z : Nat} {cz : Color} {kz : Int}
    {r : Tree} (W : Whole s (plug ctx (.node z cz kz .leaf r)))
    (G : Good (plug ctx (.node z cz kz .leaf r))) :
    ∃ s2 T2, ((transplant s z (addr r)).bind fun t => finishDelete t z (addr r) cz) = some s2 ∧
      Whole s2 T2 ∧ Good T2 := by
  obtain ⟨s1, e1, Sp⟩ := transplant_right_spec W
  obtain ⟨hz1, -, hzr, hzc⟩ := W.focus_fresh
  obtain ⟨hok, hctx⟩ := (Ok_plug _ _).1 G.ok
  rw [Ok_node] at hok
  simp only [rootColor_node, bh_node, bh_leaf, Nat.zero_add] at hctx
  have hroot := G.black
  rw [rootColor_plug, rootColor_node] at hroot
  have hbr : bh r = 0 := hok.2.2.1.symm
  obtain ⟨s2, T2, e2, hW, hok2, hc2, hin2⟩ := finishDelete_spec (c := cz) (m := 0) Sp.whole Sp.door
    (by rw [mem_addrs_plug]; exact fun h => h.elim hzr hzc) hz1
    (fun h => by
      subst h
      exact ⟨hok.2.1.paint, hbr, by simpa using hctx, hroot⟩)
    (fun h => by
      subst h
      refine ⟨(Ok_plug _ _).2 ⟨hok.2.1, ?_⟩, ?_⟩
      · rw [(hok.2.2.2 rfl).2, hbr]
        simpa using hctx.black
      · rw [rootColor_plug, (hok.2.2.2 rfl).2]
        exact ctxRoot_black hroot)
  refine ⟨s2, T2, by simp only [e1, Option.bind_eq_bind, Option.some_bind, e2], hW, hok2, hc2, ?_⟩
  rw [hin2]
  apply sorted_le_of_sublist _ G.sorted
  rw [inorder_plug, inorder_plug]
  apply List.Sublist.append_right
  apply List.Sublist.append_left
  simp only [inorder, List.nil_append]
  exact List.sublist_cons_self _ _

/-- The branch of `deleteNode` for a node without a right child. -/
theorem delete_noRight {s : RedBlackTree} {ctx : List Frame} {z : Nat} {cz : Color} {kz : Int}
    {l : Tree} (W : Whole s (plug ctx (.node z cz kz l .leaf)))
    (G : Good (plug ctx (.node z cz kz l .leaf))) :
    ∃ s2 T2, ((transplant s z (addr l)).bind fun t => finishDelete t z (addr l) cz) = some s2 ∧
      Whole s2 T2 ∧ Good T2 := by
  obtain ⟨s1, e1, Sp⟩ := transplant_left_spec W
  obtain ⟨hz1, hzl, -, hzc⟩ := W.focus_fresh
  obtain ⟨hok, hctx⟩ := (Ok_plug _ _).1 G.ok
  rw [Ok_node] at hok
  have hbl : bh l = 0 := hok.2.2.1
  simp only [rootColor_node, bh_node, hbl, Nat.zero_add] at hctx
  have hroot := G.black
  rw [rootColor_plug, rootColor_node] at hroot
  obtain ⟨s2, T2, e2, hW, hok2, hc2, hin2⟩ := finishDelete_spec (c := cz) (m := 0) Sp.whole Sp.door
    (by rw [mem_addrs_plug]; exact fun h => h.elim hzl hzc) hz1
    (fun h => by
      subst h
      exact ⟨hok.1.paint, hbl, by simpa using hctx, hroot⟩)
    (fun h => by
      subst h
      refine ⟨(Ok_plug _ _).2 ⟨hok.1, ?_⟩, ?_⟩
      · rw [(hok.2.2.2 rfl).1, hbl]
        simpa using hctx.black
      · rw [rootColor_plug, (hok.2.2.2 rfl).1]
        exact ctxRoot_black hroot)
  refine ⟨s2, T2, by simp only [e1, Option.bind_eq_bind, Option.some_bind, e2], hW, hok2, hc2, ?_⟩
  rw [hin2]
  apply sorted_le_of_sublist _ G.sorted
  rw [inorder_plug, inorder_plug]
  apply List.Sublist.append_right
  apply List.Sublist.append_left
  simp only [inorder]
  exact List.sublist_append_left _ _

theorem ctxAddrs_append (c1 c2 : List Frame) :
    ctxAddrs (c1 ++ c2) = ctxAddrs c1 ++ ctxAddrs c2 := by
  induction c1 with
  | nil => rfl
  | cons f c1 ih =>
    simp only [List.cons_append, ctxAddrs_cons, ih, List.append_assoc]

/-- The end of the branch of `deleteNode` for a node `z` with two children, once the
successor `y` is in the place of `z`. -/
theorem delete_two_finish {s2 : RedBlackTree} {ctx D : List Frame} {z y : Nat}
    {cz cy : Color} {kz ky : Int} {L ry : Tree}
    (G : Good (plug (D ++ .R z cz kz L :: ctx) (.node y cy ky .leaf ry)))
    (hkb : ∀ c, keysBefore (D ++ c) = keysBefore c)
    (W2 : Whole s2 (plug (D ++ .R y cz ky L :: ctx) ry))
    (d2 : parentOf s2 (addr ry) = some (top (D ++ .R y cz ky L :: ctx)))
    (hz : z ∉ addrs (plug (D ++ .R y cz ky L :: ctx) ry)) (hz1 : z ≠ 1) :
    ∃ s3 T3, finishDelete s2 z (addr ry) cy = some s3 ∧ Whole s3 T3 ∧ Good T3 := by
  obtain ⟨hok, hctx⟩ := (Ok_plug _ _).1 G.ok
  rw [Ok_node] at hok
  rw [OkCtx_swap D (.R z cz kz L) (.R y cz ky L) ctx rfl rfl] at hctx
  simp only [rootColor_node, bh_node, bh_leaf, Nat.zero_add] at hctx
  have hroot := G.black
  rw [rootColor_plug, rootColor_node,
    ctxRoot_swap D (.R z cz kz L) (.R y cz ky L) ctx rfl] at hroot
  have hbr : bh ry = 0 := hok.2.2.1.symm
  obtain ⟨s3, T3, e3, hW, hok3, hc3, hin3⟩ := finishDelete_spec (c := cy) (m := 0) W2 d2 hz hz1
    (fun h => by
      subst h
      exact ⟨hok.2.1.paint, hbr, by simpa using hctx, hroot⟩)
    (fun h => by
      subst h
      refine ⟨(Ok_plug _ _).2 ⟨hok.2.1, ?_⟩, ?_⟩
      · rw [(hok.2.2.2 rfl).2, hbr]
        simpa using hctx.black
      · rw [rootColor_plug, (hok.2.2.2 rfl).2]
        exact ctxRoot_black hroot)
  refine ⟨s3, T3, e3, hW, hok3, hc3, ?_⟩
  rw [hin3]
  apply sorted_le_of_sublist _ G.sorted
  rw [inorder_plug, inorder_plug, hkb, hkb,
    keysAfter_swap_R D z y cz cz kz ky L L ctx]
  apply List.Sublist.append_right
  simp only [keysBefore, inorder, List.nil_append, List.append_assoc, List.singleton_append]
  apply List.Sublist.append_left
  apply List.Sublist.append_left
  exact List.sublist_cons_self _ _

/-- The branch of `deleteNode` for a node with two children. -/
theorem delete_two {s : RedBlackTree} {ctx : List Frame} {z : Nat} {cz : Color} {kz : Int}
    {L R : Tree} (W : Whole s (plug ctx (.node z cz kz L R)))
    (G : Good (plug ctx (.node z cz kz L R))) (hL : L ≠ .leaf) (hR : R ≠ .leaf) :
    ∃ s2 T2, deleteTwoChildren s z = some s2 ∧ Whole s2 T2 ∧ Good T2 := by
  obtain ⟨ctxR, y, cy, ky, ry, hmp, hplugR, hkb⟩ := minPath_spec R hR (.R z cz kz L :: ctx)
  have WR : Whole s (plug (.R z cz kz L :: ctx) R) := W
  have hmin := minimumLoop_spec s R (.R z cz kz L :: ctx) s.next hR WR
    (by have := WR.depth_lt; omega)
  rw [hmp] at hmin
  simp only [addr_node] at hmin
  have hT : plug (ctxR ++ .R z cz kz L :: ctx) (.node y cy ky .leaf ry) =
      plug ctx (.node z cz kz L R) := by
    rw [plug_append, hplugR]; rfl
  have Wy : Whole s (plug (ctxR ++ .R z cz kz L :: ctx) (.node y cy ky .leaf ry)) := by
    rw [hT]; exact W
  have Gy : Good (plug (ctxR ++ .R z cz kz L :: ctx) (.node y cy ky .leaf ry)) := by
    rw [hT]; exact G
  have r1 : rightOf s z = some (addr R) := Whole.rightOf ctx W
  have r2 : colorOf s y = some cy :=
    Whole.colorOf (ctxR ++ .R z cz kz L :: ctx) (t := .node y cy ky .leaf ry) Wy
  have r3 : rightOf s y = some (addr ry) := Whole.rightOf _ Wy
  have r4 : parentOf s y = some (top (ctxR ++ .R z cz kz L :: ctx)) := Whole.parentOf _ Wy
  obtain ⟨hz1, hzL, hzR, hzc⟩ := W.focus_fresh
  obtain ⟨hy1, -, hyr, hyc⟩ := Wy.focus_fresh
  have hzR2 : ¬ z = y ∧ z ∉ addrs ry ∧ z ∉ ctxAddrs ctxR := by
    have := hzR
    rw [← hplugR, mem_addrs_plug] at this
    simp only [addrs_node, addrs_leaf, List.nil_append, List.mem_cons, not_or] at this
    exact ⟨this.1.1, this.1.2, this.2⟩
  cases L with
  | leaf => exact absurd rfl hL
  | node l cl kl ll lr =>
    have hzfin : z ∉ addrs (plug (ctxR ++ .R y cz ky (.node l cl kl ll lr) :: ctx) ry) := by
      rw [mem_addrs_plug, ctxAddrs_append]
      simp only [ctxAddrs_cons, Frame.a_R, Frame.s_R, List.mem_append, List.mem_cons, not_or]
      exact ⟨hzR2.2.1, hzR2.2.2, hzR2.1, hzL, hzc⟩
    rcases ctxR with _ | ⟨f, ctxR⟩
    · simp only [plug_nil] at hplugR
      subst hplugR
      simp only [addr_node] at hmin r1
      obtain ⟨s1, e1, Sp⟩ := successor_near_spec W
      obtain ⟨sA, eA, eB⟩ := Option.bind_eq_some.1 e1
      obtain ⟨s2, T2, e2, hW, hG⟩ :=
        delete_two_finish (D := []) Gy hkb Sp.whole Sp.door hzfin hz1
      refine ⟨s2, T2, ?_, hW, hG⟩
      simp only [List.nil_append, top_cons, Frame.a_R] at r4
      simp only [deleteTwoChildren, r1, addr_node, minimum, hmin, r2, r3, r4, if_true,
        Option.bind_eq_bind, Option.some_bind, eA, eB, e2]
    · have hne : ¬ f.a = z := by
        intro h
        apply hzR2.2.2
        rw [← h]
        simp
      obtain ⟨s1, e1, Sp1⟩ := transplant_right_spec Wy
      have W1 : Whole s1 (plug ctx (.node z cz kz (.node l cl kl ll lr)
          (plug (f :: ctxR) ry))) := by
        have := Sp1.whole
        rwa [plug_append] at this
      obtain ⟨ra, rc, rk, rl, rr, hR2⟩ := plug_ne_nil_node f ctxR ry
      rw [hR2] at W1
      have hy : s1.mem y = some ⟨ky, cy, top ((f :: ctxR) ++ .R z cz kz (.node l cl kl ll lr)
          :: ctx), addr Tree.leaf, addr ry⟩ := by
        rw [Sp1.kept]; exact Wy.read
      have hfresh : y ∉ addrs (plug ctx (.node z cz kz (.node l cl kl ll lr)
          (.node ra rc rk rl rr))) := by
        rw [← hR2]
        have : plug ctx (.node z cz kz (.node l cl kl ll lr) (plug (f :: ctxR) ry)) =
            plug ((f :: ctxR) ++ .R z cz kz (.node l cl kl ll lr) :: ctx) ry := by
          rw [plug_append]; rfl
        rw [this, mem_addrs_plug]
        exact fun h => h.elim hyr hyc
      have hy2 : 2 ≤ y ∧ y < s1.next := by
        have := Wy.lo y (mem_addrs_plug.2 (Or.inl (by simp)))
        rw [Sp1.next]
        exact this
      obtain ⟨s2, e2, S2, -⟩ := successor_far_spec W1 hy hfresh hy2
      obtain ⟨sA, eA, eB⟩ := Option.bind_eq_some.1 e2
      have W2 : Whole s2 (plug ((f :: ctxR) ++ .R y cz ky (.node l cl kl ll lr) :: ctx) ry) := by
        rw [plug_append, hR2]
        exact S2.whole
      have d2 := door_keep Sp1.door S2.sent W2 rfl
      obtain ⟨s3, T3, e3, hW, hG⟩ := delete_two_finish Gy hkb W2 d2 hzfin hz1
      refine ⟨s3, T3, ?_, hW, hG⟩
      simp only [List.cons_append, top_cons] at r4
      simp only [deleteTwoChildren, r1, addr_node, minimum, hmin, r2, r3, r4, hne, if_false,
        Option.bind_eq_bind, Option.some_bind, e1, eA, eB, e3]

/-- One call of `deleteNode` on a state that holds a good tree gives a state that holds
a good tree. -/
theorem deleteNode_good {s : RedBlackTree} {T : Tree} (W : Whole s T) (G : Good T)
    (key : Int) : ∃ s2 T2, deleteNode s key = some s2 ∧ Whole s2 T2 ∧ Good T2 := by
  have W0 : Whole s (plug [] T) := W
  have hs := searchLoop_spec key s T [] s.next W0 (by have := W.size_lt; omega)
  have hplug := plug_findPath key T []
  have hsearch : search s key = some (addr (findPath key T []).2) := by
    rw [search, W.root]; exact hs
  rcases findPath_key key T [] with hu | ⟨a, cc, l, r, hu⟩
  · refine ⟨s, T, ?_, W, G⟩
    simp only [deleteNode, hsearch, hu, addr_leaf, W.nil, Option.bind_eq_bind,
      Option.some_bind, if_true]
  · rw [hu] at hplug hsearch
    simp only [plug_nil] at hplug
    have Wz : Whole s (plug (findPath key T []).1 (.node a cc key l r)) := by
      rw [hplug]; exact W
    have Gz : Good (plug (findPath key T []).1 (.node a cc key l r)) := by
      rw [hplug]; exact G
    obtain ⟨ha1, -, -, -⟩ := Wz.focus_fresh
    have r1 : colorOf s a = some cc :=
      Whole.colorOf (findPath key T []).1 (t := .node a cc key l r) Wz
    have r2 : leftOf s a = some (addr l) := Whole.leftOf _ Wz
    have r3 : rightOf s a = some (addr r) := Whole.rightOf _ Wz
    simp only [addr_node] at hsearch
    cases l with
    | leaf =>
      obtain ⟨s2, T2, e, h⟩ := delete_noLeft Wz Gz
      obtain ⟨s1, e1, e2⟩ := Option.bind_eq_some.1 e
      refine ⟨s2, T2, ?_, h⟩
      simp only [deleteNode, hsearch, W.nil, ha1, r1, r2, r3, addr_leaf, Option.bind_eq_bind,
        Option.some_bind, if_true, if_false, e1, e2]
    | node la lc lk ll lr =>
      have hla : ¬ la = 1 := by
        have := Wz.lo la (mem_addrs_plug.2 (Or.inl (by simp)))
        omega
      cases r with
      | leaf =>
        obtain ⟨s2, T2, e, h⟩ := delete_noRight Wz Gz
        obtain ⟨s1, e1, e2⟩ := Option.bind_eq_some.1 e
        refine ⟨s2, T2, ?_, h⟩
        simp only [addr_node] at e1 e2
        simp only [deleteNode, hsearch, W.nil, ha1, r1, r2, r3, addr_leaf, addr_node, hla,
          Option.bind_eq_bind, Option.some_bind, if_true, if_false, e1, e2]
      | node ra rc rk rl rr =>
        have hra : ¬ ra = 1 := by
          have := Wz.lo ra (mem_addrs_plug.2 (Or.inl (by simp)))
          omega
        obtain ⟨s2, T2, e, h⟩ := delete_two Wz Gz (by simp) (by simp)
        refine ⟨s2, T2, ?_, h⟩
        simp only [deleteNode, hsearch, W.nil, ha1, r1, r2, r3, addr_node, hla, hra,
          Option.bind_eq_bind, Option.some_bind, if_false, e]

/-- The traversal of `inorderHelper` reads the tree that the state holds. -/
theorem readTree_spec (s : RedBlackTree) (hnil : s.NIL = 1) :
    ∀ (t : Tree) (p fuel : Nat), Rep s.mem p t → (∀ a ∈ addrs t, 2 ≤ a) →
      (addrs t).length < fuel → readTree s fuel (addr t) = some t := by
  intro t
  induction t with
  | leaf =>
    intro p fuel _ _ hf
    obtain ⟨fuel, rfl⟩ : ∃ k, fuel = k + 1 := ⟨fuel - 1, by omega⟩
    simp only [readTree, addr_leaf, hnil, if_true]
  | node a c k l r ihl ihr =>
    intro p fuel hr hlo hf
    obtain ⟨fuel, rfl⟩ : ∃ k, fuel = k + 1 := ⟨fuel - 1, by omega⟩
    simp only [addrs_node, List.length_cons, List.length_append] at hf
    obtain ⟨h1, h2, h3⟩ := hr
    have ha : ¬ a = 1 := by
      have := hlo a (by simp)
      omega
    have e1 := ihl a fuel h2 (fun b hb => hlo b (by simp [hb])) (by omega)
    have e2 := ihr a fuel h3 (fun b hb => hlo b (by simp [hb])) (by omega)
    simp only [readTree, addr_node, hnil, ha, if_false, h1, Option.some_bind, e1, e2]

theorem Whole.treeOf {s : RedBlackTree} {T : Tree} (W : Whole s T) :
    RedBlack.treeOf s = some T := by
  rw [RedBlack.treeOf, W.root]
  exact readTree_spec s W.nil T 1 s.next W.rep (fun a ha => (W.lo a ha).1)
    (by have := W.size_lt; omega)

theorem createRedBlackTree_whole : Whole createRedBlackTree .leaf :=
  ⟨rfl, rfl, trivial, List.nodup_nil, fun _ h => by simp at h, ⟨_, rfl, rfl⟩, le_refl 2⟩

theorem good_leaf : Good .leaf :=
  ⟨trivial, rfl, List.sorted_nil⟩

/-- Any sequence of calls keeps a good tree. -/
theorem runOps_good (ops : List Op) :
    ∀ (s : RedBlackTree) (T : Tree), Whole s T → Good T →
      ∃ s2 T2, runOps ops s = some s2 ∧ Whole s2 T2 ∧ Good T2 := by
  induction ops with
  | nil => intro s T W G; exact ⟨s, T, rfl, W, G⟩
  | cons op ops ih =>
    intro s T W G
    cases op with
    | insert key =>
      obtain ⟨s1, T1, e1, W1, G1⟩ := insert_good W G key
      obtain ⟨s2, T2, e2, h⟩ := ih s1 T1 W1 G1
      exact ⟨s2, T2, by simp only [runOps, e1, Option.some_bind, e2], h⟩
    | deleteNode key =>
      obtain ⟨s1, T1, e1, W1, G1⟩ := deleteNode_good W G key
      obtain ⟨s2, T2, e2, h⟩ := ih s1 T1 W1 G1
      exact ⟨s2, T2, by simp only [runOps, e1, Option.some_bind, e2], h⟩

theorem Ok.noRedRed {T : Tree} (h : Ok T) : NoRedRed T := by
  induction T with
  | leaf => trivial
  | node a c k l r ihl ihr =>
    rw [Ok_node] at h
    exact ⟨h.2.2.2, ihl h.1, ihr h.2.1⟩

theorem Ok.blackCounts {T : Tree} (h : Ok T) : ∀ n ∈ blackCounts T, n = bh T := by
  induction T with
  | leaf =>
    intro n hn
    simpa [RedBlack.blackCounts] using hn
  | node a c k l r ihl ihr =>
    rw [Ok_node] at h
    intro n hn
    simp only [RedBlack.blackCounts, List.mem_map, List.mem_append] at hn
    obtain ⟨m, hm, rfl⟩ := hn
    rw [bh_node]
    rcases hm with hm | hm
    · rw [ihl h.1 m hm]
    · rw [ihr h.2.1 m hm, h.2.2.1]

/-- C28: starting from `createRedBlackTree()`, any finite sequence of `insert` and
`deleteNode` calls runs to its end, and in the state it gives the tree below the root
pointer has a BLACK root, no RED node with a RED child, the same number of BLACK nodes
on every path from the root to the sentinel, and its keys, in the order of the in-order
traversal, non-decreasing. -/
theorem C28_red_black_properties (ops : List Op) :
    ∃ s T, runOps ops createRedBlackTree = some s ∧ treeOf s = some T ∧
      colorOf s s.root = some .BLACK ∧ rootColor T = .BLACK ∧ NoRedRed T ∧
      (∃ n, ∀ c ∈ blackCounts T, c = n) ∧ (inorder T).Sorted (· ≤ ·) := by
  obtain ⟨s, T, e, W, G⟩ := runOps_good ops createRedBlackTree .leaf
    createRedBlackTree_whole good_leaf
  refine ⟨s, T, e, W.treeOf, ?_, G.black, G.ok.noRedRed, ⟨bh T, G.ok.blackCounts⟩, G.sorted⟩
  have := Whole.colorOf [] (t := T) W
  rw [W.root, this, G.black]

end RedBlack
